import Mathlib

/-!
# cubefs-for-android, package `lib/libfs`: the handle table, the block cache and the dentry cache

A shallow embedding of the Go sources `filecache.go`, `cache.go`, `wcache.go`,
`rcache.go`, `rwcache.go`, `write.go`, `read.go`, `dentrycache.go`, of
`lib/cache/lru.go`, and of the parts of `file.go`, `stat.go`, `rename.go`,
`rm.go` and `mount.go` that call them.

Conventions of the embedding.

* A Go call that ends abnormally returns `Except.error` with a `Fault`; a Go
  `error` result is an `Option GoError` (`none` is `nil`).
* Go maps are entry lists (`GoMap`); the order of the entries stands for the
  unspecified iteration order of the Go map.
* `*Buffer` pointers are modelled by ownership: a buffer value lives either in
  the free list of its cache or in exactly one `BufferMap`; the LRU list holds
  the pool ids of its members and `Buffer.elm` records membership.
* Mutexes (`sync.RWMutex`) guard single map or list accesses and are not
  modelled; the per-block lock table `LockMap` is.
* Statistics (`Mount.st`) and logging have no effect on any modelled value and
  are left out.
* The clock `time.Now()` is a parameter `now` of the methods that read it: the
  `UnixNano` value of the reading. A `time.Duration` is its number of
  nanoseconds.
* The list `dlist` of the LRU cache owns the nodes; the map `cacheMap`, which
  points into the list, is read off the list.
-/

namespace Libfs

/-! ## Go run-time conventions -/

/-- Abnormal endings of a Go call. -/
inductive Fault where
  /-- The `panic(nil)` raised by a failing `Assert`. -/
  | assert
  /-- An explicit `panic(...)` statement. -/
  | panic
  /-- A run-time panic: index out of range, nil dereference, division by zero. -/
  | runtime
  /-- A spin-wait on a block lock that the calling goroutine cannot end itself. -/
  | blocked
deriving DecidableEq, Repr

/-- A Go `error` value other than `nil`. -/
inductive GoError where
  /-- A `proto.Errno`. -/
  | errno (e : Int)
  /-- An error made by `fmt.Errorf` or by the transport, without an errno. -/
  | other (msg : String)
  /-- An error that wraps another one (`errors.Unwrap` gives `inner`). -/
  | wrap (msg : String) (inner : GoError)
deriving DecidableEq, Repr

/-- A Go map with `uint64` keys: the list of its entries. `get` reads the first entry of a
key, `set` overwrites it in place or appends a new entry, `del` removes the key. -/
structure GoMap (β : Type) where
  entries : List (Nat × β)
deriving DecidableEq, Repr

/-- The lookup `m[k]` on the entry list. -/
def GoMap.getL {β : Type} : List (Nat × β) → Nat → Option β
  | [], _ => none
  | (k1, v) :: t, k => if k1 = k then some v else GoMap.getL t k

/-- The assignment `m[k] = v` on the entry list. -/
def GoMap.setL {β : Type} : List (Nat × β) → Nat → β → List (Nat × β)
  | [], k, v => [(k, v)]
  | (k1, v1) :: t, k, v => if k1 = k then (k, v) :: t else (k1, v1) :: GoMap.setL t k v

/-- The empty map `make(map[uint64]T)`. -/
def GoMap.empty {β : Type} : GoMap β := ⟨[]⟩

/-- The lookup `v, ok := m[k]`: `none` when `ok` is false. -/
def GoMap.get {β : Type} (m : GoMap β) (k : Nat) : Option β := GoMap.getL m.entries k

/-- The assignment `m[k] = v`. -/
def GoMap.set {β : Type} (m : GoMap β) (k : Nat) (v : β) : GoMap β := ⟨GoMap.setL m.entries k v⟩

/-- The statement `delete(m, k)`. -/
def GoMap.del {β : Type} (m : GoMap β) (k : Nat) : GoMap β :=
  ⟨m.entries.filter (fun p => !decide (p.1 = k))⟩

/-- The keys in iteration order (`for k := range m`). -/
def GoMap.keys {β : Type} (m : GoMap β) : List Nat := m.entries.map Prod.fst

/-- The size `len(m)`. -/
def GoMap.len {β : Type} (m : GoMap β) : Nat := m.entries.length

/-- The function `Assert` of `cache.go`: `panic(nil)` unless `bOk`. -/
def Assert (bOk : Bool) : Except Fault Unit :=
  if bOk then .ok () else .error .assert

abbrev Byte := Nat

/-- The width of `uint32`. -/
abbrev U32 : Nat := 2 ^ 32

/-- The width of `uint64`. -/
abbrev U64 : Nat := 2 ^ 64

/-! ## `lib/proto`: error numbers -/

/-- The constant `SUCCESS` of `err_code.go`. -/
def SUCCESS : Int := 0

/-- The constant `E_UTIL_FAULT` of `err_code.go` (`E_UTIL_ERRNO_FLAG - 0`). -/
def E_UTIL_FAULT : Int := -500

/-- Modelled from the spec: the POSIX errno constants of `lib/proto` (`E_POSIX_*`), whose
declaration is not among the sources; the values follow the POSIX numbering and only their
being pairwise distinct and different from `SUCCESS` is used. -/
def E_POSIX_EPERM : Int := 1

/-- Modelled from the spec: see `E_POSIX_EPERM`. -/
def E_POSIX_ENOENT : Int := 2

/-- Modelled from the spec: see `E_POSIX_EPERM`. -/
def E_POSIX_EIO : Int := 5

/-- Modelled from the spec: see `E_POSIX_EPERM`. -/
def E_POSIX_EBADF : Int := 9

/-- Modelled from the spec: see `E_POSIX_EPERM`. -/
def E_POSIX_EAGAIN : Int := 11

/-- Modelled from the spec: see `E_POSIX_EPERM`. -/
def E_POSIX_EEXIST : Int := 17

/-- Modelled from the spec: see `E_POSIX_EPERM`. -/
def E_POSIX_ENOTEMPTY : Int := 39

/-- Modelled from the spec: see `E_POSIX_EPERM`. -/
def E_POSIX_ENOTSUP : Int := 95

/-- The loop of `ToErrno` and `TryToErrno`: the first `Errno` on the unwrap chain. -/
def GoError.firstErrno : GoError → Option Int
  | .errno e => some e
  | .other _ => none
  | .wrap _ inner => inner.firstErrno

/-- The function `ToErrno` of `err_code.go`. -/
def ToErrno (err : Option GoError) : Int :=
  match err with
  | none => SUCCESS
  | some e =>
    match e.firstErrno with
    | some res => res
    | none => E_UTIL_FAULT

/-- The function `TryToErrno` of `err_code.go`. -/
def TryToErrno (err : Option GoError) : Option GoError :=
  match err with
  | none => none
  | some e =>
    match e.firstErrno with
    | some res => some (.errno res)
    | none => some e

/-- The function `toErr` of `mount.go`. -/
def toErr (err : Option GoError) (code : Int) : Option GoError :=
  match TryToErrno err with
  | some (.errno errno) => some (.errno errno)
  | err1 =>
    if err1 = none ∧ code = 0 then none
    else if code = 1001 then some (.errno E_POSIX_EAGAIN)
    else if code = 1002 then some (.errno E_POSIX_EEXIST)
    else if code = 1003 then some (.errno E_POSIX_ENOENT)
    else if code = 1004 then some (.errno E_POSIX_ENOTSUP)
    else if code = 1005 then some (.errno E_POSIX_EIO)
    else if code = 1006 then some (.errno E_POSIX_ENOTEMPTY)
    else if code = 1007 then some (.errno E_POSIX_EPERM)
    else some (.errno E_POSIX_EIO)

/-! ## `filecache.go`: the handle table -/

/-- The value of `syscall.O_DIRECT` (linux/amd64; the Go standard library, not this
repository, fixes it per platform). -/
def O_DIRECT : Nat := 0x4000

/-- The struct `FileEntry`. The fields `Owner`, `Pid`, `LastAccessTime` and `close`, which no
modelled operation reads, are left out. -/
structure FileEntry where
  Id : Nat
  BlockSize : Nat
  Handle : Int
  FilePath : String
  OpenFlag : Nat
  Mode : Nat
  DirectIO : Bool
deriving DecidableEq, Repr

/-- The method `fileRefer.AddRef`. -/
def fileRefer.AddRef (fr : GoMap Int) (Id : Nat) : GoMap Int :=
  match fr.get Id with
  | none => fr.set Id 1
  | some ref => fr.set Id (ref + 1)

/-- The method `fileRefer.DelRef`. -/
def fileRefer.DelRef (fr : GoMap Int) (Id : Nat) : Except Fault (GoMap Int) := do
  let ok := (fr.get Id).isSome
  let ref := (fr.get Id).getD 0
  Assert (ok && decide (ref ≥ 1))
  if ref = 1 then
    pure (fr.del Id)
  else
    pure (fr.set Id (ref - 1))

/-- The method `fileRefer.LastRef`. -/
def fileRefer.LastRef (fr : GoMap Int) (Id : Nat) : Except Fault Bool := do
  let ok := (fr.get Id).isSome
  let ref := (fr.get Id).getD 0
  Assert (ok && decide (ref ≥ 1))
  pure (decide (ref = 1))

/-- The struct `FileCache`; `fileEntryVec[i] = none` is the nil slot. -/
structure FileCache where
  fileEntryIndex : Nat
  fileEntryVecSize : Nat
  fileEntryVec : List (Option FileEntry)
  fileRefer : GoMap Int
deriving DecidableEq

/-- The function `NewFileCache`; `fileEntryVecSize` is the `uint32` conversion of the `int`. -/
def NewFileCache (openFileMax : Nat) : FileCache :=
  { fileEntryIndex := 0
    fileEntryVecSize := openFileMax % U32
    fileEntryVec := List.replicate openFileMax none
    fileRefer := GoMap.empty }

/-- The loop of `GetMinEntryIndex`; `fuel` is the number of iterations left before
`next` reaches `fileEntryVecSize`. -/
def FileCache.GetMinEntryIndexLoop (fc : FileCache) : Nat → Nat → Except Fault Nat
  | 0, next => .ok next
  | fuel + 1, next =>
    if next < fc.fileEntryVecSize then
      match fc.fileEntryVec[next]? with
      | none => .error .runtime
      | some none => .ok next
      | some (some _) => fc.GetMinEntryIndexLoop fuel (next + 1)
    else .ok next

/-- The method `FileCache.GetMinEntryIndex`. -/
def FileCache.GetMinEntryIndex (fc : FileCache) : Except Fault Nat :=
  fc.GetMinEntryIndexLoop (fc.fileEntryVecSize - fc.fileEntryIndex) fc.fileEntryIndex

/-- The entry that `NewFile` stores in slot `idx`. -/
def FileCache.storedEntry (idx : Nat) (fileEntry : FileEntry) : FileEntry :=
  { Id := fileEntry.Id
    BlockSize := fileEntry.BlockSize
    Handle := idx
    FilePath := fileEntry.FilePath
    OpenFlag := fileEntry.OpenFlag
    Mode := fileEntry.Mode
    DirectIO := decide (fileEntry.OpenFlag &&& O_DIRECT > 0) }

/-- The method `FileCache.NewFile`; `fd` is the value of `*fd` before the call and the second
component of the result its value after the call. -/
def FileCache.NewFile (fc : FileCache) (fd : Int) (fileEntry : FileEntry) :
    Except Fault (Option GoError × Int × FileCache) :=
  if fc.fileEntryIndex ≥ fc.fileEntryVecSize then
    .ok (some (.other "NewFile fail!"), fd, fc)
  else
    match fc.fileEntryVec[fc.fileEntryIndex]? with
    | none => .error .runtime
    | some (some _) => .error .panic
    | some none =>
      let e := FileCache.storedEntry fc.fileEntryIndex fileEntry
      let fc1 : FileCache :=
        { fc with
          fileEntryVec := fc.fileEntryVec.set fc.fileEntryIndex (some e)
          fileRefer := if !e.DirectIO then fileRefer.AddRef fc.fileRefer fileEntry.Id
                       else fc.fileRefer }
      match fc1.GetMinEntryIndex with
      | .error f => .error f
      | .ok next => .ok (none, (fc.fileEntryIndex : Int), { fc1 with fileEntryIndex := next })

/-- The method `FileCache.GetFileEntry`. -/
def FileCache.GetFileEntry (fc : FileCache) (handle : Nat) :
    Except Fault (Option FileEntry × Option GoError) :=
  if handle ≥ fc.fileEntryVecSize then
    .ok (none, some (.other "GetFileEntry invalid handle"))
  else
    match fc.fileEntryVec[handle]? with
    | none => .error .runtime
    | some none => .ok (none, some (.other "GetFileEntry invalid handle"))
    | some (some e) => .ok (some e, none)

/-- The method `FileCache.CloseFile`. -/
def FileCache.CloseFile (fc : FileCache) (handle : Nat) :
    Except Fault (Option GoError × FileCache) :=
  if handle ≥ fc.fileEntryVecSize then
    .ok (some (.other "fileCache.CloseFile, invalid handle"), fc)
  else
    match fc.fileEntryVec[handle]? with
    | none => .error .runtime
    | some none => .ok (some (.other "fileCache.CloseFile, invalid handle"), fc)
    | some (some e) =>
      match (if !e.DirectIO then fileRefer.DelRef fc.fileRefer e.Id else .ok fc.fileRefer) with
      | .error f => .error f
      | .ok refer =>
        .ok (none,
          { fc with
            fileRefer := refer
            fileEntryVec := fc.fileEntryVec.set handle none
            fileEntryIndex := if handle < fc.fileEntryIndex then handle else fc.fileEntryIndex })

/-- The method `FileCache.IsLastRefer`. -/
def FileCache.IsLastRefer (fc : FileCache) (fileEntry : FileEntry) : Except Fault Bool :=
  fileRefer.LastRef fc.fileRefer fileEntry.Id

/-- The handle tables that `NewFile` and `CloseFile` calls produce from `NewFileCache n`. -/
inductive FileCache.Reachable (n : Nat) : FileCache → Prop where
  | init : FileCache.Reachable n (NewFileCache n)
  | newFile {fc fc1 : FileCache} {fd fd1 : Int} {fe : FileEntry} {err : Option GoError} :
      FileCache.Reachable n fc → fc.NewFile fd fe = .ok (err, fd1, fc1) →
      FileCache.Reachable n fc1
  | closeFile {fc fc1 : FileCache} {handle : Nat} {err : Option GoError} :
      FileCache.Reachable n fc → fc.CloseFile handle = .ok (err, fc1) →
      FileCache.Reachable n fc1

/-- The smallest index with an empty slot, or the number of slots when none is empty. -/
def FileCache.firstEmpty (fc : FileCache) : Nat :=
  fc.fileEntryVec.findIdx (fun o => o.isNone)

/-- Whether a slot holds a handle of file `id` that is not direct-IO. -/
def FileCache.isCachedHandle (id : Nat) (o : Option FileEntry) : Bool :=
  match o with
  | some e => decide (e.Id = id) && !e.DirectIO
  | none => false

/-- The number of occupied slots whose entry has file id `id` and is not direct-IO. -/
def FileCache.cachedHandles (fc : FileCache) (id : Nat) : Nat :=
  fc.fileEntryVec.countP (FileCache.isCachedHandle id)

/-- The invariant of the handle table with `n` slots. -/
structure FileCache.Inv (n : Nat) (fc : FileCache) : Prop where
  size : fc.fileEntryVecSize = n
  len : fc.fileEntryVec.length = n
  index : fc.fileEntryIndex = fc.firstEmpty
  refs : ∀ id, fc.fileRefer.get id =
    if fc.cachedHandles id = 0 then none else some (fc.cachedHandles id : Int)
  entries : ∀ (i : Nat) (e : FileEntry), fc.fileEntryVec[i]? = some (some e) →
    e.Handle = (i : Int) ∧ e.DirectIO = decide (e.OpenFlag &&& O_DIRECT > 0)


/-! ## Paths and dentries

A Go string is modelled by a Lean string, and an index into it counts characters. The sources
index paths only against `'/'`, which is one byte, so the tests and slices below select the
same part of a path as the byte indices of Go. -/

/-- The function `strings.HasPrefix` of the Go standard library. -/
def strings.HasPrefix (s pre : String) : Bool :=
  pre.data.isPrefixOf s.data

/-- The function `strings.LastIndex` of the Go standard library, for a separator of one
character: the index of its last occurrence, or `-1`. -/
def strings.LastIndex (s : String) (sep : Char) : Int :=
  match (List.range s.data.length).reverse.find? (fun i => decide (s.data[i]? = some sep)) with
  | some i => (i : Int)
  | none => -1

/-- The slice expression `s[:i]`; an index out of range is a run-time panic. -/
def goSliceTo (s : String) (i : Int) : Except Fault String :=
  if 0 ≤ i ∧ i ≤ (s.data.length : Int) then .ok (String.mk (s.data.take i.toNat))
  else .error .runtime

/-- The last element of `strings.Split(path, "/")`: what follows the last `'/'`. -/
def lastPathElement (path : String) : String :=
  String.mk (path.data.reverse.takeWhile (fun ch => decide (ch ≠ '/'))).reverse

/-- The struct `InoInfo` of `proxy_proto.go`. -/
structure InoInfo where
  Inode : Nat := 0
  Mode : Nat := 0
  Nlink : Nat := 0
  Size : Nat := 0
  Uid : Nat := 0
  Gid : Nat := 0
  MTime : Nat := 0
  CTime : Nat := 0
  ATime : Nat := 0
  Target : String := ""
  Owner : String := ""
  Group : String := ""
deriving DecidableEq, Repr

/-- The struct `Dentry` of `proxy_proto.go`; `Typ` is the field `Type` and `Info = none` is the
nil pointer. -/
structure Dentry where
  Name : String
  Inode : Nat
  Typ : Nat
  Info : Option InoInfo
deriving DecidableEq, Repr

/-- The constant `DentryTypeFile`. -/
def DentryTypeFile : Nat := 1

/-- The constant `DentryTypeDir`. -/
def DentryTypeDir : Nat := 2

/-- The constant `DentryTypeLink`. -/
def DentryTypeLink : Nat := 3

/-- The constant `fs.ModeDir` of the Go standard library. -/
def fs.ModeDir : Nat := 2 ^ 31

/-- The constant `fs.ModeType` of the Go standard library: the bits `ModeDir`, `ModeSymlink`,
`ModeNamedPipe`, `ModeSocket`, `ModeDevice`, `ModeCharDevice` and `ModeIrregular`. -/
def fs.ModeType : Nat := 2 ^ 31 + 2 ^ 27 + 2 ^ 25 + 2 ^ 24 + 2 ^ 26 + 2 ^ 21 + 2 ^ 19

/-- The method `fs.FileMode.IsDir`. -/
def fs.IsDir (m : Nat) : Bool := decide (m &&& fs.ModeDir ≠ 0)

/-- The method `fs.FileMode.IsRegular`. -/
def fs.IsRegular (m : Nat) : Bool := decide (m &&& fs.ModeType = 0)

/-! ## `lib/cache/lru.go`: the LRU cache -/

/-- The value that two's complement `int64` arithmetic gives for the integer `x`. -/
def toInt64 (x : Int) : Int :=
  (x + 2 ^ 63) % 2 ^ 64 - 2 ^ 63

/-- The struct `CacheNode`. `Expiration` is a clock reading (`UnixNano`), `0` for none. -/
structure CacheNode (κ ν : Type) where
  Key : κ
  Value : ν
  Expiration : Int
deriving DecidableEq, Repr

/-- The struct `LRUCache` as `NewLRUCache` builds it, so `dlist` and `cacheMap` are not nil.
`dlist` holds the nodes, front first. `cacheMap` points from a key to its element of `dlist`;
the model reads it off the list, see `LRUCache.cacheMap`. -/
structure LRUCache (κ ν : Type) where
  Capacity : Int
  dlist : List (CacheNode κ ν)
deriving DecidableEq, Repr

/-- The function `NewLRUCache`; `none` is the nil pointer. -/
def NewLRUCache {κ ν : Type} (cap : Int) : Option (LRUCache κ ν) :=
  if cap ≤ 0 then none else some { Capacity := cap, dlist := [] }

/-- The method `LRUCache.Size`. -/
def LRUCache.Size {κ ν : Type} (lru : LRUCache κ ν) : Int :=
  lru.dlist.length

/-- The lookup `lru.cacheMap[k]`: the element of `dlist` that carries the key `k`. -/
def LRUCache.cacheMap {κ ν : Type} [DecidableEq κ] (lru : LRUCache κ ν) (k : κ) :
    Option (CacheNode κ ν) :=
  lru.dlist.find? (fun n => decide (n.Key = k))

/-- The list `dlist` without the element of key `k` (`dlist.Remove(pElement)`). -/
def LRUCache.unlink {κ ν : Type} [DecidableEq κ] (lru : LRUCache κ ν) (k : κ) :
    List (CacheNode κ ν) :=
  lru.dlist.eraseP (fun n => decide (n.Key = k))

/-- The method `LRUCache.SetExpire`, called when the clock `time.Now()` reads `now`
nanoseconds. -/
def LRUCache.SetExpire {κ ν : Type} [DecidableEq κ] (lru : LRUCache κ ν) (k : κ) (v : ν)
    (d : Int) (now : Int) : Option GoError × LRUCache κ ν :=
  let e : Int := if d ≤ 0 then 0 else toInt64 (now + d)
  match lru.cacheMap k with
  | some pElement =>
    (none, { lru with dlist := { pElement with Value := v, Expiration := e } :: lru.unlink k })
  | none =>
    let dlist1 := { Key := k, Value := v, Expiration := e } :: lru.dlist
    if (dlist1.length : Int) > lru.Capacity then (none, { lru with dlist := dlist1.dropLast })
    else (none, { lru with dlist := dlist1 })

/-- The method `LRUCache.Set`. -/
def LRUCache.Set {κ ν : Type} [DecidableEq κ] (lru : LRUCache κ ν) (k : κ) (v : ν)
    (now : Int) : Option GoError × LRUCache κ ν :=
  lru.SetExpire k v 0 now

/-- The method `LRUCache.Get`, called when the clock reads `now`: the value (`none` is the nil
interface), the flag `ret`, the error, and the cache afterwards. -/
def LRUCache.Get {κ ν : Type} [DecidableEq κ] (lru : LRUCache κ ν) (k : κ) (now : Int) :
    (Option ν × Bool × Option GoError) × LRUCache κ ν :=
  match lru.cacheMap k with
  | some pElement =>
    let e := pElement.Expiration
    if e = 0 ∨ now < e then
      ((some pElement.Value, true, none), { lru with dlist := pElement :: lru.unlink k })
    else ((none, false, none), lru)
  | none => ((none, false, none), lru)

/-- The method `LRUCache.Remove`. -/
def LRUCache.Remove {κ ν : Type} [DecidableEq κ] (lru : LRUCache κ ν) (k : κ) :
    Bool × LRUCache κ ν :=
  match lru.cacheMap k with
  | some pElement => (true, { lru with dlist := lru.unlink pElement.Key })
  | none => (false, lru)

/-- The method `LRUCache.GetKeys`. The keys come in the order of `dlist`; Go ranges over
the map in an order of its own. -/
def LRUCache.GetKeys {κ ν : Type} (lru : LRUCache κ ν) (k : κ) (matchFunc : κ → κ → Bool) :
    List κ :=
  (lru.dlist.map (fun n => n.Key)).filter (fun cacheKey => matchFunc cacheKey k)

/-! ## `dentrycache.go` -/

/-- The struct `DentryCache`; `dentryCache = none` is the nil pointer that `NewLRUCache`
returns for a capacity of zero or less. The keys are paths and the values are dentries. -/
structure DentryCache where
  dentryCache : Option (LRUCache String Dentry)
  expireMs : Int
deriving DecidableEq, Repr

/-- The function `NewDentryCache`. -/
def NewDentryCache (cacheSize expireTimeMs : Int) : DentryCache :=
  { dentryCache := NewLRUCache cacheSize, expireMs := expireTimeMs }

/-- The method `DentryCache.Set`, called when the clock reads `now`; the duration is
`time.Duration(expireMs) * time.Millisecond` in `int64` arithmetic. -/
def DentryCache.Set (cache : DentryCache) (k : String) (v : Dentry) (now : Int) :
    Option GoError × DentryCache :=
  match cache.dentryCache with
  | none => (some (GoError.other "0 Capacity"), cache)
  | some lru =>
    let r := lru.SetExpire k v (toInt64 (toInt64 cache.expireMs * 1000000)) now
    (r.1, { cache with dentryCache := some r.2 })

/-- The method `DentryCache.Get`, called when the clock reads `now`. -/
def DentryCache.Get (cache : DentryCache) (k : String) (now : Int) :
    (Option Dentry × Bool × Option GoError) × DentryCache :=
  match cache.dentryCache with
  | none => ((none, false, some (GoError.other "0 Capacity")), cache)
  | some lru =>
    let r := lru.Get k now
    (r.1, { cache with dentryCache := some r.2 })

/-- The method `DentryCache.Remove`. -/
def DentryCache.Remove (cache : DentryCache) (k : String) : Bool × DentryCache :=
  match cache.dentryCache with
  | none => (false, cache)
  | some lru =>
    let r := lru.Remove k
    (r.1, { cache with dentryCache := some r.2 })

/-- The method `DentryCache.RemovePrefix`. -/
def DentryCache.RemovePrefix (cache : DentryCache) (pre : String) :
    Option GoError × DentryCache :=
  match cache.dentryCache with
  | none => (none, cache)
  | some lru =>
    let rtKeys := lru.GetKeys pre (fun cacheKey p => strings.HasPrefix cacheKey p)
    (none, { cache with dentryCache := some (rtKeys.foldl (fun l k => (l.Remove k).2) lru) })

/-! ## The proxy behind `api.ProxyClient` -/

/-- Go `copy(dst, src)`: the first `min(len(dst), len(src))` bytes of `dst` are overwritten;
the result is the new content of `dst`. -/
def goCopy (dst src : List Byte) : List Byte :=
  src.take dst.length ++ dst.drop src.length

/-- Go `copy(dst[pos:], src)` for `pos ≤ len(dst)`: the new content of `dst`. -/
def goCopyAt (dst : List Byte) (pos : Nat) (src : List Byte) : List Byte :=
  dst.take pos ++ goCopy (dst.drop pos) src

/-- A request that the library sends to the proxy: the methods `Write`, `Read`, `Fsync`,
`Stat`, `Open`, `Rename` and `RmDirTree` of `api.ProxyClient` with their arguments. -/
inductive ProxyCall where
  | Write (id : Nat) (data : List Byte) (offset : Nat)
  | Read (id : Nat) (offset : Nat) (size : Nat)
  | Fsync (id : Nat)
  | Stat (path : String)
  | Open (path : String) (flag : Nat) (mode : Nat)
  | Rename (path : String) (dstPath : String)
  | RmDirTree (path : String)
deriving DecidableEq, Repr

/-- The outcome of one `ProxyClient` method call: `Code` of the response, its payload and the
error `err` that the call returns beside it. The payload is `Data` in a `ReadResponse`, `Id` in
an `OpenResponse` and `Info` (the field `Data`) in a `StatResponse`; a field that the response
does not carry has its zero value. -/
structure ProxyResp where
  Code : Int
  Data : List Byte
  err : Option GoError
  Id : Nat := 0
  Info : InoInfo := {}
deriving DecidableEq, Repr

/-- The proxy client together with the service behind it. `remote` is the service: its reply
to a call, given the calls it received before (latest first). `calls` is the log of the
calls made so far (latest first). -/
structure ProxyClient where
  remote : List ProxyCall → ProxyCall → ProxyResp
  calls : List ProxyCall

/-- One call of a `ProxyClient` method. -/
def ProxyClient.call (p : ProxyClient) (c : ProxyCall) : ProxyResp × ProxyClient :=
  (p.remote p.calls c, { p with calls := c :: p.calls })

/-- The content of a file after `data` is written at `offset`; a gap is filled with zeros. -/
def storeWrite (content : List Byte) (offset : Nat) (data : List Byte) : List Byte :=
  content.take offset ++ List.replicate (offset - content.length) 0 ++ data ++
    content.drop (offset + data.length)

/-- The content of file `id` in a byte store that started from `init` and received `calls`. -/
def storeContent (init : Nat → List Byte) (id : Nat) : List ProxyCall → List Byte
  | [] => init id
  | ProxyCall.Write id1 data offset :: h =>
    if id1 = id then storeWrite (storeContent init id h) offset data
    else storeContent init id h
  | ProxyCall.Read _ _ _ :: h => storeContent init id h
  | ProxyCall.Fsync _ :: h => storeContent init id h
  | ProxyCall.Stat _ :: h => storeContent init id h
  | ProxyCall.Open _ _ _ :: h => storeContent init id h
  | ProxyCall.Rename _ _ :: h => storeContent init id h
  | ProxyCall.RmDirTree _ :: h => storeContent init id h

/-- A proxy that behaves as a byte store: every call succeeds, a write stores its bytes and a
read returns the stored bytes of the requested range. -/
def byteStore (init : Nat → List Byte) : List ProxyCall → ProxyCall → ProxyResp
  | h, ProxyCall.Read id offset size =>
    { Code := 0, Data := ((storeContent init id h).drop offset).take size, err := none }
  | _, ProxyCall.Write _ _ _ => { Code := 0, Data := [], err := none }
  | _, ProxyCall.Fsync _ => { Code := 0, Data := [], err := none }
  | _, ProxyCall.Stat _ => { Code := 0, Data := [], err := none }
  | _, ProxyCall.Open _ _ _ => { Code := 0, Data := [], err := none }
  | _, ProxyCall.Rename _ _ => { Code := 0, Data := [], err := none }
  | _, ProxyCall.RmDirTree _ => { Code := 0, Data := [], err := none }

/-- The method `Writer.Write` of `write.go`. -/
def Writer.Write (id : Nat) (buffer : List Byte) (offset : Nat) (p : ProxyClient) :
    (Nat × Option GoError) × ProxyClient :=
  let size := buffer.length % U32
  let r := p.call (ProxyCall.Write id buffer offset)
  if r.1.err ≠ none then ((0, some (GoError.errno (ToErrno r.1.err))), r.2)
  else if r.1.Code ≠ 0 then ((0, toErr r.1.err r.1.Code), r.2)
  else ((size, none), r.2)

/-- The method `Reader.Read` of `read.go`; the third component is the content of `buffer`
after the call. -/
def Reader.Read (id : Nat) (buffer : List Byte) (offset : Nat) (p : ProxyClient) :
    (Nat × Option GoError × List Byte) × ProxyClient :=
  let size := buffer.length % U32
  let r := p.call (ProxyCall.Read id offset size)
  if r.1.err ≠ none then ((0, some (GoError.errno (ToErrno r.1.err)), buffer), r.2)
  else if r.1.Code ≠ 0 then ((0, toErr r.1.err r.1.Code, buffer), r.2)
  else ((r.1.Data.length, none, goCopy buffer r.1.Data), r.2)

/-! ## `cache.go`: buffers, block operations, file buffers -/

/-- The struct `Buffer`. `elm` tells whether the buffer is linked into the LRU list
(`elm != nil`); `LastUpdateTime` is a clock reading, 0 for `time.Unix(0, 0)`.
`Offset + Len` never exceeds the `uint32` block size in a state the cache produces, so the
`uint32` arithmetic on these two fields is written without wrap-around. -/
structure Buffer where
  Id : Nat
  fe : Option FileEntry
  BlkIdx : Nat
  Offset : Nat
  Len : Nat
  dataBuf : List Byte
  LastUpdateTime : Nat
  elm : Bool
deriving DecidableEq, Repr

/-- The function `NewBuffer`. -/
def NewBuffer (Id : Nat) : Buffer :=
  { Id := Id, fe := none, BlkIdx := 0, Offset := 0, Len := 0, dataBuf := [],
    LastUpdateTime := 0, elm := false }

/-- The method `Buffer.ReSet`. A nil `dataBuf` is the empty list. -/
def Buffer.ReSet (buf : Buffer) (fe : FileEntry) (BlkIdx : Nat) : Except Fault Buffer := do
  let dataBuf :=
    if buf.dataBuf.length % U32 < fe.BlockSize then List.replicate fe.BlockSize 0
    else buf.dataBuf
  Assert (!buf.elm)
  pure { buf with
    fe := some fe, BlkIdx := BlkIdx, Offset := 0, Len := 0, dataBuf := dataBuf,
    LastUpdateTime := 0, elm := false }

/-- The method `Buffer.CanMerge`. -/
def Buffer.CanMerge (buf : Buffer) (Offset : Nat) : Bool :=
  decide (buf.Offset + buf.Len = Offset)

/-- The method `Buffer.MergeData`; `now` is the reading of `time.Now()`. Slicing
`dataBuf[Offset+Len:]` beyond the length is a run-time panic. -/
def Buffer.MergeData (buf : Buffer) (data : List Byte) (now : Nat) : Except Fault Buffer :=
  if buf.Offset + buf.Len > buf.dataBuf.length then .error .runtime
  else
    .ok { buf with
      dataBuf := goCopyAt buf.dataBuf (buf.Offset + buf.Len) data
      Len := buf.Len + data.length
      LastUpdateTime := now }

/-- The method `Buffer.IsFull`. -/
def Buffer.IsFull (buf : Buffer) (BlockSize : Nat) : Except Fault Bool := do
  Assert (decide (buf.Offset + buf.Len ≤ BlockSize))
  pure (decide (buf.Offset + buf.Len = BlockSize))

/-- The method `Buffer.Skip`. -/
def Buffer.Skip (buf : Buffer) (Offset : Nat) : Except Fault Buffer := do
  Assert (decide (buf.Offset = 0))
  pure { buf with Offset := buf.Offset + Offset }

/-- The method `Buffer.GetData`: `dataBuf[Offset : Offset+Len]`. -/
def Buffer.GetData (buf : Buffer) : Except Fault (List Byte) :=
  if buf.Offset + buf.Len > buf.dataBuf.length then .error .runtime
  else .ok ((buf.dataBuf.drop buf.Offset).take buf.Len)

/-- The method `Buffer.GetRangeData`: `dataBuf[Start:End]`. -/
def Buffer.GetRangeData (buf : Buffer) (Start End : Nat) : Except Fault (List Byte) := do
  Assert (decide (buf.Offset ≤ Start))
  Assert (decide (End ≤ buf.Offset + buf.Len))
  if End > buf.dataBuf.length ∨ Start > End then .error .runtime
  else pure ((buf.dataBuf.drop Start).take (End - Start))

/-- The method `Buffer.GetAlignOffset`; a buffer without file entry is a nil dereference.
Block indexes come from `Slice`, which keeps `BlkIdx * BlockSize` below `2^64`. -/
def Buffer.GetAlignOffset (buf : Buffer) : Except Fault Nat :=
  match buf.fe with
  | none => .error .runtime
  | some fe => .ok (buf.BlkIdx * fe.BlockSize)

/-- The method `Buffer.GetFileOffset`. -/
def Buffer.GetFileOffset (buf : Buffer) : Except Fault Nat := do
  let a ← buf.GetAlignOffset
  pure (a + buf.Offset)

/-- The method `Buffer.GetTailOffset`. -/
def Buffer.GetTailOffset (buf : Buffer) : Except Fault Nat := do
  let a ← buf.GetAlignOffset
  pure (a + buf.Offset + buf.Len)

/-- The struct `RWBlockOp`. `rwBuf` holds the bytes of the view `buffer[rwBufPos :
rwBufPos+RwSize]` into the caller buffer; `rwBufPos`, the start of that view, stands for the
base pointer of the Go slice. -/
structure RWBlockOp where
  fe : FileEntry
  Index : Nat
  RwOffset : Nat
  RwSize : Nat
  rwBuf : List Byte
  rwBufPos : Nat
deriving DecidableEq, Repr

/-- The method `RWBlockOp.GetAlignOffset`. -/
def RWBlockOp.GetAlignOffset (op : RWBlockOp) : Nat := op.Index * op.fe.BlockSize

/-- The method `RWBlockOp.GetFileOffset`. -/
def RWBlockOp.GetFileOffset (op : RWBlockOp) : Nat := op.GetAlignOffset + op.RwOffset

/-- The method `RWBlockOp.IsFull`. The sum `RwOffset + RwSize` is written without the
wrap-around of `uint32`: it is the sum of the code for every op with
`RwOffset + RwSize < 2^32`, which holds for the ops that `Slice` makes (they lie inside a
block); for a larger sum the code wraps where this definition fails the assertion. -/
def RWBlockOp.IsFull (op : RWBlockOp) : Except Fault Bool := do
  Assert (decide (op.RwSize = op.rwBuf.length % U32))
  Assert (decide (op.RwOffset + op.RwSize ≤ op.fe.BlockSize))
  pure (decide (op.RwOffset + op.RwSize = op.fe.BlockSize))

/-- The struct `PrefetchWindow`; both ends are `uint64`. -/
structure PrefetchWindow where
  BlkStart : Nat
  BlkEnd : Nat
deriving DecidableEq, Repr

/-- The function `NewPrefetchWindow`. -/
def NewPrefetchWindow : PrefetchWindow := { BlkStart := 0, BlkEnd := 0 }

/-- The method `PrefetchWindow.Size`: the `uint32` conversion of `BlkEnd - BlkStart`. -/
def PrefetchWindow.Size (pw : PrefetchWindow) : Except Fault Nat := do
  Assert (decide (pw.BlkStart ≤ pw.BlkEnd))
  pure ((pw.BlkEnd - pw.BlkStart) % U32)

/-- The method `PrefetchWindow.Shift`. -/
def PrefetchWindow.Shift (pw : PrefetchWindow) (Step : Nat) : PrefetchWindow :=
  { BlkStart := (pw.BlkStart + Step) % U64, BlkEnd := (pw.BlkEnd + Step) % U64 }

/-- The method `PrefetchWindow.Move`; `BlkEnd - BlkStart` is a `uint64` subtraction. -/
def PrefetchWindow.Move (pw : PrefetchWindow) : PrefetchWindow :=
  pw.Shift ((pw.BlkEnd + U64 - pw.BlkStart) % U64)

/-- The method `PrefetchWindow.Extend`. -/
def PrefetchWindow.Extend (pw : PrefetchWindow) (Times : Nat) : PrefetchWindow :=
  { pw with BlkEnd := (pw.BlkStart + ((pw.BlkEnd + U64 - pw.BlkStart) % U64) * Times) % U64 }

/-- The method `PrefetchWindow.Cross`. -/
def PrefetchWindow.Cross (pw rw : PrefetchWindow) : Bool :=
  !(decide (pw.BlkEnd ≤ rw.BlkStart) || decide (rw.BlkEnd ≤ pw.BlkStart))

/-- The constant `WriteLock`. -/
def WriteLock : Nat := 0

/-- The constant `ReadLock`. -/
def ReadLock : Nat := 1

/-- The struct `CacheLock`. -/
structure CacheLock where
  tp : Nat
  refer : Int
deriving DecidableEq, Repr

/-- The struct `FileBuffer`. -/
structure FileBuffer where
  fe : FileEntry
  BufferMap : GoMap Buffer
  LockMap : GoMap CacheLock
  pw : PrefetchWindow
deriving DecidableEq, Repr

/-- The function `NewFileBuffer`. -/
def NewFileBuffer (fe : FileEntry) : FileBuffer :=
  { fe := fe, BufferMap := GoMap.empty, LockMap := GoMap.empty, pw := NewPrefetchWindow }

/-- The method `FileBuffer.GetAllBufferIndex`. -/
def FileBuffer.GetAllBufferIndex (fileBuf : FileBuffer) : List Nat := fileBuf.BufferMap.keys

/-- The method `FileBuffer.UpperIdx`. -/
def FileBuffer.UpperIdx (fileBuf : FileBuffer) : Nat :=
  fileBuf.BufferMap.keys.foldl (fun TailIndex Index => if TailIndex < Index then Index
    else TailIndex) 0

/-- The method `FileBuffer.IsZeroCache`. -/
def FileBuffer.IsZeroCache (fileBuf : FileBuffer) : Bool := decide (fileBuf.BufferMap.len = 0)

/-- The method `FileBuffer.GetBuffer`. -/
def FileBuffer.GetBuffer (fileBuf : FileBuffer) (blkIdx : Nat) : Option Buffer :=
  fileBuf.BufferMap.get blkIdx

/-- The method `FileBuffer.AttachBuffer`. -/
def FileBuffer.AttachBuffer (fileBuf : FileBuffer) (blkIdx : Nat) (buffer : Buffer) :
    Except Fault FileBuffer := do
  Assert (fileBuf.BufferMap.get blkIdx).isNone
  pure { fileBuf with BufferMap := fileBuf.BufferMap.set blkIdx buffer }

/-- The method `FileBuffer.DetachBuffer`. -/
def FileBuffer.DetachBuffer (fileBuf : FileBuffer) (blkIdx : Nat) : FileBuffer :=
  { fileBuf with BufferMap := fileBuf.BufferMap.del blkIdx }

/-- The method `FileBuffer.LockBuffer`. While the block has a lock entry the Go code sleeps
and retries; no step of the caller removes the entry, so that case is `Fault.blocked`. -/
def FileBuffer.LockBuffer (fileBuf : FileBuffer) (blkIdx : Nat) : Except Fault FileBuffer :=
  match fileBuf.LockMap.get blkIdx with
  | some _ => .error .blocked
  | none =>
    .ok { fileBuf with LockMap := fileBuf.LockMap.set blkIdx { tp := WriteLock, refer := 0 } }

/-- The method `FileBuffer.UnLockBuffer`. -/
def FileBuffer.UnLockBuffer (fileBuf : FileBuffer) (blkIdx : Nat) : Except Fault FileBuffer :=
  match fileBuf.LockMap.get blkIdx with
  | none => .error .assert
  | some v => do
    Assert (decide (v.tp = WriteLock) && decide (v.refer = 0))
    pure { fileBuf with LockMap := fileBuf.LockMap.del blkIdx }

/-- The method `FileBuffer.RLockBuffer`. -/
def FileBuffer.RLockBuffer (fileBuf : FileBuffer) (blkIdx : Nat) : Except Fault FileBuffer :=
  match fileBuf.LockMap.get blkIdx with
  | some v =>
    if v.tp = WriteLock then .error .blocked
    else .ok { fileBuf with LockMap := fileBuf.LockMap.set blkIdx { v with refer := v.refer + 1 } }
  | none =>
    .ok { fileBuf with LockMap := fileBuf.LockMap.set blkIdx { tp := ReadLock, refer := 1 } }

/-- The method `FileBuffer.RUnLockBuffer`. -/
def FileBuffer.RUnLockBuffer (fileBuf : FileBuffer) (blkIdx : Nat) : Except Fault FileBuffer :=
  match fileBuf.LockMap.get blkIdx with
  | none => .error .assert
  | some v => do
    Assert (decide (v.tp = ReadLock) && decide (v.refer ≥ 1))
    if v.refer - 1 = 0 then
      pure { fileBuf with LockMap := fileBuf.LockMap.del blkIdx }
    else
      pure { fileBuf with LockMap := fileBuf.LockMap.set blkIdx { v with refer := v.refer - 1 } }

/-- The method `FileBuffer.Wait`: returns once no block lock is held. -/
def FileBuffer.Wait (fileBuf : FileBuffer) : Except Fault Unit :=
  if fileBuf.LockMap.len > 0 then .error .blocked else .ok ()

/-! ## `wcache.go` and `rcache.go`: what both caches declare alike -/

/-- The fields that the structs `WCache` and `RCache` share. `FreeList` and `LruList` are the
two `container/list` lists, front first; `LruList` holds the pool ids (`Buffer.Id`) of its
members. -/
structure BlockCache where
  BufferMax : Nat
  FreeList : List Buffer
  Cache : GoMap FileBuffer
  LruList : List Nat
  ExpireTime : Nat
  Stop : Bool
deriving DecidableEq, Repr

/-- The methods `WCache.AllocBuffer` and `RCache.AllocBuffer`. -/
def BlockCache.AllocBuffer (cache : BlockCache) (fe : FileEntry) (BlkIdx : Nat) :
    Except Fault (Option Buffer × BlockCache) :=
  match cache.FreeList with
  | [] => .ok (none, cache)
  | buf :: rest =>
    match buf.ReSet fe BlkIdx with
    | .error f => .error f
    | .ok buf1 => .ok (some buf1, { cache with FreeList := rest })

/-- The methods `WCache.FreeBuffer` and `RCache.FreeBuffer`. -/
def BlockCache.FreeBuffer (cache : BlockCache) (buf : Buffer) : BlockCache :=
  { cache with FreeList := cache.FreeList ++ [buf] }

/-- The methods `WCache.DoLru` and `RCache.DoLru`; the first component is the buffer after
the call. -/
def BlockCache.DoLru (cache : BlockCache) (buf : Buffer) (now : Nat) : Buffer × BlockCache :=
  if buf.elm then
    ({ buf with LastUpdateTime := now },
      { cache with LruList := buf.Id :: cache.LruList.erase buf.Id })
  else
    ({ buf with LastUpdateTime := now, elm := true },
      { cache with LruList := buf.Id :: cache.LruList })

/-- The methods `WCache.RemoveLru` and `RCache.RemoveLru`. -/
def BlockCache.RemoveLru (cache : BlockCache) (buf : Buffer) : Buffer × BlockCache :=
  if buf.elm then
    ({ buf with elm := false }, { cache with LruList := cache.LruList.erase buf.Id })
  else (buf, cache)

/-- The methods `WCache.GetFileBuffer` and `RCache.GetFileBuffer`. -/
def BlockCache.GetFileBuffer (cache : BlockCache) (fe : FileEntry) (bAlloc : Bool) :
    Option FileBuffer × BlockCache :=
  match cache.Cache.get fe.Id with
  | some fileBuf => (some fileBuf, cache)
  | none =>
    if bAlloc then
      (some (NewFileBuffer fe), { cache with Cache := cache.Cache.set fe.Id (NewFileBuffer fe) })
    else (none, cache)

/-- The methods `WCache.DetachFileBuffer` and `RCache.DetachFileBuffer`. -/
def BlockCache.DetachFileBuffer (cache : BlockCache) (fe : FileEntry) : BlockCache :=
  { cache with Cache := cache.Cache.del fe.Id }

/-- Dereference of the pointer `fileBuf`: the file buffer that the cache holds under file id
`fid`. In every call of the sources `fileBuf` is the result of `GetFileBuffer`. -/
def BlockCache.fileBuf (cache : BlockCache) (fid : Nat) : Except Fault FileBuffer :=
  match cache.Cache.get fid with
  | none => .error .runtime
  | some fileBuf => .ok fileBuf

/-- A method of `fileBuf` that changes the file buffer, run on the one stored under `fid`. -/
def BlockCache.onFileBuf (cache : BlockCache) (fid : Nat)
    (f : FileBuffer → Except Fault FileBuffer) : Except Fault BlockCache :=
  match cache.Cache.get fid with
  | none => .error .runtime
  | some fileBuf =>
    match f fileBuf with
    | .error e => .error e
    | .ok fileBuf1 => .ok { cache with Cache := cache.Cache.set fid fileBuf1 }

/-- The call `fileBuf.GetBuffer(blkIdx)` on the file buffer of `fid`. -/
def BlockCache.GetBuffer (cache : BlockCache) (fid blkIdx : Nat) : Except Fault (Option Buffer) :=
  match cache.fileBuf fid with
  | .error e => .error e
  | .ok fileBuf => .ok (fileBuf.GetBuffer blkIdx)

/-- A write through the pointer `buffer` while the buffer is attached under `blkIdx`: the
entry of the buffer map gets the new value. -/
def BlockCache.putBuffer (cache : BlockCache) (fid blkIdx : Nat) (buffer : Buffer) :
    Except Fault BlockCache :=
  cache.onFileBuf fid
    (fun fileBuf => .ok { fileBuf with BufferMap := fileBuf.BufferMap.set blkIdx buffer })

/-- The call `fileBuf.AttachBuffer(blkIdx, buffer)` on the file buffer of `fid`. -/
def BlockCache.AttachBuffer (cache : BlockCache) (fid blkIdx : Nat) (buffer : Buffer) :
    Except Fault BlockCache :=
  cache.onFileBuf fid (fun fileBuf => fileBuf.AttachBuffer blkIdx buffer)

/-- The call `fileBuf.DetachBuffer(blkIdx)` on the file buffer of `fid`. -/
def BlockCache.DetachBuffer (cache : BlockCache) (fid blkIdx : Nat) : Except Fault BlockCache :=
  cache.onFileBuf fid (fun fileBuf => .ok (fileBuf.DetachBuffer blkIdx))

/-- The call `fileBuf.LockBuffer(blkIdx)` on the file buffer of `fid`. -/
def BlockCache.LockBuffer (cache : BlockCache) (fid blkIdx : Nat) : Except Fault BlockCache :=
  cache.onFileBuf fid (fun fileBuf => fileBuf.LockBuffer blkIdx)

/-- The call `fileBuf.UnLockBuffer(blkIdx)` on the file buffer of `fid`. -/
def BlockCache.UnLockBuffer (cache : BlockCache) (fid blkIdx : Nat) : Except Fault BlockCache :=
  cache.onFileBuf fid (fun fileBuf => fileBuf.UnLockBuffer blkIdx)

/-- The call `fileBuf.RLockBuffer(blkIdx)` on the file buffer of `fid`. -/
def BlockCache.RLockBuffer (cache : BlockCache) (fid blkIdx : Nat) : Except Fault BlockCache :=
  cache.onFileBuf fid (fun fileBuf => fileBuf.RLockBuffer blkIdx)

/-- The call `fileBuf.RUnLockBuffer(blkIdx)` on the file buffer of `fid`. -/
def BlockCache.RUnLockBuffer (cache : BlockCache) (fid blkIdx : Nat) : Except Fault BlockCache :=
  cache.onFileBuf fid (fun fileBuf => fileBuf.RUnLockBuffer blkIdx)

/-- The struct `WCache`. `chSync` is `none` for the nil channel (`SyncRoutine == 0`) and
otherwise the queue of buffers handed to the sync-write workers, each named by the file id and
block index under which it is attached. -/
structure WCache extends BlockCache where
  SyncRoutine : Nat
  chSync : Option (List (Nat × Nat))
deriving DecidableEq, Repr

/-- The struct `RCache`. `chPrefetch` is `none` for the nil channel (`PrefetchRoutine == 0`)
and otherwise the queue of block operations handed to the prefetch workers. -/
structure RCache extends BlockCache where
  PrefetchRoutine : Nat
  PrefetchTimes : Nat
  chPrefetch : Option (List RWBlockOp)
deriving DecidableEq, Repr

/-- The state that the methods of `RWCache`, `WCache` and `RCache` work on: the two caches,
the proxy client they reach through `Mount`, and the reading `now` of the wall clock. -/
structure CacheState where
  rCache : RCache
  wCache : WCache
  proxyClient : ProxyClient
  now : Nat

/-- The buffers `NewBuffer(0)`, ..., `NewBuffer(BufferMax-1)` pushed at construction. -/
def newFreeList (BufferMax : Nat) : List Buffer := (List.range BufferMax).map NewBuffer

/-- The function `NewWCache`, without the worker goroutines it starts. -/
def NewWCache (BufferMax ExpireTime SyncRoutine : Nat) : WCache :=
  { BufferMax := BufferMax, FreeList := newFreeList BufferMax, Cache := GoMap.empty,
    LruList := [], ExpireTime := ExpireTime, Stop := false, SyncRoutine := SyncRoutine,
    chSync := if SyncRoutine > 0 then some [] else none }

/-- The function `NewRCache`, without the worker goroutines it starts. -/
def NewRCache (BufferMax ExpireTime PrefetchRoutine PrefetchTimes : Nat) : RCache :=
  { BufferMax := BufferMax, FreeList := newFreeList BufferMax, Cache := GoMap.empty,
    LruList := [], ExpireTime := ExpireTime, Stop := false,
    PrefetchRoutine := PrefetchRoutine, PrefetchTimes := PrefetchTimes,
    chPrefetch := if PrefetchRoutine > 0 then some [] else none }

/-- The function `NewRWCache`, on a mount whose proxy client is `proxyClient`. -/
def NewRWCache (proxyClient : ProxyClient) (now : Nat)
    (BufferMax ExpireTime SyncRoutine PrefetchRoutine PrefetchTimes : Nat) : CacheState :=
  { rCache := NewRCache BufferMax ExpireTime PrefetchRoutine PrefetchTimes
    wCache := NewWCache BufferMax ExpireTime SyncRoutine
    proxyClient := proxyClient
    now := now }

/-- The state after the write cache core is replaced by `cache`. -/
def CacheState.setW (s : CacheState) (cache : BlockCache) : CacheState :=
  { s with wCache := { s.wCache with toBlockCache := cache } }

/-- The state after the read cache core is replaced by `cache`. -/
def CacheState.setR (s : CacheState) (cache : BlockCache) : CacheState :=
  { s with rCache := { s.rCache with toBlockCache := cache } }

/-- A step of the write cache core, run inside the state. -/
def CacheState.onW (s : CacheState) (f : BlockCache → Except Fault BlockCache) :
    Except Fault CacheState :=
  match f s.wCache.toBlockCache with
  | .error e => .error e
  | .ok cache => .ok (s.setW cache)

/-- A step of the read cache core, run inside the state. -/
def CacheState.onR (s : CacheState) (f : BlockCache → Except Fault BlockCache) :
    Except Fault CacheState :=
  match f s.rCache.toBlockCache with
  | .error e => .error e
  | .ok cache => .ok (s.setR cache)

/-! ## `wcache.go` -/

/-- The method `WCache.DirectWrite`. -/
def WCache.DirectWrite (fe : FileEntry) (buffer : List Byte) (offset : Nat) (s : CacheState) :
    (Nat × Option GoError) × CacheState :=
  let r := Writer.Write fe.Id buffer offset s.proxyClient
  (r.1, { s with proxyClient := r.2 })

/-- The method `WCache.SyncIo`. -/
def WCache.SyncIo (s : CacheState) : Bool := s.wCache.chSync.isNone

/-- The loop of `WCache.Slice`, with `n` iterations left (`blockIndexEnd - blockIndexStart`).
`rwOffset`, `leftRwSize` and `rwBufOffset` are `uint32`. -/
def sliceLoop (fe : FileEntry) (buffer : List Byte) :
    Nat → Nat → Nat → Nat → Nat → List RWBlockOp
  | 0, _, _, _, _ => []
  | n + 1, blockIndexStart, rwOffset, leftRwSize, rwBufOffset =>
    let opRwOffset := rwOffset % fe.BlockSize
    let RWSize :=
      if fe.BlockSize - opRwOffset > leftRwSize then leftRwSize else fe.BlockSize - opRwOffset
    { fe := fe, Index := blockIndexStart, RwOffset := opRwOffset, RwSize := RWSize,
      rwBuf := (buffer.drop rwBufOffset).take RWSize, rwBufPos := rwBufOffset } ::
      sliceLoop fe buffer n (blockIndexStart + 1) ((rwOffset + RWSize) % U32)
        (leftRwSize - RWSize) ((rwBufOffset + RWSize) % U32)

/-- The method `WCache.Slice`. A zero block size is an integer division by zero. -/
def WCache.Slice (fe : FileEntry) (buffer : List Byte) (offset : Nat) :
    Except Fault (List RWBlockOp) :=
  if fe.BlockSize = 0 then .error .runtime
  else
    let size := buffer.length % U32
    let blockIndexStart := offset / fe.BlockSize
    let blockIndexEnd := ((offset + size + fe.BlockSize - 1) % U64) / fe.BlockSize
    let rwOffset := (offset % fe.BlockSize) % U32
    .ok (sliceLoop fe buffer (blockIndexEnd - blockIndexStart) blockIndexStart rwOffset size 0)

/-- The branch "cache not exist" of `WCache.WriteOp`. -/
def WCache.WriteOpNew (fe : FileEntry) (fid : Nat) (op : RWBlockOp) (s : CacheState) :
    Except Fault ((Bool × Nat × Option GoError) × CacheState) := do
  let opFull ← op.IsFull
  if opFull && WCache.SyncIo s then
    let r := WCache.DirectWrite fe op.rwBuf op.GetFileOffset s
    pure ((true, r.1.1, r.1.2), r.2)
  else
    let a ← s.wCache.toBlockCache.AllocBuffer fe op.Index
    match a.1 with
    | none =>
      -- alloc fail, so do direct io.
      let r := WCache.DirectWrite fe op.rwBuf op.GetFileOffset (s.setW a.2)
      pure ((true, r.1.1, r.1.2), r.2)
    | some buffer0 =>
      let buffer1 ← buffer0.Skip op.RwOffset
      Assert (buffer1.CanMerge op.RwOffset)
      let buffer ← buffer1.MergeData op.rwBuf s.now
      let cache1 ← a.2.AttachBuffer fid op.Index buffer
      let bufFull ← buffer.IsFull fe.BlockSize
      if bufFull then
        let opFull2 ← op.IsFull
        Assert (opFull2 && !WCache.SyncIo s)
        -- cache.chSync <- buffer
        let s1 := s.setW cache1
        pure ((false, op.RwSize, none),
          { s1 with wCache := { s1.wCache with
              chSync := s1.wCache.chSync.map (fun q => q ++ [(fid, op.Index)]) } })
      else
        let l := cache1.DoLru buffer s.now
        let cache2 ← l.2.putBuffer fid op.Index l.1
        pure ((true, op.RwSize, none), s.setW cache2)

/-- The branch "cache exist" of `WCache.WriteOp` when the buffer can merge the op; `buffer0`
is the attached buffer after `RemoveLru` and `cache0` the cache core after it. -/
def WCache.WriteOpMerge (fe : FileEntry) (fid : Nat) (op : RWBlockOp) (buffer0 : Buffer)
    (cache0 : BlockCache) (s : CacheState) :
    Except Fault ((Bool × Nat × Option GoError) × CacheState) := do
  let buffer ← buffer0.MergeData op.rwBuf s.now
  let bufFull ← buffer.IsFull fe.BlockSize
  if bufFull then
    if !WCache.SyncIo s then
      let cache1 ← cache0.putBuffer fid op.Index buffer
      let s1 := s.setW cache1
      pure ((false, op.RwSize, none),
        { s1 with wCache := { s1.wCache with
            chSync := s1.wCache.chSync.map (fun q => q ++ [(fid, op.Index)]) } })
    else
      let data ← buffer.GetData
      let fileOffset ← buffer.GetFileOffset
      let r := WCache.DirectWrite fe data fileOffset s
      if r.1.2 ≠ none then
        let l := cache0.DoLru buffer s.now
        let cache1 ← l.2.putBuffer fid op.Index l.1
        pure ((true, r.1.1, r.1.2), r.2.setW cache1)
      else
        let cache1 ← cache0.DetachBuffer fid op.Index
        pure ((true, op.RwSize, none), r.2.setW (cache1.FreeBuffer buffer))
  else
    let l := cache0.DoLru buffer s.now
    let cache1 ← l.2.putBuffer fid op.Index l.1
    pure ((true, op.RwSize, none), s.setW cache1)

/-- The branch "cache exist" of `WCache.WriteOp` when the buffer cannot merge the op: the
buffer is flushed first; `buffer` is the attached buffer after `RemoveLru` and `cache0` the
cache core after it. -/
def WCache.WriteOpFlushFirst (fe : FileEntry) (fid : Nat) (op : RWBlockOp) (buffer : Buffer)
    (cache0 : BlockCache) (s : CacheState) :
    Except Fault ((Bool × Nat × Option GoError) × CacheState) := do
  let data ← buffer.GetData
  let fileOffset ← buffer.GetFileOffset
  let r := WCache.DirectWrite fe data fileOffset s
  if r.1.2 ≠ none then
    let l := cache0.DoLru buffer s.now
    let cache1 ← l.2.putBuffer fid op.Index l.1
    pure ((true, r.1.1, r.1.2), r.2.setW cache1)
  else
    let opFull ← op.IsFull
    if opFull then
      -- free prev write buf first.
      let cache1 ← cache0.DetachBuffer fid op.Index
      let r2 := WCache.DirectWrite fe op.rwBuf op.GetFileOffset (r.2.setW (cache1.FreeBuffer buffer))
      pure ((true, r2.1.1, r2.1.2), r2.2)
    else
      let buffer1 ← buffer.ReSet fe op.Index
      let buffer2 ← buffer1.Skip op.RwOffset
      Assert (buffer2.CanMerge op.RwOffset)
      let buffer3 ← buffer2.MergeData op.rwBuf s.now
      let l := cache0.DoLru buffer3 s.now
      let cache1 ← l.2.putBuffer fid op.Index l.1
      pure ((true, op.RwSize, none), r.2.setW cache1)

/-- The method `WCache.WriteOp`; `fid` is the file id under which `fileBuf` is stored. The
result is `(syncIo, size, err)`. -/
def WCache.WriteOp (fe : FileEntry) (fid : Nat) (op : RWBlockOp) (s : CacheState) :
    Except Fault ((Bool × Nat × Option GoError) × CacheState) := do
  let found ← s.wCache.toBlockCache.GetBuffer fid op.Index
  match found with
  | none => WCache.WriteOpNew fe fid op s
  | some buffer =>
    let l := s.wCache.toBlockCache.RemoveLru buffer
    if l.1.CanMerge op.RwOffset then WCache.WriteOpMerge fe fid op l.1 l.2 s
    else WCache.WriteOpFlushFirst fe fid op l.1 l.2 s

/-- The method `WCache.MergeOp`; the result is the returned size and the content of
`op.rwBuf` after the call. -/
def WCache.MergeOp (fid : Nat) (op : RWBlockOp) (dataSize : Nat) (s : CacheState) :
    Except Fault (Nat × List Byte) := do
  Assert (decide (dataSize ≤ op.RwSize))
  let fileBuf ← s.wCache.toBlockCache.fileBuf fid
  match fileBuf.GetBuffer op.Index with
  | none =>
    -- read hit hole.
    if dataSize < op.RwSize ∧ op.Index < fileBuf.UpperIdx then pure (op.RwSize, op.rwBuf)
    else pure (dataSize, op.rwBuf)
  | some buffer =>
    if buffer.Offset + buffer.Len ≤ op.RwOffset ∨ op.RwOffset + op.RwSize ≤ buffer.Offset then
      -- op and buffer not intersection; read hit hole.
      if dataSize < op.RwSize ∧ op.RwOffset < buffer.Offset then pure (op.RwSize, op.rwBuf)
      else pure (dataSize, op.rwBuf)
    else
      -- only copy the min range.
      let cpOffset := if op.RwOffset > buffer.Offset then op.RwOffset else buffer.Offset
      let cpTailOffset :=
        if op.RwOffset + op.RwSize < buffer.Offset + buffer.Len then op.RwOffset + op.RwSize
        else buffer.Offset + buffer.Len
      Assert (decide (cpOffset < cpTailOffset))
      Assert (decide (cpTailOffset ≤ op.RwOffset + op.RwSize))
      if cpOffset - op.RwOffset > op.rwBuf.length then throw Fault.runtime
      let data ← buffer.GetRangeData cpOffset cpTailOffset
      let rwBuf := goCopyAt op.rwBuf (cpOffset - op.RwOffset) data
      -- reset read size.
      if dataSize < cpTailOffset - op.RwOffset then pure (cpTailOffset - op.RwOffset, rwBuf)
      else pure (dataSize, rwBuf)

/-- The loop body and loop of `WCache.Write`; `wtSize` is the running total. -/
def WCache.WriteLoop (fe : FileEntry) :
    List RWBlockOp → Nat → CacheState → Except Fault ((Nat × Option GoError) × CacheState)
  | [], wtSize, s => .ok ((wtSize, none), s)
  | op :: Ops, wtSize, s => do
    let s1 ← s.onW (fun cache => cache.LockBuffer fe.Id op.Index)
    let r ← WCache.WriteOp fe fe.Id op s1
    let s2 ← (if r.1.1 then r.2.onW (fun cache => cache.UnLockBuffer fe.Id op.Index)
      else .ok r.2)
    if r.1.2.2 ≠ none then pure ((wtSize, r.1.2.2), s2)
    else WCache.WriteLoop fe Ops (wtSize + r.1.2.1) s2

/-- The method `WCache.Write`. -/
def WCache.Write (fe : FileEntry) (buffer : List Byte) (offset : Nat) (s : CacheState) :
    Except Fault ((Nat × Option GoError) × CacheState) := do
  let g := s.wCache.toBlockCache.GetFileBuffer fe true
  Assert g.1.isSome
  let Ops ← WCache.Slice fe buffer offset
  let r ← WCache.WriteLoop fe Ops 0 (s.setW g.2)
  if r.1.2 ≠ none then pure r
  else do
    Assert (decide (r.1.1 = buffer.length))
    pure r

/-- The body of `WCache.FlushBuffer` between `LockBuffer` and the deferred `UnLockBuffer`. -/
def WCache.FlushBufferBody (fid Index : Nat) (s : CacheState) :
    Except Fault (Option GoError × CacheState) := do
  let found ← s.wCache.toBlockCache.GetBuffer fid Index
  match found with
  | none => pure (none, s)
  | some buffer0 =>
    -- remove from lru list.
    let l := s.wCache.toBlockCache.RemoveLru buffer0
    let buffer := l.1
    -- cache exist. flush.
    let fe ← match buffer.fe with
      | none => throw Fault.runtime
      | some fe => pure fe
    let data ← buffer.GetData
    let fileOffset ← buffer.GetFileOffset
    let r := WCache.DirectWrite fe data fileOffset s
    match r.1.2 with
    | some err =>
      match err with
      | GoError.errno code =>
        if E_POSIX_ENOENT = code then
          -- fail, free buf.
          let cache1 ← l.2.DetachBuffer fid Index
          pure (some (GoError.errno code), r.2.setW (cache1.FreeBuffer buffer))
        else
          let d := l.2.DoLru buffer s.now
          let cache1 ← d.2.putBuffer fid Index d.1
          pure (some err, r.2.setW cache1)
      | _ =>
        let d := l.2.DoLru buffer s.now
        let cache1 ← d.2.putBuffer fid Index d.1
        pure (some err, r.2.setW cache1)
    | none =>
      -- free buf.
      let cache1 ← l.2.DetachBuffer fid Index
      pure (none, r.2.setW (cache1.FreeBuffer buffer))

/-- The method `WCache.FlushBuffer`; `fid` is the file id under which `fileBuf` is stored. -/
def WCache.FlushBuffer (fid Index : Nat) (s : CacheState) :
    Except Fault (Option GoError × CacheState) := do
  let s1 ← s.onW (fun cache => cache.LockBuffer fid Index)
  let r ← WCache.FlushBufferBody fid Index s1
  let s2 ← r.2.onW (fun cache => cache.UnLockBuffer fid Index)
  pure (r.1, s2)

/-- The work of the flush goroutines of `WCache.Flush` and the collection of their results,
run one index after the other in the order of `bufIndexS`; `flushErr` is the error kept so
far. -/
def WCache.FlushLoop (fid : Nat) :
    List Nat → Option GoError → CacheState → Except Fault (Option GoError × CacheState)
  | [], flushErr, s => .ok (flushErr, s)
  | Index :: rest, flushErr, s => do
    let r ← WCache.FlushBuffer fid Index s
    WCache.FlushLoop fid rest (if r.1 ≠ none then r.1 else flushErr) r.2

/-- The method `WCache.Flush`. -/
def WCache.Flush (fe : FileEntry) (s : CacheState) : Except Fault (Option GoError × CacheState) :=
  match (s.wCache.toBlockCache.GetFileBuffer fe false).1 with
  | none => .ok (none, s)
  | some fileBuf =>
    let bufIndexS := fileBuf.GetAllBufferIndex
    if bufIndexS.length = 0 then .ok (none, s)
    else WCache.FlushLoop fe.Id bufIndexS none s

/-- The method `WCache.StatSize`. -/
def WCache.StatSize (fe : FileEntry) (s : CacheState) :
    Except Fault ((Nat × Option GoError) × CacheState) :=
  match (s.wCache.toBlockCache.GetFileBuffer fe false).1 with
  | none => .ok ((0, none), s)
  | some fileBuf =>
    if fileBuf.IsZeroCache then .ok ((0, none), s)
    else do
      let UpperIdx := fileBuf.UpperIdx
      let s1 ← s.onW (fun cache => cache.LockBuffer fe.Id UpperIdx)
      let found ← s1.wCache.toBlockCache.GetBuffer fe.Id UpperIdx
      let s2 ← s1.onW (fun cache => cache.UnLockBuffer fe.Id UpperIdx)
      match found with
      | none => pure ((0, some (GoError.errno E_POSIX_EIO)), s2)
      | some buffer =>
        let tail ← buffer.GetTailOffset
        pure ((tail, none), s2)

/-- The method `WCache.Close`. -/
def WCache.Close (fe : FileEntry) (s : CacheState) : Except Fault (Option GoError × CacheState) := do
  let r ← WCache.Flush fe s
  if r.1 ≠ none then pure r
  else pure (none, r.2.setW (r.2.wCache.toBlockCache.DetachFileBuffer fe))

/-! ## `rcache.go` -/

/-- The method `RCache.DirectRead`; the third component is the content of `buffer` after the
call. -/
def RCache.DirectRead (fe : FileEntry) (buffer : List Byte) (offset : Nat) (s : CacheState) :
    (Nat × Option GoError × List Byte) × CacheState :=
  let r := Reader.Read fe.Id buffer offset s.proxyClient
  (r.1, { s with proxyClient := r.2 })

/-- The loop of `RCache.Slice`: the loop of `WCache.Slice` with the assertion
`blockIndexStart <= blockIndexEnd` after the increment. -/
def RCache.sliceLoop (fe : FileEntry) (buffer : List Byte) (blockIndexEnd : Nat) :
    Nat → Nat → Nat → Nat → Nat → Except Fault (List RWBlockOp)
  | 0, _, _, _, _ => .ok []
  | n + 1, blockIndexStart, RWOffset, leftRwSize, rwBufOffset => do
    let opRwOffset := RWOffset % fe.BlockSize
    let RWSize :=
      if fe.BlockSize - opRwOffset > leftRwSize then leftRwSize else fe.BlockSize - opRwOffset
    let op : RWBlockOp :=
      { fe := fe, Index := blockIndexStart, RwOffset := opRwOffset, RwSize := RWSize,
        rwBuf := (buffer.drop rwBufOffset).take RWSize, rwBufPos := rwBufOffset }
    Assert (decide (blockIndexStart + 1 ≤ blockIndexEnd))
    let Ops ← RCache.sliceLoop fe buffer blockIndexEnd n (blockIndexStart + 1)
      ((RWOffset + RWSize) % U32) (leftRwSize - RWSize) ((rwBufOffset + RWSize) % U32)
    pure (op :: Ops)

/-- The method `RCache.Slice`. -/
def RCache.Slice (fe : FileEntry) (buffer : List Byte) (offset : Nat) :
    Except Fault (List RWBlockOp) :=
  if fe.BlockSize = 0 then .error .runtime
  else
    let Size := buffer.length % U32
    let blockIndexStart := offset / fe.BlockSize
    let blockIndexEnd := ((offset + Size + fe.BlockSize - 1) % U64) / fe.BlockSize
    let RWOffset := (offset % fe.BlockSize) % U32
    RCache.sliceLoop fe buffer blockIndexEnd (blockIndexEnd - blockIndexStart) blockIndexStart
      RWOffset Size 0

/-- The method `RCache.ReadOp`; the result is `(size, err)` and the content of `op.rwBuf`
after the call. -/
def RCache.ReadOp (fe : FileEntry) (fid : Nat) (op : RWBlockOp) (s : CacheState) :
    Except Fault ((Nat × Option GoError × List Byte) × CacheState) := do
  let found ← s.rCache.toBlockCache.GetBuffer fid op.Index
  match found with
  | none =>
    -- cache not exist.
    pure (RCache.DirectRead fe op.rwBuf op.GetFileOffset s)
  | some buffer =>
    Assert (decide (buffer.Offset = 0) && decide (buffer.Len ≠ 0))
    if op.RwOffset ≥ buffer.Len then pure ((0, none, op.rwBuf), s)
    else
      let Size := if buffer.Len - op.RwOffset > op.RwSize then op.RwSize
        else buffer.Len - op.RwOffset
      let data ← buffer.GetRangeData op.RwOffset (op.RwOffset + Size)
      pure ((Size, none, goCopy op.rwBuf data), s)

/-- The method `RCache.GetReadWindow`; `Size` is `uint32`. -/
def RCache.GetReadWindow (fe : FileEntry) (Size : Nat) (offset : Nat) :
    Except Fault PrefetchWindow :=
  if fe.BlockSize = 0 then .error .runtime
  else
    .ok { BlkStart := offset / fe.BlockSize
          BlkEnd := ((offset + Size + fe.BlockSize - 1) % U64) / fe.BlockSize }

/-- The loop of `RCache.DoPrefetch` that pushes the blocks of the window into the prefetch
channel, with `n` iterations left. A pushed op keeps its block locked for the worker. -/
def RCache.prefetchLoop (fid : Nat) (fe : FileEntry) :
    Nat → Nat → CacheState → Except Fault CacheState
  | 0, _, s => .ok s
  | n + 1, blkStart, s => do
    let op : RWBlockOp :=
      { fe := fe, Index := blkStart, RwOffset := 0, RwSize := fe.BlockSize,
        rwBuf := List.replicate fe.BlockSize 0, rwBufPos := 0 }
    let s1 ← s.onR (fun cache => cache.LockBuffer fid op.Index)
    -- do not read until the cache expire.
    let found ← s1.rCache.toBlockCache.GetBuffer fid op.Index
    let s2 ← (match found with
      | some _ => s1.onR (fun cache => cache.UnLockBuffer fid op.Index)
      | none =>
        .ok { s1 with rCache := { s1.rCache with
          chPrefetch := s1.rCache.chPrefetch.map (fun q => q ++ [op]) } })
    RCache.prefetchLoop fid fe n (blkStart + 1) s2

/-- The method `RCache.DoPrefetch`; `fid` is the file id under which `fileBuf` is stored. -/
def RCache.DoPrefetch (fid : Nat) (Size : Nat) (offset : Nat) (s : CacheState) :
    Except Fault CacheState := do
  Assert s.rCache.chPrefetch.isSome
  let fileBuf ← s.rCache.toBlockCache.fileBuf fid
  let rw ← RCache.GetReadWindow fileBuf.fe Size offset
  let rwSize ← rw.Size
  Assert (decide (rwSize > 0))
  let first ←
    (if rw.BlkStart = 0 then do
      let pwSize ← fileBuf.pw.Size
      pure (decide (pwSize = 0))
    else pure false)
  let moved ←
    (if first then
      pure (some ((rw.Move).Extend (s.rCache.PrefetchTimes % U32)))
    else if rw.Cross fileBuf.pw then do
      let pwSize ← fileBuf.pw.Size
      Assert (decide (pwSize > 0))
      pure (some fileBuf.pw.Move)
    else pure none)
  match moved with
  | none => pure s
  | some pw =>
    let cache1 ← s.rCache.toBlockCache.onFileBuf fid (fun fb => .ok { fb with pw := pw })
    -- push into prefetch chan.
    RCache.prefetchLoop fid fileBuf.fe (pw.BlkEnd - pw.BlkStart) pw.BlkStart (s.setR cache1)

/-- The method `RCache.TryDoPrefetch`. -/
def RCache.TryDoPrefetch (fid : Nat) (Size : Nat) (offset : Nat) (s : CacheState) :
    Except Fault CacheState :=
  if s.rCache.chPrefetch.isSome then RCache.DoPrefetch fid Size offset s else .ok s

/-- The method `RCache.ReleaseBuffer`; `fid` is the file id under which `fileBuf` is
stored. -/
def RCache.ReleaseBuffer (fid Index : Nat) (s : CacheState) : Except Fault CacheState := do
  let s1 ← s.onR (fun cache => cache.LockBuffer fid Index)
  let found ← s1.rCache.toBlockCache.GetBuffer fid Index
  let s2 ← (match found with
    | none => .ok s1
    | some buffer =>
      -- remove from lru list, free buf.
      s1.onR (fun cache => do
        let cache1 ← (cache.RemoveLru buffer).2.DetachBuffer fid Index
        pure (cache1.FreeBuffer (cache.RemoveLru buffer).1)))
  s2.onR (fun cache => cache.UnLockBuffer fid Index)

/-- A loop that calls `ReleaseBuffer` on each index of a list. -/
def RCache.releaseAll (fid : Nat) : List Nat → CacheState → Except Fault CacheState
  | [], s => .ok s
  | Index :: rest, s => do
    let s1 ← RCache.ReleaseBuffer fid Index s
    RCache.releaseAll fid rest s1

/-- The method `RCache.Release`. -/
def RCache.Release (fe : FileEntry) (s : CacheState) : Except Fault (Option GoError × CacheState) :=
  match (s.rCache.toBlockCache.GetFileBuffer fe false).1 with
  | none => .ok (none, s)
  | some fileBuf => do
    -- wait prefetch complete.
    fileBuf.Wait
    let s1 ← RCache.releaseAll fe.Id fileBuf.GetAllBufferIndex s
    pure (none, s1)

/-- The method `RCache.Clean`; `Size` is the `int` length of the written buffer. -/
def RCache.Clean (fe : FileEntry) (Size : Nat) (offset : Nat) (s : CacheState) :
    Except Fault (Option GoError × CacheState) :=
  match (s.rCache.toBlockCache.GetFileBuffer fe false).1 with
  | none => .ok (none, s)
  | some _ => do
    let rw ← RCache.GetReadWindow fe (Size % U32) offset
    let rwSize ← rw.Size
    Assert (decide (rwSize > 0))
    -- clean cache.
    let s1 ← RCache.releaseAll fe.Id (List.range' rw.BlkStart (rw.BlkEnd - rw.BlkStart)) s
    pure (none, s1)

/-- The method `RCache.Close`. -/
def RCache.Close (fe : FileEntry) (s : CacheState) : Except Fault (Option GoError × CacheState) := do
  let r ← RCache.Release fe s
  if r.1 ≠ none then pure r
  else pure (none, r.2.setR (r.2.rCache.toBlockCache.DetachFileBuffer fe))

/-- The method `RCache.DoPrefetchRead`, the work of a prefetch worker on one op. -/
def RCache.DoPrefetchRead (fid : Nat) (op : RWBlockOp) (s : CacheState) :
    Except Fault (Option GoError × CacheState) := do
  let r := RCache.DirectRead op.fe op.rwBuf op.GetFileOffset s
  if r.1.2.1 ≠ none then pure (r.1.2.1, r.2)
  else if r.1.1 = 0 then pure (none, r.2)
  else
    let a ← r.2.rCache.toBlockCache.AllocBuffer op.fe op.Index
    match a.1 with
    | none => pure (some (GoError.other "AllocRBuffer"), r.2.setR a.2)
    | some buffer0 =>
      let buffer1 ← buffer0.Skip op.RwOffset
      Assert (buffer1.CanMerge op.RwOffset)
      let buffer ← buffer1.MergeData r.1.2.2 r.2.now
      let cache1 ← a.2.AttachBuffer fid op.Index buffer
      let l := cache1.DoLru buffer r.2.now
      let cache2 ← l.2.putBuffer fid op.Index l.1
      pure (none, r.2.setR cache2)

/-! ## `rwcache.go` -/

/-- The loop of `RWCache.doRead`. `hasW` tells whether `fileBufWrite` is not nil, `Size` is the
running result and `dataBuf` the assembled bytes. The error branch returns `(opSize, err)`. -/
def RWCache.doReadLoop (fe : FileEntry) (offset : Nat) (hasW : Bool) :
    List RWBlockOp → Nat → List Byte → CacheState →
      Except Fault ((Nat × Option GoError × List Byte) × CacheState)
  | [], Size, dataBuf, s => .ok ((Size, none, dataBuf), s)
  | op :: Ops, Size, dataBuf, s => do
    -- first lock buffer, if lock success, then data is flush..
    let s1 ← (if hasW then s.onW (fun cache => cache.RLockBuffer fe.Id op.Index) else .ok s)
    -- second read data from disk.
    let s2 ← s1.onR (fun cache => cache.RLockBuffer fe.Id op.Index)
    let r ← RCache.ReadOp fe fe.Id op s2
    let s3 ← r.2.onR (fun cache => cache.RUnLockBuffer fe.Id op.Index)
    if r.1.2.1 ≠ none then
      let s4 ← (if hasW then s3.onW (fun cache => cache.RUnLockBuffer fe.Id op.Index)
        else .ok s3)
      pure ((r.1.1, r.1.2.1, dataBuf), s4)
    else
      -- third merge data with write cache.
      let m ← (if hasW then WCache.MergeOp fe.Id { op with rwBuf := r.1.2.2 } r.1.1 s3
        else .ok (r.1.1, r.1.2.2))
      let s4 ← (if hasW then s3.onW (fun cache => cache.RUnLockBuffer fe.Id op.Index)
        else .ok s3)
      let Size1 := if m.1 ≠ 0 then (op.GetFileOffset + U64 - offset) % U64 + m.1 else Size
      RWCache.doReadLoop fe offset hasW Ops Size1 (goCopyAt dataBuf op.rwBufPos m.2) s4

/-- The method `RWCache.doRead`; the third component of the result is the content of `buffer`
after the call. -/
def RWCache.doRead (fe : FileEntry) (buffer : List Byte) (offset : Nat) (s : CacheState) :
    Except Fault ((Nat × Option GoError × List Byte) × CacheState) := do
  let dataBuf := List.replicate buffer.length 0
  let g := s.rCache.toBlockCache.GetFileBuffer fe true
  Assert g.1.isSome
  let s1 ← RCache.TryDoPrefetch fe.Id (dataBuf.length % U32) offset (s.setR g.2)
  let fileBufWrite := (s1.wCache.toBlockCache.GetFileBuffer fe false).1
  let Ops ← RCache.Slice fe dataBuf offset
  let r ← RWCache.doReadLoop fe offset fileBufWrite.isSome Ops 0 dataBuf s1
  if r.1.2.1 ≠ none then pure ((r.1.1, r.1.2.1, buffer), r.2)
  else do
    Assert (decide (r.1.1 ≤ buffer.length))
    pure ((r.1.1, none, goCopy buffer (r.1.2.2.take r.1.1)), r.2)

/-- The method `RWCache.Read`. -/
def RWCache.Read (fe : FileEntry) (buffer : List Byte) (offset : Nat) (s : CacheState) :
    Except Fault ((Nat × Option GoError × List Byte) × CacheState) :=
  RWCache.doRead fe buffer offset s

/-- The method `RWCache.Write`. -/
def RWCache.Write (fe : FileEntry) (buffer : List Byte) (offset : Nat) (s : CacheState) :
    Except Fault ((Nat × Option GoError) × CacheState) := do
  let r ← WCache.Write fe buffer offset s
  -- clean cache.
  let c ← RCache.Clean fe buffer.length offset r.2
  pure (r.1, c.2)

/-- The method `RWCache.Release`. -/
def RWCache.Release (fe : FileEntry) (s : CacheState) : Except Fault (Option GoError × CacheState) :=
  RCache.Release fe s

/-- The method `RWCache.Flush`. -/
def RWCache.Flush (fe : FileEntry) (s : CacheState) : Except Fault (Option GoError × CacheState) :=
  WCache.Flush fe s

/-- The method `RWCache.Close`. -/
def RWCache.Close (fe : FileEntry) (s : CacheState) : Except Fault (Option GoError × CacheState) := do
  let r ← RCache.Close fe s
  if r.1 ≠ none then pure r
  else WCache.Close fe r.2

/-! ## `file.go`: the facade -/

/-- The constant `MountStuNew`. -/
def MountStuNew : Nat := 0

/-- The constant `MountStuMounted`. -/
def MountStuMounted : Nat := 1

/-- The constant `MountStuDel`. -/
def MountStuDel : Nat := 2

/-- The constant `MountModeRead`. -/
def MountModeRead : Nat := 0x01

/-- The constant `MountModeWrite`. -/
def MountModeWrite : Nat := 0x02

/-- The constant `MountModeDel`. -/
def MountModeDel : Nat := 0x04

/-- The part of the struct `CfaMountInfo` that the facade methods work on: the path prefix,
the mount status and mode, the handle table, the dentry cache, whether `rwCache` is not nil,
and the state of the caches and the proxy client. The clock `time.Now()` reads
`cacheState.now`. -/
structure CfaMountInfo where
  Path : String
  MountStu : Nat
  MountMode : Nat
  fileCache : FileCache
  dentryCache : DentryCache
  rwCacheOn : Bool
  cacheState : CacheState

/-- The method `CfaMountInfo.UseRWCache`. -/
def CfaMountInfo.UseRWCache (mount : CfaMountInfo) (fdEntry : FileEntry) : Bool :=
  !fdEntry.DirectIO && mount.rwCacheOn

/-- The method `CfaMountInfo.Flush` of `file.go`. The variable `err` assigned from
`rwCache.Flush` is assigned again by `resp, err := mount.proxyClient.Fsync(...)`. -/
def CfaMountInfo.Flush (mount : CfaMountInfo) (fd : Nat) :
    Except Fault (Option GoError × CfaMountInfo) := do
  let g ← mount.fileCache.GetFileEntry fd
  match g.1 with
  | none => pure (some (GoError.errno E_POSIX_EBADF), mount)
  | some fdEntry =>
    let f ← (if mount.UseRWCache fdEntry then RWCache.Flush fdEntry mount.cacheState
      else .ok (g.2, mount.cacheState))
    let r := f.2.proxyClient.call (ProxyCall.Fsync fdEntry.Id)
    let mount1 := { mount with cacheState := { f.2 with proxyClient := r.2 } }
    if r.1.err ≠ none ∨ r.1.Code ≠ 0 then pure (toErr r.1.err r.1.Code, mount1)
    else pure (none, mount1)


/-! ## `mount.go`, `stat.go`, `file.go`, `rename.go`, `rm.go`: more of the facade

A descriptor argument `fd` of a facade method stands for `uint32(fd)`, the index that the
method passes to the handle table. -/

/-- Modelled from the spec: the constant `E_POSIX_EACCES`, see `E_POSIX_EPERM`. -/
def E_POSIX_EACCES : Int := 13

/-- The constant `InvalidHandle` of `file.go`. -/
def InvalidHandle : Int := -1

/-- The constant `syscall.O_WRONLY` (linux). -/
def O_WRONLY : Nat := 0x1

/-- The constant `syscall.O_RDWR` (linux). -/
def O_RDWR : Nat := 0x2

/-- The constant `os.O_CREATE` (linux). -/
def O_CREATE : Nat := 0x40

/-- The constant `os.O_TRUNC` (linux). -/
def O_TRUNC : Nat := 0x200

/-- The constant `SysPerm`. -/
def SysPerm : Nat := 0o777

/-- The constant `S_IFLNK`. -/
def S_IFLNK : Nat := 0xa000

/-- The constant `S_IFMT`. -/
def S_IFMT : Nat := 0xf000

/-- The constant `S_IFREG`. -/
def S_IFREG : Nat := 0x8000

/-- The constant `OpenFlagCreate`. -/
def OpenFlagCreate : Nat := 1

/-- The constant `OpenFlagOpen`. -/
def OpenFlagOpen : Nat := 2

/-- The constant `DefaultBlockSize`. -/
def DefaultBlockSize : Nat := 1 * 1024 * 1024

/-- The method `CfaMountInfo.checkMount` of `mount.go`. -/
def CfaMountInfo.checkMount (mount : CfaMountInfo) (path : String) (perm : Nat) :
    Option GoError :=
  if mount.MountStu ≠ MountStuMounted then some (GoError.errno E_POSIX_EPERM)
  else if perm = 0 ∨ (perm &&& mount.MountMode) ≠ perm then some (GoError.errno E_POSIX_EPERM)
  else if path.data.length = 0 ∨ path.data.head? ≠ some '/' ∨
      (path.data.getLast? = some '/' ∧ path.data.length > 1) then
    some (GoError.errno E_POSIX_EPERM)
  else if ¬ strings.HasPrefix path mount.Path then some (GoError.errno E_POSIX_EACCES)
  else none

/-- The mount after a call of a proxy method: the client has logged the call. -/
def CfaMountInfo.setProxy (mount : CfaMountInfo) (p : ProxyClient) : CfaMountInfo :=
  { mount with cacheState := { mount.cacheState with proxyClient := p } }

/-- The method `CfaMountInfo.doStat` of `stat.go`. -/
def CfaMountInfo.doStat (mount : CfaMountInfo) (path : String) :
    (Option Dentry × Option GoError) × CfaMountInfo :=
  let r := mount.cacheState.proxyClient.call (ProxyCall.Stat path)
  if r.1.err ≠ none ∨ r.1.Code ≠ 0 then ((none, toErr r.1.err r.1.Code), mount.setProxy r.2)
  else
    let item_name := if "/" ≠ path then lastPathElement path else "/"
    let item_type :=
      if fs.IsDir r.1.Info.Mode then DentryTypeDir
      else if fs.IsRegular r.1.Info.Mode then DentryTypeFile
      else DentryTypeLink
    ((some { Inode := r.1.Info.Inode, Name := item_name, Typ := item_type,
             Info := some r.1.Info }, none), mount.setProxy r.2)

/-- The method `CfaMountInfo.GetSimpleFileEntry` of `file.go`; `DentryType` is a `uint8`. -/
def GetSimpleFileEntry (dentry : Dentry) : Option FileEntry :=
  if dentry.Typ % 256 ≠ DentryTypeFile then none
  else some { Id := dentry.Inode, BlockSize := DefaultBlockSize, Handle := 0, FilePath := "",
              OpenFlag := 0, Mode := 0, DirectIO := false }

/-- The end of `CfaMountInfo.Stat`: the dentry goes into the dentry cache and is returned. -/
def CfaMountInfo.statDone (mount : CfaMountInfo) (path : String) (dentry : Dentry) :
    (Option Dentry × Option GoError) × CfaMountInfo :=
  ((some dentry, none),
    { mount with dentryCache := (mount.dentryCache.Set path dentry mount.cacheState.now).2 })

/-- The method `CfaMountInfo.Stat` of `stat.go`. -/
def CfaMountInfo.Stat (mount : CfaMountInfo) (path : String) :
    Except Fault ((Option Dentry × Option GoError) × CfaMountInfo) :=
  if mount.checkMount path MountModeRead ≠ none then
    .ok ((none, some (GoError.errno E_POSIX_EACCES)), mount)
  else
    let g := mount.dentryCache.Get path mount.cacheState.now
    let mount0 := { mount with dentryCache := g.2 }
    if g.1.2.1 then
      match g.1.1 with
      | none => .error .runtime
      | some dentry => .ok ((some dentry, none), mount0)
    else
      let d := mount0.doStat path
      match d.1 with
      | (_, some err) => .ok ((none, some err), d.2)
      | (none, none) => .error .runtime
      | (some dentry, none) =>
        if mount.rwCacheOn then
          match GetSimpleFileEntry dentry with
          | none => .ok (d.2.statDone path dentry)
          | some fe =>
            match WCache.StatSize fe d.2.cacheState with
            | .error f => .error f
            | .ok ((_, some _), s1) =>
              -- must stat again from disk.
              let d1 := CfaMountInfo.doStat { d.2 with cacheState := s1 } path
              match d1.1 with
              | (_, some err) => .ok ((none, some err), d1.2)
              | (none, none) => .error .runtime
              | (some dentry1, none) => .ok (d1.2.statDone path dentry1)
            | .ok ((CacheSize, none), s1) =>
              match dentry.Info with
              | none => .error .runtime
              | some info =>
                let dentry1 : Dentry :=
                  if info.Size < CacheSize then
                    { dentry with Info := some { info with Size := CacheSize } }
                  else dentry
                .ok (CfaMountInfo.statDone { d.2 with cacheState := s1 } path dentry1)
        else .ok (d.2.statDone path dentry)

/-- The permission mask that `Open` derives from the open flags (the variable `perm`). -/
def openPerm (flags : Nat) : Nat :=
  let perm :=
    if flags &&& O_WRONLY > 0 then MountModeWrite
    else if flags &&& O_RDWR > 0 then MountModeRead ||| MountModeWrite
    else MountModeRead
  if flags &&& (O_CREATE ||| O_TRUNC) > 0 then perm ||| MountModeWrite else perm

/-- The mode that `Open` sends to the proxy (the variable `mode` after its adjustment). -/
def openMode (mode : Nat) : Nat :=
  if mode &&& S_IFMT ≠ S_IFLNK then mode &&& SysPerm ||| S_IFREG else mode

/-- The flag that `Open` sends to the proxy (the variable `OpenFlag`). -/
def openFlag (flags : Nat) : Nat :=
  if flags &&& O_CREATE > 0 then OpenFlagCreate else OpenFlagOpen

/-- The method `CfaMountInfo.Open` of `file.go`. -/
def CfaMountInfo.Open (mount : CfaMountInfo) (path : String) (flags : Nat) (mode : Nat) :
    Except Fault ((Int × Option GoError) × CfaMountInfo) :=
  if mount.checkMount path (openPerm flags) ≠ none then
    .ok ((InvalidHandle, some (GoError.errno E_POSIX_EACCES)), mount)
  else
    let r := mount.cacheState.proxyClient.call
      (ProxyCall.Open path (openFlag flags) (openMode mode))
    if r.1.err ≠ none ∨ r.1.Code ≠ 0 then
      .ok ((InvalidHandle, toErr r.1.err r.1.Code), mount.setProxy r.2)
    else
      -- assign file info.
      let fileEntry : FileEntry :=
        { Id := r.1.Id, BlockSize := DefaultBlockSize, Handle := -1, FilePath := path,
          OpenFlag := flags, Mode := openMode mode, DirectIO := false }
      -- storage fd entry.
      match mount.fileCache.NewFile InvalidHandle fileEntry with
      | .error f => .error f
      | .ok (some _, _, fc) =>
        .ok ((InvalidHandle, some (GoError.errno E_POSIX_EBADF)),
          { mount.setProxy r.2 with fileCache := fc })
      | .ok (none, fd, fc) =>
        match fc.GetFileEntry (fd.toNat % U32) with
        | .error f => .error f
        | .ok (_, some _) => .error .panic
        | .ok (_, none) =>
          -- clean cache.
          match goSliceTo path (strings.LastIndex path '/') with
          | .error f => .error f
          | .ok parent =>
            .ok ((fd, none),
              { mount.setProxy r.2 with
                fileCache := fc
                dentryCache := (mount.dentryCache.Remove parent).2 })

/-- The method `CfaMountInfo.Close` of `file.go`. -/
def CfaMountInfo.Close (mount : CfaMountInfo) (fd : Nat) :
    Except Fault (Option GoError × CfaMountInfo) := do
  let g ← mount.fileCache.GetFileEntry fd
  match g.1 with
  | none => pure (some (GoError.errno E_POSIX_EBADF), mount)
  | some fdEntry =>
    -- flush cache.
    let f ← (if mount.UseRWCache fdEntry then do
        let last ← mount.fileCache.IsLastRefer fdEntry
        if last then RWCache.Close fdEntry mount.cacheState
        else RWCache.Flush fdEntry mount.cacheState
      else .ok (none, mount.cacheState))
    if f.1 ≠ none then
      pure (some (GoError.errno E_POSIX_EBADF), { mount with cacheState := f.2 })
    else
      let c ← mount.fileCache.CloseFile fd
      if c.1 ≠ none then
        pure (some (GoError.errno E_POSIX_EBADF), { mount with cacheState := f.2, fileCache := c.2 })
      else pure (none, { mount with cacheState := f.2, fileCache := c.2 })

/-- The method `CfaMountInfo.Read` of `file.go`; the third component of the result is the
content of `buffer` after the call. -/
def CfaMountInfo.Read (mount : CfaMountInfo) (fd : Nat) (buffer : List Byte) (offset : Nat) :
    Except Fault ((Nat × Option GoError × List Byte) × CfaMountInfo) :=
  -- 512MB
  if buffer.length > 512 * 1024 * 1024 then
    .ok ((0, some (GoError.errno E_POSIX_EIO), buffer), mount)
  else do
    let g ← mount.fileCache.GetFileEntry fd
    match g.1 with
    | none => pure ((0, some (GoError.errno (ToErrno g.2)), buffer), mount)
    | some fdEntry =>
      if fdEntry.OpenFlag &&& O_WRONLY = O_WRONLY then
        pure ((0, some (GoError.errno E_POSIX_EPERM), buffer), mount)
      else
        let r ← (if mount.UseRWCache fdEntry then
            RWCache.Read fdEntry buffer offset mount.cacheState
          else
            .ok ((Reader.Read fdEntry.Id buffer offset mount.cacheState.proxyClient).1,
              { mount.cacheState with
                proxyClient :=
                  (Reader.Read fdEntry.Id buffer offset mount.cacheState.proxyClient).2 }))
        let rdErr := if r.1.2.1 ≠ none then some (GoError.errno (ToErrno r.1.2.1)) else none
        pure ((r.1.1, rdErr, r.1.2.2), { mount with cacheState := r.2 })

/-- The method `CfaMountInfo.Write` of `file.go`. -/
def CfaMountInfo.Write (mount : CfaMountInfo) (fd : Nat) (buffer : List Byte) (offset : Nat) :
    Except Fault ((Int × Option GoError) × CfaMountInfo) :=
  -- 512MB
  if buffer.length > 512 * 1024 * 1024 then
    .ok ((0, some (GoError.errno E_POSIX_EIO)), mount)
  else do
    let g ← mount.fileCache.GetFileEntry fd
    match g.1 with
    | none => pure ((0, some (GoError.errno E_POSIX_EBADF)), mount)
    | some fdEntry =>
      if fdEntry.OpenFlag &&& (O_RDWR ||| O_WRONLY) = 0 then
        pure ((InvalidHandle, some (GoError.errno E_POSIX_EPERM)), mount)
      else
        let r ← (if mount.UseRWCache fdEntry then
            RWCache.Write fdEntry buffer offset mount.cacheState
          else
            .ok ((Writer.Write fdEntry.Id buffer offset mount.cacheState.proxyClient).1,
              { mount.cacheState with
                proxyClient :=
                  (Writer.Write fdEntry.Id buffer offset mount.cacheState.proxyClient).2 }))
        let wtErr := if r.1.2 ≠ none then some (GoError.errno (ToErrno r.1.2)) else none
        -- clean cache.
        pure (((r.1.1 : Int), wtErr),
          { mount with
            cacheState := r.2
            dentryCache := (mount.dentryCache.Remove fdEntry.FilePath).2 })

/-- The method `CfaMountInfo.Rename` of `rename.go`. -/
def CfaMountInfo.Rename (mount : CfaMountInfo) (srcpath dstpath : String) :
    Option GoError × CfaMountInfo :=
  if mount.checkMount srcpath MountModeWrite ≠ none then
    (some (GoError.errno E_POSIX_EACCES), mount)
  else
    let r := mount.cacheState.proxyClient.call (ProxyCall.Rename srcpath dstpath)
    if r.1.err ≠ none then (some (GoError.errno (ToErrno r.1.err)), mount.setProxy r.2)
    else if r.1.Code ≠ 0 then (toErr r.1.err r.1.Code, mount.setProxy r.2)
    else
      -- clean cache.
      (none, { mount.setProxy r.2 with
        dentryCache := ((mount.dentryCache.RemovePrefix srcpath).2.RemovePrefix dstpath).2 })

/-- The method `CfaMountInfo.RmDirTree` of `rm.go`. -/
def CfaMountInfo.RmDirTree (mount : CfaMountInfo) (path : String) :
    Option GoError × CfaMountInfo :=
  if mount.checkMount path MountModeDel ≠ none then
    (some (GoError.errno E_POSIX_EACCES), mount)
  else
    let r := mount.cacheState.proxyClient.call (ProxyCall.RmDirTree path)
    if r.1.err ≠ none ∨ r.1.Code ≠ 0 then (toErr r.1.err r.1.Code, mount.setProxy r.2)
    else
      -- clean cache.
      (none, { mount.setProxy r.2 with dentryCache := (mount.dentryCache.RemovePrefix path).2 })
/-! ## Sample inputs -/

/-- A file entry as `Open` makes it: file id 7, block size 4, opened `O_RDWR`. -/
def sampleEntry : FileEntry :=
  { Id := 7, BlockSize := 4, Handle := -1, FilePath := "/a", OpenFlag := 2, Mode := 0o100644,
    DirectIO := false }

/-- The handle table of two slots after `sampleEntry` was opened once. -/
def sampleTable : FileCache :=
  { fileEntryIndex := 1
    fileEntryVecSize := 2
    fileEntryVec := [some (FileCache.storedEntry 0 sampleEntry), none]
    fileRefer := (GoMap.empty : GoMap Int).set 7 1 }

/-! ## Auxiliary definitions of the statements -/

/-- Whether `FlushBuffer` keeps the buffer after the proxy write returned `err`: an error
other than `E_POSIX_ENOENT`. -/
def WCache.flushKeeps (err : Option GoError) : Bool :=
  match err with
  | none => false
  | some (GoError.errno code) => decide (E_POSIX_ENOENT ≠ code)
  | some _ => true

/-- The state after a flush write whose outcome is `w`, when the buffer `b` (already taken
out of the LRU list, which left the cache core `c`) is detached from block `idx` of the file
buffer `fb` of `fid` and returned to the free list. -/
def CacheState.flushDetached (s : CacheState) (w : (Nat × Option GoError) × ProxyClient)
    (c : BlockCache) (fid idx : Nat) (fb : FileBuffer) (b : Buffer) : CacheState :=
  { s with
    proxyClient := w.2
    wCache := { s.wCache with
      toBlockCache := { c with
        Cache := c.Cache.set fid { fb with BufferMap := fb.BufferMap.del idx }
        FreeList := c.FreeList ++ [b] } } }

/-- The state after a flush write whose outcome is `w`, when the buffer `b` (already taken
out of the LRU list, which left the cache core `c`) stays attached under block `idx` of the
file buffer `fb` of `fid` and is put back at the front of the LRU list. -/
def CacheState.flushKept (s : CacheState) (w : (Nat × Option GoError) × ProxyClient)
    (c : BlockCache) (fid idx : Nat) (fb : FileBuffer) (b : Buffer) : CacheState :=
  { s with
    proxyClient := w.2
    wCache := { s.wCache with
      toBlockCache := { (c.DoLru b s.now).2 with
        Cache := c.Cache.set fid { fb with BufferMap := fb.BufferMap.set idx (c.DoLru b s.now).1 } } } }

/-- A proxy client on a byte store with empty files, before any call. -/
def sampleProxy : ProxyClient := { remote := byteStore (fun _ => []), calls := [] }

/-- The state `NewRWCache` makes with two buffers per cache, no sync-write worker and no
prefetch worker, at clock reading 0. -/
def sampleState : CacheState := NewRWCache sampleProxy 0 2 500 0 0 8

/-- The buffer that the write of the bytes 1, 2 at offset 0 of `sampleEntry` leaves
attached to block 0. -/
def sampleBuffer : Buffer :=
  { Id := 0, fe := some sampleEntry, BlkIdx := 0, Offset := 0, Len := 2, dataBuf := [1, 2, 0, 0],
    LastUpdateTime := 0, elm := true }

/-- The write file buffer of file 7 that holds `sampleBuffer`. -/
def sampleFileBuffer : FileBuffer :=
  { fe := sampleEntry, BufferMap := (GoMap.empty : GoMap Buffer).set 0 sampleBuffer,
    LockMap := GoMap.empty, pw := NewPrefetchWindow }

/-- The state after the bytes 1, 2 were written at offset 0 of `sampleEntry` in
`sampleState`. -/
def sampleDirty : CacheState :=
  { sampleState with
    wCache := { sampleState.wCache with
      FreeList := [NewBuffer 1]
      Cache := (GoMap.empty : GoMap FileBuffer).set 7 sampleFileBuffer
      LruList := [0] } }

/-- The state after `Flush` of `sampleEntry` in `sampleDirty`. -/
def sampleFlushed : CacheState :=
  { sampleDirty with
    proxyClient := { sampleProxy with calls := [ProxyCall.Write 7 [1, 2] 0] }
    wCache := { sampleDirty.wCache with
      FreeList := [NewBuffer 1, { sampleBuffer with elm := false }]
      Cache := (GoMap.empty : GoMap FileBuffer).set 7
        { sampleFileBuffer with BufferMap := GoMap.empty }
      LruList := [] } }

/-- A proxy that accepts its first call and answers every later call with code 1005. -/
def eioAfterFirst : List ProxyCall → ProxyCall → ProxyResp
  | [], _ => { Code := 0, Data := [], err := none }
  | _ :: _, _ => { Code := 1005, Data := [], err := none }

/-- The state `sampleState` in front of the proxy `eioAfterFirst`. -/
def sampleEio : CacheState :=
  { sampleState with proxyClient := { remote := eioAfterFirst, calls := [] } }

/-- The state after the write of eight bytes at offset 0 of `sampleEntry` in `sampleEio`. -/
def sampleEioAfter : CacheState :=
  { sampleEio with
    proxyClient := { remote := eioAfterFirst,
                     calls := [ProxyCall.Write 7 [5, 6, 7, 8] 4, ProxyCall.Write 7 [1, 2, 3, 4] 0] }
    wCache := { sampleEio.wCache with
      Cache := (GoMap.empty : GoMap FileBuffer).set 7 (NewFileBuffer sampleEntry) } }

/-- A proxy that answers every write with code 1003 (the file no longer exists) and every
other call with success. -/
def enoentOnWrite : List ProxyCall → ProxyCall → ProxyResp
  | _, ProxyCall.Write _ _ _ => { Code := 1003, Data := [], err := none }
  | _, ProxyCall.Read _ _ _ => { Code := 0, Data := [], err := none }
  | _, ProxyCall.Fsync _ => { Code := 0, Data := [], err := none }
  | _, ProxyCall.Stat _ => { Code := 0, Data := [], err := none }
  | _, ProxyCall.Open _ _ _ => { Code := 0, Data := [], err := none }
  | _, ProxyCall.Rename _ _ => { Code := 0, Data := [], err := none }
  | _, ProxyCall.RmDirTree _ => { Code := 0, Data := [], err := none }

/-- A mount with the rw-cache enabled: descriptor 0 is the cached handle of `sampleTable`, its
file has the dirty buffer of `sampleDirty`, and the proxy is `enoentOnWrite`. -/
def sampleMount : CfaMountInfo :=
  { Path := "/"
    MountStu := MountStuMounted
    MountMode := MountModeRead ||| MountModeWrite ||| MountModeDel
    fileCache := sampleTable
    dentryCache := NewDentryCache 0 500
    rwCacheOn := true
    cacheState := { sampleDirty with proxyClient := { remote := enoentOnWrite, calls := [] } } }

/-- The state after a one-byte `Read` at offset 0 of `sampleEntry` in `sampleState`: the
read-side file buffer of file 7 exists. -/
def sampleAfterRead : CacheState :=
  { sampleState with
    proxyClient := { sampleProxy with calls := [ProxyCall.Read 7 0 1] }
    rCache := { sampleState.rCache with
      Cache := (GoMap.empty : GoMap FileBuffer).set 7 (NewFileBuffer sampleEntry) } }

/-- The buffer that an empty write at offset 1 of `sampleEntry` attaches to block 0. -/
def sampleEmptyBuffer : Buffer :=
  { Id := 0, fe := some sampleEntry, BlkIdx := 0, Offset := 1, Len := 0, dataBuf := [0, 0, 0, 0],
    LastUpdateTime := 0, elm := true }

/-- The state after an empty write at offset 1 of `sampleEntry` in `sampleState`. -/
def sampleAfterEmptyWrite : CacheState :=
  { sampleState with
    wCache := { sampleState.wCache with
      FreeList := [NewBuffer 1]
      Cache := (GoMap.empty : GoMap FileBuffer).set 7
        { NewFileBuffer sampleEntry with
          BufferMap := (GoMap.empty : GoMap Buffer).set 0 sampleEmptyBuffer }
      LruList := [0] } }


/-! ## Auxiliary definitions of the round trip -/

/-- The byte string `d` stands in `l` from position `pos` on. -/
def holdsAt (l : List Byte) (pos : Nat) (d : List Byte) : Prop :=
  ∀ j, j < d.length → l[pos + j]? = d[j]?

/-- The block operations `Ops` cut the bytes of `buffer` from position `pos` on, written at
file offset `offset + pos`, into the blocks `idx`, `idx + 1`, ...: each op holds its share of
the bytes, lies inside its block, is not empty, and the shares follow one another up to the
end of `buffer`. -/
def OpsCut (fe : FileEntry) (buffer : List Byte) (offset : Nat) :
    Nat → Nat → List RWBlockOp → Prop
  | _, pos, [] => pos = buffer.length
  | idx, pos, op :: Ops =>
    op.fe = fe ∧ op.Index = idx ∧ op.rwBufPos = pos ∧
    idx * fe.BlockSize + op.RwOffset = offset + pos ∧
    0 < op.RwSize ∧ op.RwOffset + op.RwSize ≤ fe.BlockSize ∧
    pos + op.RwSize ≤ buffer.length ∧
    op.rwBuf = (buffer.drop pos).take op.RwSize ∧
    OpsCut fe buffer offset (idx + 1) (pos + op.RwSize) Ops

/-- The block operations of a read of `dataBuf` that correspond to the block operations
`Ops`: the same blocks and ranges, each with its view into `dataBuf`. -/
def readOps (dataBuf : List Byte) (Ops : List RWBlockOp) : List RWBlockOp :=
  Ops.map (fun op => { op with rwBuf := (dataBuf.drop op.rwBufPos).take op.RwSize })

/-- The content of file `fid` at the byte store, after the calls made so far. -/
def CacheState.content (init : Nat → List Byte) (fid : Nat) (s : CacheState) : List Byte :=
  storeContent init fid s.proxyClient.calls

/-- A buffer as the write cache keeps it attached under block `k` of file `fid` with block
size `bs`: it carries a file entry of that file, its own block index, its data lie inside the
block, and `dataBuf` has room for a block. -/
def Buffer.WellAttached (fid bs k : Nat) (buf : Buffer) : Prop :=
  (∃ fe, buf.fe = some fe ∧ fe.Id = fid ∧ fe.BlockSize = bs) ∧ buf.BlkIdx = k ∧
    buf.Offset + buf.Len ≤ bs ∧ bs ≤ buf.dataBuf.length

/-- Every buffer attached in the write cache to file `fid` is well attached. -/
def CacheState.WriteSide (fid bs : Nat) (s : CacheState) : Prop :=
  ∀ fb k buf, s.wCache.Cache.get fid = some fb → fb.BufferMap.get k = some buf →
    buf.WellAttached fid bs k

/-- The bytes `d` written at offset `rwOffset` of block `idx` of file `fid` are held by the
write cache (the attached buffer of the block covers the range and holds the bytes) or, when
the block has no buffer, by the byte store. -/
def CacheState.Holds (init : Nat → List Byte) (fid bs : Nat) (s : CacheState)
    (idx rwOffset : Nat) (d : List Byte) : Prop :=
  ∃ fb, s.wCache.Cache.get fid = some fb ∧
    ((∃ buf, fb.BufferMap.get idx = some buf ∧ buf.Offset ≤ rwOffset ∧
        rwOffset + d.length ≤ buf.Offset + buf.Len ∧
        buf.Offset + buf.Len ≤ buf.dataBuf.length ∧ holdsAt buf.dataBuf rwOffset d) ∨
     (fb.BufferMap.get idx = none ∧ holdsAt (s.content init fid) (idx * bs + rwOffset) d))

/-- A step of the write cache on block `idx` of file `fid`: the read cache, the remote and
the sync channel stay, the lock table of the file is the same afterwards, the buffers of the
other blocks stay, the calls added are writes to `fid` inside block `idx`, and attached
buffers stay well attached. -/
structure BlockStep (fid bs idx : Nat) (s s1 : CacheState) : Prop where
  remote : s1.proxyClient.remote = s.proxyClient.remote
  rCache : s1.rCache = s.rCache
  chSync : s1.wCache.chSync = s.wCache.chSync
  calls : ∃ ws, s1.proxyClient.calls = ws ++ s.proxyClient.calls ∧
    ∀ w ∈ ws, ∃ data o, w = ProxyCall.Write fid data o ∧ idx * bs ≤ o ∧
      o + data.length ≤ (idx + 1) * bs
  fileBuf : ∃ fb fb1, s.wCache.Cache.get fid = some fb ∧ s1.wCache.Cache.get fid = some fb1 ∧
    fb1.LockMap = fb.LockMap ∧ ∀ k, k ≠ idx → fb1.BufferMap.get k = fb.BufferMap.get k
  attached : s.WriteSide fid bs → s1.WriteSide fid bs

/-- The cache core with the file buffer of `fid` replaced by `fb`. -/
def BlockCache.setFileBuf (c : BlockCache) (fid : Nat) (fb : FileBuffer) : BlockCache :=
  { c with Cache := c.Cache.set fid fb }

/-- The bytes `d` are held for block `idx` of file `fid`, and the block is not locked in the
write cache. -/
def CacheState.Held (init : Nat → List Byte) (fid bs : Nat) (s : CacheState)
    (idx rwOffset : Nat) (d : List Byte) : Prop :=
  s.Holds init fid bs idx rwOffset d ∧
    ∃ fb, s.wCache.Cache.get fid = some fb ∧ fb.LockMap.get idx = none

/-- Block `idx` of file `fid` has neither a buffer nor a lock in the read cache. -/
def CacheState.ReadFree (fid : Nat) (s : CacheState) (idx : Nat) : Prop :=
  ∀ fbr, s.rCache.Cache.get fid = some fbr →
    fbr.BufferMap.get idx = none ∧ fbr.LockMap.get idx = none

/-- The state `NewRWCache` makes with two buffers per cache, no sync-write worker, one
prefetch worker and `PrefetchTimes = 0`, on the empty byte store. -/
def samplePrefetch : CacheState := NewRWCache sampleProxy 0 2 500 0 1 0

/-- The state after a `Read` of five bytes at offset 0 of `sampleEntry` in `samplePrefetch`:
the prefetch window of the file is the empty window at block 2. -/
def samplePrefetchRead : CacheState :=
  { samplePrefetch with
    proxyClient := { sampleProxy with calls := [ProxyCall.Read 7 4 1, ProxyCall.Read 7 0 4] }
    rCache := { samplePrefetch.rCache with
      Cache := (GoMap.empty : GoMap FileBuffer).set 7
        { NewFileBuffer sampleEntry with pw := { BlkStart := 2, BlkEnd := 2 } } } }

/-- The state after the `Write` of eight bytes at offset 4 of `sampleEntry` in
`samplePrefetchRead`: both blocks went to the byte store. -/
def samplePrefetchWritten : CacheState :=
  { samplePrefetchRead with
    proxyClient := { sampleProxy with
      calls := [ProxyCall.Write 7 [5, 6, 7, 8] 8, ProxyCall.Write 7 [1, 2, 3, 4] 4,
        ProxyCall.Read 7 4 1, ProxyCall.Read 7 0 4] }
    wCache := { samplePrefetchRead.wCache with
      Cache := (GoMap.empty : GoMap FileBuffer).set 7 (NewFileBuffer sampleEntry) } }

/-! ## Auxiliary definitions of the statements: the LRU cache, the dentry cache, the facade -/

/-- One call of a method of `LRUCache`, with the clock reading at the call. -/
inductive LRUOp (κ ν : Type) where
  | Set (k : κ) (v : ν) (now : Int)
  | SetExpire (k : κ) (v : ν) (d : Int) (now : Int)
  | Get (k : κ) (now : Int)
  | Remove (k : κ)
deriving DecidableEq, Repr

/-- The cache after one call. -/
def LRUCache.apply {κ ν : Type} [DecidableEq κ] (lru : LRUCache κ ν) :
    LRUOp κ ν → LRUCache κ ν
  | LRUOp.Set k v now => (lru.Set k v now).2
  | LRUOp.SetExpire k v d now => (lru.SetExpire k v d now).2
  | LRUOp.Get k now => (lru.Get k now).2
  | LRUOp.Remove k => (lru.Remove k).2

/-- The key that a call uses: the key that it sets, or that it reads with success. -/
def LRUCache.usedKey {κ ν : Type} [DecidableEq κ] (lru : LRUCache κ ν) :
    LRUOp κ ν → Option κ
  | LRUOp.Set k _ _ => some k
  | LRUOp.SetExpire k _ _ _ => some k
  | LRUOp.Get k now => if (lru.Get k now).1.2.1 then some k else none
  | LRUOp.Remove _ => none

/-- A cache with the history of its use: the number of calls made so far and, for each key,
the number of the last call that used it. -/
structure LRUHistory (κ ν : Type) where
  lru : LRUCache κ ν
  step : Nat
  lastUse : κ → Option Nat

/-- The history of a cache on which no call was made. -/
def LRUHistory.start {κ ν : Type} (lru : LRUCache κ ν) : LRUHistory κ ν :=
  { lru := lru, step := 0, lastUse := fun _ => none }

/-- One call, recorded. -/
def LRUHistory.apply {κ ν : Type} [DecidableEq κ] (h : LRUHistory κ ν) (op : LRUOp κ ν) :
    LRUHistory κ ν :=
  { lru := h.lru.apply op
    step := h.step + 1
    lastUse := fun x => if h.lru.usedKey op = some x then some h.step else h.lastUse x }

/-- A sequence of calls, recorded. -/
def LRUHistory.run {κ ν : Type} [DecidableEq κ] (h : LRUHistory κ ν) (ops : List (LRUOp κ ν)) :
    LRUHistory κ ν :=
  ops.foldl LRUHistory.apply h

/-- The last use of key `a` lies before the last use of key `b`. -/
def LRUHistory.Before {κ ν : Type} (h : LRUHistory κ ν) (a b : κ) : Prop :=
  ∃ i j, h.lastUse a = some i ∧ h.lastUse b = some j ∧ i < j

/-- The list `dlist` is in the order of use, latest first, and within the capacity. -/
def LRUHistory.Inv {κ ν : Type} (h : LRUHistory κ ν) : Prop :=
  (h.lru.dlist.length : Int) ≤ h.lru.Capacity ∧
  h.lru.dlist.Pairwise (fun a b => h.Before b.Key a.Key) ∧
  ∀ n ∈ h.lru.dlist, ∃ i, h.lastUse n.Key = some i ∧ i < h.step

/-- The cache after a sequence of calls. -/
def LRUCache.run {κ ν : Type} [DecidableEq κ] (lru : LRUCache κ ν) (ops : List (LRUOp κ ν)) :
    LRUCache κ ν :=
  ops.foldl LRUCache.apply lru

/-- The call is a `Set`, `SetExpire` or `Remove` of the key `k`. -/
def LRUOp.Changes {κ ν : Type} [DecidableEq κ] (k : κ) : LRUOp κ ν → Bool
  | LRUOp.Set k1 _ _ => decide (k1 = k)
  | LRUOp.SetExpire k1 _ _ _ => decide (k1 = k)
  | LRUOp.Get _ _ => false
  | LRUOp.Remove k1 => decide (k1 = k)


/-- The node that the dentry cache holds for the path `k`, if any. -/
def DentryCache.node (cache : DentryCache) (k : String) : Option (CacheNode String Dentry) :=
  match cache.dentryCache with
  | none => none
  | some lru => lru.cacheMap k

/-- A file dentry of inode 1 with the name `n` and no attributes. -/
def sampleDentry (n : String) : Dentry :=
  { Name := n, Inode := 1, Typ := DentryTypeFile, Info := none }

/-- The mount `sampleMount` in front of the byte store: descriptor 0 is the cached handle of
file 7, whose dirty buffer is the one of `sampleDirty`. -/
def sampleStoreMount : CfaMountInfo :=
  { sampleMount with cacheState := sampleDirty }

/-- The statement `if err != nil { err = ToErrno(err) }` at the end of the facade `Read` and
`Write`. -/
def errnoOf (err : Option GoError) : Option GoError :=
  if err ≠ none then some (GoError.errno (ToErrno err)) else none

/-- A proxy that answers every call with code 1007. -/
def epermProxy : List ProxyCall → ProxyCall → ProxyResp :=
  fun _ _ => { Code := 1007, Data := [], err := none }

/-- The handle table of two slots after file 7 was opened once with `O_RDONLY`. -/
def sampleReadOnlyTable : FileCache :=
  { fileEntryIndex := 1
    fileEntryVecSize := 2
    fileEntryVec := [some (FileCache.storedEntry 0 { sampleEntry with OpenFlag := 0 }), none]
    fileRefer := (GoMap.empty : GoMap Int).set 7 1 }

/-- A mount without rw-cache in front of `epermProxy`, with the handle table `table`. -/
def samplePermMount (table : FileCache) : CfaMountInfo :=
  { sampleMount with
    fileCache := table
    rwCacheOn := false
    cacheState := { sampleState with proxyClient := { remote := epermProxy, calls := [] } } }

/-- A proxy that answers `Stat` with a regular file of inode 7 and size 1, and every other
call with success. -/
def statProxy : List ProxyCall → ProxyCall → ProxyResp
  | _, ProxyCall.Stat _ =>
    { Code := 0, Data := [], err := none, Info := { Inode := 7, Mode := 0o644, Size := 1 } }
  | _, _ => { Code := 0, Data := [], err := none }

/-- A mount with a dentry cache of four entries in front of `statProxy`; file 7 has the dirty
buffer of `sampleDirty`, whose tail offset is 2. -/
def sampleStatMount : CfaMountInfo :=
  { sampleMount with
    dentryCache := NewDentryCache 4 500
    cacheState := { sampleDirty with proxyClient := { remote := statProxy, calls := [] } } }

/-- A dentry of the directory `/`. -/
def rootDentry : Dentry :=
  { Name := "/", Inode := 1, Typ := DentryTypeDir, Info := some { Inode := 1, Mode := fs.ModeDir } }

/-- A mount with an empty handle table of two slots whose dentry cache holds the directory
`/`, in front of the byte store, which answers `Open` with success and file id 0. -/
def sampleOpenMount : CfaMountInfo :=
  { sampleMount with
    fileCache := NewFileCache 2
    dentryCache := { dentryCache := some { Capacity := 4, dlist := [CacheNode.mk "/" rootDentry 0] },
                     expireMs := 500 }
    cacheState := sampleState }

/-! ## Sample inputs of the block-operation statements -/

/-- The block operation that `Slice` makes for the bytes 5, 6, 7 written at offset 1 of
`sampleEntry`: it starts inside block 0 and ends at the end of the block. -/
def sampleTailOp : RWBlockOp :=
  { fe := sampleEntry, Index := 0, RwOffset := 1, RwSize := 3, rwBuf := [5, 6, 7], rwBufPos := 0 }

/-! ## Package `log`: the level of a level name -/

/-- The type `zapcore.Level` of the zap library, an `int8`. -/
abbrev zapcore.Level := Int

/-- The constant `zap.DebugLevel`. -/
def zap.DebugLevel : zapcore.Level := -1

/-- The constant `zap.InfoLevel`. -/
def zap.InfoLevel : zapcore.Level := 0

/-- The constant `zap.WarnLevel`. -/
def zap.WarnLevel : zapcore.Level := 1

/-- The constant `zap.ErrorLevel`. -/
def zap.ErrorLevel : zapcore.Level := 2

/-- The constant `zap.DPanicLevel`. -/
def zap.DPanicLevel : zapcore.Level := 3

/-- The constant `zap.PanicLevel`. -/
def zap.PanicLevel : zapcore.Level := 4

/-- The constant `zap.FatalLevel`. -/
def zap.FatalLevel : zapcore.Level := 5

/-- The library function `strings.ToLower` on a string of runes: every rune is mapped by
`unicode.ToLower`. The case table of the Go library is not part of the repository: it is the
parameter `lower`. -/
def strings.ToLower (lower : Char → Char) (s : String) : String := ⟨s.data.map lower⟩

/-- The function `strToLevel` of `lib/log/logger.go`: a switch on `strings.ToLower(s)`. -/
def strToLevel (lower : Char → Char) (s : String) : zapcore.Level :=
  match strings.ToLower lower s with
  | "debug" => zap.DebugLevel
  | "info" => zap.InfoLevel
  | "warn" => zap.WarnLevel
  | "error" => zap.ErrorLevel
  | "dpanic" => zap.DPanicLevel
  | "panic" => zap.PanicLevel
  | "fatal" => zap.FatalLevel
  | _ => zap.InfoLevel

/-! ## Package `config`: comment stripping -/

/-- The loop of `trimCommentsLine` from index `i` on. The first argument is `line[i:]`, so
`i = lastIdx` when it has one byte; `quoteCount` and `newLine` are the variables of the loop.
The bytes 92, 34, 35 and 47 are the backslash, the double quote, `#` and `/`. -/
def trimCommentsLoop : List Byte → Nat → List Byte → List Byte
  | [], _, newLine => newLine
  | [c], quoteCount, newLine =>
    let quoteCount := if c = 34 then quoteCount + 1 else quoteCount
    if c = 35 ∧ quoteCount % 2 = 0 then newLine
    else newLine ++ [c]
  | c :: d :: rest, quoteCount, newLine =>
    if c = 92 ∧ (d = 92 ∨ d = 34) then trimCommentsLoop rest quoteCount (newLine ++ [c, d])
    else
      let quoteCount := if c = 34 then quoteCount + 1 else quoteCount
      if c = 35 ∧ quoteCount % 2 = 0 then newLine
      else if c = 47 ∧ d = 47 ∧ quoteCount % 2 = 0 then newLine
      else trimCommentsLoop (d :: rest) quoteCount (newLine ++ [c])

/-- The function `trimCommentsLine` of `lib/config/config.go`. -/
def trimCommentsLine (line : List Byte) : List Byte := trimCommentsLoop line 0 []

/-- The library function `bytes.Split` for a separator of one byte. -/
def bytes.Split (s : List Byte) (sep : Byte) : List (List Byte) := s.splitOn sep

/-- The library function `bytes.Join` for a separator of one byte. -/
def bytes.Join (s : List (List Byte)) (sep : Byte) : List Byte := [sep].intercalate s

/-- The function `trimComments`: the lines of `data` (split at the byte 10, the line feed),
each one trimmed, joined again. -/
def trimComments (data : List Byte) : List Byte :=
  bytes.Join ((bytes.Split data 10).map trimCommentsLine) 10

/-- The function `loadConfigBytes`. The library function `json.Unmarshal` is the parameter
`unmarshal`: from the bytes and the value behind `conf` to the value stored and the error. -/
def loadConfigBytes {γ : Type} (unmarshal : List Byte → γ → γ × Option GoError) (conf : γ)
    (data : List Byte) : γ × Option GoError :=
  let data := trimComments data
  match unmarshal data conf with
  | (conf1, some err) => (conf1, some (GoError.wrap "parse failed" err))
  | (conf1, none) => (conf1, none)

/-- The function `LoadBytes`. -/
def LoadBytes {γ : Type} (unmarshal : List Byte → γ → γ × Option GoError) (conf : γ)
    (src : List Byte) : γ × Option GoError :=
  loadConfigBytes unmarshal conf src

/-- Following the words of the specification: the index of the first `#` or `//` of a line
that stands outside a double-quoted string. The line is read from the left; `quoted` tells
whether the position is inside a string; a backslash followed by a backslash or a double quote
is passed over as a pair and does not toggle quoting. -/
def commentStart : List Byte → Bool → Option Nat
  | [], _ => none
  | [c], quoted => if quoted = false ∧ c = 35 then some 0 else none
  | c :: d :: rest, quoted =>
    if c = 92 ∧ (d = 92 ∨ d = 34) then (commentStart rest quoted).map (· + 2)
    else if c = 34 then (commentStart (d :: rest) (!quoted)).map (· + 1)
    else if quoted = false ∧ (c = 35 ∨ (c = 47 ∧ d = 47)) then some 0
    else (commentStart (d :: rest) quoted).map (· + 1)

/-- The part of `line` kept when the comment starts at `start`: the bytes before it, or the
whole line when there is no comment. -/
def keptPrefix (line : List Byte) (start : Option Nat) : List Byte :=
  match start with
  | some i => line.take i
  | none => line

/-- The bytes of a Go string literal of ASCII characters. -/
def asciiBytes (s : String) : List Byte := s.data.map Char.toNat

/-- A configuration text in the style of `TestLoadBytes`: JSON with a `#` comment, a `//`
comment behind a string that holds an escaped double quote, and a `#` inside a string. -/
def sampleConfigText : List Byte :=
  asciiBytes "\x7b\n \"id\": 123, #note\n \"name\": \"\\\"t#m\", //name\n \"other\": true\n\x7d"

/-- The text `sampleConfigText` with its two comments cut away. -/
def sampleConfigStripped : List Byte :=
  asciiBytes "\x7b\n \"id\": 123, \n \"name\": \"\\\"t#m\", \n \"other\": true\n\x7d"

/-- A stand-in for `json.Unmarshal` in sample runs: it stores the number of bytes it was
given and accepts every text. -/
def sampleUnmarshal (data : List Byte) (_ : Nat) : Nat × Option GoError := (data.length, none)

/-- The block operation of a read of the whole block 0 of `sampleEntry`, with a zeroed view. -/
def sampleReadOp : RWBlockOp :=
  { fe := sampleEntry, Index := 0, RwOffset := 0, RwSize := 4, rwBuf := [0, 0, 0, 0],
    rwBufPos := 0 }

/-! ## The lock table of a file buffer as a state machine -/

/-- The two kinds of block lock: `WriteLock` (exclusive) and `ReadLock` (shared). -/
inductive LockKind where
  | exclusive
  | shared
deriving DecidableEq, Repr

/-- A lock that a holder (a goroutine) took on a block and has not released yet. -/
structure Hold where
  holder : Nat
  blkIdx : Nat
  kind : LockKind
deriving DecidableEq, Repr

/-- A call of one of the four lock methods of `FileBuffer`. -/
inductive LockOp where
  | LockBuffer (blkIdx : Nat)
  | UnLockBuffer (blkIdx : Nat)
  | RLockBuffer (blkIdx : Nat)
  | RUnLockBuffer (blkIdx : Nat)
deriving DecidableEq, Repr

/-- A file buffer together with the locks that are outstanding (the history variable of the
lock table). -/
structure LockState where
  fileBuf : FileBuffer
  holds : List Hold

/-- One atomic step: `holder` calls the lock method `op`. A lock call that returns adds its
hold; an unlock call that returns removes one hold of the caller. -/
def LockOp.apply (holder : Nat) (op : LockOp) (st : LockState) : Except Fault LockState :=
  match op with
  | .LockBuffer blkIdx => do
    let fileBuf ← st.fileBuf.LockBuffer blkIdx
    pure { fileBuf := fileBuf, holds := ⟨holder, blkIdx, .exclusive⟩ :: st.holds }
  | .UnLockBuffer blkIdx => do
    let fileBuf ← st.fileBuf.UnLockBuffer blkIdx
    pure { fileBuf := fileBuf, holds := st.holds.erase ⟨holder, blkIdx, .exclusive⟩ }
  | .RLockBuffer blkIdx => do
    let fileBuf ← st.fileBuf.RLockBuffer blkIdx
    pure { fileBuf := fileBuf, holds := ⟨holder, blkIdx, .shared⟩ :: st.holds }
  | .RUnLockBuffer blkIdx => do
    let fileBuf ← st.fileBuf.RUnLockBuffer blkIdx
    pure { fileBuf := fileBuf, holds := st.holds.erase ⟨holder, blkIdx, .shared⟩ }

/-- The call `op` of `holder` is balanced: an unlock releases a lock of the same kind that the
caller took on that block and still holds. -/
def LockOp.Balanced (holder : Nat) (op : LockOp) (holds : List Hold) : Prop :=
  match op with
  | .LockBuffer _ => True
  | .UnLockBuffer blkIdx => ⟨holder, blkIdx, .exclusive⟩ ∈ holds
  | .RLockBuffer _ => True
  | .RUnLockBuffer blkIdx => ⟨holder, blkIdx, .shared⟩ ∈ holds

/-- The states of the lock table that balanced callers reach from a file buffer without
locks: each step is a lock call that returned, and between the steps the other fields of the
file buffer may change. -/
inductive LockState.Reachable : LockState → Prop where
  | init (fileBuf : FileBuffer) (h : ∀ blkIdx, fileBuf.LockMap.get blkIdx = none) :
    LockState.Reachable { fileBuf := fileBuf, holds := [] }
  | step {st st1 : LockState} (holder : Nat) (op : LockOp) (h : LockState.Reachable st)
    (hb : op.Balanced holder st.holds) (hs : op.apply holder st = .ok st1) :
    LockState.Reachable st1
  | frame {st : LockState} (fileBuf : FileBuffer) (h : LockState.Reachable st)
    (hl : fileBuf.LockMap = st.fileBuf.LockMap) :
    LockState.Reachable { fileBuf := fileBuf, holds := st.holds }

/-- The number of outstanding exclusive holds on block `blkIdx`. -/
def exclusiveHolders (holds : List Hold) (blkIdx : Nat) : Nat :=
  holds.countP (fun h => decide (h.blkIdx = blkIdx ∧ h.kind = LockKind.exclusive))

/-- The number of outstanding shared holds on block `blkIdx`. -/
def sharedHolders (holds : List Hold) (blkIdx : Nat) : Nat :=
  holds.countP (fun h => decide (h.blkIdx = blkIdx ∧ h.kind = LockKind.shared))

/-- The lock entry of a block agrees with the outstanding holds: no entry and no holder, an
exclusive entry with `refer = 0` and exactly one holder, which is exclusive, or a shared entry
whose `refer ≥ 1` is the number of shared holders, with no exclusive holder. -/
def LockState.EntryOk (st : LockState) (blkIdx : Nat) : Prop :=
  match st.fileBuf.LockMap.get blkIdx with
  | none => exclusiveHolders st.holds blkIdx = 0 ∧ sharedHolders st.holds blkIdx = 0
  | some v =>
    (v.tp = WriteLock ∧ v.refer = 0 ∧ exclusiveHolders st.holds blkIdx = 1 ∧
      sharedHolders st.holds blkIdx = 0) ∨
    (v.tp = ReadLock ∧ 1 ≤ v.refer ∧ v.refer = (sharedHolders st.holds blkIdx : Int) ∧
      exclusiveHolders st.holds blkIdx = 0)

/-- The state reached by three lock calls: holder 1 locks block 3, holders 2 and 3 take the
shared lock of block 5. -/
def sampleLockState : LockState :=
  { fileBuf := { NewFileBuffer sampleEntry with
      LockMap := (((GoMap.empty : GoMap CacheLock).set 3 { tp := WriteLock, refer := 0 }).set 5
        { tp := ReadLock, refer := 1 }).set 5 { tp := ReadLock, refer := 2 } }
    holds := [⟨3, 5, .shared⟩, ⟨2, 5, .shared⟩, ⟨1, 3, .exclusive⟩] }


/-! ## Shapes of the cache core after a block operation -/

/-- The cache core after the buffer `b` is stored under block `idx` of the file buffer `fb`
of file `fid`. -/
def BlockCache.withBuffer (c : BlockCache) (fid idx : Nat) (fb : FileBuffer) (b : Buffer) :
    BlockCache :=
  { c with Cache := c.Cache.set fid { fb with BufferMap := fb.BufferMap.set idx b } }

/-- The cache core after `DoLru(b)` with `b` stored under block `idx` of the file buffer `fb`
of file `fid`: the buffer is attached and stands at the front of the LRU list. -/
def BlockCache.linked (c : BlockCache) (fid idx : Nat) (fb : FileBuffer) (b : Buffer)
    (now : Nat) : BlockCache :=
  (c.DoLru b now).2.withBuffer fid idx fb (c.DoLru b now).1

/-- The cache core after `DetachBuffer(idx)` on the file buffer `fb` of file `fid` and
`FreeBuffer(b)`: the block has no buffer and `b` is at the back of the free list. -/
def BlockCache.released (c : BlockCache) (fid idx : Nat) (fb : FileBuffer) (b : Buffer) :
    BlockCache :=
  { c with
    Cache := c.Cache.set fid { fb with BufferMap := fb.BufferMap.del idx }
    FreeList := c.FreeList ++ [b] }

/-- The buffer `buf` after `ReSet(fe, op.Index)`, `Skip(op.RwOffset)` and
`MergeData(op.rwBuf)`: it holds exactly the bytes of the op. -/
def Buffer.loaded (buf : Buffer) (fe : FileEntry) (op : RWBlockOp) (now : Nat) : Buffer :=
  { buf with
    fe := some fe
    BlkIdx := op.Index
    Offset := op.RwOffset
    Len := op.rwBuf.length
    dataBuf := goCopyAt
      (if buf.dataBuf.length % U32 < fe.BlockSize then List.replicate fe.BlockSize 0
        else buf.dataBuf) op.RwOffset op.rwBuf
    LastUpdateTime := now
    elm := false }

/-- The block operation of a write of the byte 9 at offset 0 of `sampleEntry`. -/
def sampleRewriteOp : RWBlockOp :=
  { fe := sampleEntry, Index := 0, RwOffset := 0, RwSize := 1, rwBuf := [9], rwBufPos := 0 }

/-- The buffer `buf` after `MergeData(op.rwBuf)`. -/
def Buffer.merged (buf : Buffer) (op : RWBlockOp) (now : Nat) : Buffer :=
  { buf with
    dataBuf := goCopyAt buf.dataBuf (buf.Offset + buf.Len) op.rwBuf
    Len := buf.Len + op.rwBuf.length
    LastUpdateTime := now }

/-- The state after the buffer of block `idx` of file `fid` is sent into `chSync`. -/
def CacheState.queued (s : CacheState) (fid idx : Nat) : CacheState :=
  { s with wCache := { s.wCache with
      chSync := s.wCache.chSync.map (fun q => q ++ [(fid, idx)]) } }

/-! ## The buffer pool: where the buffers are -/

/-- The buffers of a block map, in the order of the map. -/
def buffersOf (BufferMap : GoMap Buffer) : List Buffer := BufferMap.entries.map Prod.snd

/-- The buffers attached to the file buffer `fb`. -/
def FileBuffer.buffers (fb : FileBuffer) : List Buffer := buffersOf fb.BufferMap

/-- The buffers attached to the file buffers of the map `Cache`. -/
def attachedOf (Cache : GoMap FileBuffer) : List Buffer :=
  Cache.entries.flatMap (fun p => p.2.buffers)

/-- The buffers attached to some file buffer of the cache. -/
def BlockCache.attached (c : BlockCache) : List Buffer := attachedOf c.Cache

/-- The pool of `m` buffers is accounted for: the free list `F` and the attached buffers `A`
hold each pool id `0 .. m-1` exactly once between them, free buffers are not linked, the LRU
list `L` has no duplicates, an attached buffer is flagged as linked exactly when its id is in
`L`, and every id in `L` is the id of an attached buffer. -/
structure PoolOk (m : Nat) (F A : List Buffer) (L : List Nat) : Prop where
  pool : ((F ++ A).map Buffer.Id).Perm (List.range m)
  free : ∀ b ∈ F, b.elm = false
  lru : L.Nodup
  linked : ∀ b ∈ A, (b.elm = true ↔ b.Id ∈ L)
  lruAttached : ∀ i ∈ L, ∃ b ∈ A, b.Id = i

/-- The pool while one buffer, with pool id `i`, is held by a running operation: it is
neither in the free list nor attached nor linked. -/
structure PoolHand (m : Nat) (F A : List Buffer) (L : List Nat) (i : Nat) : Prop where
  pool : (i :: (F ++ A).map Buffer.Id).Perm (List.range m)
  free : ∀ b ∈ F, b.elm = false
  lru : L.Nodup
  linked : ∀ b ∈ A, (b.elm = true ↔ b.Id ∈ L)
  lruAttached : ∀ i ∈ L, ∃ b ∈ A, b.Id = i

/-- A buffer as a cache with block size `bs` keeps it attached: it carries a file entry with
that block size, its data range lies inside the block, and `dataBuf` has room for a block. -/
def Buffer.Fits (bs : Nat) (b : Buffer) : Prop :=
  (∃ fe, b.fe = some fe ∧ fe.BlockSize = bs) ∧ b.Offset + b.Len ≤ bs ∧ bs ≤ b.dataBuf.length

/-- The invariant of a cache core with block size `bs` and a pool of `m` buffers: the maps
have one entry per key, every attached buffer fits its block, and the pool is accounted
for. -/
structure BlockCache.Sound (bs m : Nat) (c : BlockCache) : Prop where
  keys : c.Cache.keys.Nodup
  bkeys : ∀ fid fb, c.Cache.get fid = some fb → fb.BufferMap.keys.Nodup
  fits : ∀ fid fb idx b, c.Cache.get fid = some fb → fb.BufferMap.get idx = some b →
    b.Fits bs
  pool : PoolOk m c.FreeList c.attached c.LruList

/-- The effect of one block operation on a cache core: a change of a file buffer that leaves
its block map alone, a new or dropped file buffer without buffers, or the move of one buffer
between the free list, a block of a file buffer and the LRU list. -/
inductive BlockCache.Move (bs : Nat) : BlockCache → BlockCache → Prop where
  | frame (c : BlockCache) (fid : Nat) (fb fb1 : FileBuffer)
    (hfb : c.Cache.get fid = some fb) (hb : fb1.BufferMap = fb.BufferMap) :
    BlockCache.Move bs c { c with Cache := c.Cache.set fid fb1 }
  | newFile (c : BlockCache) (fid : Nat) (fb1 : FileBuffer)
    (hfb : c.Cache.get fid = none) (hb : fb1.BufferMap = GoMap.empty) :
    BlockCache.Move bs c { c with Cache := c.Cache.set fid fb1 }
  | dropFile (c : BlockCache) (fid : Nat) (fb : FileBuffer)
    (hfb : c.Cache.get fid = some fb) (hb : fb.BufferMap.entries = []) :
    BlockCache.Move bs c { c with Cache := c.Cache.del fid }
  | relink (c : BlockCache) (fid idx : Nat) (fb : FileBuffer) (b0 b : Buffer) (now : Nat)
    (hfb : c.Cache.get fid = some fb) (hb0 : fb.BufferMap.get idx = some b0)
    (hid : b.Id = b0.Id) (helm : b.elm = false) (hfit : b0.Fits bs → b.Fits bs) :
    BlockCache.Move bs c ((c.RemoveLru b0).2.linked fid idx fb b now)
  | park (c : BlockCache) (fid idx : Nat) (fb : FileBuffer) (b0 b : Buffer)
    (hfb : c.Cache.get fid = some fb) (hb0 : fb.BufferMap.get idx = some b0)
    (hid : b.Id = b0.Id) (helm : b.elm = false) (hfit : b0.Fits bs → b.Fits bs) :
    BlockCache.Move bs c ((c.RemoveLru b0).2.withBuffer fid idx fb b)
  | release (c : BlockCache) (fid idx : Nat) (fb : FileBuffer) (b0 b : Buffer)
    (hfb : c.Cache.get fid = some fb) (hb0 : fb.BufferMap.get idx = some b0)
    (hid : b.Id = b0.Id) (helm : b.elm = false) :
    BlockCache.Move bs c ((c.RemoveLru b0).2.released fid idx fb b)
  | attach (c : BlockCache) (fid idx : Nat) (fb : FileBuffer) (f0 : Buffer)
    (rest : List Buffer) (b : Buffer) (now : Nat)
    (hfb : c.Cache.get fid = some fb) (hnone : fb.BufferMap.get idx = none)
    (hfree : c.FreeList = f0 :: rest) (hid : b.Id = f0.Id) (helm : b.elm = false)
    (hfit : b.Fits bs) :
    BlockCache.Move bs c
      ((BlockCache.mk c.BufferMax rest c.Cache c.LruList c.ExpireTime c.Stop).linked fid idx fb
        b now)
  | attachParked (c : BlockCache) (fid idx : Nat) (fb : FileBuffer) (f0 : Buffer)
    (rest : List Buffer) (b : Buffer)
    (hfb : c.Cache.get fid = some fb) (hnone : fb.BufferMap.get idx = none)
    (hfree : c.FreeList = f0 :: rest) (hid : b.Id = f0.Id) (helm : b.elm = false)
    (hfit : b.Fits bs) :
    BlockCache.Move bs c
      ((BlockCache.mk c.BufferMax rest c.Cache c.LruList c.ExpireTime c.Stop).withBuffer fid idx
        fb b)

/-! ## LRU expiry (`LruExpire`, `CheckExpire`) -/

/-- The attached buffers of a cache core, each with the file id and the block index under
which it is attached. -/
def BlockCache.places (cache : BlockCache) : List (Nat × Nat × Buffer) :=
  cache.Cache.entries.flatMap
    (fun p => p.2.BufferMap.entries.map (fun q => (p.1, q.1, q.2)))

/-- Dereference of a member of `LruList`, which the model names by its pool id: the attached
buffer with that id and its place. -/
def BlockCache.findBuffer (cache : BlockCache) (Id : Nat) : Option (Nat × Nat × Buffer) :=
  cache.places.find? (fun t => decide (t.2.2.Id = Id))

/-- The methods `WCache.LruExpire` and `RCache.LruExpire` at the clock reading `now`, in
nanoseconds; `ExpireTime` is in milliseconds. The result is `(fe, blkIdx)` and the cache core
after the call. A member of `LruList` that is attached nowhere has no buffer in the model:
`Fault.runtime`. -/
def BlockCache.LruExpire (cache : BlockCache) (now : Nat) :
    Except Fault ((Option FileEntry × Nat) × BlockCache) :=
  match cache.LruList.getLast? with
  | none => .ok ((none, 0), cache)
  | some Id =>
    match cache.findBuffer Id with
    | none => .error .runtime
    | some (fid, blkIdx, buffer) => do
      Assert buffer.elm
      if now - buffer.LastUpdateTime < 1000000 * cache.ExpireTime then pure ((none, 0), cache)
      else
        let cache1 ← ({ cache with LruList := cache.LruList.erase buffer.Id } : BlockCache).putBuffer
          fid blkIdx { buffer with elm := false }
        pure ((buffer.fe, buffer.BlkIdx), cache1)

/-- One iteration of the inner loop of `WCache.CheckExpire`; the first component tells
whether the loop goes on. -/
def WCache.expireOnce (s : CacheState) : Except Fault (Bool × CacheState) := do
  let e ← s.wCache.toBlockCache.LruExpire s.now
  match e.1.1 with
  | none => pure (false, s.setW e.2)
  | some fe =>
    match ((s.setW e.2).wCache.toBlockCache.GetFileBuffer fe false).1 with
    | none => pure (true, s.setW e.2)
    | some _ =>
      let r ← WCache.FlushBuffer fe.Id e.1.2 (s.setW e.2)
      pure (true, r.2)

/-- One iteration of the inner loop of `RCache.CheckExpire`; the first component tells
whether the loop goes on. -/
def RCache.expireOnce (s : CacheState) : Except Fault (Bool × CacheState) := do
  let e ← s.rCache.toBlockCache.LruExpire s.now
  match e.1.1 with
  | none => pure (false, s.setR e.2)
  | some fe =>
    match ((s.setR e.2).rCache.toBlockCache.GetFileBuffer fe false).1 with
    | none => pure (true, s.setR e.2)
    | some _ =>
      let s1 ← RCache.ReleaseBuffer fe.Id e.1.2 (s.setR e.2)
      pure (true, s1)

/-! ## The states the cache operations reach -/

/-- A block operation on a file with block size `bs` whose bytes stay inside the block, as
the ops of `Slice` and of the prefetch loop do. -/
def RWBlockOp.InBlock (bs : Nat) (op : RWBlockOp) : Prop :=
  op.fe.BlockSize = bs ∧ op.RwOffset + op.rwBuf.length ≤ bs

/-- One operation of the write cache, of the read cache or of the facade that returns, on
files with block size `bs`, or a tick of the clock. -/
inductive CacheState.Step (bs : Nat) : CacheState → CacheState → Prop where
  | write (s : CacheState) (fe : FileEntry) (buffer : List Byte) (offset : Nat)
    (r : Nat × Option GoError) (s1 : CacheState) (hbs : fe.BlockSize = bs)
    (h : WCache.Write fe buffer offset s = .ok (r, s1)) : CacheState.Step bs s s1
  | flushBuffer (s : CacheState) (fid Index : Nat) (err : Option GoError) (s1 : CacheState)
    (h : WCache.FlushBuffer fid Index s = .ok (err, s1)) : CacheState.Step bs s s1
  | flush (s : CacheState) (fe : FileEntry) (err : Option GoError) (s1 : CacheState)
    (h : WCache.Flush fe s = .ok (err, s1)) : CacheState.Step bs s s1
  | closeWrite (s : CacheState) (fe : FileEntry) (err : Option GoError) (s1 : CacheState)
    (h : WCache.Close fe s = .ok (err, s1)) : CacheState.Step bs s s1
  | expireWrite (s : CacheState) (more : Bool) (s1 : CacheState)
    (h : WCache.expireOnce s = .ok (more, s1)) : CacheState.Step bs s s1
  | prefetchRead (s : CacheState) (op : RWBlockOp) (err : Option GoError) (s1 : CacheState)
    (hop : op.InBlock bs) (h : RCache.DoPrefetchRead op.fe.Id op s = .ok (err, s1)) :
    CacheState.Step bs s s1
  | releaseBuffer (s : CacheState) (fid Index : Nat) (s1 : CacheState)
    (h : RCache.ReleaseBuffer fid Index s = .ok s1) : CacheState.Step bs s s1
  | clean (s : CacheState) (fe : FileEntry) (Size offset : Nat) (err : Option GoError)
    (s1 : CacheState) (h : RCache.Clean fe Size offset s = .ok (err, s1)) :
    CacheState.Step bs s s1
  | release (s : CacheState) (fe : FileEntry) (err : Option GoError) (s1 : CacheState)
    (h : RCache.Release fe s = .ok (err, s1)) : CacheState.Step bs s s1
  | closeRead (s : CacheState) (fe : FileEntry) (err : Option GoError) (s1 : CacheState)
    (h : RCache.Close fe s = .ok (err, s1)) : CacheState.Step bs s s1
  | expireRead (s : CacheState) (more : Bool) (s1 : CacheState)
    (h : RCache.expireOnce s = .ok (more, s1)) : CacheState.Step bs s s1
  | read (s : CacheState) (fe : FileEntry) (buffer : List Byte) (offset : Nat)
    (r : Nat × Option GoError × List Byte) (s1 : CacheState)
    (h : RWCache.Read fe buffer offset s = .ok (r, s1)) : CacheState.Step bs s s1
  | tick (s : CacheState) (now : Nat) : CacheState.Step bs s { s with now := now }

/-- The states that sequences of cache operations reach from the state `NewRWCache` makes
with `m` buffers per cache, on files with block size `bs`. Pool ids and block sizes are
`uint32`. -/
inductive CacheState.Reachable (bs m : Nat) : CacheState → Prop where
  | init (proxyClient : ProxyClient)
    (now ExpireTime SyncRoutine PrefetchRoutine PrefetchTimes : Nat)
    (hm : m ≤ U32) (hbs : bs < U32) :
    CacheState.Reachable bs m
      (NewRWCache proxyClient now m ExpireTime SyncRoutine PrefetchRoutine PrefetchTimes)
  | step (s s1 : CacheState) (h : CacheState.Reachable bs m s) (hs : CacheState.Step bs s s1) :
    CacheState.Reachable bs m s1

/-- Both cache cores satisfy the invariant. -/
def CacheState.Sound (bs m : Nat) (s : CacheState) : Prop :=
  s.wCache.toBlockCache.Sound bs m ∧ s.rCache.toBlockCache.Sound bs m

/-- The cache cores of `s1` come from those of `s` by moves. -/
def CacheState.Moved (bs : Nat) (s s1 : CacheState) : Prop :=
  Relation.ReflTransGen (BlockCache.Move bs) s.wCache.toBlockCache s1.wCache.toBlockCache ∧
    Relation.ReflTransGen (BlockCache.Move bs) s.rCache.toBlockCache s1.rCache.toBlockCache

/-- What `Slice` guarantees of each op it makes for the file `fe`: the op carries `fe`, its
view holds `RwSize` bytes, and its range stays inside the block. -/
def RWBlockOp.Sliced (fe : FileEntry) (op : RWBlockOp) : Prop :=
  op.fe = fe ∧ op.rwBuf.length = op.RwSize ∧ op.RwOffset + op.RwSize ≤ fe.BlockSize

/-! ## Consecutive writes into one block -/

/-- Consecutive calls of `WCache.Write` on the file `fe`: the buffers of the list are written
one after the other, the first at `offset` and each next one where the previous one ended.
The result lists what the calls returned. -/
def WCache.writeSeq (fe : FileEntry) :
    List (List Byte) → Nat → CacheState →
      Except Fault (List (Nat × Option GoError) × CacheState)
  | [], _, s => .ok ([], s)
  | buffer :: rest, offset, s => do
    let r ← WCache.Write fe buffer offset s
    let t ← WCache.writeSeq fe rest (offset + buffer.length) r.2
    pure (r.1 :: t.1, t.2)

/-- The file buffer that `GetFileBuffer(fe, true)` returns: the one the cache holds for the
file, or a new one. -/
def BlockCache.fileOf (cache : BlockCache) (fe : FileEntry) : FileBuffer :=
  (cache.Cache.get fe.Id).getD (NewFileBuffer fe)

/-- The block operation that `Slice` makes for the bytes `data` written at the in-block offset
`o` of block `idx`, when they end inside the block. -/
def RWBlockOp.single (fe : FileEntry) (idx o : Nat) (data : List Byte) : RWBlockOp :=
  { fe := fe, Index := idx, RwOffset := o, RwSize := data.length, rwBuf := data, rwBufPos := 0 }

/-- Block `idx` of the file `fe` holds, in an attached buffer of the write cache, exactly the
bytes `acc` from the in-block offset `o` on, and the block is not locked. -/
def CacheState.Coalesced (fe : FileEntry) (idx o : Nat) (acc : List Byte) (s : CacheState) :
    Prop :=
  ∃ fb b, s.wCache.Cache.get fe.Id = some fb ∧ fb.LockMap.get idx = none ∧
    fb.BufferMap.get idx = some b ∧ b.fe = some fe ∧ b.BlkIdx = idx ∧ b.Offset = o ∧
    b.Len = acc.length ∧ (b.dataBuf.drop o).take acc.length = acc ∧
    fe.BlockSize ≤ b.dataBuf.length

/-- What a write into block `idx` of the file `fe` leaves alone: the mode of the write cache,
and the buffers and the locks of the other blocks of the file. -/
structure CacheState.BlockFrame (fe : FileEntry) (idx : Nat) (s s1 : CacheState) : Prop where
  chSync : s1.wCache.chSync = s.wCache.chSync
  buffers : ∀ k, k ≠ idx →
    (s1.wCache.toBlockCache.fileOf fe).BufferMap.get k =
      (s.wCache.toBlockCache.fileOf fe).BufferMap.get k
  locks : ∀ k, k ≠ idx →
    (s1.wCache.toBlockCache.fileOf fe).LockMap.get k =
      (s.wCache.toBlockCache.fileOf fe).LockMap.get k

/-- The state after one byte was written at offset 0 and one at offset 4 of `sampleEntry` in
`sampleState`: both buffers of the write cache are attached, to the blocks 0 and 1. -/
def samplePoolEmpty : CacheState :=
  { sampleState with
    wCache := { sampleState.wCache with
      FreeList := []
      Cache := (GoMap.empty : GoMap FileBuffer).set 7
        { fe := sampleEntry
          BufferMap := ((GoMap.empty : GoMap Buffer).set 0
            { Id := 0, fe := some sampleEntry, BlkIdx := 0, Offset := 0, Len := 1,
              dataBuf := [1, 0, 0, 0], LastUpdateTime := 0, elm := true }).set 1
            { Id := 1, fe := some sampleEntry, BlkIdx := 1, Offset := 0, Len := 1,
              dataBuf := [1, 0, 0, 0], LastUpdateTime := 0, elm := true }
          LockMap := GoMap.empty
          pw := NewPrefetchWindow }
      LruList := [1, 0] } }

/-- The state in which `Write` runs `WriteOp` on block `idx` of the file `fe`: the file buffer
exists and the block is write-locked. -/
def CacheState.locked (s : CacheState) (fe : FileEntry) (idx : Nat) : CacheState :=
  s.setW ((s.wCache.toBlockCache.GetFileBuffer fe true).2.setFileBuf fe.Id
    (FileBuffer.mk (s.wCache.toBlockCache.fileOf fe).fe
      (s.wCache.toBlockCache.fileOf fe).BufferMap
      ((s.wCache.toBlockCache.fileOf fe).LockMap.set idx { tp := WriteLock, refer := 0 })
      (s.wCache.toBlockCache.fileOf fe).pw))

/-- The state after `Write` gave back the lock of a block of the file `fe`: the file buffer
`fbw` that `WriteOp` left has the lock table `LockMap` again. -/
def CacheState.unlocked (sw : CacheState) (fe : FileEntry) (fbw : FileBuffer)
    (LockMap : GoMap CacheLock) : CacheState :=
  sw.setW (sw.wCache.toBlockCache.setFileBuf fe.Id
    (FileBuffer.mk fbw.fe fbw.BufferMap LockMap fbw.pw))

/-! ## Auxiliary definitions for the read path, the prefetch window and the flush results -/

/-- The results of `FlushBuffer` for the block indexes of a snapshot, run one index after the
other, in the order in which `Flush` collects them from the channel `rs`. -/
def WCache.flushResults (fid : Nat) :
    List Nat → CacheState → Except Fault (List (Option GoError) × CacheState)
  | [], s => .ok ([], s)
  | Index :: rest, s => do
    let r ← WCache.FlushBuffer fid Index s
    let t ← WCache.flushResults fid rest r.2
    pure (r.1 :: t.1, t.2)

/-- The collection loop at the end of `WCache.Flush`, on the list of the collected results:
`if err != nil { flushErr = err }`. -/
def WCache.collectFlush (rs : List (Option GoError)) (flushErr : Option GoError) :
    Option GoError :=
  rs.foldl (fun flushErr err => if err ≠ none then err else flushErr) flushErr

/-- A proxy that answers its first call with code 1003 and every later call with code 1005. -/
def enoentThenEio : List ProxyCall → ProxyCall → ProxyResp
  | [], _ => { Code := 1003, Data := [], err := none }
  | _ :: _, _ => { Code := 1005, Data := [], err := none }

/-- The state `samplePoolEmpty` (a write buffer on block 0 and one on block 1 of
`sampleEntry`) in front of the proxy `enoentThenEio`. -/
def sampleTwoFailing : CacheState :=
  { samplePoolEmpty with proxyClient := { remote := enoentThenEio, calls := [] } }

/-- A read-cache state of `sampleState` in which block 0 of `sampleEntry` holds a buffer with
the two bytes 1, 2 (`Offset = 0`, `Len = 2`, block size 4). -/
def sampleShortCached : CacheState :=
  { sampleState with
    rCache := { sampleState.rCache with
      FreeList := [NewBuffer 1]
      Cache := (GoMap.empty : GoMap FileBuffer).set 7
        { fe := sampleEntry
          BufferMap := (GoMap.empty : GoMap Buffer).set 0
            { Id := 0, fe := some sampleEntry, BlkIdx := 0, Offset := 0, Len := 2,
              dataBuf := [1, 2, 0, 0], LastUpdateTime := 0, elm := true }
          LockMap := GoMap.empty
          pw := NewPrefetchWindow }
      LruList := [0] } }

/-- The op of a read of two bytes at offset `off` of block 0 of `sampleEntry`. -/
def sampleBlockRead (off : Nat) : RWBlockOp :=
  { fe := sampleEntry, Index := 0, RwOffset := off, RwSize := 2, rwBuf := [0, 0], rwBufPos := 0 }

/-- One iteration of the loop of `RCache.PrefetchRead`: the worker takes the next op from the
prefetch channel, runs `DoPrefetchRead` and unlocks the block. Without a channel, or with an
empty one, the worker waits. -/
def RCache.prefetchOnce (s : CacheState) : Except Fault (Option GoError × CacheState) :=
  match s.rCache.chPrefetch with
  | none => .error .blocked
  | some [] => .error .blocked
  | some (op :: q) => do
    let s0 : CacheState := { s with rCache := { s.rCache with chPrefetch := some q } }
    Assert (s0.rCache.toBlockCache.GetFileBuffer op.fe false).1.isSome
    let r ← RCache.DoPrefetchRead op.fe.Id op s0
    let s2 ← r.2.onR (fun cache => cache.UnLockBuffer op.fe.Id op.Index)
    pure (r.1, s2)

/-- A byte store in which every file holds the six bytes 1..6. -/
def sampleSixProxy : ProxyClient :=
  { remote := byteStore (fun _ => [1, 2, 3, 4, 5, 6]), calls := [] }

/-- The state `NewRWCache` makes with two buffers per cache, no sync-write worker, one
prefetch worker and `PrefetchTimes = 1`, on the byte store `sampleSixProxy`. -/
def samplePrefetchSix : CacheState := NewRWCache sampleSixProxy 0 2 500 0 1 1

/-- The state `NewRWCache` makes on the byte store `sampleSixProxy` without prefetch
worker. -/
def sampleDirectSix : CacheState := NewRWCache sampleSixProxy 0 2 500 0 0 1

/-- The op that the prefetch loop makes for block `idx` of the file `fe`. -/
def RWBlockOp.prefetch (fe : FileEntry) (idx : Nat) : RWBlockOp :=
  { fe := fe, Index := idx, RwOffset := 0, RwSize := fe.BlockSize,
    rwBuf := List.replicate fe.BlockSize 0, rwBufPos := 0 }

/-- The state `samplePrefetchSix` after the read-side file buffer of `sampleEntry` was
made. -/
def samplePrefetchSixOpen : CacheState :=
  { samplePrefetchSix with
    rCache := { samplePrefetchSix.rCache with
      Cache := (GoMap.empty : GoMap FileBuffer).set 7 (NewFileBuffer sampleEntry) } }

/-- The state after `Read` of four bytes at offset 0 of `sampleEntry` in `samplePrefetchSix`
and one iteration of the prefetch worker: block 1 of the file is in the read cache and no
block is locked. -/
def samplePrefetched : CacheState :=
  match (RWCache.Read sampleEntry [0, 0, 0, 0] 0 samplePrefetchSix).bind
      (fun r => RCache.prefetchOnce r.2) with
  | .ok w => w.2
  | .error _ => samplePrefetchSix

/-- The blocks among the `n` blocks from `start` on for which the file buffer holds no
buffer, in ascending order. -/
def FileBuffer.missing (fileBuf : FileBuffer) (start n : Nat) : List Nat :=
  (List.range' start n).filter (fun k => (fileBuf.BufferMap.get k).isNone)

/-- The state `s1` differs from `s` by a prefetch round on the file buffer `fb` of file `fid`
with the new window `pw`: the window is `pw`, the blocks of `pw` without buffer were appended
to the prefetch channel `q` in ascending order and are locked, and the buffers, the other
locks, the other files, the pool, the write cache and the proxy are as before. -/
def RCache.Prefetched (fid : Nat) (fb : FileBuffer) (q : List RWBlockOp) (pw : PrefetchWindow)
    (s s1 : CacheState) : Prop :=
  ∃ fb1, s1.rCache.Cache.get fid = some fb1 ∧ fb1.pw = pw ∧
    s1.rCache.chPrefetch =
      some (q ++ (fb.missing pw.BlkStart (pw.BlkEnd - pw.BlkStart)).map
        (RWBlockOp.prefetch fb.fe)) ∧
    fb1.BufferMap = fb.BufferMap ∧
    (∀ k, fb1.LockMap.get k =
      if k ∈ fb.missing pw.BlkStart (pw.BlkEnd - pw.BlkStart) then
        some (CacheLock.mk WriteLock 0)
      else fb.LockMap.get k) ∧
    (∀ fid2, fid2 ≠ fid → s1.rCache.Cache.get fid2 = s.rCache.Cache.get fid2) ∧
    s1.rCache.FreeList = s.rCache.FreeList ∧ s1.rCache.LruList = s.rCache.LruList ∧
    s1.wCache = s.wCache ∧ s1.proxyClient = s.proxyClient

/-! ## The age order of the LRU list -/

/-- The `LastUpdateTime` of the member of `LruList` with pool id `Id`: that of the attached
buffer with this id. -/
def BlockCache.timeOf (cache : BlockCache) (Id : Nat) : Nat :=
  match cache.findBuffer Id with
  | some (_, _, buffer) => buffer.LastUpdateTime
  | none => 0

/-- The `LastUpdateTime` values along `LruList`, front first. -/
def BlockCache.lruTimes (cache : BlockCache) : List Nat := cache.LruList.map cache.timeOf

/-- The buffer `b` is attached to some block of the cache and has the pool id `i`. -/
def BlockCache.Holds (c : BlockCache) (i : Nat) (b : Buffer) : Prop :=
  ∃ fid fb idx, c.Cache.get fid = some fb ∧ fb.BufferMap.get idx = some b ∧ b.Id = i

/-- The LRU list is ordered by age at the clock reading `t`: along the list the
`LastUpdateTime` of the buffers does not increase, and none lies after `t`. -/
structure BlockCache.Aged (t : Nat) (c : BlockCache) : Prop where
  sorted : c.LruList.Pairwise (fun i j =>
    ∀ bi bj, c.Holds i bi → c.Holds j bj → bj.LastUpdateTime ≤ bi.LastUpdateTime)
  bounded : ∀ i ∈ c.LruList, ∀ b, c.Holds i b → b.LastUpdateTime ≤ t

/-- The cache cores that `DoLru`, `RemoveLru` and `LruExpire` reach, called on attached
buffers while the clock does not go back, from a core that satisfies the pool invariant and
has an empty LRU list, such as the core of a new cache. The first index is the reading of the
clock. `DoLru` and `RemoveLru` change the buffer through its pointer, so the attached buffer
takes the new value. -/
inductive BlockCache.LruReach (bs m : Nat) : Nat → BlockCache → Prop where
  | start (c : BlockCache) (t : Nat) (hs : c.Sound bs m) (hl : c.LruList = []) :
    BlockCache.LruReach bs m t c
  | tick (c : BlockCache) (t t1 : Nat) (h : BlockCache.LruReach bs m t c) (hle : t ≤ t1) :
    BlockCache.LruReach bs m t1 c
  | doLru (c : BlockCache) (t fid idx : Nat) (fb : FileBuffer) (b : Buffer)
    (h : BlockCache.LruReach bs m t c) (hfb : c.Cache.get fid = some fb)
    (hb : fb.BufferMap.get idx = some b) :
    BlockCache.LruReach bs m t (c.linked fid idx fb b t)
  | removeLru (c : BlockCache) (t fid idx : Nat) (fb : FileBuffer) (b : Buffer)
    (h : BlockCache.LruReach bs m t c) (hfb : c.Cache.get fid = some fb)
    (hb : fb.BufferMap.get idx = some b) :
    BlockCache.LruReach bs m t ((c.RemoveLru b).2.withBuffer fid idx fb (c.RemoveLru b).1)
  | lruExpire (c : BlockCache) (t : Nat) (r : Option FileEntry × Nat) (c1 : BlockCache)
    (h : BlockCache.LruReach bs m t c) (hx : c.LruExpire t = .ok (r, c1)) :
    BlockCache.LruReach bs m t c1

/-- The write cache core of `sampleDirty` after `LruExpire` at the clock reading `10^9`
(one second): the buffer of block 0 of `sampleEntry` is attached and unlinked, and the LRU
list is empty. -/
def sampleUnlinkedCore : BlockCache :=
  match sampleDirty.wCache.toBlockCache.LruExpire 1000000000 with
  | .ok r => r.2
  | .error _ => sampleDirty.wCache.toBlockCache

/-! ## The prefetch window along a sequence of reads -/

/-- A prefetch window as `DoPrefetch` keeps it when the read windows end at block `M` at the
latest and the `uint32` value of `PrefetchTimes` is `T`: the initial `[0, 0)`, or a window of
positive size, at most `M * T` blocks long, that starts at block `M + M * T` at the
latest. -/
def PrefetchWindow.Ok (M T : Nat) (pw : PrefetchWindow) : Prop :=
  pw = NewPrefetchWindow ∨
    (pw.BlkStart < pw.BlkEnd ∧ pw.BlkEnd - pw.BlkStart ≤ M * T ∧ pw.BlkStart ≤ M + M * T)

/-- A read of `Size` bytes (`uint32`) at `offset` of the file `fe` that is not a zero-length
read at a block-aligned offset, does not pass `2^64`, and whose block window ends at block
`M` at the latest. -/
def RCache.ReadInRange (M : Nat) (fe : FileEntry) (Size offset : Nat) : Prop :=
  (Size = 0 → offset % fe.BlockSize ≠ 0) ∧ Size < U32 ∧
    offset + Size + fe.BlockSize - 1 < U64 ∧
    (offset + Size + fe.BlockSize - 1) / fe.BlockSize ≤ M

/-- The state of the prefetch of file `fid`: the prefetch channel exists, the file has a
read file buffer with a positive block size whose window is as `PrefetchWindow.Ok` says, the
`uint32` value of `PrefetchTimes` is at least 1, and `M` times that value is below `2^32`. -/
def RCache.WindowOk (M fid : Nat) (s : CacheState) : Prop :=
  ∃ fb, s.rCache.Cache.get fid = some fb ∧
    fb.pw.Ok M (s.rCache.PrefetchTimes % U32) ∧ s.rCache.chPrefetch.isSome = true ∧
    fb.fe.BlockSize ≠ 0 ∧ 1 ≤ s.rCache.PrefetchTimes % U32 ∧
    M * (s.rCache.PrefetchTimes % U32) < U32

/-- The states that a sequence of reads of the file `fid` reaches, as far as the prefetch
goes: from a state in which the file buffer was just made (window `[0, 0)`), by calls of
`DoPrefetch` for reads in range that return, and by any other step that keeps the window of
the file or puts a new file buffer in its place, and keeps the file entry and the
configuration. -/
inductive RCache.Reads (M fid : Nat) : CacheState → Prop where
  | init (s : CacheState) (fb : FileBuffer) (hq : s.rCache.chPrefetch.isSome = true)
    (hfb : s.rCache.Cache.get fid = some fb) (hpw : fb.pw = NewPrefetchWindow)
    (hbs : fb.fe.BlockSize ≠ 0) (hT : 1 ≤ s.rCache.PrefetchTimes % U32)
    (hM : M * (s.rCache.PrefetchTimes % U32) < U32) : RCache.Reads M fid s
  | read (s s1 : CacheState) (fb : FileBuffer) (Size offset : Nat)
    (h : RCache.Reads M fid s) (hfb : s.rCache.Cache.get fid = some fb)
    (hr : RCache.ReadInRange M fb.fe Size offset)
    (hrun : RCache.DoPrefetch fid Size offset s = .ok s1) : RCache.Reads M fid s1
  | other (s s1 : CacheState) (fb fb1 : FileBuffer)
    (h : RCache.Reads M fid s) (hfb : s.rCache.Cache.get fid = some fb)
    (hfb1 : s1.rCache.Cache.get fid = some fb1)
    (hpw : fb1.pw = fb.pw ∨ fb1.pw = NewPrefetchWindow) (hfe : fb1.fe = fb.fe)
    (hT : s1.rCache.PrefetchTimes = s.rCache.PrefetchTimes)
    (hq : s1.rCache.chPrefetch.isSome = true) : RCache.Reads M fid s1

/-- The state `NewRWCache` makes with two buffers per cache, one prefetch worker and
`PrefetchTimes = 2^32`, on the empty byte store. -/
def samplePrefetchWrap : CacheState := NewRWCache sampleProxy 0 2 500 0 1 4294967296

/-! ## The loop of `doRead`, op by op -/

/-- The body of the loop of `RWCache.doRead` on one op: the locks, `ReadOp`, `MergeOp` and
the unlocks. The result is the effective size of the op (after `MergeOp`), the error and the
content of the sub-buffer of the op after the iteration. -/
def RWCache.readOne (fe : FileEntry) (hasW : Bool) (op : RWBlockOp) (s : CacheState) :
    Except Fault ((Nat × Option GoError × List Byte) × CacheState) := do
  -- first lock buffer, if lock success, then data is flush..
  let s1 ← (if hasW then s.onW (fun cache => cache.RLockBuffer fe.Id op.Index) else .ok s)
  -- second read data from disk.
  let s2 ← s1.onR (fun cache => cache.RLockBuffer fe.Id op.Index)
  let r ← RCache.ReadOp fe fe.Id op s2
  let s3 ← r.2.onR (fun cache => cache.RUnLockBuffer fe.Id op.Index)
  if r.1.2.1 ≠ none then
    let s4 ← (if hasW then s3.onW (fun cache => cache.RUnLockBuffer fe.Id op.Index)
      else .ok s3)
    pure ((r.1.1, r.1.2.1, r.1.2.2), s4)
  else
    -- third merge data with write cache.
    let m ← (if hasW then WCache.MergeOp fe.Id { op with rwBuf := r.1.2.2 } r.1.1 s3
      else .ok (r.1.1, r.1.2.2))
    let s4 ← (if hasW then s3.onW (fun cache => cache.RUnLockBuffer fe.Id op.Index)
      else .ok s3)
    pure ((m.1, none, m.2), s4)

/-- The iterations of the loop of `doRead` on the ops of a list, one after the other; the
loop ends at the first op whose read fails. The result lists what the iterations gave. -/
def RWCache.readAll (fe : FileEntry) (hasW : Bool) :
    List RWBlockOp → CacheState →
      Except Fault (List (Nat × Option GoError × List Byte) × CacheState)
  | [], s => .ok ([], s)
  | op :: Ops, s => do
    let r ← RWCache.readOne fe hasW op s
    if r.1.2.1 ≠ none then pure ([r.1], r.2)
    else
      let t ← RWCache.readAll fe hasW Ops r.2
      pure (r.1 :: t.1, t.2)

/-- What the loop of `doRead` makes of the results of its iterations: the running size, set
by each op with a non-zero effective size, and the assembled bytes. -/
def RWCache.assemble (offset : Nat) :
    List RWBlockOp → List (Nat × Option GoError × List Byte) → Nat → List Byte →
      Nat × Option GoError × List Byte
  | op :: Ops, r :: rs, Size, dataBuf =>
    if r.2.1 ≠ none then (r.1, r.2.1, dataBuf)
    else
      RWCache.assemble offset Ops rs
        (if r.1 ≠ 0 then (op.GetFileOffset + U64 - offset) % U64 + r.1 else Size)
        (goCopyAt dataBuf op.rwBufPos r.2.2)
  | _, _, Size, dataBuf => (Size, none, dataBuf)

/-- The last op with a non-zero effective size among the ops paired with their results, and
that size. -/
def RWCache.lastHit :
    List (RWBlockOp × Nat × Option GoError × List Byte) → Option (RWBlockOp × Nat)
  | [] => none
  | p :: rest =>
    match RWCache.lastHit rest with
    | some h => some h
    | none => if p.2.1 ≠ 0 then some (p.1, p.2.1) else none

/-- The ops paired with their results up to the last op with a non-zero effective size. -/
def RWCache.upToLastHit :
    List (RWBlockOp × Nat × Option GoError × List Byte) →
      List (RWBlockOp × Nat × Option GoError × List Byte)
  | [] => []
  | p :: rest =>
    match RWCache.lastHit rest with
    | some _ => p :: RWCache.upToLastHit rest
    | none => if p.2.1 ≠ 0 then [p] else []

/-- The returned length as the spec words it: 0 when every effective size is 0, and
otherwise the file offset of the last op with a non-zero effective size, minus the start
offset, plus that size. -/
def RWCache.aggLen (offset : Nat) (zs : List (RWBlockOp × Nat × Option GoError × List Byte)) :
    Nat :=
  match RWCache.lastHit zs with
  | none => 0
  | some (op, size) => (op.GetFileOffset - offset) + size

/-- The bytes of a read as the spec words them: for each op its effective bytes followed by
zero bytes up to its `RwSize`. -/
def RWCache.regions (zs : List (RWBlockOp × Nat × Option GoError × List Byte)) : List Byte :=
  zs.flatMap (fun p => p.2.2.2.take p.2.1 ++ List.replicate (p.1.RwSize - p.2.1) 0)

/-- A proxy that answers its first call with the six bytes 1..6 and every later call with no
bytes. -/
def sixThenNothing : List ProxyCall → ProxyCall → ProxyResp
  | [], _ => { Code := 0, Data := [1, 2, 3, 4, 5, 6], err := none }
  | _ :: _, _ => { Code := 0, Data := [], err := none }

/-- The state `NewRWCache` makes without prefetch worker in front of the proxy
`sixThenNothing`. -/
def sampleLongReply : CacheState :=
  NewRWCache { remote := sixThenNothing, calls := [] } 0 2 500 0 0 1

/-- The state after a read of eight bytes at offset 0 of the file of six bytes, without
prefetch worker. -/
def sampleDirectSixRead : CacheState :=
  match RWCache.doRead sampleEntry [9, 9, 9, 9, 9, 9, 9, 9] 0 sampleDirectSix with
  | .ok w => w.2
  | .error _ => sampleDirectSix

/-- The path `path` lies under the root path `root`, in the words of the spec: it is the
root itself, or it continues the root with a `'/'` and a further part (for a root that ends
in `'/'`, as `"/"` does, with a further part alone). -/
def pathUnder (root path : String) : Bool :=
  decide (path.data = root.data) || (root.data ++ ['/']).isPrefixOf path.data ||
    (decide (root.data.getLast? = some '/') && root.data.isPrefixOf path.data)

/-- The path `path` has the root path as a string prefix without lying under it: it
continues the last name of the root, as `"/ab"` does for the root `"/a"`. -/
def continuesRootName (root path : String) : Bool :=
  strings.HasPrefix path root && !pathUnder root path

/-- A mount as `sampleMount` with the root path `/a`. -/
def sampleMountA : CfaMountInfo := { sampleMount with Path := "/a" }
/-! # Theorems -/

/-! ## Go maps -/

theorem GoMap.get_empty {β : Type} (k : Nat) : (GoMap.empty : GoMap β).get k = none := rfl

theorem GoMap.getL_setL_self {β : Type} (l : List (Nat × β)) (k : Nat) (v : β) :
    GoMap.getL (GoMap.setL l k v) k = some v := by
  induction l with
  | nil => simp [GoMap.setL, GoMap.getL]
  | cons p t ih =>
    obtain ⟨k1, v1⟩ := p
    by_cases h : k1 = k
    · simp [GoMap.setL, GoMap.getL, h]
    · simp [GoMap.setL, GoMap.getL, h, ih]

theorem GoMap.getL_setL_ne {β : Type} (l : List (Nat × β)) {k k2 : Nat} (v : β) (hne : k2 ≠ k) :
    GoMap.getL (GoMap.setL l k v) k2 = GoMap.getL l k2 := by
  induction l with
  | nil => simp [GoMap.setL, GoMap.getL, hne.symm]
  | cons p t ih =>
    obtain ⟨k1, v1⟩ := p
    by_cases h : k1 = k
    · subst h
      simp [GoMap.setL, GoMap.getL, hne.symm]
    · by_cases h2 : k1 = k2
      · subst h2
        simp [GoMap.setL, GoMap.getL, h]
      · simp [GoMap.setL, GoMap.getL, h, h2, ih]

theorem GoMap.get_set_self {β : Type} (m : GoMap β) (k : Nat) (v : β) :
    (m.set k v).get k = some v := GoMap.getL_setL_self _ _ _

theorem GoMap.get_set_ne {β : Type} (m : GoMap β) {k k2 : Nat} (v : β) (hne : k2 ≠ k) :
    (m.set k v).get k2 = m.get k2 := GoMap.getL_setL_ne _ _ hne

theorem GoMap.get_set {β : Type} (m : GoMap β) (k k2 : Nat) (v : β) :
    (m.set k v).get k2 = if k2 = k then some v else m.get k2 := by
  by_cases h : k2 = k
  · subst h; simp [GoMap.get_set_self]
  · simp [h, GoMap.get_set_ne m v h]

theorem GoMap.get_del {β : Type} (m : GoMap β) (k k2 : Nat) :
    (m.del k).get k2 = if k2 = k then none else m.get k2 := by
  obtain ⟨l⟩ := m
  simp only [GoMap.del, GoMap.get]
  induction l with
  | nil => simp [GoMap.getL]
  | cons p t ih =>
    obtain ⟨k1, v1⟩ := p
    by_cases h1 : k1 = k
    · subst h1
      by_cases h2 : k2 = k1
      · subst h2
        simpa [List.filter_cons, GoMap.getL] using ih
      · have h3 : ¬ k1 = k2 := fun h => h2 h.symm
        simpa [List.filter_cons, GoMap.getL, h2, h3] using ih
    · by_cases h2 : k2 = k
      · subst h2
        simpa [List.filter_cons, GoMap.getL, h1] using ih
      · by_cases h3 : k1 = k2
        · simp [List.filter_cons, GoMap.getL, h1, h2, h3]
        · simpa [List.filter_cons, GoMap.getL, h1, h2, h3] using ih

theorem GoMap.get_del_self {β : Type} (m : GoMap β) (k : Nat) : (m.del k).get k = none := by
  simp [GoMap.get_del]

theorem GoMap.get_del_ne {β : Type} (m : GoMap β) {k k2 : Nat} (hne : k2 ≠ k) :
    (m.del k).get k2 = m.get k2 := by
  simp [GoMap.get_del, hne]

theorem GoMap.set_get_self {β : Type} (m : GoMap β) {k : Nat} {v : β} (h : m.get k = some v) :
    m.set k v = m := by
  obtain ⟨l⟩ := m
  simp only [GoMap.set, GoMap.get] at h ⊢
  congr 1
  induction l with
  | nil => simp [GoMap.getL] at h
  | cons p t ih =>
    obtain ⟨k1, v1⟩ := p
    by_cases h1 : k1 = k
    · subst h1
      simp only [GoMap.getL, if_true, Option.some.injEq] at h
      simp [GoMap.setL, h]
    · simp only [GoMap.getL, h1, if_false] at h
      simp [GoMap.setL, h1, ih h]

theorem GoMap.del_of_get_none {β : Type} (m : GoMap β) {k : Nat} (h : m.get k = none) :
    m.del k = m := by
  obtain ⟨l⟩ := m
  simp only [GoMap.del, GoMap.get] at h ⊢
  congr 1
  induction l with
  | nil => rfl
  | cons p t ih =>
    obtain ⟨k1, v1⟩ := p
    by_cases h1 : k1 = k
    · simp [GoMap.getL, h1] at h
    · simp only [GoMap.getL, h1, if_false] at h
      rw [List.filter_cons]
      simp only [h1, decide_False, Bool.not_false, if_true]
      rw [ih h]

theorem GoMap.del_set_of_get_none {β : Type} (m : GoMap β) {k : Nat} (v : β)
    (h : m.get k = none) : (m.set k v).del k = m := by
  obtain ⟨l⟩ := m
  simp only [GoMap.del, GoMap.set, GoMap.get] at h ⊢
  congr 1
  induction l with
  | nil => simp [GoMap.setL]
  | cons p t ih =>
    obtain ⟨k1, v1⟩ := p
    by_cases h1 : k1 = k
    · simp [GoMap.getL, h1] at h
    · simp only [GoMap.getL, h1, if_false] at h
      simp only [GoMap.setL, h1, if_false]
      rw [List.filter_cons]
      simp only [h1, decide_False, Bool.not_false, if_true]
      rw [ih h]

theorem GoMap.mem_keys_iff {β : Type} (m : GoMap β) (k : Nat) :
    k ∈ m.keys ↔ (m.get k).isSome = true := by
  obtain ⟨l⟩ := m
  simp only [GoMap.keys, GoMap.get]
  induction l with
  | nil => simp [GoMap.getL]
  | cons p t ih =>
    obtain ⟨k1, v1⟩ := p
    by_cases h1 : k1 = k
    · simp [GoMap.getL, h1]
    · have h2 : ¬ k = k1 := fun h => h1 h.symm
      simp only [List.map_cons, List.mem_cons, h2, false_or, GoMap.getL, h1, if_false]
      exact ih

theorem GoMap.keys_eq_nil_iff {β : Type} (m : GoMap β) : m.keys = [] ↔ m = GoMap.empty := by
  obtain ⟨l⟩ := m
  simp [GoMap.keys, GoMap.empty]

/-! ## The handle table -/

theorem FileCache.firstEmpty_le (fc : FileCache) : fc.firstEmpty ≤ fc.fileEntryVec.length :=
  List.findIdx_le_length _

theorem FileCache.firstEmpty_slot (fc : FileCache) (h : fc.firstEmpty < fc.fileEntryVec.length) :
    fc.fileEntryVec[fc.firstEmpty]? = some none := by
  have h1 := List.findIdx_getElem (p := fun o : Option FileEntry => o.isNone) (w := h)
  rw [List.getElem?_eq_getElem h]
  simp only [FileCache.firstEmpty] at h ⊢
  cases hx : fc.fileEntryVec[List.findIdx (fun o => o.isNone) fc.fileEntryVec] with
  | none => rfl
  | some e => rw [hx] at h1; simp at h1

theorem FileCache.occupied_below_firstEmpty (fc : FileCache) {j : Nat} (h : j < fc.firstEmpty) :
    ∃ e, fc.fileEntryVec[j]? = some (some e) := by
  have hj : j < fc.fileEntryVec.length := lt_of_lt_of_le h fc.firstEmpty_le
  have h1 := List.not_of_lt_findIdx (p := fun o : Option FileEntry => o.isNone) h
  rw [List.getElem?_eq_getElem hj]
  cases hx : fc.fileEntryVec[j] with
  | none => simp [hx] at h1
  | some e => exact ⟨e, rfl⟩

theorem FileCache.firstEmpty_eq_of (fc : FileCache) {i : Nat}
    (hi : fc.fileEntryVec[i]? = some none)
    (hlt : ∀ j, j < i → fc.fileEntryVec[j]? ≠ some none) : fc.firstEmpty = i := by
  have hil : i < fc.fileEntryVec.length := by
    by_contra hc
    rw [List.getElem?_eq_none (by omega)] at hi
    cases hi
  rw [List.getElem?_eq_getElem hil] at hi
  simp only [FileCache.firstEmpty]
  rw [List.findIdx_eq hil]
  constructor
  · simp only [Option.some.injEq] at hi
    simp [hi]
  · intro j hj
    have hjl : j < fc.fileEntryVec.length := by omega
    have := hlt j hj
    rw [List.getElem?_eq_getElem hjl] at this
    cases hx : fc.fileEntryVec[j] with
    | none => rw [hx] at this; exact absurd rfl this
    | some e => simp

theorem FileCache.firstEmpty_eq_length_of (fc : FileCache)
    (h : ∀ j, j < fc.fileEntryVec.length → fc.fileEntryVec[j]? ≠ some none) :
    fc.firstEmpty = fc.fileEntryVec.length := by
  simp only [FileCache.firstEmpty]
  rw [List.findIdx_eq_length]
  intro x hx
  obtain ⟨j, hj, rfl⟩ := List.getElem_of_mem hx
  have := h j hj
  rw [List.getElem?_eq_getElem hj] at this
  cases hy : fc.fileEntryVec[j] with
  | none => rw [hy] at this; exact absurd rfl this
  | some e => simp

theorem FileCache.GetMinEntryIndexLoop_eq (fc : FileCache)
    (hlen : fc.fileEntryVec.length = fc.fileEntryVecSize) :
    ∀ fuel next, fuel + next = fc.fileEntryVecSize →
      (∀ j, j < next → fc.fileEntryVec[j]? ≠ some none) →
      fc.GetMinEntryIndexLoop fuel next = .ok fc.firstEmpty := by
  intro fuel
  induction fuel with
  | zero =>
    intro next h1 h2
    simp only [FileCache.GetMinEntryIndexLoop]
    have : fc.firstEmpty = fc.fileEntryVec.length :=
      fc.firstEmpty_eq_length_of (fun j hj => h2 j (by omega))
    rw [this]; congr 1; omega
  | succ k ih =>
    intro next h1 h2
    have hlt : next < fc.fileEntryVecSize := by omega
    have hl : next < fc.fileEntryVec.length := by omega
    simp only [FileCache.GetMinEntryIndexLoop, hlt, if_true]
    rw [List.getElem?_eq_getElem hl]
    cases hx : fc.fileEntryVec[next] with
    | none =>
      have h3 : fc.fileEntryVec[next]? = some none := by
        rw [List.getElem?_eq_getElem hl, hx]
      simp only
      rw [fc.firstEmpty_eq_of h3 h2]
    | some e =>
      simp only
      apply ih (next + 1) (by omega)
      intro j hj
      rcases Nat.lt_succ_iff_lt_or_eq.mp hj with h | h
      · exact h2 j h
      · subst h
        rw [List.getElem?_eq_getElem hl, hx]
        simp

theorem FileCache.firstEmpty_set_none (fc : FileCache) {h : Nat}
    (hh : h < fc.fileEntryVec.length) :
    ({ fc with fileEntryVec := fc.fileEntryVec.set h none } : FileCache).firstEmpty =
      if h < fc.firstEmpty then h else fc.firstEmpty := by
  split
  · rename_i hlt
    apply FileCache.firstEmpty_eq_of
    · simp [List.getElem?_set_self hh]
    · intro j hj
      have hne : h ≠ j := by omega
      simp only [List.getElem?_set_ne hne]
      obtain ⟨e, he⟩ := fc.occupied_below_firstEmpty (j := j) (by omega)
      rw [he]; simp
  · rename_i hge
    have hle := fc.firstEmpty_le
    by_cases hfull : fc.firstEmpty = fc.fileEntryVec.length
    · omega
    · have hlt : fc.firstEmpty < fc.fileEntryVec.length := by omega
      apply FileCache.firstEmpty_eq_of
      · by_cases heq : h = fc.firstEmpty
        · subst heq; simp [List.getElem?_set_self hh]
        · simp only [List.getElem?_set_ne heq]
          exact fc.firstEmpty_slot hlt
      · intro j hj
        have hne : h ≠ j := by omega
        simp only [List.getElem?_set_ne hne]
        obtain ⟨e, he⟩ := fc.occupied_below_firstEmpty (j := j) hj
        rw [he]; simp

theorem fileRefer.lookup_AddRef (fr : GoMap Int) (Id id : Nat) :
    (fileRefer.AddRef fr Id).get id =
      if id = Id then some ((fr.get Id).getD 0 + 1) else fr.get id := by
  unfold fileRefer.AddRef
  by_cases h : id = Id
  · subst h
    cases hl : fr.get id <;> simp [GoMap.get_set_self]
  · cases hl : fr.get Id <;> simp [GoMap.get_set_ne _ _ h, h]

theorem fileRefer.DelRef_eq (fr : GoMap Int) (Id : Nat) {c : Int}
    (hl : fr.get Id = some c) (hc : 1 ≤ c) :
    ∃ fr1, fileRefer.DelRef fr Id = .ok fr1 ∧
      ∀ id, fr1.get id =
        if id = Id then (if c = 1 then none else some (c - 1)) else fr.get id := by
  unfold fileRefer.DelRef
  simp only [hl, Option.isSome_some, Option.getD_some, ge_iff_le, hc, decide_True, Bool.and_self,
    Assert, if_true]
  by_cases h1 : c = 1
  · refine ⟨fr.del Id, by simp [h1, bind, Except.bind, pure, Except.pure], ?_⟩
    intro id
    by_cases h : id = Id
    · subst h; simp [h1, GoMap.get_del_self]
    · simp [h, GoMap.get_del_ne _ h]
  · refine ⟨fr.set Id (c - 1), by simp [h1, bind, Except.bind, pure, Except.pure], ?_⟩
    intro id
    by_cases h : id = Id
    · subst h; simp [h1, GoMap.get_set_self]
    · simp [h, GoMap.get_set_ne _ _ h]

theorem FileCache.Inv_NewFileCache (n : Nat) (hn : n < U32) : FileCache.Inv n (NewFileCache n) where
  size := Nat.mod_eq_of_lt hn
  len := by simp [NewFileCache]
  index := by
    cases n with
    | zero => simp [NewFileCache, FileCache.firstEmpty]
    | succ k => simp [NewFileCache, FileCache.firstEmpty, List.replicate_succ, List.findIdx_cons]
  refs := by
    intro id
    have : (NewFileCache n).cachedHandles id = 0 := by
      simp [NewFileCache, FileCache.cachedHandles, FileCache.isCachedHandle, List.countP_eq_zero]
    rw [this]
    simp [NewFileCache, GoMap.get_empty]
  entries := by
    intro i e h
    have := List.getElem?_mem h
    simp [NewFileCache] at this

theorem FileCache.NewFile_full {n : Nat} {fc : FileCache} (hinv : FileCache.Inv n fc)
    (hfull : fc.firstEmpty = n) (fd : Int) (fe : FileEntry) :
    fc.NewFile fd fe = .ok (some (.other "NewFile fail!"), fd, fc) := by
  unfold FileCache.NewFile
  have : fc.fileEntryIndex ≥ fc.fileEntryVecSize := by
    rw [hinv.index, hinv.size, hfull]
  simp [this]

/-- The table after a successful `NewFile` that stores `fe` in slot `i`. -/
theorem FileCache.NewFile_free {n : Nat} {fc : FileCache} (hinv : FileCache.Inv n fc)
    (hfree : fc.firstEmpty < n) (fd : Int) (fe : FileEntry) :
    ∃ fc1, fc.NewFile fd fe = .ok (none, (fc.firstEmpty : Int), fc1) ∧
      fc1.fileEntryVec = fc.fileEntryVec.set fc.firstEmpty
        (some (FileCache.storedEntry fc.firstEmpty fe)) ∧
      fc1.fileRefer = (if !FileEntry.DirectIO (FileCache.storedEntry fc.firstEmpty fe)
        then fileRefer.AddRef fc.fileRefer fe.Id else fc.fileRefer) ∧
      fc1.fileEntryVecSize = n ∧
      fc1.fileEntryIndex = fc1.firstEmpty := by
  have hidx := hinv.index
  rw [← hidx] at hfree ⊢
  have hlt : ¬ fc.fileEntryIndex ≥ fc.fileEntryVecSize := by
    rw [hinv.size]; omega
  have hlen : fc.fileEntryIndex < fc.fileEntryVec.length := by rw [hinv.len]; exact hfree
  have hslot : fc.fileEntryVec[fc.fileEntryIndex]? = some none := by
    have := fc.firstEmpty_slot (by rw [← hidx]; exact hlen)
    rwa [← hidx] at this
  let e := FileCache.storedEntry fc.fileEntryIndex fe
  let fc1 : FileCache :=
    { fc with
      fileEntryVec := fc.fileEntryVec.set fc.fileEntryIndex (some e)
      fileRefer := if !e.DirectIO then fileRefer.AddRef fc.fileRefer fe.Id else fc.fileRefer }
  have hloop : fc1.GetMinEntryIndex = .ok fc1.firstEmpty := by
    unfold FileCache.GetMinEntryIndex
    apply FileCache.GetMinEntryIndexLoop_eq
    · show (fc.fileEntryVec.set fc.fileEntryIndex (some e)).length = fc.fileEntryVecSize
      rw [List.length_set, hinv.len, hinv.size]
    · show fc.fileEntryVecSize - fc.fileEntryIndex + fc.fileEntryIndex = fc.fileEntryVecSize
      omega
    · intro j hj
      show (fc.fileEntryVec.set fc.fileEntryIndex (some e))[j]? ≠ some none
      have hj1 : j < fc.fileEntryIndex := hj
      have hne : fc.fileEntryIndex ≠ j := by omega
      rw [List.getElem?_set_ne hne]
      obtain ⟨e1, he1⟩ := fc.occupied_below_firstEmpty (j := j) (by rw [← hidx]; exact hj1)
      rw [he1]; simp
  refine ⟨{ fc1 with fileEntryIndex := fc1.firstEmpty }, ?_, rfl, rfl, hinv.size, rfl⟩
  unfold FileCache.NewFile
  rw [if_neg hlt, hslot]
  simp only
  rw [hloop]

theorem FileCache.cachedHandles_set (fc : FileCache) {h : Nat} (hh : h < fc.fileEntryVec.length)
    (o : Option FileEntry) (id : Nat) :
    ({ fc with fileEntryVec := fc.fileEntryVec.set h o } : FileCache).cachedHandles id =
      fc.cachedHandles id - (if FileCache.isCachedHandle id fc.fileEntryVec[h] then 1 else 0) +
        (if FileCache.isCachedHandle id o then 1 else 0) := by
  simp only [FileCache.cachedHandles]
  exact List.countP_set _ _ _ _ hh

theorem FileCache.Inv_NewFile {n : Nat} {fc fc1 : FileCache} (hinv : FileCache.Inv n fc)
    {fd fd1 : Int} {fe : FileEntry} {err : Option GoError}
    (h : fc.NewFile fd fe = .ok (err, fd1, fc1)) : FileCache.Inv n fc1 := by
  by_cases hfree : fc.firstEmpty < n
  · obtain ⟨fc2, h2, hvec, href, hsize, hindex⟩ := FileCache.NewFile_free hinv hfree fd fe
    rw [h2] at h
    simp only [Except.ok.injEq, Prod.mk.injEq] at h
    obtain ⟨-, -, rfl⟩ := h
    have hlen : fc.firstEmpty < fc.fileEntryVec.length := by rw [hinv.len]; exact hfree
    refine ⟨hsize, by rw [hvec, List.length_set, hinv.len], hindex, ?_, ?_⟩
    on_goal 2 =>
      intro i e he
      rw [hvec] at he
      by_cases hi : fc.firstEmpty = i
      · subst hi
        rw [List.getElem?_set_self hlen] at he
        simp only [Option.some.injEq] at he
        subst he
        exact ⟨rfl, rfl⟩
      · rw [List.getElem?_set_ne hi] at he
        exact hinv.entries i e he
    intro id
    have hslot := fc.firstEmpty_slot hlen
    rw [List.getElem?_eq_getElem hlen] at hslot
    simp only [Option.some.injEq] at hslot
    have hcount : fc2.cachedHandles id = fc.cachedHandles id +
        (if FileCache.isCachedHandle id (some (FileCache.storedEntry fc.firstEmpty fe))
          then 1 else 0) := by
      have := fc.cachedHandles_set hlen (some (FileCache.storedEntry fc.firstEmpty fe)) id
      simp only [hslot, FileCache.isCachedHandle] at this
      simp only [FileCache.cachedHandles, hvec, FileCache.isCachedHandle]
      simp only [FileCache.cachedHandles] at this
      simpa using this
    rw [hcount, href]
    have hold := hinv.refs
    cases hd : FileEntry.DirectIO (FileCache.storedEntry fc.firstEmpty fe)
    · simp only [Bool.not_false, if_true, FileCache.isCachedHandle, hd, Bool.and_true,
        decide_eq_true_eq]
      rw [fileRefer.lookup_AddRef]
      have hid : (FileCache.storedEntry fc.firstEmpty fe).Id = fe.Id := rfl
      rw [hid]
      by_cases hi : id = fe.Id
      · rw [hold fe.Id, hi]
        by_cases hc : fc.cachedHandles fe.Id = 0
        · simp [hc]
        · simp [hc]
      · have hi2 : ¬ fe.Id = id := fun h => hi h.symm
        simp only [hi, hi2, if_false, Nat.add_zero]
        exact hold id
    · simp only [Bool.not_true, FileCache.isCachedHandle, hd, Bool.and_false, if_false,
        Nat.add_zero, Bool.false_eq_true]
      exact hold id
  · have hfull : fc.firstEmpty = n := by
      have := fc.firstEmpty_le
      rw [hinv.len] at this
      omega
    rw [FileCache.NewFile_full hinv hfull] at h
    simp only [Except.ok.injEq, Prod.mk.injEq] at h
    obtain ⟨-, -, rfl⟩ := h
    exact hinv

theorem FileCache.CloseFile_invalid {n : Nat} {fc : FileCache} (hinv : FileCache.Inv n fc)
    {handle : Nat} (h : ∀ e, fc.fileEntryVec[handle]? ≠ some (some e)) :
    fc.CloseFile handle = .ok (some (.other "fileCache.CloseFile, invalid handle"), fc) := by
  unfold FileCache.CloseFile
  by_cases hge : handle ≥ fc.fileEntryVecSize
  · simp [hge]
  · rw [if_neg hge]
    have hl : handle < fc.fileEntryVec.length := by rw [hinv.len, ← hinv.size]; omega
    rw [List.getElem?_eq_getElem hl] at h ⊢
    cases hx : fc.fileEntryVec[handle] with
    | none => rfl
    | some e => exact absurd (by rw [hx]) (h e)

theorem FileCache.cachedHandles_pos (fc : FileCache) {handle : Nat} {e : FileEntry}
    (h : fc.fileEntryVec[handle]? = some (some e)) (hd : e.DirectIO = false) :
    1 ≤ fc.cachedHandles e.Id := by
  have hmem : some e ∈ fc.fileEntryVec := List.getElem?_mem h
  have : 0 < fc.cachedHandles e.Id := by
    simp only [FileCache.cachedHandles]
    rw [List.countP_pos_iff]
    exact ⟨some e, hmem, by simp [FileCache.isCachedHandle, hd]⟩
  omega

/-- The table after `CloseFile` on an occupied slot. -/
theorem FileCache.CloseFile_valid {n : Nat} {fc : FileCache} (hinv : FileCache.Inv n fc)
    {handle : Nat} {e : FileEntry} (h : fc.fileEntryVec[handle]? = some (some e)) :
    ∃ fc1, fc.CloseFile handle = .ok (none, fc1) ∧
      fc1.fileEntryVec = fc.fileEntryVec.set handle none ∧
      fc1.fileEntryIndex = (if handle < fc.fileEntryIndex then handle else fc.fileEntryIndex) ∧
      (e.DirectIO = true → fc1.fileRefer = fc.fileRefer) ∧
      FileCache.Inv n fc1 := by
  have hl : handle < fc.fileEntryVec.length := by
    by_contra hc
    rw [List.getElem?_eq_none (by omega)] at h
    cases h
  have hlt : ¬ handle ≥ fc.fileEntryVecSize := by
    rw [hinv.size, ← hinv.len]; omega
  have hget : fc.fileEntryVec[handle] = some e := by
    rw [List.getElem?_eq_getElem hl] at h
    simpa using h
  have hfirst := fc.firstEmpty_set_none hl
  have hcount := fun id => fc.cachedHandles_set hl none id
  simp only [hget, FileCache.isCachedHandle, Bool.false_eq_true, if_false, Nat.add_zero]
    at hcount
  have hent : ∀ (i : Nat) (e1 : FileEntry),
      (fc.fileEntryVec.set handle none)[i]? = some (some e1) →
      e1.Handle = (i : Int) ∧ e1.DirectIO = decide (e1.OpenFlag &&& O_DIRECT > 0) := by
    intro i e1 he1
    by_cases hi : handle = i
    · subst hi
      rw [List.getElem?_set_self hl] at he1
      simp at he1
    · rw [List.getElem?_set_ne hi] at he1
      exact hinv.entries i e1 he1
  cases hd : e.DirectIO
  · -- a cached handle: the reference is dropped
    have hpos := fc.cachedHandles_pos h hd
    have hlook := hinv.refs e.Id
    rw [if_neg (by omega)] at hlook
    obtain ⟨fr1, hdel, hfr1⟩ := fileRefer.DelRef_eq fc.fileRefer e.Id hlook
      (by exact_mod_cast hpos)
    refine ⟨{ fc with
        fileRefer := fr1
        fileEntryVec := fc.fileEntryVec.set handle none
        fileEntryIndex := if handle < fc.fileEntryIndex then handle else fc.fileEntryIndex },
      ?_, rfl, rfl, by simp, ?_⟩
    · unfold FileCache.CloseFile
      rw [if_neg hlt, h]
      simp only [hd, Bool.not_false, if_true, hdel]
    · refine ⟨hinv.size, by simp [hinv.len], ?_, ?_, hent⟩
      · show (if handle < fc.fileEntryIndex then handle else fc.fileEntryIndex) = _
        rw [hinv.index]
        exact hfirst.symm
      · intro id
        show fr1.get id = _
        have hc : ({ fc with
            fileRefer := fr1
            fileEntryVec := fc.fileEntryVec.set handle none
            fileEntryIndex := if handle < fc.fileEntryIndex then handle
              else fc.fileEntryIndex } : FileCache).cachedHandles id =
            fc.cachedHandles id - (if (decide (e.Id = id) && !e.DirectIO) = true then 1 else 0) :=
          hcount id
        rw [hc, hfr1 id, hd]
        by_cases hi : id = e.Id
        · subst hi
          simp only [if_true, decide_True, Bool.not_false, Bool.and_self]
          by_cases h1 : fc.cachedHandles e.Id = 1
          · simp [h1]
          · have h2 : ¬ ((fc.cachedHandles e.Id : Int) = 1) := by exact_mod_cast h1
            have h3 : ¬ (fc.cachedHandles e.Id - 1 = 0) := by omega
            simp only [h2, if_false, h3]
            congr 1
            omega
        · have hi2 : ¬ e.Id = id := fun h => hi h.symm
          simp only [hi, if_false, hi2, decide_False, Bool.false_and, Bool.false_eq_true,
            Nat.sub_zero]
          exact hinv.refs id
  · -- a direct-IO handle: the reference map is not touched
    refine ⟨{ fc with
        fileEntryVec := fc.fileEntryVec.set handle none
        fileEntryIndex := if handle < fc.fileEntryIndex then handle else fc.fileEntryIndex },
      ?_, rfl, rfl, fun _ => rfl, ?_⟩
    · unfold FileCache.CloseFile
      rw [if_neg hlt, h]
      simp only [hd, Bool.not_true, Bool.false_eq_true, if_false]
    · refine ⟨hinv.size, by simp [hinv.len], ?_, ?_, hent⟩
      · show (if handle < fc.fileEntryIndex then handle else fc.fileEntryIndex) = _
        rw [hinv.index]
        exact hfirst.symm
      · intro id
        have hc : ({ fc with
            fileEntryVec := fc.fileEntryVec.set handle none
            fileEntryIndex := if handle < fc.fileEntryIndex then handle
              else fc.fileEntryIndex } : FileCache).cachedHandles id =
            fc.cachedHandles id - (if (decide (e.Id = id) && !e.DirectIO) = true then 1 else 0) :=
          hcount id
        rw [hc, hd]
        simp only [Bool.not_true, Bool.and_false, Bool.false_eq_true, if_false, Nat.sub_zero]
        exact hinv.refs id

theorem FileCache.Inv_CloseFile {n : Nat} {fc fc1 : FileCache} (hinv : FileCache.Inv n fc)
    {handle : Nat} {err : Option GoError}
    (h : fc.CloseFile handle = .ok (err, fc1)) : FileCache.Inv n fc1 := by
  by_cases hv : ∃ e, fc.fileEntryVec[handle]? = some (some e)
  · obtain ⟨e, he⟩ := hv
    obtain ⟨fc2, h2, -, -, -, hinv2⟩ := FileCache.CloseFile_valid hinv he
    rw [h2] at h
    simp only [Except.ok.injEq, Prod.mk.injEq] at h
    obtain ⟨-, rfl⟩ := h
    exact hinv2
  · rw [FileCache.CloseFile_invalid hinv (fun e he => hv ⟨e, he⟩)] at h
    simp only [Except.ok.injEq, Prod.mk.injEq] at h
    obtain ⟨-, rfl⟩ := h
    exact hinv

theorem FileCache.Inv_of_Reachable {n : Nat} (hn : n < U32) {fc : FileCache}
    (h : FileCache.Reachable n fc) : FileCache.Inv n fc := by
  induction h with
  | init => exact FileCache.Inv_NewFileCache n hn
  | newFile _ hstep ih => exact FileCache.Inv_NewFile ih hstep
  | closeFile _ hstep ih => exact FileCache.Inv_CloseFile ih hstep

/-- C8: on every handle table reachable from `NewFileCache n`, `NewFile` returns the smallest
index whose slot is empty and stores the entry there with `Handle` equal to that index; it
fails exactly when all `n` slots are occupied, and a failing call leaves `*fd` and the whole
table (slots, next-free index, reference map) unchanged. -/
theorem C8_NewFile_smallest_free_slot (n : Nat) (hn : n < U32) (fc : FileCache)
    (hreach : FileCache.Reachable n fc) (fd : Int) (fe : FileEntry) :
    (∀ i : Nat, fc.fileEntryVec[i]? = some none →
      (∀ j, j < i → fc.fileEntryVec[j]? ≠ some none) →
      ∃ fc1, fc.NewFile fd fe = .ok (none, (i : Int), fc1) ∧
        fc1.fileEntryVec = fc.fileEntryVec.set i (some (FileCache.storedEntry i fe)) ∧
        (FileCache.storedEntry i fe).Handle = (i : Int)) ∧
    ((∃ err fd1 fc1, fc.NewFile fd fe = .ok (some err, fd1, fc1)) ↔
      (fc.fileEntryVec.length = n ∧ ∀ i, i < n → ∃ e, fc.fileEntryVec[i]? = some (some e))) ∧
    (∀ err fd1 fc1, fc.NewFile fd fe = .ok (some err, fd1, fc1) → fd1 = fd ∧ fc1 = fc) := by
  have hinv := FileCache.Inv_of_Reachable hn hreach
  have hle := fc.firstEmpty_le
  rw [hinv.len] at hle
  refine ⟨?_, ?_, ?_⟩
  · intro i hi hlt
    have hfe := fc.firstEmpty_eq_of hi hlt
    have hin : i < n := by
      by_contra hc
      rw [List.getElem?_eq_none (by rw [hinv.len]; omega)] at hi
      cases hi
    obtain ⟨fc1, h1, h2, -⟩ := FileCache.NewFile_free hinv (by omega) fd fe
    rw [hfe] at h1 h2
    exact ⟨fc1, h1, h2, rfl⟩
  · constructor
    · rintro ⟨err, fd1, fc1, h⟩
      refine ⟨hinv.len, ?_⟩
      by_cases hfree : fc.firstEmpty < n
      · obtain ⟨fc2, h2, -⟩ := FileCache.NewFile_free hinv hfree fd fe
        rw [h2] at h
        simp at h
      · intro i hi
        exact fc.occupied_below_firstEmpty (by omega)
    · rintro ⟨-, hocc⟩
      have hfull : fc.firstEmpty = n := by
        by_contra hc
        have hlt : fc.firstEmpty < n := by omega
        have := fc.firstEmpty_slot (by rw [hinv.len]; exact hlt)
        obtain ⟨e, he⟩ := hocc _ hlt
        rw [he] at this
        simp at this
      exact ⟨_, fd, fc, FileCache.NewFile_full hinv hfull fd fe⟩
  · intro err fd1 fc1 h
    by_cases hfree : fc.firstEmpty < n
    · obtain ⟨fc2, h2, -⟩ := FileCache.NewFile_free hinv hfree fd fe
      rw [h2] at h
      simp at h
    · rw [FileCache.NewFile_full hinv (by omega)] at h
      simp only [Except.ok.injEq, Prod.mk.injEq] at h
      exact ⟨h.2.1.symm, h.2.2.symm⟩

/-- C9: in every handle table reachable from `NewFileCache n`, `fileEntryIndex` is the
smallest index with an empty slot, or `n` when no slot is empty; hence `NewFile` never
reaches its `panic("fileEntryVec not nil")` (it ends without any fault). -/
theorem C9_next_free_is_smallest_empty (n : Nat) (hn : n < U32) (fc : FileCache)
    (hreach : FileCache.Reachable n fc) :
    fc.fileEntryVec.length = n ∧ fc.fileEntryIndex ≤ n ∧
    (∀ j, j < fc.fileEntryIndex → ∃ e, fc.fileEntryVec[j]? = some (some e)) ∧
    (fc.fileEntryIndex < n → fc.fileEntryVec[fc.fileEntryIndex]? = some none) ∧
    (∀ fd fe, fc.NewFile fd fe ≠ .error .panic ∧ ∃ r, fc.NewFile fd fe = .ok r) := by
  have hinv := FileCache.Inv_of_Reachable hn hreach
  have hle := fc.firstEmpty_le
  rw [hinv.len] at hle
  refine ⟨hinv.len, by rw [hinv.index]; exact hle, ?_, ?_, ?_⟩
  · intro j hj
    exact fc.occupied_below_firstEmpty (by rw [← hinv.index]; exact hj)
  · intro h
    rw [hinv.index] at h ⊢
    exact fc.firstEmpty_slot (by rw [hinv.len]; exact h)
  · intro fd fe
    by_cases hfree : fc.firstEmpty < n
    · obtain ⟨fc2, h2, -⟩ := FileCache.NewFile_free hinv hfree fd fe
      rw [h2]
      exact ⟨by simp, _, rfl⟩
    · rw [FileCache.NewFile_full hinv (by omega)]
      exact ⟨by simp, _, rfl⟩

/-- C10: in every handle table reachable from `NewFileCache n`, the reference map holds for
every file id exactly the number of occupied slots with that id that are not direct-IO
(no key when the number is 0); opening or closing a handle that carries `O_DIRECT` leaves
the map unchanged; and `CloseFile` never faults, so the assertion of `DelRef` never fails. -/
theorem C10_reference_count_invariant (n : Nat) (hn : n < U32) (fc : FileCache)
    (hreach : FileCache.Reachable n fc) :
    (∀ id, fc.fileRefer.get id =
      if fc.cachedHandles id = 0 then none else some (fc.cachedHandles id : Int)) ∧
    (∀ fd fe err fd1 fc1, fe.OpenFlag &&& O_DIRECT > 0 →
      fc.NewFile fd fe = .ok (err, fd1, fc1) → fc1.fileRefer = fc.fileRefer) ∧
    (∀ handle e err fc1, fc.fileEntryVec[handle]? = some (some e) →
      e.OpenFlag &&& O_DIRECT > 0 →
      fc.CloseFile handle = .ok (err, fc1) → fc1.fileRefer = fc.fileRefer) ∧
    (∀ handle, fc.CloseFile handle ≠ .error .assert ∧ ∃ r, fc.CloseFile handle = .ok r) := by
  have hinv := FileCache.Inv_of_Reachable hn hreach
  refine ⟨hinv.refs, ?_, ?_, ?_⟩
  · intro fd fe err fd1 fc1 hflag h
    by_cases hfree : fc.firstEmpty < n
    · obtain ⟨fc2, h2, -, href, -⟩ := FileCache.NewFile_free hinv hfree fd fe
      rw [h2] at h
      simp only [Except.ok.injEq, Prod.mk.injEq] at h
      obtain ⟨-, -, rfl⟩ := h
      rw [href]
      simp [FileCache.storedEntry, hflag]
    · have hle := fc.firstEmpty_le
      rw [hinv.len] at hle
      rw [FileCache.NewFile_full hinv (by omega)] at h
      simp only [Except.ok.injEq, Prod.mk.injEq] at h
      obtain ⟨-, -, rfl⟩ := h
      rfl
  · intro handle e err fc1 he hflag h
    obtain ⟨fc2, h2, -, -, href, -⟩ := FileCache.CloseFile_valid hinv he
    rw [h2] at h
    simp only [Except.ok.injEq, Prod.mk.injEq] at h
    obtain ⟨-, rfl⟩ := h
    apply href
    rw [(hinv.entries handle e he).2]
    simp [hflag]
  · intro handle
    by_cases hv : ∃ e, fc.fileEntryVec[handle]? = some (some e)
    · obtain ⟨e, he⟩ := hv
      obtain ⟨fc2, h2, -⟩ := FileCache.CloseFile_valid hinv he
      rw [h2]
      exact ⟨by simp, _, rfl⟩
    · rw [FileCache.CloseFile_invalid hinv (fun e he => hv ⟨e, he⟩)]
      exact ⟨by simp, _, rfl⟩

theorem sampleTable_reachable : FileCache.Reachable 2 sampleTable :=
  @FileCache.Reachable.newFile 2 (NewFileCache 2) sampleTable (-1) 0 sampleEntry none
    FileCache.Reachable.init rfl

/-- Witness of C8 on the empty table of two slots: the descriptor is 0. -/
theorem C8_NewFile_smallest_free_slot_witness :
    ∃ fc1, (NewFileCache 2).NewFile (-1) sampleEntry = .ok (none, 0, fc1) ∧
      fc1.fileEntryVec = [some (FileCache.storedEntry 0 sampleEntry), none] := by
  obtain ⟨fc1, h1, h2, -⟩ :=
    (C8_NewFile_smallest_free_slot 2 (by decide) (NewFileCache 2) FileCache.Reachable.init (-1)
      sampleEntry).1 0 (by decide) (fun j hj => absurd hj (Nat.not_lt_zero j))
  exact ⟨fc1, h1, h2⟩

/-- Witness of C9 on the table after one open: the next free index is 1. -/
theorem C9_next_free_is_smallest_empty_witness :
    sampleTable.fileEntryIndex ≤ 2 ∧
      (sampleTable.fileEntryIndex < 2 →
        sampleTable.fileEntryVec[sampleTable.fileEntryIndex]? = some none) ∧
      sampleTable.NewFile (-1) sampleEntry ≠ .error .panic :=
  have h := C9_next_free_is_smallest_empty 2 (by decide) sampleTable sampleTable_reachable
  ⟨h.2.1, h.2.2.2.1, (h.2.2.2.2 (-1) sampleEntry).1⟩

/-- Witness of C10 on the table after one open: file 7 is referenced once. -/
theorem C10_reference_count_invariant_witness :
    (sampleTable.fileRefer.get 7 =
      if sampleTable.cachedHandles 7 = 0 then none
      else some (sampleTable.cachedHandles 7 : Int)) ∧
      sampleTable.CloseFile 0 ≠ .error .assert :=
  have h := C10_reference_count_invariant 2 (by decide) sampleTable sampleTable_reachable
  ⟨h.1 7, (h.2.2.2 0).1⟩

/-! ## The cache state: projections and the lock table -/

theorem GoMap.set_set {β : Type} (m : GoMap β) (k : Nat) (v v1 : β) :
    (m.set k v).set k v1 = m.set k v1 := by
  obtain ⟨l⟩ := m
  simp only [GoMap.set]
  congr 1
  induction l with
  | nil => simp [GoMap.setL]
  | cons p t ih =>
    obtain ⟨k1, v2⟩ := p
    by_cases h : k1 = k
    · simp [GoMap.setL, h]
    · simp [GoMap.setL, h, ih]

@[simp] theorem CacheState.setW_core (s : CacheState) (c : BlockCache) :
    (s.setW c).wCache.toBlockCache = c := rfl

@[simp] theorem CacheState.setW_rCache (s : CacheState) (c : BlockCache) :
    (s.setW c).rCache = s.rCache := rfl

@[simp] theorem CacheState.setW_proxyClient (s : CacheState) (c : BlockCache) :
    (s.setW c).proxyClient = s.proxyClient := rfl

@[simp] theorem CacheState.setW_now (s : CacheState) (c : BlockCache) :
    (s.setW c).now = s.now := rfl

@[simp] theorem CacheState.setW_chSync (s : CacheState) (c : BlockCache) :
    (s.setW c).wCache.chSync = s.wCache.chSync := rfl

@[simp] theorem CacheState.setW_setW (s : CacheState) (c c1 : BlockCache) :
    (s.setW c).setW c1 = s.setW c1 := rfl

@[simp] theorem CacheState.setW_self (s : CacheState) : s.setW s.wCache.toBlockCache = s := rfl

@[simp] theorem CacheState.setR_core (s : CacheState) (c : BlockCache) :
    (s.setR c).rCache.toBlockCache = c := rfl

@[simp] theorem CacheState.setR_wCache (s : CacheState) (c : BlockCache) :
    (s.setR c).wCache = s.wCache := rfl

@[simp] theorem CacheState.setR_proxyClient (s : CacheState) (c : BlockCache) :
    (s.setR c).proxyClient = s.proxyClient := rfl

@[simp] theorem CacheState.setR_now (s : CacheState) (c : BlockCache) :
    (s.setR c).now = s.now := rfl

@[simp] theorem CacheState.setR_chPrefetch (s : CacheState) (c : BlockCache) :
    (s.setR c).rCache.chPrefetch = s.rCache.chPrefetch := rfl

@[simp] theorem CacheState.setR_setR (s : CacheState) (c c1 : BlockCache) :
    (s.setR c).setR c1 = s.setR c1 := rfl

@[simp] theorem CacheState.setR_self (s : CacheState) : s.setR s.rCache.toBlockCache = s := rfl

/-- The cache core with the file buffer of `fid` replaced. -/
theorem BlockCache.onFileBuf_ok (c : BlockCache) {fid : Nat} {fb fb1 : FileBuffer}
    {f : FileBuffer → Except Fault FileBuffer}
    (h : c.Cache.get fid = some fb) (hf : f fb = .ok fb1) :
    c.onFileBuf fid f = .ok { c with Cache := c.Cache.set fid fb1 } := by
  simp [BlockCache.onFileBuf, h, hf]

theorem BlockCache.LockBuffer_ok (c : BlockCache) {fid idx : Nat} {fb : FileBuffer}
    (h : c.Cache.get fid = some fb) (hl : fb.LockMap.get idx = none) :
    c.LockBuffer fid idx = .ok { c with
      Cache := c.Cache.set fid
        { fb with LockMap := fb.LockMap.set idx { tp := WriteLock, refer := 0 } } } := by
  unfold BlockCache.LockBuffer
  exact c.onFileBuf_ok h (by simp [FileBuffer.LockBuffer, hl])

theorem BlockCache.UnLockBuffer_ok (c : BlockCache) {fid idx : Nat} {fb : FileBuffer}
    (h : c.Cache.get fid = some fb)
    (hl : fb.LockMap.get idx = some { tp := WriteLock, refer := 0 }) :
    c.UnLockBuffer fid idx = .ok { c with
      Cache := c.Cache.set fid { fb with LockMap := fb.LockMap.del idx } } := by
  unfold BlockCache.UnLockBuffer
  exact c.onFileBuf_ok h (by simp [FileBuffer.UnLockBuffer, hl, Assert, bind, Except.bind, pure,
    Except.pure])

/-- A lock that `LockBuffer` cannot take: the call does not return. -/
theorem BlockCache.LockBuffer_error (c : BlockCache) {fid idx : Nat}
    (h : ∀ fb, c.Cache.get fid = some fb → fb.LockMap.get idx ≠ none) :
    ∃ e, c.LockBuffer fid idx = .error e := by
  unfold BlockCache.LockBuffer BlockCache.onFileBuf
  cases hg : c.Cache.get fid with
  | none => exact ⟨_, rfl⟩
  | some fb =>
    have := h fb hg
    cases hl : fb.LockMap.get idx with
    | none => exact absurd hl this
    | some v => exact ⟨Fault.blocked, by simp [FileBuffer.LockBuffer, hl]⟩

/-! ## `FlushBuffer` and `Flush` -/

theorem BlockCache.RemoveLru_fst (c : BlockCache) (b : Buffer) :
    (c.RemoveLru b).1 = { b with elm := false } := by
  unfold BlockCache.RemoveLru
  cases h : b.elm
  · simp only [Bool.false_eq_true, if_false]
    cases b
    simp_all
  · simp

theorem BlockCache.RemoveLru_Cache (c : BlockCache) (b : Buffer) :
    (c.RemoveLru b).2.Cache = c.Cache := by
  unfold BlockCache.RemoveLru
  split <;> rfl

theorem BlockCache.RemoveLru_FreeList (c : BlockCache) (b : Buffer) :
    (c.RemoveLru b).2.FreeList = c.FreeList := by
  unfold BlockCache.RemoveLru
  split <;> rfl

theorem BlockCache.DoLru_Cache (c : BlockCache) (b : Buffer) (now : Nat) :
    (c.DoLru b now).2.Cache = c.Cache := by
  unfold BlockCache.DoLru
  split <;> rfl

theorem BlockCache.DoLru_FreeList (c : BlockCache) (b : Buffer) (now : Nat) :
    (c.DoLru b now).2.FreeList = c.FreeList := by
  unfold BlockCache.DoLru
  split <;> rfl

theorem BlockCache.DoLru_fst (c : BlockCache) (b : Buffer) (now : Nat) :
    (c.DoLru b now).1 = { b with LastUpdateTime := now, elm := true } := by
  obtain ⟨Id, fe, BlkIdx, Offset, Len, dataBuf, LastUpdateTime, elm⟩ := b
  cases elm <;> simp [BlockCache.DoLru]

/-- The outcome of `FlushBuffer` on a file buffer whose block lock is free. -/
theorem WCache.FlushBuffer_eq (s : CacheState) (fid idx : Nat) (fb : FileBuffer)
    (hfb : s.wCache.Cache.get fid = some fb) (hl : fb.LockMap.get idx = none) :
    WCache.FlushBuffer fid idx s =
      match fb.BufferMap.get idx with
      | none => .ok (none, s)
      | some b0 =>
        match b0.fe with
        | none => .error .runtime
        | some fe1 =>
          if b0.Offset + b0.Len > b0.dataBuf.length then .error .runtime
          else
            let l := s.wCache.toBlockCache.RemoveLru b0
            let w := Writer.Write fe1.Id ((b0.dataBuf.drop b0.Offset).take b0.Len)
              (b0.BlkIdx * fe1.BlockSize + b0.Offset) s.proxyClient
            if WCache.flushKeeps w.1.2 then .ok (w.1.2, s.flushKept w l.2 fid idx fb l.1)
            else .ok (w.1.2, s.flushDetached w l.2 fid idx fb l.1) := by
  have hlock := s.wCache.toBlockCache.LockBuffer_ok hfb hl
  simp only [WCache.FlushBuffer, CacheState.onW, hlock, bind, Except.bind]
  cases hb : fb.BufferMap.get idx with
  | none =>
    simp only [WCache.FlushBufferBody, BlockCache.GetBuffer, BlockCache.fileBuf,
      CacheState.setW_core, GoMap.get_set_self, FileBuffer.GetBuffer, hb, bind, Except.bind,
      pure, Except.pure, BlockCache.UnLockBuffer, BlockCache.onFileBuf, FileBuffer.UnLockBuffer,
      Assert, WriteLock, decide_True, Bool.and_self, if_true, GoMap.set_set,
      GoMap.del_set_of_get_none _ _ hl]
    have hfbeta : FileBuffer.mk fb.fe fb.BufferMap fb.LockMap fb.pw = fb := rfl
    rw [hfbeta, GoMap.set_get_self _ hfb]
    rfl
  | some b0 =>
    cases hfe : b0.fe with
    | none =>
      simp [WCache.FlushBufferBody, BlockCache.GetBuffer, BlockCache.fileBuf,
        GoMap.get_set_self, FileBuffer.GetBuffer, hb, bind, Except.bind,
        BlockCache.RemoveLru_fst, hfe, throw, throwThe, MonadExceptOf.throw]
    | some fe1 =>
      by_cases hr : b0.Offset + b0.Len > b0.dataBuf.length
      · simp [WCache.FlushBufferBody, BlockCache.GetBuffer, BlockCache.fileBuf,
          GoMap.get_set_self, FileBuffer.GetBuffer, hb, bind, Except.bind,
          BlockCache.RemoveLru_fst, hfe, pure, Except.pure, Buffer.GetData, hr]
      · have hfbeta : FileBuffer.mk fb.fe fb.BufferMap fb.LockMap fb.pw = fb := rfl
        simp only [hr, if_false, WCache.FlushBufferBody, BlockCache.GetBuffer, BlockCache.fileBuf,
          GoMap.get_set_self, FileBuffer.GetBuffer, hb, bind, Except.bind,
          BlockCache.RemoveLru_fst, hfe, pure, Except.pure, Buffer.GetData, Buffer.GetFileOffset,
          Buffer.GetAlignOffset, WCache.DirectWrite, CacheState.setW_core,
          CacheState.setW_proxyClient]
        cases hw : (Writer.Write fe1.Id (List.take b0.Len (List.drop b0.Offset b0.dataBuf))
            (b0.BlkIdx * fe1.BlockSize + b0.Offset) s.proxyClient).1.2 with
        | none =>
          cases helm : b0.elm <;>
          simp [WCache.flushKeeps, BlockCache.DetachBuffer, BlockCache.onFileBuf,
            BlockCache.RemoveLru, helm, GoMap.get_set_self, FileBuffer.DetachBuffer,
            BlockCache.FreeBuffer, BlockCache.UnLockBuffer, FileBuffer.UnLockBuffer, Assert,
            WriteLock, GoMap.set_set, GoMap.del_set_of_get_none _ _ hl, bind, Except.bind, pure,
            Except.pure, CacheState.flushDetached, CacheState.setW, hw]
        | some err =>
          have hkeepcases : WCache.flushKeeps (some err) = true ∨
              err = GoError.errno E_POSIX_ENOENT := by
            cases err with
            | errno code =>
              by_cases hc : E_POSIX_ENOENT = code
              · right; rw [hc]
              · left; simp [WCache.flushKeeps, hc]
            | other msg => left; rfl
            | wrap msg inner => left; rfl
          rcases hkeepcases with hk | hk
          · have hne : ∀ code, err = GoError.errno code → ¬ E_POSIX_ENOENT = code := by
              intro code hcode
              subst hcode
              simpa [WCache.flushKeeps] using hk
            cases err with
            | errno code =>
              have := hne code rfl
              cases helm : b0.elm <;>
              simp [hk, this, BlockCache.DetachBuffer, BlockCache.onFileBuf,
                BlockCache.RemoveLru, BlockCache.DoLru, BlockCache.putBuffer,
                helm, GoMap.get_set_self, FileBuffer.DetachBuffer,
                BlockCache.FreeBuffer, BlockCache.UnLockBuffer, FileBuffer.UnLockBuffer, Assert,
                WriteLock, GoMap.set_set, GoMap.del_set_of_get_none _ _ hl, bind, Except.bind,
                pure, Except.pure, CacheState.flushKept, CacheState.setW, hw]
            | other msg =>
              cases helm : b0.elm <;>
              simp [hk, BlockCache.DetachBuffer, BlockCache.onFileBuf,
                BlockCache.RemoveLru, BlockCache.DoLru, BlockCache.putBuffer,
                helm, GoMap.get_set_self, FileBuffer.DetachBuffer,
                BlockCache.FreeBuffer, BlockCache.UnLockBuffer, FileBuffer.UnLockBuffer, Assert,
                WriteLock, GoMap.set_set, GoMap.del_set_of_get_none _ _ hl, bind, Except.bind,
                pure, Except.pure, CacheState.flushKept, CacheState.setW, hw]
            | wrap msg inner =>
              cases helm : b0.elm <;>
              simp [hk, BlockCache.DetachBuffer, BlockCache.onFileBuf,
                BlockCache.RemoveLru, BlockCache.DoLru, BlockCache.putBuffer,
                helm, GoMap.get_set_self, FileBuffer.DetachBuffer,
                BlockCache.FreeBuffer, BlockCache.UnLockBuffer, FileBuffer.UnLockBuffer, Assert,
                WriteLock, GoMap.set_set, GoMap.del_set_of_get_none _ _ hl, bind, Except.bind,
                pure, Except.pure, CacheState.flushKept, CacheState.setW, hw]
          · subst hk
            cases helm : b0.elm <;>
            simp [WCache.flushKeeps, BlockCache.DetachBuffer, BlockCache.onFileBuf,
              BlockCache.RemoveLru, helm, GoMap.get_set_self, FileBuffer.DetachBuffer,
              BlockCache.FreeBuffer, BlockCache.UnLockBuffer, FileBuffer.UnLockBuffer, Assert,
              WriteLock, GoMap.set_set, GoMap.del_set_of_get_none _ _ hl, bind, Except.bind, pure,
              Except.pure, CacheState.flushDetached, CacheState.setW, hw]

theorem toErr_none_ne_none {code : Int} (h : code ≠ 0) : toErr none code ≠ none := by
  simp only [toErr, TryToErrno, true_and, h, if_false]
  split_ifs <;> simp

theorem Writer.Write_snd (id : Nat) (buffer : List Byte) (offset : Nat) (p : ProxyClient) :
    (Writer.Write id buffer offset p).2 =
      { p with calls := ProxyCall.Write id buffer offset :: p.calls } := by
  simp only [Writer.Write, ProxyClient.call]
  split_ifs <;> rfl

theorem Writer.Write_size (id : Nat) (buffer : List Byte) (offset : Nat) (p : ProxyClient)
    (h : (Writer.Write id buffer offset p).1.2 = none) :
    (Writer.Write id buffer offset p).1.1 = buffer.length % U32 := by
  simp only [Writer.Write] at h ⊢
  by_cases h1 : (p.call (ProxyCall.Write id buffer offset)).1.err ≠ none
  · simp [h1] at h
  · by_cases h2 : (p.call (ProxyCall.Write id buffer offset)).1.Code ≠ 0
    · have h3 : (p.call (ProxyCall.Write id buffer offset)).1.err = none := by
        simpa using h1
      rw [h3] at h
      simp only [ne_eq, not_true_eq_false, if_false, h2, not_false_eq_true, if_true] at h
      exact absurd h (toErr_none_ne_none h2)
    · simp [h1, h2]

/-- A `FlushBuffer` that returns found the file buffer with the block lock free. -/
theorem WCache.FlushBuffer_ok_pre {s : CacheState} {fid idx : Nat}
    {r : Option GoError × CacheState} (h : WCache.FlushBuffer fid idx s = .ok r) :
    ∃ fb, s.wCache.Cache.get fid = some fb ∧ fb.LockMap.get idx = none := by
  cases hg : s.wCache.Cache.get fid with
  | none =>
    simp [WCache.FlushBuffer, CacheState.onW, BlockCache.LockBuffer, BlockCache.onFileBuf, hg,
      bind, Except.bind] at h
  | some fb =>
    refine ⟨fb, rfl, ?_⟩
    cases hl : fb.LockMap.get idx with
    | none => rfl
    | some v =>
      simp [WCache.FlushBuffer, CacheState.onW, BlockCache.LockBuffer, BlockCache.onFileBuf, hg,
        FileBuffer.LockBuffer, hl, bind, Except.bind] at h

/-- What one `FlushBuffer` that returns does to the state. -/
theorem WCache.FlushBuffer_step {s s1 : CacheState} {fid idx : Nat} {e : Option GoError}
    (h : WCache.FlushBuffer fid idx s = .ok (e, s1)) :
    ∃ fb fb1, s.wCache.Cache.get fid = some fb ∧ s1.wCache.Cache.get fid = some fb1 ∧
      fb.LockMap.get idx = none ∧
      fb1.LockMap = fb.LockMap ∧ fb1.fe = fb.fe ∧ fb1.pw = fb.pw ∧
      s1.rCache = s.rCache ∧ s1.now = s.now ∧
      s1.proxyClient.remote = s.proxyClient.remote ∧ s1.wCache.chSync = s.wCache.chSync ∧
      (∀ k, k ≠ idx → fb1.BufferMap.get k = fb.BufferMap.get k) ∧
      (∀ k, k ≠ fid → s1.wCache.Cache.get k = s.wCache.Cache.get k) ∧
      ((fb.BufferMap.get idx = none ∧ s1 = s ∧ e = none) ∨
       (∃ b fe1, fb.BufferMap.get idx = some b ∧ b.fe = some fe1 ∧
          b.Offset + b.Len ≤ b.dataBuf.length ∧
          e = (Writer.Write fe1.Id ((b.dataBuf.drop b.Offset).take b.Len)
                (b.BlkIdx * fe1.BlockSize + b.Offset) s.proxyClient).1.2 ∧
          s1.proxyClient.calls =
            ProxyCall.Write fe1.Id ((b.dataBuf.drop b.Offset).take b.Len)
              (b.BlkIdx * fe1.BlockSize + b.Offset) :: s.proxyClient.calls ∧
          ((WCache.flushKeeps e = false ∧ fb1.BufferMap.get idx = none ∧
              s1.wCache.FreeList = s.wCache.FreeList ++ [{ b with elm := false }]) ∨
           (WCache.flushKeeps e = true ∧
              fb1.BufferMap.get idx =
                some { b with LastUpdateTime := s.now, elm := true } ∧
              s1.wCache.FreeList = s.wCache.FreeList ∧
              s1.wCache.LruList.head? = some b.Id)))) := by
  obtain ⟨fb, hfb, hl⟩ := WCache.FlushBuffer_ok_pre h
  rw [WCache.FlushBuffer_eq s fid idx fb hfb hl] at h
  cases hb : fb.BufferMap.get idx with
  | none =>
    simp only [hb, Except.ok.injEq, Prod.mk.injEq] at h
    obtain ⟨rfl, rfl⟩ := h
    exact ⟨fb, fb, hfb, hfb, hl, rfl, rfl, rfl, rfl, rfl, rfl, rfl, fun _ _ => rfl,
      fun _ _ => rfl, Or.inl ⟨hb, rfl, rfl⟩⟩
  | some b =>
    simp only [hb] at h
    cases hfe : b.fe with
    | none => simp [hfe] at h
    | some fe1 =>
      simp only [hfe] at h
      by_cases hr : b.Offset + b.Len > b.dataBuf.length
      · simp [hr] at h
      · simp only [hr, if_false] at h
        by_cases hk : WCache.flushKeeps (Writer.Write fe1.Id
            ((b.dataBuf.drop b.Offset).take b.Len)
            (b.BlkIdx * fe1.BlockSize + b.Offset) s.proxyClient).1.2 = true
        · simp only [hk, if_true, Except.ok.injEq, Prod.mk.injEq] at h
          obtain ⟨rfl, rfl⟩ := h
          refine ⟨fb, FileBuffer.mk fb.fe (fb.BufferMap.set idx
              ((s.wCache.RemoveLru b).2.DoLru (s.wCache.RemoveLru b).1 s.now).1) fb.LockMap fb.pw,
            hfb, ?_, hl, rfl, rfl, rfl, rfl, rfl, ?_, rfl, ?_, ?_, Or.inr ⟨b, fe1, hb,
            hfe, by omega, rfl, ?_, Or.inr ⟨hk, ?_, ?_, ?_⟩⟩⟩
          · simp [CacheState.flushKept, BlockCache.DoLru_Cache, BlockCache.RemoveLru_Cache,
              GoMap.get_set_self]
          · simp [CacheState.flushKept, Writer.Write_snd]
          · intro k hk2
            simp [GoMap.get_set_ne _ _ hk2]
          · intro k hk2
            simp [CacheState.flushKept, BlockCache.RemoveLru_Cache, GoMap.get_set_ne _ _ hk2]
          · simp [CacheState.flushKept, Writer.Write_snd]
          · simp [GoMap.get_set_self, BlockCache.DoLru_fst, BlockCache.RemoveLru_fst]
          · simp [CacheState.flushKept, BlockCache.DoLru_FreeList, BlockCache.RemoveLru_FreeList]
          · simp [CacheState.flushKept, BlockCache.DoLru, BlockCache.RemoveLru_fst]
        · simp only [hk, if_false, Except.ok.injEq, Prod.mk.injEq, Bool.false_eq_true] at h
          obtain ⟨rfl, rfl⟩ := h
          refine ⟨fb, FileBuffer.mk fb.fe (fb.BufferMap.del idx) fb.LockMap fb.pw,
            hfb, ?_, hl, rfl, rfl, rfl, rfl, rfl, ?_, rfl, ?_, ?_, Or.inr ⟨b, fe1, hb,
            hfe, by omega, rfl, ?_, Or.inl ⟨by simpa using hk, ?_, ?_⟩⟩⟩
          · simp [CacheState.flushDetached, BlockCache.RemoveLru_Cache, GoMap.get_set_self]
          · simp [CacheState.flushDetached, Writer.Write_snd]
          · intro k hk2
            simp [GoMap.get_del_ne _ hk2]
          · intro k hk2
            simp [CacheState.flushDetached, BlockCache.RemoveLru_Cache,
              GoMap.get_set_ne _ _ hk2]
          · simp [CacheState.flushDetached, Writer.Write_snd]
          · simp [GoMap.get_del_self]
          · simp [CacheState.flushDetached, BlockCache.RemoveLru_FreeList,
              BlockCache.RemoveLru_fst]

theorem WCache.flushKeeps_eq_false (err : Option GoError) :
    WCache.flushKeeps err = false ↔ (err = none ∨ err = some (GoError.errno E_POSIX_ENOENT)) := by
  cases err with
  | none => simp [WCache.flushKeeps]
  | some e =>
    cases e with
    | errno code =>
      simp only [WCache.flushKeeps, ne_eq, decide_not, Bool.not_eq_false', decide_eq_true_eq,
        reduceCtorEq, false_or, Option.some.injEq, GoError.errno.injEq]
      exact ⟨fun h => h.symm, fun h => h.symm⟩
    | other msg => simp [WCache.flushKeeps]
    | wrap msg inner => simp [WCache.flushKeeps]

theorem WCache.FlushLoop_sticky (fid : Nat) :
    ∀ (keys : List Nat) (e : GoError) (s s1 : CacheState) (r : Option GoError),
      WCache.FlushLoop fid keys (some e) s = .ok (r, s1) → r ≠ none := by
  intro keys
  induction keys with
  | nil =>
    intro e s s1 r h
    simp only [WCache.FlushLoop, Except.ok.injEq, Prod.mk.injEq] at h
    rw [← h.1]; simp
  | cons idx rest ih =>
    intro e s s1 r h
    simp only [WCache.FlushLoop, bind, Except.bind] at h
    cases hf : WCache.FlushBuffer fid idx s with
    | error f => rw [hf] at h; simp at h
    | ok r1 =>
      rw [hf] at h
      simp only at h
      cases hr : r1.1 with
      | none =>
        rw [hr] at h
        simp only [ne_eq, not_true_eq_false, if_false] at h
        exact ih e _ _ _ h
      | some e1 =>
        rw [hr] at h
        simp only [ne_eq, reduceCtorEq, not_false_eq_true, if_true] at h
        exact ih e1 _ _ _ h

/-- An invariant of single `FlushBuffer` calls is an invariant of the flush loop. -/
theorem WCache.FlushLoop_invariant (fid : Nat) (J : CacheState → Prop)
    (hstep : ∀ idx s e s1, J s → WCache.FlushBuffer fid idx s = .ok (e, s1) → J s1) :
    ∀ (keys : List Nat) (e0 : Option GoError) (s s1 : CacheState) (r : Option GoError),
      J s → WCache.FlushLoop fid keys e0 s = .ok (r, s1) → J s1 := by
  intro keys
  induction keys with
  | nil =>
    intro e0 s s1 r hJ h
    simp only [WCache.FlushLoop, Except.ok.injEq, Prod.mk.injEq] at h
    rw [← h.2]; exact hJ
  | cons idx rest ih =>
    intro e0 s s1 r hJ h
    simp only [WCache.FlushLoop, bind, Except.bind] at h
    cases hf : WCache.FlushBuffer fid idx s with
    | error f => rw [hf] at h; simp at h
    | ok r1 =>
      rw [hf] at h
      exact ih _ _ _ _ (hstep idx s r1.1 r1.2 hJ hf) h

/-- A flush loop that ends without error: every listed block is without buffer afterwards, and
every buffer it found was written to the proxy and returned to the free list. -/
theorem WCache.FlushLoop_clean (fid : Nat) :
    ∀ (keys : List Nat) (s s1 : CacheState) (fb : FileBuffer),
      s.wCache.Cache.get fid = some fb →
      WCache.FlushLoop fid keys none s = .ok (none, s1) →
      ∃ fb1, s1.wCache.Cache.get fid = some fb1 ∧
        (∀ k, fb1.BufferMap.get k = if k ∈ keys then none else fb.BufferMap.get k) ∧
        (∀ x, x ∈ s.wCache.FreeList → x ∈ s1.wCache.FreeList) ∧
        (∀ c, c ∈ s.proxyClient.calls → c ∈ s1.proxyClient.calls) ∧
        (∀ k b, k ∈ keys → fb.BufferMap.get k = some b →
          { b with elm := false } ∈ s1.wCache.FreeList ∧
          ∃ fe1, b.fe = some fe1 ∧
            ProxyCall.Write fe1.Id ((b.dataBuf.drop b.Offset).take b.Len)
              (b.BlkIdx * fe1.BlockSize + b.Offset) ∈ s1.proxyClient.calls) := by
  intro keys
  induction keys with
  | nil =>
    intro s s1 fb hfb h
    simp only [WCache.FlushLoop, Except.ok.injEq, Prod.mk.injEq, true_and] at h
    subst h
    exact ⟨fb, hfb, by simp, fun _ h => h, fun _ h => h, by simp⟩
  | cons idx rest ih =>
    intro s s1 fb hfb h
    simp only [WCache.FlushLoop, bind, Except.bind] at h
    cases hf : WCache.FlushBuffer fid idx s with
    | error f => rw [hf] at h; simp at h
    | ok r1 =>
      obtain ⟨e1, s2⟩ := r1
      rw [hf] at h
      simp only at h
      cases he1 : e1 with
      | some e =>
        rw [he1] at h
        simp only [ne_eq, reduceCtorEq, not_false_eq_true, if_true] at h
        exact absurd rfl (WCache.FlushLoop_sticky fid rest e s2 s1 none h)
      | none =>
        subst he1
        simp only [ne_eq, not_true_eq_false, if_false] at h
        obtain ⟨fb0, fb2, hfb0, hfb2, -, -, -, -, -, -, -, -, hframe, -, hcase⟩ :=
          WCache.FlushBuffer_step hf
        rw [hfb] at hfb0
        simp only [Option.some.injEq] at hfb0
        subst hfb0
        obtain ⟨fb1, hfb1, hget, hfree, hcalls, hdone⟩ := ih s2 s1 fb2 hfb2 h
        have hidx : fb2.BufferMap.get idx = none := by
          rcases hcase with ⟨hn, hs, -⟩ | ⟨b, fe1, hb, -, -, -, -, hk⟩
          · rw [hs] at hfb2
            rw [hfb] at hfb2
            simp only [Option.some.injEq] at hfb2
            rw [← hfb2]; exact hn
          · rcases hk with ⟨-, hn, -⟩ | ⟨hk, -⟩
            · exact hn
            · simp [WCache.flushKeeps] at hk
        have hfree0 : ∀ x, x ∈ s.wCache.FreeList → x ∈ s2.wCache.FreeList := by
          intro x hx
          rcases hcase with ⟨-, hs, -⟩ | ⟨b, fe1, hb, -, -, -, -, hk⟩
          · rw [hs]; exact hx
          · rcases hk with ⟨-, -, hfl⟩ | ⟨-, -, hfl, -⟩
            · rw [hfl]; exact List.mem_append_left _ hx
            · rw [hfl]; exact hx
        have hcalls0 : ∀ c, c ∈ s.proxyClient.calls → c ∈ s2.proxyClient.calls := by
          intro c hc
          rcases hcase with ⟨-, hs, -⟩ | ⟨b, fe1, hb, -, -, -, hcl, -⟩
          · rw [hs]; exact hc
          · rw [hcl]; exact List.mem_cons_of_mem _ hc
        refine ⟨fb1, hfb1, ?_, fun x hx => hfree x (hfree0 x hx),
          fun c hc => hcalls c (hcalls0 c hc), ?_⟩
        · intro k
          rw [hget k]
          by_cases hk : k = idx
          · subst hk
            simp [hidx]
          · simp only [List.mem_cons, hk, false_or]
            rw [hframe k hk]
        · intro k b hk hb
          by_cases hki : k = idx
          · subst hki
            rcases hcase with ⟨hn, -, -⟩ | ⟨b1, fe1, hb1, hfe1, -, -, hcl, hkeep⟩
            · rw [hn] at hb; cases hb
            · rw [hb] at hb1
              simp only [Option.some.injEq] at hb1
              subst hb1
              rcases hkeep with ⟨-, -, hfl⟩ | ⟨hk2, -⟩
              · refine ⟨hfree _ (by rw [hfl]; simp), fe1, hfe1, hcalls _ (by rw [hcl]; simp)⟩
              · simp [WCache.flushKeeps] at hk2
          · have hk2 : k ∈ rest := by
              simpa [hki] using hk
            exact hdone k b hk2 (by rw [hframe k hki]; exact hb)

theorem BlockCache.GetFileBuffer_false_fst (c : BlockCache) (fe : FileEntry) :
    (c.GetFileBuffer fe false).1 = c.Cache.get fe.Id := by
  unfold BlockCache.GetFileBuffer
  cases c.Cache.get fe.Id <;> simp

theorem GoMap.keys_eq_nil_of_get_none {β : Type} (m : GoMap β) (h : ∀ k, m.get k = none) :
    m.keys = [] := by
  cases hk : m.keys with
  | nil => rfl
  | cons k t =>
    have : k ∈ m.keys := by rw [hk]; simp
    rw [GoMap.mem_keys_iff, h k] at this
    simp at this

theorem sampleDirty_reached :
    RWCache.Write sampleEntry [1, 2] 0 sampleState = .ok ((2, none), sampleDirty) := rfl

theorem sampleFlushed_reached :
    WCache.Flush sampleEntry sampleDirty = .ok (none, sampleFlushed) := rfl

/-- The statement of C2, shared with the idempotence of `Flush`. -/
theorem WCache.Flush_clean (fe : FileEntry) (s s1 : CacheState)
    (h : WCache.Flush fe s = .ok (none, s1)) :
    RWCache.Flush fe s = .ok (none, s1) ∧
    (s.wCache.Cache.get fe.Id = none → s1 = s) ∧
    (∀ fb, s.wCache.Cache.get fe.Id = some fb →
      ∃ fb1, s1.wCache.Cache.get fe.Id = some fb1 ∧ fb1.BufferMap.keys = [] ∧
        (∀ k, fb1.BufferMap.get k = none) ∧
        ∀ k b, fb.BufferMap.get k = some b →
          { b with elm := false } ∈ s1.wCache.FreeList ∧
          ∃ fe1, b.fe = some fe1 ∧
            ProxyCall.Write fe1.Id ((b.dataBuf.drop b.Offset).take b.Len)
              (b.BlkIdx * fe1.BlockSize + b.Offset) ∈ s1.proxyClient.calls) := by
  refine ⟨h, ?_, ?_⟩
  · intro hn
    simp only [WCache.Flush, BlockCache.GetFileBuffer_false_fst, hn, Except.ok.injEq,
      Prod.mk.injEq, true_and] at h
    exact h.symm
  · intro fb hfb
    simp only [WCache.Flush, BlockCache.GetFileBuffer_false_fst, hfb] at h
    by_cases hlen : fb.GetAllBufferIndex.length = 0
    · simp only [hlen, if_true, Except.ok.injEq, Prod.mk.injEq, true_and] at h
      subst h
      have hkeys : fb.BufferMap.keys = [] := List.length_eq_zero.mp hlen
      have hall : ∀ k, fb.BufferMap.get k = none := by
        intro k
        cases hg : fb.BufferMap.get k with
        | none => rfl
        | some b =>
          have : k ∈ fb.BufferMap.keys := by rw [GoMap.mem_keys_iff, hg]; rfl
          rw [hkeys] at this
          simp at this
      exact ⟨fb, hfb, hkeys, hall, fun k b hb => by rw [hall k] at hb; cases hb⟩
    · simp only [hlen, if_false] at h
      obtain ⟨fb1, hfb1, hget, -, -, hdone⟩ :=
        WCache.FlushLoop_clean fe.Id fb.GetAllBufferIndex s s1 fb hfb h
      have hall : ∀ k, fb1.BufferMap.get k = none := by
        intro k
        rw [hget k]
        split
        · rfl
        · rename_i hk
          cases hg : fb.BufferMap.get k with
          | none => rfl
          | some b =>
            exact absurd (by
              show k ∈ fb.BufferMap.keys
              rw [GoMap.mem_keys_iff, hg]; rfl) hk
      refine ⟨fb1, hfb1, GoMap.keys_eq_nil_of_get_none _ hall, hall, ?_⟩
      intro k b hb
      exact hdone k b (by
        show k ∈ fb.BufferMap.keys
        rw [GoMap.mem_keys_iff, hb]; rfl) hb

/-- C2: when `WCache.Flush(fe)`, hence `RWCache.Flush(fe)`, returns nil, the write-side file
buffer of `fe.Id` has an empty block map, and every buffer that was attached when the flush
took its snapshot was written to the proxy (its data at its file offset) and returned to
the free list; without a write-side file buffer nothing changes. -/
theorem C2_Flush_success_leaves_no_dirty_buffer (fe : FileEntry) (s s1 : CacheState)
    (h : WCache.Flush fe s = .ok (none, s1)) :
    RWCache.Flush fe s = .ok (none, s1) ∧
    (s.wCache.Cache.get fe.Id = none → s1 = s) ∧
    (∀ fb, s.wCache.Cache.get fe.Id = some fb →
      ∃ fb1, s1.wCache.Cache.get fe.Id = some fb1 ∧ fb1.BufferMap.keys = [] ∧
        (∀ k, fb1.BufferMap.get k = none) ∧
        ∀ k b, fb.BufferMap.get k = some b →
          { b with elm := false } ∈ s1.wCache.FreeList ∧
          ∃ fe1, b.fe = some fe1 ∧
            ProxyCall.Write fe1.Id ((b.dataBuf.drop b.Offset).take b.Len)
              (b.BlkIdx * fe1.BlockSize + b.Offset) ∈ s1.proxyClient.calls) :=
  WCache.Flush_clean fe s s1 h

/-- Witness of C2: the flush of the one dirty buffer of `sampleDirty`. -/
theorem C2_Flush_success_leaves_no_dirty_buffer_witness :
    WCache.Flush sampleEntry sampleDirty = .ok (none, sampleFlushed) ∧
      RWCache.Flush sampleEntry sampleDirty = .ok (none, sampleFlushed) :=
  ⟨sampleFlushed_reached,
    (C2_Flush_success_leaves_no_dirty_buffer sampleEntry sampleDirty sampleFlushed
      sampleFlushed_reached).1⟩

/-- C3: if `WCache.Flush` returns nil, a second `WCache.Flush` with no write in between
returns nil as well and returns the state it started from: the cache is unchanged and the
log of proxy calls has no new entry. -/
theorem C3_Flush_idempotent (fe : FileEntry) (s s1 : CacheState)
    (h : WCache.Flush fe s = .ok (none, s1)) :
    WCache.Flush fe s1 = .ok (none, s1) := by
  obtain ⟨-, hnone, hsome⟩ := WCache.Flush_clean fe s s1 h
  cases hg : s.wCache.Cache.get fe.Id with
  | none =>
    rw [hnone hg]
    simp [WCache.Flush, BlockCache.GetFileBuffer_false_fst, hg]
  | some fb =>
    obtain ⟨fb1, hfb1, hkeys, -⟩ := hsome fb hg
    simp [WCache.Flush, BlockCache.GetFileBuffer_false_fst, hfb1, FileBuffer.GetAllBufferIndex,
      hkeys]

/-- Witness of C3: the second flush after the flush of `sampleDirty`. -/
theorem C3_Flush_idempotent_witness :
    WCache.Flush sampleEntry sampleDirty = .ok (none, sampleFlushed) ∧
      WCache.Flush sampleEntry sampleFlushed = .ok (none, sampleFlushed) :=
  ⟨sampleFlushed_reached,
    C3_Flush_idempotent sampleEntry sampleDirty sampleFlushed sampleFlushed_reached⟩

/-- C5: `FlushBuffer` on a block of a file buffer whose block lock is free. With no buffer
at the index it returns nil and the unchanged state (no proxy call). With an attached
buffer it writes the buffer data to the proxy once and returns the error `err` of that write
unchanged (`E_POSIX_ENOENT` as `E_POSIX_ENOENT`); the buffer is detached and appended to the
free list exactly when `err` is nil or `E_POSIX_ENOENT`; for every other `err` it stays
attached with `Offset`, `Len` and data unchanged and is at the front of the LRU list. -/
theorem C5_FlushBuffer_failure_semantics (s : CacheState) (fid Index : Nat) (fb : FileBuffer)
    (hfb : s.wCache.Cache.get fid = some fb) (hl : fb.LockMap.get Index = none) :
    (fb.BufferMap.get Index = none → WCache.FlushBuffer fid Index s = .ok (none, s)) ∧
    (∀ buffer fe1, fb.BufferMap.get Index = some buffer → buffer.fe = some fe1 →
      buffer.Offset + buffer.Len ≤ buffer.dataBuf.length →
      ∃ err s1 fb1,
        err = (Writer.Write fe1.Id ((buffer.dataBuf.drop buffer.Offset).take buffer.Len)
          (buffer.BlkIdx * fe1.BlockSize + buffer.Offset) s.proxyClient).1.2 ∧
        WCache.FlushBuffer fid Index s = .ok (err, s1) ∧
        s1.wCache.Cache.get fid = some fb1 ∧
        s1.proxyClient.calls =
          ProxyCall.Write fe1.Id ((buffer.dataBuf.drop buffer.Offset).take buffer.Len)
            (buffer.BlkIdx * fe1.BlockSize + buffer.Offset) :: s.proxyClient.calls ∧
        (fb1.BufferMap.get Index = none ↔
          (err = none ∨ err = some (GoError.errno E_POSIX_ENOENT))) ∧
        (fb1.BufferMap.get Index = none →
          s1.wCache.FreeList = s.wCache.FreeList ++ [{ buffer with elm := false }]) ∧
        (¬ (err = none ∨ err = some (GoError.errno E_POSIX_ENOENT)) →
          ∃ b1, fb1.BufferMap.get Index = some b1 ∧ b1.Offset = buffer.Offset ∧
            b1.Len = buffer.Len ∧ b1.dataBuf = buffer.dataBuf ∧ b1.elm = true ∧
            s1.wCache.LruList.head? = some buffer.Id ∧
            s1.wCache.FreeList = s.wCache.FreeList)) := by
  have heq := WCache.FlushBuffer_eq s fid Index fb hfb hl
  constructor
  · intro hn
    rw [heq, hn]
  · intro buffer fe1 hb hfe hr
    have hr2 : ¬ buffer.Offset + buffer.Len > buffer.dataBuf.length := by omega
    simp only [hb, hfe, hr2, if_false] at heq
    by_cases hk : WCache.flushKeeps (Writer.Write fe1.Id
        ((buffer.dataBuf.drop buffer.Offset).take buffer.Len)
        (buffer.BlkIdx * fe1.BlockSize + buffer.Offset) s.proxyClient).1.2 = true
    · simp only [hk, if_true] at heq
      obtain ⟨fb0, fb1, hfb0, hfb1, -, -, -, -, -, -, -, -, -, -, hcase⟩ :=
        WCache.FlushBuffer_step heq
      rw [hfb] at hfb0
      simp only [Option.some.injEq] at hfb0
      subst hfb0
      rcases hcase with ⟨hn, -, -⟩ | ⟨b, fe2, hb2, hfe2, -, -, hcl, hkeep⟩
      · rw [hn] at hb; cases hb
      · rw [hb] at hb2
        simp only [Option.some.injEq] at hb2
        subst hb2
        rw [hfe] at hfe2
        simp only [Option.some.injEq] at hfe2
        subst hfe2
        have hnot : ¬ ((Writer.Write fe1.Id
            ((buffer.dataBuf.drop buffer.Offset).take buffer.Len)
            (buffer.BlkIdx * fe1.BlockSize + buffer.Offset) s.proxyClient).1.2 = none ∨
            (Writer.Write fe1.Id ((buffer.dataBuf.drop buffer.Offset).take buffer.Len)
            (buffer.BlkIdx * fe1.BlockSize + buffer.Offset) s.proxyClient).1.2 =
              some (GoError.errno E_POSIX_ENOENT)) := by
          rw [← WCache.flushKeeps_eq_false, hk]; simp
        rcases hkeep with ⟨hk2, -, -⟩ | ⟨-, hget, hfl, hlru⟩
        · rw [hk] at hk2; cases hk2
        · refine ⟨_, _, fb1, rfl, heq, hfb1, hcl, ?_, ?_, ?_⟩
          · rw [hget]
            constructor
            · intro h; cases h
            · intro h; exact absurd h hnot
          · intro h; rw [hget] at h; cases h
          · intro _
            exact ⟨_, hget, rfl, rfl, rfl, rfl, hlru, hfl⟩
    · have hk0 : WCache.flushKeeps (Writer.Write fe1.Id
          ((buffer.dataBuf.drop buffer.Offset).take buffer.Len)
          (buffer.BlkIdx * fe1.BlockSize + buffer.Offset) s.proxyClient).1.2 = false := by
        simpa using hk
      simp only [hk0, Bool.false_eq_true, if_false] at heq
      obtain ⟨fb0, fb1, hfb0, hfb1, -, -, -, -, -, -, -, -, -, -, hcase⟩ :=
        WCache.FlushBuffer_step heq
      rw [hfb] at hfb0
      simp only [Option.some.injEq] at hfb0
      subst hfb0
      rcases hcase with ⟨hn, -, -⟩ | ⟨b, fe2, hb2, hfe2, -, -, hcl, hkeep⟩
      · rw [hn] at hb; cases hb
      · rw [hb] at hb2
        simp only [Option.some.injEq] at hb2
        subst hb2
        rw [hfe] at hfe2
        simp only [Option.some.injEq] at hfe2
        subst hfe2
        rcases hkeep with ⟨-, hget, hfl⟩ | ⟨hk2, -⟩
        · refine ⟨_, _, fb1, rfl, heq, hfb1, hcl, ?_, ?_, ?_⟩
          · rw [hget]
            simp only [true_iff]
            exact (WCache.flushKeeps_eq_false _).mp hk0
          · intro _; exact hfl
          · intro h
            exact absurd ((WCache.flushKeeps_eq_false _).mp hk0) h
        · rw [hk0] at hk2; cases hk2

/-- Witness of C5: `FlushBuffer` on the dirty block 0 of `sampleDirty` (the write succeeds,
the buffer is detached) and on its block 1, which has no buffer. -/
theorem C5_FlushBuffer_failure_semantics_witness :
    WCache.FlushBuffer 7 1 sampleDirty = .ok (none, sampleDirty) ∧
      ∃ s1, WCache.FlushBuffer 7 0 sampleDirty = .ok (none, s1) := by
  have h := C5_FlushBuffer_failure_semantics sampleDirty 7 0 sampleFileBuffer rfl rfl
  have h1 := C5_FlushBuffer_failure_semantics sampleDirty 7 1 sampleFileBuffer rfl rfl
  refine ⟨h1.1 rfl, ?_⟩
  obtain ⟨err, s1, fb1, herr, hflush, -⟩ := h.2 sampleBuffer sampleEntry rfl rfl (by decide)
  have : err = none := by rw [herr]; rfl
  rw [this] at hflush
  exact ⟨s1, hflush⟩

/-! ## `WriteOp` and `Write`: sizes -/

theorem Except.bind_eq_ok_iff {ε α β : Type} (x : Except ε α) (f : α → Except ε β) (b : β) :
    (x >>= f) = .ok b ↔ ∃ a, x = .ok a ∧ f a = .ok b := by
  cases x with
  | error e => simp [bind, Except.bind]
  | ok a => simp [bind, Except.bind]

theorem Assert_eq_ok_iff (c : Bool) (u : Unit) : Assert c = .ok u ↔ c = true := by
  cases c <;> simp [Assert]

theorem RWBlockOp.IsFull_ok {op : RWBlockOp} {b : Bool} (h : op.IsFull = .ok b) :
    op.RwSize = op.rwBuf.length % U32 ∧ op.RwOffset + op.RwSize ≤ op.fe.BlockSize ∧
      b = decide (op.RwOffset + op.RwSize = op.fe.BlockSize) := by
  unfold RWBlockOp.IsFull at h
  rw [Except.bind_eq_ok_iff] at h
  obtain ⟨u1, h1, h⟩ := h
  rw [Except.bind_eq_ok_iff] at h
  obtain ⟨u2, h2, h⟩ := h
  rw [Assert_eq_ok_iff] at h1 h2
  simp only [pure, Except.pure, Except.ok.injEq] at h
  exact ⟨by simpa using h1, by simpa using h2, h.symm⟩

theorem WCache.DirectWrite_size (fe : FileEntry) (buffer : List Byte) (offset : Nat)
    (s : CacheState) (h : (WCache.DirectWrite fe buffer offset s).1.2 = none) :
    (WCache.DirectWrite fe buffer offset s).1.1 = buffer.length % U32 :=
  Writer.Write_size fe.Id buffer offset s.proxyClient h

theorem WCache.WriteOpNew_size {fe : FileEntry} {fid : Nat} {op : RWBlockOp}
    {s s1 : CacheState} {sync : Bool} {size : Nat}
    (h : WCache.WriteOpNew fe fid op s = .ok ((sync, size, none), s1)) : size = op.RwSize := by
  unfold WCache.WriteOpNew at h
  rw [Except.bind_eq_ok_iff] at h
  obtain ⟨opFull, hfull, h⟩ := h
  obtain ⟨hsz, -, -⟩ := RWBlockOp.IsFull_ok hfull
  split at h
  · simp only [pure, Except.pure, Except.ok.injEq, Prod.mk.injEq] at h
    obtain ⟨⟨-, hsize, herr⟩, -⟩ := h
    rw [← hsize, WCache.DirectWrite_size _ _ _ _ herr, hsz]
  · rw [Except.bind_eq_ok_iff] at h
    obtain ⟨a, ha, h⟩ := h
    split at h
    · simp only [pure, Except.pure, Except.ok.injEq, Prod.mk.injEq] at h
      obtain ⟨⟨-, hsize, herr⟩, -⟩ := h
      rw [← hsize, WCache.DirectWrite_size _ _ _ _ herr, hsz]
    · rw [Except.bind_eq_ok_iff] at h
      obtain ⟨buffer1, -, h⟩ := h
      rw [Except.bind_eq_ok_iff] at h
      obtain ⟨u, -, h⟩ := h
      rw [Except.bind_eq_ok_iff] at h
      obtain ⟨buffer, -, h⟩ := h
      rw [Except.bind_eq_ok_iff] at h
      obtain ⟨cache1, -, h⟩ := h
      rw [Except.bind_eq_ok_iff] at h
      obtain ⟨bufFull, -, h⟩ := h
      split at h
      · rw [Except.bind_eq_ok_iff] at h
        obtain ⟨opFull2, -, h⟩ := h
        rw [Except.bind_eq_ok_iff] at h
        obtain ⟨u2, -, h⟩ := h
        simp only [pure, Except.pure, Except.ok.injEq, Prod.mk.injEq] at h
        exact h.1.2.1.symm
      · rw [Except.bind_eq_ok_iff] at h
        obtain ⟨cache2, -, h⟩ := h
        simp only [pure, Except.pure, Except.ok.injEq, Prod.mk.injEq] at h
        exact h.1.2.1.symm

theorem WCache.WriteOpMerge_size {fe : FileEntry} {fid : Nat} {op : RWBlockOp} {buffer0 : Buffer}
    {cache0 : BlockCache} {s s1 : CacheState} {sync : Bool} {size : Nat}
    (h : WCache.WriteOpMerge fe fid op buffer0 cache0 s = .ok ((sync, size, none), s1)) :
    size = op.RwSize := by
  unfold WCache.WriteOpMerge at h
  rw [Except.bind_eq_ok_iff] at h
  obtain ⟨buffer, -, h⟩ := h
  rw [Except.bind_eq_ok_iff] at h
  obtain ⟨bufFull, -, h⟩ := h
  split at h
  · split at h
    · rw [Except.bind_eq_ok_iff] at h
      obtain ⟨cache1, -, h⟩ := h
      simp only [pure, Except.pure, Except.ok.injEq, Prod.mk.injEq] at h
      exact h.1.2.1.symm
    · rw [Except.bind_eq_ok_iff] at h
      obtain ⟨data, -, h⟩ := h
      rw [Except.bind_eq_ok_iff] at h
      obtain ⟨fileOffset, -, h⟩ := h
      dsimp only at h
      split at h
      · rename_i herr
        rw [Except.bind_eq_ok_iff] at h
        obtain ⟨cache1, -, h⟩ := h
        simp only [pure, Except.pure, Except.ok.injEq, Prod.mk.injEq] at h
        exact absurd h.1.2.2 herr
      · rw [Except.bind_eq_ok_iff] at h
        obtain ⟨cache1, -, h⟩ := h
        simp only [pure, Except.pure, Except.ok.injEq, Prod.mk.injEq] at h
        exact h.1.2.1.symm
  · rw [Except.bind_eq_ok_iff] at h
    obtain ⟨cache1, -, h⟩ := h
    simp only [pure, Except.pure, Except.ok.injEq, Prod.mk.injEq] at h
    exact h.1.2.1.symm

theorem WCache.WriteOpFlushFirst_size {fe : FileEntry} {fid : Nat} {op : RWBlockOp}
    {buffer : Buffer} {cache0 : BlockCache} {s s1 : CacheState} {sync : Bool} {size : Nat}
    (h : WCache.WriteOpFlushFirst fe fid op buffer cache0 s = .ok ((sync, size, none), s1)) :
    size = op.RwSize := by
  unfold WCache.WriteOpFlushFirst at h
  rw [Except.bind_eq_ok_iff] at h
  obtain ⟨data, -, h⟩ := h
  rw [Except.bind_eq_ok_iff] at h
  obtain ⟨fileOffset, -, h⟩ := h
  dsimp only at h
  split at h
  · rename_i herr
    rw [Except.bind_eq_ok_iff] at h
    obtain ⟨cache1, -, h⟩ := h
    simp only [pure, Except.pure, Except.ok.injEq, Prod.mk.injEq] at h
    exact absurd h.1.2.2 herr
  · rw [Except.bind_eq_ok_iff] at h
    obtain ⟨opFull, hfull, h⟩ := h
    obtain ⟨hsz, -, -⟩ := RWBlockOp.IsFull_ok hfull
    split at h
    · rw [Except.bind_eq_ok_iff] at h
      obtain ⟨cache1, -, h⟩ := h
      simp only [pure, Except.pure, Except.ok.injEq, Prod.mk.injEq] at h
      obtain ⟨⟨-, hsize, herr⟩, -⟩ := h
      rw [← hsize, WCache.DirectWrite_size _ _ _ _ herr, hsz]
    · rw [Except.bind_eq_ok_iff] at h
      obtain ⟨buffer1, -, h⟩ := h
      rw [Except.bind_eq_ok_iff] at h
      obtain ⟨buffer2, -, h⟩ := h
      rw [Except.bind_eq_ok_iff] at h
      obtain ⟨u, -, h⟩ := h
      rw [Except.bind_eq_ok_iff] at h
      obtain ⟨buffer3, -, h⟩ := h
      rw [Except.bind_eq_ok_iff] at h
      obtain ⟨cache1, -, h⟩ := h
      simp only [pure, Except.pure, Except.ok.injEq, Prod.mk.injEq] at h
      exact h.1.2.1.symm

/-- A `WriteOp` that returns without error returns the size `RwSize` of its op. -/
theorem WCache.WriteOp_size {fe : FileEntry} {fid : Nat} {op : RWBlockOp}
    {s s1 : CacheState} {sync : Bool} {size : Nat}
    (h : WCache.WriteOp fe fid op s = .ok ((sync, size, none), s1)) : size = op.RwSize := by
  unfold WCache.WriteOp at h
  rw [Except.bind_eq_ok_iff] at h
  obtain ⟨found, -, h⟩ := h
  cases found with
  | none => exact WCache.WriteOpNew_size h
  | some buffer =>
    simp only at h
    split at h
    · exact WCache.WriteOpMerge_size h
    · exact WCache.WriteOpFlushFirst_size h

/-- The loop of `Write` that ends with an error stopped at the first op whose `WriteOp`
returned an error. -/
theorem WCache.WriteLoop_error (fe : FileEntry) (err : GoError) :
    ∀ (Ops : List RWBlockOp) (w : Nat) (s s1 : CacheState) (res : Nat),
      WCache.WriteLoop fe Ops w s = .ok ((res, some err), s1) →
      ∃ k op sk sl sync size sw, Ops[k]? = some op ∧
        WCache.WriteLoop fe (Ops.take k) w s =
          .ok ((w + ((Ops.take k).map RWBlockOp.RwSize).sum, none), sk) ∧
        sk.onW (fun cache => cache.LockBuffer fe.Id op.Index) = .ok sl ∧
        WCache.WriteOp fe fe.Id op sl = .ok ((sync, size, some err), sw) ∧
        (if sync then sw.onW (fun cache => cache.UnLockBuffer fe.Id op.Index) else .ok sw) =
          .ok s1 ∧
        res = w + ((Ops.take k).map RWBlockOp.RwSize).sum := by
  intro Ops
  induction Ops with
  | nil =>
    intro w s s1 res h
    simp [WCache.WriteLoop] at h
  | cons op rest ih =>
    intro w s s1 res h
    unfold WCache.WriteLoop at h
    rw [Except.bind_eq_ok_iff] at h
    obtain ⟨sl, hlock, h⟩ := h
    rw [Except.bind_eq_ok_iff] at h
    obtain ⟨r, hop, h⟩ := h
    rw [Except.bind_eq_ok_iff] at h
    obtain ⟨s2, hunlock, h⟩ := h
    obtain ⟨⟨sync, size, e⟩, sw⟩ := r
    simp only at h hunlock
    cases he : e with
    | some e1 =>
      subst he
      simp only [ne_eq, reduceCtorEq, not_false_eq_true, if_true, pure, Except.pure,
        Except.ok.injEq, Prod.mk.injEq, Option.some.injEq] at h
      obtain ⟨⟨hres, herr⟩, hs⟩ := h
      subst herr hs
      refine ⟨0, op, s, sl, sync, size, sw, by simp, ?_, hlock, hop, ?_, ?_⟩
      · simp [WCache.WriteLoop]
      · exact hunlock
      · simp [hres]
    | none =>
      subst he
      simp only [ne_eq, not_true_eq_false, if_false] at h
      have hsize : size = op.RwSize := WCache.WriteOp_size hop
      obtain ⟨k, opk, sk, slk, synck, sizek, swk, hk, hloop, hlk, hopk, hunk, hresk⟩ :=
        ih _ _ _ _ h
      refine ⟨k + 1, opk, sk, slk, synck, sizek, swk, by simpa using hk, ?_, hlk, hopk, hunk, ?_⟩
      · simp only [List.take_succ_cons, List.map_cons, List.sum_cons]
        unfold WCache.WriteLoop
        rw [hlock]
        simp only [bind, Except.bind]
        rw [hop]
        simp only
        rw [hunlock]
        simp only [ne_eq, not_true_eq_false, if_false]
        rw [hloop, hsize, Nat.add_assoc]
      · rw [hresk, hsize]
        simp only [List.take_succ_cons, List.map_cons, List.sum_cons, Nat.add_assoc]

/-- The loop of `Write` over a list of ops whose first part runs without error goes on with
the rest from the state and the size reached. -/
theorem WCache.WriteLoop_append (fe : FileEntry) (B : List RWBlockOp) :
    ∀ (A : List RWBlockOp) (w : Nat) (s : CacheState) (w1 : Nat) (s1 : CacheState),
      WCache.WriteLoop fe A w s = .ok ((w1, none), s1) →
      WCache.WriteLoop fe (A ++ B) w s = WCache.WriteLoop fe B w1 s1 := by
  intro A
  induction A with
  | nil =>
    intro w s w1 s1 h
    simp only [WCache.WriteLoop, Except.ok.injEq, Prod.mk.injEq, and_true] at h
    obtain ⟨rfl, rfl⟩ := h
    rfl
  | cons op rest ih =>
    intro w s w1 s1 h
    unfold WCache.WriteLoop at h
    rw [Except.bind_eq_ok_iff] at h
    obtain ⟨sl, hlock, h⟩ := h
    rw [Except.bind_eq_ok_iff] at h
    obtain ⟨r, hop, h⟩ := h
    rw [Except.bind_eq_ok_iff] at h
    obtain ⟨s2, hunlock, h⟩ := h
    cases he : r.1.2.2 with
    | some e1 =>
      rw [he] at h
      simp [pure, Except.pure] at h
    | none =>
      rw [he] at h
      simp only [ne_eq, not_true_eq_false, if_false] at h
      rw [List.cons_append, WCache.WriteLoop]
      simp only [hlock, hop, hunlock, bind, Except.bind, he, ne_eq, not_true_eq_false,
        if_false]
      exact ih _ _ _ _ h

/-- The converse of `WriteLoop_error`: the loop stops at the first op whose `WriteOp` returns
an error and returns the size reached before it. -/
theorem WCache.WriteLoop_stops (fe : FileEntry) (Ops : List RWBlockOp) (w : Nat)
    (s s1 : CacheState) (err : GoError) (k : Nat) (op : RWBlockOp) (sk sl sw : CacheState)
    (sync : Bool) (size : Nat) (hk : Ops[k]? = some op)
    (hloop : WCache.WriteLoop fe (Ops.take k) w s =
      .ok ((w + ((Ops.take k).map RWBlockOp.RwSize).sum, none), sk))
    (hlock : sk.onW (fun cache => cache.LockBuffer fe.Id op.Index) = .ok sl)
    (hop : WCache.WriteOp fe fe.Id op sl = .ok ((sync, size, some err), sw))
    (hun : (if sync then sw.onW (fun cache => cache.UnLockBuffer fe.Id op.Index)
      else .ok sw) = .ok s1) :
    WCache.WriteLoop fe Ops w s =
      .ok ((w + ((Ops.take k).map RWBlockOp.RwSize).sum, some err), s1) := by
  have hsplit : Ops = Ops.take k ++ op :: Ops.drop (k + 1) := by
    have hlt : k < Ops.length := by
      by_contra hc
      rw [List.getElem?_eq_none (by omega)] at hk
      cases hk
    have hget : Ops[k] = op := by
      rw [List.getElem?_eq_getElem hlt] at hk
      simpa using hk
    rw [← hget, List.getElem_cons_drop, List.take_append_drop]
  rw [hsplit, WCache.WriteLoop_append fe _ _ _ _ _ _ hloop, ← hsplit, WCache.WriteLoop]
  simp only [hlock, hop, hun, bind, Except.bind, ne_eq, reduceCtorEq, not_false_eq_true,
    if_true, pure, Except.pure]

/-- C6: `WCache.Write` returns the error `err` with the size `wtSize` exactly when the ops
`op_0 .. op_n` of the slicing have an index `k` such that the loop over `op_0 .. op_{k-1}` ran
without error, `WriteOp` on `op_k` returned `err`, and `wtSize` is the sum of `RwSize` of
`op_0 .. op_{k-1}`; the returned state is the one right after `op_k` (no later op is run). -/
theorem C6_Write_partial_failure_size (fe : FileEntry) (buffer : List Byte) (offset : Nat)
    (s s1 : CacheState) (wtSize : Nat) (err : GoError) :
    WCache.Write fe buffer offset s = .ok ((wtSize, some err), s1) ↔
    ∃ Ops k op sk sl sync size sw,
      WCache.Slice fe buffer offset = .ok Ops ∧ Ops[k]? = some op ∧
      WCache.WriteLoop fe (Ops.take k) 0 (s.setW (s.wCache.GetFileBuffer fe true).2) =
        .ok ((((Ops.take k).map RWBlockOp.RwSize).sum, none), sk) ∧
      sk.onW (fun cache => cache.LockBuffer fe.Id op.Index) = .ok sl ∧
      WCache.WriteOp fe fe.Id op sl = .ok ((sync, size, some err), sw) ∧
      (if sync then sw.onW (fun cache => cache.UnLockBuffer fe.Id op.Index) else .ok sw) =
        .ok s1 ∧
      wtSize = ((Ops.take k).map RWBlockOp.RwSize).sum := by
  constructor
  · intro h
    unfold WCache.Write at h
    rw [Except.bind_eq_ok_iff] at h
    obtain ⟨u, -, h⟩ := h
    rw [Except.bind_eq_ok_iff] at h
    obtain ⟨Ops, hslice, h⟩ := h
    rw [Except.bind_eq_ok_iff] at h
    obtain ⟨r, hloop, h⟩ := h
    obtain ⟨⟨res, e⟩, s2⟩ := r
    simp only at h
    cases he : e with
    | none =>
      subst he
      simp only [ne_eq, not_true_eq_false, if_false] at h
      rw [Except.bind_eq_ok_iff] at h
      obtain ⟨u2, -, h⟩ := h
      simp [pure, Except.pure] at h
    | some e1 =>
      subst he
      simp only [ne_eq, reduceCtorEq, not_false_eq_true, if_true, pure, Except.pure,
        Except.ok.injEq, Prod.mk.injEq, Option.some.injEq] at h
      obtain ⟨⟨hres, herr⟩, hs⟩ := h
      subst hres herr hs
      obtain ⟨k, op, sk, sl, sync, size, sw, hk, hl, hlock, hop, hun, hr⟩ :=
        WCache.WriteLoop_error fe e1 Ops 0 _ _ _ hloop
      simp only [Nat.zero_add] at hl hr
      exact ⟨Ops, k, op, sk, sl, sync, size, sw, hslice, hk, hl, hlock, hop, hun, hr⟩
  · rintro ⟨Ops, k, op, sk, sl, sync, size, sw, hslice, hk, hl, hlock, hop, hun, rfl⟩
    have hsome : (s.wCache.GetFileBuffer fe true).1.isSome = true := by
      unfold BlockCache.GetFileBuffer
      cases s.wCache.Cache.get fe.Id <;> rfl
    have hloop := WCache.WriteLoop_stops fe Ops 0 _ s1 err k op sk sl sw sync size hk
      (by rw [Nat.zero_add]; exact hl) hlock hop hun
    rw [Nat.zero_add] at hloop
    simp only [WCache.Write, Assert, hsome, if_true, hslice, hloop, bind, Except.bind, ne_eq,
      reduceCtorEq, not_false_eq_true, pure, Except.pure]

theorem sampleEioAfter_reached :
    WCache.Write sampleEntry [1, 2, 3, 4, 5, 6, 7, 8] 0 sampleEio =
      .ok ((4, some (GoError.errno E_POSIX_EIO)), sampleEioAfter) := rfl

/-- Witness of C6: eight bytes over two blocks, the proxy fails the second write; the size
returned is the 4 bytes of the first op. -/
theorem C6_Write_partial_failure_size_witness :
    ∃ Ops k, WCache.Slice sampleEntry [1, 2, 3, 4, 5, 6, 7, 8] 0 = .ok Ops ∧
      4 = ((Ops.take k).map RWBlockOp.RwSize).sum := by
  obtain ⟨Ops, k, op, sk, sl, sync, size, sw, h1, -, -, -, -, -, h2⟩ :=
    (C6_Write_partial_failure_size sampleEntry [1, 2, 3, 4, 5, 6, 7, 8] 0 sampleEio
      sampleEioAfter 4 (GoError.errno E_POSIX_EIO)).mp sampleEioAfter_reached
  exact ⟨Ops, k, h1, h2⟩

/-! ## The facade `Flush` and the empty write: runs of the code -/

theorem sampleAfterRead_reached :
    RWCache.Read sampleEntry [0] 0 sampleState = .ok ((0, none, [0]), sampleAfterRead) := rfl

/-- C4, run of the code: descriptor 0 of `sampleMount` is an open cached handle with a dirty
buffer and the proxy answers the write of that buffer with code 1003. The cache flush
returns `E_POSIX_ENOENT`, the proxy then answers `Fsync` with success, and the facade
`Flush(0)` returns nil. -/
theorem C4_facade_Flush_returns_Fsync_outcome :
    (sampleMount.fileCache.GetFileEntry 0).map Prod.fst =
      .ok (some (FileCache.storedEntry 0 sampleEntry)) ∧
    sampleMount.UseRWCache (FileCache.storedEntry 0 sampleEntry) = true ∧
    (RWCache.Flush (FileCache.storedEntry 0 sampleEntry) sampleMount.cacheState).map Prod.fst =
      .ok (some (GoError.errno E_POSIX_ENOENT)) ∧
    (sampleMount.Flush 0).map Prod.fst = .ok none :=
  ⟨rfl, rfl, rfl, rfl⟩

/-- C7, runs of the code. After a `Read` of file 7 created its read-side file buffer, an empty
`RWCache.Write` at the block-aligned offset 0 ends in the failing assertion of `RCache.Clean`.
An empty `RWCache.Write` at offset 1 returns `(0, nil)` but takes the first buffer of the
free list and attaches it to block 0 with `Offset` 1 and `Len` 0. -/
theorem C7_empty_write_asserts_or_allocates :
    RWCache.Write sampleEntry [] 0 sampleAfterRead = .error Fault.assert ∧
    RWCache.Write sampleEntry [] 1 sampleState = .ok ((0, none), sampleAfterEmptyWrite) ∧
    sampleState.wCache.FreeList = [NewBuffer 0, NewBuffer 1] ∧
    sampleAfterEmptyWrite.wCache.FreeList = [NewBuffer 1] ∧
    (sampleAfterEmptyWrite.wCache.Cache.get 7).bind (fun fb => fb.BufferMap.get 0) =
      some sampleEmptyBuffer :=
  ⟨rfl, rfl, rfl, rfl, rfl⟩

/-! ## The round trip: bytes in lists -/

theorem goCopy_length (dst src : List Byte) : (goCopy dst src).length = dst.length := by
  simp [goCopy]
  omega

theorem goCopyAt_length (dst : List Byte) (pos : Nat) (src : List Byte) :
    (goCopyAt dst pos src).length = dst.length := by
  simp [goCopyAt, goCopy_length]
  omega

theorem goCopy_getElem?_lt (dst src : List Byte) (j : Nat) (h1 : j < src.length)
    (h2 : j < dst.length) : (goCopy dst src)[j]? = src[j]? := by
  simp only [goCopy]
  rw [List.getElem?_append_left (by simp; omega)]
  simp [List.getElem?_take, h2]

theorem goCopyAt_getElem?_lt (dst : List Byte) (pos : Nat) (src : List Byte) (j : Nat)
    (h : j < pos) : (goCopyAt dst pos src)[j]? = dst[j]? := by
  simp only [goCopyAt]
  by_cases hj : j < dst.length
  · rw [List.getElem?_append_left (by simp; omega)]
    simp [List.getElem?_take, h]
  · rw [List.getElem?_eq_none (by simp [goCopy_length]; omega), List.getElem?_eq_none (by omega)]

theorem goCopyAt_getElem?_mid (dst : List Byte) (pos : Nat) (src : List Byte) (j : Nat)
    (h1 : j < src.length) (h2 : pos + j < dst.length) :
    (goCopyAt dst pos src)[pos + j]? = src[j]? := by
  simp only [goCopyAt]
  rw [List.getElem?_append_right (by simp)]
  have : pos + j - (List.take pos dst).length = j := by simp; omega
  rw [this]
  exact goCopy_getElem?_lt _ _ _ h1 (by simp; omega)

theorem holdsAt_goCopyAt (dst : List Byte) (pos : Nat) (src : List Byte)
    (h : pos + src.length ≤ dst.length) : holdsAt (goCopyAt dst pos src) pos src := by
  intro j hj
  exact goCopyAt_getElem?_mid _ _ _ _ hj (by omega)

theorem holdsAt_iff (l : List Byte) (pos : Nat) (d : List Byte) :
    holdsAt l pos d ↔ (l.drop pos).take d.length = d := by
  constructor
  · intro h
    apply List.ext_getElem?
    intro j
    by_cases hj : j < d.length
    · simp [List.getElem?_take, hj, List.getElem?_drop, h j hj]
    · rw [List.getElem?_eq_none (by simp; omega), List.getElem?_eq_none (by omega)]
  · intro h j hj
    have := congrArg (fun t => t[j]?) h
    simp only [List.getElem?_take, hj, if_true, List.getElem?_drop] at this
    exact this

theorem storeWrite_getElem?_lt (l : List Byte) (o : Nat) (x : List Byte) (i : Nat)
    (h1 : i < o) (h2 : i < l.length) : (storeWrite l o x)[i]? = l[i]? := by
  simp only [storeWrite, List.append_assoc]
  rw [List.getElem?_append_left (by simp; omega)]
  simp [List.getElem?_take, h1]

theorem storeWrite_getElem?_ge (l : List Byte) (o : Nat) (x : List Byte) (i : Nat)
    (h : o + x.length ≤ i) : (storeWrite l o x)[i]? = l[i]? := by
  simp only [storeWrite]
  rw [List.getElem?_append_right (by simp; omega)]
  simp only [List.length_append, List.length_take, List.length_replicate, List.getElem?_drop]
  congr 1
  omega

theorem storeWrite_getElem?_mid (l : List Byte) (o : Nat) (x : List Byte) (j : Nat)
    (h : j < x.length) : (storeWrite l o x)[o + j]? = x[j]? := by
  simp only [storeWrite]
  rw [List.getElem?_append_left (by simp; omega)]
  rw [List.getElem?_append_right (by simp; omega)]
  congr 1
  simp
  omega

theorem holdsAt_storeWrite_frame (l : List Byte) (o : Nat) (x : List Byte) (pos : Nat)
    (d : List Byte) (hd : pos + d.length ≤ o ∨ o + x.length ≤ pos) (h : holdsAt l pos d) :
    holdsAt (storeWrite l o x) pos d := by
  intro j hj
  rw [← h j hj]
  have hlt : pos + j < l.length := by
    by_contra hc
    have := h j hj
    rw [List.getElem?_eq_none (by omega), List.getElem?_eq_getElem hj] at this
    cases this
  rcases hd with hd | hd
  · exact storeWrite_getElem?_lt _ _ _ _ (by omega) hlt
  · exact storeWrite_getElem?_ge _ _ _ _ (by omega)

theorem holdsAt_storeWrite_sub (l : List Byte) (o : Nat) (d : List Byte) (p : Nat)
    (x : List Byte) (h : holdsAt d p x) : holdsAt (storeWrite l o d) (o + p) x := by
  intro j hj
  rw [← h j hj]
  have hlt : p + j < d.length := by
    by_contra hc
    have := h j hj
    rw [List.getElem?_eq_none (by omega), List.getElem?_eq_getElem hj] at this
    cases this
  rw [Nat.add_assoc]
  exact storeWrite_getElem?_mid _ _ _ _ hlt

theorem holdsAt_self (d : List Byte) : holdsAt d 0 d := by
  intro j _
  simp

/-- The bytes of a window of `l` stand in `l`. -/
theorem holdsAt_window (l : List Byte) (a n p : Nat) (x : List Byte)
    (h : holdsAt l (a + p) x) (hn : p + x.length ≤ n) :
    holdsAt ((l.drop a).take n) p x := by
  intro j hj
  rw [← h j hj, List.getElem?_take]
  simp only [show p + j < n by omega, if_true, List.getElem?_drop, Nat.add_assoc]

/-- The loop of `Slice` as long as the `uint32` counters do not wrap. -/
theorem sliceLoop_cut (fe : FileEntry) (buffer : List Byte) (offset : Nat)
    (hbs : 0 < fe.BlockSize) (hlen : buffer.length < U32) :
    ∀ (n idx rwOffset left pos : Nat),
      pos + left = buffer.length →
      idx * fe.BlockSize + rwOffset % fe.BlockSize = offset + pos →
      (n = 0 → left = 0) →
      (0 < n → 0 < left ∧ (n - 1) * fe.BlockSize < rwOffset % fe.BlockSize + left ∧
        rwOffset % fe.BlockSize + left ≤ n * fe.BlockSize) →
      (rwOffset + left < U32 ∨ (rwOffset ≤ fe.BlockSize ∧ left < fe.BlockSize ∧
        fe.BlockSize < U32)) →
      OpsCut fe buffer offset idx pos (sliceLoop fe buffer n idx rwOffset left pos) := by
  intro n
  induction n with
  | zero =>
    intro idx rwOffset left pos hpos _ h0 _ _
    simp only [sliceLoop, OpsCut]
    have := h0 rfl
    omega
  | succ n ih =>
    intro idx rwOffset left pos hpos hfile _ hcount hwrap
    obtain ⟨hleft, hlo0, hhi0⟩ := hcount (Nat.succ_pos n)
    have hlo : n * fe.BlockSize < rwOffset % fe.BlockSize + left := by simpa using hlo0
    have hhi : rwOffset % fe.BlockSize + left ≤ n * fe.BlockSize + fe.BlockSize := by
      rw [Nat.add_mul, Nat.one_mul] at hhi0; exact hhi0
    clear hlo0 hhi0 hcount
    have hr : rwOffset % fe.BlockSize < fe.BlockSize := Nat.mod_lt _ hbs
    simp only [sliceLoop, OpsCut]
    by_cases hbig : fe.BlockSize - rwOffset % fe.BlockSize > left
    · -- the last op
      simp only [hbig, if_true]
      have hn : n = 0 := by
        by_contra hn
        have : 1 ≤ n := Nat.one_le_iff_ne_zero.mpr hn
        have : fe.BlockSize ≤ n * fe.BlockSize := Nat.le_mul_of_pos_left _ (by omega)
        omega
      subst hn
      refine ⟨trivial, trivial, trivial, hfile, hleft, by omega, by omega, trivial, ?_⟩
      simp only [sliceLoop, OpsCut]
      omega
    · simp only [hbig, if_false]
      have hsz : 0 < fe.BlockSize - rwOffset % fe.BlockSize := by omega
      refine ⟨trivial, trivial, trivial, hfile, hsz, by omega, by omega, trivial, ?_⟩
      by_cases hn : n = 0
      · subst hn
        simp only [sliceLoop, OpsCut]
        simp only [Nat.zero_mul, Nat.zero_add] at hhi
        omega
      · have hn1 : 1 ≤ n := Nat.one_le_iff_ne_zero.mpr hn
        have hmul : fe.BlockSize ≤ n * fe.BlockSize := Nat.le_mul_of_pos_left _ (by omega)
        have hsucc : (n + 1) * fe.BlockSize = n * fe.BlockSize + fe.BlockSize := by
          rw [Nat.add_mul, Nat.one_mul]
        have hpred : (n - 1) * fe.BlockSize + fe.BlockSize = n * fe.BlockSize := by
          rw [← Nat.succ_mul]; congr 1; omega
        -- more ops follow, so this one reaches the end of its block and nothing wraps
        have hsmall : rwOffset ≤ fe.BlockSize → left < fe.BlockSize →
            rwOffset % fe.BlockSize = rwOffset := by
          intro h1 h2
          rcases Nat.lt_or_ge rwOffset fe.BlockSize with h | h
          · exact Nat.mod_eq_of_lt h
          · have h0 : rwOffset = fe.BlockSize := Nat.le_antisymm h1 h
            have : rwOffset % fe.BlockSize = 0 := by rw [h0, Nat.mod_self]
            omega
        have hnowrap : rwOffset + (fe.BlockSize - rwOffset % fe.BlockSize) < U32 := by
          rcases hwrap with h | ⟨h1, h2, h3⟩
          · omega
          · have := hsmall h1 h2
            omega
        have hnext : (rwOffset + (fe.BlockSize - rwOffset % fe.BlockSize)) % U32 %
            fe.BlockSize = 0 := by
          rw [Nat.mod_eq_of_lt hnowrap]
          have hdm := Nat.div_add_mod rwOffset fe.BlockSize
          have : rwOffset + (fe.BlockSize - rwOffset % fe.BlockSize) =
              fe.BlockSize * (rwOffset / fe.BlockSize + 1) := by
            rw [Nat.mul_add, Nat.mul_one]; omega
          rw [this, Nat.mul_mod_right]
        have hposw : (pos + (fe.BlockSize - rwOffset % fe.BlockSize)) % U32 =
            pos + (fe.BlockSize - rwOffset % fe.BlockSize) :=
          Nat.mod_eq_of_lt (by omega)
        rw [hposw]
        apply ih
        · omega
        · rw [hnext, Nat.add_mul, Nat.one_mul]; omega
        · intro h; exact absurd h hn
        · intro _
          rw [hnext]
          refine ⟨by omega, by omega, by omega⟩
        · rw [Nat.mod_eq_of_lt hnowrap]
          rcases hwrap with h | ⟨h1, h2, h3⟩
          · left; omega
          · have := hsmall h1 h2
            right
            refine ⟨by omega, by omega, h3⟩

/-- A slicing whose end offset passes `2^64` yields no op. -/
theorem WCache.Slice_wrap (fe : FileEntry) (buffer : List Byte) (offset : Nat)
    (hbs0 : 0 < fe.BlockSize) (hbs : fe.BlockSize < U32) (hoff : offset < U64)
    (hlen : buffer.length ≤ 2 ^ 29) (hw : U64 ≤ offset + buffer.length + fe.BlockSize - 1) :
    WCache.Slice fe buffer offset = .ok [] := by
  have hsz : buffer.length % U32 = buffer.length := Nat.mod_eq_of_lt (by simp only [U32]; omega)
  have h1 : (offset + buffer.length + fe.BlockSize - 1) % U64 =
      offset + buffer.length + fe.BlockSize - 1 - U64 := by
    rw [Nat.mod_eq_sub_mod hw]
    exact Nat.mod_eq_of_lt (by simp only [U32, U64] at *; omega)
  have h2 : (offset + buffer.length + fe.BlockSize - 1 - U64) / fe.BlockSize ≤
      offset / fe.BlockSize :=
    Nat.div_le_div_right (by simp only [U32, U64] at *; omega)
  simp only [WCache.Slice, Nat.pos_iff_ne_zero.mp hbs0, if_false, hsz, h1,
    Nat.sub_eq_zero_of_le h2, sliceLoop]

/-- The ops of `Slice` for a non-empty buffer of at most 512 MiB whose end offset stays below
`2^64`. -/
theorem WCache.Slice_cut (fe : FileEntry) (buffer : List Byte) (offset : Nat)
    (hbs0 : 0 < fe.BlockSize) (hbs : fe.BlockSize < U32) (hb : buffer ≠ [])
    (hlen : buffer.length ≤ 2 ^ 29) (hw : offset + buffer.length + fe.BlockSize - 1 < U64) :
    ∃ Ops, WCache.Slice fe buffer offset = .ok Ops ∧
      OpsCut fe buffer offset (offset / fe.BlockSize) 0 Ops := by
  have hpos : 0 < buffer.length := List.length_pos.mpr hb
  have hsz : buffer.length % U32 = buffer.length := Nat.mod_eq_of_lt (by simp only [U32]; omega)
  have hr : offset % fe.BlockSize < fe.BlockSize := Nat.mod_lt _ hbs0
  have hr32 : offset % fe.BlockSize % U32 = offset % fe.BlockSize :=
    Nat.mod_eq_of_lt (by omega)
  have hrr : offset % fe.BlockSize % fe.BlockSize = offset % fe.BlockSize := Nat.mod_mod _ _
  refine ⟨_, by simp only [WCache.Slice, Nat.pos_iff_ne_zero.mp hbs0, if_false]; rfl, ?_⟩
  rw [hsz, hr32, Nat.mod_eq_of_lt hw]
  have hS := Nat.div_add_mod' offset fe.BlockSize
  have hE := Nat.div_add_mod' (offset + buffer.length + fe.BlockSize - 1) fe.BlockSize
  have hr2 : (offset + buffer.length + fe.BlockSize - 1) % fe.BlockSize < fe.BlockSize :=
    Nat.mod_lt _ hbs0
  have hSE : offset / fe.BlockSize + 1 ≤
      (offset + buffer.length + fe.BlockSize - 1) / fe.BlockSize := by
    rw [Nat.le_div_iff_mul_le hbs0, Nat.add_mul, Nat.one_mul]
    omega
  have hn : ((offset + buffer.length + fe.BlockSize - 1) / fe.BlockSize -
      offset / fe.BlockSize) * fe.BlockSize =
      (offset + buffer.length + fe.BlockSize - 1) / fe.BlockSize * fe.BlockSize -
        offset / fe.BlockSize * fe.BlockSize := Nat.sub_mul _ _ _
  have hn1 : ((offset + buffer.length + fe.BlockSize - 1) / fe.BlockSize -
      offset / fe.BlockSize - 1) * fe.BlockSize =
      ((offset + buffer.length + fe.BlockSize - 1) / fe.BlockSize -
      offset / fe.BlockSize) * fe.BlockSize - fe.BlockSize := by
    rw [Nat.sub_mul _ 1, Nat.one_mul]
  have hmono : offset / fe.BlockSize * fe.BlockSize + fe.BlockSize ≤
      (offset + buffer.length + fe.BlockSize - 1) / fe.BlockSize * fe.BlockSize := by
    have := Nat.mul_le_mul_right fe.BlockSize hSE
    rw [Nat.add_mul, Nat.one_mul] at this
    exact this
  apply sliceLoop_cut fe buffer offset hbs0 (by simp only [U32]; omega)
  · omega
  · rw [hrr]; omega
  · intro h; omega
  · intro _
    rw [hrr, hn1, hn]
    refine ⟨hpos, by omega, by omega⟩
  · rcases Nat.lt_or_ge buffer.length fe.BlockSize with h | h
    · right; exact ⟨by omega, h, hbs⟩
    · left; simp only [U32] at *; omega

/-- The loop of `RCache.Slice` yields the ops of the loop of `WCache.Slice`, each with its
view into the buffer of the read. -/
theorem sliceLoop_read_eq (fe : FileEntry) (buffer dataBuf : List Byte) (blockIndexEnd : Nat) :
    ∀ (n idx rwOffset left pos : Nat), (0 < n → idx + n ≤ blockIndexEnd) →
      RCache.sliceLoop fe dataBuf blockIndexEnd n idx rwOffset left pos =
        .ok (readOps dataBuf (sliceLoop fe buffer n idx rwOffset left pos)) := by
  intro n
  induction n with
  | zero => intro idx rwOffset left pos _; rfl
  | succ n ih =>
    intro idx rwOffset left pos h
    have h0 := h (Nat.succ_pos n)
    have h1 : idx + 1 ≤ blockIndexEnd := by omega
    simp only [RCache.sliceLoop, Assert, h1, decide_True, if_true, bind, Except.bind,
      ih (idx + 1) _ _ _ (by intro _; omega), pure, Except.pure, sliceLoop, readOps,
      List.map_cons]

theorem Slice_read_eq (fe : FileEntry) (buffer dataBuf : List Byte) (offset : Nat)
    (Ops : List RWBlockOp) (hlen : dataBuf.length = buffer.length)
    (h : WCache.Slice fe buffer offset = .ok Ops) :
    RCache.Slice fe dataBuf offset = .ok (readOps dataBuf Ops) := by
  unfold WCache.Slice at h
  unfold RCache.Slice
  by_cases hbs : fe.BlockSize = 0
  · simp [hbs] at h
  · simp only [hbs, if_false, Except.ok.injEq] at h ⊢
    rw [← h, hlen]
    apply sliceLoop_read_eq
    intro _
    omega

/-! ## The round trip: one block operation of `Write` -/

theorem BlockCache.onFileBuf_inv {c c1 : BlockCache} {fid : Nat}
    {f : FileBuffer → Except Fault FileBuffer} (h : c.onFileBuf fid f = .ok c1) :
    ∃ fb fb1, c.Cache.get fid = some fb ∧ f fb = .ok fb1 ∧
      c1 = c.setFileBuf fid fb1 := by
  unfold BlockCache.onFileBuf at h
  cases hg : c.Cache.get fid with
  | none => simp [hg] at h
  | some fb =>
    cases hf : f fb with
    | error e => simp [hg, hf] at h
    | ok fb1 =>
      simp only [hg, hf, Except.ok.injEq] at h
      exact ⟨fb, fb1, rfl, hf, h.symm⟩

theorem CacheState.onW_inv {s s1 : CacheState} {f : BlockCache → Except Fault BlockCache}
    (h : s.onW f = .ok s1) : ∃ c1, f s.wCache.toBlockCache = .ok c1 ∧ s1 = s.setW c1 := by
  unfold CacheState.onW at h
  cases hf : f s.wCache.toBlockCache with
  | error e => simp [hf] at h
  | ok c1 =>
    simp only [hf, Except.ok.injEq] at h
    exact ⟨c1, rfl, h.symm⟩

theorem CacheState.onR_inv {s s1 : CacheState} {f : BlockCache → Except Fault BlockCache}
    (h : s.onR f = .ok s1) : ∃ c1, f s.rCache.toBlockCache = .ok c1 ∧ s1 = s.setR c1 := by
  unfold CacheState.onR at h
  cases hf : f s.rCache.toBlockCache with
  | error e => simp [hf] at h
  | ok c1 =>
    simp only [hf, Except.ok.injEq] at h
    exact ⟨c1, rfl, h.symm⟩

theorem BlockCache.LockBuffer_inv {c c1 : BlockCache} {fid idx : Nat}
    (h : c.LockBuffer fid idx = .ok c1) :
    ∃ fb, c.Cache.get fid = some fb ∧ fb.LockMap.get idx = none ∧
      c1 = c.setFileBuf fid
        (FileBuffer.mk fb.fe fb.BufferMap (fb.LockMap.set idx (CacheLock.mk WriteLock 0)) fb.pw) := by
  obtain ⟨fb, fb1, hg, hf, hc⟩ := BlockCache.onFileBuf_inv h
  unfold FileBuffer.LockBuffer at hf
  cases hl : fb.LockMap.get idx with
  | some v => simp [hl] at hf
  | none =>
    simp only [hl, Except.ok.injEq] at hf
    subst hf
    exact ⟨fb, hg, hl, hc⟩

theorem BlockCache.UnLockBuffer_inv {c c1 : BlockCache} {fid idx : Nat}
    (h : c.UnLockBuffer fid idx = .ok c1) :
    ∃ fb, c.Cache.get fid = some fb ∧
      c1 = c.setFileBuf fid
        (FileBuffer.mk fb.fe fb.BufferMap (fb.LockMap.del idx) fb.pw) := by
  obtain ⟨fb, fb1, hg, hf, hc⟩ := BlockCache.onFileBuf_inv h
  unfold FileBuffer.UnLockBuffer at hf
  cases hl : fb.LockMap.get idx with
  | none => simp [hl] at hf
  | some v =>
    simp only [hl] at hf
    rw [Except.bind_eq_ok_iff] at hf
    obtain ⟨u, -, hf⟩ := hf
    simp only [pure, Except.pure, Except.ok.injEq] at hf
    subst hf
    exact ⟨fb, hg, hc⟩

theorem BlockCache.putBuffer_inv {c c1 : BlockCache} {fid idx : Nat} {buf : Buffer}
    (h : c.putBuffer fid idx buf = .ok c1) :
    ∃ fb, c.Cache.get fid = some fb ∧
      c1 = c.setFileBuf fid
        (FileBuffer.mk fb.fe (fb.BufferMap.set idx buf) fb.LockMap fb.pw) := by
  obtain ⟨fb, fb1, hg, hf, hc⟩ := BlockCache.onFileBuf_inv h
  simp only [Except.ok.injEq] at hf
  subst hf
  exact ⟨fb, hg, hc⟩

theorem BlockCache.AttachBuffer_inv {c c1 : BlockCache} {fid idx : Nat} {buf : Buffer}
    (h : c.AttachBuffer fid idx buf = .ok c1) :
    ∃ fb, c.Cache.get fid = some fb ∧
      c1 = c.setFileBuf fid
        (FileBuffer.mk fb.fe (fb.BufferMap.set idx buf) fb.LockMap fb.pw) := by
  obtain ⟨fb, fb1, hg, hf, hc⟩ := BlockCache.onFileBuf_inv h
  unfold FileBuffer.AttachBuffer at hf
  rw [Except.bind_eq_ok_iff] at hf
  obtain ⟨u, -, hf⟩ := hf
  simp only [pure, Except.pure, Except.ok.injEq] at hf
  subst hf
  exact ⟨fb, hg, hc⟩

theorem BlockCache.DetachBuffer_inv {c c1 : BlockCache} {fid idx : Nat}
    (h : c.DetachBuffer fid idx = .ok c1) :
    ∃ fb, c.Cache.get fid = some fb ∧
      c1 = c.setFileBuf fid
        (FileBuffer.mk fb.fe (fb.BufferMap.del idx) fb.LockMap fb.pw) := by
  obtain ⟨fb, fb1, hg, hf, hc⟩ := BlockCache.onFileBuf_inv h
  simp only [FileBuffer.DetachBuffer, Except.ok.injEq] at hf
  subst hf
  exact ⟨fb, hg, hc⟩

theorem BlockCache.GetBuffer_inv {c : BlockCache} {fid idx : Nat} {found : Option Buffer}
    (h : c.GetBuffer fid idx = .ok found) :
    ∃ fb, c.Cache.get fid = some fb ∧ found = fb.BufferMap.get idx := by
  unfold BlockCache.GetBuffer BlockCache.fileBuf at h
  cases hg : c.Cache.get fid with
  | none => simp [hg] at h
  | some fb =>
    simp only [hg, Except.ok.injEq, FileBuffer.GetBuffer] at h
    exact ⟨fb, rfl, h.symm⟩

@[simp] theorem WCache.DirectWrite_rCache (fe : FileEntry) (b : List Byte) (o : Nat)
    (s : CacheState) : (WCache.DirectWrite fe b o s).2.rCache = s.rCache := rfl

@[simp] theorem WCache.DirectWrite_wCache (fe : FileEntry) (b : List Byte) (o : Nat)
    (s : CacheState) : (WCache.DirectWrite fe b o s).2.wCache = s.wCache := rfl

@[simp] theorem WCache.DirectWrite_now (fe : FileEntry) (b : List Byte) (o : Nat)
    (s : CacheState) : (WCache.DirectWrite fe b o s).2.now = s.now := rfl

@[simp] theorem WCache.DirectWrite_remote (fe : FileEntry) (b : List Byte) (o : Nat)
    (s : CacheState) :
    (WCache.DirectWrite fe b o s).2.proxyClient.remote = s.proxyClient.remote := by
  simp [WCache.DirectWrite, Writer.Write_snd]

@[simp] theorem WCache.DirectWrite_calls (fe : FileEntry) (b : List Byte) (o : Nat)
    (s : CacheState) :
    (WCache.DirectWrite fe b o s).2.proxyClient.calls =
      ProxyCall.Write fe.Id b o :: s.proxyClient.calls := by
  simp [WCache.DirectWrite, Writer.Write_snd]

/-- Writes of file `fid` inside one block leave the bytes of the other blocks. -/
theorem storeContent_frame (init : Nat → List Byte) (fid lo hi : Nat) (calls : List ProxyCall) :
    ∀ (ws : List ProxyCall),
      (∀ w ∈ ws, ∃ data o, w = ProxyCall.Write fid data o ∧ lo ≤ o ∧ o + data.length ≤ hi) →
      ∀ pos d, (pos + d.length ≤ lo ∨ hi ≤ pos) → holdsAt (storeContent init fid calls) pos d →
        holdsAt (storeContent init fid (ws ++ calls)) pos d := by
  intro ws
  induction ws with
  | nil => intro _ pos d _ h; exact h
  | cons w rest ih =>
    intro hws pos d hd h
    obtain ⟨data, o, rfl, hlo, hhi⟩ := hws _ (List.mem_cons_self _ _)
    have hrest := ih (fun w hw => hws w (List.mem_cons_of_mem _ hw)) pos d hd h
    simp only [List.cons_append, storeContent, if_true]
    exact holdsAt_storeWrite_frame _ _ _ _ _ (by omega) hrest

theorem BlockStep.content {init : Nat → List Byte} {fid bs idx : Nat} {s s1 : CacheState}
    (h : BlockStep fid bs idx s s1) (pos : Nat) (d : List Byte)
    (hd : pos + d.length ≤ idx * bs ∨ (idx + 1) * bs ≤ pos)
    (hh : holdsAt (s.content init fid) pos d) : holdsAt (s1.content init fid) pos d := by
  obtain ⟨ws, hws, hall⟩ := h.calls
  simp only [CacheState.content, hws] at hh ⊢
  exact storeContent_frame init fid _ _ _ ws hall pos d hd hh

/-- A step on one block keeps what is held for another block. -/
theorem BlockStep.holds {init : Nat → List Byte} {fid bs idx : Nat} {s s1 : CacheState}
    (h : BlockStep fid bs idx s s1) {i rwOffset : Nat} {d : List Byte} (hi : i ≠ idx)
    (hfit : rwOffset + d.length ≤ bs) (hh : s.Holds init fid bs i rwOffset d) :
    s1.Holds init fid bs i rwOffset d := by
  obtain ⟨fb, fb1, hfb, hfb1, -, hframe⟩ := h.fileBuf
  obtain ⟨fb0, hfb0, hcase⟩ := hh
  rw [hfb] at hfb0
  simp only [Option.some.injEq] at hfb0
  subst hfb0
  refine ⟨fb1, hfb1, ?_⟩
  rw [hframe i hi]
  rcases hcase with hbuf | ⟨hnone, hst⟩
  · exact Or.inl hbuf
  · refine Or.inr ⟨hnone, h.content _ _ ?_ hst⟩
    rcases Nat.lt_or_gt_of_ne hi with hlt | hgt
    · left
      have : (i + 1) * bs ≤ idx * bs := Nat.mul_le_mul_right bs hlt
      rw [Nat.add_mul, Nat.one_mul] at this
      omega
    · right
      have : (idx + 1) * bs ≤ i * bs := Nat.mul_le_mul_right bs hgt
      omega

@[simp] theorem BlockCache.setFileBuf_Cache (c : BlockCache) (fid : Nat) (fb : FileBuffer) :
    (c.setFileBuf fid fb).Cache = c.Cache.set fid fb := rfl

@[simp] theorem BlockCache.setFileBuf_FreeList (c : BlockCache) (fid : Nat) (fb : FileBuffer) :
    (c.setFileBuf fid fb).FreeList = c.FreeList := rfl

@[simp] theorem BlockCache.FreeBuffer_Cache (c : BlockCache) (b : Buffer) :
    (c.FreeBuffer b).Cache = c.Cache := rfl

theorem BlockCache.AllocBuffer_inv {c : BlockCache} {fe : FileEntry} {idx : Nat}
    {a : Option Buffer × BlockCache} (h : c.AllocBuffer fe idx = .ok a) :
    (a.1 = none ∧ a.2 = c) ∨
      ∃ (buf buf1 : Buffer), buf.ReSet fe idx = .ok buf1 ∧ a.1 = some buf1 ∧
        a.2.Cache = c.Cache := by
  unfold BlockCache.AllocBuffer at h
  cases hf : c.FreeList with
  | nil =>
    simp only [hf, Except.ok.injEq] at h
    subst h
    exact Or.inl ⟨rfl, rfl⟩
  | cons buf rest =>
    simp only [hf] at h
    cases hr : buf.ReSet fe idx with
    | error e => simp [hr] at h
    | ok buf1 =>
      simp only [hr, Except.ok.injEq] at h
      subst h
      exact Or.inr ⟨buf, buf1, hr, rfl, rfl⟩

theorem Buffer.ReSet_inv {buf buf1 : Buffer} {fe : FileEntry} {idx : Nat}
    (h : buf.ReSet fe idx = .ok buf1) :
    buf1.fe = some fe ∧ buf1.BlkIdx = idx ∧ buf1.Offset = 0 ∧ buf1.Len = 0 ∧
      fe.BlockSize ≤ buf1.dataBuf.length := by
  unfold Buffer.ReSet at h
  rw [Except.bind_eq_ok_iff] at h
  obtain ⟨u, -, h⟩ := h
  simp only [pure, Except.pure, Except.ok.injEq] at h
  subst h
  refine ⟨rfl, rfl, rfl, rfl, ?_⟩
  dsimp only
  split
  · simp
  · rename_i hh
    have := Nat.mod_le buf.dataBuf.length U32
    omega

theorem Buffer.Skip_inv {buf buf1 : Buffer} {o : Nat} (h : buf.Skip o = .ok buf1) :
    buf1.fe = buf.fe ∧ buf1.BlkIdx = buf.BlkIdx ∧ buf1.Offset = o ∧ buf.Offset = 0 ∧
      buf1.Len = buf.Len ∧ buf1.dataBuf = buf.dataBuf := by
  unfold Buffer.Skip at h
  rw [Except.bind_eq_ok_iff] at h
  obtain ⟨u, hu, h⟩ := h
  rw [Assert_eq_ok_iff] at hu
  simp only [pure, Except.pure, Except.ok.injEq] at h
  subst h
  have h0 : buf.Offset = 0 := by simpa using hu
  exact ⟨rfl, rfl, by simp [h0], h0, rfl, rfl⟩

theorem Buffer.MergeData_inv {buf buf1 : Buffer} {data : List Byte} {now : Nat}
    (h : buf.MergeData data now = .ok buf1) :
    buf1.fe = buf.fe ∧ buf1.BlkIdx = buf.BlkIdx ∧ buf1.Offset = buf.Offset ∧
      buf1.Len = buf.Len + data.length ∧ buf.Offset + buf.Len ≤ buf.dataBuf.length ∧
      buf1.dataBuf = goCopyAt buf.dataBuf (buf.Offset + buf.Len) data := by
  unfold Buffer.MergeData at h
  split at h
  · cases h
  · simp only [Except.ok.injEq] at h
    subst h
    exact ⟨rfl, rfl, rfl, rfl, by omega, rfl⟩

theorem Buffer.IsFull_inv {buf : Buffer} {bs : Nat} {b : Bool} (h : buf.IsFull bs = .ok b) :
    buf.Offset + buf.Len ≤ bs ∧ b = decide (buf.Offset + buf.Len = bs) := by
  unfold Buffer.IsFull at h
  rw [Except.bind_eq_ok_iff] at h
  obtain ⟨u, hu, h⟩ := h
  rw [Assert_eq_ok_iff] at hu
  simp only [pure, Except.pure, Except.ok.injEq] at h
  exact ⟨by simpa using hu, h.symm⟩

theorem Buffer.GetData_inv {buf : Buffer} {data : List Byte} (h : buf.GetData = .ok data) :
    buf.Offset + buf.Len ≤ buf.dataBuf.length ∧
      data = (buf.dataBuf.drop buf.Offset).take buf.Len := by
  unfold Buffer.GetData at h
  split at h
  · cases h
  · simp only [Except.ok.injEq] at h
    exact ⟨by omega, h.symm⟩

theorem Buffer.GetFileOffset_inv {buf : Buffer} {o : Nat} (h : buf.GetFileOffset = .ok o) :
    ∃ fe, buf.fe = some fe ∧ o = buf.BlkIdx * fe.BlockSize + buf.Offset := by
  unfold Buffer.GetFileOffset Buffer.GetAlignOffset at h
  cases hfe : buf.fe with
  | none => simp [hfe, bind, Except.bind] at h
  | some fe =>
    simp only [hfe, bind, Except.bind, pure, Except.pure, Except.ok.injEq] at h
    exact ⟨fe, rfl, h.symm⟩

/-- A step is made from the shape of the state after it. -/
theorem BlockStep.of_shape {fid bs idx : Nat} {s s1 : CacheState} {fb fb1 : FileBuffer}
    (hfb : s.wCache.Cache.get fid = some fb)
    (hrem : s1.proxyClient.remote = s.proxyClient.remote) (hr : s1.rCache = s.rCache)
    (hch : s1.wCache.chSync = s.wCache.chSync)
    (hcalls : ∃ ws, s1.proxyClient.calls = ws ++ s.proxyClient.calls ∧
      ∀ w ∈ ws, ∃ data o, w = ProxyCall.Write fid data o ∧ idx * bs ≤ o ∧
        o + data.length ≤ (idx + 1) * bs)
    (hfb1 : s1.wCache.Cache.get fid = some fb1) (hlock : fb1.LockMap = fb.LockMap)
    (hframe : ∀ k, k ≠ idx → fb1.BufferMap.get k = fb.BufferMap.get k)
    (hatt : s.WriteSide fid bs → ∀ buf, fb1.BufferMap.get idx = some buf →
      buf.WellAttached fid bs idx) :
    BlockStep fid bs idx s s1 := by
  refine ⟨hrem, hr, hch, hcalls, ⟨fb, fb1, hfb, hfb1, hlock, hframe⟩, ?_⟩
  intro hwf fb2 k buf hfb2 hbuf
  rw [hfb1] at hfb2
  simp only [Option.some.injEq] at hfb2
  subst hfb2
  by_cases hk : k = idx
  · subst hk
    exact hatt hwf buf hbuf
  · rw [hframe k hk] at hbuf
    exact hwf fb k buf hfb hbuf

theorem CacheState.content_write (init : Nat → List Byte) (fid : Nat) (s : CacheState)
    (data : List Byte) (o : Nat) (rest : List ProxyCall)
    (h : s.proxyClient.calls = ProxyCall.Write fid data o :: rest) :
    s.content init fid = storeWrite (storeContent init fid rest) o data := by
  simp [CacheState.content, h, storeContent]

/-- The branch "cache not exist" of `WriteOp` in sync mode. -/
theorem WCache.WriteOpNew_step (init : Nat → List Byte) {fe : FileEntry} {op : RWBlockOp}
    {s s1 : CacheState} {sync : Bool} {size : Nat} {fb : FileBuffer}
    (h : WCache.WriteOpNew fe fe.Id op s = .ok ((sync, size, none), s1))
    (hmode : s.wCache.chSync = none) (hfe : op.fe = fe)
    (hsz : op.RwSize = op.rwBuf.length) (hfit : op.RwOffset + op.RwSize ≤ fe.BlockSize)
    (hfb : s.wCache.Cache.get fe.Id = some fb) (hnone : fb.BufferMap.get op.Index = none) :
    sync = true ∧ BlockStep fe.Id fe.BlockSize op.Index s s1 ∧
      s1.Holds init fe.Id fe.BlockSize op.Index op.RwOffset op.rwBuf := by
  have hsync : WCache.SyncIo s = true := by simp [WCache.SyncIo, hmode]
  have hoff : op.GetFileOffset = op.Index * fe.BlockSize + op.RwOffset := by
    simp [RWBlockOp.GetFileOffset, RWBlockOp.GetAlignOffset, hfe]
  have hblock : (op.Index + 1) * fe.BlockSize = op.Index * fe.BlockSize + fe.BlockSize := by
    rw [Nat.add_mul, Nat.one_mul]
  -- the outcome of a direct write of the op
  have hdirect : ∀ s0 : CacheState, s0.wCache = s.wCache → s0.rCache = s.rCache →
      s0.proxyClient = s.proxyClient →
      BlockStep fe.Id fe.BlockSize op.Index s (WCache.DirectWrite fe op.rwBuf op.GetFileOffset s0).2 ∧
      (WCache.DirectWrite fe op.rwBuf op.GetFileOffset s0).2.Holds init fe.Id fe.BlockSize
        op.Index op.RwOffset op.rwBuf := by
    intro s0 hw hr hp
    constructor
    · refine BlockStep.of_shape hfb (by simp [hp]) (by simp [hr]) (by simp [hw])
        ⟨[ProxyCall.Write fe.Id op.rwBuf op.GetFileOffset], by simp [hp], ?_⟩
        (by simp [hw]; exact hfb) rfl (fun _ _ => rfl) ?_
      · intro w hw2
        simp only [List.mem_singleton] at hw2
        exact ⟨_, _, hw2, by rw [hoff]; omega, by rw [hoff, hblock]; omega⟩
      · intro _ buf hbuf
        rw [hnone] at hbuf
        cases hbuf
    · refine ⟨fb, by simp [hw]; exact hfb, Or.inr ⟨hnone, ?_⟩⟩
      rw [CacheState.content_write init fe.Id _ op.rwBuf op.GetFileOffset s0.proxyClient.calls
        (by simp), ← hoff]
      exact holdsAt_storeWrite_sub _ _ _ 0 _ (holdsAt_self _)
  unfold WCache.WriteOpNew at h
  rw [Except.bind_eq_ok_iff] at h
  obtain ⟨opFull, hfull, h⟩ := h
  obtain ⟨-, -, hopFull⟩ := RWBlockOp.IsFull_ok hfull
  split at h
  · simp only [pure, Except.pure, Except.ok.injEq, Prod.mk.injEq] at h
    obtain ⟨⟨hs, -, -⟩, rfl⟩ := h
    exact ⟨hs.symm, hdirect s rfl rfl rfl⟩
  · rename_i hnf
    rw [Except.bind_eq_ok_iff] at h
    obtain ⟨a, ha, h⟩ := h
    rcases BlockCache.AllocBuffer_inv ha with ⟨ha1, ha2⟩ | ⟨buf, buf1, hreset, ha1, ha2⟩
    · rw [ha1] at h
      simp only [pure, Except.pure, Except.ok.injEq, Prod.mk.injEq] at h
      obtain ⟨⟨hs, -, -⟩, rfl⟩ := h
      exact ⟨hs.symm, hdirect _ (by rw [ha2]; rfl) rfl rfl⟩
    · rw [ha1] at h
      simp only at h
      rw [Except.bind_eq_ok_iff] at h
      obtain ⟨buffer1, hskip, h⟩ := h
      rw [Except.bind_eq_ok_iff] at h
      obtain ⟨u, -, h⟩ := h
      rw [Except.bind_eq_ok_iff] at h
      obtain ⟨buffer, hmerge, h⟩ := h
      rw [Except.bind_eq_ok_iff] at h
      obtain ⟨cache1, hattach, h⟩ := h
      rw [Except.bind_eq_ok_iff] at h
      obtain ⟨bufFull, hbf, h⟩ := h
      obtain ⟨r1, r2, r3, r4, r5⟩ := Buffer.ReSet_inv hreset
      obtain ⟨k1, k2, k3, -, k5, k6⟩ := Buffer.Skip_inv hskip
      obtain ⟨m1, m2, m3, m4, m5, m6⟩ := Buffer.MergeData_inv hmerge
      obtain ⟨f1, f2⟩ := Buffer.IsFull_inv hbf
      obtain ⟨fba, hfba, hc1⟩ := BlockCache.AttachBuffer_inv hattach
      rw [ha2, hfb] at hfba
      simp only [Option.some.injEq] at hfba
      subst hfba
      split at h
      · rename_i hbfull
        rw [Except.bind_eq_ok_iff] at h
        obtain ⟨opFull2, hfull2, h⟩ := h
        rw [Except.bind_eq_ok_iff] at h
        obtain ⟨u2, hu2, h⟩ := h
        rw [Assert_eq_ok_iff] at hu2
        simp [hsync] at hu2
      · rw [Except.bind_eq_ok_iff] at h
        obtain ⟨cache2, hput, h⟩ := h
        simp only [pure, Except.pure, Except.ok.injEq, Prod.mk.injEq] at h
        obtain ⟨⟨hs, -, -⟩, rfl⟩ := h
        obtain ⟨fbp, hfbp, hc2⟩ := BlockCache.putBuffer_inv hput
        rw [BlockCache.DoLru_Cache, hc1, BlockCache.setFileBuf_Cache,
          GoMap.get_set_self] at hfbp
        simp only [Option.some.injEq] at hfbp
        subst hfbp
        subst hc2
        have hget : (s.setW ((cache1.DoLru buffer s.now).2.setFileBuf fe.Id
            (FileBuffer.mk fb.fe ((fb.BufferMap.set op.Index buffer).set op.Index
              (cache1.DoLru buffer s.now).1) fb.LockMap fb.pw))).wCache.Cache.get fe.Id =
            some (FileBuffer.mk fb.fe ((fb.BufferMap.set op.Index buffer).set op.Index
              (cache1.DoLru buffer s.now).1) fb.LockMap fb.pw) := by
          simp [GoMap.get_set_self]
        have hlen : buffer.dataBuf.length = buf1.dataBuf.length := by
          rw [m6, goCopyAt_length, k6]
        have hhold : holdsAt buffer.dataBuf op.RwOffset op.rwBuf := by
          rw [m6, k3, k5, r4, Nat.add_zero]
          exact holdsAt_goCopyAt _ _ _ (by rw [k6]; omega)
        refine ⟨hs.symm, BlockStep.of_shape hfb rfl rfl rfl ⟨[], by simp, by simp⟩ hget rfl
          ?_ ?_, ⟨_, hget, Or.inl ⟨(cache1.DoLru buffer s.now).1,
            by simp [GoMap.get_set_self], ?_, ?_, ?_, ?_⟩⟩⟩
        · intro k hk
          simp [GoMap.get_set_ne _ _ hk]
        · intro _ b hb
          simp only [GoMap.get_set_self, Option.some.injEq, BlockCache.DoLru_fst] at hb
          subst hb
          exact ⟨⟨fe, by simp [m1, k1, r1], rfl, rfl⟩, by simp [m2, k2, r2],
            by simp only [m3, m4, k3, k5, r4]; omega, by simp only [hlen]; exact r5⟩
        · simp [BlockCache.DoLru_fst, m3, k3]
        · simp only [BlockCache.DoLru_fst, m3, m4, k3, k5, r4]; omega
        · simp only [BlockCache.DoLru_fst, m3, m4, k3, k5, r4, hlen]; omega
        · simpa [BlockCache.DoLru_fst] using hhold

/-- The branch "cache exist" of `WriteOp` in sync mode when the buffer merges the op. -/
theorem WCache.WriteOpMerge_step (init : Nat → List Byte) {fe : FileEntry} {op : RWBlockOp}
    {s s1 : CacheState} {sync : Bool} {size : Nat} {fb : FileBuffer} {b buffer0 : Buffer}
    {cache0 : BlockCache}
    (h : WCache.WriteOpMerge fe fe.Id op buffer0 cache0 s = .ok ((sync, size, none), s1))
    (hmode : s.wCache.chSync = none)
    (hsz : op.RwSize = op.rwBuf.length) (hfit : op.RwOffset + op.RwSize ≤ fe.BlockSize)
    (hfb : s.wCache.Cache.get fe.Id = some fb)
    (hb0 : buffer0 = { b with elm := false }) (hc0 : cache0.Cache = s.wCache.Cache)
    (hwa : b.WellAttached fe.Id fe.BlockSize op.Index)
    (hcan : b.Offset + b.Len = op.RwOffset) :
    sync = true ∧ BlockStep fe.Id fe.BlockSize op.Index s s1 ∧
      s1.Holds init fe.Id fe.BlockSize op.Index op.RwOffset op.rwBuf := by
  have hsync : WCache.SyncIo s = true := by simp [WCache.SyncIo, hmode]
  have hblock : (op.Index + 1) * fe.BlockSize = op.Index * fe.BlockSize + fe.BlockSize := by
    rw [Nat.add_mul, Nat.one_mul]
  obtain ⟨⟨fe1, w1, w2, w3⟩, w4, w5, w6⟩ := hwa
  subst hb0
  unfold WCache.WriteOpMerge at h
  rw [Except.bind_eq_ok_iff] at h
  obtain ⟨buffer, hmerge, h⟩ := h
  rw [Except.bind_eq_ok_iff] at h
  obtain ⟨bufFull, hbf, h⟩ := h
  obtain ⟨m1, m2, m3, m4, m5, m6⟩ := Buffer.MergeData_inv hmerge
  obtain ⟨f1, f2⟩ := Buffer.IsFull_inv hbf
  simp only at m1 m2 m3 m4 m5 m6
  have hlen : buffer.dataBuf.length = b.dataBuf.length := by rw [m6, goCopyAt_length]
  have hhold : holdsAt buffer.dataBuf op.RwOffset op.rwBuf := by
    rw [m6, hcan]
    exact holdsAt_goCopyAt _ _ _ (by omega)
  split at h
  · split at h
    · rename_i hns
      simp [hsync] at hns
    · rw [Except.bind_eq_ok_iff] at h
      obtain ⟨data, hdata, h⟩ := h
      rw [Except.bind_eq_ok_iff] at h
      obtain ⟨fileOffset, hfo, h⟩ := h
      dsimp only at h
      split at h
      · rename_i herr
        rw [Except.bind_eq_ok_iff] at h
        obtain ⟨cache1, -, h⟩ := h
        simp only [pure, Except.pure, Except.ok.injEq, Prod.mk.injEq] at h
        exact absurd h.1.2.2 herr
      · rw [Except.bind_eq_ok_iff] at h
        obtain ⟨cache1, hdet, h⟩ := h
        simp only [pure, Except.pure, Except.ok.injEq, Prod.mk.injEq] at h
        obtain ⟨⟨hs, -, -⟩, rfl⟩ := h
        obtain ⟨fbd, hfbd, hc1⟩ := BlockCache.DetachBuffer_inv hdet
        rw [hc0, hfb] at hfbd
        simp only [Option.some.injEq] at hfbd
        subst hfbd
        subst hc1
        obtain ⟨-, hd⟩ := Buffer.GetData_inv hdata
        obtain ⟨fe2, hfe2, hfo2⟩ := Buffer.GetFileOffset_inv hfo
        rw [m1, w1] at hfe2
        simp only [Option.some.injEq] at hfe2
        subst hfe2
        rw [m2, w4, w3, m3] at hfo2
        have hdl : data.length ≤ buffer.Len := by rw [hd]; simp
        have hget : ((WCache.DirectWrite fe data fileOffset s).2.setW
            ((cache0.setFileBuf fe.Id (FileBuffer.mk fb.fe (fb.BufferMap.del op.Index)
              fb.LockMap fb.pw)).FreeBuffer buffer)).wCache.Cache.get fe.Id =
            some (FileBuffer.mk fb.fe (fb.BufferMap.del op.Index) fb.LockMap fb.pw) := by
          simp [GoMap.get_set_self]
        refine ⟨hs.symm, BlockStep.of_shape hfb (by simp) (by simp) (by simp)
          ⟨[ProxyCall.Write fe.Id data fileOffset], by simp, ?_⟩ hget rfl ?_ ?_,
          ⟨_, hget, Or.inr ⟨by simp [GoMap.get_del_self], ?_⟩⟩⟩
        · intro w hw2
          simp only [List.mem_singleton] at hw2
          exact ⟨_, _, hw2, by omega, by rw [hblock]; omega⟩
        · intro k hk
          simp [GoMap.get_del_ne _ hk]
        · intro _ x hx
          simp [GoMap.get_del_self] at hx
        · rw [CacheState.content_write init fe.Id _ data fileOffset s.proxyClient.calls
            (by simp)]
          have hp : op.Index * fe.BlockSize + op.RwOffset =
              fileOffset + (op.RwOffset - b.Offset) := by omega
          rw [hp]
          apply holdsAt_storeWrite_sub
          rw [hd]
          apply holdsAt_window
          · rw [m3]
            have : b.Offset + (op.RwOffset - b.Offset) = op.RwOffset := by omega
            rw [this]
            exact hhold
          · omega
  · rw [Except.bind_eq_ok_iff] at h
    obtain ⟨cache1, hput, h⟩ := h
    simp only [pure, Except.pure, Except.ok.injEq, Prod.mk.injEq] at h
    obtain ⟨⟨hs, -, -⟩, rfl⟩ := h
    obtain ⟨fbp, hfbp, hc2⟩ := BlockCache.putBuffer_inv hput
    rw [BlockCache.DoLru_Cache, hc0, hfb] at hfbp
    simp only [Option.some.injEq] at hfbp
    subst hfbp
    subst hc2
    have hget : (s.setW ((cache0.DoLru buffer s.now).2.setFileBuf fe.Id
        (FileBuffer.mk fb.fe (fb.BufferMap.set op.Index (cache0.DoLru buffer s.now).1)
          fb.LockMap fb.pw))).wCache.Cache.get fe.Id =
        some (FileBuffer.mk fb.fe (fb.BufferMap.set op.Index (cache0.DoLru buffer s.now).1)
          fb.LockMap fb.pw) := by
      simp [GoMap.get_set_self]
    refine ⟨hs.symm, BlockStep.of_shape hfb rfl rfl rfl ⟨[], by simp, by simp⟩ hget rfl
      ?_ ?_, ⟨_, hget, Or.inl ⟨(cache0.DoLru buffer s.now).1,
        by simp [GoMap.get_set_self], ?_, ?_, ?_, ?_⟩⟩⟩
    · intro k hk
      simp [GoMap.get_set_ne _ _ hk]
    · intro _ x hx
      simp only [GoMap.get_set_self, Option.some.injEq, BlockCache.DoLru_fst] at hx
      subst hx
      exact ⟨⟨fe1, by simp [m1, w1], w2, w3⟩, by simp [m2, w4],
        by simp only [m3, m4]; omega, by simp only [hlen]; exact w6⟩
    · simp only [BlockCache.DoLru_fst, m3]; omega
    · simp only [BlockCache.DoLru_fst, m3, m4]; omega
    · simp only [BlockCache.DoLru_fst, m3, m4, hlen]; omega
    · simpa [BlockCache.DoLru_fst] using hhold

/-- The branch "cache exist" of `WriteOp` in sync mode when the buffer is flushed first. -/
theorem WCache.WriteOpFlushFirst_step (init : Nat → List Byte) {fe : FileEntry}
    {op : RWBlockOp} {s s1 : CacheState} {sync : Bool} {size : Nat} {fb : FileBuffer}
    {b buffer : Buffer} {cache0 : BlockCache}
    (h : WCache.WriteOpFlushFirst fe fe.Id op buffer cache0 s = .ok ((sync, size, none), s1))
    (hfe : op.fe = fe)
    (hsz : op.RwSize = op.rwBuf.length) (hfit : op.RwOffset + op.RwSize ≤ fe.BlockSize)
    (hfb : s.wCache.Cache.get fe.Id = some fb)
    (hb0 : buffer = { b with elm := false }) (hc0 : cache0.Cache = s.wCache.Cache)
    (hwa : b.WellAttached fe.Id fe.BlockSize op.Index) :
    sync = true ∧ BlockStep fe.Id fe.BlockSize op.Index s s1 ∧
      s1.Holds init fe.Id fe.BlockSize op.Index op.RwOffset op.rwBuf := by
  have hoff : op.GetFileOffset = op.Index * fe.BlockSize + op.RwOffset := by
    simp [RWBlockOp.GetFileOffset, RWBlockOp.GetAlignOffset, hfe]
  have hblock : (op.Index + 1) * fe.BlockSize = op.Index * fe.BlockSize + fe.BlockSize := by
    rw [Nat.add_mul, Nat.one_mul]
  obtain ⟨⟨fe1, w1, w2, w3⟩, w4, w5, w6⟩ := hwa
  subst hb0
  unfold WCache.WriteOpFlushFirst at h
  rw [Except.bind_eq_ok_iff] at h
  obtain ⟨data, hdata, h⟩ := h
  rw [Except.bind_eq_ok_iff] at h
  obtain ⟨fileOffset, hfo, h⟩ := h
  obtain ⟨-, hd⟩ := Buffer.GetData_inv hdata
  obtain ⟨fe2, hfe2, hfo2⟩ := Buffer.GetFileOffset_inv hfo
  simp only at hd hfe2 hfo2
  rw [w1] at hfe2
  simp only [Option.some.injEq] at hfe2
  subst hfe2
  rw [w4, w3] at hfo2
  have hdl : data.length ≤ b.Len := by rw [hd]; simp
  have hwithin : ∀ w ∈ [ProxyCall.Write fe.Id data fileOffset], ∃ data1 o,
      w = ProxyCall.Write fe.Id data1 o ∧ op.Index * fe.BlockSize ≤ o ∧
        o + data1.length ≤ (op.Index + 1) * fe.BlockSize := by
    intro w hw2
    simp only [List.mem_singleton] at hw2
    exact ⟨_, _, hw2, by omega, by rw [hblock]; omega⟩
  dsimp only at h
  split at h
  · rename_i herr
    rw [Except.bind_eq_ok_iff] at h
    obtain ⟨cache1, -, h⟩ := h
    simp only [pure, Except.pure, Except.ok.injEq, Prod.mk.injEq] at h
    exact absurd h.1.2.2 herr
  · rw [Except.bind_eq_ok_iff] at h
    obtain ⟨opFull, hfull, h⟩ := h
    split at h
    · rw [Except.bind_eq_ok_iff] at h
      obtain ⟨cache1, hdet, h⟩ := h
      simp only [pure, Except.pure, Except.ok.injEq, Prod.mk.injEq] at h
      obtain ⟨⟨hs, -, -⟩, rfl⟩ := h
      obtain ⟨fbd, hfbd, hc1⟩ := BlockCache.DetachBuffer_inv hdet
      rw [hc0, hfb] at hfbd
      simp only [Option.some.injEq] at hfbd
      subst hfbd
      subst hc1
      have hget : (WCache.DirectWrite fe op.rwBuf op.GetFileOffset
          ((WCache.DirectWrite fe data fileOffset s).2.setW
            ((cache0.setFileBuf fe.Id (FileBuffer.mk fb.fe (fb.BufferMap.del op.Index)
              fb.LockMap fb.pw)).FreeBuffer
                { b with elm := false }))).2.wCache.Cache.get fe.Id =
          some (FileBuffer.mk fb.fe (fb.BufferMap.del op.Index) fb.LockMap fb.pw) := by
        simp [GoMap.get_set_self]
      refine ⟨hs.symm, BlockStep.of_shape hfb (by simp) (by simp) (by simp)
        ⟨[ProxyCall.Write fe.Id op.rwBuf op.GetFileOffset,
          ProxyCall.Write fe.Id data fileOffset], by simp, ?_⟩ hget rfl ?_ ?_,
        ⟨_, hget, Or.inr ⟨by simp [GoMap.get_del_self], ?_⟩⟩⟩
      · intro w hw2
        simp only [List.mem_cons, List.mem_singleton, List.not_mem_nil, or_false] at hw2
        rcases hw2 with hw2 | hw2
        · exact ⟨_, _, hw2, by rw [hoff]; omega, by rw [hoff, hblock]; omega⟩
        · exact ⟨_, _, hw2, by omega, by rw [hblock]; omega⟩
      · intro k hk
        simp [GoMap.get_del_ne _ hk]
      · intro _ x hx
        simp [GoMap.get_del_self] at hx
      · rw [CacheState.content_write init fe.Id _ op.rwBuf op.GetFileOffset
          (ProxyCall.Write fe.Id data fileOffset :: s.proxyClient.calls) (by simp), ← hoff]
        exact holdsAt_storeWrite_sub _ _ _ 0 _ (holdsAt_self _)
    · rw [Except.bind_eq_ok_iff] at h
      obtain ⟨buffer1, hreset, h⟩ := h
      rw [Except.bind_eq_ok_iff] at h
      obtain ⟨buffer2, hskip, h⟩ := h
      rw [Except.bind_eq_ok_iff] at h
      obtain ⟨u, -, h⟩ := h
      rw [Except.bind_eq_ok_iff] at h
      obtain ⟨buffer3, hmerge, h⟩ := h
      rw [Except.bind_eq_ok_iff] at h
      obtain ⟨cache1, hput, h⟩ := h
      simp only [pure, Except.pure, Except.ok.injEq, Prod.mk.injEq] at h
      obtain ⟨⟨hs, -, -⟩, rfl⟩ := h
      obtain ⟨r1, r2, r3, r4, r5⟩ := Buffer.ReSet_inv hreset
      obtain ⟨k1, k2, k3, -, k5, k6⟩ := Buffer.Skip_inv hskip
      obtain ⟨m1, m2, m3, m4, m5, m6⟩ := Buffer.MergeData_inv hmerge
      obtain ⟨fbp, hfbp, hc2⟩ := BlockCache.putBuffer_inv hput
      rw [BlockCache.DoLru_Cache, hc0, hfb] at hfbp
      simp only [Option.some.injEq] at hfbp
      subst hfbp
      subst hc2
      have hget : ((WCache.DirectWrite fe data fileOffset s).2.setW
          ((cache0.DoLru buffer3 s.now).2.setFileBuf fe.Id
            (FileBuffer.mk fb.fe (fb.BufferMap.set op.Index (cache0.DoLru buffer3 s.now).1)
              fb.LockMap fb.pw))).wCache.Cache.get fe.Id =
          some (FileBuffer.mk fb.fe (fb.BufferMap.set op.Index (cache0.DoLru buffer3 s.now).1)
            fb.LockMap fb.pw) := by
        simp [GoMap.get_set_self]
      have hlen : buffer3.dataBuf.length = buffer1.dataBuf.length := by
        rw [m6, goCopyAt_length, k6]
      have hhold : holdsAt buffer3.dataBuf op.RwOffset op.rwBuf := by
        rw [m6, k3, k5, r4, Nat.add_zero]
        exact holdsAt_goCopyAt _ _ _ (by rw [k6]; omega)
      refine ⟨hs.symm, BlockStep.of_shape hfb (by simp) (by simp) (by simp)
        ⟨[ProxyCall.Write fe.Id data fileOffset], by simp, hwithin⟩ hget rfl
        ?_ ?_, ⟨_, hget, Or.inl ⟨(cache0.DoLru buffer3 s.now).1,
          by simp [GoMap.get_set_self], ?_, ?_, ?_, ?_⟩⟩⟩
      · intro k hk
        simp [GoMap.get_set_ne _ _ hk]
      · intro _ x hx
        simp only [GoMap.get_set_self, Option.some.injEq, BlockCache.DoLru_fst] at hx
        subst hx
        exact ⟨⟨fe, by simp [m1, k1, r1], rfl, rfl⟩, by simp [m2, k2, r2],
          by simp only [m3, m4, k3, k5, r4]; omega, by simp only [hlen]; exact r5⟩
      · simp [BlockCache.DoLru_fst, m3, k3]
      · simp only [BlockCache.DoLru_fst, m3, m4, k3, k5, r4]; omega
      · simp only [BlockCache.DoLru_fst, m3, m4, k3, k5, r4, hlen]; omega
      · simpa [BlockCache.DoLru_fst] using hhold

/-- One `WriteOp` that returns without error in sync mode: a step on the block of the op
after which the bytes of the op are held. -/
theorem WCache.WriteOp_step (init : Nat → List Byte) {fe : FileEntry} {op : RWBlockOp}
    {s s1 : CacheState} {sync : Bool} {size : Nat}
    (h : WCache.WriteOp fe fe.Id op s = .ok ((sync, size, none), s1))
    (hmode : s.wCache.chSync = none) (hfe : op.fe = fe)
    (hsz : op.RwSize = op.rwBuf.length) (hfit : op.RwOffset + op.RwSize ≤ fe.BlockSize)
    (hwf : s.WriteSide fe.Id fe.BlockSize) :
    sync = true ∧ BlockStep fe.Id fe.BlockSize op.Index s s1 ∧
      s1.Holds init fe.Id fe.BlockSize op.Index op.RwOffset op.rwBuf := by
  unfold WCache.WriteOp at h
  rw [Except.bind_eq_ok_iff] at h
  obtain ⟨found, hfound, h⟩ := h
  obtain ⟨fb, hfb, rfl⟩ := BlockCache.GetBuffer_inv hfound
  cases hb : fb.BufferMap.get op.Index with
  | none =>
    rw [hb] at h
    exact WCache.WriteOpNew_step init h hmode hfe hsz hfit hfb hb
  | some b =>
    rw [hb] at h
    simp only at h
    have hwa := hwf fb op.Index b hfb hb
    split at h
    · rename_i hcan
      simp only [BlockCache.RemoveLru_fst, Buffer.CanMerge, decide_eq_true_eq] at hcan
      exact WCache.WriteOpMerge_step init h hmode hsz hfit hfb
        (BlockCache.RemoveLru_fst _ _) (BlockCache.RemoveLru_Cache _ _) hwa hcan
    · exact WCache.WriteOpFlushFirst_step init h hfe hsz hfit hfb
        (BlockCache.RemoveLru_fst _ _) (BlockCache.RemoveLru_Cache _ _) hwa

/-! ## The round trip: the loop of `Write` -/

/-- A step on one block keeps what is held, unlocked, for another block. -/
theorem BlockStep.held {init : Nat → List Byte} {fid bs idx : Nat} {s s1 : CacheState}
    (h : BlockStep fid bs idx s s1) {i rwOffset : Nat} {d : List Byte} (hi : i ≠ idx)
    (hfit : rwOffset + d.length ≤ bs) (hh : s.Held init fid bs i rwOffset d) :
    s1.Held init fid bs i rwOffset d := by
  refine ⟨h.holds hi hfit hh.1, ?_⟩
  obtain ⟨fb, fb1, hfb, hfb1, hlock, -⟩ := h.fileBuf
  obtain ⟨fb0, hfb0, hl⟩ := hh.2
  rw [hfb] at hfb0
  simp only [Option.some.injEq] at hfb0
  subst hfb0
  exact ⟨fb1, hfb1, by rw [hlock]; exact hl⟩

/-- One iteration of the loop of `Write` in sync mode. -/
theorem WCache.WriteLoop_iter (init : Nat → List Byte) {fe : FileEntry} {op : RWBlockOp}
    {s sl sw s2 : CacheState} {sync : Bool} {size : Nat}
    (hlock : s.onW (fun cache => cache.LockBuffer fe.Id op.Index) = .ok sl)
    (hop : WCache.WriteOp fe fe.Id op sl = .ok ((sync, size, none), sw))
    (hun : (if sync then sw.onW (fun cache => cache.UnLockBuffer fe.Id op.Index)
      else .ok sw) = .ok s2)
    (hmode : s.wCache.chSync = none) (hfe : op.fe = fe)
    (hsz : op.RwSize = op.rwBuf.length) (hfit : op.RwOffset + op.RwSize ≤ fe.BlockSize)
    (hwf : s.WriteSide fe.Id fe.BlockSize) :
    BlockStep fe.Id fe.BlockSize op.Index s s2 ∧
      s2.Held init fe.Id fe.BlockSize op.Index op.RwOffset op.rwBuf := by
  obtain ⟨c1, hc1, rfl⟩ := CacheState.onW_inv hlock
  obtain ⟨fb, hfb, hfree, rfl⟩ := BlockCache.LockBuffer_inv hc1
  have hwfl : (s.setW (s.wCache.setFileBuf fe.Id (FileBuffer.mk fb.fe fb.BufferMap
      (fb.LockMap.set op.Index (CacheLock.mk WriteLock 0)) fb.pw))).WriteSide fe.Id
        fe.BlockSize := by
    intro fb2 k buf hfb2 hbuf
    simp only [CacheState.setW_core, BlockCache.setFileBuf_Cache, GoMap.get_set_self,
      Option.some.injEq] at hfb2
    subst hfb2
    exact hwf fb k buf hfb hbuf
  obtain ⟨hs, hstep, hholds⟩ := WCache.WriteOp_step init hop (by simpa using hmode) hfe hsz
    hfit hwfl
  subst hs
  simp only [if_true] at hun
  obtain ⟨c2, hc2, rfl⟩ := CacheState.onW_inv hun
  obtain ⟨fbw, hfbw, rfl⟩ := BlockCache.UnLockBuffer_inv hc2
  obtain ⟨fbl, fb1, hfbl, hfb1, hlm, hframe⟩ := hstep.fileBuf
  simp only [CacheState.setW_core, BlockCache.setFileBuf_Cache, GoMap.get_set_self,
    Option.some.injEq] at hfbl
  subst hfbl
  rw [hfb1] at hfbw
  simp only [Option.some.injEq] at hfbw
  subst hfbw
  have hlm2 : fb1.LockMap.del op.Index = fb.LockMap := by
    rw [hlm]
    exact GoMap.del_set_of_get_none _ _ hfree
  have hget : (sw.setW (sw.wCache.setFileBuf fe.Id (FileBuffer.mk fb1.fe fb1.BufferMap
      (fb1.LockMap.del op.Index) fb1.pw))).wCache.Cache.get fe.Id =
      some (FileBuffer.mk fb1.fe fb1.BufferMap (fb1.LockMap.del op.Index) fb1.pw) := by
    simp [GoMap.get_set_self]
  constructor
  · refine BlockStep.of_shape hfb (by simpa using hstep.remote) (by simpa using hstep.rCache)
      (by simpa using hstep.chSync) (by simpa using hstep.calls) hget hlm2
      (fun k hk => by simpa using hframe k hk) ?_
    intro _ buf hbuf
    exact hstep.attached hwfl fb1 op.Index buf hfb1 hbuf
  · obtain ⟨fbh, hfbh, hcase⟩ := hholds
    rw [hfb1] at hfbh
    simp only [Option.some.injEq] at hfbh
    subst hfbh
    exact ⟨⟨_, hget, hcase⟩, ⟨_, hget, by simp only [hlm2]; exact hfree⟩⟩

theorem OpsCut.rwBuf_length {buffer : List Byte} {pos : Nat} {op : RWBlockOp}
    (hle : pos + op.RwSize ≤ buffer.length)
    (hbuf : op.rwBuf = (buffer.drop pos).take op.RwSize) : op.RwSize = op.rwBuf.length := by
  rw [hbuf]
  simp
  omega

/-- The loop of `Write` in sync mode, when it ends without error: the bytes of every op are
held afterwards. -/
theorem WCache.WriteLoop_held (init : Nat → List Byte) (fe : FileEntry) (buffer : List Byte)
    (offset : Nat) :
    ∀ (Ops : List RWBlockOp) (idx pos w : Nat) (s s1 : CacheState) (res : Nat),
      OpsCut fe buffer offset idx pos Ops → s.wCache.chSync = none →
      s.WriteSide fe.Id fe.BlockSize →
      WCache.WriteLoop fe Ops w s = .ok ((res, none), s1) →
      s1.WriteSide fe.Id fe.BlockSize ∧ s1.wCache.chSync = none ∧ s1.rCache = s.rCache ∧
      s1.proxyClient.remote = s.proxyClient.remote ∧
      (∀ op ∈ Ops, s1.Held init fe.Id fe.BlockSize op.Index op.RwOffset op.rwBuf) ∧
      (∀ i rwOffset d, i < idx → rwOffset + d.length ≤ fe.BlockSize →
        s.Held init fe.Id fe.BlockSize i rwOffset d →
        s1.Held init fe.Id fe.BlockSize i rwOffset d) := by
  intro Ops
  induction Ops with
  | nil =>
    intro idx pos w s s1 res _ hmode hwf h
    simp only [WCache.WriteLoop, Except.ok.injEq, Prod.mk.injEq] at h
    obtain ⟨-, rfl⟩ := h
    exact ⟨hwf, hmode, rfl, rfl, by simp, fun _ _ _ _ _ hh => hh⟩
  | cons op rest ih =>
    intro idx pos w s s1 res hcut hmode hwf h
    obtain ⟨hfe, hidx, -, -, -, hfit, hle, hbuf, hrest⟩ := hcut
    have hsz := OpsCut.rwBuf_length hle hbuf
    unfold WCache.WriteLoop at h
    rw [Except.bind_eq_ok_iff] at h
    obtain ⟨sl, hlock, h⟩ := h
    rw [Except.bind_eq_ok_iff] at h
    obtain ⟨r, hop, h⟩ := h
    rw [Except.bind_eq_ok_iff] at h
    obtain ⟨s2, hunlock, h⟩ := h
    obtain ⟨⟨sync, size, e⟩, sw⟩ := r
    simp only at h hunlock
    cases e with
    | some e1 =>
      simp [pure, Except.pure] at h
    | none =>
      simp only [ne_eq, not_true_eq_false, if_false] at h
      obtain ⟨hstep, hheld⟩ := WCache.WriteLoop_iter init hlock hop hunlock hmode hfe hsz hfit
        hwf
      obtain ⟨hwf1, hmode1, hr1, hrem1, hall, hframe⟩ :=
        ih (idx + 1) (pos + op.RwSize) _ s2 s1 res hrest (by rw [hstep.chSync]; exact hmode)
          (hstep.attached hwf) h
      refine ⟨hwf1, hmode1, by rw [hr1, hstep.rCache], by rw [hrem1, hstep.remote], ?_, ?_⟩
      · intro op1 hop1
        rcases List.mem_cons.mp hop1 with rfl | hin
        · exact hframe _ _ _ (by omega) (by omega) hheld
        · exact hall op1 hin
      · intro i rwOffset d hi hd hh
        exact hframe i rwOffset d (by omega) hd
          (hstep.held (by omega) hd hh)

theorem CacheState.WriteSide_GetFileBuffer {fe : FileEntry} {s : CacheState}
    (hwf : s.WriteSide fe.Id fe.BlockSize) :
    (s.setW (s.wCache.GetFileBuffer fe true).2).WriteSide fe.Id fe.BlockSize := by
  intro fb k buf hfb hbuf
  simp only [CacheState.setW_core, BlockCache.GetFileBuffer] at hfb
  cases hg : s.wCache.Cache.get fe.Id with
  | some fb0 =>
    simp only [hg] at hfb
    exact hwf fb k buf (by rw [hg]; exact hfb) hbuf
  | none =>
    simp only [hg, if_true, GoMap.get_set_self, Option.some.injEq] at hfb
    subst hfb
    simp [NewFileBuffer, GoMap.get_empty] at hbuf

/-- A `WCache.Write` in sync mode that returns the full size without error: the bytes of
every op of the slicing are held afterwards. -/
theorem WCache.Write_held (init : Nat → List Byte) (fe : FileEntry) (buffer : List Byte)
    (offset : Nat) (s s1 : CacheState)
    (hbs : fe.BlockSize < U32) (hoff : offset < U64) (hb : buffer ≠ [])
    (hlen : buffer.length ≤ 2 ^ 29)
    (hmode : s.wCache.chSync = none) (hwf : s.WriteSide fe.Id fe.BlockSize)
    (h : WCache.Write fe buffer offset s = .ok ((buffer.length, none), s1)) :
    0 < fe.BlockSize ∧ offset + buffer.length + fe.BlockSize - 1 < U64 ∧
    ∃ Ops, WCache.Slice fe buffer offset = .ok Ops ∧
      OpsCut fe buffer offset (offset / fe.BlockSize) 0 Ops ∧
      s1.WriteSide fe.Id fe.BlockSize ∧ s1.wCache.chSync = none ∧ s1.rCache = s.rCache ∧
      s1.proxyClient.remote = s.proxyClient.remote ∧
      ∀ op ∈ Ops, s1.Held init fe.Id fe.BlockSize op.Index op.RwOffset op.rwBuf := by
  have hpos : 0 < buffer.length := List.length_pos.mpr hb
  unfold WCache.Write at h
  rw [Except.bind_eq_ok_iff] at h
  obtain ⟨u, -, h⟩ := h
  rw [Except.bind_eq_ok_iff] at h
  obtain ⟨Ops, hslice, h⟩ := h
  rw [Except.bind_eq_ok_iff] at h
  obtain ⟨r, hloop, h⟩ := h
  obtain ⟨⟨res, e⟩, s2⟩ := r
  simp only at h
  have hbs0 : 0 < fe.BlockSize := by
    rcases Nat.eq_zero_or_pos fe.BlockSize with h0 | h0
    · simp [WCache.Slice, h0] at hslice
    · exact h0
  cases e with
  | some e1 => simp [pure, Except.pure] at h
  | none =>
    simp only [ne_eq, not_true_eq_false, if_false] at h
    rw [Except.bind_eq_ok_iff] at h
    obtain ⟨u2, hu2, h⟩ := h
    rw [Assert_eq_ok_iff] at hu2
    simp only [decide_eq_true_eq] at hu2
    simp only [pure, Except.pure, Except.ok.injEq, Prod.mk.injEq, and_true, true_and] at h
    obtain ⟨-, rfl⟩ := h
    subst hu2
    have hw : offset + buffer.length + fe.BlockSize - 1 < U64 := by
      by_contra hc
      rw [WCache.Slice_wrap fe buffer offset hbs0 hbs hoff hlen (by omega)] at hslice
      simp only [Except.ok.injEq] at hslice
      subst hslice
      simp only [WCache.WriteLoop, Except.ok.injEq, Prod.mk.injEq, true_and] at hloop
      omega
    obtain ⟨Ops1, hslice1, hcut⟩ := WCache.Slice_cut fe buffer offset hbs0 hbs hb hlen hw
    rw [hslice] at hslice1
    simp only [Except.ok.injEq] at hslice1
    subst hslice1
    obtain ⟨hwf1, hmode1, hr1, hrem1, hall, -⟩ :=
      WCache.WriteLoop_held init fe buffer offset Ops _ 0 0 _ s2 _ hcut
        (by simpa using hmode) (CacheState.WriteSide_GetFileBuffer hwf) hloop
    exact ⟨hbs0, hw, Ops, hslice, hcut, hwf1, hmode1, by simpa using hr1, by simpa using hrem1,
      hall⟩

/-! ## The round trip: `Clean` -/

/-- What one `ReleaseBuffer` that returns does to the state. -/
theorem RCache.ReleaseBuffer_step {fid idx : Nat} {s s1 : CacheState}
    (h : RCache.ReleaseBuffer fid idx s = .ok s1) :
    s1.wCache = s.wCache ∧ s1.proxyClient = s.proxyClient ∧
    s1.rCache.chPrefetch = s.rCache.chPrefetch ∧
    ∃ fbr fbr1, s.rCache.Cache.get fid = some fbr ∧ s1.rCache.Cache.get fid = some fbr1 ∧
      fbr.LockMap.get idx = none ∧ fbr1.LockMap = fbr.LockMap ∧
      fbr1.BufferMap.get idx = none ∧
      ∀ k, k ≠ idx → fbr1.BufferMap.get k = fbr.BufferMap.get k := by
  unfold RCache.ReleaseBuffer at h
  rw [Except.bind_eq_ok_iff] at h
  obtain ⟨sl, hlock, h⟩ := h
  rw [Except.bind_eq_ok_iff] at h
  obtain ⟨found, hfound, h⟩ := h
  rw [Except.bind_eq_ok_iff] at h
  obtain ⟨s2, hs2, h⟩ := h
  obtain ⟨c1, hc1, rfl⟩ := CacheState.onR_inv hlock
  obtain ⟨fbr, hfbr, hfree, rfl⟩ := BlockCache.LockBuffer_inv hc1
  obtain ⟨fbl, hfbl, rfl⟩ := BlockCache.GetBuffer_inv hfound
  simp only [CacheState.setR_core, BlockCache.setFileBuf_Cache, GoMap.get_set_self,
    Option.some.injEq] at hfbl
  subst hfbl
  obtain ⟨c3, hc3, rfl⟩ := CacheState.onR_inv h
  obtain ⟨fbu, hfbu, rfl⟩ := BlockCache.UnLockBuffer_inv hc3
  simp only at hs2
  cases hb : fbr.BufferMap.get idx with
  | none =>
    simp only [hb, Except.ok.injEq] at hs2
    subst hs2
    simp only [CacheState.setR_core, BlockCache.setFileBuf_Cache, GoMap.get_set_self,
      Option.some.injEq] at hfbu
    subst hfbu
    refine ⟨rfl, rfl, rfl, fbr, FileBuffer.mk fbr.fe fbr.BufferMap
      ((fbr.LockMap.set idx (CacheLock.mk WriteLock 0)).del idx) fbr.pw, hfbr,
      by simp [GoMap.get_set_self], hfree, ?_, hb, fun _ _ => rfl⟩
    exact GoMap.del_set_of_get_none _ _ hfree
  | some buffer =>
    simp only [hb] at hs2
    obtain ⟨c2, hc2, rfl⟩ := CacheState.onR_inv hs2
    rw [Except.bind_eq_ok_iff] at hc2
    obtain ⟨cd, hdet, hc2⟩ := hc2
    simp only [pure, Except.pure, Except.ok.injEq] at hc2
    subst hc2
    obtain ⟨fbd, hfbd, rfl⟩ := BlockCache.DetachBuffer_inv hdet
    simp only [CacheState.setR_core, BlockCache.setFileBuf_Cache, GoMap.get_set_self,
      Option.some.injEq, BlockCache.RemoveLru_Cache] at hfbd
    subst hfbd
    simp only [CacheState.setR_core, BlockCache.setFileBuf_Cache, GoMap.get_set_self,
      Option.some.injEq, BlockCache.FreeBuffer_Cache] at hfbu
    subst hfbu
    refine ⟨rfl, rfl, rfl, fbr, FileBuffer.mk fbr.fe (fbr.BufferMap.del idx)
      ((fbr.LockMap.set idx (CacheLock.mk WriteLock 0)).del idx) fbr.pw, hfbr,
      by simp [GoMap.get_set_self], hfree, ?_,
      by simp [GoMap.get_del_self], fun k hk => by simp [GoMap.get_del_ne _ hk]⟩
    exact GoMap.del_set_of_get_none _ _ hfree

theorem RCache.releaseAll_readFree (fid : Nat) :
    ∀ (L : List Nat) (s s1 : CacheState), RCache.releaseAll fid L s = .ok s1 →
      s1.wCache = s.wCache ∧ s1.proxyClient = s.proxyClient ∧
      s1.rCache.chPrefetch = s.rCache.chPrefetch ∧
      (∀ i, s.ReadFree fid i → s1.ReadFree fid i) ∧ ∀ idx ∈ L, s1.ReadFree fid idx := by
  intro L
  induction L with
  | nil =>
    intro s s1 h
    simp only [RCache.releaseAll, Except.ok.injEq] at h
    subst h
    exact ⟨rfl, rfl, rfl, fun _ h => h, by simp⟩
  | cons idx rest ih =>
    intro s s1 h
    unfold RCache.releaseAll at h
    rw [Except.bind_eq_ok_iff] at h
    obtain ⟨s2, hrel, h⟩ := h
    obtain ⟨hw, hp, hc, fbr, fbr1, hfbr, hfbr1, hfree, hlm, hnone, hframe⟩ :=
      RCache.ReleaseBuffer_step hrel
    obtain ⟨hw1, hp1, hc1, hkeep, hall⟩ := ih s2 s1 h
    have hstep : ∀ i, s.ReadFree fid i → s2.ReadFree fid i := by
      intro i hi fb2 hfb2
      rw [hfbr1] at hfb2
      simp only [Option.some.injEq] at hfb2
      subst hfb2
      obtain ⟨h1, h2⟩ := hi fbr hfbr
      refine ⟨?_, by rw [hlm]; exact h2⟩
      by_cases hik : i = idx
      · subst hik; exact hnone
      · rw [hframe i hik]; exact h1
    have hpost : s2.ReadFree fid idx := by
      intro fb2 hfb2
      rw [hfbr1] at hfb2
      simp only [Option.some.injEq] at hfb2
      subst hfb2
      exact ⟨hnone, by rw [hlm]; exact hfree⟩
    refine ⟨by rw [hw1, hw], by rw [hp1, hp], by rw [hc1, hc], fun i hi => hkeep i (hstep i hi),
      ?_⟩
    intro k hk
    rcases List.mem_cons.mp hk with rfl | hin
    · exact hkeep _ hpost
    · exact hall k hin

/-- A `Clean` that returns leaves the blocks of the written range without buffer and
without lock in the read cache, and leaves the write cache and the proxy as they are. -/
theorem RCache.Clean_readFree {fe : FileEntry} {Size offset : Nat} {s s1 : CacheState}
    {e : Option GoError} (h : RCache.Clean fe Size offset s = .ok (e, s1)) :
    s1.wCache = s.wCache ∧ s1.proxyClient = s.proxyClient ∧
    s1.rCache.chPrefetch = s.rCache.chPrefetch ∧
    ∀ idx, offset / fe.BlockSize ≤ idx →
      idx < ((offset + Size % U32 + fe.BlockSize - 1) % U64) / fe.BlockSize →
      s1.ReadFree fe.Id idx := by
  unfold RCache.Clean at h
  rw [BlockCache.GetFileBuffer_false_fst] at h
  cases hg : s.rCache.Cache.get fe.Id with
  | none =>
    simp only [hg, Except.ok.injEq, Prod.mk.injEq] at h
    obtain ⟨-, rfl⟩ := h
    refine ⟨rfl, rfl, rfl, ?_⟩
    intro idx _ _ fbr hfbr
    rw [hg] at hfbr
    cases hfbr
  | some fbr =>
    simp only [hg] at h
    rw [Except.bind_eq_ok_iff] at h
    obtain ⟨rw1, hrw, h⟩ := h
    rw [Except.bind_eq_ok_iff] at h
    obtain ⟨rwSize, -, h⟩ := h
    rw [Except.bind_eq_ok_iff] at h
    obtain ⟨u, -, h⟩ := h
    rw [Except.bind_eq_ok_iff] at h
    obtain ⟨s2, hrel, h⟩ := h
    simp only [pure, Except.pure, Except.ok.injEq, Prod.mk.injEq] at h
    obtain ⟨-, rfl⟩ := h
    unfold RCache.GetReadWindow at hrw
    split at hrw
    · cases hrw
    · simp only [Except.ok.injEq] at hrw
      subst hrw
      obtain ⟨hw, hp, hc, -, hall⟩ := RCache.releaseAll_readFree fe.Id _ s s2 hrel
      refine ⟨hw, hp, hc, ?_⟩
      intro idx h1 h2
      apply hall
      simp only [List.mem_range'_1]
      omega

/-! ## The round trip: a `Flush` in between -/

/-- One `FlushBuffer` that returns is a step on its block that keeps what is held for the
block: bytes held by the buffer are held by the byte store after the buffer is written. -/
theorem WCache.FlushBuffer_held (init : Nat → List Byte) {fid bs idx : Nat}
    {s s1 : CacheState} {e : Option GoError}
    (h : WCache.FlushBuffer fid idx s = .ok (e, s1)) (hwf : s.WriteSide fid bs) :
    BlockStep fid bs idx s s1 ∧
      ∀ rwOffset d, s.Held init fid bs idx rwOffset d → s1.Held init fid bs idx rwOffset d := by
  obtain ⟨fb, fb1, hfb, hfb1, hfree, hlm, -, -, hr, -, hrem, hch, hframe, -, hcase⟩ :=
    WCache.FlushBuffer_step h
  have hblock : (idx + 1) * bs = idx * bs + bs := by rw [Nat.add_mul, Nat.one_mul]
  rcases hcase with ⟨hnone, rfl, -⟩ | ⟨b, fe1, hb, hbfe, hbound, -, hcalls, hkeep⟩
  · exact ⟨BlockStep.of_shape hfb rfl rfl rfl ⟨[], by simp, by simp⟩ hfb rfl (fun _ _ => rfl)
      (fun hw buf hbuf => hw fb idx buf hfb hbuf), fun _ _ hh => hh⟩
  · obtain ⟨⟨fe2, w1, w2, w3⟩, w4, w5, w6⟩ := hwf fb idx b hfb hb
    rw [hbfe] at w1
    simp only [Option.some.injEq] at w1
    subst w1
    subst w2
    have hdl : ((b.dataBuf.drop b.Offset).take b.Len).length ≤ b.Len := by simp
    have hstep : BlockStep fe1.Id bs idx s s1 := by
      refine BlockStep.of_shape hfb hrem hr hch ⟨[ProxyCall.Write fe1.Id
        ((b.dataBuf.drop b.Offset).take b.Len) (b.BlkIdx * fe1.BlockSize + b.Offset)],
        by simp [hcalls], ?_⟩ hfb1 hlm hframe ?_
      · intro w hw2
        simp only [List.mem_singleton] at hw2
        exact ⟨_, _, hw2, by rw [w4, w3]; omega, by rw [w4, w3, hblock]; omega⟩
      · intro _ buf hbuf
        rcases hkeep with ⟨-, hn, -⟩ | ⟨-, hsome, -⟩
        · rw [hn] at hbuf; cases hbuf
        · rw [hsome] at hbuf
          simp only [Option.some.injEq] at hbuf
          subst hbuf
          exact ⟨⟨fe1, hbfe, rfl, w3⟩, w4, w5, w6⟩
    refine ⟨hstep, ?_⟩
    intro rwOffset d hh
    obtain ⟨⟨fb0, hfb0, hc⟩, -⟩ := hh
    rw [hfb] at hfb0
    simp only [Option.some.injEq] at hfb0
    subst hfb0
    refine ⟨⟨fb1, hfb1, ?_⟩, ⟨fb1, hfb1, by rw [hlm]; exact hfree⟩⟩
    rcases hc with ⟨buf, hbuf, c1, c2, c3, c4⟩ | ⟨hn, -⟩
    · rw [hb] at hbuf
      simp only [Option.some.injEq] at hbuf
      subst hbuf
      rcases hkeep with ⟨-, hn, -⟩ | ⟨-, hsome, -⟩
      · refine Or.inr ⟨hn, ?_⟩
        rw [CacheState.content_write init fe1.Id s1 _ _ _ hcalls]
        have hp : idx * bs + rwOffset =
            b.BlkIdx * fe1.BlockSize + b.Offset + (rwOffset - b.Offset) := by
          rw [w4, w3]; omega
        rw [hp]
        apply holdsAt_storeWrite_sub
        apply holdsAt_window
        · have : b.Offset + (rwOffset - b.Offset) = rwOffset := by omega
          rw [this]
          exact c4
        · omega
      · exact Or.inl ⟨_, hsome, c1, c2, c3, c4⟩
    · rw [hb] at hn
      cases hn

/-- A `Flush` in sync mode that returns keeps what is held. -/
theorem WCache.Flush_held (init : Nat → List Byte) {fe : FileEntry} {s s2 : CacheState}
    {e : Option GoError} (P : Nat → Nat → List Byte → Prop)
    (h : WCache.Flush fe s = .ok (e, s2)) (hwf : s.WriteSide fe.Id fe.BlockSize)
    (hfit : ∀ i o d, P i o d → o + d.length ≤ fe.BlockSize)
    (hheld : ∀ i o d, P i o d → s.Held init fe.Id fe.BlockSize i o d) :
    s2.rCache = s.rCache ∧ s2.proxyClient.remote = s.proxyClient.remote ∧
      ∀ i o d, P i o d → s2.Held init fe.Id fe.BlockSize i o d := by
  have hinv : ∀ (keys : List Nat) (e0 : Option GoError) (r : Option GoError),
      WCache.FlushLoop fe.Id keys e0 s = .ok (r, s2) →
      s2.WriteSide fe.Id fe.BlockSize ∧ s2.rCache = s.rCache ∧
        s2.proxyClient.remote = s.proxyClient.remote ∧
        ∀ i o d, P i o d → s2.Held init fe.Id fe.BlockSize i o d := by
    intro keys e0 r hloop
    refine WCache.FlushLoop_invariant fe.Id
      (fun t => t.WriteSide fe.Id fe.BlockSize ∧ t.rCache = s.rCache ∧
        t.proxyClient.remote = s.proxyClient.remote ∧
        ∀ i o d, P i o d → t.Held init fe.Id fe.BlockSize i o d) ?_ keys e0 s s2 r
      ⟨hwf, rfl, rfl, hheld⟩ hloop
    intro idx t e1 t1 ⟨hw, hr, hrem, hall⟩ hflush
    obtain ⟨hstep, hsame⟩ := WCache.FlushBuffer_held init hflush hw
    refine ⟨hstep.attached hw, by rw [hstep.rCache, hr], by rw [hstep.remote, hrem], ?_⟩
    intro i o d hp
    by_cases hi : i = idx
    · subst hi
      exact hsame o d (hall i o d hp)
    · exact hstep.held hi (hfit i o d hp) (hall i o d hp)
  unfold WCache.Flush at h
  split at h
  · simp only [Except.ok.injEq, Prod.mk.injEq] at h
    obtain ⟨-, rfl⟩ := h
    exact ⟨rfl, rfl, hheld⟩
  · dsimp only at h
    split at h
    · simp only [Except.ok.injEq, Prod.mk.injEq] at h
      obtain ⟨-, rfl⟩ := h
      exact ⟨rfl, rfl, hheld⟩
    · exact (hinv _ _ _ h).2

/-! ## The round trip: the loop of `Read` -/

theorem goCopy_full (dst src : List Byte) (h : dst.length = src.length) :
    goCopy dst src = src := by
  simp [goCopy, h]

theorem goCopyAt_zero_full (dst src : List Byte) (h : dst.length = src.length) :
    goCopyAt dst 0 src = src := by
  simp [goCopyAt, goCopy_full dst src h]

/-- The merge with the write cache of an op whose bytes `d` are held: the result is the full
size of the op and the bytes `d`. -/
theorem WCache.MergeOp_held {fid : Nat} {s : CacheState} {op : RWBlockOp} {d : List Byte}
    {dataSize : Nat} {fb : FileBuffer}
    (hfb : s.wCache.Cache.get fid = some fb)
    (hd : d.length = op.RwSize) (hlen : op.rwBuf.length = op.RwSize) (hpos : 0 < op.RwSize)
    (hds : dataSize ≤ op.RwSize)
    (hcase : (∃ buf, fb.BufferMap.get op.Index = some buf ∧ buf.Offset ≤ op.RwOffset ∧
        op.RwOffset + op.RwSize ≤ buf.Offset + buf.Len ∧
        buf.Offset + buf.Len ≤ buf.dataBuf.length ∧ holdsAt buf.dataBuf op.RwOffset d) ∨
      (fb.BufferMap.get op.Index = none ∧ dataSize = op.RwSize ∧ op.rwBuf = d)) :
    WCache.MergeOp fid op dataSize s = .ok (op.RwSize, d) := by
  unfold WCache.MergeOp
  simp only [Assert, hds, decide_True, if_true, bind, Except.bind, BlockCache.fileBuf, hfb,
    FileBuffer.GetBuffer]
  rcases hcase with ⟨buf, hbuf, c1, c2, c3, c4⟩ | ⟨hnone, hsize, hbufd⟩
  · have hdata : (buf.dataBuf.drop op.RwOffset).take op.RwSize = d := by
      rw [← hd]; exact (holdsAt_iff _ _ _).mp c4
    have h1 : ¬ (buf.Offset + buf.Len ≤ op.RwOffset ∨ op.RwOffset + op.RwSize ≤ buf.Offset) := by
      omega
    have h2 : (if op.RwOffset > buf.Offset then op.RwOffset else buf.Offset) = op.RwOffset := by
      split <;> omega
    have h3 : (if op.RwOffset + op.RwSize < buf.Offset + buf.Len then op.RwOffset + op.RwSize
        else buf.Offset + buf.Len) = op.RwOffset + op.RwSize := by
      split <;> omega
    have h4 : op.RwOffset < op.RwOffset + op.RwSize := by omega
    have h5 : ¬ (op.RwOffset + op.RwSize > buf.dataBuf.length ∨
        op.RwOffset > op.RwOffset + op.RwSize) := by omega
    have h6 : ¬ (0 > op.rwBuf.length) := by omega
    simp only [hbuf, h1, if_false, h2, h3, h4, decide_True, if_true, Nat.le_refl, Nat.sub_self,
      h6, Buffer.GetRangeData, Assert, c1, c2, h5, bind, Except.bind, pure, Except.pure,
      Nat.add_sub_cancel_left, hdata, goCopyAt_zero_full op.rwBuf d (by omega)]
    split
    · rfl
    · have : dataSize = op.RwSize := by omega
      rw [this]
  · simp only [hnone, hsize, hbufd, Nat.lt_irrefl, false_and, if_false, pure, Except.pure]

theorem BlockCache.RLockBuffer_ok (c : BlockCache) {fid idx : Nat} {fb : FileBuffer}
    (h : c.Cache.get fid = some fb) (hl : fb.LockMap.get idx = none) :
    c.RLockBuffer fid idx = .ok (c.setFileBuf fid
      (FileBuffer.mk fb.fe fb.BufferMap (fb.LockMap.set idx (CacheLock.mk ReadLock 1)) fb.pw)) := by
  simp only [BlockCache.RLockBuffer, BlockCache.onFileBuf, h, FileBuffer.RLockBuffer, hl,
    BlockCache.setFileBuf]

/-- The shared lock of a block taken on a free block and released again: the cache core is
the one before. -/
theorem BlockCache.RUnLockBuffer_restore (c : BlockCache) {fid idx : Nat} {fb : FileBuffer}
    (h : c.Cache.get fid = some fb) (hl : fb.LockMap.get idx = none) :
    (c.setFileBuf fid (FileBuffer.mk fb.fe fb.BufferMap
      (fb.LockMap.set idx (CacheLock.mk ReadLock 1)) fb.pw)).RUnLockBuffer fid idx = .ok c := by
  have hfbeta : FileBuffer.mk fb.fe fb.BufferMap fb.LockMap fb.pw = fb := rfl
  obtain ⟨BufferMax, FreeList, Cache, LruList, ExpireTime, Stop⟩ := c
  simp only [BlockCache.RUnLockBuffer, BlockCache.onFileBuf, BlockCache.setFileBuf,
    GoMap.get_set_self, FileBuffer.RUnLockBuffer, Assert, ReadLock, bind, Except.bind,
    pure, Except.pure, GoMap.del_set_of_get_none _ _ hl, GoMap.set_set, hfbeta,
    decide_True, Bool.and_self, if_true, ge_iff_le, le_refl, Int.sub_self]
  simp only at h
  rw [GoMap.set_get_self _ h]

theorem CacheState.onW_ok {s : CacheState} {f : BlockCache → Except Fault BlockCache}
    {c : BlockCache} (h : f s.wCache.toBlockCache = .ok c) : s.onW f = .ok (s.setW c) := by
  simp [CacheState.onW, h]

theorem CacheState.onR_ok {s : CacheState} {f : BlockCache → Except Fault BlockCache}
    {c : BlockCache} (h : f s.rCache.toBlockCache = .ok c) : s.onR f = .ok (s.setR c) := by
  simp [CacheState.onR, h]

/-- A read at a byte store returns the stored bytes of the range. -/
theorem RCache.DirectRead_byteStore (init : Nat → List Byte) (fe : FileEntry)
    (buffer : List Byte) (offset : Nat) (s : CacheState)
    (hrem : s.proxyClient.remote = byteStore init) (h32 : buffer.length < U32) :
    RCache.DirectRead fe buffer offset s =
      (((((s.content init fe.Id).drop offset).take buffer.length).length, none,
        goCopy buffer (((s.content init fe.Id).drop offset).take buffer.length)),
       { s with proxyClient := { s.proxyClient with
           calls := ProxyCall.Read fe.Id offset buffer.length :: s.proxyClient.calls } }) := by
  simp only [RCache.DirectRead, Reader.Read, ProxyClient.call, hrem, byteStore,
    Nat.mod_eq_of_lt h32, ne_eq, not_true_eq_false, if_false, CacheState.content]

/-- One iteration of the loop of `doRead` on an op whose bytes `d` are held, at a byte
store: the op yields its full size and the bytes `d`. -/
theorem RWCache.doReadLoop_iter (init : Nat → List Byte) {fe : FileEntry} {offset : Nat}
    {rop : RWBlockOp} {Ops : List RWBlockOp} {Size : Nat} {dataBuf : List Byte}
    {s : CacheState} {d : List Byte} {pos : Nat}
    (hrem : s.proxyClient.remote = byteStore init)
    (hheld : s.Held init fe.Id fe.BlockSize rop.Index rop.RwOffset d)
    (hread : ∃ fbr, s.rCache.Cache.get fe.Id = some fbr ∧
      fbr.BufferMap.get rop.Index = none ∧ fbr.LockMap.get rop.Index = none)
    (hd : d.length = rop.RwSize) (hz : rop.rwBuf.length = rop.RwSize) (hpos : 0 < rop.RwSize)
    (h32 : rop.RwSize < U32) (hfe : rop.fe = fe)
    (hoff : rop.Index * fe.BlockSize + rop.RwOffset = offset + pos) (hp64 : pos < U64) :
    ∃ s1, s1.wCache = s.wCache ∧ s1.rCache = s.rCache ∧
      s1.proxyClient.remote = s.proxyClient.remote ∧
      s1.content init fe.Id = s.content init fe.Id ∧
      RWCache.doReadLoop fe offset true (rop :: Ops) Size dataBuf s =
        RWCache.doReadLoop fe offset true Ops (pos + rop.RwSize)
          (goCopyAt dataBuf rop.rwBufPos d) s1 := by
  obtain ⟨⟨fbw, hfbw, hcase⟩, fbw1, hfbw1, hwfree⟩ := hheld
  rw [hfbw] at hfbw1
  simp only [Option.some.injEq] at hfbw1
  subst hfbw1
  obtain ⟨fbr, hfbr, hrnone, hrfree⟩ := hread
  have hfo : rop.GetFileOffset = offset + pos := by
    simp only [RWBlockOp.GetFileOffset, RWBlockOp.GetAlignOffset, hfe]
    exact hoff
  have hsize1 : (rop.GetFileOffset + U64 - offset) % U64 = pos := by
    rw [hfo]
    have : offset + pos + U64 - offset = pos + U64 := by omega
    rw [this, Nat.add_mod_right, Nat.mod_eq_of_lt hp64]
  refine ⟨{ s with proxyClient := { s.proxyClient with
      calls := ProxyCall.Read fe.Id rop.GetFileOffset rop.rwBuf.length ::
        s.proxyClient.calls } }, rfl, rfl, rfl, rfl, ?_⟩
  have hdata : ((s.content init fe.Id).drop rop.GetFileOffset).take rop.rwBuf.length =
      d ∨ ∃ buf, fbw.BufferMap.get rop.Index = some buf := by
    rcases hcase with ⟨buf, hbuf, -⟩ | ⟨-, hst⟩
    · exact Or.inr ⟨buf, hbuf⟩
    · left
      rw [hz, ← hd, hfo, ← hoff]
      exact (holdsAt_iff _ _ _).mp hst
  have hdl : (((s.content init fe.Id).drop rop.GetFileOffset).take rop.rwBuf.length).length ≤
      rop.RwSize := by
    simp only [List.length_take]
    omega
  -- the merge with the write cache
  have hmerge : ∀ t : CacheState,
      t.wCache.toBlockCache = s.wCache.setFileBuf fe.Id (FileBuffer.mk fbw.fe fbw.BufferMap
        (fbw.LockMap.set rop.Index (CacheLock.mk ReadLock 1)) fbw.pw) →
      WCache.MergeOp fe.Id
        (RWBlockOp.mk rop.fe rop.Index rop.RwOffset rop.RwSize
          (goCopy rop.rwBuf (((s.content init fe.Id).drop rop.GetFileOffset).take
            rop.rwBuf.length)) rop.rwBufPos)
        (((s.content init fe.Id).drop rop.GetFileOffset).take rop.rwBuf.length).length t =
        .ok (rop.RwSize, d) := by
    intro t ht
    refine @WCache.MergeOp_held _ _ _ _ _ (FileBuffer.mk fbw.fe fbw.BufferMap
        (fbw.LockMap.set rop.Index (CacheLock.mk ReadLock 1)) fbw.pw)
      (by rw [ht]; simp [GoMap.get_set_self]) hd (by simp [goCopy_length, hz]) hpos hdl ?_
    rcases hcase with ⟨buf, hbuf, c1, c2, c3, c4⟩ | ⟨hnone, hst⟩
    · exact Or.inl ⟨buf, hbuf, c1, by show rop.RwOffset + rop.RwSize ≤ _; omega, c3, c4⟩
    · right
      rcases hdata with hdata | ⟨buf, hbuf⟩
      · rw [hdata]
        exact ⟨hnone, hd, goCopy_full _ _ (by omega)⟩
      · rw [hnone] at hbuf
        cases hbuf
  -- the locks
  have hl1 := CacheState.onW_ok (s := s) (f := fun cache => cache.RLockBuffer fe.Id rop.Index)
    (s.wCache.toBlockCache.RLockBuffer_ok hfbw hwfree)
  have hl2 := CacheState.onR_ok (f := fun cache => cache.RLockBuffer fe.Id rop.Index)
    (s := s.setW (s.wCache.setFileBuf fe.Id (FileBuffer.mk fbw.fe fbw.BufferMap
      (fbw.LockMap.set rop.Index (CacheLock.mk ReadLock 1)) fbw.pw)))
    (s.rCache.toBlockCache.RLockBuffer_ok hfbr hrfree)
  have hu2 := s.rCache.toBlockCache.RUnLockBuffer_restore hfbr hrfree
  have hu1 := s.wCache.toBlockCache.RUnLockBuffer_restore hfbw hwfree
  have hdr := RCache.DirectRead_byteStore init fe rop.rwBuf rop.GetFileOffset
    ((s.setW (s.wCache.setFileBuf fe.Id (FileBuffer.mk fbw.fe fbw.BufferMap
      (fbw.LockMap.set rop.Index (CacheLock.mk ReadLock 1)) fbw.pw))).setR
      (s.rCache.setFileBuf fe.Id (FileBuffer.mk fbr.fe fbr.BufferMap
      (fbr.LockMap.set rop.Index (CacheLock.mk ReadLock 1)) fbr.pw))) hrem (by omega)
  have hcont : CacheState.content init fe.Id
      ((s.setW (s.wCache.setFileBuf fe.Id (FileBuffer.mk fbw.fe fbw.BufferMap
      (fbw.LockMap.set rop.Index (CacheLock.mk ReadLock 1)) fbw.pw))).setR
      (s.rCache.setFileBuf fe.Id (FileBuffer.mk fbr.fe fbr.BufferMap
      (fbr.LockMap.set rop.Index (CacheLock.mk ReadLock 1)) fbr.pw))) =
      CacheState.content init fe.Id s := rfl
  rw [hcont] at hdr
  rw [RWCache.doReadLoop]
  simp only [if_true, hl1, hl2, bind, Except.bind, RCache.ReadOp, BlockCache.GetBuffer,
    BlockCache.fileBuf, CacheState.setR_core, CacheState.setW_core, CacheState.setR_wCache,
    BlockCache.setFileBuf_Cache, GoMap.get_set_self, FileBuffer.GetBuffer, hrnone, pure,
    Except.pure, hdr]
  rw [CacheState.onR_ok (f := fun cache => cache.RUnLockBuffer fe.Id rop.Index) hu2]
  simp only [ne_eq, not_true_eq_false, if_false]
  rw [hmerge _ rfl]
  simp only
  rw [CacheState.onW_ok (f := fun cache => cache.RUnLockBuffer fe.Id rop.Index) hu1]
  simp only [hsize1, Nat.pos_iff_ne_zero.mp hpos, not_false_eq_true, if_true]
  rfl

theorem goCopyAt_take (dst : List Byte) (pos : Nat) (src : List Byte)
    (h : pos + src.length ≤ dst.length) :
    (goCopyAt dst pos src).take (pos + src.length) = dst.take pos ++ src := by
  apply List.ext_getElem?
  intro j
  rw [List.getElem?_take]
  by_cases hj : j < pos
  · rw [if_pos (by omega), goCopyAt_getElem?_lt _ _ _ _ hj,
      List.getElem?_append_left (by simp; omega), List.getElem?_take, if_pos hj]
  · by_cases hj2 : j < pos + src.length
    · have hjp : j = pos + (j - pos) := by omega
      rw [if_pos hj2, hjp, goCopyAt_getElem?_mid _ _ _ _ (by omega) (by omega),
        List.getElem?_append_right (by simp)]
      congr 1
      simp
      omega
    · rw [if_neg hj2, List.getElem?_eq_none (by simp; omega)]

theorem CacheState.Held_congr {init : Nat → List Byte} {fid bs : Nat} {s s1 : CacheState}
    {idx rwOffset : Nat} {d : List Byte} (hw : s1.wCache = s.wCache)
    (hc : s1.content init fid = s.content init fid) (h : s.Held init fid bs idx rwOffset d) :
    s1.Held init fid bs idx rwOffset d := by
  unfold CacheState.Held CacheState.Holds at h ⊢
  rw [hw, hc]
  exact h

/-- The loop of `doRead` over the ops of a write whose bytes are all held, at a byte store:
it ends with the full size and the written bytes. -/
theorem RWCache.doReadLoop_held (init : Nat → List Byte) (fe : FileEntry) (buffer : List Byte)
    (offset : Nat) (z : List Byte) (hlen : buffer.length < U32) :
    ∀ (Ops : List RWBlockOp) (idx pos : Nat) (dataBuf : List Byte) (s : CacheState),
      OpsCut fe buffer offset idx pos Ops →
      s.proxyClient.remote = byteStore init →
      (∀ op ∈ Ops, s.Held init fe.Id fe.BlockSize op.Index op.RwOffset op.rwBuf) →
      (∃ fbr, s.rCache.Cache.get fe.Id = some fbr ∧ ∀ op ∈ Ops,
        fbr.BufferMap.get op.Index = none ∧ fbr.LockMap.get op.Index = none) →
      z.length = buffer.length → dataBuf.length = buffer.length →
      dataBuf.take pos = buffer.take pos →
      ∃ s1, RWCache.doReadLoop fe offset true (readOps z Ops) pos dataBuf s =
        .ok ((buffer.length, none, buffer), s1) := by
  intro Ops
  induction Ops with
  | nil =>
    intro idx pos dataBuf s hcut _ _ _ _ hdl htake
    simp only [OpsCut] at hcut
    subst hcut
    refine ⟨s, ?_⟩
    simp only [readOps, List.map_nil, RWCache.doReadLoop]
    have hb : dataBuf = buffer := by
      have h1 := htake
      rw [← hdl, List.take_length] at h1
      rw [hdl, List.take_length] at h1
      exact h1
    rw [hb]
  | cons op rest ih =>
    intro idx pos dataBuf s hcut hrem hheld hread hzl hdl htake
    obtain ⟨hfe, hidx, hbp, hoff, hpos, hfit, hle, hbuf, hrest⟩ := hcut
    have hsz := OpsCut.rwBuf_length hle hbuf
    obtain ⟨fbr, hfbr, hrall⟩ := hread
    obtain ⟨s1, hw, hr, hrem1, hc, heq⟩ := @RWCache.doReadLoop_iter init fe offset
      (RWBlockOp.mk op.fe op.Index op.RwOffset op.RwSize
        ((z.drop op.rwBufPos).take op.RwSize) op.rwBufPos)
      (readOps z rest) pos dataBuf s op.rwBuf pos
      hrem (hheld op (List.mem_cons_self _ _))
      ⟨fbr, hfbr, hrall op (List.mem_cons_self _ _)⟩ hsz.symm
      (by simp only [List.length_take, List.length_drop]; omega) hpos
      (by show op.RwSize < U32; omega) hfe
      (by rw [hidx]; exact hoff) (by simp only [U32, U64] at *; omega)
    have hcons : readOps z (op :: rest) =
        RWBlockOp.mk op.fe op.Index op.RwOffset op.RwSize
          ((z.drop op.rwBufPos).take op.RwSize) op.rwBufPos :: readOps z rest := rfl
    rw [hcons, heq]
    simp only
    rw [hbp]
    apply ih (idx + 1) (pos + op.RwSize) _ s1 hrest (by rw [hrem1]; exact hrem)
    · intro op1 hop1
      exact CacheState.Held_congr hw hc (hheld op1 (List.mem_cons_of_mem _ hop1))
    · exact ⟨fbr, by rw [hr]; exact hfbr, fun op1 hop1 => hrall op1 (List.mem_cons_of_mem _ hop1)⟩
    · exact hzl
    · rw [goCopyAt_length]; exact hdl
    · rw [hsz, goCopyAt_take _ _ _ (by omega), htake, ← hsz, List.take_add, hbuf]

/-! ## The round trip: `Read` after `Write` -/

/-- A `Read` of the range of a write whose bytes are all held, at a byte store and without
prefetch: it returns the full size and the written bytes. -/
theorem RWCache.Read_held (init : Nat → List Byte) (fe : FileEntry) (buffer buf : List Byte)
    (offset : Nat) (s : CacheState) (Ops : List RWBlockOp)
    (hslice : WCache.Slice fe buffer offset = .ok Ops)
    (hcut : OpsCut fe buffer offset (offset / fe.BlockSize) 0 Ops)
    (hlen : buffer.length < U32) (hbuf : buf.length = buffer.length)
    (hrem : s.proxyClient.remote = byteStore init) (hpre : s.rCache.chPrefetch = none)
    (hwfb : ∃ fbw, s.wCache.Cache.get fe.Id = some fbw)
    (hheld : ∀ op ∈ Ops, s.Held init fe.Id fe.BlockSize op.Index op.RwOffset op.rwBuf)
    (hfree : ∀ op ∈ Ops, s.ReadFree fe.Id op.Index) :
    ∃ s1, RWCache.Read fe buf offset s = .ok ((buffer.length, none, buffer), s1) := by
  obtain ⟨fbw, hfbw⟩ := hwfb
  have hzl : (List.replicate buffer.length (0 : Byte)).length = buffer.length := by
    simp
  -- the read-side file buffer
  have hg : ((s.rCache.GetFileBuffer fe true).1.isSome = true) ∧
      ∃ fbr, (s.rCache.GetFileBuffer fe true).2.Cache.get fe.Id = some fbr ∧
        ∀ op ∈ Ops, fbr.BufferMap.get op.Index = none ∧ fbr.LockMap.get op.Index = none := by
    unfold BlockCache.GetFileBuffer
    cases hr : s.rCache.Cache.get fe.Id with
    | some fbr =>
      exact ⟨rfl, fbr, hr, fun op hop => hfree op hop fbr hr⟩
    | none =>
      refine ⟨rfl, NewFileBuffer fe, by simp [GoMap.get_set_self], ?_⟩
      intro op _
      simp [NewFileBuffer, GoMap.get_empty]
  obtain ⟨hsome, fbr, hfbr, hrall⟩ := hg
  obtain ⟨s1, hloop⟩ := RWCache.doReadLoop_held init fe buffer offset
    (List.replicate buffer.length 0) hlen Ops (offset / fe.BlockSize) 0
    (List.replicate buffer.length 0) (s.setR (s.rCache.GetFileBuffer fe true).2) hcut
    (by simpa using hrem) (fun op hop => CacheState.Held_congr rfl rfl (hheld op hop))
    ⟨fbr, by simpa using hfbr, hrall⟩ hzl hzl (by simp)
  refine ⟨s1, ?_⟩
  have hw : ((s.setR (s.rCache.GetFileBuffer fe true).2).wCache.GetFileBuffer fe false).1.isSome
      = true := by
    rw [BlockCache.GetFileBuffer_false_fst]
    simp [hfbw]
  simp only [RWCache.Read, RWCache.doRead, hbuf]
  simp only [Assert, hsome, if_true, bind, Except.bind,
    RCache.TryDoPrefetch, CacheState.setR_chPrefetch, hpre, Option.isSome_none,
    Bool.false_eq_true, if_false, Slice_read_eq fe buffer _ offset Ops hzl hslice, hw, hloop,
    ne_eq, not_true_eq_false, Nat.le_refl, decide_True, pure, Except.pure,
    List.take_length, goCopy_full buf buffer hbuf]

theorem OpsCut.mem {fe : FileEntry} {buffer : List Byte} {offset : Nat} :
    ∀ {Ops : List RWBlockOp} {idx pos : Nat} {op : RWBlockOp},
      OpsCut fe buffer offset idx pos Ops → op ∈ Ops →
      idx ≤ op.Index ∧ op.RwOffset + op.rwBuf.length ≤ fe.BlockSize ∧
        ∃ p, op.Index * fe.BlockSize + op.RwOffset = offset + p ∧ p < buffer.length := by
  intro Ops
  induction Ops with
  | nil => intro idx pos op _ h; cases h
  | cons op1 rest ih =>
    intro idx pos op hcut hmem
    obtain ⟨-, hidx, -, hoff, hpos, hfit, hle, hbuf, hrest⟩ := hcut
    rcases List.mem_cons.mp hmem with rfl | hin
    · have hsz := OpsCut.rwBuf_length hle hbuf
      exact ⟨by omega, by omega, pos, by rw [hidx]; exact hoff, by omega⟩
    · obtain ⟨h1, h2⟩ := ih hrest hin
      exact ⟨by omega, h2⟩

theorem samplePrefetchRead_reached :
    RWCache.Read sampleEntry [0, 0, 0, 0, 0] 0 samplePrefetch =
      .ok ((0, none, [0, 0, 0, 0, 0]), samplePrefetchRead) := rfl

theorem samplePrefetchWritten_reached :
    RWCache.Write sampleEntry [1, 2, 3, 4, 5, 6, 7, 8] 4 samplePrefetchRead =
      .ok ((8, none), samplePrefetchWritten) := rfl

/-- C1 (code defect): the round trip fails on an assertion of the code. With one prefetch
worker and `PrefetchTimes = 0`, in sync mode on a byte store, a `Read` of five bytes at
offset 0 leaves the empty prefetch window `[2, 2)`; the `Write` of eight bytes at offset 4
returns `(8, nil)`; the `Read` of eight bytes at offset 4 that follows does not return the
bytes: its read window `[1, 3)` crosses the empty window and `DoPrefetch` fails its own
`Assert(fileBuf.pw.Size() > 0)`. -/
theorem C1_round_trip_asserts_on_empty_prefetch_window :
    samplePrefetch = NewRWCache sampleProxy 0 2 500 0 1 0 ∧
    samplePrefetch.rCache.PrefetchTimes = 0 ∧
    samplePrefetch.wCache.chSync = none ∧
    samplePrefetch.proxyClient.remote = byteStore (fun _ => []) ∧
    RWCache.Read sampleEntry [0, 0, 0, 0, 0] 0 samplePrefetch =
      .ok ((0, none, [0, 0, 0, 0, 0]), samplePrefetchRead) ∧
    RWCache.Write sampleEntry [1, 2, 3, 4, 5, 6, 7, 8] 4 samplePrefetchRead =
      .ok ((8, none), samplePrefetchWritten) ∧
    RWCache.Read sampleEntry [0, 0, 0, 0, 0, 0, 0, 0] 4 samplePrefetchWritten =
      .error Fault.assert :=
  ⟨rfl, rfl, rfl, rfl, rfl, rfl, rfl⟩

/-- The round trip without prefetch workers: for every file entry `fe` (block size a
`uint32`), every offset `off` (a
`uint64`) and every non-empty byte string `b` of at most `2^29` bytes, in a state without
sync-write workers and without prefetch workers whose proxy is a byte store and whose write
cache holds only well-attached buffers for the file: when `RWCache.Write(fe, b, off)`
returns `(|b|, nil)`, a `RWCache.Read(fe, buf, off)` into a buffer of `|b|` bytes returns
`(|b|, nil)` with exactly the bytes `b`, both right after the write and after any
`RWCache.Flush(fe)` that returns in between. -/
theorem C1_write_read_round_trip (init : Nat → List Byte) (fe : FileEntry)
    (b buf : List Byte) (off : Nat) (s s1 : CacheState)
    (hbs : fe.BlockSize < U32) (hoff : off < U64) (hb : b ≠ []) (hlen : b.length ≤ 2 ^ 29)
    (hbuf : buf.length = b.length)
    (hproxy : s.proxyClient.remote = byteStore init)
    (hsync : s.wCache.chSync = none) (hprefetch : s.rCache.chPrefetch = none)
    (hwf : s.WriteSide fe.Id fe.BlockSize)
    (hw : RWCache.Write fe b off s = .ok ((b.length, none), s1)) :
    (∃ s3, RWCache.Read fe buf off s1 = .ok ((b.length, none, b), s3)) ∧
    ∀ e s2, RWCache.Flush fe s1 = .ok (e, s2) →
      ∃ s3, RWCache.Read fe buf off s2 = .ok ((b.length, none, b), s3) := by
  unfold RWCache.Write at hw
  rw [Except.bind_eq_ok_iff] at hw
  obtain ⟨r, hwrite, hw⟩ := hw
  rw [Except.bind_eq_ok_iff] at hw
  obtain ⟨c, hclean, hw⟩ := hw
  simp only [pure, Except.pure, Except.ok.injEq, Prod.mk.injEq] at hw
  obtain ⟨hr, rfl⟩ := hw
  obtain ⟨res, sw⟩ := r
  simp only at hr hclean
  subst hr
  obtain ⟨e0, s1⟩ := c
  obtain ⟨hbs0, hnowrap, Ops, hslice, hcut, hwf1, -, hrw, hremw, hheld⟩ :=
    WCache.Write_held init fe b off s sw hbs hoff hb hlen hsync hwf hwrite
  obtain ⟨hcw, hcp, hcc, hcfree⟩ := RCache.Clean_readFree hclean
  have hlen32 : b.length < U32 := by simp only [U32]; omega
  have hpos : 0 < b.length := List.length_pos.mpr hb
  -- the state after the write
  have hrem1 : s1.proxyClient.remote = byteStore init := by rw [hcp, hremw, hproxy]
  have hpre1 : s1.rCache.chPrefetch = none := by rw [hcc, hrw, hprefetch]
  have hcont : s1.content init fe.Id = sw.content init fe.Id := by
    simp only [CacheState.content, hcp]
  have hheld1 : ∀ op ∈ Ops, s1.Held init fe.Id fe.BlockSize op.Index op.RwOffset op.rwBuf :=
    fun op hop => CacheState.Held_congr hcw hcont (hheld op hop)
  have hwf2 : s1.WriteSide fe.Id fe.BlockSize := by
    intro fb k x hfb hx
    rw [hcw] at hfb
    exact hwf1 fb k x hfb hx
  have hfree1 : ∀ op ∈ Ops, s1.ReadFree fe.Id op.Index := by
    intro op hop
    obtain ⟨h1, -, p, h2, h3⟩ := OpsCut.mem hcut hop
    apply hcfree op.Index h1
    rw [Nat.mod_eq_of_lt hlen32, Nat.mod_eq_of_lt hnowrap, Nat.lt_iff_add_one_le,
      Nat.le_div_iff_mul_le hbs0, Nat.add_mul, Nat.one_mul]
    omega
  have hne : ∃ op, op ∈ Ops := by
    cases Ops with
    | nil => simp only [OpsCut] at hcut; omega
    | cons op rest => exact ⟨op, List.mem_cons_self _ _⟩
  obtain ⟨op0, hop0⟩ := hne
  constructor
  · obtain ⟨-, fbw, hfbw, -⟩ := hheld1 op0 hop0
    exact RWCache.Read_held init fe b buf off s1 Ops hslice hcut hlen32 hbuf hrem1 hpre1
      ⟨fbw, hfbw⟩ hheld1 hfree1
  · intro e s2 hflush
    obtain ⟨hr2, hrem2, hheld2⟩ := WCache.Flush_held init
      (fun i o d => ∃ op ∈ Ops, i = op.Index ∧ o = op.RwOffset ∧ d = op.rwBuf) hflush hwf2
      (by
        rintro i o d ⟨op, hop, -, rfl, rfl⟩
        exact (OpsCut.mem hcut hop).2.1)
      (by
        rintro i o d ⟨op, hop, rfl, rfl, rfl⟩
        exact hheld1 op hop)
    have hheld3 : ∀ op ∈ Ops, s2.Held init fe.Id fe.BlockSize op.Index op.RwOffset op.rwBuf :=
      fun op hop => hheld2 _ _ _ ⟨op, hop, rfl, rfl, rfl⟩
    obtain ⟨-, fbw, hfbw, -⟩ := hheld3 op0 hop0
    exact RWCache.Read_held init fe b buf off s2 Ops hslice hcut hlen32 hbuf
      (by rw [hrem2]; exact hrem1) (by rw [hr2]; exact hpre1) ⟨fbw, hfbw⟩ hheld3
      (fun op hop fbr hfbr => hfree1 op hop fbr (by rw [← hr2]; exact hfbr))

/-- Witness of C1: the bytes 1, 2 written at offset 0 of the sample file in the fresh state
are read back, both from the dirty state and from the state after the flush. -/
theorem C1_write_read_round_trip_witness :
    (∃ s3, RWCache.Read sampleEntry [0, 0] 0 sampleDirty = .ok ((2, none, [1, 2]), s3)) ∧
    ∃ s3, RWCache.Read sampleEntry [0, 0] 0 sampleFlushed = .ok ((2, none, [1, 2]), s3) :=
  have h := C1_write_read_round_trip (fun _ => []) sampleEntry [1, 2] [0, 0] 0 sampleState
    sampleDirty (by decide) (by decide) (by decide) (by simp) rfl rfl rfl rfl
    (by
      intro fb k x hfb
      simp [sampleState, NewRWCache, NewWCache, GoMap.get_empty] at hfb)
    sampleDirty_reached
  ⟨h.1, h.2 none sampleFlushed sampleFlushed_reached⟩

/-! ## The LRU cache of `lib/cache/lru.go` -/

theorem LRUCache.cacheMap_some {κ ν : Type} [DecidableEq κ] {lru : LRUCache κ ν} {k : κ}
    {n : CacheNode κ ν} (h : lru.cacheMap k = some n) : n ∈ lru.dlist ∧ n.Key = k := by
  unfold LRUCache.cacheMap at h
  exact ⟨List.mem_of_find?_eq_some h, by simpa using List.find?_some h⟩

theorem LRUCache.cacheMap_none {κ ν : Type} [DecidableEq κ] {lru : LRUCache κ ν} {k : κ} :
    lru.cacheMap k = none ↔ ∀ n ∈ lru.dlist, n.Key ≠ k := by
  unfold LRUCache.cacheMap
  simp [List.find?_eq_none]

theorem eraseP_key_ne {κ ν : Type} [DecidableEq κ] (k : κ) :
    ∀ (l : List (CacheNode κ ν)), l.Pairwise (fun a b => a.Key ≠ b.Key) →
      ∀ n ∈ l.eraseP (fun n => decide (n.Key = k)), n.Key ≠ k := by
  intro l
  induction l with
  | nil => intro _ n hn; simp at hn
  | cons a l ih =>
    intro hpw n hn
    rw [List.pairwise_cons] at hpw
    by_cases hk : a.Key = k
    · rw [List.eraseP_cons_of_pos (by simpa using hk)] at hn
      have := hpw.1 n hn
      rw [hk] at this
      exact fun h => this h.symm
    · rw [List.eraseP_cons_of_neg (by simpa using hk)] at hn
      rcases List.mem_cons.mp hn with h | h
      · rw [h]; exact hk
      · exact ih hpw.2 n h

theorem find?_eraseP_ne {κ ν : Type} [DecidableEq κ] (k x : κ) (hx : x ≠ k) :
    ∀ (l : List (CacheNode κ ν)),
      (l.eraseP (fun n => decide (n.Key = k))).find? (fun n => decide (n.Key = x)) =
        l.find? (fun n => decide (n.Key = x)) := by
  intro l
  induction l with
  | nil => rfl
  | cons a l ih =>
    by_cases hk : a.Key = k
    · rw [List.eraseP_cons_of_pos (by simpa using hk)]
      have : a.Key ≠ x := fun h => hx (h.symm.trans hk)
      simp [List.find?_cons, this]
    · rw [List.eraseP_cons_of_neg (by simpa using hk)]
      simp only [List.find?_cons, ih]

theorem LRUHistory.Inv.keys {κ ν : Type} {h : LRUHistory κ ν} (hinv : h.Inv) :
    h.lru.dlist.Pairwise (fun a b => a.Key ≠ b.Key) := by
  refine hinv.2.1.imp ?_
  intro a b hab heq
  obtain ⟨i, j, hi, hj, hlt⟩ := hab
  rw [heq, hi] at hj
  injection hj with hj
  omega

theorem LRUHistory.Inv_touch {κ ν : Type} (h : LRUHistory κ ν) (hinv : h.Inv)
    (node : CacheNode κ ν) (l : List (CacheNode κ ν)) (lastUse1 : κ → Option Nat)
    (hsub : l.Sublist h.lru.dlist) (hne : ∀ n ∈ l, n.Key ≠ node.Key)
    (hlen : ((l.length : Int) + 1) ≤ h.lru.Capacity)
    (hnew : lastUse1 node.Key = some h.step)
    (hold : ∀ x, x ≠ node.Key → lastUse1 x = h.lastUse x) :
    LRUHistory.Inv { lru := { h.lru with dlist := node :: l }, step := h.step + 1,
                     lastUse := lastUse1 } := by
  obtain ⟨_, hpw, hst⟩ := hinv
  refine ⟨by simpa using hlen, ?_, ?_⟩
  · show (node :: l).Pairwise _
    rw [List.pairwise_cons]
    constructor
    · intro n hn
      obtain ⟨i, hi, hlt⟩ := hst n (hsub.subset hn)
      exact ⟨i, h.step, by show lastUse1 n.Key = _; rw [hold _ (hne n hn), hi], hnew, hlt⟩
    · refine (hpw.sublist hsub).imp_of_mem ?_
      intro a b ha hb hab
      obtain ⟨i, j, hi, hj, hlt⟩ := hab
      exact ⟨i, j, by show lastUse1 b.Key = _; rw [hold _ (hne b hb), hi],
        by show lastUse1 a.Key = _; rw [hold _ (hne a ha), hj], hlt⟩
  · intro n hn
    rcases List.mem_cons.mp hn with hn | hn
    · exact ⟨h.step, by show lastUse1 n.Key = _; rw [hn, hnew], by show h.step < h.step + 1; omega⟩
    · obtain ⟨i, hi, hlt⟩ := hst n (hsub.subset hn)
      exact ⟨i, by show lastUse1 n.Key = _; rw [hold _ (hne n hn), hi],
        by show i < h.step + 1; omega⟩

theorem LRUHistory.Inv_keep {κ ν : Type} (h : LRUHistory κ ν) (hinv : h.Inv)
    (l : List (CacheNode κ ν)) (hsub : l.Sublist h.lru.dlist) :
    LRUHistory.Inv { lru := { h.lru with dlist := l }, step := h.step + 1,
                     lastUse := h.lastUse } := by
  obtain ⟨hlen, hpw, hst⟩ := hinv
  refine ⟨?_, hpw.sublist hsub, ?_⟩
  · have := hsub.length_le
    show (l.length : Int) ≤ h.lru.Capacity
    omega
  · intro n hn
    obtain ⟨i, hi, hlt⟩ := hst n (hsub.subset hn)
    exact ⟨i, hi, by show i < h.step + 1; omega⟩

theorem LRUCache.unlink_sublist {κ ν : Type} [DecidableEq κ] (lru : LRUCache κ ν) (k : κ) :
    (lru.unlink k).Sublist lru.dlist :=
  List.eraseP_sublist _

theorem LRUCache.unlink_length {κ ν : Type} [DecidableEq κ] {lru : LRUCache κ ν} {k : κ}
    {n : CacheNode κ ν} (h : lru.cacheMap k = some n) :
    (lru.unlink k).length + 1 = lru.dlist.length := by
  obtain ⟨hmem, hkey⟩ := LRUCache.cacheMap_some h
  unfold LRUCache.unlink
  rw [List.length_eraseP_of_mem hmem (by simpa using hkey)]
  have := List.length_pos_of_mem hmem
  omega

theorem LRUCache.SetExpire_present {κ ν : Type} [DecidableEq κ] {lru : LRUCache κ ν} {k : κ}
    {n : CacheNode κ ν} (h : lru.cacheMap k = some n) (v : ν) (d now : Int) :
    lru.SetExpire k v d now =
      (none, LRUCache.mk lru.Capacity
        (CacheNode.mk k v (if d ≤ 0 then 0 else toInt64 (now + d)) :: lru.unlink k)) := by
  obtain ⟨_, hkey⟩ := LRUCache.cacheMap_some h
  unfold LRUCache.SetExpire
  simp only [h]
  cases n
  simp only at hkey
  subst hkey
  rfl

theorem LRUCache.SetExpire_absent {κ ν : Type} [DecidableEq κ] {lru : LRUCache κ ν} {k : κ}
    (h : lru.cacheMap k = none) (v : ν) (d now : Int) :
    lru.SetExpire k v d now =
      (none, LRUCache.mk lru.Capacity
        (if (lru.dlist.length : Int) + 1 > lru.Capacity then
          (CacheNode.mk k v (if d ≤ 0 then 0 else toInt64 (now + d)) :: lru.dlist).dropLast
        else CacheNode.mk k v (if d ≤ 0 then 0 else toInt64 (now + d)) :: lru.dlist)) := by
  unfold LRUCache.SetExpire
  simp only [h, List.length_cons, Nat.cast_add, Nat.cast_one]
  split <;> rfl

theorem LRUHistory.Inv_SetExpire {κ ν : Type} [DecidableEq κ] (h : LRUHistory κ ν)
    (hinv : h.Inv) (k : κ) (v : ν) (d now : Int) :
    LRUHistory.Inv { lru := (h.lru.SetExpire k v d now).2, step := h.step + 1,
                     lastUse := fun x => if some k = some x then some h.step else h.lastUse x } := by
  have hnew : (fun x => if some k = some x then some h.step else h.lastUse x) k = some h.step := by
    simp
  have hold : ∀ x, x ≠ k →
      (fun x => if some k = some x then some h.step else h.lastUse x) x = h.lastUse x := by
    intro x hx
    simp [Ne.symm hx]
  cases hc : h.lru.cacheMap k with
  | some n =>
    rw [LRUCache.SetExpire_present hc]
    refine LRUHistory.Inv_touch h hinv _ _ _ (h.lru.unlink_sublist k)
      (eraseP_key_ne k _ hinv.keys) ?_ hnew hold
    have := LRUCache.unlink_length hc
    have := hinv.1
    omega
  | none =>
    rw [LRUCache.SetExpire_absent hc]
    have hne : ∀ n ∈ h.lru.dlist, n.Key ≠ k := LRUCache.cacheMap_none.mp hc
    by_cases hfull : (h.lru.dlist.length : Int) + 1 > h.lru.Capacity
    · simp only [hfull, if_true]
      cases hl : h.lru.dlist with
      | nil =>
        have := LRUHistory.Inv_keep h hinv [] (List.nil_sublist _)
        have hnil : LRUHistory.Inv (LRUHistory.mk (LRUCache.mk h.lru.Capacity []) (h.step + 1)
            (fun x => if some k = some x then some h.step else h.lastUse x)) :=
          ⟨this.1, List.Pairwise.nil, by intro n hn; simp at hn⟩
        simpa using hnil
      | cons a l =>
        rw [List.dropLast_cons_of_ne_nil (by simp)]
        rw [hl] at hne
        refine LRUHistory.Inv_touch h hinv _ _ _ ?_ ?_ ?_ hnew hold
        · rw [hl]; exact List.dropLast_sublist _
        · intro n hn
          exact hne n ((List.dropLast_sublist _).subset hn)
        · have := hinv.1
          rw [hl] at this
          simp only [List.length_dropLast, List.length_cons] at this ⊢
          omega
    · simp only [hfull, if_false]
      refine LRUHistory.Inv_touch h hinv _ _ _ (List.Sublist.refl _) hne ?_ hnew hold
      omega

theorem LRUHistory.Inv_apply {κ ν : Type} [DecidableEq κ] (h : LRUHistory κ ν)
    (hinv : h.Inv) (op : LRUOp κ ν) : (h.apply op).Inv := by
  cases op with
  | Set k v now => exact LRUHistory.Inv_SetExpire h hinv k v 0 now
  | SetExpire k v d now => exact LRUHistory.Inv_SetExpire h hinv k v d now
  | Get k now =>
    unfold LRUHistory.apply
    simp only [LRUCache.apply, LRUCache.usedKey]
    cases hc : h.lru.cacheMap k with
    | none =>
      have hg : h.lru.Get k now = ((none, false, none), h.lru) := by
        unfold LRUCache.Get; simp only [hc]
      simp only [hg]
      simpa using LRUHistory.Inv_keep h hinv _ (List.Sublist.refl _)
    | some n =>
      obtain ⟨hmem, hkey⟩ := LRUCache.cacheMap_some hc
      by_cases hlive : n.Expiration = 0 ∨ now < n.Expiration
      · have hg : h.lru.Get k now =
            ((some n.Value, true, none), LRUCache.mk h.lru.Capacity (n :: h.lru.unlink k)) := by
          unfold LRUCache.Get; simp only [hc, hlive, if_true]
        simp only [hg, if_true]
        refine LRUHistory.Inv_touch h hinv _ _ _ (h.lru.unlink_sublist k) ?_ ?_ ?_ ?_
        · rw [hkey]; exact eraseP_key_ne k _ hinv.keys
        · have := LRUCache.unlink_length hc
          have := hinv.1
          omega
        · simp [hkey]
        · intro x hx
          rw [hkey] at hx
          simp [Ne.symm hx]
      · have hg : h.lru.Get k now = ((none, false, none), h.lru) := by
          unfold LRUCache.Get; simp only [hc, hlive, if_false]
        simp only [hg]
        simpa using LRUHistory.Inv_keep h hinv _ (List.Sublist.refl _)
  | Remove k =>
    unfold LRUHistory.apply
    simp only [LRUCache.apply, LRUCache.usedKey]
    cases hc : h.lru.cacheMap k with
    | none =>
      have hg : h.lru.Remove k = (false, h.lru) := by
        unfold LRUCache.Remove; simp only [hc]
      simp only [hg]
      simpa using LRUHistory.Inv_keep h hinv _ (List.Sublist.refl _)
    | some n =>
      have hg : h.lru.Remove k = (true, LRUCache.mk h.lru.Capacity (h.lru.unlink n.Key)) := by
        unfold LRUCache.Remove; simp only [hc]
      simp only [hg]
      simpa using LRUHistory.Inv_keep h hinv _ (h.lru.unlink_sublist n.Key)

theorem LRUHistory.Inv_run {κ ν : Type} [DecidableEq κ] (ops : List (LRUOp κ ν)) :
    ∀ (h : LRUHistory κ ν), h.Inv → (h.run ops).Inv := by
  induction ops with
  | nil => intro h hinv; exact hinv
  | cons op ops ih =>
    intro h hinv
    exact ih _ (LRUHistory.Inv_apply h hinv op)

theorem LRUHistory.Inv_start {κ ν : Type} (c : Int) (hc : 0 ≤ c) :
    (LRUHistory.start (LRUCache.mk c ([] : List (CacheNode κ ν)))).Inv :=
  ⟨by simpa [LRUHistory.start] using hc, List.Pairwise.nil, by intro n hn; simp [LRUHistory.start] at hn⟩

theorem LRUCache.SetExpire_Capacity {κ ν : Type} [DecidableEq κ] (lru : LRUCache κ ν) (k : κ)
    (v : ν) (d now : Int) : (lru.SetExpire k v d now).2.Capacity = lru.Capacity := by
  cases hc : lru.cacheMap k with
  | some n => rw [LRUCache.SetExpire_present hc]
  | none => rw [LRUCache.SetExpire_absent hc]

theorem LRUCache.apply_Capacity {κ ν : Type} [DecidableEq κ] (lru : LRUCache κ ν)
    (op : LRUOp κ ν) : (lru.apply op).Capacity = lru.Capacity := by
  cases op with
  | Set k v now => exact LRUCache.SetExpire_Capacity lru k v 0 now
  | SetExpire k v d now => exact LRUCache.SetExpire_Capacity lru k v d now
  | Get k now =>
    simp only [LRUCache.apply, LRUCache.Get]
    split
    · split <;> rfl
    · rfl
  | Remove k =>
    simp only [LRUCache.apply, LRUCache.Remove]
    split <;> rfl

theorem LRUHistory.run_Capacity {κ ν : Type} [DecidableEq κ] (ops : List (LRUOp κ ν)) :
    ∀ (h : LRUHistory κ ν), (h.run ops).lru.Capacity = h.lru.Capacity := by
  induction ops with
  | nil => intro h; rfl
  | cons op ops ih =>
    intro h
    exact (ih _).trans (LRUCache.apply_Capacity h.lru op)

theorem find?_key_of_mem {κ ν : Type} [DecidableEq κ] :
    ∀ (l : List (CacheNode κ ν)), l.Pairwise (fun a b => a.Key ≠ b.Key) →
      ∀ n ∈ l, l.find? (fun m => decide (m.Key = n.Key)) = some n := by
  intro l
  induction l with
  | nil => intro _ n hn; simp at hn
  | cons a l ih =>
    intro hpw n hn
    rw [List.pairwise_cons] at hpw
    rcases List.mem_cons.mp hn with h | h
    · subst h; simp
    · have : a.Key ≠ n.Key := hpw.1 n h
      simp only [List.find?_cons, this, decide_False]
      exact ih hpw.2 n h

/-- C18: a cache made by `NewLRUCache c` with `c ≥ 1` holds at most `c` entries after every
sequence of `Set`, `SetExpire`, `Get` and `Remove` calls; setting an absent key in a full
cache evicts exactly the entry at the back, whose last use (set or successful read) lies
before the last use of every other entry; setting a present key evicts nothing. `Set` is
`SetExpire` with the duration 0. -/
theorem C18_bounded_lru {κ ν : Type} [DecidableEq κ] (c : Int) (hc : 1 ≤ c) :
    ∃ lru0 : LRUCache κ ν, NewLRUCache c = some lru0 ∧
      ∀ (ops : List (LRUOp κ ν)) (k : κ) (v : ν) (d now : Int),
        ((LRUHistory.start lru0).run ops).lru.Size ≤ c ∧
        (((LRUHistory.start lru0).run ops).lru.cacheMap k = none →
          ((LRUHistory.start lru0).run ops).lru.Size = c →
          ∃ rest victim, ((LRUHistory.start lru0).run ops).lru.dlist = rest ++ [victim] ∧
            (((LRUHistory.start lru0).run ops).lru.SetExpire k v d now).2.dlist =
              CacheNode.mk k v (if d ≤ 0 then 0 else toInt64 (now + d)) :: rest ∧
            (((LRUHistory.start lru0).run ops).lru.SetExpire k v d now).2.cacheMap victim.Key
              = none ∧
            ∀ n ∈ rest,
              (((LRUHistory.start lru0).run ops).lru.SetExpire k v d now).2.cacheMap n.Key
                = some n ∧
              ((LRUHistory.start lru0).run ops).Before victim.Key n.Key) ∧
        (((LRUHistory.start lru0).run ops).lru.cacheMap k ≠ none →
          (((LRUHistory.start lru0).run ops).lru.SetExpire k v d now).2.Size =
            ((LRUHistory.start lru0).run ops).lru.Size ∧
          ∀ x, ((((LRUHistory.start lru0).run ops).lru.SetExpire k v d now).2.cacheMap x).isSome
            = (((LRUHistory.start lru0).run ops).lru.cacheMap x).isSome) ∧
        ((LRUHistory.start lru0).run ops).lru.Set k v now =
          ((LRUHistory.start lru0).run ops).lru.SetExpire k v 0 now := by
  refine ⟨LRUCache.mk c [], by simp [NewLRUCache]; omega, ?_⟩
  intro ops k v d now
  have hinv := LRUHistory.Inv_run ops _ (LRUHistory.Inv_start (κ := κ) (ν := ν) c (by omega))
  have hcap : ((LRUHistory.start (LRUCache.mk c [])).run ops).lru.Capacity = c :=
    LRUHistory.run_Capacity ops _
  generalize (LRUHistory.start (LRUCache.mk c ([] : List (CacheNode κ ν)))).run ops = h
    at hinv hcap
  have hkeys := hinv.keys
  obtain ⟨hlen, hpw, _⟩ := hinv
  rw [hcap] at hlen
  refine ⟨hlen, ?_, ?_, rfl⟩
  · intro habs hfull
    have hne : ∀ n ∈ h.lru.dlist, n.Key ≠ k := LRUCache.cacheMap_none.mp habs
    have hnil : h.lru.dlist ≠ [] := by
      intro hnil
      simp only [LRUCache.Size, hnil, List.length_nil] at hfull
      omega
    have hsplit : h.lru.dlist = h.lru.dlist.dropLast ++ [h.lru.dlist.getLast hnil] :=
      (List.dropLast_append_getLast hnil).symm
    have hres : (h.lru.SetExpire k v d now).2 = LRUCache.mk h.lru.Capacity
        (CacheNode.mk k v (if d ≤ 0 then 0 else toInt64 (now + d)) :: h.lru.dlist.dropLast) := by
      rw [LRUCache.SetExpire_absent habs]
      have : (h.lru.dlist.length : Int) + 1 > h.lru.Capacity := by
        simp only [LRUCache.Size] at hfull
        omega
      simp only [this, if_true]
      rw [List.dropLast_cons_of_ne_nil hnil]
    generalize h.lru.dlist.dropLast = rest at hsplit hres
    generalize h.lru.dlist.getLast hnil = victim at hsplit
    rw [hsplit] at hkeys hpw hne
    rw [List.pairwise_append] at hkeys hpw
    refine ⟨rest, victim, hsplit, by rw [hres], ?_, ?_⟩
    · rw [hres]
      unfold LRUCache.cacheMap
      rw [List.find?_eq_none]
      intro n hn
      rcases List.mem_cons.mp hn with hn | hn
      · have := hne victim (by simp)
        subst hn
        simpa using Ne.symm this
      · simpa using hkeys.2.2 n hn victim (by simp)
    · intro n hn
      constructor
      · rw [hres]
        unfold LRUCache.cacheMap
        have : k ≠ n.Key := Ne.symm (hne n (by simp [hn]))
        simp only [List.find?_cons, this, decide_False]
        exact find?_key_of_mem rest hkeys.1 n hn
      · exact hpw.2.2 n hn victim (by simp)
  · intro hpres
    cases hc : h.lru.cacheMap k with
    | none => exact absurd hc hpres
    | some n =>
      rw [LRUCache.SetExpire_present hc]
      refine ⟨?_, ?_⟩
      · have := LRUCache.unlink_length hc
        simp only [LRUCache.Size, List.length_cons]
        omega
      · intro x
        by_cases hx : x = k
        · subst hx
          rw [hc]
          simp [LRUCache.cacheMap]
        · unfold LRUCache.cacheMap LRUCache.unlink
          simp only [List.find?_cons, Ne.symm hx, decide_False]
          rw [find?_eraseP_ne k x hx]

theorem find?_dropLast {α : Type} (p : α → Bool) :
    ∀ (l : List α), l.dropLast.find? p = l.find? p ∨ l.dropLast.find? p = none := by
  intro l
  induction l with
  | nil => left; rfl
  | cons a l ih =>
    cases l with
    | nil => right; rfl
    | cons b l =>
      rw [List.dropLast_cons₂]
      by_cases hp : p a = true
      · left; simp [List.find?_cons, hp]
      · simp only [List.find?_cons_of_neg _ hp]
        exact ih

theorem LRUCache.Get_hit {κ ν : Type} [DecidableEq κ] {lru : LRUCache κ ν} {k : κ}
    {n : CacheNode κ ν} (h : lru.cacheMap k = some n) (now : Int)
    (hlive : n.Expiration = 0 ∨ now < n.Expiration) :
    lru.Get k now = ((some n.Value, true, none), LRUCache.mk lru.Capacity (n :: lru.unlink k)) := by
  unfold LRUCache.Get
  simp only [h, hlive, if_true]

theorem LRUCache.Get_expired {κ ν : Type} [DecidableEq κ] {lru : LRUCache κ ν} {k : κ}
    {n : CacheNode κ ν} (h : lru.cacheMap k = some n) (now : Int)
    (hdead : ¬(n.Expiration = 0 ∨ now < n.Expiration)) :
    lru.Get k now = ((none, false, none), lru) := by
  unfold LRUCache.Get
  simp only [h, hdead, if_false]

theorem LRUCache.Get_absent {κ ν : Type} [DecidableEq κ] {lru : LRUCache κ ν} {k : κ}
    (h : lru.cacheMap k = none) (now : Int) :
    lru.Get k now = ((none, false, none), lru) := by
  unfold LRUCache.Get
  simp only [h]

theorem LRUCache.Remove_dlist {κ ν : Type} [DecidableEq κ] (lru : LRUCache κ ν) (k : κ) :
    (lru.Remove k).2 = LRUCache.mk lru.Capacity (lru.unlink k) := by
  unfold LRUCache.Remove
  cases hc : lru.cacheMap k with
  | some n => simp only [(LRUCache.cacheMap_some hc).2]
  | none =>
    simp only
    have : lru.unlink k = lru.dlist := by
      unfold LRUCache.unlink
      rw [List.eraseP_of_forall_not]
      intro a ha
      simpa using LRUCache.cacheMap_none.mp hc a ha
    rw [this]

/-- A call on another key leaves the lookup of `k` as it is, or evicts `k`. -/
theorem LRUCache.cacheMap_SetExpire_ne {κ ν : Type} [DecidableEq κ] (lru : LRUCache κ ν)
    (k x : κ) (hx : x ≠ k) (v : ν) (d now : Int) :
    (lru.SetExpire x v d now).2.cacheMap k = lru.cacheMap k ∨
      (lru.SetExpire x v d now).2.cacheMap k = none := by
  cases hc : lru.cacheMap x with
  | some n =>
    left
    rw [LRUCache.SetExpire_present hc]
    unfold LRUCache.cacheMap LRUCache.unlink
    simp only [List.find?_cons, hx, decide_False]
    exact find?_eraseP_ne x k (Ne.symm hx) _
  | none =>
    rw [LRUCache.SetExpire_absent hc]
    unfold LRUCache.cacheMap
    split
    · cases hl : lru.dlist with
      | nil => right; rfl
      | cons a l =>
        rw [List.dropLast_cons_of_ne_nil (by simp)]
        rw [List.find?_cons_of_neg _ (by simpa using hx)]
        exact find?_dropLast _ _
    · left
      simp only [List.find?_cons, hx, decide_False]

theorem LRUCache.cacheMap_apply {κ ν : Type} [DecidableEq κ] (lru : LRUCache κ ν) (k : κ)
    (op : LRUOp κ ν) (hop : LRUOp.Changes k op = false) :
    (lru.apply op).cacheMap k = lru.cacheMap k ∨ (lru.apply op).cacheMap k = none := by
  cases op with
  | Set x v now =>
    exact LRUCache.cacheMap_SetExpire_ne lru k x (by simpa [LRUOp.Changes] using hop) v 0 now
  | SetExpire x v d now =>
    exact LRUCache.cacheMap_SetExpire_ne lru k x (by simpa [LRUOp.Changes] using hop) v d now
  | Get x now =>
    left
    simp only [LRUCache.apply]
    cases hc : lru.cacheMap x with
    | none => rw [LRUCache.Get_absent hc]
    | some n =>
      by_cases hlive : n.Expiration = 0 ∨ now < n.Expiration
      · rw [LRUCache.Get_hit hc now hlive]
        by_cases hx : x = k
        · subst hx
          rw [hc]
          simp [LRUCache.cacheMap, (LRUCache.cacheMap_some hc).2]
        · have hn : n.Key ≠ k := by rw [(LRUCache.cacheMap_some hc).2]; exact hx
          unfold LRUCache.cacheMap LRUCache.unlink
          simp only [List.find?_cons, hn, decide_False]
          exact find?_eraseP_ne x k (Ne.symm hx) _
      · rw [LRUCache.Get_expired hc now hlive]
  | Remove x =>
    left
    have hx : x ≠ k := by simpa [LRUOp.Changes] using hop
    simp only [LRUCache.apply, LRUCache.Remove_dlist]
    unfold LRUCache.cacheMap LRUCache.unlink
    exact find?_eraseP_ne x k (Ne.symm hx) _

theorem LRUCache.cacheMap_run {κ ν : Type} [DecidableEq κ] (k : κ) (ops : List (LRUOp κ ν)) :
    ∀ (lru : LRUCache κ ν), (∀ op ∈ ops, LRUOp.Changes k op = false) →
      (lru.run ops).cacheMap k = lru.cacheMap k ∨ (lru.run ops).cacheMap k = none := by
  induction ops with
  | nil => intro lru _; left; rfl
  | cons op ops ih =>
    intro lru hops
    have h1 := LRUCache.cacheMap_apply lru k op (hops op (by simp))
    have h2 := ih (lru.apply op) (fun o ho => hops o (by simp [ho]))
    have hrun : lru.run (op :: ops) = (lru.apply op).run ops := rfl
    rw [hrun]
    rcases h2 with h2 | h2
    · rcases h1 with h1 | h1
      · left; rw [h2, h1]
      · right; rw [h2, h1]
    · right; exact h2

theorem toInt64_of_range (x : Int) (h1 : -(2 ^ 63) ≤ x) (h2 : x < 2 ^ 63) : toInt64 x = x := by
  unfold toInt64
  rw [Int.emod_eq_of_lt (by omega) (by omega)]
  omega

theorem LRUCache.cacheMap_SetExpire_self {κ ν : Type} [DecidableEq κ] (lru : LRUCache κ ν)
    (k : κ) (v : ν) (d now : Int) :
    (lru.SetExpire k v d now).2.cacheMap k =
        some (CacheNode.mk k v (if d ≤ 0 then 0 else toInt64 (now + d))) ∨
      (lru.SetExpire k v d now).2.cacheMap k = none := by
  cases hc : lru.cacheMap k with
  | some n =>
    left
    rw [LRUCache.SetExpire_present hc]
    simp [LRUCache.cacheMap]
  | none =>
    rw [LRUCache.SetExpire_absent hc]
    unfold LRUCache.cacheMap
    split
    · cases hl : lru.dlist with
      | nil => right; rfl
      | cons a l =>
        left
        rw [List.dropLast_cons_of_ne_nil (by simp)]
        simp
    · left; simp

/-- C19: after `SetExpire(k, v, d)` at time `t` and calls that neither set, remove nor evict
`k`, `Get(k)` at time `t1` returns `(v, true)` if `d ≤ 0` or `t1 < t + d`, and otherwise
`(nil, false)` while the cache stays as it is. The clock reads a time after the epoch and the
expiry time `t + d` fits `int64`. -/
theorem C19_ttl_lookup {κ ν : Type} [DecidableEq κ] (lru : LRUCache κ ν) (k : κ) (v : ν)
    (d t t1 : Int) (ops : List (LRUOp κ ν)) (ht : 0 ≤ t) (hrange : t + d < 2 ^ 63)
    (hops : ∀ op ∈ ops, LRUOp.Changes k op = false)
    (hkept : ((lru.SetExpire k v d t).2.run ops).cacheMap k ≠ none) :
    (((lru.SetExpire k v d t).2.run ops).Get k t1).1 =
        (if d ≤ 0 ∨ t1 < t + d then (some v, true, none) else (none, false, none)) ∧
      (¬(d ≤ 0 ∨ t1 < t + d) →
        (((lru.SetExpire k v d t).2.run ops).Get k t1).2 = (lru.SetExpire k v d t).2.run ops) := by
  have hnode : ((lru.SetExpire k v d t).2.run ops).cacheMap k =
      some (CacheNode.mk k v (if d ≤ 0 then 0 else toInt64 (t + d))) := by
    rcases LRUCache.cacheMap_run k ops (lru.SetExpire k v d t).2 hops with h | h
    · rcases LRUCache.cacheMap_SetExpire_self lru k v d t with h1 | h1
      · rw [h, h1]
      · rw [h1] at h; exact absurd h hkept
    · exact absurd h hkept
  generalize (lru.SetExpire k v d t).2.run ops = s at hnode
  by_cases hd : d ≤ 0
  · have hlive : (CacheNode.mk k v (if d ≤ 0 then 0 else toInt64 (t + d))).Expiration = 0 ∨
        t1 < (CacheNode.mk k v (if d ≤ 0 then 0 else toInt64 (t + d))).Expiration := by
      left; simp [hd]
    rw [LRUCache.Get_hit hnode t1 hlive]
    simp [hd]
  · have he : (if d ≤ 0 then 0 else toInt64 (t + d)) = t + d := by
      rw [if_neg hd, toInt64_of_range _ (by omega) hrange]
    rw [he] at hnode
    by_cases hlt : t1 < t + d
    · rw [LRUCache.Get_hit hnode t1 (Or.inr hlt)]
      simp [hlt]
    · have hdead : ¬((CacheNode.mk k v (t + d)).Expiration = 0 ∨
          t1 < (CacheNode.mk k v (t + d)).Expiration) := by
        simp only [not_or]
        exact ⟨by show t + d ≠ 0; omega, hlt⟩
      rw [LRUCache.Get_expired hnode t1 hdead]
      simp [hd, hlt]

/-- Witness of C18 on a cache of capacity 2 after three `Set` calls. -/
theorem C18_bounded_lru_witness :
    ∃ lru0 : LRUCache Nat Nat, NewLRUCache 2 = some lru0 ∧
      ((LRUHistory.start lru0).run
        [LRUOp.Set 1 10 0, LRUOp.Set 2 20 0, LRUOp.Set 3 30 0]).lru.Size ≤ 2 := by
  obtain ⟨lru0, h0, h⟩ := C18_bounded_lru (κ := Nat) (ν := Nat) 2 (by decide)
  exact ⟨lru0, h0, (h [LRUOp.Set 1 10 0, LRUOp.Set 2 20 0, LRUOp.Set 3 30 0] 0 0 0 0).1⟩

/-- Witness of C19: an entry set at time 100 for 5 ns is read at time 103, after a read of it
and a `Set` of another key. -/
theorem C19_ttl_lookup_witness :
    ((((LRUCache.mk 2 ([] : List (CacheNode Nat Nat))).SetExpire 1 10 5 100).2.run
        [LRUOp.Get 1 101, LRUOp.Set 2 20 102]).Get 1 103).1 = (some 10, true, none) :=
  (C19_ttl_lookup (LRUCache.mk 2 ([] : List (CacheNode Nat Nat))) 1 10 5 100 103
    [LRUOp.Get 1 101, LRUOp.Set 2 20 102] (by decide) (by decide) (by decide) (by decide)).1

/-! ## The dentry cache -/

theorem eraseKeys_cons {κ ν : Type} [DecidableEq κ] (n : CacheNode κ ν) :
    ∀ (ks : List κ) (l : List (CacheNode κ ν)), (∀ k ∈ ks, k ≠ n.Key) →
      ks.foldl (fun l k => l.eraseP (fun m => decide (m.Key = k))) (n :: l) =
        n :: ks.foldl (fun l k => l.eraseP (fun m => decide (m.Key = k))) l := by
  intro ks
  induction ks with
  | nil => intro l _; rfl
  | cons k ks ih =>
    intro l hks
    have hk : n.Key ≠ k := Ne.symm (hks k (by simp))
    simp only [List.foldl_cons]
    rw [List.eraseP_cons_of_neg (by simpa using hk)]
    exact ih _ (fun x hx => hks x (by simp [hx]))

theorem eraseKeys_filter {κ ν : Type} [DecidableEq κ] (P : κ → Bool) :
    ∀ (l : List (CacheNode κ ν)),
      ((l.map (fun n => n.Key)).filter P).foldl
          (fun l k => l.eraseP (fun m => decide (m.Key = k))) l =
        l.filter (fun n => !P n.Key) := by
  intro l
  induction l with
  | nil => rfl
  | cons n l ih =>
    by_cases hP : P n.Key = true
    · simp only [List.map_cons, List.filter_cons, hP, if_true, List.foldl_cons, Bool.not_true]
      rw [List.eraseP_cons_of_pos (by simp)]
      simpa using ih
    · simp only [List.map_cons, List.filter_cons, hP, if_false]
      rw [eraseKeys_cons n _ l]
      · simp only [Bool.not_eq_true] at hP
        simp [hP, ih]
      · intro k hk heq
        simp only [Bool.false_eq_true, if_false, List.mem_filter] at hk
        rw [heq] at hk
        exact hP hk.2

theorem LRUCache.foldl_Remove {κ ν : Type} [DecidableEq κ] :
    ∀ (ks : List κ) (lru : LRUCache κ ν),
      ks.foldl (fun l k => (l.Remove k).2) lru =
        LRUCache.mk lru.Capacity
          (ks.foldl (fun l k => l.eraseP (fun m => decide (m.Key = k))) lru.dlist) := by
  intro ks
  induction ks with
  | nil => intro lru; rfl
  | cons k ks ih =>
    intro lru
    simp only [List.foldl_cons]
    rw [ih, LRUCache.Remove_dlist]
    rfl

theorem find?_filter_of_imp {α : Type} (p q : α → Bool) (h : ∀ x, p x = true → q x = true) :
    ∀ (l : List α), (l.filter q).find? p = l.find? p := by
  intro l
  induction l with
  | nil => rfl
  | cons a l ih =>
    by_cases hq : q a = true
    · simp only [List.filter_cons, hq, if_true, List.find?_cons, ih]
    · have hp : ¬(p a = true) := fun hp => hq (h a hp)
      simp only [List.filter_cons, hq, if_false, Bool.false_eq_true]
      rw [List.find?_cons_of_neg _ hp, ih]

theorem DentryCache.RemovePrefix_eq (cache : DentryCache) (pre : String) :
    cache.RemovePrefix pre = (none, DentryCache.mk
      (cache.dentryCache.map (fun lru => LRUCache.mk lru.Capacity
        (lru.dlist.filter (fun n => !strings.HasPrefix n.Key pre)))) cache.expireMs) := by
  unfold DentryCache.RemovePrefix
  cases h : cache.dentryCache with
  | none => simp only [Option.map_none']; rw [← h]
  | some lru =>
    simp only [Option.map_some', LRUCache.GetKeys, LRUCache.foldl_Remove]
    rw [eraseKeys_filter (fun k => strings.HasPrefix k pre)]

/-- C20: after `RemovePrefix(p)` the dentry cache holds no key that has the prefix `p`, and
every key without that prefix keeps its node (value and expiration). `Rename` applies it to
the source and to the destination path after the proxy accepted the call, `RmDirTree` to its
path. -/
theorem C20_prefix_invalidation (mount : CfaMountInfo) (cache : DentryCache) (p : String) :
    (∀ k, strings.HasPrefix k p = true → (cache.RemovePrefix p).2.node k = none) ∧
    (∀ k, strings.HasPrefix k p = false → (cache.RemovePrefix p).2.node k = cache.node k) ∧
    (∀ src dst, mount.checkMount src MountModeWrite = none →
      (mount.cacheState.proxyClient.call (ProxyCall.Rename src dst)).1.err = none →
      (mount.cacheState.proxyClient.call (ProxyCall.Rename src dst)).1.Code = 0 →
      (mount.Rename src dst).1 = none ∧
      (mount.Rename src dst).2.dentryCache =
        ((mount.dentryCache.RemovePrefix src).2.RemovePrefix dst).2) ∧
    (∀ path, mount.checkMount path MountModeDel = none →
      (mount.cacheState.proxyClient.call (ProxyCall.RmDirTree path)).1.err = none →
      (mount.cacheState.proxyClient.call (ProxyCall.RmDirTree path)).1.Code = 0 →
      (mount.RmDirTree path).1 = none ∧
      (mount.RmDirTree path).2.dentryCache = (mount.dentryCache.RemovePrefix path).2) := by
  refine ⟨?_, ?_, ?_, ?_⟩
  · intro k hk
    rw [DentryCache.RemovePrefix_eq]
    unfold DentryCache.node
    cases h : cache.dentryCache with
    | none => rfl
    | some lru =>
      simp only [Option.map_some']
      unfold LRUCache.cacheMap
      rw [List.find?_eq_none]
      intro n hn
      rw [List.mem_filter] at hn
      intro hkey
      simp only [decide_eq_true_eq] at hkey
      rw [hkey, hk] at hn
      exact absurd hn.2 (by simp)
  · intro k hk
    rw [DentryCache.RemovePrefix_eq]
    unfold DentryCache.node
    cases h : cache.dentryCache with
    | none => rfl
    | some lru =>
      simp only [Option.map_some']
      unfold LRUCache.cacheMap
      apply find?_filter_of_imp
      intro n hn
      simp only [decide_eq_true_eq] at hn
      rw [hn, hk]
      rfl
  · intro src dst hc he hcode
    unfold CfaMountInfo.Rename
    simp only [hc, he, hcode, ne_eq, not_true_eq_false, if_false]
    exact ⟨trivial, trivial⟩
  · intro path hc he hcode
    unfold CfaMountInfo.RmDirTree
    simp only [hc, he, hcode, ne_eq, not_true_eq_false, or_self, if_false]
    exact ⟨trivial, trivial⟩

/-- Witness of C20 on a cache that holds `/a/b`, `/ab` and `/c`: removing the prefix `/a`
leaves `/c` alone. -/
theorem C20_prefix_invalidation_witness :
    ((DentryCache.mk (some (LRUCache.mk 4 [CacheNode.mk "/a/b" (sampleDentry "b") 0,
        CacheNode.mk "/ab" (sampleDentry "ab") 0, CacheNode.mk "/c" (sampleDentry "c") 0]))
        500).RemovePrefix "/a").2.node "/ab" = none ∧
      ((DentryCache.mk (some (LRUCache.mk 4 [CacheNode.mk "/a/b" (sampleDentry "b") 0,
        CacheNode.mk "/ab" (sampleDentry "ab") 0, CacheNode.mk "/c" (sampleDentry "c") 0]))
        500).RemovePrefix "/a").2.node "/c" = some (CacheNode.mk "/c" (sampleDentry "c") 0) :=
  have h := C20_prefix_invalidation sampleMount
    (DentryCache.mk (some (LRUCache.mk 4 [CacheNode.mk "/a/b" (sampleDentry "b") 0,
      CacheNode.mk "/ab" (sampleDentry "ab") 0, CacheNode.mk "/c" (sampleDentry "c") 0])) 500)
    "/a"
  ⟨h.1 "/ab" (by decide), (h.2.1 "/c" (by decide)).trans (by decide)⟩

/-! ## `mount.go`: `toErr` and `checkMount` -/

/-- C16: `toErr(nil, code)` is nil for code 0, the errno listed for the codes 1001 to 1007 and
`EIO` for every other code; `toErr(err, code)` is nil exactly when `err` is nil and `code` is
0; and when the unwrap chain of `err` holds an `Errno`, `toErr` returns the first one. -/
theorem C16_toErr_mapping (err : Option GoError) (code : Int) :
    toErr none 0 = none ∧
    toErr none 1001 = some (GoError.errno E_POSIX_EAGAIN) ∧
    toErr none 1002 = some (GoError.errno E_POSIX_EEXIST) ∧
    toErr none 1003 = some (GoError.errno E_POSIX_ENOENT) ∧
    toErr none 1004 = some (GoError.errno E_POSIX_ENOTSUP) ∧
    toErr none 1005 = some (GoError.errno E_POSIX_EIO) ∧
    toErr none 1006 = some (GoError.errno E_POSIX_ENOTEMPTY) ∧
    toErr none 1007 = some (GoError.errno E_POSIX_EPERM) ∧
    (code ≠ 0 → (code < 1001 ∨ 1007 < code) →
      toErr none code = some (GoError.errno E_POSIX_EIO)) ∧
    (toErr err code = none ↔ err = none ∧ code = 0) ∧
    (∀ e n, err = some e → e.firstErrno = some n →
      toErr err code = some (GoError.errno n)) := by
  refine ⟨rfl, rfl, rfl, rfl, rfl, rfl, rfl, rfl, ?_, ?_, ?_⟩
  · intro h0 hr
    have h1 : code ≠ 1001 := by omega
    have h2 : code ≠ 1002 := by omega
    have h3 : code ≠ 1003 := by omega
    have h4 : code ≠ 1004 := by omega
    have h5 : code ≠ 1005 := by omega
    have h6 : code ≠ 1006 := by omega
    have h7 : code ≠ 1007 := by omega
    simp [toErr, TryToErrno, h0, h1, h2, h3, h4, h5, h6, h7]
  · cases err with
    | none =>
      simp only [toErr, TryToErrno, true_and]
      constructor
      · intro h
        by_contra h0
        simp only [h0, if_false] at h
        repeat' split at h
        all_goals simp at h
      · intro h; simp [h]
    | some e =>
      simp only [toErr, TryToErrno, false_and, iff_false]
      cases hf : e.firstErrno with
      | some n => simp
      | none =>
        cases e with
        | errno x => simp [GoError.firstErrno] at hf
        | other msg =>
          repeat' split
          all_goals simp_all
        | wrap msg inner =>
          repeat' split
          all_goals simp_all
  · intro e n he hn
    subst he
    simp [toErr, TryToErrno, hn]

/-- Witness of C16: a wrapped `Errno` 5 wins over the code 1003. -/
theorem C16_toErr_mapping_witness :
    toErr (some (GoError.wrap "read" (GoError.errno 5))) 1003 = some (GoError.errno 5) :=
  (C16_toErr_mapping (some (GoError.wrap "read" (GoError.errno 5))) 1003).2.2.2.2.2.2.2.2.2.2
    (GoError.wrap "read" (GoError.errno 5)) 5 rfl rfl

theorem and_eq_self_iff_bits (perm mode : Nat) :
    perm &&& mode = perm ↔ ∀ i, perm.testBit i = true → mode.testBit i = true := by
  constructor
  · intro h i hi
    rw [← h, Nat.testBit_and] at hi
    simp only [Bool.and_eq_true] at hi
    exact hi.2
  · intro h
    apply Nat.eq_of_testBit_eq
    intro i
    rw [Nat.testBit_and]
    cases hp : perm.testBit i with
    | false => rfl
    | true => simp [h i hp]

theorem path_root_iff (path : String) (h : path.data.head? = some '/') :
    path = "/" ↔ ¬(path.data.length > 1) := by
  obtain ⟨l⟩ := path
  cases l with
  | nil => simp at h
  | cons a l =>
    simp only [List.head?_cons, Option.some.injEq] at h
    subst h
    cases l with
    | nil => simp
    | cons b l =>
      simp only [List.length_cons, gt_iff_lt, Nat.lt_add_left_iff_pos, Nat.zero_lt_succ,
        not_true_eq_false, iff_false]
      intro hh
      have := congrArg String.data hh
      simp at this

theorem CfaMountInfo.checkMount_none_iff (mount : CfaMountInfo) (path : String) (perm : Nat) :
    mount.checkMount path perm = none ↔
      mount.MountStu = MountStuMounted ∧ ¬(perm = 0 ∨ (perm &&& mount.MountMode) ≠ perm) ∧
      ¬(path.data.length = 0 ∨ path.data.head? ≠ some '/' ∨
        (path.data.getLast? = some '/' ∧ path.data.length > 1)) ∧
      strings.HasPrefix path mount.Path = true := by
  unfold CfaMountInfo.checkMount
  by_cases h1 : mount.MountStu ≠ MountStuMounted
  · rw [if_pos h1]
    exact ⟨fun h => (by cases h), fun h => absurd h.1 h1⟩
  · rw [if_neg h1]
    by_cases h2 : perm = 0 ∨ (perm &&& mount.MountMode) ≠ perm
    · rw [if_pos h2]
      exact ⟨fun h => (by cases h), fun h => absurd h2 h.2.1⟩
    · rw [if_neg h2]
      by_cases h3 : path.data.length = 0 ∨ path.data.head? ≠ some '/' ∨
          (path.data.getLast? = some '/' ∧ path.data.length > 1)
      · rw [if_pos h3]
        exact ⟨fun h => (by cases h), fun h => absurd h3 h.2.2.1⟩
      · rw [if_neg h3]
        by_cases h4 : ¬strings.HasPrefix path mount.Path = true
        · rw [if_pos h4]
          exact ⟨fun h => (by cases h), fun h => absurd h.2.2.2 h4⟩
        · rw [if_neg h4]
          exact ⟨fun _ => ⟨not_not.mp h1, h2, h3, not_not.mp h4⟩, fun _ => rfl⟩

/-- The tests of `checkMount`: it returns nil exactly when the status is Mounted, the
permission mask is not zero and each of its bits is in the mount mode, the path is not empty,
starts with `'/'`, does not end with `'/'` unless it is `"/"`, and passes
`strings.HasPrefix(path, mount.Path)`; it returns `EPERM` when the status is not Mounted. -/
theorem CfaMountInfo.checkMount_predicate (mount : CfaMountInfo) (path : String) (perm : Nat) :
    (mount.checkMount path perm = none ↔
      mount.MountStu = MountStuMounted ∧
      perm ≠ 0 ∧ (∀ i, perm.testBit i = true → mount.MountMode.testBit i = true) ∧
      path ≠ "" ∧ path.data.head? = some '/' ∧
      (path.data.getLast? = some '/' → path = "/") ∧
      strings.HasPrefix path mount.Path = true) ∧
    (mount.MountStu ≠ MountStuMounted →
      mount.checkMount path perm = some (GoError.errno E_POSIX_EPERM)) := by
  constructor
  · rw [CfaMountInfo.checkMount_none_iff, ← and_eq_self_iff_bits]
    constructor
    · rintro ⟨hs, hp, hpath, hpre⟩
      have hh : path.data.head? = some '/' := by
        by_contra h; exact hpath (Or.inr (Or.inl h))
      refine ⟨hs, fun h => hp (Or.inl h), by by_contra h; exact hp (Or.inr h), ?_, hh, ?_, hpre⟩
      · intro h; rw [h] at hh; simp at hh
      · intro hl
        rw [path_root_iff path hh]
        intro hlen
        exact hpath (Or.inr (Or.inr ⟨hl, hlen⟩))
    · rintro ⟨hs, hp0, hp, hne, hh, hl, hpre⟩
      refine ⟨hs, ?_, ?_, hpre⟩
      · rintro (h | h)
        · exact hp0 h
        · exact h hp
      · rintro (h | h | h)
        · rw [List.length_eq_zero] at h
          rw [h] at hh; simp at hh
        · exact h hh
        · exact (path_root_iff path hh).mp (hl h.1) h.2
  · intro hs
    unfold CfaMountInfo.checkMount
    rw [if_pos hs]

/-- C15, the claim as written fails: for the empty permission mask every listed condition
holds (no bit is requested, and the path `/a` lies under the root path `/`), and
`checkMount` returns `EPERM`. -/
theorem C15_checkMount_rejects_empty_mask :
    sampleMount.checkMount "/a" 0 = some (GoError.errno E_POSIX_EPERM) ∧
      sampleMount.MountStu = MountStuMounted ∧
      (∀ i, (0 : Nat).testBit i = true → sampleMount.MountMode.testBit i = true) ∧
      "/a" ≠ "" ∧ "/a".data.head? = some '/' ∧ "/a".data.getLast? ≠ some '/' ∧
      pathUnder sampleMount.Path "/a" = true :=
  ⟨by decide, by decide, by intro i h; simp at h, by decide, by decide, by decide, by decide⟩

theorem isPrefixOf_append_left (a b l : List Char) (h : (a ++ b).isPrefixOf l = true) :
    a.isPrefixOf l = true := by
  rw [List.isPrefixOf_iff_prefix] at h ⊢
  exact (List.prefix_append a b).trans h

/-- A path under the root path has the root path as a string prefix. -/
theorem pathUnder_HasPrefix (root path : String) (h : pathUnder root path = true) :
    strings.HasPrefix path root = true := by
  simp only [pathUnder, Bool.or_eq_true, Bool.and_eq_true, decide_eq_true_eq] at h
  unfold strings.HasPrefix
  rcases h with (h | h) | h
  · rw [h, List.isPrefixOf_iff_prefix]
  · exact isPrefixOf_append_left _ _ _ h
  · exact h.2

/-- The string prefix test of `checkMount` is wider than "under the root path": for the
root path `/a` the path `/ab`, which does not lie under it, passes. -/
theorem CfaMountInfo.checkMount_passes_name_continuation :
    sampleMountA.checkMount "/ab" MountModeRead = none ∧
      pathUnder sampleMountA.Path "/ab" = false ∧
      continuesRootName sampleMountA.Path "/ab" = true :=
  ⟨by decide, by decide, by decide⟩

/-- C15 (amended): for every mount state, permission mask and path that does not merely
continue the last name of the root path, `checkMount` returns nil exactly when the status
is Mounted, the permission mask is not zero and each of its bits is in the mount mode, the
path is not empty, starts with `'/'`, does not end with `'/'` unless it is `"/"`, and lies
under the configured root path; it returns `EPERM` when the status is not Mounted. -/
theorem C15_checkMount_under_root (mount : CfaMountInfo) (path : String) (perm : Nat)
    (hpath : continuesRootName mount.Path path = false) :
    (mount.checkMount path perm = none ↔
      mount.MountStu = MountStuMounted ∧
      perm ≠ 0 ∧ (∀ i, perm.testBit i = true → mount.MountMode.testBit i = true) ∧
      path ≠ "" ∧ path.data.head? = some '/' ∧
      (path.data.getLast? = some '/' → path = "/") ∧
      pathUnder mount.Path path = true) ∧
    (mount.MountStu ≠ MountStuMounted →
      mount.checkMount path perm = some (GoError.errno E_POSIX_EPERM)) := by
  have hiff : strings.HasPrefix path mount.Path = true ↔ pathUnder mount.Path path = true := by
    constructor
    · intro h
      simp only [continuesRootName, h, Bool.true_and, Bool.not_eq_false'] at hpath
      simpa using hpath
    · exact pathUnder_HasPrefix _ _
  have h := CfaMountInfo.checkMount_predicate mount path perm
  rw [hiff] at h
  exact h

/-- Witness of C15: under the root path `/a` the path `/a/b` passes with the read
permission. -/
theorem C15_checkMount_under_root_witness :
    continuesRootName sampleMountA.Path "/a/b" = false ∧
      sampleMountA.checkMount "/a/b" MountModeRead = none :=
  ⟨by decide,
    (C15_checkMount_under_root sampleMountA "/a/b" MountModeRead (by decide)).1.mpr
      ⟨by decide, by decide, (and_eq_self_iff_bits _ _).mp (by decide), by decide, by decide,
        by decide, by decide⟩⟩

/-! ## `WCache.StatSize` -/

theorem upperFold_spec : ∀ (l : List Nat) (a : Nat),
    a ≤ l.foldl (fun TailIndex Index => if TailIndex < Index then Index else TailIndex) a ∧
    (∀ k ∈ l, k ≤ l.foldl (fun TailIndex Index => if TailIndex < Index then Index
      else TailIndex) a) ∧
    (l.foldl (fun TailIndex Index => if TailIndex < Index then Index else TailIndex) a = a ∨
      l.foldl (fun TailIndex Index => if TailIndex < Index then Index else TailIndex) a ∈ l) := by
  intro l
  induction l with
  | nil => intro a; simp
  | cons x l ih =>
    intro a
    simp only [List.foldl_cons]
    obtain ⟨h1, h2, h3⟩ := ih (if a < x then x else a)
    by_cases hax : a < x
    · simp only [hax, if_true] at h1 h2 h3 ⊢
      refine ⟨by omega, ?_, ?_⟩
      · intro k hk
        rcases List.mem_cons.mp hk with hk | hk
        · subst hk; exact h1
        · exact h2 k hk
      · right
        rcases h3 with h3 | h3
        · rw [h3]; simp
        · exact List.mem_cons_of_mem _ h3
    · simp only [hax, if_false] at h1 h2 h3 ⊢
      refine ⟨h1, ?_, ?_⟩
      · intro k hk
        rcases List.mem_cons.mp hk with hk | hk
        · subst hk; omega
        · exact h2 k hk
      · rcases h3 with h3 | h3
        · left; exact h3
        · right; exact List.mem_cons_of_mem _ h3

theorem FileBuffer.UpperIdx_spec (fb : FileBuffer) (h : fb.BufferMap.len ≠ 0) :
    fb.UpperIdx ∈ fb.BufferMap.keys ∧ ∀ k ∈ fb.BufferMap.keys, k ≤ fb.UpperIdx := by
  unfold FileBuffer.UpperIdx
  obtain ⟨_, h2, h3⟩ := upperFold_spec fb.BufferMap.keys 0
  refine ⟨?_, h2⟩
  rcases h3 with h3 | h3
  · rw [h3]
    have hne : fb.BufferMap.keys ≠ [] := by
      intro hnil
      apply h
      simp only [GoMap.keys, List.map_eq_nil_iff] at hnil
      simp [GoMap.len, hnil]
    obtain ⟨x, hx⟩ := List.exists_mem_of_ne_nil _ hne
    have := h2 x hx
    rw [h3] at this
    have hx0 : x = 0 := by omega
    rw [← hx0]
    exact hx
  · exact h3

theorem WCache.StatSize_run (fe : FileEntry) (s : CacheState) (fb : FileBuffer) (buf : Buffer)
    (fe1 : FileEntry) (hget : s.wCache.Cache.get fe.Id = some fb) (hlen : fb.BufferMap.len ≠ 0)
    (hbuf : fb.BufferMap.get fb.UpperIdx = some buf) (hfe : buf.fe = some fe1)
    (hlock : fb.LockMap.get fb.UpperIdx = none) :
    WCache.StatSize fe s =
      .ok ((buf.BlkIdx * fe1.BlockSize + buf.Offset + buf.Len, none), s) := by
  have h1 : (s.wCache.toBlockCache.GetFileBuffer fe false).1 = some fb := by
    simp [BlockCache.GetFileBuffer, hget]
  have hz : fb.IsZeroCache = false := by simp [FileBuffer.IsZeroCache, hlen]
  have hl := BlockCache.LockBuffer_ok s.wCache.toBlockCache hget hlock
  have hg1 : (s.wCache.Cache.set fe.Id (FileBuffer.mk fb.fe fb.BufferMap
      (fb.LockMap.set fb.UpperIdx (CacheLock.mk WriteLock 0)) fb.pw)).get fe.Id =
      some (FileBuffer.mk fb.fe fb.BufferMap
        (fb.LockMap.set fb.UpperIdx (CacheLock.mk WriteLock 0)) fb.pw) := GoMap.get_set_self _ _ _
  have hu := BlockCache.UnLockBuffer_ok
    (BlockCache.mk s.wCache.BufferMax s.wCache.FreeList
      (s.wCache.Cache.set fe.Id (FileBuffer.mk fb.fe fb.BufferMap
        (fb.LockMap.set fb.UpperIdx (CacheLock.mk WriteLock 0)) fb.pw))
      s.wCache.LruList s.wCache.ExpireTime s.wCache.Stop) hg1 (GoMap.get_set_self _ _ _)
  unfold WCache.StatSize
  simp only [h1, hz, Bool.false_eq_true, if_false]
  rw [CacheState.onW_ok hl]
  simp only [bind, Except.bind, CacheState.setW_core, BlockCache.GetBuffer, BlockCache.fileBuf,
    hg1, FileBuffer.GetBuffer, hbuf]
  rw [CacheState.onW_ok hu]
  simp only [Buffer.GetTailOffset, Buffer.GetAlignOffset, hfe, bind, Except.bind, pure,
    Except.pure, CacheState.setW_setW]
  simp only [GoMap.set_set, GoMap.del_set_of_get_none _ _ hlock]
  have hfb : FileBuffer.mk fb.fe fb.BufferMap fb.LockMap fb.pw = fb := rfl
  rw [hfb, GoMap.set_get_self _ hget]
  rfl

/-- C13: `StatSize` returns 0 when the file has no write-side file buffer or no attached
buffer; otherwise, in a write cache whose buffers are well attached and with the lock of the
highest block free, it returns `BlkIdx * BlockSize + Offset + Len` of the attached buffer with
the highest block index, which is the largest tail offset of the attached buffers of the
file, and leaves the cache as it was. -/
theorem C13_StatSize_value (fe : FileEntry) (s : CacheState) :
    (s.wCache.Cache.get fe.Id = none → WCache.StatSize fe s = .ok ((0, none), s)) ∧
    (∀ fb, s.wCache.Cache.get fe.Id = some fb → fb.BufferMap.len = 0 →
      WCache.StatSize fe s = .ok ((0, none), s)) ∧
    (∀ fb, s.wCache.Cache.get fe.Id = some fb → fb.BufferMap.len ≠ 0 →
      s.WriteSide fe.Id fe.BlockSize → fb.LockMap.get fb.UpperIdx = none →
      ∃ buf, fb.BufferMap.get fb.UpperIdx = some buf ∧
        (∀ k b, fb.BufferMap.get k = some b → b.BlkIdx ≤ buf.BlkIdx) ∧
        WCache.StatSize fe s =
          .ok ((buf.BlkIdx * fe.BlockSize + buf.Offset + buf.Len, none), s) ∧
        (∀ k b, fb.BufferMap.get k = some b →
          b.BlkIdx * fe.BlockSize + b.Offset + b.Len ≤
            buf.BlkIdx * fe.BlockSize + buf.Offset + buf.Len)) := by
  refine ⟨?_, ?_, ?_⟩
  · intro hget
    unfold WCache.StatSize
    simp [BlockCache.GetFileBuffer, hget]
  · intro fb hget hlen
    unfold WCache.StatSize
    simp [BlockCache.GetFileBuffer, hget, FileBuffer.IsZeroCache, hlen]
  · intro fb hget hlen hws hlock
    obtain ⟨hmem, hmax⟩ := fb.UpperIdx_spec hlen
    rw [GoMap.mem_keys_iff] at hmem
    obtain ⟨buf, hbuf⟩ := Option.isSome_iff_exists.mp hmem
    obtain ⟨⟨fe1, hfe1, _, hbs⟩, hidx, hin, _⟩ := hws fb fb.UpperIdx buf hget hbuf
    have hle : ∀ k b, fb.BufferMap.get k = some b → b.BlkIdx ≤ buf.BlkIdx := by
      intro k b hb
      have hk : k ∈ fb.BufferMap.keys := by
        rw [GoMap.mem_keys_iff, hb]; rfl
      have := hmax k hk
      have hbk := (hws fb k b hget hb).2.1
      omega
    refine ⟨buf, hbuf, hle, ?_, ?_⟩
    · rw [← hbs]
      exact WCache.StatSize_run fe s fb buf fe1 hget hlen hbuf hfe1 hlock
    · intro k b hb
      have h1 := hle k b hb
      have hbk := (hws fb k b hget hb).2.1
      have hbin := (hws fb k b hget hb).2.2.1
      by_cases heq : k = fb.UpperIdx
      · subst heq
        rw [hbuf] at hb
        injection hb with hb
        subst hb
        omega
      · have hk : k ∈ fb.BufferMap.keys := by
          rw [GoMap.mem_keys_iff, hb]; rfl
        have hlt : b.BlkIdx < buf.BlkIdx := by
          have := hmax k hk
          omega
        have : (b.BlkIdx + 1) * fe.BlockSize ≤ buf.BlkIdx * fe.BlockSize :=
          Nat.mul_le_mul_right _ hlt
        rw [Nat.add_mul] at this
        omega

theorem sampleDirty_writeSide : sampleDirty.WriteSide 7 4 := by
  intro fb k b hfb hb
  have hfb1 : fb = sampleFileBuffer := by
    have : sampleDirty.wCache.Cache.get 7 = some sampleFileBuffer := rfl
    rw [this] at hfb
    injection hfb with hfb
    exact hfb.symm
  subst hfb1
  by_cases hk : k = 0
  · subst hk
    have : sampleFileBuffer.BufferMap.get 0 = some sampleBuffer := rfl
    rw [this] at hb
    injection hb with hb
    subst hb
    exact ⟨⟨sampleEntry, rfl, rfl, rfl⟩, rfl, by decide, by decide⟩
  · have : sampleFileBuffer.BufferMap.get k = none := by
      simp only [sampleFileBuffer]
      rw [GoMap.get_set_ne _ _ hk]
      rfl
    rw [this] at hb
    cases hb

/-- Witness of C13 on `sampleDirty`: the dirty buffer of block 0 holds two bytes from offset
0, so the size is 2. -/
theorem C13_StatSize_value_witness :
    WCache.StatSize sampleEntry sampleDirty = .ok ((2, none), sampleDirty) := by
  obtain ⟨buf, hbuf, -, h, -⟩ := (C13_StatSize_value sampleEntry sampleDirty).2.2
    sampleFileBuffer rfl (by decide) sampleDirty_writeSide rfl
  have hb : sampleFileBuffer.BufferMap.get sampleFileBuffer.UpperIdx = some sampleBuffer := rfl
  rw [hb] at hbuf
  injection hbuf with hbuf
  subst hbuf
  exact h

/-! ## `file.go`: `Close` -/

theorem FileCache.GetFileEntry_valid {n : Nat} {fc : FileCache} (hinv : FileCache.Inv n fc)
    {handle : Nat} {e : FileEntry} (h : fc.fileEntryVec[handle]? = some (some e)) :
    fc.GetFileEntry handle = .ok (some e, none) := by
  have hl : handle < fc.fileEntryVec.length := by
    by_contra hc
    rw [List.getElem?_eq_none (by omega)] at h
    cases h
  have hlt : ¬ handle ≥ fc.fileEntryVecSize := by
    rw [hinv.size, ← hinv.len]; omega
  unfold FileCache.GetFileEntry
  rw [if_neg hlt, h]

theorem FileCache.IsLastRefer_valid {n : Nat} {fc : FileCache} (hinv : FileCache.Inv n fc)
    {handle : Nat} {e : FileEntry} (h : fc.fileEntryVec[handle]? = some (some e))
    (hd : e.DirectIO = false) :
    fc.IsLastRefer e = .ok (decide (fc.cachedHandles e.Id = 1)) := by
  have hpos := fc.cachedHandles_pos h hd
  have href := hinv.refs e.Id
  rw [if_neg (by omega)] at href
  unfold FileCache.IsLastRefer fileRefer.LastRef
  have h1 : (1 : Int) ≤ (fc.cachedHandles e.Id : Int) := by omega
  simp only [href, Option.isSome_some, Option.getD_some, ge_iff_le, h1, decide_True,
    Bool.and_self, Assert, bind, Except.bind, pure, Except.pure, if_true]
  congr 1
  simp only [decide_eq_decide]
  omega

theorem FileCache.refs_after_CloseFile {n : Nat} {fc fc1 : FileCache}
    (hinv : FileCache.Inv n fc) (hinv1 : FileCache.Inv n fc1) {handle : Nat} {e : FileEntry}
    (h : fc.fileEntryVec[handle]? = some (some e)) (hd : e.DirectIO = false)
    (hvec : fc1.fileEntryVec = fc.fileEntryVec.set handle none) :
    (fc1.fileRefer.get e.Id).getD 0 = (fc.fileRefer.get e.Id).getD 0 - 1 := by
  have hl : handle < fc.fileEntryVec.length := by
    by_contra hc
    rw [List.getElem?_eq_none (by omega)] at h
    cases h
  have hget : fc.fileEntryVec[handle] = some e := by
    rw [List.getElem?_eq_getElem hl] at h
    simpa using h
  have hpos := fc.cachedHandles_pos h hd
  have hcount : fc1.cachedHandles e.Id = fc.cachedHandles e.Id - 1 := by
    have := fc.cachedHandles_set hl none e.Id
    simp only [hget, FileCache.isCachedHandle, hd, decide_True, Bool.not_false, Bool.and_self,
      if_true, Bool.false_eq_true, if_false, Nat.add_zero] at this
    rw [← this]
    simp only [FileCache.cachedHandles, hvec]
  have r := hinv.refs e.Id
  rw [if_neg (by omega)] at r
  have r1 := hinv1.refs e.Id
  rw [hcount] at r1
  rw [r, r1]
  by_cases h1 : fc.cachedHandles e.Id - 1 = 0
  · rw [if_pos h1]
    simp only [Option.getD_none, Option.getD_some]
    omega
  · rw [if_neg h1]
    simp only [Option.getD_some]
    omega

/-- C11: on a handle table reachable from `NewFileCache n`, for an open handle `fd` of file
`e.Id` that is not direct-IO, with the rw-cache enabled, `Close(fd)` calls `RWCache.Close`
when `fd` is the only open non-direct handle of the file and `RWCache.Flush` otherwise: a
fault of that call is the fault of `Close`, an error makes `Close` return `EBADF` with the
handle table untouched, and after a success the slot is released and the reference count of
the file is one less. A direct-IO handle is closed with the caches, the proxy log and the
reference map unchanged. -/
theorem C11_Close_routing (n : Nat) (hn : n < U32) (mount : CfaMountInfo) (fd : Nat)
    (e : FileEntry) (hreach : FileCache.Reachable n mount.fileCache)
    (hslot : mount.fileCache.fileEntryVec[fd]? = some (some e)) :
    (e.DirectIO = false → mount.rwCacheOn = true →
      (∀ f, (if mount.fileCache.cachedHandles e.Id = 1 then RWCache.Close e mount.cacheState
          else RWCache.Flush e mount.cacheState) = .error f → mount.Close fd = .error f) ∧
      (∀ err s1, (if mount.fileCache.cachedHandles e.Id = 1 then RWCache.Close e mount.cacheState
          else RWCache.Flush e mount.cacheState) = .ok (some err, s1) →
        mount.Close fd = .ok (some (GoError.errno E_POSIX_EBADF),
          CfaMountInfo.mk mount.Path mount.MountStu mount.MountMode mount.fileCache
            mount.dentryCache mount.rwCacheOn s1)) ∧
      (∀ s1, (if mount.fileCache.cachedHandles e.Id = 1 then RWCache.Close e mount.cacheState
          else RWCache.Flush e mount.cacheState) = .ok (none, s1) →
        ∃ fc1, mount.Close fd = .ok (none,
            CfaMountInfo.mk mount.Path mount.MountStu mount.MountMode fc1
              mount.dentryCache mount.rwCacheOn s1) ∧
          fc1.fileEntryVec = mount.fileCache.fileEntryVec.set fd none ∧
          (fc1.fileRefer.get e.Id).getD 0 = (mount.fileCache.fileRefer.get e.Id).getD 0 - 1)) ∧
    (e.DirectIO = true →
      ∃ fc1, mount.Close fd = .ok (none,
          CfaMountInfo.mk mount.Path mount.MountStu mount.MountMode fc1
            mount.dentryCache mount.rwCacheOn mount.cacheState) ∧
        fc1.fileEntryVec = mount.fileCache.fileEntryVec.set fd none ∧
        fc1.fileRefer = mount.fileCache.fileRefer) := by
  have hinv := FileCache.Inv_of_Reachable hn hreach
  have hg := FileCache.GetFileEntry_valid hinv hslot
  obtain ⟨fc1, hclose, hvec, -, href, hinv1⟩ := FileCache.CloseFile_valid hinv hslot
  constructor
  · intro hd hrw
    have hlast := FileCache.IsLastRefer_valid hinv hslot hd
    have hroute : (do
        let last ← mount.fileCache.IsLastRefer e
        if last then RWCache.Close e mount.cacheState
        else RWCache.Flush e mount.cacheState) =
        (if mount.fileCache.cachedHandles e.Id = 1 then RWCache.Close e mount.cacheState
          else RWCache.Flush e mount.cacheState) := by
      rw [hlast]
      simp only [bind, Except.bind, decide_eq_true_eq]
    have huse : mount.UseRWCache e = true := by
      simp [CfaMountInfo.UseRWCache, hd, hrw]
    unfold CfaMountInfo.Close
    simp only [hg, bind, Except.bind, huse, if_true] at hroute ⊢
    rw [hroute]
    refine ⟨?_, ?_, ?_⟩
    · intro f hf
      rw [hf]
    · intro err s1 hf
      rw [hf]
      rfl
    · intro s1 hf
      rw [hf]
      refine ⟨fc1, ?_, hvec, FileCache.refs_after_CloseFile hinv hinv1 hslot hd hvec⟩
      simp only [ne_eq, not_true_eq_false, if_false, hclose, pure, Except.pure]
  · intro hd
    have huse : mount.UseRWCache e = false := by
      simp [CfaMountInfo.UseRWCache, hd]
    refine ⟨fc1, ?_, hvec, href hd⟩
    unfold CfaMountInfo.Close
    simp only [hg, bind, Except.bind, huse, Bool.false_eq_true, if_false, ne_eq,
      not_true_eq_false, hclose, pure, Except.pure]

/-- Witness of C11: descriptor 0 of `sampleStoreMount` is the only handle of file 7; `Close(0)`
runs `RWCache.Close`, empties the slot and drops the reference count from 1 to 0. -/
theorem C11_Close_routing_witness :
    ∃ fc1 s1, RWCache.Close (FileCache.storedEntry 0 sampleEntry) sampleDirty = .ok (none, s1) ∧
      sampleStoreMount.Close 0 = .ok (none,
        CfaMountInfo.mk "/" MountStuMounted 7 fc1 (NewDentryCache 0 500) true s1) ∧
      fc1.fileEntryVec = [none, none] ∧ (fc1.fileRefer.get 7).getD 0 = 0 := by
  obtain ⟨s1, hs1⟩ : ∃ s1, RWCache.Close (FileCache.storedEntry 0 sampleEntry) sampleDirty =
      .ok (none, s1) := ⟨_, rfl⟩
  obtain ⟨fc1, h1, h2, h3⟩ := ((C11_Close_routing 2 (by decide) sampleStoreMount 0
    (FileCache.storedEntry 0 sampleEntry) sampleTable_reachable rfl).1 rfl rfl).2.2 s1 hs1
  exact ⟨fc1, s1, hs1, h1, h2, h3⟩

/-! ## `file.go`: `Read` and `Write` -/

theorem Nat.or_eq_zero_iff_both (a b : Nat) : a ||| b = 0 ↔ a = 0 ∧ b = 0 := by
  constructor
  · intro h
    have ht : ∀ i, (a ||| b).testBit i = false := by rw [h]; simp
    simp only [Nat.testBit_or, Bool.or_eq_false_iff] at ht
    exact ⟨Nat.eq_of_testBit_eq (fun i => by simp [(ht i).1]),
      Nat.eq_of_testBit_eq (fun i => by simp [(ht i).2])⟩
  · rintro ⟨rfl, rfl⟩
    rfl

/-- C14 as the code has it: for a valid handle and a buffer of at most 512 MiB, `Read` on a
handle whose flags contain `O_WRONLY` and `Write` on a handle whose flags contain neither
`O_RDWR` nor `O_WRONLY` return `EPERM` and leave the mount (caches, proxy log, dentry cache)
as it was. Every other `Read` or `Write` is passed to the rw-cache or to the proxy, and its
result, `EPERM` included, is the result of that call. -/
theorem C14_open_flag_direction (n : Nat) (hn : n < U32) (mount : CfaMountInfo) (fd : Nat)
    (e : FileEntry) (buffer : List Byte) (offset : Nat)
    (hreach : FileCache.Reachable n mount.fileCache)
    (hslot : mount.fileCache.fileEntryVec[fd]? = some (some e))
    (hsize : buffer.length ≤ 512 * 1024 * 1024) :
    (e.OpenFlag &&& O_WRONLY = O_WRONLY →
      mount.Read fd buffer offset =
        .ok ((0, some (GoError.errno E_POSIX_EPERM), buffer), mount)) ∧
    (e.OpenFlag &&& O_WRONLY ≠ O_WRONLY →
      (mount.UseRWCache e = true →
        (∀ f, RWCache.Read e buffer offset mount.cacheState = .error f →
          mount.Read fd buffer offset = .error f) ∧
        (∀ r s1, RWCache.Read e buffer offset mount.cacheState = .ok (r, s1) →
          mount.Read fd buffer offset = .ok ((r.1, errnoOf r.2.1, r.2.2),
            CfaMountInfo.mk mount.Path mount.MountStu mount.MountMode mount.fileCache
              mount.dentryCache mount.rwCacheOn s1))) ∧
      (mount.UseRWCache e = false →
        mount.Read fd buffer offset =
          .ok (((Reader.Read e.Id buffer offset mount.cacheState.proxyClient).1.1,
              errnoOf (Reader.Read e.Id buffer offset mount.cacheState.proxyClient).1.2.1,
              (Reader.Read e.Id buffer offset mount.cacheState.proxyClient).1.2.2),
            mount.setProxy (Reader.Read e.Id buffer offset mount.cacheState.proxyClient).2))) ∧
    (e.OpenFlag &&& O_RDWR = 0 ∧ e.OpenFlag &&& O_WRONLY = 0 →
      mount.Write fd buffer offset =
        .ok ((InvalidHandle, some (GoError.errno E_POSIX_EPERM)), mount)) ∧
    (¬(e.OpenFlag &&& O_RDWR = 0 ∧ e.OpenFlag &&& O_WRONLY = 0) →
      (mount.UseRWCache e = true →
        (∀ f, RWCache.Write e buffer offset mount.cacheState = .error f →
          mount.Write fd buffer offset = .error f) ∧
        (∀ r s1, RWCache.Write e buffer offset mount.cacheState = .ok (r, s1) →
          mount.Write fd buffer offset = .ok (((r.1 : Int), errnoOf r.2),
            CfaMountInfo.mk mount.Path mount.MountStu mount.MountMode mount.fileCache
              (mount.dentryCache.Remove e.FilePath).2 mount.rwCacheOn s1))) ∧
      (mount.UseRWCache e = false →
        mount.Write fd buffer offset =
          .ok ((((Writer.Write e.Id buffer offset mount.cacheState.proxyClient).1.1 : Int),
              errnoOf (Writer.Write e.Id buffer offset mount.cacheState.proxyClient).1.2),
            CfaMountInfo.mk mount.Path mount.MountStu mount.MountMode mount.fileCache
              (mount.dentryCache.Remove e.FilePath).2 mount.rwCacheOn
              (mount.setProxy
                (Writer.Write e.Id buffer offset mount.cacheState.proxyClient).2).cacheState))) := by
  have hinv := FileCache.Inv_of_Reachable hn hreach
  have hg := FileCache.GetFileEntry_valid hinv hslot
  have hsz : ¬(buffer.length > 512 * 1024 * 1024) := by omega
  have hor : e.OpenFlag &&& (O_RDWR ||| O_WRONLY) = 0 ↔
      e.OpenFlag &&& O_RDWR = 0 ∧ e.OpenFlag &&& O_WRONLY = 0 := by
    rw [Nat.and_or_distrib_left, Nat.or_eq_zero_iff_both]
  refine ⟨?_, ?_, ?_, ?_⟩
  · intro hflag
    unfold CfaMountInfo.Read
    simp only [hsz, if_false, hg, bind, Except.bind, hflag, if_true, pure, Except.pure]
  · intro hflag
    constructor
    · intro huse
      constructor
      · intro f hf
        unfold CfaMountInfo.Read
        simp only [hsz, if_false, hg, bind, Except.bind, hflag, huse, if_true, hf]
      · intro r s1 hr
        unfold CfaMountInfo.Read
        simp only [hsz, if_false, hg, bind, Except.bind, hflag, huse, if_true, hr, pure,
          Except.pure, errnoOf]
    · intro huse
      unfold CfaMountInfo.Read
      simp only [hsz, if_false, hg, bind, Except.bind, hflag, huse, Bool.false_eq_true, pure,
        Except.pure, errnoOf, CfaMountInfo.setProxy]
  · intro hflag
    unfold CfaMountInfo.Write
    simp only [hsz, if_false, hg, bind, Except.bind, hor.mpr hflag, if_true, pure, Except.pure]
  · intro hflag
    have hflag1 : ¬(e.OpenFlag &&& (O_RDWR ||| O_WRONLY) = 0) := fun h => hflag (hor.mp h)
    constructor
    · intro huse
      constructor
      · intro f hf
        unfold CfaMountInfo.Write
        simp only [hsz, if_false, hg, bind, Except.bind, hflag1, huse, if_true, hf]
      · intro r s1 hr
        unfold CfaMountInfo.Write
        simp only [hsz, if_false, hg, bind, Except.bind, hflag1, huse, if_true, hr, pure,
          Except.pure, errnoOf]
    · intro huse
      unfold CfaMountInfo.Write
      simp only [hsz, if_false, hg, bind, Except.bind, hflag1, huse, Bool.false_eq_true, pure,
        Except.pure, errnoOf, CfaMountInfo.setProxy]

theorem sampleReadOnlyTable_reachable : FileCache.Reachable 2 sampleReadOnlyTable :=
  FileCache.Reachable.newFile FileCache.Reachable.init
    (show (NewFileCache 2).NewFile (-1) { sampleEntry with OpenFlag := 0 } =
      .ok (none, 0, sampleReadOnlyTable) from rfl)

/-- Counterexample to C14 as stated: the proxy answers with code 1007, which `toErr` maps to
`EPERM`. A `Read` on a handle opened with `O_RDONLY` and a `Write` on a handle opened with
`O_RDWR` are passed to the proxy and fail with `EPERM`. -/
theorem C14_proxy_code_1007_gives_EPERM :
    (FileCache.storedEntry 0 { sampleEntry with OpenFlag := 0 }).OpenFlag &&& O_WRONLY
      ≠ O_WRONLY ∧
    ((samplePermMount sampleReadOnlyTable).Read 0 [0] 0).map Prod.fst =
      .ok (0, some (GoError.errno E_POSIX_EPERM), [0]) ∧
    ((samplePermMount sampleReadOnlyTable).Read 0 [0] 0).map
      (fun r => r.2.cacheState.proxyClient.calls) = .ok [ProxyCall.Read 7 0 1] ∧
    (FileCache.storedEntry 0 sampleEntry).OpenFlag &&& O_RDWR = O_RDWR ∧
    ((samplePermMount sampleTable).Write 0 [1] 0).map Prod.fst =
      .ok (0, some (GoError.errno E_POSIX_EPERM)) ∧
    ((samplePermMount sampleTable).Write 0 [1] 0).map
      (fun r => r.2.cacheState.proxyClient.calls) = .ok [ProxyCall.Write 7 [1] 0] :=
  ⟨by decide, rfl, rfl, by decide, rfl, rfl⟩

/-- Witness of C14: a `Write` on the handle opened with `O_RDONLY` is rejected and the mount
stays as it is; a `Read` on it goes to the proxy. -/
theorem C14_open_flag_direction_witness :
    (samplePermMount sampleReadOnlyTable).Write 0 [1] 0 =
      .ok ((InvalidHandle, some (GoError.errno E_POSIX_EPERM)),
        samplePermMount sampleReadOnlyTable) :=
  (C14_open_flag_direction 2 (by decide) (samplePermMount sampleReadOnlyTable) 0
    (FileCache.storedEntry 0 { sampleEntry with OpenFlag := 0 }) [1] 0
    sampleReadOnlyTable_reachable rfl (by decide)).2.2.1 ⟨by decide, by decide⟩

/-! ## `stat.go`: `Stat` -/

theorem DentryCache.Get_miss (cache : DentryCache) (k : String) (now : Int)
    (h : (cache.Get k now).1.2.1 = false) : (cache.Get k now).2 = cache := by
  unfold DentryCache.Get at h ⊢
  cases hc : cache.dentryCache with
  | none => rfl
  | some lru =>
    simp only [hc] at h ⊢
    cases hm : lru.cacheMap k with
    | none =>
      rw [LRUCache.Get_absent hm]
      simp only
      rw [← hc]
    | some n =>
      by_cases hlive : n.Expiration = 0 ∨ now < n.Expiration
      · rw [LRUCache.Get_hit hm now hlive] at h
        simp at h
      · rw [LRUCache.Get_expired hm now hlive]
        simp only
        rw [← hc]

theorem LRUCache.cacheMap_SetExpire_room {κ ν : Type} [DecidableEq κ] (lru : LRUCache κ ν)
    (k : κ) (v : ν) (d now : Int) (hcap : 1 ≤ lru.Capacity) :
    (lru.SetExpire k v d now).2.cacheMap k =
      some (CacheNode.mk k v (if d ≤ 0 then 0 else toInt64 (now + d))) := by
  cases hc : lru.cacheMap k with
  | some n =>
    rw [LRUCache.SetExpire_present hc]
    simp [LRUCache.cacheMap]
  | none =>
    rw [LRUCache.SetExpire_absent hc]
    unfold LRUCache.cacheMap
    split
    · cases hl : lru.dlist with
      | nil =>
        rename_i hfull
        rw [hl] at hfull
        simp only [List.length_nil, Nat.cast_zero, zero_add, gt_iff_lt] at hfull
        omega
      | cons a l =>
        rw [List.dropLast_cons_of_ne_nil (by simp)]
        simp
    · simp

/-- C12: for a path that passes `checkMount` and misses the dentry cache, with the rw-cache
enabled, when the proxy reports a regular file with the attributes `info` and `StatSize`
returns `S` without error, `Stat` returns a dentry of that file whose size is the maximum of
the proxy size and `S`, and hands this dentry to `dentryCache.Set`; a dentry cache with room
for an entry then holds it under the path. -/
theorem C12_Stat_size_override (mount : CfaMountInfo) (path : String) (info : InoInfo)
    (S : Nat) (s1 : CacheState)
    (hcheck : mount.checkMount path MountModeRead = none)
    (hmiss : (mount.dentryCache.Get path mount.cacheState.now).1.2.1 = false)
    (hrw : mount.rwCacheOn = true)
    (herr : (mount.cacheState.proxyClient.call (ProxyCall.Stat path)).1.err = none)
    (hcode : (mount.cacheState.proxyClient.call (ProxyCall.Stat path)).1.Code = 0)
    (hinfo : (mount.cacheState.proxyClient.call (ProxyCall.Stat path)).1.Info = info)
    (hdir : fs.IsDir info.Mode = false) (hreg : fs.IsRegular info.Mode = true)
    (hstat : WCache.StatSize
      (FileEntry.mk info.Inode DefaultBlockSize 0 "" 0 0 false)
      (mount.setProxy (mount.cacheState.proxyClient.call (ProxyCall.Stat path)).2).cacheState
        = .ok ((S, none), s1)) :
    ∃ dentry, 
      mount.Stat path = .ok ((some dentry, none),
        CfaMountInfo.mk mount.Path mount.MountStu mount.MountMode mount.fileCache
          (mount.dentryCache.Set path dentry s1.now).2 mount.rwCacheOn s1) ∧
      dentry.Inode = info.Inode ∧ dentry.Typ = DentryTypeFile ∧
      dentry.Info = some { info with Size := max info.Size S } ∧
      (∀ lru, mount.dentryCache.dentryCache = some lru → 1 ≤ lru.Capacity →
        ∃ e, ((mount.dentryCache.Set path dentry s1.now).2.node path) =
          some (CacheNode.mk path dentry e)) := by
  have hg := DentryCache.Get_miss _ _ _ hmiss
  have hm0 : CfaMountInfo.mk mount.Path mount.MountStu mount.MountMode mount.fileCache
      (mount.dentryCache.Get path mount.cacheState.now).2 mount.rwCacheOn mount.cacheState
      = mount := by rw [hg]
  refine ⟨Dentry.mk (if "/" ≠ path then lastPathElement path else "/") info.Inode DentryTypeFile
    (some { info with Size := max info.Size S }), ?_, rfl, rfl, rfl, ?_⟩
  · unfold CfaMountInfo.Stat
    simp only [hcheck, ne_eq, not_true_eq_false, if_false, hmiss, Bool.false_eq_true, hm0]
    simp only [CfaMountInfo.doStat, herr, hcode, or_self, if_false, hinfo, hdir, hreg, if_true,
      hrw, GetSimpleFileEntry, DentryTypeFile, Nat.reduceMod, ne_eq, not_true_eq_false]
    simp only [Bool.false_eq_true, if_false, show (1 % 256 = 1) from rfl, not_true_eq_false,
      hstat]
    by_cases hlt : info.Size < S
    · have hmax : max info.Size S = S := by omega
      simp only [hlt, if_true, hmax, CfaMountInfo.statDone, CfaMountInfo.setProxy, hrw]
    · have hmax : max info.Size S = info.Size := by omega
      simp only [hlt, if_false, hmax, CfaMountInfo.statDone, CfaMountInfo.setProxy, hrw]
  · intro lru hlru hcap
    unfold DentryCache.Set DentryCache.node
    simp only [hlru]
    exact ⟨_, LRUCache.cacheMap_SetExpire_room lru path _ _ _ hcap⟩

/-- Witness of C12: the proxy reports size 1 for `/a`, the write cache holds two bytes of the
file, and `Stat` returns size 2. -/
theorem C12_Stat_size_override_witness :
    ∃ dentry m1, sampleStatMount.Stat "/a" = .ok ((some dentry, none), m1) ∧
      dentry.Info = some { Inode := 7, Mode := 0o644, Size := 2 } ∧
      ∃ e, m1.dentryCache.node "/a" = some (CacheNode.mk "/a" dentry e) := by
  obtain ⟨dentry, h1, -, -, h2, h3⟩ := C12_Stat_size_override sampleStatMount "/a"
    { Inode := 7, Mode := 0o644, Size := 1 } 2
    (sampleStatMount.setProxy
      (sampleStatMount.cacheState.proxyClient.call (ProxyCall.Stat "/a")).2).cacheState
    (by decide) rfl rfl rfl rfl rfl (by decide) (by decide) rfl
  obtain ⟨e, he⟩ := h3 (LRUCache.mk 4 []) rfl (by decide)
  exact ⟨dentry, _, h1, h2, e, he⟩

/-! ## `file.go`: `Open` -/

theorem strings.LastIndex_nonneg (path : String) (h : path.data.head? = some '/') :
    0 ≤ strings.LastIndex path '/' ∧ strings.LastIndex path '/' ≤ (path.data.length : Int) := by
  unfold strings.LastIndex
  cases hf : (List.range path.data.length).reverse.find?
      (fun i => decide (path.data[i]? = some '/')) with
  | some i =>
    have hm := List.mem_of_find?_eq_some hf
    simp only [List.mem_reverse, List.mem_range] at hm
    simp only
    omega
  | none =>
    exfalso
    rw [List.find?_eq_none] at hf
    obtain ⟨l⟩ := path
    cases l with
    | nil => simp at h
    | cons a l =>
      simp only [List.head?_cons, Option.some.injEq] at h
      have := hf 0 (by simp)
      simp [h] at this

/-- A run of `Open` that the mount check, the proxy and the handle table accept: the
descriptor is the first empty slot, and the dentry cache loses the key
`path[:LastIndex(path, "/")]` and nothing else. -/
theorem CfaMountInfo.Open_run {n : Nat} (hn : n < U32) (mount : CfaMountInfo) (path : String)
    (flags mode : Nat) (hreach : FileCache.Reachable n mount.fileCache)
    (hfree : mount.fileCache.firstEmpty < n)
    (hcheck : mount.checkMount path (openPerm flags) = none)
    (herr : (mount.cacheState.proxyClient.call
      (ProxyCall.Open path (openFlag flags) (openMode mode))).1.err = none)
    (hcode : (mount.cacheState.proxyClient.call
      (ProxyCall.Open path (openFlag flags) (openMode mode))).1.Code = 0) :
    ∃ parent fc1, goSliceTo path (strings.LastIndex path '/') = .ok parent ∧
      mount.Open path flags mode = .ok (((mount.fileCache.firstEmpty : Int), none),
        CfaMountInfo.mk mount.Path mount.MountStu mount.MountMode fc1
          (mount.dentryCache.Remove parent).2 mount.rwCacheOn
          (mount.setProxy (mount.cacheState.proxyClient.call
            (ProxyCall.Open path (openFlag flags) (openMode mode))).2).cacheState) := by
  have hinv := FileCache.Inv_of_Reachable hn hreach
  obtain ⟨fc1, hnew, hvec, -, -, -⟩ := FileCache.NewFile_free hinv hfree InvalidHandle
    (FileEntry.mk (mount.cacheState.proxyClient.call
      (ProxyCall.Open path (openFlag flags) (openMode mode))).1.Id DefaultBlockSize (-1) path
      flags (openMode mode) false)
  have hinv1 := FileCache.Inv_NewFile hinv hnew
  have hlen : mount.fileCache.firstEmpty < mount.fileCache.fileEntryVec.length := by
    rw [hinv.len]; exact hfree
  have hslot : fc1.fileEntryVec[mount.fileCache.firstEmpty]? = some (some
      (FileCache.storedEntry mount.fileCache.firstEmpty
        (FileEntry.mk (mount.cacheState.proxyClient.call
          (ProxyCall.Open path (openFlag flags) (openMode mode))).1.Id DefaultBlockSize (-1)
          path flags (openMode mode) false))) := by
    rw [hvec, List.getElem?_set_self hlen]
  have hget := FileCache.GetFileEntry_valid hinv1 hslot
  have hidx : (mount.fileCache.firstEmpty : Int).toNat % U32 = mount.fileCache.firstEmpty := by
    rw [Int.toNat_ofNat]
    exact Nat.mod_eq_of_lt (by omega)
  have hh : path.data.head? = some '/' := by
    by_contra hc
    exact ((CfaMountInfo.checkMount_none_iff mount path _).mp hcheck).2.2.1 (Or.inr (Or.inl hc))
  obtain ⟨h1, h2⟩ := strings.LastIndex_nonneg path hh
  have hslice : goSliceTo path (strings.LastIndex path '/') =
      .ok (String.mk (path.data.take (strings.LastIndex path '/').toNat)) := by
    unfold goSliceTo; rw [if_pos ⟨h1, h2⟩]
  refine ⟨_, fc1, hslice, ?_⟩
  unfold CfaMountInfo.Open
  simp only [hcheck, ne_eq, not_true_eq_false, if_false, herr, hcode, or_self, hnew, hidx, hget,
    hslice, CfaMountInfo.setProxy]

/-- C17, what `Open` does and a run of the code. Whenever the mount check, the proxy and the
handle table accept the call, `Open` returns a descriptor, the slice
`path[:LastIndex(path, "/")]` does not panic, and the key removed from the dentry cache is
that slice. For the top-level path `/a` the slice is the empty string: `Open("/a")` on
`sampleOpenMount`, whose dentry cache holds the directory `/`, succeeds with descriptor 0 and
the dentry cache still holds `/` afterwards. -/
theorem C17_Open_keeps_root_dentry :
    (∀ (n : Nat) (mount : CfaMountInfo) (path : String) (flags mode : Nat), n < U32 →
      FileCache.Reachable n mount.fileCache → mount.fileCache.firstEmpty < n →
      mount.checkMount path (openPerm flags) = none →
      (mount.cacheState.proxyClient.call
        (ProxyCall.Open path (openFlag flags) (openMode mode))).1.err = none →
      (mount.cacheState.proxyClient.call
        (ProxyCall.Open path (openFlag flags) (openMode mode))).1.Code = 0 →
      ∃ parent fc1, goSliceTo path (strings.LastIndex path '/') = .ok parent ∧
        mount.Open path flags mode = .ok (((mount.fileCache.firstEmpty : Int), none),
          CfaMountInfo.mk mount.Path mount.MountStu mount.MountMode fc1
            (mount.dentryCache.Remove parent).2 mount.rwCacheOn
            (mount.setProxy (mount.cacheState.proxyClient.call
              (ProxyCall.Open path (openFlag flags) (openMode mode))).2).cacheState)) ∧
    goSliceTo "/a" (strings.LastIndex "/a" '/') = .ok "" ∧
    sampleOpenMount.dentryCache.node "/" = some (CacheNode.mk "/" rootDentry 0) ∧
    (sampleOpenMount.Open "/a" (O_RDWR ||| O_CREATE) 0o644).map Prod.fst = .ok (0, none) ∧
    (sampleOpenMount.Open "/a" (O_RDWR ||| O_CREATE) 0o644).map
      (fun r => r.2.dentryCache.node "/") = .ok (some (CacheNode.mk "/" rootDentry 0)) :=
  ⟨fun _ mount path flags mode hn hreach hfree hcheck herr hcode =>
      CfaMountInfo.Open_run hn mount path flags mode hreach hfree hcheck herr hcode,
    rfl, rfl, rfl, rfl⟩

/-! ## The order of the keys in `RemovePrefix` -/

theorem eraseP_key_eq_filter {κ ν : Type} [DecidableEq κ] (k : κ) :
    ∀ (l : List (CacheNode κ ν)), l.Pairwise (fun a b => a.Key ≠ b.Key) →
      l.eraseP (fun n => decide (n.Key = k)) = l.filter (fun n => !decide (n.Key = k)) := by
  intro l
  induction l with
  | nil => intro _; rfl
  | cons a l ih =>
    intro hpw
    rw [List.pairwise_cons] at hpw
    by_cases hk : a.Key = k
    · rw [List.eraseP_cons_of_pos (by simpa using hk)]
      simp only [List.filter_cons, hk, decide_True, Bool.not_true, Bool.false_eq_true, if_false]
      symm
      rw [List.filter_eq_self]
      intro n hn
      have := hpw.1 n hn
      rw [hk] at this
      simpa using Ne.symm this
    · rw [List.eraseP_cons_of_neg (by simpa using hk)]
      simp only [List.filter_cons, hk, decide_False, Bool.not_false, if_true]
      rw [ih hpw.2]

theorem eraseKeys_eq_filter {κ ν : Type} [DecidableEq κ] :
    ∀ (ks : List κ) (l : List (CacheNode κ ν)), l.Pairwise (fun a b => a.Key ≠ b.Key) →
      ks.foldl (fun l k => l.eraseP (fun m => decide (m.Key = k))) l =
        l.filter (fun n => !decide (n.Key ∈ ks)) := by
  intro ks
  induction ks with
  | nil => intro l _; simp
  | cons k ks ih =>
    intro l hpw
    simp only [List.foldl_cons]
    rw [eraseP_key_eq_filter k l hpw, ih _ (hpw.sublist (List.filter_sublist _)),
      List.filter_filter]
    congr 1
    funext n
    by_cases h1 : n.Key = k <;> by_cases h2 : n.Key ∈ ks <;> simp [h1, h2]

/-- The cache after `RemovePrefix` does not depend on the order in which `GetKeys` lists the
keys: removing the keys of `rtKeys` in any order `ks` gives the same list. -/
theorem LRUCache.foldl_Remove_any_order {κ ν : Type} [DecidableEq κ] (lru : LRUCache κ ν)
    (hkeys : lru.dlist.Pairwise (fun a b => a.Key ≠ b.Key)) (ks ks1 : List κ)
    (hperm : ks.Perm ks1) :
    ks.foldl (fun l k => (l.Remove k).2) lru = ks1.foldl (fun l k => (l.Remove k).2) lru := by
  rw [LRUCache.foldl_Remove, LRUCache.foldl_Remove, eraseKeys_eq_filter ks _ hkeys,
    eraseKeys_eq_filter ks1 _ hkeys]
  congr 2
  funext n
  simp only [hperm.mem_iff]

/-! ## The full-op predicate -/

theorem RWBlockOp.IsFull_run (op : RWBlockOp) (h1 : op.RwSize = op.rwBuf.length % U32)
    (h2 : op.RwOffset + op.RwSize ≤ op.fe.BlockSize) :
    op.IsFull = .ok (decide (op.RwOffset + op.RwSize = op.fe.BlockSize)) := by
  unfold RWBlockOp.IsFull
  have e1 : decide (op.RwSize = op.rwBuf.length % U32) = true := decide_eq_true h1
  have e2 : decide (op.RwOffset + op.RwSize ≤ op.fe.BlockSize) = true := decide_eq_true h2
  rw [e1, e2]
  rfl

/-- C27, the claim as written fails: the block operation `sampleTailOp` lies inside its block
(offset 1, size 3, block size 4), `RWBlockOp.IsFull` returns true for it, and its `RwOffset`
is not 0. -/
theorem C27_IsFull_true_at_nonzero_offset :
    sampleTailOp.RwOffset + sampleTailOp.RwSize ≤ sampleTailOp.fe.BlockSize ∧
      sampleTailOp.IsFull = .ok true ∧
      ¬ (sampleTailOp.RwOffset = 0 ∧ sampleTailOp.RwSize = sampleTailOp.fe.BlockSize) :=
  ⟨by decide, rfl, by decide⟩

/-- C27 (amended): for every block operation whose view has `RwSize` bytes and with
`RwOffset + RwSize ≤ BlockSize`, `RWBlockOp.IsFull` returns, without a failed assertion, whether
`RwOffset + RwSize = BlockSize`: it returns true if and only if the operation ends at the end
of its block. An operation with `RwOffset = 0` and `RwSize = BlockSize` is one such case, and
among the operations that start at offset 0 it is the only one. -/
theorem C27_IsFull_predicate (op : RWBlockOp) (h1 : op.RwSize = op.rwBuf.length % U32)
    (h2 : op.RwOffset + op.RwSize ≤ op.fe.BlockSize) :
    op.IsFull = .ok (decide (op.RwOffset + op.RwSize = op.fe.BlockSize)) ∧
      (op.IsFull = .ok true ↔ op.RwOffset + op.RwSize = op.fe.BlockSize) ∧
      (op.RwOffset = 0 ∧ op.RwSize = op.fe.BlockSize → op.IsFull = .ok true) ∧
      (op.RwOffset = 0 → (op.IsFull = .ok true ↔ op.RwSize = op.fe.BlockSize)) := by
  have hrun := RWBlockOp.IsFull_run op h1 h2
  have hiff : op.IsFull = .ok true ↔ op.RwOffset + op.RwSize = op.fe.BlockSize := by
    rw [hrun]
    constructor
    · intro h
      simpa using h
    · intro h
      simp [h]
  refine ⟨hrun, hiff, ?_, ?_⟩
  · rintro ⟨h0, hs⟩
    exact hiff.mpr (by omega)
  · intro h0
    rw [hiff, h0, Nat.zero_add]

theorem C27_IsFull_predicate_witness :
    sampleTailOp.IsFull = .ok (decide (sampleTailOp.RwOffset + sampleTailOp.RwSize
        = sampleTailOp.fe.BlockSize)) ∧
      (sampleTailOp.IsFull = .ok true ↔
        sampleTailOp.RwOffset + sampleTailOp.RwSize = sampleTailOp.fe.BlockSize) ∧
      (sampleTailOp.RwOffset = 0 ∧ sampleTailOp.RwSize = sampleTailOp.fe.BlockSize →
        sampleTailOp.IsFull = .ok true) ∧
      (sampleTailOp.RwOffset = 0 →
        (sampleTailOp.IsFull = .ok true ↔ sampleTailOp.RwSize = sampleTailOp.fe.BlockSize)) :=
  C27_IsFull_predicate sampleTailOp (by decide) (by decide)

/-! ## Package `log`: the level of a level name -/

theorem Char.toNat_ofNat_small (n : Nat) (h : n < 0xd800) : (Char.ofNat n).toNat = n := by
  unfold Char.ofNat
  have hv : n.isValidChar := Or.inl h
  rw [dif_pos hv]
  simp only [Char.ofNatAux, Char.toNat, UInt32.toNat]
  show (BitVec.ofNatLt n _).toNat = n
  simp

theorem Char.toLower_toLower (c : Char) : c.toLower.toLower = c.toLower := by
  by_cases h : c.toNat ≥ 65 ∧ c.toNat ≤ 90
  · have e : c.toLower = Char.ofNat (c.toNat + 32) := by
      unfold Char.toLower
      simp only [h, and_self, if_true]
    have e2 : c.toLower.toNat = c.toNat + 32 := by
      rw [e]
      exact Char.toNat_ofNat_small _ (by omega)
    have h2 : ¬ (c.toLower.toNat ≥ 65 ∧ c.toLower.toNat ≤ 90) := by omega
    generalize c.toLower = d at h2
    unfold Char.toLower
    simp only [h2, if_false]
  · have e : c.toLower = c := by
      unfold Char.toLower
      simp only [h, if_false]
    rw [e, e]

theorem strings.ToLower_idem (lower : Char → Char) (hidem : ∀ c, lower (lower c) = lower c)
    (s : String) : strings.ToLower lower (strings.ToLower lower s) = strings.ToLower lower s := by
  unfold strings.ToLower
  simp [List.map_map, Function.comp_def, hidem]

/-- C24: for every string `s`, with a case table `lower` that maps every rune to a rune it
leaves alone (as `unicode.ToLower` does), `strToLevel s` equals `strToLevel` of the lower-cased
`s`; it is the Debug, Info, Warn, Error, DPanic, Panic or Fatal level when the lower-cased `s`
is exactly the name of that level, and the Info level for every other string. -/
theorem C24_strToLevel_parsing (lower : Char → Char) (hidem : ∀ c, lower (lower c) = lower c)
    (s : String) :
    strToLevel lower s = strToLevel lower (strings.ToLower lower s) ∧
      (strings.ToLower lower s = "debug" → strToLevel lower s = zap.DebugLevel) ∧
      (strings.ToLower lower s = "info" → strToLevel lower s = zap.InfoLevel) ∧
      (strings.ToLower lower s = "warn" → strToLevel lower s = zap.WarnLevel) ∧
      (strings.ToLower lower s = "error" → strToLevel lower s = zap.ErrorLevel) ∧
      (strings.ToLower lower s = "dpanic" → strToLevel lower s = zap.DPanicLevel) ∧
      (strings.ToLower lower s = "panic" → strToLevel lower s = zap.PanicLevel) ∧
      (strings.ToLower lower s = "fatal" → strToLevel lower s = zap.FatalLevel) ∧
      (strings.ToLower lower s ∉ ["debug", "info", "warn", "error", "dpanic", "panic", "fatal"] →
        strToLevel lower s = zap.InfoLevel) := by
  refine ⟨?_, ?_, ?_, ?_, ?_, ?_, ?_, ?_, ?_⟩
  · unfold strToLevel
    rw [strings.ToLower_idem lower hidem]
  all_goals intro h
  all_goals unfold strToLevel
  · rw [h]
    rfl
  · rw [h]
    rfl
  · rw [h]
    rfl
  · rw [h]
    rfl
  · rw [h]
    rfl
  · rw [h]
    rfl
  · rw [h]
    rfl
  · simp only [List.mem_cons, List.mem_singleton, List.mem_nil_iff, or_false, not_or] at h
    split <;> first | rfl | simp_all

theorem C24_strToLevel_parsing_witness :
    strToLevel Char.toLower "dEbug" = strToLevel Char.toLower (strings.ToLower Char.toLower "dEbug") ∧
      (strings.ToLower Char.toLower "dEbug" = "debug" →
        strToLevel Char.toLower "dEbug" = zap.DebugLevel) ∧
      (strings.ToLower Char.toLower "dEbug" = "info" →
        strToLevel Char.toLower "dEbug" = zap.InfoLevel) ∧
      (strings.ToLower Char.toLower "dEbug" = "warn" →
        strToLevel Char.toLower "dEbug" = zap.WarnLevel) ∧
      (strings.ToLower Char.toLower "dEbug" = "error" →
        strToLevel Char.toLower "dEbug" = zap.ErrorLevel) ∧
      (strings.ToLower Char.toLower "dEbug" = "dpanic" →
        strToLevel Char.toLower "dEbug" = zap.DPanicLevel) ∧
      (strings.ToLower Char.toLower "dEbug" = "panic" →
        strToLevel Char.toLower "dEbug" = zap.PanicLevel) ∧
      (strings.ToLower Char.toLower "dEbug" = "fatal" →
        strToLevel Char.toLower "dEbug" = zap.FatalLevel) ∧
      (strings.ToLower Char.toLower "dEbug" ∉
          ["debug", "info", "warn", "error", "dpanic", "panic", "fatal"] →
        strToLevel Char.toLower "dEbug" = zap.InfoLevel) :=
  C24_strToLevel_parsing Char.toLower Char.toLower_toLower "dEbug"

theorem strToLevel_test_table :
    strToLevel Char.toLower "debug" = zap.DebugLevel ∧
      strToLevel Char.toLower "dEbug" = zap.DebugLevel ∧
      strToLevel Char.toLower "dEbuge" = zap.InfoLevel ∧
      strToLevel Char.toLower "Warn" = zap.WarnLevel ∧
      strToLevel Char.toLower "Errorr" = zap.InfoLevel ∧
      strToLevel Char.toLower "Panic" = zap.PanicLevel ∧
      strToLevel Char.toLower "Fatal" = zap.FatalLevel := by
  decide

/-! ## Package `config`: comment stripping -/

theorem trimCommentsLoop_eq : ∀ (n : Nat) (rest : List Byte) (q : Nat) (acc : List Byte),
    rest.length ≤ n →
    trimCommentsLoop rest q acc =
      acc ++ keptPrefix rest (commentStart rest (decide (q % 2 = 1)))
  | _, [], q, acc, _ => by simp [trimCommentsLoop, commentStart, keptPrefix]
  | _, [c], q, acc, _ => by
    simp only [trimCommentsLoop, commentStart]
    by_cases h34 : c = 34
    · subst h34
      simp [keptPrefix]
    · by_cases h35 : c = 35
      · subst h35
        by_cases hq : q % 2 = 1
        · have hq0 : ¬ (q % 2 = 0) := by omega
          simp [keptPrefix, hq, hq0]
        · have hq0 : q % 2 = 0 := by omega
          simp [keptPrefix, hq, hq0]
      · simp [keptPrefix, h34, h35]
  | 0, _ :: _ :: _, _, _, hn => by simp at hn
  | n + 1, c :: d :: rest, q, acc, hn => by
    have hl : rest.length ≤ n := by
      simp only [List.length_cons] at hn
      omega
    have hl1 : (d :: rest).length ≤ n := by
      simp only [List.length_cons] at hn ⊢
      omega
    rw [trimCommentsLoop, commentStart]
    by_cases hp : c = 92 ∧ (d = 92 ∨ d = 34)
    · rw [if_pos hp, if_pos hp, trimCommentsLoop_eq n rest q _ hl]
      cases hcs : commentStart rest (decide (q % 2 = 1)) with
      | none => simp [keptPrefix]
      | some i => simp [keptPrefix]
    · rw [if_neg hp, if_neg hp]
      by_cases h34 : c = 34
      · subst h34
        have h1 : ¬ ((34 : Nat) = 35 ∧ (q + 1) % 2 = 0) := by omega
        have h2 : ¬ ((34 : Nat) = 47 ∧ d = 47 ∧ (q + 1) % 2 = 0) := by omega
        simp only [if_true, h1, h2, if_false]
        rw [trimCommentsLoop_eq n (d :: rest) (q + 1) _ hl1]
        have e : decide ((q + 1) % 2 = 1) = !decide (q % 2 = 1) := by
          by_cases hq : q % 2 = 1
          · have : ¬ ((q + 1) % 2 = 1) := by omega
            simp [hq, this]
          · have : (q + 1) % 2 = 1 := by omega
            simp [hq, this]
        rw [e]
        cases hcs : commentStart (d :: rest) (!decide (q % 2 = 1)) with
        | none => simp [keptPrefix]
        | some i => simp [keptPrefix]
      · simp only [h34, if_false]
        by_cases hm : q % 2 = 0 ∧ (c = 35 ∨ (c = 47 ∧ d = 47))
        · have hq : ¬ (q % 2 = 1) := by omega
          have e : (decide (q % 2 = 1) = false ∧ (c = 35 ∨ (c = 47 ∧ d = 47))) := by
            simp [hq, hm.2]
          rw [if_pos e]
          rcases hm.2 with h35 | h47
          · rw [if_pos ⟨h35, hm.1⟩]
            simp [keptPrefix]
          · have h35 : ¬ (c = 35 ∧ q % 2 = 0) := fun h => by
              have h1 : (47 : Nat) = 35 := h47.1.symm.trans h.1
              omega
            rw [if_neg h35, if_pos ⟨h47.1, h47.2, hm.1⟩]
            simp [keptPrefix]
        · have e : ¬ (decide (q % 2 = 1) = false ∧ (c = 35 ∨ (c = 47 ∧ d = 47))) := by
            intro h
            apply hm
            refine ⟨?_, h.2⟩
            have := h.1
            simp at this
            omega
          have h35 : ¬ (c = 35 ∧ q % 2 = 0) := fun h => hm ⟨h.2, Or.inl h.1⟩
          have h47 : ¬ (c = 47 ∧ d = 47 ∧ q % 2 = 0) := fun h => hm ⟨h.2.2, Or.inr ⟨h.1, h.2.1⟩⟩
          rw [if_neg e, if_neg h35, if_neg h47, trimCommentsLoop_eq n (d :: rest) q _ hl1]
          cases hcs : commentStart (d :: rest) (decide (q % 2 = 1)) with
          | none => simp [keptPrefix]
          | some i => simp [keptPrefix]

theorem trimCommentsLine_eq (line : List Byte) :
    trimCommentsLine line = keptPrefix line (commentStart line false) := by
  unfold trimCommentsLine
  rw [trimCommentsLoop_eq line.length line 0 [] (Nat.le_refl _)]
  simp

theorem commentStart_marker : ∀ (n : Nat) (line : List Byte) (quoted : Bool) (i : Nat),
    line.length ≤ n → commentStart line quoted = some i →
    List.get? line i = some 35 ∨ (List.get? line i = some 47 ∧ List.get? line (i + 1) = some 47)
  | _, [], _, _, _, h => by simp [commentStart] at h
  | _, [c], quoted, i, _, h => by
    simp only [commentStart] at h
    split at h
    · rename_i hc
      cases h
      simp [hc.2]
    · cases h
  | 0, _ :: _ :: _, _, _, hn, _ => by simp at hn
  | n + 1, c :: d :: rest, quoted, i, hn, h => by
    have hl : rest.length ≤ n := by
      simp only [List.length_cons] at hn
      omega
    have hl1 : (d :: rest).length ≤ n := by
      simp only [List.length_cons] at hn ⊢
      omega
    rw [commentStart] at h
    split at h
    · cases hcs : commentStart rest quoted with
      | none => simp [hcs] at h
      | some j =>
        simp only [hcs, Option.map_some', Option.some.injEq] at h
        subst h
        simpa using commentStart_marker n rest quoted j hl hcs
    · split at h
      · cases hcs : commentStart (d :: rest) (!quoted) with
        | none => simp [hcs] at h
        | some j =>
          simp only [hcs, Option.map_some', Option.some.injEq] at h
          subst h
          simpa using commentStart_marker n (d :: rest) (!quoted) j hl1 hcs
      · split at h
        · rename_i hm
          cases h
          rcases hm.2 with h35 | h47
          · simp [h35]
          · simp [h47.1, h47.2]
        · cases hcs : commentStart (d :: rest) quoted with
          | none => simp [hcs] at h
          | some j =>
            simp only [hcs, Option.map_some', Option.some.injEq] at h
            subst h
            simpa using commentStart_marker n (d :: rest) quoted j hl1 hcs

theorem commentStart_take : ∀ (n : Nat) (line : List Byte) (quoted : Bool) (i : Nat),
    line.length ≤ n → commentStart line quoted = some i →
    commentStart (line.take i) quoted = none
  | _, [], _, _, _, h => by simp [commentStart] at h
  | _, [c], quoted, i, _, h => by
    simp only [commentStart] at h
    split at h
    · cases h
      simp [commentStart]
    · cases h
  | 0, _ :: _ :: _, _, _, hn, _ => by simp at hn
  | n + 1, c :: d :: rest, quoted, i, hn, h => by
    have hl : rest.length ≤ n := by
      simp only [List.length_cons] at hn
      omega
    have hl1 : (d :: rest).length ≤ n := by
      simp only [List.length_cons] at hn ⊢
      omega
    rw [commentStart] at h
    split at h
    · rename_i hp
      cases hcs : commentStart rest quoted with
      | none => simp [hcs] at h
      | some j =>
        simp only [hcs, Option.map_some', Option.some.injEq] at h
        subst h
        have ih := commentStart_take n rest quoted j hl hcs
        simp only [List.take_succ_cons]
        rw [commentStart, if_pos hp, ih]
        rfl
    · rename_i hp
      split at h
      · rename_i h34
        cases hcs : commentStart (d :: rest) (!quoted) with
        | none => simp [hcs] at h
        | some j =>
          simp only [hcs, Option.map_some', Option.some.injEq] at h
          subst h
          have ih := commentStart_take n (d :: rest) (!quoted) j hl1 hcs
          cases j with
          | zero => simp [commentStart, h34]
          | succ k =>
            simp only [List.take_succ_cons] at ih ⊢
            rw [commentStart, if_neg hp, if_pos h34, ih]
            rfl
      · rename_i h34
        split at h
        · cases h
          simp [commentStart]
        · rename_i hm
          cases hcs : commentStart (d :: rest) quoted with
          | none => simp [hcs] at h
          | some j =>
            simp only [hcs, Option.map_some', Option.some.injEq] at h
            subst h
            have ih := commentStart_take n (d :: rest) quoted j hl1 hcs
            cases j with
            | zero =>
              have hd : commentStart (d :: rest) quoted = some 0 := hcs
              have hmk := commentStart_marker n (d :: rest) quoted 0 hl1 hcs
              simp only [List.take_succ_cons, List.take_zero, commentStart]
              rw [if_neg]
              rintro ⟨hq, h35⟩
              exact hm ⟨hq, Or.inl h35⟩
            | succ k =>
              simp only [List.take_succ_cons] at ih ⊢
              rw [commentStart, if_neg hp, if_neg h34, if_neg hm, ih]
              rfl

theorem trimCommentsLine_initial (line : List Byte) : trimCommentsLine line <+: line := by
  rw [trimCommentsLine_eq]
  cases commentStart line false with
  | none => exact List.prefix_refl _
  | some i => exact List.take_prefix _ _

theorem trimCommentsLine_idem (line : List Byte) :
    trimCommentsLine (trimCommentsLine line) = trimCommentsLine line := by
  rw [trimCommentsLine_eq line]
  cases hcs : commentStart line false with
  | none =>
    show trimCommentsLine line = line
    rw [trimCommentsLine_eq, hcs]
    rfl
  | some i =>
    show trimCommentsLine (line.take i) = line.take i
    rw [trimCommentsLine_eq, commentStart_take line.length line false i (Nat.le_refl _) hcs]
    rfl

theorem List.not_mem_of_mem_splitOn (x : Nat) :
    ∀ (xs : List Nat) (l : List Nat), l ∈ xs.splitOn x → x ∉ l
  | [], l, h => by
    simp only [List.splitOn_nil, List.mem_singleton] at h
    subst h
    simp
  | a :: xs, l, h => by
    have ih := List.not_mem_of_mem_splitOn x xs
    simp only [List.splitOn, List.splitOnP_cons] at h ih
    by_cases hax : (a == x) = true
    · rw [if_pos hax] at h
      rcases List.mem_cons.mp h with h | h
      · subst h
        simp
      · exact ih l h
    · rw [if_neg hax] at h
      cases hs : List.splitOnP (fun y => y == x) xs with
      | nil => simp [hs, List.modifyHead] at h
      | cons hd tl =>
        rw [hs] at h ih
        simp only [List.modifyHead, List.mem_cons] at h
        rcases h with h | h
        · subst h
          intro hm
          rcases List.mem_cons.mp hm with e | e
          · exact hax (by simp [e])
          · exact ih hd (List.mem_cons_self _ _) e
        · exact ih l (List.mem_cons_of_mem _ h)

theorem bytes.Split_trimComments (data : List Byte) :
    bytes.Split (trimComments data) 10 = (bytes.Split data 10).map trimCommentsLine := by
  unfold trimComments bytes.Join bytes.Split
  apply List.splitOn_intercalate
  · intro l hl
    obtain ⟨l0, hl0, rfl⟩ := List.mem_map.mp hl
    intro hm
    exact List.not_mem_of_mem_splitOn 10 data l0 hl0
      ((trimCommentsLine_initial l0).subset hm)
  · intro h
    have := List.map_eq_nil_iff.mp h
    exact List.splitOnP_ne_nil _ _ this

theorem trimComments_idem (data : List Byte) :
    trimComments (trimComments data) = trimComments data := by
  have h := bytes.Split_trimComments data
  show bytes.Join ((bytes.Split (trimComments data) 10).map trimCommentsLine) 10 = _
  rw [h, List.map_map]
  have e : (trimCommentsLine ∘ trimCommentsLine) = trimCommentsLine := by
    funext l
    exact trimCommentsLine_idem l
  rw [e]
  rfl

theorem LoadBytes_eq {γ : Type} (unmarshal : List Byte → γ → γ × Option GoError) (conf : γ)
    (src : List Byte) :
    (LoadBytes unmarshal conf src).1 = (unmarshal (trimComments src) conf).1 ∧
      ((LoadBytes unmarshal conf src).2 = none ↔ (unmarshal (trimComments src) conf).2 = none) := by
  unfold LoadBytes loadConfigBytes
  dsimp only
  rcases hu : unmarshal (trimComments src) conf with ⟨c1, e⟩
  cases e <;> simp

theorem commentStart_trimCommentsLine (line : List Byte) :
    commentStart (trimCommentsLine line) false = none := by
  rw [trimCommentsLine_eq]
  cases hcs : commentStart line false with
  | none => exact hcs
  | some i => exact commentStart_take line.length line false i (Nat.le_refl _) hcs

theorem trimComments_sample : trimComments sampleConfigText = sampleConfigStripped := by
  decide

/-- C23: for every line, `trimCommentsLine` returns the bytes before the first `#` or `//`
that stands outside a double-quoted string (`commentStart`, where a backslash followed by a
backslash or a double quote is passed over as a pair), a marker does stand at the cut and none
stands outside a string in what is kept, and the line is returned unchanged when it has no
such marker. `trimComments` trims line by line and keeps the number of lines. So `LoadBytes`
hands to `json.Unmarshal` the text without the comments: it accepts a text exactly when its
stripped form is accepted, with the same value, and on the stripped text it does the same. -/
theorem C23_comment_stripping {γ : Type} (unmarshal : List Byte → γ → γ × Option GoError)
    (conf : γ) (data line : List Byte) :
    trimCommentsLine line = keptPrefix line (commentStart line false) ∧
      (∀ i, commentStart line false = some i →
        trimCommentsLine line = line.take i ∧ i < line.length ∧
          (List.get? line i = some 35 ∨
            (List.get? line i = some 47 ∧ List.get? line (i + 1) = some 47)) ∧
          commentStart (line.take i) false = none) ∧
      (commentStart line false = none → trimCommentsLine line = line) ∧
      bytes.Split (trimComments data) 10 = (bytes.Split data 10).map trimCommentsLine ∧
      (bytes.Split (trimComments data) 10).length = (bytes.Split data 10).length ∧
      (∀ l ∈ bytes.Split (trimComments data) 10, commentStart l false = none) ∧
      LoadBytes unmarshal conf data = LoadBytes unmarshal conf (trimComments data) ∧
      (LoadBytes unmarshal conf data).1 = (unmarshal (trimComments data) conf).1 ∧
      ((LoadBytes unmarshal conf data).2 = none ↔
        (unmarshal (trimComments data) conf).2 = none) := by
  have hsplit := bytes.Split_trimComments data
  refine ⟨trimCommentsLine_eq line, ?_, ?_, hsplit, ?_, ?_, ?_, (LoadBytes_eq unmarshal conf data).1,
    (LoadBytes_eq unmarshal conf data).2⟩
  · intro i hcs
    have hm := commentStart_marker line.length line false i (Nat.le_refl _) hcs
    refine ⟨?_, ?_, hm, commentStart_take line.length line false i (Nat.le_refl _) hcs⟩
    · rw [trimCommentsLine_eq, hcs]
      rfl
    · rcases hm with h | h
      · exact (List.get?_eq_some.mp h).1
      · exact (List.get?_eq_some.mp h.1).1
  · intro hcs
    rw [trimCommentsLine_eq, hcs]
    rfl
  · rw [hsplit, List.length_map]
  · intro l hl
    rw [hsplit] at hl
    obtain ⟨l0, _, rfl⟩ := List.mem_map.mp hl
    exact commentStart_trimCommentsLine l0
  · unfold LoadBytes loadConfigBytes
    rw [trimComments_idem]

theorem C23_comment_stripping_witness :
    trimComments sampleConfigText = sampleConfigStripped ∧
      (bytes.Split (trimComments sampleConfigText) 10).length = 5 ∧
      LoadBytes sampleUnmarshal 0 sampleConfigText = (50, none) ∧
      LoadBytes sampleUnmarshal 0 sampleConfigText =
        LoadBytes sampleUnmarshal 0 (trimComments sampleConfigText) :=
  ⟨trimComments_sample, by decide, by decide,
    (C23_comment_stripping sampleUnmarshal 0 sampleConfigText []).2.2.2.2.2.2.1⟩

/-! ## `MergeOp`: the three cases -/

theorem goCopyAt_getElem?_ge (dst : List Byte) (pos : Nat) (src : List Byte) (j : Nat)
    (h : pos + src.length ≤ j) : (goCopyAt dst pos src)[j]? = dst[j]? := by
  by_cases hj : j < dst.length
  · simp only [goCopyAt, goCopy]
    rw [List.getElem?_append_right (by simp; omega),
      List.getElem?_append_right (by simp; omega)]
    simp only [List.length_take, List.length_drop, List.getElem?_drop]
    congr 1
    omega
  · rw [List.getElem?_eq_none (by rw [goCopyAt_length]; omega), List.getElem?_eq_none (by omega)]

theorem WCache.MergeOp_none {fid : Nat} {s : CacheState} {op : RWBlockOp} {dataSize : Nat}
    {fb : FileBuffer} (hfb : s.wCache.Cache.get fid = some fb) (hds : dataSize ≤ op.RwSize)
    (hb : fb.GetBuffer op.Index = none) :
    WCache.MergeOp fid op dataSize s =
      .ok (if dataSize < op.RwSize ∧ op.Index < fb.UpperIdx then op.RwSize else dataSize,
        op.rwBuf) := by
  unfold WCache.MergeOp
  simp only [Assert, hds, decide_True, if_true, bind, Except.bind, BlockCache.fileBuf, hfb, hb]
  split <;> rfl

theorem WCache.MergeOp_apart {fid : Nat} {s : CacheState} {op : RWBlockOp} {dataSize : Nat}
    {fb : FileBuffer} {buffer : Buffer} (hfb : s.wCache.Cache.get fid = some fb)
    (hds : dataSize ≤ op.RwSize) (hb : fb.GetBuffer op.Index = some buffer)
    (hapart : buffer.Offset + buffer.Len ≤ op.RwOffset ∨
      op.RwOffset + op.RwSize ≤ buffer.Offset) :
    WCache.MergeOp fid op dataSize s =
      .ok (if dataSize < op.RwSize ∧ op.RwOffset < buffer.Offset then op.RwSize else dataSize,
        op.rwBuf) := by
  unfold WCache.MergeOp
  simp only [Assert, hds, decide_True, if_true, bind, Except.bind, BlockCache.fileBuf, hfb, hb,
    hapart]
  split <;> rfl

theorem WCache.MergeOp_meet {fid : Nat} {s : CacheState} {op : RWBlockOp} {dataSize : Nat}
    {fb : FileBuffer} {buffer : Buffer} (hfb : s.wCache.Cache.get fid = some fb)
    (hds : dataSize ≤ op.RwSize) (hlen : op.rwBuf.length = op.RwSize)
    (hb : fb.GetBuffer op.Index = some buffer)
    (hdata : buffer.Offset + buffer.Len ≤ buffer.dataBuf.length)
    (h1 : op.RwOffset < buffer.Offset + buffer.Len) (h2 : buffer.Offset < op.RwOffset + op.RwSize)
    (hop : 0 < op.RwSize) (hbl : 0 < buffer.Len) :
    WCache.MergeOp fid op dataSize s =
      .ok (max dataSize (min (buffer.Offset + buffer.Len) (op.RwOffset + op.RwSize) - op.RwOffset),
        goCopyAt op.rwBuf (max buffer.Offset op.RwOffset - op.RwOffset)
          ((buffer.dataBuf.drop (max buffer.Offset op.RwOffset)).take
            (min (buffer.Offset + buffer.Len) (op.RwOffset + op.RwSize) -
              max buffer.Offset op.RwOffset))) := by
  have hcp : (if op.RwOffset > buffer.Offset then op.RwOffset else buffer.Offset) =
      max buffer.Offset op.RwOffset := by
    split <;> omega
  have htl : (if op.RwOffset + op.RwSize < buffer.Offset + buffer.Len then
      op.RwOffset + op.RwSize else buffer.Offset + buffer.Len) =
      min (buffer.Offset + buffer.Len) (op.RwOffset + op.RwSize) := by
    split <;> omega
  have hn : ¬ (buffer.Offset + buffer.Len ≤ op.RwOffset ∨
      op.RwOffset + op.RwSize ≤ buffer.Offset) := by omega
  have a1 : max buffer.Offset op.RwOffset <
      min (buffer.Offset + buffer.Len) (op.RwOffset + op.RwSize) := by omega
  have a2 : min (buffer.Offset + buffer.Len) (op.RwOffset + op.RwSize) ≤
      op.RwOffset + op.RwSize := by omega
  have a3 : ¬ (max buffer.Offset op.RwOffset - op.RwOffset > op.rwBuf.length) := by omega
  have a4 : buffer.Offset ≤ max buffer.Offset op.RwOffset := by omega
  have a5 : min (buffer.Offset + buffer.Len) (op.RwOffset + op.RwSize) ≤
      buffer.Offset + buffer.Len := by omega
  have a6 : ¬ (min (buffer.Offset + buffer.Len) (op.RwOffset + op.RwSize) >
      buffer.dataBuf.length ∨ max buffer.Offset op.RwOffset >
      min (buffer.Offset + buffer.Len) (op.RwOffset + op.RwSize)) := by omega
  unfold WCache.MergeOp
  simp only [Assert, hds, decide_True, if_true, bind, Except.bind, BlockCache.fileBuf, hfb, hb,
    hn, if_false, hcp, htl, a1, a2, a3, Buffer.GetRangeData, a4, a5, a6, pure, Except.pure]
  split
  · rename_i h
    rw [max_eq_right (Nat.le_of_lt h)]
  · rename_i h
    rw [max_eq_left (Nat.le_of_not_lt h)]

theorem WCache.MergeOp_bounds {fid : Nat} {s : CacheState} {op : RWBlockOp} {dataSize r : Nat}
    {d : List Byte} (h : WCache.MergeOp fid op dataSize s = .ok (r, d)) :
    dataSize ≤ r ∧ r ≤ op.RwSize := by
  unfold WCache.MergeOp at h
  rw [Except.bind_eq_ok_iff] at h
  obtain ⟨u, hds, h⟩ := h
  rw [Assert_eq_ok_iff] at hds
  have hds : dataSize ≤ op.RwSize := by simpa using hds
  rw [Except.bind_eq_ok_iff] at h
  obtain ⟨fb, hfb, h⟩ := h
  have hfb : s.wCache.Cache.get fid = some fb := by
    unfold BlockCache.fileBuf at hfb
    split at hfb
    · cases hfb
    · rename_i fb0 hget
      cases hfb
      exact hget
  cases hb : fb.GetBuffer op.Index with
  | none =>
    rw [hb] at h
    dsimp only at h
    split at h
    · cases h
      omega
    · cases h
      omega
  | some buffer =>
    rw [hb] at h
    dsimp only at h
    split at h
    · split at h
      · cases h
        omega
      · cases h
        omega
    · rw [Except.bind_eq_ok_iff] at h
      obtain ⟨u1, ha1, h⟩ := h
      rw [Except.bind_eq_ok_iff] at h
      obtain ⟨u2, ha2, h⟩ := h
      rw [Assert_eq_ok_iff] at ha1 ha2
      have ha2 := of_decide_eq_true ha2
      by_cases hrt : (if op.RwOffset > buffer.Offset then op.RwOffset else buffer.Offset) -
          op.RwOffset > op.rwBuf.length
      · rw [if_pos hrt] at h
        cases h
      · rw [if_neg hrt, Except.bind_eq_ok_iff] at h
        obtain ⟨u3, _, h⟩ := h
        rw [Except.bind_eq_ok_iff] at h
        obtain ⟨data, _, h⟩ := h
        simp only [pure, Except.pure] at h
        split_ifs at h ha2
        all_goals cases h
        all_goals omega

/-- C30 (code defect): `MergeOp` fails its own assertion where its three cases give a
result. After the empty write at offset 1 (which returns `(0, nil)`), block 0 holds a write
buffer with the empty range `[1, 1)`. It meets no byte of the read op `[0, 4)`, which is
case (2) with result `dataSize`, the case that the comment "op and buffer not intersection"
of the code names; but neither inequality of the test holds, `MergeOp` takes the copy branch
and stops at `Assert(cpOffset < cpTailOffset)`. The same happens with an empty op: a read of
zero bytes at offset 1 of the block that holds the bytes `[0, 2)` does not return. -/
theorem C30_MergeOp_asserts_on_empty_range :
    RWCache.Write sampleEntry [] 1 sampleState = .ok ((0, none), sampleAfterEmptyWrite) ∧
      (sampleAfterEmptyWrite.wCache.Cache.get 7).bind (fun fb => fb.GetBuffer sampleReadOp.Index) =
        some sampleEmptyBuffer ∧
      (0 : Nat) ≤ sampleReadOp.RwSize ∧
      (¬ ∃ x, sampleEmptyBuffer.Offset ≤ x ∧ x < sampleEmptyBuffer.Offset + sampleEmptyBuffer.Len ∧
        sampleReadOp.RwOffset ≤ x ∧ x < sampleReadOp.RwOffset + sampleReadOp.RwSize) ∧
      WCache.MergeOp 7 sampleReadOp 0 sampleAfterEmptyWrite = .error Fault.assert ∧
      RWCache.Read sampleEntry [] 1 sampleDirty = .error Fault.assert := by
  refine ⟨rfl, rfl, by decide, ?_, rfl, rfl⟩
  rintro ⟨x, h1, h2, -, -⟩
  simp only [sampleEmptyBuffer] at h1 h2
  omega

/-- The three cases of `MergeOp` on ranges that are not empty: for every op whose view has
`RwSize` bytes and every `dataSize ≤ RwSize`,
`MergeOp` returns as follows. (1) With no write buffer for the block: `RwSize` if
`dataSize < RwSize` and `Index < UpperIdx`, else `dataSize`, the view unchanged. With a write
buffer whose data lie inside `dataBuf`, when neither the range `[Offset, Offset+Len)` of the
buffer nor the range `[RwOffset, RwOffset+RwSize)` of the op is empty: (2) if the ranges share
no byte, `RwSize` if `dataSize < RwSize` and `RwOffset < Offset`, else `dataSize`, the view
unchanged; (3) otherwise, with `cpOff = max(Offset, RwOffset)` and
`cpTail = min(Offset+Len, RwOffset+RwSize)`, the view gets at the positions
`[cpOff-RwOffset, cpTail-RwOffset)` the bytes of the buffer at `[cpOff, cpTail)`, keeps every
other position, and `max(dataSize, cpTail-RwOffset)` is returned. Every returned size lies
between `dataSize` and `RwSize`. -/
theorem C30_MergeOp_three_cases (fid : Nat) (op : RWBlockOp) (dataSize : Nat) (s : CacheState)
    (fb : FileBuffer) (hfb : s.wCache.Cache.get fid = some fb) (hds : dataSize ≤ op.RwSize)
    (hlen : op.rwBuf.length = op.RwSize) :
    (fb.GetBuffer op.Index = none →
      WCache.MergeOp fid op dataSize s =
        .ok (if dataSize < op.RwSize ∧ op.Index < fb.UpperIdx then op.RwSize else dataSize,
          op.rwBuf)) ∧
    (∀ buffer, fb.GetBuffer op.Index = some buffer → 0 < op.RwSize → 0 < buffer.Len →
      buffer.Offset + buffer.Len ≤ buffer.dataBuf.length →
      ((¬ ∃ x, buffer.Offset ≤ x ∧ x < buffer.Offset + buffer.Len ∧ op.RwOffset ≤ x ∧
          x < op.RwOffset + op.RwSize) →
        WCache.MergeOp fid op dataSize s =
          .ok (if dataSize < op.RwSize ∧ op.RwOffset < buffer.Offset then op.RwSize
            else dataSize, op.rwBuf)) ∧
      ((∃ x, buffer.Offset ≤ x ∧ x < buffer.Offset + buffer.Len ∧ op.RwOffset ≤ x ∧
          x < op.RwOffset + op.RwSize) →
        ∃ rwBuf1, WCache.MergeOp fid op dataSize s =
            .ok (max dataSize (min (buffer.Offset + buffer.Len) (op.RwOffset + op.RwSize) -
              op.RwOffset), rwBuf1) ∧
          rwBuf1.length = op.rwBuf.length ∧
          (∀ j, max buffer.Offset op.RwOffset - op.RwOffset ≤ j →
            j < min (buffer.Offset + buffer.Len) (op.RwOffset + op.RwSize) - op.RwOffset →
            rwBuf1[j]? = buffer.dataBuf[op.RwOffset + j]?) ∧
          (∀ j, (j < max buffer.Offset op.RwOffset - op.RwOffset ∨
              min (buffer.Offset + buffer.Len) (op.RwOffset + op.RwSize) - op.RwOffset ≤ j) →
            rwBuf1[j]? = op.rwBuf[j]?))) ∧
    (∀ r d, WCache.MergeOp fid op dataSize s = .ok (r, d) → dataSize ≤ r ∧ r ≤ op.RwSize) := by
  refine ⟨fun hb => WCache.MergeOp_none hfb hds hb, ?_, fun r d h => WCache.MergeOp_bounds h⟩
  intro buffer hb hop hbl hdata
  constructor
  · intro hno
    apply WCache.MergeOp_apart hfb hds hb
    by_contra hc
    apply hno
    refine ⟨max buffer.Offset op.RwOffset, ?_, ?_, ?_, ?_⟩ <;> omega
  · rintro ⟨x, x1, x2, x3, x4⟩
    refine ⟨_, WCache.MergeOp_meet hfb hds hlen hb hdata (by omega) (by omega) hop hbl, ?_, ?_, ?_⟩
    · rw [goCopyAt_length]
    · intro j j1 j2
      have e : j = (max buffer.Offset op.RwOffset - op.RwOffset) +
          (j - (max buffer.Offset op.RwOffset - op.RwOffset)) := by omega
      rw [e, goCopyAt_getElem?_mid _ _ _ _ (by simp only [List.length_take, List.length_drop]; omega)
        (by omega), List.getElem?_take, if_pos (by omega), List.getElem?_drop]
      congr 1
      omega
    · intro j hj
      rcases hj with hj | hj
      · exact goCopyAt_getElem?_lt _ _ _ _ hj
      · apply goCopyAt_getElem?_ge
        simp only [List.length_take, List.length_drop]
        omega

theorem C30_MergeOp_three_cases_witness :
    sampleDirty.wCache.Cache.get 7 = some sampleFileBuffer ∧
      sampleFileBuffer.GetBuffer sampleReadOp.Index = some sampleBuffer ∧
      WCache.MergeOp 7 sampleReadOp 0 sampleDirty = .ok (2, [1, 2, 0, 0]) ∧
      (∀ r d, WCache.MergeOp 7 sampleReadOp 0 sampleDirty = .ok (r, d) →
        0 ≤ r ∧ r ≤ sampleReadOp.RwSize) :=
  ⟨rfl, rfl, rfl,
    (C30_MergeOp_three_cases 7 sampleReadOp 0 sampleDirty sampleFileBuffer rfl (by decide)
      rfl).2.2⟩

/-! ## `Slice`: the partition of a byte range by block boundaries -/

theorem sliceLoop_length (fe : FileEntry) (buffer : List Byte) :
    ∀ (n idx rwOffset left pos : Nat), (sliceLoop fe buffer n idx rwOffset left pos).length = n := by
  intro n
  induction n with
  | zero => intro _ _ _ _; rfl
  | succ n ih =>
    intro idx rwOffset left pos
    simp only [sliceLoop, List.length_cons, ih]

theorem WCache.Slice_length {fe : FileEntry} {buffer : List Byte} {offset : Nat}
    {Ops : List RWBlockOp} (h : WCache.Slice fe buffer offset = .ok Ops) :
    Ops.length = ((offset + buffer.length % U32 + fe.BlockSize - 1) % U64) / fe.BlockSize -
      offset / fe.BlockSize := by
  unfold WCache.Slice at h
  split at h
  · cases h
  · simp only [Except.ok.injEq] at h
    rw [← h, sliceLoop_length]

theorem readOps_sliceLoop (fe : FileEntry) (buffer : List Byte) :
    ∀ (n idx rwOffset left pos : Nat),
      readOps buffer (sliceLoop fe buffer n idx rwOffset left pos) =
        sliceLoop fe buffer n idx rwOffset left pos := by
  intro n
  induction n with
  | zero => intro _ _ _ _; rfl
  | succ n ih =>
    intro idx rwOffset left pos
    have := ih (idx + 1)
    simp only [readOps] at this
    simp only [sliceLoop, readOps, List.map_cons, this]

theorem Slice_same (fe : FileEntry) (buffer : List Byte) (offset : Nat) :
    RCache.Slice fe buffer offset = WCache.Slice fe buffer offset := by
  cases h : WCache.Slice fe buffer offset with
  | error e =>
    unfold WCache.Slice at h
    unfold RCache.Slice
    split at h
    · rename_i hbs
      rw [if_pos hbs]
      exact h
    · cases h
  | ok Ops =>
    rw [Slice_read_eq fe buffer buffer offset Ops rfl h]
    unfold WCache.Slice at h
    split at h
    · cases h
    · simp only [Except.ok.injEq] at h
      rw [← h, readOps_sliceLoop]

theorem OpsCut.index {fe : FileEntry} {buffer : List Byte} {offset : Nat} :
    ∀ {Ops : List RWBlockOp} {idx pos : Nat}, OpsCut fe buffer offset idx pos Ops →
      Ops.map RWBlockOp.Index = List.range' idx Ops.length
  | [], _, _, _ => rfl
  | op :: Ops, idx, pos, h => by
    obtain ⟨-, hidx, -, -, -, -, -, -, hrest⟩ := h
    simp only [List.map_cons, List.length_cons, List.range'_succ, hidx, OpsCut.index hrest]

theorem OpsCut.inside {fe : FileEntry} {buffer : List Byte} {offset : Nat} :
    ∀ {Ops : List RWBlockOp} {idx pos : Nat}, OpsCut fe buffer offset idx pos Ops →
      ∀ op ∈ Ops, op.fe = fe ∧ op.RwOffset + op.RwSize ≤ fe.BlockSize
  | [], _, _, _ => by simp
  | op :: Ops, idx, pos, h => by
    obtain ⟨hfe, -, -, -, -, hin, -, -, hrest⟩ := h
    intro o ho
    rcases List.mem_cons.mp ho with e | e
    · subst e
      exact ⟨hfe, hin⟩
    · exact OpsCut.inside hrest o e

theorem OpsCut.sum {fe : FileEntry} {buffer : List Byte} {offset : Nat} :
    ∀ {Ops : List RWBlockOp} {idx pos : Nat}, OpsCut fe buffer offset idx pos Ops →
      pos + (Ops.map RWBlockOp.RwSize).sum = buffer.length
  | [], _, _, h => by simpa [OpsCut] using h
  | op :: Ops, idx, pos, h => by
    obtain ⟨-, -, -, -, -, -, -, -, hrest⟩ := h
    have := OpsCut.sum hrest
    simp only [List.map_cons, List.sum_cons]
    omega

theorem OpsCut.flatten {fe : FileEntry} {buffer : List Byte} {offset : Nat} :
    ∀ {Ops : List RWBlockOp} {idx pos : Nat}, OpsCut fe buffer offset idx pos Ops →
      (Ops.map RWBlockOp.rwBuf).flatten = buffer.drop pos
  | [], _, _, h => by
    have h : _ = buffer.length := h
    simp [h]
  | op :: Ops, idx, pos, h => by
    obtain ⟨-, -, -, -, -, -, -, hbuf, hrest⟩ := h
    have := OpsCut.flatten hrest
    simp only [List.map_cons, List.flatten_cons, this, hbuf]
    rw [← List.drop_drop, List.take_append_drop]

theorem OpsCut.start {fe : FileEntry} {buffer : List Byte} {offset : Nat} :
    ∀ {Ops : List RWBlockOp} {idx pos : Nat}, OpsCut fe buffer offset idx pos Ops →
      ∀ k op, Ops[k]? = some op →
        op.GetFileOffset = offset + pos + ((Ops.take k).map RWBlockOp.RwSize).sum
  | [], _, _, _ => by simp
  | o :: Ops, idx, pos, h => by
    obtain ⟨hfe, hidx, -, hoff, -, -, -, -, hrest⟩ := h
    intro k op hk
    cases k with
    | zero =>
      simp only [List.getElem?_cons_zero, Option.some.injEq] at hk
      subst hk
      simp only [RWBlockOp.GetFileOffset, RWBlockOp.GetAlignOffset, hfe, hidx, hoff,
        List.take_zero, List.map_nil, List.sum_nil, Nat.add_zero]
    | succ k =>
      simp only [List.getElem?_cons_succ] at hk
      have := OpsCut.start hrest k op hk
      simp only [List.take_succ_cons, List.map_cons, List.sum_cons]
      omega

theorem OpsCut.aligned {fe : FileEntry} {buffer : List Byte} {offset : Nat} :
    ∀ {Ops : List RWBlockOp} {idx pos : Nat}, OpsCut fe buffer offset idx pos Ops →
      offset + pos ≤ idx * fe.BlockSize → ∀ op ∈ Ops, op.RwOffset = 0
  | [], _, _, _, _ => by simp
  | o :: Ops, idx, pos, h, hle => by
    obtain ⟨-, -, -, hoff, -, hin, -, -, hrest⟩ := h
    have h0 : o.RwOffset = 0 := by omega
    intro op hop
    rcases List.mem_cons.mp hop with e | e
    · subst e
      exact h0
    · refine OpsCut.aligned hrest ?_ op e
      rw [Nat.add_mul]
      omega

theorem OpsCut.later {fe : FileEntry} {buffer : List Byte} {offset : Nat}
    {Ops : List RWBlockOp} {idx pos : Nat} (h : OpsCut fe buffer offset idx pos Ops) :
    ∀ k op, Ops[k]? = some op → 0 < k → op.RwOffset = 0 := by
  intro k op hk hpos
  cases Ops with
  | nil => simp at hk
  | cons o Ops =>
    obtain ⟨-, -, -, hoff, -, hin, -, -, hrest⟩ := h
    cases k with
    | zero => omega
    | succ k =>
      simp only [List.getElem?_cons_succ] at hk
      refine OpsCut.aligned hrest ?_ op (List.getElem?_mem hk)
      rw [Nat.add_mul]
      omega

theorem WCache.Slice_nil (fe : FileEntry) (offset : Nat) (hbs0 : 0 < fe.BlockSize)
    (hbs : fe.BlockSize < U32) (hw : offset + fe.BlockSize - 1 < U64) :
    WCache.Slice fe [] offset = .ok
      (if offset % fe.BlockSize = 0 then []
      else [{ fe := fe, Index := offset / fe.BlockSize, RwOffset := offset % fe.BlockSize,
              RwSize := 0, rwBuf := [], rwBufPos := 0 }]) := by
  have hdm := Nat.div_add_mod offset fe.BlockSize
  have hr : offset % fe.BlockSize < fe.BlockSize := Nat.mod_lt _ hbs0
  have hmul : fe.BlockSize * (offset / fe.BlockSize) = offset / fe.BlockSize * fe.BlockSize :=
    Nat.mul_comm _ _
  have hmod : (offset + fe.BlockSize - 1) % U64 = offset + fe.BlockSize - 1 :=
    Nat.mod_eq_of_lt hw
  have hr32 : offset % fe.BlockSize % U32 = offset % fe.BlockSize :=
    Nat.mod_eq_of_lt (by omega)
  simp only [WCache.Slice, Nat.pos_iff_ne_zero.mp hbs0, if_false, List.length_nil, Nat.zero_mod,
    Nat.add_zero, hmod, hr32]
  by_cases h0 : offset % fe.BlockSize = 0
  · have hq : (offset + fe.BlockSize - 1) / fe.BlockSize = offset / fe.BlockSize :=
      Nat.div_eq_of_lt_le (by omega) (by rw [Nat.add_mul]; omega)
    rw [hq, Nat.sub_self, if_pos h0]
    rfl
  · have hq : (offset + fe.BlockSize - 1) / fe.BlockSize = offset / fe.BlockSize + 1 :=
      Nat.div_eq_of_lt_le (by rw [Nat.add_mul]; omega) (by rw [Nat.add_mul, Nat.add_mul]; omega)
    rw [hq, Nat.add_sub_cancel_left, if_neg h0]
    have hz : ¬ (fe.BlockSize - offset % fe.BlockSize > 0) → fe.BlockSize - offset % fe.BlockSize = 0 := by
      omega
    simp only [sliceLoop, Nat.mod_mod, List.drop_nil, List.take_nil]
    split
    · rfl
    · rename_i hc
      rw [hz hc]

/-- C22, the claim as written fails: for block size 4, the one-byte buffer `[1]` and the
`uint64` offset `2^64 - 1`, the sum `offset + 1 + 4 - 1` wraps to 3, so `blockIndexEnd` is 0
and both `Slice` methods return no op at all, while the byte range lies in block
`2^62 - 1`: the sizes sum to 0, not to 1, and the views do not make up the buffer. -/
theorem C22_Slice_wraps_at_uint64_end :
    0 < sampleEntry.BlockSize ∧ [(1 : Byte)].length ≤ 512 * 1024 * 1024 ∧ 2 ^ 64 - 1 < U64 ∧
      WCache.Slice sampleEntry [1] (2 ^ 64 - 1) = .ok [] ∧
      RCache.Slice sampleEntry [1] (2 ^ 64 - 1) = .ok [] ∧
      (2 ^ 64 - 1) / sampleEntry.BlockSize = 2 ^ 62 - 1 ∧
      (2 ^ 64 - 1 + [(1 : Byte)].length + sampleEntry.BlockSize - 1) / sampleEntry.BlockSize =
        2 ^ 62 ∧
      (([] : List RWBlockOp).map RWBlockOp.RwSize).sum ≠ [(1 : Byte)].length := by
  refine ⟨by decide, by decide, by decide, ?_, ?_, by decide, by decide, by decide⟩
  · rw [WCache.Slice_wrap sampleEntry [1] (2 ^ 64 - 1) (by decide) (by decide) (by decide)
      (by decide) (by decide)]
  · rw [Slice_same, WCache.Slice_wrap sampleEntry [1] (2 ^ 64 - 1) (by decide) (by decide)
      (by decide) (by decide) (by decide)]

/-- C22 (amended): for every block size `0 < bs < 2^32`, every buffer of `n ≤ 512 MiB` bytes
and every offset with `offset + n + bs - 1 < 2^64`, `WCache.Slice` and `RCache.Slice` return
the same op list; its indexes are the consecutive integers from `offset / bs` up to but
excluding `(offset + n + bs - 1) / bs`, the rounded-up quotient of `offset + n` by `bs`; every
op has `RwOffset + RwSize ≤ bs`; op `k` starts at file offset `offset` plus the sum of `RwSize`
of the earlier ops; only the first op can have `RwOffset ≠ 0`; the `RwSize` values sum to `n`;
and the views concatenated in order are the buffer. For every offset the two methods return
the same result. -/
theorem C22_Slice_partition (fe : FileEntry) (buffer : List Byte) (offset : Nat)
    (hbs0 : 0 < fe.BlockSize) (hbs : fe.BlockSize < U32) (hlen : buffer.length ≤ 512 * 1024 * 1024)
    (hw : offset + buffer.length + fe.BlockSize - 1 < U64) :
    RCache.Slice fe buffer offset = WCache.Slice fe buffer offset ∧
    ∃ Ops, WCache.Slice fe buffer offset = .ok Ops ∧ RCache.Slice fe buffer offset = .ok Ops ∧
      Ops.map RWBlockOp.Index = List.range' (offset / fe.BlockSize)
        ((offset + buffer.length + fe.BlockSize - 1) / fe.BlockSize - offset / fe.BlockSize) ∧
      (∀ op ∈ Ops, op.fe = fe ∧ op.RwOffset + op.RwSize ≤ fe.BlockSize) ∧
      (∀ k op, Ops[k]? = some op →
        op.GetFileOffset = offset + ((Ops.take k).map RWBlockOp.RwSize).sum) ∧
      (∀ k op, Ops[k]? = some op → 0 < k → op.RwOffset = 0) ∧
      (Ops.map RWBlockOp.RwSize).sum = buffer.length ∧
      (Ops.map RWBlockOp.rwBuf).flatten = buffer := by
  refine ⟨Slice_same fe buffer offset, ?_⟩
  by_cases hb : buffer = []
  · subst hb
    have hnil := WCache.Slice_nil fe offset hbs0 hbs (by simpa using hw)
    have hdm := Nat.div_add_mod offset fe.BlockSize
    have hr : offset % fe.BlockSize < fe.BlockSize := Nat.mod_lt _ hbs0
    have hmul : fe.BlockSize * (offset / fe.BlockSize) = offset / fe.BlockSize * fe.BlockSize :=
      Nat.mul_comm _ _
    refine ⟨_, hnil, by rw [Slice_same, hnil], ?_⟩
    simp only [List.length_nil, Nat.add_zero]
    by_cases h0 : offset % fe.BlockSize = 0
    · have hq : (offset + fe.BlockSize - 1) / fe.BlockSize = offset / fe.BlockSize :=
        Nat.div_eq_of_lt_le (by omega) (by rw [Nat.add_mul]; omega)
      simp [h0, hq]
    · have hq : (offset + fe.BlockSize - 1) / fe.BlockSize = offset / fe.BlockSize + 1 :=
        Nat.div_eq_of_lt_le (by rw [Nat.add_mul]; omega)
          (by rw [Nat.add_mul, Nat.add_mul]; omega)
      simp only [h0, if_false, hq, Nat.add_sub_cancel_left, List.map_cons, List.map_nil,
        List.range'_one, List.mem_singleton, List.sum_cons, List.sum_nil, List.flatten_cons,
        List.flatten_nil, List.append_nil, true_and]
      refine ⟨?_, ?_, ?_⟩
      · rintro op rfl
        exact ⟨rfl, by simp only; omega⟩
      · intro k op hk
        cases k with
        | zero =>
          simp only [List.getElem?_cons_zero, Option.some.injEq] at hk
          subst hk
          simp only [RWBlockOp.GetFileOffset, RWBlockOp.GetAlignOffset, List.take_zero,
            List.map_nil, List.sum_nil]
          omega
        | succ k => simp at hk
      · refine ⟨?_, rfl, trivial⟩
        intro k op hk hpos
        cases k with
        | zero => omega
        | succ k => simp at hk
  · have hlen29 : buffer.length ≤ 2 ^ 29 := by
      have : (512 * 1024 * 1024 : Nat) = 2 ^ 29 := by norm_num
      omega
    obtain ⟨Ops, hOps, hcut⟩ := WCache.Slice_cut fe buffer offset hbs0 hbs hb hlen29 hw
    have hl := WCache.Slice_length hOps
    have hsz : buffer.length % U32 = buffer.length :=
      Nat.mod_eq_of_lt (by simp only [U32]; omega)
    rw [hsz, Nat.mod_eq_of_lt hw] at hl
    refine ⟨Ops, hOps, by rw [Slice_same, hOps], ?_, OpsCut.inside hcut, ?_, OpsCut.later hcut,
      ?_, ?_⟩
    · rw [OpsCut.index hcut, hl]
    · intro k op hk
      have := OpsCut.start hcut k op hk
      omega
    · have := OpsCut.sum hcut
      omega
    · have := OpsCut.flatten hcut
      simpa using this

theorem C22_Slice_partition_witness :
    WCache.Slice sampleEntry [1, 2, 3, 4, 5, 6] 3 = .ok
      [{ fe := sampleEntry, Index := 0, RwOffset := 3, RwSize := 1, rwBuf := [1], rwBufPos := 0 },
       { fe := sampleEntry, Index := 1, RwOffset := 0, RwSize := 4, rwBuf := [2, 3, 4, 5],
         rwBufPos := 1 },
       { fe := sampleEntry, Index := 2, RwOffset := 0, RwSize := 1, rwBuf := [6], rwBufPos := 5 }] ∧
      RCache.Slice sampleEntry [1, 2, 3, 4, 5, 6] 3 = WCache.Slice sampleEntry [1, 2, 3, 4, 5, 6] 3 :=
  ⟨rfl, (C22_Slice_partition sampleEntry [1, 2, 3, 4, 5, 6] 3 (by decide) (by decide) (by decide)
    (by decide)).1⟩

/-! ## The lock table of a file buffer: exclusion -/

theorem exclusiveHolders_cons (h : Hold) (holds : List Hold) (blkIdx : Nat) :
    exclusiveHolders (h :: holds) blkIdx =
      exclusiveHolders holds blkIdx +
        if h.blkIdx = blkIdx ∧ h.kind = LockKind.exclusive then 1 else 0 := by
  simp only [exclusiveHolders, List.countP_cons, decide_eq_true_eq]

theorem sharedHolders_cons (h : Hold) (holds : List Hold) (blkIdx : Nat) :
    sharedHolders (h :: holds) blkIdx =
      sharedHolders holds blkIdx +
        if h.blkIdx = blkIdx ∧ h.kind = LockKind.shared then 1 else 0 := by
  simp only [sharedHolders, List.countP_cons, decide_eq_true_eq]

theorem exclusiveHolders_erase {h : Hold} {holds : List Hold} (hm : h ∈ holds) (blkIdx : Nat) :
    exclusiveHolders (holds.erase h) blkIdx +
        (if h.blkIdx = blkIdx ∧ h.kind = LockKind.exclusive then 1 else 0) =
      exclusiveHolders holds blkIdx := by
  rw [← exclusiveHolders_cons]
  exact (List.perm_cons_erase hm).symm.countP_eq _

theorem sharedHolders_erase {h : Hold} {holds : List Hold} (hm : h ∈ holds) (blkIdx : Nat) :
    sharedHolders (holds.erase h) blkIdx +
        (if h.blkIdx = blkIdx ∧ h.kind = LockKind.shared then 1 else 0) =
      sharedHolders holds blkIdx := by
  rw [← sharedHolders_cons]
  exact (List.perm_cons_erase hm).symm.countP_eq _

theorem exclusiveHolders_pos {h : Hold} {holds : List Hold} (hm : h ∈ holds)
    (hk : h.kind = LockKind.exclusive) : 0 < exclusiveHolders holds h.blkIdx := by
  have := exclusiveHolders_erase hm h.blkIdx
  rw [if_pos ⟨rfl, hk⟩] at this
  omega

theorem sharedHolders_pos {h : Hold} {holds : List Hold} (hm : h ∈ holds)
    (hk : h.kind = LockKind.shared) : 0 < sharedHolders holds h.blkIdx := by
  have := sharedHolders_erase hm h.blkIdx
  rw [if_pos ⟨rfl, hk⟩] at this
  omega

theorem LockState.EntryOk_exclusive {st : LockState} {blkIdx : Nat} (h : st.EntryOk blkIdx)
    (hpos : 0 < exclusiveHolders st.holds blkIdx) :
    ∃ v, st.fileBuf.LockMap.get blkIdx = some v ∧ v.tp = WriteLock ∧ v.refer = 0 ∧
      exclusiveHolders st.holds blkIdx = 1 ∧ sharedHolders st.holds blkIdx = 0 := by
  unfold LockState.EntryOk at h
  cases hg : st.fileBuf.LockMap.get blkIdx with
  | none =>
    rw [hg] at h
    have := h.1
    omega
  | some v =>
    rw [hg] at h
    rcases h with h | h
    · exact ⟨v, rfl, h⟩
    · have := h.2.2.2
      omega

theorem LockState.EntryOk_shared {st : LockState} {blkIdx : Nat} (h : st.EntryOk blkIdx)
    (hpos : 0 < sharedHolders st.holds blkIdx) :
    ∃ v, st.fileBuf.LockMap.get blkIdx = some v ∧ v.tp = ReadLock ∧ 1 ≤ v.refer ∧
      v.refer = (sharedHolders st.holds blkIdx : Int) ∧
      exclusiveHolders st.holds blkIdx = 0 := by
  unfold LockState.EntryOk at h
  cases hg : st.fileBuf.LockMap.get blkIdx with
  | none =>
    rw [hg] at h
    have := h.2
    omega
  | some v =>
    rw [hg] at h
    rcases h with h | h
    · have := h.2.2.2
      omega
    · exact ⟨v, rfl, h⟩

theorem LockState.EntryOk_congr {st st1 : LockState} {blkIdx : Nat}
    (hg : st1.fileBuf.LockMap.get blkIdx = st.fileBuf.LockMap.get blkIdx)
    (he : exclusiveHolders st1.holds blkIdx = exclusiveHolders st.holds blkIdx)
    (hs : sharedHolders st1.holds blkIdx = sharedHolders st.holds blkIdx)
    (h : st.EntryOk blkIdx) : st1.EntryOk blkIdx := by
  unfold LockState.EntryOk at h ⊢
  rw [hg, he, hs]
  exact h

theorem LockState.EntryOk_step {st st1 : LockState} (holder : Nat) (op : LockOp)
    (hinv : ∀ blkIdx, st.EntryOk blkIdx) (hb : op.Balanced holder st.holds)
    (hs : op.apply holder st = .ok st1) : ∀ blkIdx, st1.EntryOk blkIdx := by
  intro idx
  cases op with
  | LockBuffer b =>
    simp only [LockOp.apply, FileBuffer.LockBuffer] at hs
    cases hg : st.fileBuf.LockMap.get b with
    | some v => simp [hg, bind, Except.bind] at hs
    | none =>
      simp only [hg, bind, Except.bind, pure, Except.pure, Except.ok.injEq] at hs
      subst hs
      have h0 := hinv b
      unfold LockState.EntryOk at h0
      rw [hg] at h0
      by_cases hi : idx = b
      · subst hi
        unfold LockState.EntryOk
        simp only [GoMap.get_set_self, exclusiveHolders_cons, sharedHolders_cons, h0.1, h0.2]
        left
        simp
      · refine LockState.EntryOk_congr ?_ ?_ ?_ (hinv idx)
        · exact GoMap.get_set_ne _ _ hi
        · simp [exclusiveHolders_cons, Ne.symm hi]
        · simp [sharedHolders_cons, Ne.symm hi]
  | UnLockBuffer b =>
    have hm : (⟨holder, b, LockKind.exclusive⟩ : Hold) ∈ st.holds := hb
    obtain ⟨v, hg, htp, hrf, he, hsh⟩ :=
      LockState.EntryOk_exclusive (hinv b) (exclusiveHolders_pos hm rfl)
    simp only [LockOp.apply, FileBuffer.UnLockBuffer, hg, htp, hrf, Assert, decide_True,
      Bool.and_self, if_true, bind, Except.bind, pure, Except.pure, Except.ok.injEq] at hs
    subst hs
    have e1 := exclusiveHolders_erase hm idx
    have e2 := sharedHolders_erase hm idx
    by_cases hi : idx = b
    · subst hi
      simp only [true_and, if_true, reduceCtorEq, and_false, if_false, Nat.add_zero] at e1 e2
      unfold LockState.EntryOk
      simp only [GoMap.get_del_self]
      exact ⟨by omega, by omega⟩
    · have hne : ¬ (b = idx) := fun e => hi e.symm
      simp only [hne, false_and, if_false, Nat.add_zero] at e1 e2
      exact LockState.EntryOk_congr (GoMap.get_del_ne _ hi) e1 e2 (hinv idx)
  | RLockBuffer b =>
    simp only [LockOp.apply, FileBuffer.RLockBuffer] at hs
    cases hg : st.fileBuf.LockMap.get b with
    | none =>
      simp only [hg, bind, Except.bind, pure, Except.pure, Except.ok.injEq] at hs
      subst hs
      have h0 := hinv b
      unfold LockState.EntryOk at h0
      rw [hg] at h0
      by_cases hi : idx = b
      · subst hi
        unfold LockState.EntryOk
        simp only [GoMap.get_set_self, exclusiveHolders_cons, sharedHolders_cons, h0.1, h0.2]
        right
        simp
      · refine LockState.EntryOk_congr ?_ ?_ ?_ (hinv idx)
        · exact GoMap.get_set_ne _ _ hi
        · simp [exclusiveHolders_cons, Ne.symm hi]
        · simp [sharedHolders_cons, Ne.symm hi]
    | some v =>
      rw [hg] at hs
      dsimp only at hs
      by_cases hw : v.tp = WriteLock
      · simp [hw, bind, Except.bind] at hs
      · simp only [hw, if_false, bind, Except.bind, pure, Except.pure, Except.ok.injEq] at hs
        subst hs
        have h0 := hinv b
        unfold LockState.EntryOk at h0
        rw [hg] at h0
        rcases h0 with h0 | h0
        · exact absurd h0.1 hw
        · by_cases hi : idx = b
          · subst hi
            unfold LockState.EntryOk
            simp only [GoMap.get_set_self, exclusiveHolders_cons, sharedHolders_cons]
            right
            refine ⟨h0.1, by omega, ?_, ?_⟩
            · simp only [true_and, if_true, Nat.cast_add, Nat.cast_one]
              omega
            · simp [h0.2.2.2]
          · refine LockState.EntryOk_congr ?_ ?_ ?_ (hinv idx)
            · exact GoMap.get_set_ne _ _ hi
            · simp [exclusiveHolders_cons, Ne.symm hi]
            · simp [sharedHolders_cons, Ne.symm hi]
  | RUnLockBuffer b =>
    have hm : (⟨holder, b, LockKind.shared⟩ : Hold) ∈ st.holds := hb
    obtain ⟨v, hg, htp, hrf, hcnt, he⟩ :=
      LockState.EntryOk_shared (hinv b) (sharedHolders_pos hm rfl)
    have hrf1 : decide (v.refer ≥ 1) = true := decide_eq_true hrf
    simp only [LockOp.apply, FileBuffer.RUnLockBuffer, hg, htp, hrf1, Assert, decide_True,
      Bool.and_self, if_true, bind, Except.bind, pure, Except.pure] at hs
    have e1 := exclusiveHolders_erase hm idx
    have e2 := sharedHolders_erase hm idx
    by_cases hz : v.refer - 1 = 0
    · simp only [hz, if_true, Except.ok.injEq] at hs
      subst hs
      by_cases hi : idx = b
      · subst hi
        simp only [true_and, if_true, reduceCtorEq, and_false, if_false, Nat.add_zero] at e1 e2
        unfold LockState.EntryOk
        simp only [GoMap.get_del_self]
        exact ⟨by omega, by omega⟩
      · have hne : ¬ (b = idx) := fun e => hi e.symm
        simp only [hne, false_and, if_false, Nat.add_zero] at e1 e2
        exact LockState.EntryOk_congr (GoMap.get_del_ne _ hi) e1 e2 (hinv idx)
    · simp only [hz, if_false, Except.ok.injEq] at hs
      subst hs
      by_cases hi : idx = b
      · subst hi
        simp only [true_and, if_true, reduceCtorEq, and_false, if_false, Nat.add_zero] at e1 e2
        unfold LockState.EntryOk
        simp only [GoMap.get_set_self]
        right
        refine ⟨trivial, by omega, by omega, by omega⟩
      · have hne : ¬ (b = idx) := fun e => hi e.symm
        simp only [hne, false_and, if_false, Nat.add_zero] at e1 e2
        exact LockState.EntryOk_congr (GoMap.get_set_ne _ _ hi) e1 e2 (hinv idx)

theorem LockState.EntryOk_of_Reachable {st : LockState} (h : st.Reachable) :
    ∀ blkIdx, st.EntryOk blkIdx := by
  induction h with
  | init fileBuf h0 =>
    intro idx
    unfold LockState.EntryOk
    simp only [h0 idx]
    exact ⟨rfl, rfl⟩
  | step holder op _ hb hs ih => exact LockState.EntryOk_step holder op ih hb hs
  | frame fileBuf _ hl ih =>
    intro idx
    have h0 := ih idx
    unfold LockState.EntryOk at h0 ⊢
    simp only [hl]
    exact h0

theorem LockState.unlock_returns {st : LockState} (hinv : ∀ blkIdx, st.EntryOk blkIdx)
    (holder blkIdx : Nat) :
    ((⟨holder, blkIdx, LockKind.exclusive⟩ : Hold) ∈ st.holds →
      ∃ st1, (LockOp.UnLockBuffer blkIdx).apply holder st = .ok st1) ∧
    ((⟨holder, blkIdx, LockKind.shared⟩ : Hold) ∈ st.holds →
      ∃ st1, (LockOp.RUnLockBuffer blkIdx).apply holder st = .ok st1) := by
  constructor
  · intro hm
    obtain ⟨v, hg, htp, hrf, -, -⟩ :=
      LockState.EntryOk_exclusive (hinv blkIdx) (exclusiveHolders_pos hm rfl)
    simp only [LockOp.apply, FileBuffer.UnLockBuffer, hg, htp, hrf, Assert, decide_True,
      Bool.and_self, if_true, bind, Except.bind, pure, Except.pure]
    exact ⟨_, rfl⟩
  · intro hm
    obtain ⟨v, hg, htp, hrf, -, -⟩ :=
      LockState.EntryOk_shared (hinv blkIdx) (sharedHolders_pos hm rfl)
    have hrf1 : decide (v.refer ≥ 1) = true := decide_eq_true hrf
    by_cases hz : v.refer - 1 = 0
    · simp only [LockOp.apply, FileBuffer.RUnLockBuffer, hg, htp, hrf1, Assert, decide_True,
        Bool.and_self, if_true, bind, Except.bind, pure, Except.pure, hz]
      exact ⟨_, rfl⟩
    · simp only [LockOp.apply, FileBuffer.RUnLockBuffer, hg, htp, hrf1, Assert, decide_True,
        Bool.and_self, if_true, bind, Except.bind, pure, Except.pure, hz, if_false]
      exact ⟨_, rfl⟩

theorem LockState.lock_returns_or_spins (st : LockState) (holder blkIdx : Nat) :
    ((∃ st1, (LockOp.LockBuffer blkIdx).apply holder st = .ok st1) ∨
      (LockOp.LockBuffer blkIdx).apply holder st = .error Fault.blocked) ∧
    ((∃ st1, (LockOp.RLockBuffer blkIdx).apply holder st = .ok st1) ∨
      (LockOp.RLockBuffer blkIdx).apply holder st = .error Fault.blocked) := by
  constructor
  · cases hg : st.fileBuf.LockMap.get blkIdx with
    | none =>
      left
      simp only [LockOp.apply, FileBuffer.LockBuffer, hg, bind, Except.bind, pure, Except.pure]
      exact ⟨_, rfl⟩
    | some v =>
      right
      simp only [LockOp.apply, FileBuffer.LockBuffer, hg, bind, Except.bind]
  · cases hg : st.fileBuf.LockMap.get blkIdx with
    | none =>
      left
      simp only [LockOp.apply, FileBuffer.RLockBuffer, hg, bind, Except.bind, pure, Except.pure]
      exact ⟨_, rfl⟩
    | some v =>
      by_cases hw : v.tp = WriteLock
      · right
        simp only [LockOp.apply, FileBuffer.RLockBuffer, hg, hw, if_true, bind, Except.bind]
      · left
        simp only [LockOp.apply, FileBuffer.RLockBuffer, hg, hw, if_false, bind, Except.bind,
          pure, Except.pure]
        exact ⟨_, rfl⟩

theorem sampleLockState_reachable : sampleLockState.Reachable := by
  have h0 : LockState.Reachable { fileBuf := NewFileBuffer sampleEntry, holds := [] } :=
    LockState.Reachable.init _ (fun _ => rfl)
  have h1 := LockState.Reachable.step 1 (LockOp.LockBuffer 3) h0 trivial rfl
  have h2 := LockState.Reachable.step 2 (LockOp.RLockBuffer 5) h1 trivial rfl
  exact LockState.Reachable.step 3 (LockOp.RLockBuffer 5) h2 trivial rfl

/-- C21: take each call of `LockBuffer`, `UnLockBuffer`, `RLockBuffer` and `RUnLockBuffer` that
returns as one atomic step on the lock table of a file buffer, with unlock calls made only by
a holder of the lock (balanced pairs). In every state reached from a table without locks, each
block index has no entry and no holder, or an exclusive entry with `refer = 0` and exactly one
holder, or a shared entry whose `refer ≥ 1` is the number of outstanding shared holders
(`LockState.EntryOk`); a block with an exclusive holder has no other holder; a balanced
`UnLockBuffer` or `RUnLockBuffer` returns, so its assertion holds, and every balanced call
either returns, in a reachable state, or is a lock call that waits. -/
theorem C21_lock_exclusion (st : LockState) (h : st.Reachable) :
    (∀ blkIdx, st.EntryOk blkIdx) ∧
    (∀ hd ∈ st.holds, hd.kind = LockKind.exclusive →
      exclusiveHolders st.holds hd.blkIdx = 1 ∧ sharedHolders st.holds hd.blkIdx = 0) ∧
    (∀ holder blkIdx, (⟨holder, blkIdx, LockKind.exclusive⟩ : Hold) ∈ st.holds →
      ∃ st1, (LockOp.UnLockBuffer blkIdx).apply holder st = .ok st1 ∧ st1.Reachable) ∧
    (∀ holder blkIdx, (⟨holder, blkIdx, LockKind.shared⟩ : Hold) ∈ st.holds →
      ∃ st1, (LockOp.RUnLockBuffer blkIdx).apply holder st = .ok st1 ∧ st1.Reachable) ∧
    (∀ holder op, LockOp.Balanced holder op st.holds →
      (∃ st1, LockOp.apply holder op st = .ok st1 ∧ st1.Reachable) ∨
      (LockOp.apply holder op st = .error Fault.blocked ∧
        ∃ blkIdx, op = LockOp.LockBuffer blkIdx ∨ op = LockOp.RLockBuffer blkIdx)) := by
  have hinv := LockState.EntryOk_of_Reachable h
  have hun : ∀ holder blkIdx, (⟨holder, blkIdx, LockKind.exclusive⟩ : Hold) ∈ st.holds →
      ∃ st1, (LockOp.UnLockBuffer blkIdx).apply holder st = .ok st1 ∧ st1.Reachable := by
    intro holder blkIdx hm
    obtain ⟨st1, h1⟩ := (LockState.unlock_returns hinv holder blkIdx).1 hm
    exact ⟨st1, h1, LockState.Reachable.step holder (LockOp.UnLockBuffer blkIdx) h hm h1⟩
  have hrun : ∀ holder blkIdx, (⟨holder, blkIdx, LockKind.shared⟩ : Hold) ∈ st.holds →
      ∃ st1, (LockOp.RUnLockBuffer blkIdx).apply holder st = .ok st1 ∧ st1.Reachable := by
    intro holder blkIdx hm
    obtain ⟨st1, h1⟩ := (LockState.unlock_returns hinv holder blkIdx).2 hm
    exact ⟨st1, h1, LockState.Reachable.step holder (LockOp.RUnLockBuffer blkIdx) h hm h1⟩
  refine ⟨hinv, ?_, hun, hrun, ?_⟩
  · intro hd hm hk
    obtain ⟨v, -, -, -, he, hs⟩ :=
      LockState.EntryOk_exclusive (hinv hd.blkIdx) (exclusiveHolders_pos hm hk)
    exact ⟨he, hs⟩
  · intro holder op hb
    cases op with
    | LockBuffer b =>
      rcases (LockState.lock_returns_or_spins st holder b).1 with ⟨st1, h1⟩ | h1
      · exact Or.inl ⟨st1, h1, LockState.Reachable.step holder _ h hb h1⟩
      · exact Or.inr ⟨h1, b, Or.inl rfl⟩
    | UnLockBuffer b => exact Or.inl (hun holder b hb)
    | RLockBuffer b =>
      rcases (LockState.lock_returns_or_spins st holder b).2 with ⟨st1, h1⟩ | h1
      · exact Or.inl ⟨st1, h1, LockState.Reachable.step holder _ h hb h1⟩
      · exact Or.inr ⟨h1, b, Or.inr rfl⟩
    | RUnLockBuffer b => exact Or.inl (hrun holder b hb)

theorem C21_lock_exclusion_witness :
    sampleLockState.fileBuf.LockMap.get 3 = some { tp := WriteLock, refer := 0 } ∧
      sampleLockState.fileBuf.LockMap.get 5 = some { tp := ReadLock, refer := 2 } ∧
      exclusiveHolders sampleLockState.holds 3 = 1 ∧ sharedHolders sampleLockState.holds 5 = 2 ∧
      (∀ blkIdx, sampleLockState.EntryOk blkIdx) :=
  ⟨rfl, rfl, rfl, rfl, (C21_lock_exclusion sampleLockState sampleLockState_reachable).1⟩

/-! ## `WriteOp`: the outcome of each branch -/

theorem Buffer.loaded_run (buf : Buffer) (fe : FileEntry) (op : RWBlockOp) (now : Nat)
    (helm : buf.elm = false) (hfit : op.RwOffset ≤ fe.BlockSize) :
    (do
      let buffer1 ← buf.ReSet fe op.Index
      let buffer2 ← buffer1.Skip op.RwOffset
      Assert (buffer2.CanMerge op.RwOffset)
      buffer2.MergeData op.rwBuf now) = .ok (buf.loaded fe op now) := by
  have hlen : ¬ (op.RwOffset > (if buf.dataBuf.length % U32 < fe.BlockSize then
      List.replicate fe.BlockSize 0 else buf.dataBuf).length) := by
    split
    · simp only [List.length_replicate]
      omega
    · have := Nat.mod_le buf.dataBuf.length U32
      omega
  simp only [Buffer.ReSet, helm, Bool.not_false, Assert, if_true, bind, Except.bind, pure,
    Except.pure, Buffer.Skip, decide_True, Buffer.CanMerge, Nat.zero_add, Nat.add_zero,
    Buffer.MergeData, hlen, if_false, Buffer.loaded]

theorem BlockCache.putBuffer_run (c : BlockCache) {fid : Nat} {fb : FileBuffer} (idx : Nat)
    (b : Buffer) (h : c.Cache.get fid = some fb) :
    c.putBuffer fid idx b = .ok (c.withBuffer fid idx fb b) := by
  simp only [BlockCache.putBuffer, BlockCache.onFileBuf, h, BlockCache.withBuffer]

theorem BlockCache.linked_run (c : BlockCache) {fid : Nat} {fb : FileBuffer} (idx : Nat)
    (b : Buffer) (now : Nat) (h : c.Cache.get fid = some fb) :
    (c.DoLru b now).2.putBuffer fid idx (c.DoLru b now).1 = .ok (c.linked fid idx fb b now) := by
  rw [BlockCache.putBuffer_run _ idx _ (by rw [BlockCache.DoLru_Cache]; exact h)]
  rfl

theorem BlockCache.DetachBuffer_run (c : BlockCache) {fid : Nat} {fb : FileBuffer} (idx : Nat)
    (h : c.Cache.get fid = some fb) :
    c.DetachBuffer fid idx =
      .ok { c with Cache := c.Cache.set fid { fb with BufferMap := fb.BufferMap.del idx } } := by
  simp only [BlockCache.DetachBuffer, BlockCache.onFileBuf, h, FileBuffer.DetachBuffer]

theorem WCache.WriteOpFlushFirst_eq (fe : FileEntry) (fid : Nat) (op : RWBlockOp)
    (buffer : Buffer) (cache0 : BlockCache) (s : CacheState) (fb : FileBuffer) (bfe : FileEntry)
    (hc0 : cache0.Cache.get fid = some fb) (hbfe : buffer.fe = some bfe)
    (hdata : buffer.Offset + buffer.Len ≤ buffer.dataBuf.length) (helm : buffer.elm = false)
    (hfe : op.fe = fe) (hsz : op.RwSize = op.rwBuf.length % U32)
    (hfit : op.RwOffset + op.RwSize ≤ fe.BlockSize) :
    WCache.WriteOpFlushFirst fe fid op buffer cache0 s =
      (let r := WCache.DirectWrite fe ((buffer.dataBuf.drop buffer.Offset).take buffer.Len)
        (buffer.BlkIdx * bfe.BlockSize + buffer.Offset) s
      if r.1.2 ≠ none then
        .ok ((true, r.1.1, r.1.2), r.2.setW (cache0.linked fid op.Index fb buffer s.now))
      else if op.RwOffset + op.RwSize = fe.BlockSize then
        let r2 := WCache.DirectWrite fe op.rwBuf op.GetFileOffset
          (r.2.setW (cache0.released fid op.Index fb buffer))
        .ok ((true, r2.1.1, r2.1.2), r2.2)
      else
        .ok ((true, op.RwSize, none),
          r.2.setW (cache0.linked fid op.Index fb (buffer.loaded fe op s.now) s.now))) := by
  have hd : ¬ (buffer.Offset + buffer.Len > buffer.dataBuf.length) := by omega
  have hfull := RWBlockOp.IsFull_run op hsz (by rw [hfe]; exact hfit)
  rw [hfe] at hfull
  unfold WCache.WriteOpFlushFirst
  simp only [Buffer.GetData, hd, if_false, Buffer.GetFileOffset, Buffer.GetAlignOffset, hbfe,
    bind, Except.bind, pure, Except.pure]
  split
  · rw [BlockCache.linked_run cache0 op.Index buffer s.now hc0]
  · rw [hfull]
    dsimp only
    by_cases hf : op.RwOffset + op.RwSize = fe.BlockSize
    · simp only [hf, decide_True, if_true, BlockCache.DetachBuffer_run cache0 op.Index hc0]
      rfl
    · have hrun := Buffer.loaded_run buffer fe op s.now helm (by omega)
      simp only [bind, Except.bind] at hrun
      simp only [hf, decide_False, Bool.false_eq_true, if_false]
      cases hr : buffer.ReSet fe op.Index with
      | error e => simp [hr] at hrun
      | ok buffer1 =>
        simp only [hr] at hrun ⊢
        cases hk : buffer1.Skip op.RwOffset with
        | error e => simp [hk] at hrun
        | ok buffer2 =>
          simp only [hk] at hrun ⊢
          cases ha : Assert (buffer2.CanMerge op.RwOffset) with
          | error e => simp [ha] at hrun
          | ok u =>
            simp only [ha] at hrun ⊢
            rw [hrun]
            dsimp only
            rw [BlockCache.linked_run cache0 op.Index _ s.now hc0]

theorem WCache.WriteOp_exist (fe : FileEntry) (fid : Nat) (op : RWBlockOp) (s : CacheState)
    (fb : FileBuffer) (b : Buffer) (hfb : s.wCache.Cache.get fid = some fb)
    (hb : fb.BufferMap.get op.Index = some b) :
    WCache.WriteOp fe fid op s =
      if b.Offset + b.Len = op.RwOffset then
        WCache.WriteOpMerge fe fid op { b with elm := false }
          (s.wCache.toBlockCache.RemoveLru b).2 s
      else
        WCache.WriteOpFlushFirst fe fid op { b with elm := false }
          (s.wCache.toBlockCache.RemoveLru b).2 s := by
  simp only [WCache.WriteOp, BlockCache.GetBuffer, BlockCache.fileBuf, hfb, FileBuffer.GetBuffer,
    hb, bind, Except.bind, BlockCache.RemoveLru_fst, Buffer.CanMerge, decide_eq_true_eq]

theorem WCache.WriteOp_absent (fe : FileEntry) (fid : Nat) (op : RWBlockOp) (s : CacheState)
    (fb : FileBuffer) (hfb : s.wCache.Cache.get fid = some fb)
    (hb : fb.BufferMap.get op.Index = none) :
    WCache.WriteOp fe fid op s = WCache.WriteOpNew fe fid op s := by
  simp only [WCache.WriteOp, BlockCache.GetBuffer, BlockCache.fileBuf, hfb, FileBuffer.GetBuffer,
    hb, bind, Except.bind]

theorem BlockCache.RemoveLru_LruList (c : BlockCache) (b : Buffer) :
    (c.RemoveLru b).2.LruList = if b.elm then c.LruList.erase b.Id else c.LruList := by
  unfold BlockCache.RemoveLru
  split <;> rfl

theorem BlockCache.linked_get (c : BlockCache) (fid idx : Nat) (fb : FileBuffer) (b : Buffer)
    (now : Nat) :
    (c.linked fid idx fb b now).Cache.get fid =
      some { fb with BufferMap := fb.BufferMap.set idx { b with LastUpdateTime := now, elm := true } } := by
  simp only [BlockCache.linked, BlockCache.withBuffer, GoMap.get_set_self, BlockCache.DoLru_fst]

theorem BlockCache.linked_FreeList (c : BlockCache) (fid idx : Nat) (fb : FileBuffer)
    (b : Buffer) (now : Nat) : (c.linked fid idx fb b now).FreeList = c.FreeList := by
  simp only [BlockCache.linked, BlockCache.withBuffer, BlockCache.DoLru_FreeList]

theorem BlockCache.linked_LruList (c : BlockCache) (fid idx : Nat) (fb : FileBuffer)
    (b : Buffer) (now : Nat) (helm : b.elm = false) :
    (c.linked fid idx fb b now).LruList = b.Id :: c.LruList := by
  simp only [BlockCache.linked, BlockCache.withBuffer, BlockCache.DoLru, helm,
    Bool.false_eq_true, if_false]

theorem BlockCache.linked_buffer (c : BlockCache) (fid idx : Nat) (fb : FileBuffer) (b : Buffer)
    (now : Nat) :
    ∃ fb1, (c.linked fid idx fb b now).Cache.get fid = some fb1 ∧
      fb1.GetBuffer idx = some (Buffer.mk b.Id b.fe b.BlkIdx b.Offset b.Len b.dataBuf now true) :=
  ⟨_, BlockCache.linked_get c fid idx fb b now,
    by simp only [FileBuffer.GetBuffer, GoMap.get_set_self]⟩

/-- C28: let `WriteOp` meet a block whose buffer `b` (with a file entry, data inside `dataBuf`)
cannot take the op, `op.RwOffset ≠ b.Offset + b.Len`, for an op of `fe` that lies inside its
block. Then `WriteOp` returns, and the first proxy call it makes is the write
of the current bytes of `b` at the file offset of `b`. If that write fails, its error
is returned, no other call is made, and the block keeps a buffer with the `Offset`, `Len` and
data of `b`, linked in the LRU list. If it succeeds and the op ends at the end of the block,
the buffer is detached and put at the back of the free list, and the op is written directly.
If it succeeds otherwise, no other call is made and the buffer is reset to hold exactly the
op: `Offset = op.RwOffset`, `Len = op.RwSize`, its data are the bytes of the op, and it is
linked in the LRU list. In no case are the bytes of the op appended to the data of `b`. -/
theorem C28_merge_contiguity (fe : FileEntry) (fid : Nat) (op : RWBlockOp) (s : CacheState)
    (fb : FileBuffer) (b : Buffer) (bfe : FileEntry)
    (hfb : s.wCache.Cache.get fid = some fb) (hb : fb.GetBuffer op.Index = some b)
    (hnc : op.RwOffset ≠ b.Offset + b.Len) (hbfe : b.fe = some bfe)
    (hdata : b.Offset + b.Len ≤ b.dataBuf.length) (hfe : op.fe = fe)
    (hsz : op.rwBuf.length = op.RwSize) (hfit : op.RwOffset + op.RwSize ≤ fe.BlockSize)
    (hbs : fe.BlockSize < U32) :
    ∃ r s1, WCache.WriteOp fe fid op s = .ok (r, s1) ∧
      (∃ later, s1.proxyClient.calls = later ++
        ProxyCall.Write fe.Id ((b.dataBuf.drop b.Offset).take b.Len)
          (b.BlkIdx * bfe.BlockSize + b.Offset) :: s.proxyClient.calls) ∧
      ((Writer.Write fe.Id ((b.dataBuf.drop b.Offset).take b.Len)
          (b.BlkIdx * bfe.BlockSize + b.Offset) s.proxyClient).1.2 ≠ none →
        r = (true, (Writer.Write fe.Id ((b.dataBuf.drop b.Offset).take b.Len)
          (b.BlkIdx * bfe.BlockSize + b.Offset) s.proxyClient).1) ∧
        s1.proxyClient.calls = ProxyCall.Write fe.Id ((b.dataBuf.drop b.Offset).take b.Len)
          (b.BlkIdx * bfe.BlockSize + b.Offset) :: s.proxyClient.calls ∧
        s1.wCache.FreeList = s.wCache.FreeList ∧ b.Id ∈ s1.wCache.LruList ∧
        ∃ fb1 b1, s1.wCache.Cache.get fid = some fb1 ∧ fb1.GetBuffer op.Index = some b1 ∧
          b1.Id = b.Id ∧ b1.Offset = b.Offset ∧ b1.Len = b.Len ∧ b1.dataBuf = b.dataBuf ∧
          b1.elm = true) ∧
      ((Writer.Write fe.Id ((b.dataBuf.drop b.Offset).take b.Len)
          (b.BlkIdx * bfe.BlockSize + b.Offset) s.proxyClient).1.2 = none →
        op.RwOffset + op.RwSize = fe.BlockSize →
        r.1 = true ∧
        s1.proxyClient.calls = ProxyCall.Write fe.Id op.rwBuf op.GetFileOffset ::
          ProxyCall.Write fe.Id ((b.dataBuf.drop b.Offset).take b.Len)
            (b.BlkIdx * bfe.BlockSize + b.Offset) :: s.proxyClient.calls ∧
        s1.wCache.FreeList = s.wCache.FreeList ++ [{ b with elm := false }] ∧
        ∃ fb1, s1.wCache.Cache.get fid = some fb1 ∧ fb1.GetBuffer op.Index = none) ∧
      ((Writer.Write fe.Id ((b.dataBuf.drop b.Offset).take b.Len)
          (b.BlkIdx * bfe.BlockSize + b.Offset) s.proxyClient).1.2 = none →
        op.RwOffset + op.RwSize ≠ fe.BlockSize →
        r = (true, op.RwSize, none) ∧
        s1.proxyClient.calls = ProxyCall.Write fe.Id ((b.dataBuf.drop b.Offset).take b.Len)
          (b.BlkIdx * bfe.BlockSize + b.Offset) :: s.proxyClient.calls ∧
        s1.wCache.FreeList = s.wCache.FreeList ∧ b.Id ∈ s1.wCache.LruList ∧
        ∃ fb1 b1, s1.wCache.Cache.get fid = some fb1 ∧ fb1.GetBuffer op.Index = some b1 ∧
          b1.Id = b.Id ∧ b1.Offset = op.RwOffset ∧ b1.Len = op.RwSize ∧
          (b1.dataBuf.drop b1.Offset).take b1.Len = op.rwBuf ∧ b1.elm = true) := by
  have hb1 : fb.BufferMap.get op.Index = some b := hb
  have hne : ¬ (b.Offset + b.Len = op.RwOffset) := fun e => hnc e.symm
  have hc0 : (s.wCache.toBlockCache.RemoveLru b).2.Cache.get fid = some fb := by
    rw [BlockCache.RemoveLru_Cache]
    exact hfb
  have hsz32 : op.RwSize = op.rwBuf.length % U32 := by
    rw [hsz, Nat.mod_eq_of_lt (by omega)]
  have heq := WCache.WriteOpFlushFirst_eq fe fid op { b with elm := false }
    (s.wCache.toBlockCache.RemoveLru b).2 s fb bfe hc0 hbfe hdata rfl hfe hsz32 hfit
  rw [WCache.WriteOp_exist fe fid op s fb b hfb hb1, if_neg hne, heq]
  dsimp only
  by_cases hw : (WCache.DirectWrite fe ((b.dataBuf.drop b.Offset).take b.Len)
      (b.BlkIdx * bfe.BlockSize + b.Offset) s).1.2 ≠ none
  · rw [if_pos hw]
    refine ⟨_, _, rfl, ⟨[], by simp⟩, ?_, ?_, ?_⟩
    · intro _
      refine ⟨rfl, by simp, ?_, ?_, ?_⟩
      · simp [BlockCache.linked_FreeList, BlockCache.RemoveLru_FreeList]
      · simp [BlockCache.linked_LruList]
      · obtain ⟨fb1, h1, h2⟩ := BlockCache.linked_buffer (s.wCache.toBlockCache.RemoveLru b).2
          fid op.Index fb { b with elm := false } s.now
        exact ⟨fb1, _, h1, h2, rfl, rfl, rfl, rfl, rfl⟩
    · intro h0
      exact absurd h0 hw
    · intro h0
      exact absurd h0 hw
  · rw [if_neg hw]
    have hw0 : (Writer.Write fe.Id ((b.dataBuf.drop b.Offset).take b.Len)
        (b.BlkIdx * bfe.BlockSize + b.Offset) s.proxyClient).1.2 = none := by
      simpa [WCache.DirectWrite] using hw
    by_cases hf : op.RwOffset + op.RwSize = fe.BlockSize
    · rw [if_pos hf]
      refine ⟨_, _, rfl, ⟨[ProxyCall.Write fe.Id op.rwBuf op.GetFileOffset], by simp⟩, ?_, ?_, ?_⟩
      · intro h1
        exact absurd hw0 h1
      · intro _ _
        refine ⟨rfl, by simp, ?_, ?_⟩
        · simp [BlockCache.released, BlockCache.RemoveLru_FreeList]
        · exact ⟨FileBuffer.mk fb.fe (fb.BufferMap.del op.Index) fb.LockMap fb.pw,
            by simp [BlockCache.released, GoMap.get_set_self],
            by simp [FileBuffer.GetBuffer, GoMap.get_del_self]⟩
      · intro _ h2
        exact absurd hf h2
    · rw [if_neg hf]
      refine ⟨_, _, rfl, ⟨[], by simp⟩, ?_, ?_, ?_⟩
      · intro h1
        exact absurd hw0 h1
      · intro _ h2
        exact absurd h2 hf
      · intro _ _
        refine ⟨rfl, by simp, ?_, ?_, ?_⟩
        · simp [BlockCache.linked_FreeList, BlockCache.RemoveLru_FreeList]
        · simp [BlockCache.linked_LruList, Buffer.loaded]
        · obtain ⟨fb1, h1, h2⟩ := BlockCache.linked_buffer (s.wCache.toBlockCache.RemoveLru b).2
            fid op.Index fb (Buffer.loaded { b with elm := false } fe op s.now) s.now
          refine ⟨fb1, _, h1, h2, rfl, rfl, hsz, ?_, rfl⟩
          simp only [Buffer.loaded]
          rw [← (holdsAt_iff _ _ _)]
          apply holdsAt_goCopyAt
          split
          · simp only [List.length_replicate]
            omega
          · have := Nat.mod_le b.dataBuf.length U32
            omega

theorem C28_merge_contiguity_witness :
    ∃ r s1, WCache.WriteOp sampleEntry 7 sampleRewriteOp sampleDirty = .ok (r, s1) ∧
      ∃ later, s1.proxyClient.calls = later ++
        ProxyCall.Write 7 [1, 2] 0 :: sampleDirty.proxyClient.calls :=
  match C28_merge_contiguity sampleEntry 7 sampleRewriteOp sampleDirty sampleFileBuffer
      sampleBuffer sampleEntry rfl rfl (by decide) rfl (by decide) rfl rfl (by decide)
      (by decide) with
  | ⟨r, s1, h, hl, _⟩ => ⟨r, s1, h, hl⟩

theorem BlockCache.withBuffer_linked (c : BlockCache) (fid idx : Nat) (fb : FileBuffer)
    (b b1 : Buffer) (now : Nat) :
    (c.withBuffer fid idx fb b).linked fid idx
        { fb with BufferMap := fb.BufferMap.set idx b } b1 now =
      c.linked fid idx fb b1 now := by
  simp only [BlockCache.linked, BlockCache.withBuffer, BlockCache.DoLru]
  split <;> simp [GoMap.set_set]

theorem BlockCache.AttachBuffer_run (c : BlockCache) {fid : Nat} {fb : FileBuffer} (idx : Nat)
    (b : Buffer) (h : c.Cache.get fid = some fb) (hnone : fb.BufferMap.get idx = none) :
    c.AttachBuffer fid idx b = .ok (c.withBuffer fid idx fb b) := by
  simp only [BlockCache.AttachBuffer, BlockCache.onFileBuf, h, FileBuffer.AttachBuffer, hnone,
    Option.isNone_none, Assert, if_true, bind, Except.bind, pure, Except.pure,
    BlockCache.withBuffer]

theorem WCache.WriteOpNew_eq (fe : FileEntry) (fid : Nat) (op : RWBlockOp) (s : CacheState)
    (fb : FileBuffer) (hfb : s.wCache.Cache.get fid = some fb)
    (hnone : fb.BufferMap.get op.Index = none) (hfe : op.fe = fe)
    (hsz : op.rwBuf.length = op.RwSize) (hfit : op.RwOffset + op.RwSize ≤ fe.BlockSize)
    (hbs : fe.BlockSize < U32) :
    WCache.WriteOpNew fe fid op s =
      if op.RwOffset + op.RwSize = fe.BlockSize ∧ s.wCache.chSync = none then
        .ok ((true, (WCache.DirectWrite fe op.rwBuf op.GetFileOffset s).1),
          (WCache.DirectWrite fe op.rwBuf op.GetFileOffset s).2)
      else
        match s.wCache.FreeList with
        | [] =>
          .ok ((true, (WCache.DirectWrite fe op.rwBuf op.GetFileOffset s).1),
            (WCache.DirectWrite fe op.rwBuf op.GetFileOffset s).2)
        | f0 :: rest =>
          if f0.elm then .error Fault.assert
          else if op.RwOffset + op.RwSize = fe.BlockSize then
            .ok ((false, op.RwSize, none),
              (s.setW ((BlockCache.mk s.wCache.BufferMax rest s.wCache.Cache s.wCache.LruList
                s.wCache.ExpireTime s.wCache.Stop).withBuffer fid op.Index fb
                  (f0.loaded fe op s.now))).queued fid op.Index)
          else
            .ok ((true, op.RwSize, none),
              s.setW ((BlockCache.mk s.wCache.BufferMax rest s.wCache.Cache s.wCache.LruList
                s.wCache.ExpireTime s.wCache.Stop).linked fid op.Index fb
                  (f0.loaded fe op s.now) s.now)) := by
  have hsz32 : op.RwSize = op.rwBuf.length % U32 := by
    rw [hsz, Nat.mod_eq_of_lt (by omega)]
  have hfull := RWBlockOp.IsFull_run op hsz32 (by rw [hfe]; exact hfit)
  rw [hfe] at hfull
  unfold WCache.WriteOpNew
  simp only [hfull, bind, Except.bind, WCache.SyncIo, Bool.and_eq_true, decide_eq_true_eq,
    Option.isNone_iff_eq_none]
  split
  · rfl
  · rename_i hmode
    cases hfl : s.wCache.FreeList with
    | nil =>
      simp only [BlockCache.AllocBuffer, hfl, pure, Except.pure, CacheState.setW_self]
    | cons f0 rest =>
      cases helm : f0.elm with
      | true =>
        simp [BlockCache.AllocBuffer, hfl, Buffer.ReSet, helm, Assert, bind, Except.bind]
      | false =>
        have hrun := Buffer.loaded_run f0 fe op s.now helm (by omega)
        simp only [bind, Except.bind] at hrun
        simp only [BlockCache.AllocBuffer, hfl, helm, Bool.false_eq_true, if_false]
        cases hr : f0.ReSet fe op.Index with
        | error e => simp [hr] at hrun
        | ok buffer1 =>
          simp only [hr] at hrun ⊢
          cases hk : buffer1.Skip op.RwOffset with
          | error e => simp [hk] at hrun
          | ok buffer2 =>
            simp only [hk] at hrun ⊢
            cases ha : Assert (buffer2.CanMerge op.RwOffset) with
            | error e => simp [ha] at hrun
            | ok u =>
              simp only [ha] at hrun ⊢
              rw [hrun]
              dsimp only
              have hatt := BlockCache.AttachBuffer_run
                (BlockCache.mk s.wCache.BufferMax rest s.wCache.Cache s.wCache.LruList
                  s.wCache.ExpireTime s.wCache.Stop) op.Index (f0.loaded fe op s.now) hfb hnone
              rw [hatt]
              dsimp only
              have hle : (f0.loaded fe op s.now).Offset + (f0.loaded fe op s.now).Len ≤
                  fe.BlockSize := by
                simp only [Buffer.loaded, hsz]
                exact hfit
              simp only [Buffer.IsFull, Assert, hle, decide_True, if_true, pure, Except.pure]
              by_cases hf : op.RwOffset + op.RwSize = fe.BlockSize
              · have hf2 : (f0.loaded fe op s.now).Offset + (f0.loaded fe op s.now).Len =
                    fe.BlockSize := by
                  simp only [Buffer.loaded, hsz]
                  exact hf
                have hm : ¬ (s.wCache.chSync = none) := fun h => hmode ⟨hf, h⟩
                have hm2 : s.wCache.chSync.isNone = false := by
                  cases hc : s.wCache.chSync with
                  | none => exact absurd hc hm
                  | some q => rfl
                simp only [hf2, hf, decide_True, if_true, hm2, Bool.not_false, Bool.and_self, bind,
                  Except.bind, hfull]
                rfl
              · have hf2 : ¬ ((f0.loaded fe op s.now).Offset + (f0.loaded fe op s.now).Len =
                    fe.BlockSize) := by
                  simp only [Buffer.loaded, hsz]
                  exact hf
                simp only [hf2, hf, decide_False, Bool.false_eq_true, if_false, bind, Except.bind]
                have hget : ((BlockCache.mk s.wCache.BufferMax rest s.wCache.Cache
                    s.wCache.LruList s.wCache.ExpireTime s.wCache.Stop).withBuffer fid op.Index fb
                    (f0.loaded fe op s.now)).Cache.get fid =
                    some (FileBuffer.mk fb.fe (fb.BufferMap.set op.Index (f0.loaded fe op s.now))
                      fb.LockMap fb.pw) := by
                  simp only [BlockCache.withBuffer, GoMap.get_set_self]
                rw [BlockCache.linked_run _ op.Index _ s.now hget]
                dsimp only
                rw [BlockCache.withBuffer_linked]

theorem WCache.WriteOpMerge_eq (fe : FileEntry) (fid : Nat) (op : RWBlockOp)
    (buffer0 : Buffer) (cache0 : BlockCache) (s : CacheState) (fb : FileBuffer) (bfe : FileEntry)
    (hc0 : cache0.Cache.get fid = some fb) (hbfe : buffer0.fe = some bfe)
    (hcan : buffer0.Offset + buffer0.Len = op.RwOffset)
    (hroom : fe.BlockSize ≤ buffer0.dataBuf.length)
    (hsz : op.rwBuf.length = op.RwSize) (hfit : op.RwOffset + op.RwSize ≤ fe.BlockSize) :
    WCache.WriteOpMerge fe fid op buffer0 cache0 s =
      if op.RwOffset + op.RwSize = fe.BlockSize then
        if s.wCache.chSync ≠ none then
          .ok ((false, op.RwSize, none),
            (s.setW (cache0.withBuffer fid op.Index fb (buffer0.merged op s.now))).queued fid
              op.Index)
        else
          let r := WCache.DirectWrite fe
            (((buffer0.merged op s.now).dataBuf.drop (buffer0.merged op s.now).Offset).take
              (buffer0.merged op s.now).Len)
            ((buffer0.merged op s.now).BlkIdx * bfe.BlockSize + (buffer0.merged op s.now).Offset) s
          if r.1.2 ≠ none then
            .ok ((true, r.1.1, r.1.2),
              r.2.setW (cache0.linked fid op.Index fb (buffer0.merged op s.now) s.now))
          else
            .ok ((true, op.RwSize, none),
              r.2.setW (cache0.released fid op.Index fb (buffer0.merged op s.now)))
      else
        .ok ((true, op.RwSize, none),
          s.setW (cache0.linked fid op.Index fb (buffer0.merged op s.now) s.now)) := by
  have hm : ¬ (buffer0.Offset + buffer0.Len > buffer0.dataBuf.length) := by omega
  have hmerge : buffer0.MergeData op.rwBuf s.now = .ok (buffer0.merged op s.now) := by
    simp only [Buffer.MergeData, hm, if_false, Buffer.merged]
  have hle : (buffer0.merged op s.now).Offset + (buffer0.merged op s.now).Len ≤ fe.BlockSize := by
    simp only [Buffer.merged, hsz]
    omega
  have hfulliff : ((buffer0.merged op s.now).Offset + (buffer0.merged op s.now).Len =
      fe.BlockSize) ↔ op.RwOffset + op.RwSize = fe.BlockSize := by
    simp only [Buffer.merged, hsz]
    omega
  unfold WCache.WriteOpMerge
  simp only [hmerge, bind, Except.bind, Buffer.IsFull, Assert, hle, decide_True, if_true, pure,
    Except.pure, hfulliff, decide_eq_true_eq]
  by_cases hf : op.RwOffset + op.RwSize = fe.BlockSize
  · simp only [hf, if_true]
    cases hmode : s.wCache.chSync with
    | some q =>
      simp only [WCache.SyncIo, hmode, Option.isNone_some, Bool.not_false, if_true, ne_eq,
        reduceCtorEq, not_false_eq_true, BlockCache.putBuffer_run cache0 op.Index _ hc0]
      rfl
    | none =>
      have hd : ¬ ((buffer0.merged op s.now).Offset + (buffer0.merged op s.now).Len >
          (buffer0.merged op s.now).dataBuf.length) := by
        simp only [Buffer.merged, goCopyAt_length, hsz]
        omega
      have hfe2 : (buffer0.merged op s.now).fe = some bfe := hbfe
      simp only [WCache.SyncIo, hmode, Option.isNone_none, Bool.not_true, Bool.false_eq_true,
        if_false, ne_eq, not_true_eq_false, Buffer.GetData, hd, Buffer.GetFileOffset,
        Buffer.GetAlignOffset, hfe2, bind, Except.bind, pure, Except.pure]
      rw [BlockCache.linked_run cache0 op.Index _ s.now hc0,
        BlockCache.DetachBuffer_run cache0 op.Index hc0]
      split_ifs <;> rfl
  · simp only [hf, if_false]
    rw [BlockCache.linked_run cache0 op.Index _ s.now hc0]

/-! ## Go maps: entries up to order -/

theorem GoMap.getL_eq_none_iff {β : Type} (l : List (Nat × β)) (k : Nat) :
    GoMap.getL l k = none ↔ k ∉ l.map Prod.fst := by
  induction l with
  | nil => simp [GoMap.getL]
  | cons p t ih =>
    obtain ⟨k1, v⟩ := p
    by_cases h : k1 = k
    · simp [GoMap.getL, h]
    · have h2 : ¬ (k = k1) := fun e => h e.symm
      simp [GoMap.getL, h, h2, ih]

theorem GoMap.setL_of_none {β : Type} (l : List (Nat × β)) (k : Nat) (v : β)
    (h : GoMap.getL l k = none) : GoMap.setL l k v = l ++ [(k, v)] := by
  induction l with
  | nil => rfl
  | cons p t ih =>
    obtain ⟨k1, v1⟩ := p
    by_cases hk : k1 = k
    · simp [GoMap.getL, hk] at h
    · simp only [GoMap.getL, hk, if_false] at h
      simp [GoMap.setL, hk, ih h]

theorem GoMap.filter_of_none {β : Type} (l : List (Nat × β)) (k : Nat)
    (h : k ∉ l.map Prod.fst) : l.filter (fun p => !decide (p.1 = k)) = l := by
  rw [List.filter_eq_self]
  intro p hp
  have : p.1 ≠ k := fun e => h (by rw [← e]; exact List.mem_map_of_mem _ hp)
  simp [this]

theorem GoMap.entries_of_get {β : Type} (m : GoMap β) {k : Nat} {v0 : β}
    (hk : m.keys.Nodup) (h : m.get k = some v0) :
    m.entries.Perm ((k, v0) :: (m.del k).entries) := by
  obtain ⟨l⟩ := m
  simp only [GoMap.keys, GoMap.get, GoMap.del] at hk h ⊢
  induction l with
  | nil => simp [GoMap.getL] at h
  | cons p t ih =>
    obtain ⟨k1, v1⟩ := p
    simp only [List.map_cons, List.nodup_cons] at hk
    by_cases e : k1 = k
    · subst e
      simp only [GoMap.getL, if_true, Option.some.injEq] at h
      subst h
      simp only [List.filter_cons, decide_True, Bool.not_true, Bool.false_eq_true, if_false]
      rw [GoMap.filter_of_none t k1 hk.1]
    · simp only [GoMap.getL, e, if_false] at h
      simp only [List.filter_cons, e, decide_False, Bool.not_false, if_true]
      exact ((ih hk.2 h).cons (k1, v1)).trans (List.Perm.swap _ _ _)

theorem GoMap.entries_set {β : Type} (m : GoMap β) (k : Nat) (v : β) (hk : m.keys.Nodup) :
    (m.set k v).entries.Perm ((k, v) :: (m.del k).entries) := by
  obtain ⟨l⟩ := m
  simp only [GoMap.keys, GoMap.set, GoMap.del] at hk ⊢
  induction l with
  | nil => simp [GoMap.setL]
  | cons p t ih =>
    obtain ⟨k1, v1⟩ := p
    simp only [List.map_cons, List.nodup_cons] at hk
    by_cases e : k1 = k
    · subst e
      simp only [GoMap.setL, if_true, List.filter_cons, decide_True, Bool.not_true,
        Bool.false_eq_true, if_false]
      rw [GoMap.filter_of_none t k1 hk.1]
    · simp only [GoMap.setL, e, if_false, List.filter_cons, decide_False, Bool.not_false,
        if_true]
      exact ((ih hk.2).cons (k1, v1)).trans (List.Perm.swap _ _ _)

theorem GoMap.keys_del {β : Type} (m : GoMap β) (k : Nat) :
    (m.del k).keys = m.keys.filter (fun x => !decide (x = k)) := by
  obtain ⟨l⟩ := m
  simp only [GoMap.keys, GoMap.del]
  induction l with
  | nil => rfl
  | cons p t ih =>
    by_cases e : p.1 = k <;> simp [List.filter_cons, e, ih]

theorem GoMap.keys_nodup_del {β : Type} (m : GoMap β) (k : Nat) (hk : m.keys.Nodup) :
    (m.del k).keys.Nodup := by
  rw [GoMap.keys_del]
  exact hk.filter _

theorem GoMap.keys_nodup_set {β : Type} (m : GoMap β) (k : Nat) (v : β) (hk : m.keys.Nodup) :
    (m.set k v).keys.Nodup := by
  have hp := ((GoMap.entries_set m k v hk).map Prod.fst).nodup_iff
  simp only [GoMap.keys] at hk ⊢
  rw [hp]
  simp only [List.map_cons, List.nodup_cons]
  refine ⟨?_, GoMap.keys_nodup_del m k hk⟩
  have := GoMap.keys_del m k
  simp only [GoMap.keys] at this
  rw [this]
  simp

theorem GoMap.keys_nodup_empty {β : Type} : (GoMap.empty : GoMap β).keys.Nodup := by
  simp [GoMap.keys, GoMap.empty]

/-! ## The buffer pool: moves of one buffer -/

theorem PoolOk.perm {m : Nat} {F A A1 : List Buffer} {L : List Nat} (h : PoolOk m F A L)
    (hp : A.Perm A1) : PoolOk m F A1 L :=
  { pool := (((List.Perm.append_left F hp).map Buffer.Id).symm).trans h.pool
    free := h.free
    lru := h.lru
    linked := fun b hb => h.linked b (hp.symm.subset hb)
    lruAttached := fun i hi => by
      obtain ⟨b, hb, e⟩ := h.lruAttached i hi
      exact ⟨b, hp.subset hb, e⟩ }

theorem PoolHand.not_attached {m : Nat} {F A : List Buffer} {L : List Nat} {i : Nat}
    (h : PoolHand m F A L i) : ∀ b ∈ A, b.Id ≠ i := by
  intro b hb e
  have hn : (i :: (F ++ A).map Buffer.Id).Nodup := h.pool.nodup_iff.mpr (List.nodup_range m)
  rw [List.nodup_cons] at hn
  apply hn.1
  rw [← e]
  exact List.mem_map_of_mem _ (List.mem_append_right _ hb)

theorem PoolHand.not_linked {m : Nat} {F A : List Buffer} {L : List Nat} {i : Nat}
    (h : PoolHand m F A L i) : i ∉ L := by
  intro hi
  obtain ⟨b, hb, e⟩ := h.lruAttached i hi
  exact h.not_attached b hb e

/-- A buffer is taken from its block and unlinked (`RemoveLru`). -/
theorem PoolOk.take {m : Nat} {F X : List Buffer} {L : List Nat} {b0 : Buffer}
    (h : PoolOk m F (b0 :: X) L) :
    PoolHand m F X (if b0.elm then L.erase b0.Id else L) b0.Id := by
  have hpool : (b0.Id :: (F ++ X).map Buffer.Id).Perm (List.range m) := by
    refine List.Perm.trans ?_ h.pool
    simp only [List.map_append, List.map_cons]
    exact List.perm_middle.symm
  have hn : (b0.Id :: (F ++ X).map Buffer.Id).Nodup := hpool.nodup_iff.mpr (List.nodup_range m)
  rw [List.nodup_cons] at hn
  have hne : ∀ b ∈ X, b.Id ≠ b0.Id := by
    intro b hb e
    apply hn.1
    rw [← e]
    exact List.mem_map_of_mem _ (List.mem_append_right _ hb)
  have hflag := h.linked b0 (List.mem_cons_self _ _)
  have hmem : ∀ j, j ≠ b0.Id → (j ∈ (if b0.elm then L.erase b0.Id else L) ↔ j ∈ L) := by
    intro j hj
    split
    · exact List.mem_erase_of_ne hj
    · exact Iff.rfl
  have hout : b0.Id ∉ (if b0.elm then L.erase b0.Id else L) := by
    split
    · exact fun hc => (List.Nodup.mem_erase_iff h.lru).mp hc |>.1 rfl
    · rename_i he
      intro hc
      exact he (hflag.mpr hc)
  refine ⟨hpool, h.free, ?_, ?_, ?_⟩
  · split
    · exact h.lru.erase _
    · exact h.lru
  · intro b hb
    rw [hmem b.Id (hne b hb)]
    exact h.linked b (List.mem_cons_of_mem _ hb)
  · intro j hj
    have hjne : j ≠ b0.Id := fun e => hout (e ▸ hj)
    obtain ⟨b, hb, e⟩ := h.lruAttached j ((hmem j hjne).mp hj)
    rcases List.mem_cons.mp hb with e0 | hbX
    · subst e0
      exact absurd e.symm hjne
    · exact ⟨b, hbX, e⟩

/-- A buffer is taken from the front of the free list (`AllocBuffer`). -/
theorem PoolOk.alloc {m : Nat} {rest A : List Buffer} {L : List Nat} {f0 : Buffer}
    (h : PoolOk m (f0 :: rest) A L) : PoolHand m rest A L f0.Id :=
  { pool := h.pool
    free := fun b hb => h.free b (List.mem_cons_of_mem _ hb)
    lru := h.lru
    linked := h.linked
    lruAttached := h.lruAttached }

/-- The held buffer is attached and linked at the front of the LRU list (`DoLru`). -/
theorem PoolHand.link {m : Nat} {F A : List Buffer} {L : List Nat} {i : Nat} {b : Buffer}
    (h : PoolHand m F A L i) (hid : b.Id = i) (helm : b.elm = true) :
    PoolOk m F (b :: A) (i :: L) := by
  refine ⟨?_, h.free, List.nodup_cons.mpr ⟨h.not_linked, h.lru⟩, ?_, ?_⟩
  · refine List.Perm.trans ?_ h.pool
    simp only [List.map_append, List.map_cons, hid]
    exact List.perm_middle
  · intro b1 hb1
    rcases List.mem_cons.mp hb1 with e | hA
    · subst e
      simp [helm, hid]
    · have hne := h.not_attached b1 hA
      rw [List.mem_cons]
      constructor
      · intro he
        exact Or.inr ((h.linked b1 hA).mp he)
      · rintro (e | hl)
        · exact absurd e hne
        · exact (h.linked b1 hA).mpr hl
  · intro j hj
    rcases List.mem_cons.mp hj with e | hl
    · exact ⟨b, List.mem_cons_self _ _, by rw [hid, e]⟩
    · obtain ⟨b1, hb1, e1⟩ := h.lruAttached j hl
      exact ⟨b1, List.mem_cons_of_mem _ hb1, e1⟩

/-- The held buffer is attached without being linked. -/
theorem PoolHand.park {m : Nat} {F A : List Buffer} {L : List Nat} {i : Nat} {b : Buffer}
    (h : PoolHand m F A L i) (hid : b.Id = i) (helm : b.elm = false) :
    PoolOk m F (b :: A) L := by
  refine ⟨?_, h.free, h.lru, ?_, ?_⟩
  · refine List.Perm.trans ?_ h.pool
    simp only [List.map_append, List.map_cons, hid]
    exact List.perm_middle
  · intro b1 hb1
    rcases List.mem_cons.mp hb1 with e | hA
    · subst e
      have := h.not_linked
      simp [helm, hid, this]
    · exact h.linked b1 hA
  · intro j hj
    obtain ⟨b1, hb1, e1⟩ := h.lruAttached j hj
    exact ⟨b1, List.mem_cons_of_mem _ hb1, e1⟩

/-- The held buffer is put at the back of the free list (`FreeBuffer`). -/
theorem PoolHand.release {m : Nat} {F A : List Buffer} {L : List Nat} {i : Nat} {b : Buffer}
    (h : PoolHand m F A L i) (hid : b.Id = i) (helm : b.elm = false) :
    PoolOk m (F ++ [b]) A L := by
  refine ⟨?_, ?_, h.lru, h.linked, h.lruAttached⟩
  · refine List.Perm.trans ?_ h.pool
    simp only [List.map_append, List.map_cons, List.map_nil, hid, List.append_assoc,
      List.singleton_append]
    exact List.perm_middle
  · intro b1 hb1
    rcases List.mem_append.mp hb1 with hF | e
    · exact h.free b1 hF
    · rw [List.mem_singleton] at e
      rw [e]
      exact helm

/-! ## The buffer pool: the attached buffers under map updates -/

theorem buffersOf_get (m : GoMap Buffer) {idx : Nat} {b0 : Buffer} (hk : m.keys.Nodup)
    (h : m.get idx = some b0) : (buffersOf m).Perm (b0 :: buffersOf (m.del idx)) :=
  (GoMap.entries_of_get m hk h).map Prod.snd

theorem buffersOf_set (m : GoMap Buffer) (idx : Nat) (b : Buffer) (hk : m.keys.Nodup) :
    (buffersOf (m.set idx b)).Perm (b :: buffersOf (m.del idx)) :=
  (GoMap.entries_set m idx b hk).map Prod.snd

theorem attachedOf_get (Cache : GoMap FileBuffer) {fid : Nat} {fb : FileBuffer}
    (hk : Cache.keys.Nodup) (h : Cache.get fid = some fb) :
    (attachedOf Cache).Perm (fb.buffers ++ attachedOf (Cache.del fid)) := by
  have := (GoMap.entries_of_get Cache hk h).flatMap_right (fun p => p.2.buffers)
  simpa [attachedOf] using this

theorem attachedOf_set (Cache : GoMap FileBuffer) (fid : Nat) (fb1 : FileBuffer)
    (hk : Cache.keys.Nodup) :
    (attachedOf (Cache.set fid fb1)).Perm (fb1.buffers ++ attachedOf (Cache.del fid)) := by
  have := (GoMap.entries_set Cache fid fb1 hk).flatMap_right (fun p => p.2.buffers)
  simpa [attachedOf] using this

theorem attachedOf_set_none (Cache : GoMap FileBuffer) (fid : Nat) (fb1 : FileBuffer)
    (h : Cache.get fid = none) :
    attachedOf (Cache.set fid fb1) = attachedOf Cache ++ fb1.buffers := by
  simp only [attachedOf, GoMap.set, GoMap.setL_of_none _ _ _ h, List.flatMap_append,
    List.flatMap_cons, List.flatMap_nil, List.append_nil]

/-- The attached buffers when block `idx` of the file buffer of `fid` holds `b0`: `b0` and the
others; the others stay when the block gets another buffer or loses its buffer. -/
theorem attachedOf_block (Cache : GoMap FileBuffer) {fid idx : Nat} {fb : FileBuffer}
    {b0 : Buffer} (hk : Cache.keys.Nodup) (hbk : fb.BufferMap.keys.Nodup)
    (hfb : Cache.get fid = some fb) (hb0 : fb.BufferMap.get idx = some b0) :
    ∃ X, (attachedOf Cache).Perm (b0 :: X) ∧
      (∀ b, (attachedOf (Cache.set fid { fb with BufferMap := fb.BufferMap.set idx b })).Perm
        (b :: X)) ∧
      (attachedOf (Cache.set fid { fb with BufferMap := fb.BufferMap.del idx })).Perm X := by
  refine ⟨buffersOf (fb.BufferMap.del idx) ++ attachedOf (Cache.del fid), ?_, ?_, ?_⟩
  · refine (attachedOf_get Cache hk hfb).trans ?_
    exact List.Perm.append_right _ (buffersOf_get fb.BufferMap hbk hb0)
  · intro b
    refine (attachedOf_set Cache fid _ hk).trans ?_
    exact List.Perm.append_right _ (buffersOf_set fb.BufferMap idx b hbk)
  · exact attachedOf_set Cache fid _ hk

/-- The attached buffers when block `idx` of the file buffer of `fid` gets its first
buffer. -/
theorem attachedOf_fresh (Cache : GoMap FileBuffer) {fid idx : Nat} {fb : FileBuffer}
    (b : Buffer) (hk : Cache.keys.Nodup) (hbk : fb.BufferMap.keys.Nodup)
    (hfb : Cache.get fid = some fb) (hnone : fb.BufferMap.get idx = none) :
    (attachedOf (Cache.set fid { fb with BufferMap := fb.BufferMap.set idx b })).Perm
      (b :: attachedOf Cache) := by
  refine (attachedOf_set Cache fid _ hk).trans ?_
  refine List.Perm.trans ?_ ((attachedOf_get Cache hk hfb).cons b).symm
  have h1 := buffersOf_set fb.BufferMap idx b hbk
  rw [GoMap.del_of_get_none _ hnone] at h1
  exact List.Perm.append_right _ h1

/-- The attached buffers when a file buffer changes without its block map. -/
theorem attachedOf_frame (Cache : GoMap FileBuffer) {fid : Nat} {fb fb1 : FileBuffer}
    (hk : Cache.keys.Nodup) (hfb : Cache.get fid = some fb)
    (hb : fb1.BufferMap = fb.BufferMap) :
    (attachedOf (Cache.set fid fb1)).Perm (attachedOf Cache) := by
  refine (attachedOf_set Cache fid fb1 hk).trans ?_
  refine List.Perm.trans ?_ (attachedOf_get Cache hk hfb).symm
  simp only [FileBuffer.buffers, hb]
  exact List.Perm.refl _

theorem attachedOf_drop (Cache : GoMap FileBuffer) {fid : Nat} {fb : FileBuffer}
    (hk : Cache.keys.Nodup) (hfb : Cache.get fid = some fb)
    (hb : fb.BufferMap.entries = []) : (attachedOf (Cache.del fid)).Perm (attachedOf Cache) := by
  refine List.Perm.trans ?_ (attachedOf_get Cache hk hfb).symm
  simp [FileBuffer.buffers, buffersOf, hb]

/-! ## The invariant of a cache core under the moves -/

theorem BlockCache.Sound.update {bs m : Nat} {c c1 : BlockCache} (fid : Nat) (fb1 : FileBuffer)
    (h : c.Sound bs m) (hc : c1.Cache = c.Cache.set fid fb1)
    (hk1 : fb1.BufferMap.keys.Nodup)
    (hfit1 : ∀ idx b, fb1.BufferMap.get idx = some b → b.Fits bs)
    (hpool : PoolOk m c1.FreeList (attachedOf c1.Cache) c1.LruList) : c1.Sound bs m := by
  refine ⟨?_, ?_, ?_, hpool⟩
  · rw [hc]
    exact GoMap.keys_nodup_set _ _ _ h.keys
  · intro fid1 fb2 hg
    rw [hc, GoMap.get_set] at hg
    split at hg
    · simp only [Option.some.injEq] at hg
      rw [← hg]
      exact hk1
    · exact h.bkeys fid1 fb2 hg
  · intro fid1 fb2 idx b hg hb
    rw [hc, GoMap.get_set] at hg
    split at hg
    · simp only [Option.some.injEq] at hg
      rw [← hg] at hb
      exact hfit1 idx b hb
    · exact h.fits fid1 fb2 idx b hg hb

theorem Buffer.Fits.touch {bs : Nat} {b : Buffer} (h : b.Fits bs) (now : Nat) (elm : Bool) :
    (Buffer.mk b.Id b.fe b.BlkIdx b.Offset b.Len b.dataBuf now elm).Fits bs := h

theorem BlockCache.linked_Cache (c : BlockCache) (fid idx : Nat) (fb : FileBuffer) (b : Buffer)
    (now : Nat) :
    (c.linked fid idx fb b now).Cache = c.Cache.set fid
      (FileBuffer.mk fb.fe (fb.BufferMap.set idx
          (Buffer.mk b.Id b.fe b.BlkIdx b.Offset b.Len b.dataBuf now true)) fb.LockMap fb.pw) := by
  simp only [BlockCache.linked, BlockCache.withBuffer, BlockCache.DoLru_Cache,
    BlockCache.DoLru_fst]

theorem GoMap.fits_set {bs : Nat} (m : GoMap Buffer) (idx : Nat) (b : Buffer)
    (hold : ∀ k x, k ≠ idx → m.get k = some x → x.Fits bs) (hb : b.Fits bs) :
    ∀ k x, (m.set idx b).get k = some x → x.Fits bs := by
  intro k x hx
  rw [GoMap.get_set] at hx
  split at hx
  · simp only [Option.some.injEq] at hx
    rw [← hx]
    exact hb
  · rename_i hne
    exact hold k x hne hx

theorem PoolHand.linkId {m : Nat} {F A : List Buffer} {L : List Nat} {i : Nat} (b : Buffer)
    (h : PoolHand m F A L i) (hid : b.Id = i) (helm : b.elm = true) :
    PoolOk m F (b :: A) (b.Id :: L) := by
  have h1 := h.link hid helm
  rwa [← hid] at h1

theorem BlockCache.Move.keeps_sound {bs m : Nat} {c c1 : BlockCache} (h : c.Sound bs m)
    (hm : BlockCache.Move bs c c1) : c1.Sound bs m := by
  cases hm with
  | frame fid fb fb1 hfb hb =>
    refine BlockCache.Sound.update fid fb1 h rfl (by rw [hb]; exact h.bkeys fid fb hfb) ?_ ?_
    · intro idx b hg
      rw [hb] at hg
      exact h.fits fid fb idx b hfb hg
    · exact h.pool.perm (attachedOf_frame c.Cache h.keys hfb hb).symm
  | newFile fid fb1 hfb hb =>
    refine BlockCache.Sound.update fid fb1 h rfl (by rw [hb]; exact GoMap.keys_nodup_empty) ?_ ?_
    · intro idx b hg
      rw [hb, GoMap.get_empty] at hg
      cases hg
    · show PoolOk m c.FreeList (attachedOf (c.Cache.set fid fb1)) c.LruList
      rw [attachedOf_set_none c.Cache fid fb1 hfb]
      have : fb1.buffers = [] := by simp [FileBuffer.buffers, buffersOf, hb, GoMap.empty]
      rw [this, List.append_nil]
      exact h.pool
  | dropFile fid fb hfb hb =>
    refine ⟨GoMap.keys_nodup_del _ _ h.keys, ?_, ?_, ?_⟩
    · intro fid1 fb2 hg
      simp only [GoMap.get_del] at hg
      split at hg
      · cases hg
      · exact h.bkeys fid1 fb2 hg
    · intro fid1 fb2 idx b hg hb2
      simp only [GoMap.get_del] at hg
      split at hg
      · cases hg
      · exact h.fits fid1 fb2 idx b hg hb2
    · exact h.pool.perm (attachedOf_drop c.Cache h.keys hfb hb).symm
  | relink fid idx fb b0 b now hfb hb0 hid helm hfit =>
    obtain ⟨X, hX, hset, -⟩ := attachedOf_block c.Cache h.keys (h.bkeys fid fb hfb) hfb hb0
    have hhand := (h.pool.perm hX).take
    refine BlockCache.Sound.update fid (FileBuffer.mk fb.fe (fb.BufferMap.set idx
        (Buffer.mk b.Id b.fe b.BlkIdx b.Offset b.Len b.dataBuf now true)) fb.LockMap fb.pw) h
      (by rw [BlockCache.linked_Cache, BlockCache.RemoveLru_Cache])
      (GoMap.keys_nodup_set _ _ _ (h.bkeys fid fb hfb)) ?_ ?_
    · exact GoMap.fits_set _ _ _ (fun k x _ hx => h.fits fid fb k x hfb hx)
        ((hfit (h.fits fid fb idx b0 hfb hb0)).touch now true)
    · rw [BlockCache.linked_Cache, BlockCache.linked_FreeList, BlockCache.linked_LruList _ _ _ _ _ _ helm,
        BlockCache.RemoveLru_Cache, BlockCache.RemoveLru_FreeList, BlockCache.RemoveLru_LruList]
      exact (hhand.linkId
        (Buffer.mk b.Id b.fe b.BlkIdx b.Offset b.Len b.dataBuf now true) hid rfl).perm
        (hset _).symm
  | park fid idx fb b0 b hfb hb0 hid helm hfit =>
    obtain ⟨X, hX, hset, -⟩ := attachedOf_block c.Cache h.keys (h.bkeys fid fb hfb) hfb hb0
    have hhand := (h.pool.perm hX).take
    refine BlockCache.Sound.update fid
      (FileBuffer.mk fb.fe (fb.BufferMap.set idx b) fb.LockMap fb.pw) h
      (by simp only [BlockCache.withBuffer, BlockCache.RemoveLru_Cache])
      (GoMap.keys_nodup_set _ _ _ (h.bkeys fid fb hfb)) ?_ ?_
    · exact GoMap.fits_set _ _ _ (fun k x _ hx => h.fits fid fb k x hfb hx)
        (hfit (h.fits fid fb idx b0 hfb hb0))
    · simp only [BlockCache.withBuffer, BlockCache.RemoveLru_Cache, BlockCache.RemoveLru_FreeList,
        BlockCache.RemoveLru_LruList]
      exact (hhand.park hid helm).perm (hset _).symm
  | release fid idx fb b0 b hfb hb0 hid helm =>
    obtain ⟨X, hX, -, hdel⟩ := attachedOf_block c.Cache h.keys (h.bkeys fid fb hfb) hfb hb0
    have hhand := (h.pool.perm hX).take
    refine BlockCache.Sound.update fid
      (FileBuffer.mk fb.fe (fb.BufferMap.del idx) fb.LockMap fb.pw) h
      (by simp only [BlockCache.released, BlockCache.RemoveLru_Cache])
      (GoMap.keys_nodup_del _ _ (h.bkeys fid fb hfb)) ?_ ?_
    · intro k x hx
      simp only [GoMap.get_del] at hx
      split at hx
      · cases hx
      · exact h.fits fid fb k x hfb hx
    · simp only [BlockCache.released, BlockCache.RemoveLru_Cache, BlockCache.RemoveLru_FreeList,
        BlockCache.RemoveLru_LruList]
      exact (hhand.release hid helm).perm hdel.symm
  | attach fid idx fb f0 rest b now hfb hnone hfree hid helm hfit =>
    have hp := h.pool
    rw [hfree] at hp
    have hhand := hp.alloc
    refine BlockCache.Sound.update fid (FileBuffer.mk fb.fe (fb.BufferMap.set idx
        (Buffer.mk b.Id b.fe b.BlkIdx b.Offset b.Len b.dataBuf now true)) fb.LockMap fb.pw) h
      (by rw [BlockCache.linked_Cache])
      (GoMap.keys_nodup_set _ _ _ (h.bkeys fid fb hfb)) ?_ ?_
    · exact GoMap.fits_set _ _ _ (fun k x _ hx => h.fits fid fb k x hfb hx) (hfit.touch now true)
    · rw [BlockCache.linked_Cache, BlockCache.linked_FreeList,
        BlockCache.linked_LruList _ _ _ _ _ _ helm]
      exact (hhand.linkId
        (Buffer.mk b.Id b.fe b.BlkIdx b.Offset b.Len b.dataBuf now true) hid rfl).perm
        (attachedOf_fresh c.Cache _ h.keys (h.bkeys fid fb hfb) hfb hnone).symm
  | attachParked fid idx fb f0 rest b hfb hnone hfree hid helm hfit =>
    have hp := h.pool
    rw [hfree] at hp
    have hhand := hp.alloc
    refine BlockCache.Sound.update fid
      (FileBuffer.mk fb.fe (fb.BufferMap.set idx b) fb.LockMap fb.pw) h rfl
      (GoMap.keys_nodup_set _ _ _ (h.bkeys fid fb hfb)) ?_ ?_
    · exact GoMap.fits_set _ _ _ (fun k x _ hx => h.fits fid fb k x hfb hx) hfit
    · simp only [BlockCache.withBuffer]
      exact (hhand.park hid helm).perm
        (attachedOf_fresh c.Cache _ h.keys (h.bkeys fid fb hfb) hfb hnone).symm

/-! ## Moves of the two cache cores of a state -/

theorem BlockCache.Sound.moves {bs m : Nat} {c c1 : BlockCache} (h : c.Sound bs m)
    (hm : Relation.ReflTransGen (BlockCache.Move bs) c c1) : c1.Sound bs m := by
  induction hm with
  | refl => exact h
  | tail _ hstep ih => exact BlockCache.Move.keeps_sound ih hstep

theorem CacheState.Moved.refl (bs : Nat) (s : CacheState) : CacheState.Moved bs s s :=
  ⟨Relation.ReflTransGen.refl, Relation.ReflTransGen.refl⟩

theorem CacheState.Moved.trans {bs : Nat} {s s1 s2 : CacheState} (h : CacheState.Moved bs s s1)
    (h1 : CacheState.Moved bs s1 s2) : CacheState.Moved bs s s2 :=
  ⟨h.1.trans h1.1, h.2.trans h1.2⟩

theorem CacheState.Sound.moved {bs m : Nat} {s s1 : CacheState} (h : s.Sound bs m)
    (hm : CacheState.Moved bs s s1) : s1.Sound bs m :=
  ⟨h.1.moves hm.1, h.2.moves hm.2⟩

/-- A state that differs only outside the two cache cores. -/
theorem CacheState.Moved.same {bs : Nat} {s s1 : CacheState}
    (hw : s1.wCache.toBlockCache = s.wCache.toBlockCache)
    (hr : s1.rCache.toBlockCache = s.rCache.toBlockCache) : CacheState.Moved bs s s1 := by
  unfold CacheState.Moved
  rw [hw, hr]
  exact ⟨Relation.ReflTransGen.refl, Relation.ReflTransGen.refl⟩

theorem CacheState.Moved.write {bs : Nat} {s s1 : CacheState}
    (hw : BlockCache.Move bs s.wCache.toBlockCache s1.wCache.toBlockCache)
    (hr : s1.rCache.toBlockCache = s.rCache.toBlockCache) : CacheState.Moved bs s s1 := by
  unfold CacheState.Moved
  rw [hr]
  exact ⟨Relation.ReflTransGen.single hw, Relation.ReflTransGen.refl⟩

theorem CacheState.Moved.read {bs : Nat} {s s1 : CacheState}
    (hw : s1.wCache.toBlockCache = s.wCache.toBlockCache)
    (hr : BlockCache.Move bs s.rCache.toBlockCache s1.rCache.toBlockCache) :
    CacheState.Moved bs s s1 := by
  unfold CacheState.Moved
  rw [hw]
  exact ⟨Relation.ReflTransGen.refl, Relation.ReflTransGen.single hr⟩

/-- A method of a file buffer that leaves the block map alone is a frame move. -/
theorem BlockCache.onFileBuf_frame (bs : Nat) {c c1 : BlockCache} {fid : Nat}
    {f : FileBuffer → Except Fault FileBuffer}
    (hf : ∀ fb fb1, f fb = .ok fb1 → fb1.BufferMap = fb.BufferMap)
    (h : c.onFileBuf fid f = .ok c1) :
    BlockCache.Move bs c c1 ∧ ∃ fb fb1, c.Cache.get fid = some fb ∧
      c1.Cache.get fid = some fb1 ∧ fb1.BufferMap = fb.BufferMap := by
  obtain ⟨fb, fb1, hfb, hfok, rfl⟩ := BlockCache.onFileBuf_inv h
  refine ⟨BlockCache.Move.frame c fid fb fb1 hfb (hf fb fb1 hfok), fb, fb1, hfb, ?_,
    hf fb fb1 hfok⟩
  simp only [BlockCache.setFileBuf, GoMap.get_set_self]

theorem FileBuffer.LockBuffer_map {fb fb1 : FileBuffer} {idx : Nat}
    (h : fb.LockBuffer idx = .ok fb1) : fb1.BufferMap = fb.BufferMap := by
  unfold FileBuffer.LockBuffer at h
  split at h
  · cases h
  · cases h
    rfl

theorem FileBuffer.UnLockBuffer_map {fb fb1 : FileBuffer} {idx : Nat}
    (h : fb.UnLockBuffer idx = .ok fb1) : fb1.BufferMap = fb.BufferMap := by
  unfold FileBuffer.UnLockBuffer at h
  split at h
  · cases h
  · simp only [bind, Except.bind, Assert] at h
    split at h
    · cases h
    · cases h
      rfl

/-! ## `WriteOp` as a move -/

theorem Buffer.loaded_Fits {bs : Nat} (buf : Buffer) {fe : FileEntry} {op : RWBlockOp}
    (now : Nat) (hbs : fe.BlockSize = bs) (hop : op.RwOffset + op.rwBuf.length ≤ bs) :
    (buf.loaded fe op now).Fits bs := by
  refine ⟨⟨fe, rfl, hbs⟩, hop, ?_⟩
  simp only [Buffer.loaded, goCopyAt_length]
  split
  · rw [List.length_replicate, hbs]
  · rename_i h
    have := Nat.mod_le buf.dataBuf.length U32
    omega

theorem Buffer.merged_Fits {bs : Nat} {buf : Buffer} {op : RWBlockOp} (now : Nat)
    (h : buf.Fits bs) (hop : buf.Offset + buf.Len + op.rwBuf.length ≤ bs) :
    (buf.merged op now).Fits bs := by
  refine ⟨h.1, ?_, ?_⟩
  · simp only [Buffer.merged]
    omega
  · simp only [Buffer.merged, goCopyAt_length]
    exact h.2.2

theorem Buffer.Fits.unlinked {bs : Nat} {b : Buffer} (h : b.Fits bs) :
    (Buffer.mk b.Id b.fe b.BlkIdx b.Offset b.Len b.dataBuf b.LastUpdateTime false).Fits bs := h

/-- A `WriteOp` that returns changes the write cache core by at most one move and leaves the
read cache alone. -/
theorem WCache.WriteOp_moved {bs m : Nat} {fe : FileEntry} {fid : Nat} {op : RWBlockOp}
    {s s1 : CacheState} {r : Bool × Nat × Option GoError} {fb : FileBuffer}
    (hs : s.wCache.toBlockCache.Sound bs m) (hfb : s.wCache.Cache.get fid = some fb)
    (hbs : fe.BlockSize = bs) (hlt : bs < U32) (hop : op.Sliced fe)
    (h : WCache.WriteOp fe fid op s = .ok (r, s1)) :
    CacheState.Moved bs s s1 ∧ ∃ fb1, s1.wCache.Cache.get fid = some fb1 := by
  obtain ⟨hofe, hsz, hfit⟩ := hop
  cases hb : fb.BufferMap.get op.Index with
  | none =>
    rw [WCache.WriteOp_absent fe fid op s fb hfb hb,
      WCache.WriteOpNew_eq fe fid op s fb hfb hb hofe hsz hfit (by omega)] at h
    split at h
    · cases h
      exact ⟨CacheState.Moved.same rfl rfl, fb, hfb⟩
    · cases hfl : s.wCache.FreeList with
      | nil =>
        rw [hfl] at h
        cases h
        exact ⟨CacheState.Moved.same rfl rfl, fb, hfb⟩
      | cons f0 rest =>
        rw [hfl] at h
        have helm : f0.elm = false := hs.pool.free f0 (by rw [hfl]; exact List.mem_cons_self _ _)
        have hload : (f0.loaded fe op s.now).Fits bs :=
          Buffer.loaded_Fits f0 s.now hbs (by rw [hsz, ← hbs]; exact hfit)
        simp only [helm, Bool.false_eq_true, if_false] at h
        split at h
        · cases h
          refine ⟨CacheState.Moved.write ?_ rfl, _, GoMap.get_set_self _ _ _⟩
          exact BlockCache.Move.attachParked s.wCache.toBlockCache fid op.Index fb f0 rest
            (f0.loaded fe op s.now) hfb hb hfl rfl rfl hload
        · cases h
          refine ⟨CacheState.Moved.write ?_ rfl, _, BlockCache.linked_get _ _ _ _ _ _⟩
          exact BlockCache.Move.attach s.wCache.toBlockCache fid op.Index fb f0 rest
            (f0.loaded fe op s.now) s.now hfb hb hfl rfl rfl hload
  | some b =>
    have hbf := hs.fits fid fb op.Index b hfb hb
    obtain ⟨⟨bfe, hbfe, -⟩, hb1, hb2⟩ := hbf
    have hc0 : (s.wCache.toBlockCache.RemoveLru b).2.Cache.get fid = some fb := by
      rw [BlockCache.RemoveLru_Cache]
      exact hfb
    rw [WCache.WriteOp_exist fe fid op s fb b hfb hb] at h
    split at h
    · rename_i hcan
      rw [WCache.WriteOpMerge_eq fe fid op (Buffer.mk b.Id b.fe b.BlkIdx b.Offset b.Len b.dataBuf
        b.LastUpdateTime false) _ s fb bfe hc0 hbfe hcan (by rw [hbs]; exact hb2)
        hsz hfit] at h
      have hmf : b.Fits bs → ((Buffer.mk b.Id b.fe b.BlkIdx b.Offset b.Len b.dataBuf
          b.LastUpdateTime false).merged op s.now).Fits bs := fun hf =>
        Buffer.merged_Fits s.now hf.unlinked (by
          show b.Offset + b.Len + op.rwBuf.length ≤ bs
          rw [hsz, hcan, ← hbs]
          exact hfit)
      split at h
      · split at h
        · cases h
          refine ⟨CacheState.Moved.write ?_ rfl, _, GoMap.get_set_self _ _ _⟩
          exact BlockCache.Move.park s.wCache.toBlockCache fid op.Index fb b _ hfb hb rfl rfl hmf
        · dsimp only at h
          split at h
          · cases h
            refine ⟨CacheState.Moved.write ?_ rfl, _, BlockCache.linked_get _ _ _ _ _ _⟩
            exact BlockCache.Move.relink s.wCache.toBlockCache fid op.Index fb b _ s.now hfb hb
              rfl rfl hmf
          · cases h
            refine ⟨CacheState.Moved.write ?_ rfl, _, GoMap.get_set_self _ _ _⟩
            exact BlockCache.Move.release s.wCache.toBlockCache fid op.Index fb b _ hfb hb rfl rfl
      · cases h
        refine ⟨CacheState.Moved.write ?_ rfl, _, BlockCache.linked_get _ _ _ _ _ _⟩
        exact BlockCache.Move.relink s.wCache.toBlockCache fid op.Index fb b _ s.now hfb hb
          rfl rfl hmf
    · rw [WCache.WriteOpFlushFirst_eq fe fid op (Buffer.mk b.Id b.fe b.BlkIdx b.Offset b.Len b.dataBuf
        b.LastUpdateTime false) _ s fb bfe hc0 hbfe (by
          show b.Offset + b.Len ≤ b.dataBuf.length
          omega) rfl hofe
        (by rw [hsz, Nat.mod_eq_of_lt (by omega)]) hfit] at h
      dsimp only at h
      split at h
      · cases h
        refine ⟨CacheState.Moved.write ?_ rfl, _, BlockCache.linked_get _ _ _ _ _ _⟩
        exact BlockCache.Move.relink s.wCache.toBlockCache fid op.Index fb b _ s.now hfb hb
          rfl rfl (fun hf => hf.unlinked)
      · split at h
        · cases h
          refine ⟨CacheState.Moved.write ?_ rfl, _, GoMap.get_set_self _ _ _⟩
          exact BlockCache.Move.release s.wCache.toBlockCache fid op.Index fb b _ hfb hb rfl rfl
        · cases h
          refine ⟨CacheState.Moved.write ?_ rfl, _, BlockCache.linked_get _ _ _ _ _ _⟩
          exact BlockCache.Move.relink s.wCache.toBlockCache fid op.Index fb b _ s.now hfb hb
            rfl rfl (fun _ => Buffer.loaded_Fits _ s.now hbs (by rw [hsz, ← hbs]; exact hfit))

/-! ## `Write` as a sequence of moves -/

theorem sliceLoop_Sliced (fe : FileEntry) (buffer : List Byte) (hbs : 0 < fe.BlockSize) :
    ∀ (n i rwOffset left pos : Nat), pos + left ≤ buffer.length → pos + left < U32 →
      ∀ op ∈ sliceLoop fe buffer n i rwOffset left pos, op.Sliced fe := by
  intro n
  induction n with
  | zero =>
    intro i rwOffset left pos _ _ op hop
    simp [sliceLoop] at hop
  | succ n ih =>
    intro i rwOffset left pos hlen hu op hop
    have hmod : rwOffset % fe.BlockSize < fe.BlockSize := Nat.mod_lt _ hbs
    simp only [sliceLoop, List.mem_cons] at hop
    rcases hop with rfl | hrest
    · refine ⟨rfl, ?_, ?_⟩
      · simp only [List.length_take, List.length_drop]
        split <;> omega
      · dsimp only
        split <;> omega
    · refine ih _ _ _ _ ?_ ?_ op hrest
      · have hle : (pos + (if fe.BlockSize - rwOffset % fe.BlockSize > left then left
            else fe.BlockSize - rwOffset % fe.BlockSize)) % U32 ≤
            pos + (if fe.BlockSize - rwOffset % fe.BlockSize > left then left
            else fe.BlockSize - rwOffset % fe.BlockSize) := Nat.mod_le _ _
        split at hle <;> split <;> omega
      · have hle : (pos + (if fe.BlockSize - rwOffset % fe.BlockSize > left then left
            else fe.BlockSize - rwOffset % fe.BlockSize)) % U32 ≤
            pos + (if fe.BlockSize - rwOffset % fe.BlockSize > left then left
            else fe.BlockSize - rwOffset % fe.BlockSize) := Nat.mod_le _ _
        split at hle <;> split <;> omega

theorem WCache.Slice_Sliced {fe : FileEntry} {buffer : List Byte} {offset : Nat}
    {Ops : List RWBlockOp} (h : WCache.Slice fe buffer offset = .ok Ops) :
    ∀ op ∈ Ops, op.Sliced fe := by
  unfold WCache.Slice at h
  split at h
  · cases h
  · rename_i hbs
    simp only [Except.ok.injEq] at h
    rw [← h]
    exact sliceLoop_Sliced fe buffer (Nat.pos_of_ne_zero hbs) _ _ _ _ _
      (by rw [Nat.zero_add]; exact Nat.mod_le _ _)
      (by rw [Nat.zero_add]; exact Nat.mod_lt _ (by decide))

theorem CacheState.onW_frame (bs : Nat) {s s1 : CacheState} {fid : Nat}
    {f : FileBuffer → Except Fault FileBuffer}
    (hf : ∀ fb fb1, f fb = .ok fb1 → fb1.BufferMap = fb.BufferMap)
    (h : s.onW (fun cache => cache.onFileBuf fid f) = .ok s1) :
    CacheState.Moved bs s s1 ∧ ∃ fb1, s1.wCache.Cache.get fid = some fb1 := by
  obtain ⟨c1, hc, rfl⟩ := CacheState.onW_inv h
  obtain ⟨hmove, fb, fb1, -, h1, -⟩ := BlockCache.onFileBuf_frame bs hf hc
  exact ⟨CacheState.Moved.write hmove rfl, fb1, h1⟩

theorem CacheState.onR_frame (bs : Nat) {s s1 : CacheState} {fid : Nat}
    {f : FileBuffer → Except Fault FileBuffer}
    (hf : ∀ fb fb1, f fb = .ok fb1 → fb1.BufferMap = fb.BufferMap)
    (h : s.onR (fun cache => cache.onFileBuf fid f) = .ok s1) :
    CacheState.Moved bs s s1 ∧ ∃ fb1, s1.rCache.Cache.get fid = some fb1 := by
  obtain ⟨c1, hc, rfl⟩ := CacheState.onR_inv h
  obtain ⟨hmove, fb, fb1, -, h1, -⟩ := BlockCache.onFileBuf_frame bs hf hc
  exact ⟨CacheState.Moved.read rfl hmove, fb1, h1⟩

theorem WCache.WriteLoop_moved {bs m : Nat} {fe : FileEntry} (hbs : fe.BlockSize = bs)
    (hlt : bs < U32) :
    ∀ (Ops : List RWBlockOp) (wtSize : Nat) (s s1 : CacheState) (r : Nat × Option GoError),
      s.Sound bs m → (∀ op ∈ Ops, op.Sliced fe) →
      WCache.WriteLoop fe Ops wtSize s = .ok (r, s1) → CacheState.Moved bs s s1 := by
  intro Ops
  induction Ops with
  | nil =>
    intro wtSize s s1 r _ _ h
    simp only [WCache.WriteLoop, Except.ok.injEq, Prod.mk.injEq] at h
    rw [← h.2]
    exact CacheState.Moved.refl bs s
  | cons op Ops ih =>
    intro wtSize s s1 r hs hops h
    simp only [WCache.WriteLoop] at h
    obtain ⟨sa, hlock, h⟩ := (Except.bind_eq_ok_iff _ _ _).mp h
    obtain ⟨w, hw, h⟩ := (Except.bind_eq_ok_iff _ _ _).mp h
    obtain ⟨sb, hunlock, h⟩ := (Except.bind_eq_ok_iff _ _ _).mp h
    obtain ⟨hm1, fb1, hfb1⟩ := CacheState.onW_frame bs
      (fun _ _ hx => FileBuffer.LockBuffer_map hx) hlock
    have hsa := hs.moved hm1
    obtain ⟨hm2, -⟩ := WCache.WriteOp_moved hsa.1 hfb1 hbs hlt
      (hops op (List.mem_cons_self _ _)) hw
    have hm3 : CacheState.Moved bs w.2 sb := by
      split at hunlock
      · exact (CacheState.onW_frame bs
          (fun _ _ hx => FileBuffer.UnLockBuffer_map hx) hunlock).1
      · cases hunlock
        exact CacheState.Moved.refl bs _
    have hm := (hm1.trans hm2).trans hm3
    split at h
    · simp only [pure, Except.pure, Except.ok.injEq, Prod.mk.injEq] at h
      rw [← h.2]
      exact hm
    · exact hm.trans (ih _ _ _ _ (hs.moved hm)
        (fun o ho => hops o (List.mem_cons_of_mem _ ho)) h)

theorem BlockCache.GetFileBuffer_moves (bs : Nat) (c : BlockCache) (fe : FileEntry)
    (bAlloc : Bool) :
    Relation.ReflTransGen (BlockCache.Move bs) c (c.GetFileBuffer fe bAlloc).2 := by
  unfold BlockCache.GetFileBuffer
  split
  · exact Relation.ReflTransGen.refl
  · rename_i hnone
    split
    · exact Relation.ReflTransGen.single
        (BlockCache.Move.newFile c fe.Id (NewFileBuffer fe) hnone rfl)
    · exact Relation.ReflTransGen.refl

theorem WCache.Write_moved {bs m : Nat} {fe : FileEntry} {buffer : List Byte} {offset : Nat}
    {s s1 : CacheState} {r : Nat × Option GoError} (hs : s.Sound bs m)
    (hbs : fe.BlockSize = bs) (hlt : bs < U32)
    (h : WCache.Write fe buffer offset s = .ok (r, s1)) : CacheState.Moved bs s s1 := by
  simp only [WCache.Write] at h
  obtain ⟨_, -, h⟩ := (Except.bind_eq_ok_iff _ _ _).mp h
  obtain ⟨Ops, hslice, h⟩ := (Except.bind_eq_ok_iff _ _ _).mp h
  obtain ⟨w, hloop, h⟩ := (Except.bind_eq_ok_iff _ _ _).mp h
  have hm0 : CacheState.Moved bs s (s.setW (s.wCache.toBlockCache.GetFileBuffer fe true).2) :=
    ⟨BlockCache.GetFileBuffer_moves bs _ fe true, Relation.ReflTransGen.refl⟩
  have hm1 := WCache.WriteLoop_moved hbs hlt Ops 0 _ _ _ (hs.moved hm0)
    (WCache.Slice_Sliced hslice) hloop
  have hw : w = (r, s1) := by
    split at h
    · simpa only [pure, Except.pure, Except.ok.injEq] using h
    · obtain ⟨_, -, h⟩ := (Except.bind_eq_ok_iff _ _ _).mp h
      simpa only [pure, Except.pure, Except.ok.injEq] using h
  rw [hw] at hm1
  exact hm0.trans hm1

/-! ## `FlushBuffer`, `Flush` and `Close` of the write cache as moves -/

theorem WCache.FlushBuffer_moved {bs : Nat} {s s1 : CacheState} {fid idx : Nat}
    {e : Option GoError} (h : WCache.FlushBuffer fid idx s = .ok (e, s1)) :
    CacheState.Moved bs s s1 := by
  obtain ⟨fb, hfb, hl⟩ := WCache.FlushBuffer_ok_pre h
  rw [WCache.FlushBuffer_eq s fid idx fb hfb hl] at h
  cases hb : fb.BufferMap.get idx with
  | none =>
    simp only [hb, Except.ok.injEq, Prod.mk.injEq] at h
    rw [← h.2]
    exact CacheState.Moved.refl bs s
  | some b =>
    simp only [hb] at h
    cases hfe : b.fe with
    | none => simp [hfe] at h
    | some fe1 =>
      simp only [hfe] at h
      split at h
      · cases h
      · split at h
        · cases h
          refine CacheState.Moved.write ?_ rfl
          have hmove := @BlockCache.Move.relink bs s.wCache.toBlockCache fid idx fb b
            (s.wCache.toBlockCache.RemoveLru b).1 s.now hfb hb
            (by rw [BlockCache.RemoveLru_fst]) (by rw [BlockCache.RemoveLru_fst])
            (by rw [BlockCache.RemoveLru_fst]; exact fun hf => hf.unlinked)
          have he : (s.flushKept (Writer.Write fe1.Id ((b.dataBuf.drop b.Offset).take b.Len)
              (b.BlkIdx * fe1.BlockSize + b.Offset) s.proxyClient)
              (s.wCache.toBlockCache.RemoveLru b).2 fid idx fb
              (s.wCache.toBlockCache.RemoveLru b).1).wCache.toBlockCache =
              (s.wCache.toBlockCache.RemoveLru b).2.linked fid idx fb
                (s.wCache.toBlockCache.RemoveLru b).1 s.now := by
            simp only [CacheState.flushKept, BlockCache.linked, BlockCache.withBuffer,
              BlockCache.DoLru_Cache]
          rw [he]
          exact hmove
        · cases h
          refine CacheState.Moved.write ?_ rfl
          exact @BlockCache.Move.release bs s.wCache.toBlockCache fid idx fb b
            (s.wCache.toBlockCache.RemoveLru b).1 hfb hb
            (by rw [BlockCache.RemoveLru_fst]) (by rw [BlockCache.RemoveLru_fst])

theorem WCache.FlushLoop_moved {bs : Nat} (fid : Nat) (keys : List Nat) (e0 : Option GoError)
    (s s1 : CacheState) (r : Option GoError)
    (h : WCache.FlushLoop fid keys e0 s = .ok (r, s1)) : CacheState.Moved bs s s1 := by
  have := WCache.FlushLoop_invariant fid (fun t => CacheState.Moved bs s t)
    (fun idx t e t1 hJ hf => CacheState.Moved.trans hJ (WCache.FlushBuffer_moved hf))
    keys e0 s s1 r (CacheState.Moved.refl bs s) h
  exact this

theorem WCache.Flush_moved (bs : Nat) {fe : FileEntry} {s s1 : CacheState}
    {e : Option GoError} (h : WCache.Flush fe s = .ok (e, s1)) : CacheState.Moved bs s s1 := by
  unfold WCache.Flush at h
  split at h
  · cases h
    exact CacheState.Moved.refl bs s
  · dsimp only at h
    split at h
    · cases h
      exact CacheState.Moved.refl bs s
    · exact WCache.FlushLoop_moved _ _ _ _ _ _ h

theorem GoMap.entries_eq_nil_of_get_none {β : Type} (m : GoMap β) (h : ∀ k, m.get k = none) :
    m.entries = [] := by
  have hk := GoMap.keys_eq_nil_of_get_none m h
  simpa [GoMap.keys] using hk

/-- After a `Flush` without error the file has no write buffer left. -/
theorem WCache.Flush_empty {fe : FileEntry} {s s1 : CacheState} {fb1 : FileBuffer}
    (h : WCache.Flush fe s = .ok (none, s1)) (h1 : s1.wCache.Cache.get fe.Id = some fb1) :
    fb1.BufferMap.entries = [] := by
  obtain ⟨-, hnone, hsome⟩ := WCache.Flush_clean fe s s1 h
  cases hg : s.wCache.Cache.get fe.Id with
  | none =>
    rw [hnone hg, hg] at h1
    cases h1
  | some fb =>
    obtain ⟨fb2, hfb2, hk, -⟩ := hsome fb hg
    rw [hfb2] at h1
    simp only [Option.some.injEq] at h1
    rw [← h1]
    simpa [GoMap.keys] using hk

theorem BlockCache.DetachFileBuffer_moves {bs : Nat} (c : BlockCache) (fe : FileEntry)
    (hempty : ∀ fb, c.Cache.get fe.Id = some fb → fb.BufferMap.entries = []) :
    Relation.ReflTransGen (BlockCache.Move bs) c (c.DetachFileBuffer fe) := by
  unfold BlockCache.DetachFileBuffer
  cases hg : c.Cache.get fe.Id with
  | none =>
    rw [GoMap.del_of_get_none _ hg]
  | some fb =>
    exact Relation.ReflTransGen.single (BlockCache.Move.dropFile c fe.Id fb hg (hempty fb hg))

theorem WCache.Close_moves_write {bs : Nat} {fe : FileEntry} {s s1 : CacheState}
    {e : Option GoError} (h : WCache.Close fe s = .ok (e, s1)) : CacheState.Moved bs s s1 := by
  simp only [WCache.Close] at h
  obtain ⟨w, hflush, h⟩ := (Except.bind_eq_ok_iff _ _ _).mp h
  obtain ⟨e1, s2⟩ := w
  have hm := WCache.Flush_moved bs hflush
  split at h
  · simp only [pure, Except.pure, Except.ok.injEq, Prod.mk.injEq] at h
    rw [← h.2]
    exact hm
  · rename_i hnone
    simp only [ne_eq, not_not] at hnone
    subst hnone
    simp only [pure, Except.pure, Except.ok.injEq, Prod.mk.injEq, true_and] at h
    rw [← h.2]
    refine hm.trans ⟨?_, Relation.ReflTransGen.refl⟩
    exact BlockCache.DetachFileBuffer_moves _ fe (fun fb hfb => WCache.Flush_empty hflush hfb)

/-! ## The operations of the read cache as moves -/

theorem CacheState.onR_frame_map (bs : Nat) {s s1 : CacheState} {fid : Nat}
    {f : FileBuffer → Except Fault FileBuffer}
    (hf : ∀ fb fb1, f fb = .ok fb1 → fb1.BufferMap = fb.BufferMap)
    (h : s.onR (fun cache => cache.onFileBuf fid f) = .ok s1) :
    CacheState.Moved bs s s1 ∧ ∃ fb fb1, s.rCache.Cache.get fid = some fb ∧
      s1.rCache.Cache.get fid = some fb1 ∧ fb1.BufferMap = fb.BufferMap := by
  obtain ⟨c1, hc, rfl⟩ := CacheState.onR_inv h
  obtain ⟨hmove, fb, fb1, h0, h1, h2⟩ := BlockCache.onFileBuf_frame bs hf hc
  exact ⟨CacheState.Moved.read rfl hmove, fb, fb1, h0, h1, h2⟩

/-- A `ReleaseBuffer` that returns: the cores moved, and the block map of the file lost the
block. -/
theorem RCache.ReleaseBuffer_moved (bs : Nat) {s s1 : CacheState} {fid idx : Nat}
    (h : RCache.ReleaseBuffer fid idx s = .ok s1) :
    CacheState.Moved bs s s1 ∧ ∃ fb fb1, s.rCache.Cache.get fid = some fb ∧
      s1.rCache.Cache.get fid = some fb1 ∧ fb1.BufferMap = fb.BufferMap.del idx := by
  simp only [RCache.ReleaseBuffer] at h
  obtain ⟨sa, hlock, h⟩ := (Except.bind_eq_ok_iff _ _ _).mp h
  obtain ⟨found, hget, h⟩ := (Except.bind_eq_ok_iff _ _ _).mp h
  obtain ⟨sb, hrel, hunlock⟩ := (Except.bind_eq_ok_iff _ _ _).mp h
  obtain ⟨hm1, fb, fbL, hfb, hfbL, hmapL⟩ := CacheState.onR_frame_map bs
    (fun _ _ hx => FileBuffer.LockBuffer_map hx) hlock
  obtain ⟨fb0, hfb0, hfound⟩ := BlockCache.GetBuffer_inv hget
  rw [hfbL] at hfb0
  simp only [Option.some.injEq] at hfb0
  subst hfb0
  have hmid : CacheState.Moved bs sa sb ∧ ∃ fbM, sb.rCache.Cache.get fid = some fbM ∧
      fbM.BufferMap = fbL.BufferMap.del idx := by
    cases hf : found with
    | none =>
      rw [hf] at hrel hfound
      cases hrel
      exact ⟨CacheState.Moved.refl bs _, fbL, hfbL,
        (GoMap.del_of_get_none _ hfound.symm).symm⟩
    | some b =>
      rw [hf] at hrel hfound
      obtain ⟨c2, hc2, rfl⟩ := CacheState.onR_inv hrel
      have hc0 : (sa.rCache.toBlockCache.RemoveLru b).2.Cache.get fid = some fbL := by
        rw [BlockCache.RemoveLru_Cache]
        exact hfbL
      simp only [BlockCache.DetachBuffer_run _ idx hc0, bind, Except.bind, pure, Except.pure,
        Except.ok.injEq] at hc2
      subst hc2
      refine ⟨CacheState.Moved.read rfl ?_, _, GoMap.get_set_self _ _ _, rfl⟩
      exact @BlockCache.Move.release bs sa.rCache.toBlockCache fid idx fbL b
        (sa.rCache.toBlockCache.RemoveLru b).1 hfbL hfound.symm
        (by rw [BlockCache.RemoveLru_fst]) (by rw [BlockCache.RemoveLru_fst])
  obtain ⟨hm2, fbM, hfbM, hmapM⟩ := hmid
  obtain ⟨hm3, fbU, fb1, hfbU, hfb1, hmapU⟩ := CacheState.onR_frame_map bs
    (fun _ _ hx => FileBuffer.UnLockBuffer_map hx) hunlock
  rw [hfbM] at hfbU
  simp only [Option.some.injEq] at hfbU
  subst hfbU
  exact ⟨(hm1.trans hm2).trans hm3, fb, fb1, hfb, hfb1, by rw [hmapU, hmapM, hmapL]⟩

theorem RCache.releaseAll_moved (bs : Nat) (fid : Nat) :
    ∀ (keys : List Nat) (s s1 : CacheState), RCache.releaseAll fid keys s = .ok s1 →
      CacheState.Moved bs s s1 ∧ ∀ fb, s.rCache.Cache.get fid = some fb →
        ∃ fb1, s1.rCache.Cache.get fid = some fb1 ∧
          ∀ k, fb1.BufferMap.get k = if k ∈ keys then none else fb.BufferMap.get k := by
  intro keys
  induction keys with
  | nil =>
    intro s s1 h
    simp only [RCache.releaseAll, Except.ok.injEq] at h
    subst h
    exact ⟨CacheState.Moved.refl bs s, fun fb hfb => ⟨fb, hfb, by simp⟩⟩
  | cons idx rest ih =>
    intro s s1 h
    simp only [RCache.releaseAll] at h
    obtain ⟨sa, hone, h⟩ := (Except.bind_eq_ok_iff _ _ _).mp h
    obtain ⟨hm1, fb0, fbA, hfb0, hfbA, hmap⟩ := RCache.ReleaseBuffer_moved bs hone
    obtain ⟨hm2, hrest⟩ := ih sa s1 h
    refine ⟨hm1.trans hm2, ?_⟩
    intro fb hfb
    rw [hfb0] at hfb
    simp only [Option.some.injEq] at hfb
    subst hfb
    obtain ⟨fb1, hfb1, hget⟩ := hrest fbA hfbA
    refine ⟨fb1, hfb1, ?_⟩
    intro k
    rw [hget k, hmap, GoMap.get_del]
    by_cases hk : k = idx
    · subst hk
      simp
    · by_cases hr : k ∈ rest
      · simp [hr]
      · have hne : ¬ idx = k := fun e => hk e.symm
        simp [hk, hr, hne]

theorem RCache.Release_moved (bs : Nat) {fe : FileEntry} {s s1 : CacheState}
    {e : Option GoError} (h : RCache.Release fe s = .ok (e, s1)) :
    CacheState.Moved bs s s1 ∧
      ∀ fb1, s1.rCache.Cache.get fe.Id = some fb1 → fb1.BufferMap.entries = [] := by
  unfold RCache.Release at h
  rw [BlockCache.GetFileBuffer_false_fst] at h
  cases hg : s.rCache.Cache.get fe.Id with
  | none =>
    simp only [hg, Except.ok.injEq, Prod.mk.injEq] at h
    rw [← h.2]
    refine ⟨CacheState.Moved.refl bs s, ?_⟩
    intro fb1 h1
    rw [hg] at h1
    cases h1
  | some fb =>
    simp only [hg] at h
    obtain ⟨_, -, h⟩ := (Except.bind_eq_ok_iff _ _ _).mp h
    obtain ⟨sa, hall, h⟩ := (Except.bind_eq_ok_iff _ _ _).mp h
    simp only [pure, Except.pure, Except.ok.injEq, Prod.mk.injEq] at h
    rw [← h.2]
    obtain ⟨hm, hmap⟩ := RCache.releaseAll_moved bs fe.Id _ s sa hall
    refine ⟨hm, ?_⟩
    intro fb1 h1
    obtain ⟨fb2, hfb2, hget⟩ := hmap fb hg
    rw [hfb2] at h1
    simp only [Option.some.injEq] at h1
    subst h1
    apply GoMap.entries_eq_nil_of_get_none
    intro k
    rw [hget k]
    split
    · rfl
    · rename_i hk
      cases hgk : fb.BufferMap.get k with
      | none => rfl
      | some v =>
        exfalso
        apply hk
        show k ∈ fb.BufferMap.keys
        rw [GoMap.mem_keys_iff, hgk]
        simp

theorem RCache.Clean_moved {bs : Nat} {fe : FileEntry} {Size offset : Nat} {s s1 : CacheState}
    {e : Option GoError} (h : RCache.Clean fe Size offset s = .ok (e, s1)) :
    CacheState.Moved bs s s1 := by
  unfold RCache.Clean at h
  split at h
  · cases h
    exact CacheState.Moved.refl bs s
  · obtain ⟨rw1, -, h⟩ := (Except.bind_eq_ok_iff _ _ _).mp h
    obtain ⟨_, -, h⟩ := (Except.bind_eq_ok_iff _ _ _).mp h
    obtain ⟨_, -, h⟩ := (Except.bind_eq_ok_iff _ _ _).mp h
    obtain ⟨sa, hall, h⟩ := (Except.bind_eq_ok_iff _ _ _).mp h
    simp only [pure, Except.pure, Except.ok.injEq, Prod.mk.injEq] at h
    rw [← h.2]
    exact (RCache.releaseAll_moved bs fe.Id _ s sa hall).1

theorem RCache.Close_moves_read {bs : Nat} {fe : FileEntry} {s s1 : CacheState}
    {e : Option GoError} (h : RCache.Close fe s = .ok (e, s1)) : CacheState.Moved bs s s1 := by
  simp only [RCache.Close] at h
  obtain ⟨w, hrel, h⟩ := (Except.bind_eq_ok_iff _ _ _).mp h
  obtain ⟨e1, s2⟩ := w
  obtain ⟨hm, hempty⟩ := RCache.Release_moved bs hrel
  split at h
  · simp only [pure, Except.pure, Except.ok.injEq, Prod.mk.injEq] at h
    rw [← h.2]
    exact hm
  · simp only [pure, Except.pure, Except.ok.injEq, Prod.mk.injEq] at h
    rw [← h.2]
    refine hm.trans ⟨Relation.ReflTransGen.refl, ?_⟩
    exact BlockCache.DetachFileBuffer_moves _ fe hempty

/-! ## The prefetch read as a move -/

theorem RCache.DirectRead_rCache (fe : FileEntry) (b : List Byte) (o : Nat) (s : CacheState) :
    (RCache.DirectRead fe b o s).2.rCache = s.rCache := rfl

theorem RCache.DirectRead_wCache (fe : FileEntry) (b : List Byte) (o : Nat) (s : CacheState) :
    (RCache.DirectRead fe b o s).2.wCache = s.wCache := rfl

theorem RCache.DirectRead_now (fe : FileEntry) (b : List Byte) (o : Nat) (s : CacheState) :
    (RCache.DirectRead fe b o s).2.now = s.now := rfl

theorem Reader.Read_length (id : Nat) (buffer : List Byte) (offset : Nat) (p : ProxyClient) :
    (Reader.Read id buffer offset p).1.2.2.length = buffer.length := by
  simp only [Reader.Read]
  split_ifs
  · rfl
  · rfl
  · exact goCopy_length _ _

theorem RCache.DirectRead_length (fe : FileEntry) (b : List Byte) (o : Nat) (s : CacheState) :
    (RCache.DirectRead fe b o s).1.2.2.length = b.length :=
  Reader.Read_length fe.Id b o s.proxyClient

/-- A prefetch read that returns changes the read cache core by at most one move. -/
theorem RCache.DoPrefetchRead_moved {bs : Nat} {s s1 : CacheState} {fid : Nat} {op : RWBlockOp}
    {e : Option GoError} (hop : op.InBlock bs)
    (h : RCache.DoPrefetchRead fid op s = .ok (e, s1)) : CacheState.Moved bs s s1 := by
  unfold RCache.DoPrefetchRead at h
  dsimp only at h
  split at h
  · cases h
    exact CacheState.Moved.same rfl rfl
  · split at h
    · cases h
      exact CacheState.Moved.same rfl rfl
    · rw [RCache.DirectRead_rCache, RCache.DirectRead_now] at h
      cases hfl : s.rCache.FreeList with
      | nil =>
        simp only [BlockCache.AllocBuffer, hfl, bind, Except.bind, pure, Except.pure,
          Except.ok.injEq, Prod.mk.injEq] at h
        rw [← h.2]
        exact CacheState.Moved.same rfl rfl
      | cons f0 rest =>
        cases helm : f0.elm with
        | true =>
          simp [BlockCache.AllocBuffer, hfl, Buffer.ReSet, helm, Assert, bind, Except.bind] at h
        | false =>
          have hrun := Buffer.loaded_run f0 op.fe
            { op with rwBuf := (RCache.DirectRead op.fe op.rwBuf op.GetFileOffset s).1.2.2 }
            s.now helm (by
              show op.RwOffset ≤ op.fe.BlockSize
              have := hop.2
              rw [hop.1]
              omega)
          simp only [bind, Except.bind] at hrun
          simp only [BlockCache.AllocBuffer, hfl, bind, Except.bind] at h
          cases hr : f0.ReSet op.fe op.Index with
          | error e1 => simp [hr] at hrun
          | ok buffer1 =>
            simp only [hr] at hrun h
            cases hk : buffer1.Skip op.RwOffset with
            | error e1 => simp [hk] at hrun
            | ok buffer2 =>
              simp only [hk] at hrun h
              cases ha : Assert (buffer2.CanMerge op.RwOffset) with
              | error e1 => simp [ha] at hrun
              | ok u =>
                simp only [ha] at hrun h
                rw [hrun] at h
                dsimp only at h
                cases hg : s.rCache.Cache.get fid with
                | none =>
                  simp [BlockCache.AttachBuffer, BlockCache.onFileBuf, hg] at h
                | some fb =>
                  cases hb : fb.BufferMap.get op.Index with
                  | some b0 =>
                    simp [BlockCache.AttachBuffer, BlockCache.onFileBuf, hg,
                      FileBuffer.AttachBuffer, hb, Assert, bind, Except.bind] at h
                  | none =>
                    have hatt := BlockCache.AttachBuffer_run
                      (BlockCache.mk s.rCache.BufferMax rest s.rCache.Cache s.rCache.LruList
                        s.rCache.ExpireTime s.rCache.Stop) op.Index
                      (f0.loaded op.fe
                        { op with rwBuf :=
                            (RCache.DirectRead op.fe op.rwBuf op.GetFileOffset s).1.2.2 }
                        s.now) hg hb
                    rw [hatt] at h
                    dsimp only at h
                    have hget : ((BlockCache.mk s.rCache.BufferMax rest s.rCache.Cache
                        s.rCache.LruList s.rCache.ExpireTime s.rCache.Stop).withBuffer fid
                        op.Index fb (f0.loaded op.fe
                        { op with rwBuf :=
                            (RCache.DirectRead op.fe op.rwBuf op.GetFileOffset s).1.2.2 }
                        s.now)).Cache.get fid =
                        some (FileBuffer.mk fb.fe (fb.BufferMap.set op.Index (f0.loaded op.fe
                        { op with rwBuf :=
                            (RCache.DirectRead op.fe op.rwBuf op.GetFileOffset s).1.2.2 }
                        s.now)) fb.LockMap fb.pw) := by
                      simp only [BlockCache.withBuffer, GoMap.get_set_self]
                    rw [BlockCache.linked_run _ op.Index _ s.now hget] at h
                    dsimp only at h
                    rw [BlockCache.withBuffer_linked] at h
                    simp only [pure, Except.pure, Except.ok.injEq, Prod.mk.injEq] at h
                    rw [← h.2]
                    refine CacheState.Moved.read rfl ?_
                    exact BlockCache.Move.attach s.rCache.toBlockCache fid op.Index fb f0 rest
                      _ s.now hg hb hfl rfl rfl
                      (Buffer.loaded_Fits f0 s.now hop.1 (by
                        show op.RwOffset +
                          (RCache.DirectRead op.fe op.rwBuf op.GetFileOffset s).1.2.2.length ≤ bs
                        rw [RCache.DirectRead_length]
                        exact hop.2))

/-! ## LRU expiry as moves -/

theorem GoMap.getL_of_mem {β : Type} (l : List (Nat × β)) {k : Nat} {v : β}
    (hk : (l.map Prod.fst).Nodup) (h : (k, v) ∈ l) : GoMap.getL l k = some v := by
  induction l with
  | nil => cases h
  | cons p t ih =>
    obtain ⟨k1, v1⟩ := p
    simp only [List.map_cons, List.nodup_cons] at hk
    rcases List.mem_cons.mp h with e | ht
    · cases e
      simp [GoMap.getL]
    · have hne : ¬ k1 = k := by
        intro e
        apply hk.1
        rw [e]
        exact List.mem_map_of_mem Prod.fst ht
      simp only [GoMap.getL, hne, if_false]
      exact ih hk.2 ht

theorem GoMap.get_of_mem {β : Type} (m : GoMap β) {k : Nat} {v : β} (hk : m.keys.Nodup)
    (h : (k, v) ∈ m.entries) : m.get k = some v :=
  GoMap.getL_of_mem m.entries hk h

theorem BlockCache.findBuffer_some {bs m : Nat} {c : BlockCache} {Id fid idx : Nat}
    {b : Buffer} (hs : c.Sound bs m) (h : c.findBuffer Id = some (fid, idx, b)) :
    ∃ fb, c.Cache.get fid = some fb ∧ fb.BufferMap.get idx = some b ∧ b.Id = Id := by
  unfold BlockCache.findBuffer at h
  have hmem := List.mem_of_find?_eq_some h
  have hid := List.find?_some h
  simp only [decide_eq_true_eq] at hid
  simp only [BlockCache.places, List.mem_flatMap, List.mem_map, Prod.mk.injEq] at hmem
  obtain ⟨p, hp, q, hq, h1, h2, h3⟩ := hmem
  obtain ⟨pk, pfb⟩ := p
  obtain ⟨qk, qb⟩ := q
  simp only at h1 h2 h3
  subst h1 h2 h3
  have hfb := GoMap.get_of_mem c.Cache hs.keys hp
  exact ⟨pfb, hfb, GoMap.get_of_mem pfb.BufferMap (hs.bkeys _ _ hfb) hq, hid⟩

theorem BlockCache.LruExpire_moved {bs m : Nat} {c c1 : BlockCache} {now : Nat}
    {r : Option FileEntry × Nat} (hs : c.Sound bs m) (h : c.LruExpire now = .ok (r, c1)) :
    Relation.ReflTransGen (BlockCache.Move bs) c c1 := by
  unfold BlockCache.LruExpire at h
  split at h
  · cases h
    exact Relation.ReflTransGen.refl
  · split at h
    · cases h
    · rename_i fid idx b hfind
      obtain ⟨fb, hfb, hb, -⟩ := BlockCache.findBuffer_some hs hfind
      obtain ⟨_, helm, h⟩ := (Except.bind_eq_ok_iff _ _ _).mp h
      rw [Assert_eq_ok_iff] at helm
      split at h
      · cases h
        exact Relation.ReflTransGen.refl
      · have hc0 : (BlockCache.mk c.BufferMax c.FreeList c.Cache (c.LruList.erase b.Id)
            c.ExpireTime c.Stop).Cache.get fid = some fb := hfb
        rw [BlockCache.putBuffer_run _ idx _ hc0] at h
        simp only [bind, Except.bind, pure, Except.pure, Except.ok.injEq, Prod.mk.injEq] at h
        rw [← h.2]
        have hmove := @BlockCache.Move.park bs c fid idx fb b
          (Buffer.mk b.Id b.fe b.BlkIdx b.Offset b.Len b.dataBuf b.LastUpdateTime false)
          hfb hb rfl rfl (fun hf => hf.unlinked)
        have he : (c.RemoveLru b).2 = BlockCache.mk c.BufferMax c.FreeList c.Cache
            (c.LruList.erase b.Id) c.ExpireTime c.Stop := by
          simp only [BlockCache.RemoveLru, helm, if_true]
        rw [he] at hmove
        exact Relation.ReflTransGen.single hmove

theorem WCache.expireOnce_moves_write {bs m : Nat} {s s1 : CacheState} {more : Bool}
    (hs : s.Sound bs m) (h : WCache.expireOnce s = .ok (more, s1)) :
    CacheState.Moved bs s s1 := by
  simp only [WCache.expireOnce] at h
  obtain ⟨w, hexp, h⟩ := (Except.bind_eq_ok_iff _ _ _).mp h
  obtain ⟨r, c1⟩ := w
  have hm : CacheState.Moved bs s (s.setW c1) :=
    ⟨BlockCache.LruExpire_moved hs.1 hexp, Relation.ReflTransGen.refl⟩
  dsimp only at h
  split at h
  · simp only [pure, Except.pure, Except.ok.injEq, Prod.mk.injEq] at h
    rw [← h.2]
    exact hm
  · split at h
    · simp only [pure, Except.pure, Except.ok.injEq, Prod.mk.injEq] at h
      rw [← h.2]
      exact hm
    · obtain ⟨w2, hflush, h⟩ := (Except.bind_eq_ok_iff _ _ _).mp h
      simp only [pure, Except.pure, Except.ok.injEq, Prod.mk.injEq] at h
      rw [← h.2]
      exact hm.trans (WCache.FlushBuffer_moved (e := w2.1) hflush)

theorem RCache.expireOnce_moves_read {bs m : Nat} {s s1 : CacheState} {more : Bool}
    (hs : s.Sound bs m) (h : RCache.expireOnce s = .ok (more, s1)) :
    CacheState.Moved bs s s1 := by
  simp only [RCache.expireOnce] at h
  obtain ⟨w, hexp, h⟩ := (Except.bind_eq_ok_iff _ _ _).mp h
  obtain ⟨r, c1⟩ := w
  have hm : CacheState.Moved bs s (s.setR c1) :=
    ⟨Relation.ReflTransGen.refl, BlockCache.LruExpire_moved hs.2 hexp⟩
  dsimp only at h
  split at h
  · simp only [pure, Except.pure, Except.ok.injEq, Prod.mk.injEq] at h
    rw [← h.2]
    exact hm
  · split at h
    · simp only [pure, Except.pure, Except.ok.injEq, Prod.mk.injEq] at h
      rw [← h.2]
      exact hm
    · obtain ⟨s2, hrel, h⟩ := (Except.bind_eq_ok_iff _ _ _).mp h
      simp only [pure, Except.pure, Except.ok.injEq, Prod.mk.injEq] at h
      rw [← h.2]
      exact hm.trans (RCache.ReleaseBuffer_moved _ hrel).1

/-! ## `Read` and the facade as moves -/

theorem FileBuffer.RLockBuffer_map {fb fb1 : FileBuffer} {idx : Nat}
    (h : fb.RLockBuffer idx = .ok fb1) : fb1.BufferMap = fb.BufferMap := by
  unfold FileBuffer.RLockBuffer at h
  split at h
  · split at h
    · cases h
    · cases h
      rfl
  · cases h
    rfl

theorem FileBuffer.RUnLockBuffer_map {fb fb1 : FileBuffer} {idx : Nat}
    (h : fb.RUnLockBuffer idx = .ok fb1) : fb1.BufferMap = fb.BufferMap := by
  unfold FileBuffer.RUnLockBuffer at h
  split at h
  · cases h
  · simp only [bind, Except.bind, Assert] at h
    split at h
    · cases h
    · split at h
      · cases h
        rfl
      · cases h
        rfl

theorem RCache.ReadOp_cores {fe : FileEntry} {fid : Nat} {op : RWBlockOp} {s s1 : CacheState}
    {r : Nat × Option GoError × List Byte} (h : RCache.ReadOp fe fid op s = .ok (r, s1)) :
    s1.wCache = s.wCache ∧ s1.rCache = s.rCache := by
  simp only [RCache.ReadOp] at h
  obtain ⟨found, -, h⟩ := (Except.bind_eq_ok_iff _ _ _).mp h
  cases found with
  | none =>
    simp only [pure, Except.pure, Except.ok.injEq] at h
    rw [← (Prod.mk.inj h).2]
    exact ⟨rfl, rfl⟩
  | some b =>
    simp only at h
    obtain ⟨_, -, h⟩ := (Except.bind_eq_ok_iff _ _ _).mp h
    split at h
    · simp only [pure, Except.pure, Except.ok.injEq, Prod.mk.injEq] at h
      rw [← h.2]
      exact ⟨rfl, rfl⟩
    · obtain ⟨_, -, h⟩ := (Except.bind_eq_ok_iff _ _ _).mp h
      simp only [pure, Except.pure, Except.ok.injEq, Prod.mk.injEq] at h
      rw [← h.2]
      exact ⟨rfl, rfl⟩

theorem RCache.prefetchLoop_moved (bs : Nat) (fid : Nat) (fe : FileEntry) :
    ∀ (n blkStart : Nat) (s s1 : CacheState),
      RCache.prefetchLoop fid fe n blkStart s = .ok s1 → CacheState.Moved bs s s1 := by
  intro n
  induction n with
  | zero =>
    intro blkStart s s1 h
    simp only [RCache.prefetchLoop, Except.ok.injEq] at h
    rw [← h]
    exact CacheState.Moved.refl bs s
  | succ n ih =>
    intro blkStart s s1 h
    simp only [RCache.prefetchLoop] at h
    obtain ⟨sa, hlock, h⟩ := (Except.bind_eq_ok_iff _ _ _).mp h
    obtain ⟨found, -, h⟩ := (Except.bind_eq_ok_iff _ _ _).mp h
    obtain ⟨sb, hmid, h⟩ := (Except.bind_eq_ok_iff _ _ _).mp h
    have hm1 := (CacheState.onR_frame bs (fun _ _ hx => FileBuffer.LockBuffer_map hx) hlock).1
    have hm2 : CacheState.Moved bs sa sb := by
      cases found with
      | none =>
        simp only [Except.ok.injEq] at hmid
        rw [← hmid]
        exact CacheState.Moved.same rfl rfl
      | some b =>
        exact (CacheState.onR_frame bs (fun _ _ hx => FileBuffer.UnLockBuffer_map hx) hmid).1
    exact (hm1.trans hm2).trans (ih _ _ _ h)

theorem RCache.TryDoPrefetch_moved (bs : Nat) {fid Size offset : Nat} {s s1 : CacheState}
    (h : RCache.TryDoPrefetch fid Size offset s = .ok s1) : CacheState.Moved bs s s1 := by
  unfold RCache.TryDoPrefetch at h
  split at h
  · simp only [RCache.DoPrefetch] at h
    obtain ⟨_, -, h⟩ := (Except.bind_eq_ok_iff _ _ _).mp h
    obtain ⟨fileBuf, -, h⟩ := (Except.bind_eq_ok_iff _ _ _).mp h
    obtain ⟨rw1, -, h⟩ := (Except.bind_eq_ok_iff _ _ _).mp h
    obtain ⟨rwSize, -, h⟩ := (Except.bind_eq_ok_iff _ _ _).mp h
    obtain ⟨_, -, h⟩ := (Except.bind_eq_ok_iff _ _ _).mp h
    obtain ⟨first, -, h⟩ := (Except.bind_eq_ok_iff _ _ _).mp h
    obtain ⟨moved, -, h⟩ := (Except.bind_eq_ok_iff _ _ _).mp h
    cases moved with
    | none =>
      simp only [pure, Except.pure, Except.ok.injEq] at h
      rw [← h]
      exact CacheState.Moved.refl bs s
    | some pw =>
      simp only at h
      obtain ⟨c1, hc1, h⟩ := (Except.bind_eq_ok_iff _ _ _).mp h
      have hm1 : CacheState.Moved bs s (s.setR c1) :=
        CacheState.Moved.read rfl (BlockCache.onFileBuf_frame bs
          (fun fb fb1 hx => by cases hx; rfl) hc1).1
      exact hm1.trans (RCache.prefetchLoop_moved bs fid _ _ _ _ _ h)
  · cases h
    exact CacheState.Moved.refl bs s

theorem RWCache.doReadLoop_moved (bs : Nat) (fe : FileEntry) (offset : Nat) (hasW : Bool) :
    ∀ (Ops : List RWBlockOp) (Size : Nat) (dataBuf : List Byte) (s s1 : CacheState)
      (r : Nat × Option GoError × List Byte),
      RWCache.doReadLoop fe offset hasW Ops Size dataBuf s = .ok (r, s1) →
      CacheState.Moved bs s s1 := by
  intro Ops
  induction Ops with
  | nil =>
    intro Size dataBuf s s1 r h
    simp only [RWCache.doReadLoop, Except.ok.injEq, Prod.mk.injEq] at h
    rw [← h.2]
    exact CacheState.Moved.refl bs s
  | cons op Ops ih =>
    intro Size dataBuf s s1 r h
    simp only [RWCache.doReadLoop] at h
    obtain ⟨sa, h1, h⟩ := (Except.bind_eq_ok_iff _ _ _).mp h
    obtain ⟨sb, h2, h⟩ := (Except.bind_eq_ok_iff _ _ _).mp h
    obtain ⟨w, h3, h⟩ := (Except.bind_eq_ok_iff _ _ _).mp h
    obtain ⟨sc, h4, h⟩ := (Except.bind_eq_ok_iff _ _ _).mp h
    have hm1 : CacheState.Moved bs s sa := by
      split at h1
      · exact (CacheState.onW_frame bs (fun _ _ hx => FileBuffer.RLockBuffer_map hx) h1).1
      · cases h1
        exact CacheState.Moved.refl bs s
    have hm2 := (CacheState.onR_frame bs (fun _ _ hx => FileBuffer.RLockBuffer_map hx) h2).1
    have hm3 : CacheState.Moved bs sb w.2 := by
      have h3b : RCache.ReadOp fe fe.Id op sb = .ok (w.1, w.2) := h3
      obtain ⟨hw, hr⟩ := RCache.ReadOp_cores h3b
      exact CacheState.Moved.same (by rw [hw]) (by rw [hr])
    have hm4 := (CacheState.onR_frame bs (fun _ _ hx => FileBuffer.RUnLockBuffer_map hx) h4).1
    have hm := ((hm1.trans hm2).trans hm3).trans hm4
    have hun : ∀ sd, (if hasW then sc.onW (fun cache => cache.RUnLockBuffer fe.Id op.Index)
        else .ok sc) = .ok sd → CacheState.Moved bs sc sd := by
      intro sd hsd
      split at hsd
      · exact (CacheState.onW_frame bs (fun _ _ hx => FileBuffer.RUnLockBuffer_map hx) hsd).1
      · cases hsd
        exact CacheState.Moved.refl bs sc
    split at h
    · obtain ⟨sd, h5, h⟩ := (Except.bind_eq_ok_iff _ _ _).mp h
      simp only [pure, Except.pure, Except.ok.injEq, Prod.mk.injEq] at h
      rw [← h.2]
      exact hm.trans (hun sd h5)
    · obtain ⟨m, -, h⟩ := (Except.bind_eq_ok_iff _ _ _).mp h
      obtain ⟨sd, h5, h⟩ := (Except.bind_eq_ok_iff _ _ _).mp h
      exact (hm.trans (hun sd h5)).trans (ih _ _ _ _ _ h)

theorem RWCache.Read_moved (bs : Nat) {fe : FileEntry} {buffer : List Byte} {offset : Nat}
    {s s1 : CacheState} {r : Nat × Option GoError × List Byte}
    (h : RWCache.Read fe buffer offset s = .ok (r, s1)) : CacheState.Moved bs s s1 := by
  simp only [RWCache.Read, RWCache.doRead] at h
  obtain ⟨_, -, h⟩ := (Except.bind_eq_ok_iff _ _ _).mp h
  obtain ⟨sa, hpre, h⟩ := (Except.bind_eq_ok_iff _ _ _).mp h
  obtain ⟨Ops, -, h⟩ := (Except.bind_eq_ok_iff _ _ _).mp h
  obtain ⟨w, hloop, h⟩ := (Except.bind_eq_ok_iff _ _ _).mp h
  have hm0 : CacheState.Moved bs s (s.setR (s.rCache.toBlockCache.GetFileBuffer fe true).2) :=
    ⟨Relation.ReflTransGen.refl, BlockCache.GetFileBuffer_moves bs _ fe true⟩
  have hm1 := RCache.TryDoPrefetch_moved bs hpre
  have hm2 := RWCache.doReadLoop_moved bs fe offset _ Ops 0 _ sa w.2 w.1 hloop
  have hs1 : s1 = w.2 := by
    split at h
    · simp only [pure, Except.pure, Except.ok.injEq, Prod.mk.injEq] at h
      exact h.2.symm
    · obtain ⟨_, -, h⟩ := (Except.bind_eq_ok_iff _ _ _).mp h
      simp only [pure, Except.pure, Except.ok.injEq, Prod.mk.injEq] at h
      exact h.2.symm
  rw [hs1]
  exact (hm0.trans hm1).trans hm2

/-! ## The invariant holds in every reachable state -/

theorem CacheState.Step.is_moved {bs m : Nat} {s s1 : CacheState} (hs : s.Sound bs m)
    (hlt : bs < U32) (h : CacheState.Step bs s s1) : CacheState.Moved bs s s1 :=
  match h with
  | .write _ _ _ _ _ _ hbs h => WCache.Write_moved hs hbs hlt h
  | .flushBuffer _ _ _ _ _ h => WCache.FlushBuffer_moved h
  | .flush _ _ _ _ h => WCache.Flush_moved _ h
  | .closeWrite _ _ _ _ h => WCache.Close_moves_write h
  | .expireWrite _ _ _ h => WCache.expireOnce_moves_write hs h
  | .prefetchRead _ _ _ _ hop h => RCache.DoPrefetchRead_moved hop h
  | .releaseBuffer _ _ _ _ h => (RCache.ReleaseBuffer_moved _ h).1
  | .clean _ _ _ _ _ _ h => RCache.Clean_moved h
  | .release _ _ _ _ h => (RCache.Release_moved _ h).1
  | .closeRead _ _ _ _ h => RCache.Close_moves_read h
  | .expireRead _ _ _ h => RCache.expireOnce_moves_read hs h
  | .read _ _ _ _ _ _ h => RWCache.Read_moved _ h
  | .tick _ _ => CacheState.Moved.same rfl rfl

theorem newFreeList_ids (m : Nat) : (newFreeList m).map Buffer.Id = List.range m := by
  simp only [newFreeList, List.map_map]
  conv_rhs => rw [← List.map_id (List.range m)]
  rfl

theorem newCore_Sound (bs m ExpireTime : Nat) :
    (BlockCache.mk m (newFreeList m) GoMap.empty [] ExpireTime false).Sound bs m := by
  refine ⟨GoMap.keys_nodup_empty, ?_, ?_, ?_, ?_, List.nodup_nil, ?_, ?_⟩
  · intro fid fb h
    rw [GoMap.get_empty] at h
    cases h
  · intro fid fb idx b h
    rw [GoMap.get_empty] at h
    cases h
  · show ((newFreeList m ++ attachedOf GoMap.empty).map Buffer.Id).Perm (List.range m)
    simp only [attachedOf, GoMap.empty, List.flatMap_nil, List.append_nil, newFreeList_ids]
    exact List.Perm.refl _
  · intro b hb
    simp only [newFreeList, List.mem_map] at hb
    obtain ⟨i, -, rfl⟩ := hb
    rfl
  · intro b hb
    simp [BlockCache.attached, attachedOf, GoMap.empty] at hb
  · intro i hi
    cases hi

theorem NewRWCache_Sound (bs m : Nat) (proxyClient : ProxyClient)
    (now ExpireTime SyncRoutine PrefetchRoutine PrefetchTimes : Nat) :
    (NewRWCache proxyClient now m ExpireTime SyncRoutine PrefetchRoutine PrefetchTimes).Sound
      bs m :=
  ⟨newCore_Sound bs m ExpireTime, newCore_Sound bs m ExpireTime⟩

theorem CacheState.Reachable.sound {bs m : Nat} {s : CacheState}
    (h : CacheState.Reachable bs m s) : s.Sound bs m ∧ bs < U32 := by
  induction h with
  | init proxyClient now ExpireTime SyncRoutine PrefetchRoutine PrefetchTimes hm hbs =>
    exact ⟨NewRWCache_Sound bs m proxyClient now ExpireTime SyncRoutine PrefetchRoutine
      PrefetchTimes, hbs⟩
  | step s s1 _ hstep ih => exact ⟨ih.1.moved (hstep.is_moved ih.1 ih.2), ih.2⟩

theorem sampleDirty_reachable : CacheState.Reachable 4 2 sampleDirty :=
  CacheState.Reachable.step sampleState sampleDirty
    (CacheState.Reachable.init sampleProxy 0 500 0 0 8 (by decide) (by decide))
    (CacheState.Step.write sampleState sampleEntry [1, 2] 0 (2, none) sampleDirty rfl rfl)

/-- The facade methods `RWCache.Write` and `RWCache.Close` are two steps each;
`RWCache.Flush`, `RWCache.Release` and `RWCache.Read` are one. -/
theorem CacheState.Reachable.facadeWrite {bs m : Nat} {s s1 : CacheState} {fe : FileEntry}
    {buffer : List Byte} {offset : Nat} {r : Nat × Option GoError}
    (hs : CacheState.Reachable bs m s) (hbs : fe.BlockSize = bs)
    (h : RWCache.Write fe buffer offset s = .ok (r, s1)) : CacheState.Reachable bs m s1 := by
  simp only [RWCache.Write] at h
  obtain ⟨w, hw, h⟩ := (Except.bind_eq_ok_iff _ _ _).mp h
  obtain ⟨c, hc, h⟩ := (Except.bind_eq_ok_iff _ _ _).mp h
  simp only [pure, Except.pure, Except.ok.injEq, Prod.mk.injEq] at h
  rw [← h.2]
  exact CacheState.Reachable.step _ _
    (CacheState.Reachable.step _ _ hs (CacheState.Step.write s fe buffer offset w.1 w.2 hbs hw))
    (CacheState.Step.clean w.2 fe buffer.length offset c.1 c.2 hc)

theorem CacheState.Reachable.facadeClose {bs m : Nat} {s s1 : CacheState} {fe : FileEntry}
    {e : Option GoError} (hs : CacheState.Reachable bs m s)
    (h : RWCache.Close fe s = .ok (e, s1)) : CacheState.Reachable bs m s1 := by
  simp only [RWCache.Close] at h
  obtain ⟨w, hw, h⟩ := (Except.bind_eq_ok_iff _ _ _).mp h
  have h1 := CacheState.Reachable.step _ _ hs (CacheState.Step.closeRead s fe w.1 w.2 hw)
  split at h
  · simp only [pure, Except.pure, Except.ok.injEq] at h
    rw [← (Prod.mk.inj h).2]
    exact h1
  · exact CacheState.Reachable.step _ _ h1 (CacheState.Step.closeWrite w.2 fe e s1 h)

/-! ## C25: the buffer bound -/

/-- On a sound write cache `WriteOp` returns for every op of `Slice`: none of its assertions
fails and no slice expression leaves its buffer. -/
theorem WCache.WriteOp_returns {bs m : Nat} {fe : FileEntry} {fid : Nat} {op : RWBlockOp}
    {s : CacheState} {fb : FileBuffer}
    (hs : s.wCache.toBlockCache.Sound bs m) (hfb : s.wCache.Cache.get fid = some fb)
    (hbs : fe.BlockSize = bs) (hlt : bs < U32) (hop : op.Sliced fe) :
    ∃ r s1, WCache.WriteOp fe fid op s = .ok (r, s1) := by
  obtain ⟨hofe, hsz, hfit⟩ := hop
  cases hb : fb.BufferMap.get op.Index with
  | none =>
    rw [WCache.WriteOp_absent fe fid op s fb hfb hb,
      WCache.WriteOpNew_eq fe fid op s fb hfb hb hofe hsz hfit (by omega)]
    split
    · exact ⟨_, _, rfl⟩
    · cases hfl : s.wCache.FreeList with
      | nil => exact ⟨_, _, rfl⟩
      | cons f0 rest =>
        have helm : f0.elm = false := hs.pool.free f0 (by rw [hfl]; exact List.mem_cons_self _ _)
        simp only [helm, Bool.false_eq_true, if_false]
        split
        · exact ⟨_, _, rfl⟩
        · exact ⟨_, _, rfl⟩
  | some b =>
    obtain ⟨⟨bfe, hbfe, -⟩, hb1, hb2⟩ := hs.fits fid fb op.Index b hfb hb
    have hc0 : (s.wCache.toBlockCache.RemoveLru b).2.Cache.get fid = some fb := by
      rw [BlockCache.RemoveLru_Cache]
      exact hfb
    rw [WCache.WriteOp_exist fe fid op s fb b hfb hb]
    split
    · rename_i hcan
      rw [WCache.WriteOpMerge_eq fe fid op (Buffer.mk b.Id b.fe b.BlkIdx b.Offset b.Len b.dataBuf
        b.LastUpdateTime false) _ s fb bfe hc0 hbfe hcan (by rw [hbs]; exact hb2)
        hsz hfit]
      split
      · split
        · exact ⟨_, _, rfl⟩
        · dsimp only
          split
          · exact ⟨_, _, rfl⟩
          · exact ⟨_, _, rfl⟩
      · exact ⟨_, _, rfl⟩
    · rw [WCache.WriteOpFlushFirst_eq fe fid op (Buffer.mk b.Id b.fe b.BlkIdx b.Offset b.Len b.dataBuf
        b.LastUpdateTime false) _ s fb bfe hc0 hbfe (by
          show b.Offset + b.Len ≤ b.dataBuf.length
          omega) rfl hofe
        (by rw [hsz, Nat.mod_eq_of_lt (by omega)]) hfit]
      dsimp only
      split
      · exact ⟨_, _, rfl⟩
      · split
        · exact ⟨_, _, rfl⟩
        · exact ⟨_, _, rfl⟩

/-- On a sound write cache `FlushBuffer` returns whenever the block lock is free. -/
theorem WCache.FlushBuffer_returns {bs m : Nat} {s : CacheState} {fid idx : Nat}
    {fb : FileBuffer} (hs : s.wCache.toBlockCache.Sound bs m)
    (hfb : s.wCache.Cache.get fid = some fb) (hl : fb.LockMap.get idx = none) :
    ∃ e s1, WCache.FlushBuffer fid idx s = .ok (e, s1) := by
  rw [WCache.FlushBuffer_eq s fid idx fb hfb hl]
  cases hb : fb.BufferMap.get idx with
  | none => exact ⟨_, _, rfl⟩
  | some b =>
    obtain ⟨⟨bfe, hbfe, -⟩, hb1, hb2⟩ := hs.fits fid fb idx b hfb hb
    have hd : ¬ (b.Offset + b.Len > b.dataBuf.length) := by omega
    simp only [hbfe, hd, if_false]
    split
    · exact ⟨_, _, rfl⟩
    · exact ⟨_, _, rfl⟩

theorem Buffer.Fits.bound {bs : Nat} {b : Buffer} (h : b.Fits bs) :
    (∃ fe, b.fe = some fe ∧ fe.BlockSize = bs ∧ b.Offset + b.Len ≤ fe.BlockSize) ∧
      b.IsFull bs = .ok (decide (b.Offset + b.Len = bs)) ∧
      b.GetData = .ok ((b.dataBuf.drop b.Offset).take b.Len) ∧
      ((b.dataBuf.drop b.Offset).take b.Len).length = b.Len := by
  obtain ⟨⟨fe, hfe, hbs⟩, h1, h2⟩ := h
  refine ⟨⟨fe, hfe, hbs, by rw [hbs]; exact h1⟩, ?_, ?_, ?_⟩
  · simp only [Buffer.IsFull, Assert, h1, decide_True, if_true, bind, Except.bind, pure,
      Except.pure]
  · have hd : ¬ (b.Offset + b.Len > b.dataBuf.length) := by omega
    simp only [Buffer.GetData, hd, if_false]
  · simp only [List.length_take, List.length_drop]
    omega

/-- C25 (buffer bound invariant): in every state that `Write`, `Read`, `FlushBuffer`, `Flush`,
`Close`, prefetch reads, `Clean`, `ReleaseBuffer`, `Release` and LRU expiry reach from a new
cache, on files of block size `bs`, every buffer attached to a write-side or read-side file
buffer carries a file entry of that block size and has `Offset + Len ≤ fe.BlockSize`; so
`IsFull` returns without a failed assertion and `GetData` returns exactly `Len` bytes. In such
a state `WriteOp` returns for every op that `Slice` makes, and `FlushBuffer` returns on every
unlocked block. -/
theorem C25_buffer_bound (bs m : Nat) (s : CacheState) (h : CacheState.Reachable bs m s) :
    (∀ fid fb idx b,
      (s.wCache.Cache.get fid = some fb ∨ s.rCache.Cache.get fid = some fb) →
      fb.BufferMap.get idx = some b →
        (∃ fe, b.fe = some fe ∧ fe.BlockSize = bs ∧ b.Offset + b.Len ≤ fe.BlockSize) ∧
        b.IsFull bs = .ok (decide (b.Offset + b.Len = bs)) ∧
        b.GetData = .ok ((b.dataBuf.drop b.Offset).take b.Len) ∧
        ((b.dataBuf.drop b.Offset).take b.Len).length = b.Len) ∧
    (∀ fe buffer offset Ops op fb, fe.BlockSize = bs →
      WCache.Slice fe buffer offset = .ok Ops → op ∈ Ops →
      s.wCache.Cache.get fe.Id = some fb →
        ∃ r s1, WCache.WriteOp fe fe.Id op s = .ok (r, s1)) ∧
    (∀ fid fb idx, s.wCache.Cache.get fid = some fb → fb.LockMap.get idx = none →
        ∃ e s1, WCache.FlushBuffer fid idx s = .ok (e, s1)) := by
  obtain ⟨hs, hlt⟩ := h.sound
  refine ⟨?_, ?_, ?_⟩
  · intro fid fb idx b hfb hb
    rcases hfb with hw | hr
    · exact (hs.1.fits fid fb idx b hw hb).bound
    · exact (hs.2.fits fid fb idx b hr hb).bound
  · intro fe buffer offset Ops op fb hbs hslice hop hfb
    exact WCache.WriteOp_returns hs.1 hfb hbs hlt (WCache.Slice_Sliced hslice op hop)
  · intro fid fb idx hfb hl
    exact WCache.FlushBuffer_returns hs.1 hfb hl

theorem C25_buffer_bound_witness :
    CacheState.Reachable 4 2 sampleDirty ∧
      sampleBuffer.IsFull 4 = .ok (decide (sampleBuffer.Offset + sampleBuffer.Len = 4)) ∧
      sampleBuffer.GetData = .ok [1, 2] :=
  ⟨sampleDirty_reachable,
    ((C25_buffer_bound 4 2 sampleDirty sampleDirty_reachable).1 7 sampleFileBuffer 0
      sampleBuffer (Or.inl rfl) rfl).2.1,
    ((C25_buffer_bound 4 2 sampleDirty sampleDirty_reachable).1 7 sampleFileBuffer 0
      sampleBuffer (Or.inl rfl) rfl).2.2.1⟩

/-! ## C26: the buffer pool -/

theorem BlockCache.places_buffers (c : BlockCache) :
    c.places.map (fun t => t.2.2) = c.attached := by
  simp only [BlockCache.places, BlockCache.attached, attachedOf, FileBuffer.buffers, buffersOf,
    List.map_flatMap, List.map_map]
  rfl

theorem GoMap.getL_mem {β : Type} (l : List (Nat × β)) {k : Nat} {v : β}
    (h : GoMap.getL l k = some v) : (k, v) ∈ l := by
  induction l with
  | nil => cases h
  | cons p t ih =>
    obtain ⟨k1, v1⟩ := p
    simp only [GoMap.getL] at h
    split at h
    · rename_i e
      simp only [Option.some.injEq] at h
      rw [← e, ← h]
      exact List.mem_cons_self _ _
    · exact List.mem_cons_of_mem _ (ih h)

theorem GoMap.mem_of_get {β : Type} (m : GoMap β) {k : Nat} {v : β} (h : m.get k = some v) :
    (k, v) ∈ m.entries :=
  GoMap.getL_mem m.entries h

theorem BlockCache.mem_places {bs m : Nat} {c : BlockCache} (hs : c.Sound bs m)
    (fid idx : Nat) (b : Buffer) :
    (fid, idx, b) ∈ c.places ↔
      ∃ fb, c.Cache.get fid = some fb ∧ fb.BufferMap.get idx = some b := by
  constructor
  · intro hmem
    simp only [BlockCache.places, List.mem_flatMap, List.mem_map, Prod.mk.injEq] at hmem
    obtain ⟨p, hp, q, hq, h1, h2, h3⟩ := hmem
    obtain ⟨pk, pfb⟩ := p
    obtain ⟨qk, qb⟩ := q
    simp only at h1 h2 h3
    subst h1 h2 h3
    have hfb := GoMap.get_of_mem c.Cache hs.keys hp
    exact ⟨pfb, hfb, GoMap.get_of_mem pfb.BufferMap (hs.bkeys _ _ hfb) hq⟩
  · rintro ⟨fb, hfb, hb⟩
    simp only [BlockCache.places, List.mem_flatMap, List.mem_map, Prod.mk.injEq]
    exact ⟨(fid, fb), GoMap.mem_of_get _ hfb, (idx, b), GoMap.mem_of_get _ hb, rfl, rfl, rfl⟩

/-- What the pool invariant says of a cache core, in terms of the free list, the places of
the attached buffers and the LRU list. -/
theorem BlockCache.Sound.conservation {bs m : Nat} {c : BlockCache} (hs : c.Sound bs m) :
    (∀ i, i < m →
      c.FreeList.countP (fun b => decide (b.Id = i)) +
        c.places.countP (fun t => decide (t.2.2.Id = i)) = 1) ∧
    (∀ b ∈ c.FreeList, b.Id < m ∧ b.elm = false ∧ b.Id ∉ c.LruList) ∧
    (∀ t ∈ c.places, t.2.2.Id < m) ∧
    (∀ fid idx b, (fid, idx, b) ∈ c.places ↔
      ∃ fb, c.Cache.get fid = some fb ∧ fb.BufferMap.get idx = some b) ∧
    (∀ i ∈ c.LruList, ∃ t ∈ c.places, t.2.2.Id = i ∧ t.2.2.elm = true) ∧
    c.FreeList.length + c.places.length = m := by
  have hp := hs.pool.pool
  have hnd : ((c.FreeList ++ c.attached).map Buffer.Id).Nodup :=
    hp.nodup_iff.mpr (List.nodup_range m)
  have hatt := c.places_buffers
  refine ⟨?_, ?_, ?_, BlockCache.mem_places hs, ?_, ?_⟩
  · intro i hi
    have hc : ((c.FreeList ++ c.attached).map Buffer.Id).count i = 1 := by
      rw [hp.count_eq]
      exact List.count_eq_one_of_mem (List.nodup_range m) (List.mem_range.mpr hi)
    rw [List.count_eq_countP, List.countP_map, List.countP_append, ← hatt,
      List.countP_map] at hc
    have e1 : c.FreeList.countP (fun b => decide (b.Id = i)) =
        c.FreeList.countP ((fun x => x == i) ∘ Buffer.Id) :=
      List.countP_congr (fun b _ => by simp)
    have e2 : c.places.countP (fun t => decide (t.2.2.Id = i)) =
        c.places.countP (((fun x => x == i) ∘ Buffer.Id) ∘ fun t => t.2.2) :=
      List.countP_congr (fun t _ => by simp)
    rw [e1, e2]
    exact hc
  · intro b hb
    have hmem : b.Id ∈ (c.FreeList ++ c.attached).map Buffer.Id :=
      List.mem_map_of_mem _ (List.mem_append_left _ hb)
    refine ⟨List.mem_range.mp (hp.mem_iff.mp hmem), hs.pool.free b hb, ?_⟩
    intro hl
    obtain ⟨a, ha, hid⟩ := hs.pool.lruAttached _ hl
    rw [List.map_append, List.nodup_append] at hnd
    exact hnd.2.2 (List.mem_map_of_mem _ hb) (by rw [← hid]; exact List.mem_map_of_mem _ ha)
  · intro t ht
    have ha : t.2.2 ∈ c.attached := by
      rw [← hatt]
      exact List.mem_map_of_mem (fun t => t.2.2) ht
    have hmem : t.2.2.Id ∈ (c.FreeList ++ c.attached).map Buffer.Id :=
      List.mem_map_of_mem _ (List.mem_append_right _ ha)
    exact List.mem_range.mp (hp.mem_iff.mp hmem)
  · intro i hi
    obtain ⟨a, ha, hid⟩ := hs.pool.lruAttached i hi
    rw [← hatt, List.mem_map] at ha
    obtain ⟨t, ht, rfl⟩ := ha
    refine ⟨t, ht, hid, ?_⟩
    have ha2 : t.2.2 ∈ c.attached := by
      rw [← hatt]
      exact List.mem_map_of_mem (fun t => t.2.2) ht
    exact (hs.pool.linked _ ha2).mpr (by rw [hid]; exact hi)
  · have hl := hp.length_eq
    rw [List.length_map, List.length_append, List.length_range, ← hatt, List.length_map] at hl
    exact hl

/-- C26 (buffer pool conservation): let `c` be the write cache or the read cache of a state
that `Write`, `Read`, `FlushBuffer`, `Flush`, `Close`, prefetch reads, `Clean`,
`ReleaseBuffer`, `Release` and LRU expiry reach from a cache made with `BufferMax = m`. Each
pool id below `m`
belongs to exactly one buffer that is either in the free list or attached at one place (a
block of a file buffer), never both and never twice; free and attached buffers have pool ids
below `m`; the places are the entries of the block maps; every member of the LRU list is an
attached buffer, and no free buffer is linked; the free-list length plus the number of attached
buffers is `m`. -/
theorem C26_pool_conservation (bs m : Nat) (s : CacheState) (c : BlockCache)
    (h : CacheState.Reachable bs m s)
    (hc : c = s.wCache.toBlockCache ∨ c = s.rCache.toBlockCache) :
    (∀ i, i < m →
      c.FreeList.countP (fun b => decide (b.Id = i)) +
        c.places.countP (fun t => decide (t.2.2.Id = i)) = 1) ∧
    (∀ b ∈ c.FreeList, b.Id < m ∧ b.elm = false ∧ b.Id ∉ c.LruList) ∧
    (∀ t ∈ c.places, t.2.2.Id < m) ∧
    (∀ fid idx b, (fid, idx, b) ∈ c.places ↔
      ∃ fb, c.Cache.get fid = some fb ∧ fb.BufferMap.get idx = some b) ∧
    (∀ i ∈ c.LruList, ∃ t ∈ c.places, t.2.2.Id = i ∧ t.2.2.elm = true) ∧
    c.FreeList.length + c.places.length = m := by
  rcases hc with rfl | rfl
  · exact h.sound.1.1.conservation
  · exact h.sound.1.2.conservation

theorem C26_pool_conservation_witness :
    CacheState.Reachable 4 2 sampleDirty ∧
      sampleDirty.wCache.FreeList.length + sampleDirty.wCache.toBlockCache.places.length = 2 ∧
      sampleDirty.rCache.FreeList.length + sampleDirty.rCache.toBlockCache.places.length = 2 :=
  ⟨sampleDirty_reachable,
    (C26_pool_conservation 4 2 sampleDirty sampleDirty.wCache.toBlockCache
      sampleDirty_reachable (Or.inl rfl)).2.2.2.2.2,
    (C26_pool_conservation 4 2 sampleDirty sampleDirty.rCache.toBlockCache
      sampleDirty_reachable (Or.inr rfl)).2.2.2.2.2⟩

/-! ## C29: write coalescing -/

theorem samplePoolEmpty_reached :
    (do
      let a ← WCache.Write sampleEntry [1] 0 sampleState
      let b ← WCache.Write sampleEntry [1] 4 a.2
      pure (a.1, b.1, b.2)) = .ok ((1, none), (1, none), samplePoolEmpty) := rfl

theorem C29_exhausted_pool_writes_each_piece :
    samplePoolEmpty.wCache.chSync = none ∧
      (samplePoolEmpty.wCache.toBlockCache.fileOf sampleEntry).BufferMap.get 2 = none ∧
      (WCache.writeSeq sampleEntry [[1, 2], [3, 4]] 8 samplePoolEmpty).map
          (fun r => (r.1, r.2.proxyClient.calls)) =
        .ok ([(2, none), (2, none)],
          [ProxyCall.Write 7 [3, 4] 10, ProxyCall.Write 7 [1, 2] 8]) :=
  ⟨rfl, rfl, rfl⟩

theorem BlockCache.GetFileBuffer_true_fst (c : BlockCache) (fe : FileEntry) :
    (c.GetFileBuffer fe true).1 = some (c.fileOf fe) := by
  unfold BlockCache.GetFileBuffer BlockCache.fileOf
  cases c.Cache.get fe.Id <;> rfl

theorem BlockCache.GetFileBuffer_true_get (c : BlockCache) (fe : FileEntry) :
    (c.GetFileBuffer fe true).2.Cache.get fe.Id = some (c.fileOf fe) := by
  unfold BlockCache.GetFileBuffer BlockCache.fileOf
  cases h : c.Cache.get fe.Id with
  | none => simp [GoMap.get_set_self]
  | some fb => simp [h]

theorem BlockCache.GetFileBuffer_FreeList (c : BlockCache) (fe : FileEntry) (b : Bool) :
    (c.GetFileBuffer fe b).2.FreeList = c.FreeList := by
  unfold BlockCache.GetFileBuffer
  split
  · rfl
  · split <;> rfl

theorem BlockCache.fileOf_of_get {c : BlockCache} {fe : FileEntry} {fb : FileBuffer}
    (h : c.Cache.get fe.Id = some fb) : c.fileOf fe = fb := by
  simp [BlockCache.fileOf, h]

theorem block_div (bs idx o : Nat) (ho : o < bs) : (idx * bs + o) / bs = idx := by
  have hbs : 0 < bs := by omega
  rw [Nat.add_comm, Nat.add_mul_div_right _ _ hbs, Nat.div_eq_of_lt ho, Nat.zero_add]

theorem block_mod (bs idx o : Nat) (ho : o < bs) : (idx * bs + o) % bs = o := by
  rw [Nat.add_comm, Nat.add_mul_mod_self_right, Nat.mod_eq_of_lt ho]

/-- The ops of a write that ends inside the block where it starts: one op. -/
theorem WCache.Slice_single (fe : FileEntry) (idx o : Nat) (data : List Byte)
    (hne : data ≠ []) (hfit : o + data.length ≤ fe.BlockSize) (hbs : fe.BlockSize < U32)
    (hwrap : (idx + 2) * fe.BlockSize ≤ U64) :
    WCache.Slice fe data (idx * fe.BlockSize + o) = .ok [RWBlockOp.single fe idx o data] := by
  have hlen : 0 < data.length := List.length_pos.mpr hne
  have ho : o < fe.BlockSize := by omega
  have hz : fe.BlockSize ≠ 0 := by omega
  have hl32 : data.length % U32 = data.length := Nat.mod_eq_of_lt (by omega)
  have hexp : (idx + 2) * fe.BlockSize = idx * fe.BlockSize + fe.BlockSize + fe.BlockSize := by
    ring
  have hend : (idx * fe.BlockSize + o + data.length + fe.BlockSize - 1) % U64 / fe.BlockSize =
      idx + 1 := by
    rw [Nat.mod_eq_of_lt (by omega)]
    have e : idx * fe.BlockSize + o + data.length + fe.BlockSize - 1 =
        (idx + 1) * fe.BlockSize + (o + data.length - 1) := by
      have : (idx + 1) * fe.BlockSize = idx * fe.BlockSize + fe.BlockSize := by ring
      omega
    rw [e]
    exact block_div fe.BlockSize (idx + 1) _ (by omega)
  unfold WCache.Slice
  simp only [hz, if_false, hl32, hend, block_div fe.BlockSize idx o ho,
    block_mod fe.BlockSize idx o ho, Nat.add_sub_cancel_left]
  have ho32 : o % U32 = o := Nat.mod_eq_of_lt (by omega)
  simp only [sliceLoop, ho32, Nat.mod_eq_of_lt ho, List.drop_zero, RWBlockOp.single]
  have hsz : (if fe.BlockSize - o > data.length then data.length else fe.BlockSize - o) =
      data.length := by
    split <;> omega
  rw [hsz, List.take_length]

/-- A `Write` of one op in a block that is not locked: the op is carried out under the block
lock, and the lock is given back when the op ran on the caller's side. -/
theorem WCache.Write_one (fe : FileEntry) (data : List Byte) (offset : Nat) (s : CacheState)
    (op : RWBlockOp) (sw : CacheState) (fbw : FileBuffer)
    (hslice : WCache.Slice fe data offset = .ok [op])
    (hl : (s.wCache.toBlockCache.fileOf fe).LockMap.get op.Index = none)
    (hw : WCache.WriteOp fe fe.Id op
        (s.setW ((s.wCache.toBlockCache.GetFileBuffer fe true).2.setFileBuf fe.Id
          (FileBuffer.mk (s.wCache.toBlockCache.fileOf fe).fe
            (s.wCache.toBlockCache.fileOf fe).BufferMap
            ((s.wCache.toBlockCache.fileOf fe).LockMap.set op.Index
              { tp := WriteLock, refer := 0 })
            (s.wCache.toBlockCache.fileOf fe).pw))) =
      .ok ((true, data.length, none), sw))
    (hfbw : sw.wCache.Cache.get fe.Id = some fbw)
    (hlw : fbw.LockMap =
      (s.wCache.toBlockCache.fileOf fe).LockMap.set op.Index { tp := WriteLock, refer := 0 }) :
    WCache.Write fe data offset s = .ok ((data.length, none),
      sw.setW (sw.wCache.toBlockCache.setFileBuf fe.Id
        (FileBuffer.mk fbw.fe fbw.BufferMap (s.wCache.toBlockCache.fileOf fe).LockMap fbw.pw))) := by
  have hlock : (s.setW (s.wCache.toBlockCache.GetFileBuffer fe true).2).onW
      (fun cache => cache.LockBuffer fe.Id op.Index) =
      .ok (s.setW ((s.wCache.toBlockCache.GetFileBuffer fe true).2.setFileBuf fe.Id
          (FileBuffer.mk (s.wCache.toBlockCache.fileOf fe).fe
            (s.wCache.toBlockCache.fileOf fe).BufferMap
            ((s.wCache.toBlockCache.fileOf fe).LockMap.set op.Index
              { tp := WriteLock, refer := 0 })
            (s.wCache.toBlockCache.fileOf fe).pw))) :=
    CacheState.onW_ok (f := fun cache => cache.LockBuffer fe.Id op.Index)
      (BlockCache.LockBuffer_ok _ (BlockCache.GetFileBuffer_true_get _ fe) hl)
  have hunlock : sw.onW (fun cache => cache.UnLockBuffer fe.Id op.Index) =
      .ok (sw.setW (sw.wCache.toBlockCache.setFileBuf fe.Id
        (FileBuffer.mk fbw.fe fbw.BufferMap (s.wCache.toBlockCache.fileOf fe).LockMap fbw.pw))) := by
    have h1 := CacheState.onW_ok (s := sw) (f := fun cache => cache.UnLockBuffer fe.Id op.Index)
      (BlockCache.UnLockBuffer_ok _ hfbw (by rw [hlw, GoMap.get_set_self]))
    rw [h1, hlw, GoMap.del_set_of_get_none _ _ hl]
    rfl
  unfold WCache.Write
  simp only [BlockCache.GetFileBuffer_true_fst, Option.isSome_some, Assert, if_true, bind,
    Except.bind, hslice, WCache.WriteLoop, hlock, hw, hunlock, ne_eq, not_true_eq_false,
    if_false, Nat.zero_add, decide_True, pure, Except.pure]

theorem goCopyAt_window (dst : List Byte) (o : Nat) (acc data : List Byte)
    (hacc : (dst.drop o).take acc.length = acc)
    (h : o + acc.length + data.length ≤ dst.length) :
    ((goCopyAt dst (o + acc.length) data).drop o).take (acc.length + data.length) =
      acc ++ data := by
  have h1 := goCopyAt_take dst (o + acc.length) data h
  have h2 : ((goCopyAt dst (o + acc.length) data).drop o).take (acc.length + data.length) =
      ((goCopyAt dst (o + acc.length) data).take (o + acc.length + data.length)).drop o := by
    rw [List.drop_take]
    congr 1
    omega
  rw [h2, h1, List.drop_append_of_le_length (by simp; omega), List.drop_take]
  have e : o + acc.length - o = acc.length := by omega
  rw [e, hacc]

theorem goCopyAt_window_first (dst : List Byte) (o : Nat) (data : List Byte)
    (h : o + data.length ≤ dst.length) :
    ((goCopyAt dst o data).drop o).take data.length = data :=
  (holdsAt_iff _ _ _).mp (holdsAt_goCopyAt dst o data h)

theorem CacheState.locked_get (s : CacheState) (fe : FileEntry) (idx : Nat) :
    (s.locked fe idx).wCache.Cache.get fe.Id =
      some (FileBuffer.mk (s.wCache.toBlockCache.fileOf fe).fe
        (s.wCache.toBlockCache.fileOf fe).BufferMap
        ((s.wCache.toBlockCache.fileOf fe).LockMap.set idx { tp := WriteLock, refer := 0 })
        (s.wCache.toBlockCache.fileOf fe).pw) := by
  simp only [CacheState.locked, CacheState.setW_core, BlockCache.setFileBuf, GoMap.get_set_self]

theorem CacheState.locked_FreeList (s : CacheState) (fe : FileEntry) (idx : Nat) :
    (s.locked fe idx).wCache.FreeList = s.wCache.FreeList := by
  simp only [CacheState.locked, CacheState.setW_core, BlockCache.setFileBuf,
    BlockCache.GetFileBuffer_FreeList]

theorem CacheState.locked_chSync (s : CacheState) (fe : FileEntry) (idx : Nat) :
    (s.locked fe idx).wCache.chSync = s.wCache.chSync := rfl

theorem CacheState.locked_proxyClient (s : CacheState) (fe : FileEntry) (idx : Nat) :
    (s.locked fe idx).proxyClient = s.proxyClient := rfl

theorem CacheState.locked_now (s : CacheState) (fe : FileEntry) (idx : Nat) :
    (s.locked fe idx).now = s.now := rfl

theorem CacheState.unlocked_get (sw : CacheState) (fe : FileEntry) (fbw : FileBuffer)
    (LockMap : GoMap CacheLock) :
    (sw.unlocked fe fbw LockMap).wCache.Cache.get fe.Id =
      some (FileBuffer.mk fbw.fe fbw.BufferMap LockMap fbw.pw) := by
  simp only [CacheState.unlocked, CacheState.setW_core, BlockCache.setFileBuf,
    GoMap.get_set_self]

theorem CacheState.unlocked_fileOf (sw : CacheState) (fe : FileEntry) (fbw : FileBuffer)
    (LockMap : GoMap CacheLock) :
    (sw.unlocked fe fbw LockMap).wCache.toBlockCache.fileOf fe =
      FileBuffer.mk fbw.fe fbw.BufferMap LockMap fbw.pw :=
  BlockCache.fileOf_of_get (CacheState.unlocked_get sw fe fbw LockMap)

/-- `Write_one` with the two states named. -/
theorem WCache.Write_single (fe : FileEntry) (data : List Byte) (offset : Nat)
    (s : CacheState) (op : RWBlockOp) (sw : CacheState) (fbw : FileBuffer)
    (hslice : WCache.Slice fe data offset = .ok [op])
    (hl : (s.wCache.toBlockCache.fileOf fe).LockMap.get op.Index = none)
    (hw : WCache.WriteOp fe fe.Id op (s.locked fe op.Index) =
      .ok ((true, data.length, none), sw))
    (hfbw : sw.wCache.Cache.get fe.Id = some fbw)
    (hlw : fbw.LockMap =
      (s.wCache.toBlockCache.fileOf fe).LockMap.set op.Index { tp := WriteLock, refer := 0 }) :
    WCache.Write fe data offset s = .ok ((data.length, none),
      sw.unlocked fe fbw (s.wCache.toBlockCache.fileOf fe).LockMap) :=
  WCache.Write_one fe data offset s op sw fbw hslice hl hw hfbw hlw

/-- The first write into a block without buffer, ending before the end of the block: the
bytes go into a buffer taken from the free list, and no proxy call is made. -/
theorem WCache.Write_first_buffered (fe : FileEntry) (idx o : Nat) (data : List Byte)
    (s : CacheState) (f0 : Buffer) (rest : List Buffer)
    (hbs : fe.BlockSize < U32) (hne : data ≠ []) (hin : o + data.length < fe.BlockSize)
    (hwrap : (idx + 2) * fe.BlockSize ≤ U64)
    (hb : (s.wCache.toBlockCache.fileOf fe).BufferMap.get idx = none)
    (hl : (s.wCache.toBlockCache.fileOf fe).LockMap.get idx = none)
    (hfree : s.wCache.FreeList = f0 :: rest) (helm : f0.elm = false) :
    ∃ s1, WCache.Write fe data (idx * fe.BlockSize + o) s = .ok ((data.length, none), s1) ∧
      s1.proxyClient = s.proxyClient ∧ s1.wCache.FreeList = rest ∧
      s1.Coalesced fe idx o data ∧ s.BlockFrame fe idx s1 := by
  have hslice := WCache.Slice_single fe idx o data hne (by omega) hbs hwrap
  have hfbL := CacheState.locked_get s fe idx
  have hnf : ¬ ((RWBlockOp.single fe idx o data).RwOffset +
      (RWBlockOp.single fe idx o data).RwSize = fe.BlockSize) := by
    show ¬ (o + data.length = fe.BlockSize)
    omega
  have hw := (WCache.WriteOp_absent fe fe.Id (RWBlockOp.single fe idx o data) (s.locked fe idx)
    _ hfbL hb).trans (WCache.WriteOpNew_eq fe fe.Id (RWBlockOp.single fe idx o data)
      (s.locked fe idx) _ hfbL hb rfl rfl (by
        show o + data.length ≤ fe.BlockSize
        omega) hbs)
  simp only [hnf, false_and, if_false, CacheState.locked_FreeList, hfree, helm,
    Bool.false_eq_true] at hw
  have hwrite := WCache.Write_single fe data _ s (RWBlockOp.single fe idx o data) _ _ hslice hl
    hw (BlockCache.linked_get _ _ _ _ _ _) rfl
  refine ⟨_, hwrite, rfl, ?_, ?_, ?_⟩
  · simp only [CacheState.unlocked, CacheState.setW_core, BlockCache.setFileBuf,
      BlockCache.linked_FreeList]
  · refine ⟨_, _, CacheState.unlocked_get _ _ _ _, hl, GoMap.get_set_self _ _ _, rfl, rfl, rfl,
      rfl, ?_, ?_⟩
    · show ((f0.loaded fe (RWBlockOp.single fe idx o data)
        (s.locked fe idx).now).dataBuf.drop o).take data.length = data
      simp only [Buffer.loaded, RWBlockOp.single]
      apply goCopyAt_window_first
      split
      · rw [List.length_replicate]
        omega
      · have := Nat.mod_le f0.dataBuf.length U32
        omega
    · exact (Buffer.loaded_Fits f0 (s.locked fe idx).now rfl (by
        show o + data.length ≤ fe.BlockSize
        omega)).2.2
  · refine ⟨rfl, ?_, ?_⟩
    · intro k hk
      rw [CacheState.unlocked_fileOf]
      exact GoMap.get_set_ne _ _ hk
    · intro k _
      rw [CacheState.unlocked_fileOf]

/-- In sync mode a write that ends at the end of its block, into a block without buffer, goes
to the proxy at once. -/
theorem WCache.Write_direct (fe : FileEntry) (idx o : Nat) (data : List Byte)
    (s : CacheState) (hsync : s.wCache.chSync = none)
    (hbs : fe.BlockSize < U32) (hne : data ≠ []) (hend : o + data.length = fe.BlockSize)
    (hwrap : (idx + 2) * fe.BlockSize ≤ U64)
    (hb : (s.wCache.toBlockCache.fileOf fe).BufferMap.get idx = none)
    (hl : (s.wCache.toBlockCache.fileOf fe).LockMap.get idx = none)
    (hok : (Writer.Write fe.Id data (idx * fe.BlockSize + o) s.proxyClient).1.2 = none) :
    ∃ s1, WCache.Write fe data (idx * fe.BlockSize + o) s = .ok ((data.length, none), s1) ∧
      s1.proxyClient.calls =
        ProxyCall.Write fe.Id data (idx * fe.BlockSize + o) :: s.proxyClient.calls ∧
      s1.proxyClient.remote = s.proxyClient.remote ∧
      s1.wCache.FreeList = s.wCache.FreeList ∧
      (s1.wCache.toBlockCache.fileOf fe).BufferMap.get idx = none ∧
      (s1.wCache.toBlockCache.fileOf fe).LockMap.get idx = none ∧
      s.BlockFrame fe idx s1 := by
  have hslice := WCache.Slice_single fe idx o data hne (by omega) hbs hwrap
  have hfbL := CacheState.locked_get s fe idx
  have hfull : (RWBlockOp.single fe idx o data).RwOffset +
      (RWBlockOp.single fe idx o data).RwSize = fe.BlockSize := hend
  have hw := (WCache.WriteOp_absent fe fe.Id (RWBlockOp.single fe idx o data) (s.locked fe idx)
    _ hfbL hb).trans (WCache.WriteOpNew_eq fe fe.Id (RWBlockOp.single fe idx o data)
      (s.locked fe idx) _ hfbL hb rfl rfl (by
        show o + data.length ≤ fe.BlockSize
        omega) hbs)
  have hdw : (WCache.DirectWrite fe (RWBlockOp.single fe idx o data).rwBuf
      (RWBlockOp.single fe idx o data).GetFileOffset (s.locked fe idx)).1 =
      (data.length, none) := by
    have h2 : (WCache.DirectWrite fe data (idx * fe.BlockSize + o) (s.locked fe idx)).1.2 =
        none := hok
    have h1 := WCache.DirectWrite_size fe data (idx * fe.BlockSize + o) (s.locked fe idx) h2
    rw [Nat.mod_eq_of_lt (by omega)] at h1
    exact Prod.ext h1 h2
  simp only [hfull, CacheState.locked_chSync, hsync, and_self, if_true, hdw] at hw
  have hwrite := WCache.Write_single fe data _ s (RWBlockOp.single fe idx o data) _ _ hslice hl
    hw hfbL rfl
  refine ⟨_, hwrite, ?_, ?_, ?_, ?_, ?_, ?_⟩
  · exact WCache.DirectWrite_calls fe data (idx * fe.BlockSize + o) (s.locked fe idx)
  · exact WCache.DirectWrite_remote fe data (idx * fe.BlockSize + o) (s.locked fe idx)
  · exact CacheState.locked_FreeList s fe idx
  · rw [CacheState.unlocked_fileOf]
    exact hb
  · rw [CacheState.unlocked_fileOf]
    exact hl
  · refine ⟨rfl, ?_, ?_⟩
    · intro k _
      rw [CacheState.unlocked_fileOf]
    · intro k _
      rw [CacheState.unlocked_fileOf]

/-- A write that continues the buffer of its block and ends before the end of the block is
merged into the buffer; no proxy call is made. -/
theorem WCache.Write_merge_buffered (fe : FileEntry) (idx o : Nat) (acc data : List Byte)
    (s : CacheState) (hbs : fe.BlockSize < U32) (hne : data ≠ [])
    (hin : o + acc.length + data.length < fe.BlockSize)
    (hwrap : (idx + 2) * fe.BlockSize ≤ U64) (hco : s.Coalesced fe idx o acc) :
    ∃ s1, WCache.Write fe data (idx * fe.BlockSize + (o + acc.length)) s =
        .ok ((data.length, none), s1) ∧
      s1.proxyClient = s.proxyClient ∧ s1.wCache.FreeList = s.wCache.FreeList ∧
      s1.Coalesced fe idx o (acc ++ data) ∧ s.BlockFrame fe idx s1 := by
  obtain ⟨fb, b, hfb, hlk, hb, hbfe, hbi, hbo, hblen, hbdata, hroom⟩ := hco
  have hfo := BlockCache.fileOf_of_get hfb
  have hl : (s.wCache.toBlockCache.fileOf fe).LockMap.get idx = none := by
    rw [hfo]
    exact hlk
  have hbL : (s.wCache.toBlockCache.fileOf fe).BufferMap.get idx = some b := by
    rw [hfo]
    exact hb
  have hslice := WCache.Slice_single fe idx (o + acc.length) data hne (by omega) hbs hwrap
  have hfbL := CacheState.locked_get s fe idx
  have hcan : b.Offset + b.Len = (RWBlockOp.single fe idx (o + acc.length) data).RwOffset := by
    show b.Offset + b.Len = o + acc.length
    rw [hbo, hblen]
  have hc0 := hfbL
  rw [← BlockCache.RemoveLru_Cache (s.locked fe idx).wCache.toBlockCache b] at hc0
  have hnf : ¬ ((RWBlockOp.single fe idx (o + acc.length) data).RwOffset +
      (RWBlockOp.single fe idx (o + acc.length) data).RwSize = fe.BlockSize) := by
    show ¬ (o + acc.length + data.length = fe.BlockSize)
    omega
  have hw := (WCache.WriteOp_exist fe fe.Id (RWBlockOp.single fe idx (o + acc.length) data)
    (s.locked fe idx) _ b hfbL hbL)
  rw [if_pos hcan, WCache.WriteOpMerge_eq fe fe.Id (RWBlockOp.single fe idx (o + acc.length) data)
    (Buffer.mk b.Id b.fe b.BlkIdx b.Offset b.Len b.dataBuf b.LastUpdateTime false) _
    (s.locked fe idx) _ fe hc0 hbfe hcan hroom rfl (by
      show o + acc.length + data.length ≤ fe.BlockSize
      omega), if_neg hnf] at hw
  have hwrite := WCache.Write_single fe data _ s
    (RWBlockOp.single fe idx (o + acc.length) data) _ _ hslice hl hw
    (BlockCache.linked_get _ _ _ _ _ _) rfl
  refine ⟨_, hwrite, rfl, ?_, ?_, ?_⟩
  · simp only [CacheState.unlocked, CacheState.setW_core, BlockCache.setFileBuf,
      BlockCache.linked_FreeList, BlockCache.RemoveLru_FreeList, CacheState.locked_FreeList]
  · refine ⟨_, _, CacheState.unlocked_get _ _ _ _, hl, GoMap.get_set_self _ _ _, hbfe, hbi, hbo,
      ?_, ?_, ?_⟩
    · show b.Len + data.length = (acc ++ data).length
      rw [List.length_append, hblen]
    · show ((goCopyAt b.dataBuf (b.Offset + b.Len) data).drop o).take (acc ++ data).length =
        acc ++ data
      rw [hbo, hblen, List.length_append]
      exact goCopyAt_window b.dataBuf o acc data hbdata (by omega)
    · show fe.BlockSize ≤ (goCopyAt b.dataBuf (b.Offset + b.Len) data).length
      rw [goCopyAt_length]
      exact hroom
  · refine ⟨rfl, ?_, ?_⟩
    · intro k hk
      rw [CacheState.unlocked_fileOf]
      exact GoMap.get_set_ne _ _ hk
    · intro k _
      rw [CacheState.unlocked_fileOf]

/-- In sync mode a write that continues the buffer of its block up to the end of the block
makes the cache write the whole buffer to the proxy; on success the buffer is detached and
freed. -/
theorem WCache.Write_merge_flush (fe : FileEntry) (idx o : Nat) (acc data : List Byte)
    (s : CacheState) (hsync : s.wCache.chSync = none) (hbs : fe.BlockSize < U32)
    (hne : data ≠ []) (hend : o + acc.length + data.length = fe.BlockSize)
    (hwrap : (idx + 2) * fe.BlockSize ≤ U64) (hco : s.Coalesced fe idx o acc)
    (hok : (Writer.Write fe.Id (acc ++ data) (idx * fe.BlockSize + o) s.proxyClient).1.2 =
      none) :
    ∃ s1 b1, WCache.Write fe data (idx * fe.BlockSize + (o + acc.length)) s =
        .ok ((data.length, none), s1) ∧
      s1.proxyClient.calls =
        ProxyCall.Write fe.Id (acc ++ data) (idx * fe.BlockSize + o) :: s.proxyClient.calls ∧
      s1.proxyClient.remote = s.proxyClient.remote ∧
      s1.wCache.FreeList = s.wCache.FreeList ++ [b1] ∧ b1.elm = false ∧
      (s1.wCache.toBlockCache.fileOf fe).BufferMap.get idx = none ∧
      (s1.wCache.toBlockCache.fileOf fe).LockMap.get idx = none ∧
      s.BlockFrame fe idx s1 := by
  obtain ⟨fb, b, hfb, hlk, hb, hbfe, hbi, hbo, hblen, hbdata, hroom⟩ := hco
  have hfo := BlockCache.fileOf_of_get hfb
  have hl : (s.wCache.toBlockCache.fileOf fe).LockMap.get idx = none := by
    rw [hfo]
    exact hlk
  have hbL : (s.wCache.toBlockCache.fileOf fe).BufferMap.get idx = some b := by
    rw [hfo]
    exact hb
  have hslice := WCache.Slice_single fe idx (o + acc.length) data hne (by omega) hbs hwrap
  have hfbL := CacheState.locked_get s fe idx
  have hcan : b.Offset + b.Len = (RWBlockOp.single fe idx (o + acc.length) data).RwOffset := by
    show b.Offset + b.Len = o + acc.length
    rw [hbo, hblen]
  have hc0 := hfbL
  rw [← BlockCache.RemoveLru_Cache (s.locked fe idx).wCache.toBlockCache b] at hc0
  have hfull : (RWBlockOp.single fe idx (o + acc.length) data).RwOffset +
      (RWBlockOp.single fe idx (o + acc.length) data).RwSize = fe.BlockSize := hend
  have hmode : ¬ ((s.locked fe idx).wCache.chSync ≠ none) := by
    rw [CacheState.locked_chSync, hsync]
    simp
  have hdata : (((Buffer.mk b.Id b.fe b.BlkIdx b.Offset b.Len b.dataBuf b.LastUpdateTime
      false).merged (RWBlockOp.single fe idx (o + acc.length) data)
      (s.locked fe idx).now).dataBuf.drop
      ((Buffer.mk b.Id b.fe b.BlkIdx b.Offset b.Len b.dataBuf b.LastUpdateTime
      false).merged (RWBlockOp.single fe idx (o + acc.length) data)
      (s.locked fe idx).now).Offset).take
      ((Buffer.mk b.Id b.fe b.BlkIdx b.Offset b.Len b.dataBuf b.LastUpdateTime
      false).merged (RWBlockOp.single fe idx (o + acc.length) data)
      (s.locked fe idx).now).Len = acc ++ data := by
    show ((goCopyAt b.dataBuf (b.Offset + b.Len) data).drop b.Offset).take
      (b.Len + data.length) = acc ++ data
    rw [hbo, hblen]
    exact goCopyAt_window b.dataBuf o acc data hbdata (by omega)
  have hoff : ((Buffer.mk b.Id b.fe b.BlkIdx b.Offset b.Len b.dataBuf b.LastUpdateTime
      false).merged (RWBlockOp.single fe idx (o + acc.length) data)
      (s.locked fe idx).now).BlkIdx * fe.BlockSize +
      ((Buffer.mk b.Id b.fe b.BlkIdx b.Offset b.Len b.dataBuf b.LastUpdateTime
      false).merged (RWBlockOp.single fe idx (o + acc.length) data)
      (s.locked fe idx).now).Offset = idx * fe.BlockSize + o := by
    show b.BlkIdx * fe.BlockSize + b.Offset = idx * fe.BlockSize + o
    rw [hbi, hbo]
  have hok2 : ¬ ((WCache.DirectWrite fe (acc ++ data) (idx * fe.BlockSize + o)
      (s.locked fe idx)).1.2 ≠ none) := by
    have : (WCache.DirectWrite fe (acc ++ data) (idx * fe.BlockSize + o)
        (s.locked fe idx)).1.2 = none := hok
    rw [this]
    simp
  have hw := (WCache.WriteOp_exist fe fe.Id (RWBlockOp.single fe idx (o + acc.length) data)
    (s.locked fe idx) _ b hfbL hbL)
  rw [if_pos hcan, WCache.WriteOpMerge_eq fe fe.Id (RWBlockOp.single fe idx (o + acc.length) data)
    (Buffer.mk b.Id b.fe b.BlkIdx b.Offset b.Len b.dataBuf b.LastUpdateTime false) _
    (s.locked fe idx) _ fe hc0 hbfe hcan hroom rfl (by
      show o + acc.length + data.length ≤ fe.BlockSize
      omega), if_pos hfull, if_neg hmode] at hw
  dsimp only at hw
  rw [hdata, hoff, if_neg hok2] at hw
  have hwrite := WCache.Write_single fe data _ s
    (RWBlockOp.single fe idx (o + acc.length) data) _ _ hslice hl hw
    (GoMap.get_set_self _ _ _) rfl
  refine ⟨_, (Buffer.mk b.Id b.fe b.BlkIdx b.Offset b.Len b.dataBuf b.LastUpdateTime
      false).merged (RWBlockOp.single fe idx (o + acc.length) data) (s.locked fe idx).now,
    hwrite, ?_, ?_, ?_, rfl, ?_, ?_, ?_⟩
  · exact WCache.DirectWrite_calls fe (acc ++ data) (idx * fe.BlockSize + o) (s.locked fe idx)
  · exact WCache.DirectWrite_remote fe (acc ++ data) (idx * fe.BlockSize + o) (s.locked fe idx)
  · simp only [CacheState.unlocked, CacheState.setW_core, BlockCache.setFileBuf,
      BlockCache.released, BlockCache.RemoveLru_FreeList, CacheState.locked_FreeList]
  · rw [CacheState.unlocked_fileOf]
    exact GoMap.get_del_self _ _
  · rw [CacheState.unlocked_fileOf]
    exact hl
  · refine ⟨rfl, ?_, ?_⟩
    · intro k hk
      rw [CacheState.unlocked_fileOf]
      exact GoMap.get_del_ne _ hk
    · intro k _
      rw [CacheState.unlocked_fileOf]

theorem WCache.writeSeq_append (fe : FileEntry) :
    ∀ (xs ys : List (List Byte)) (offset : Nat) (s : CacheState),
      WCache.writeSeq fe (xs ++ ys) offset s =
        (do
          let a ← WCache.writeSeq fe xs offset s
          let b ← WCache.writeSeq fe ys (offset + xs.flatten.length) a.2
          pure (a.1 ++ b.1, b.2)) := by
  intro xs
  induction xs with
  | nil =>
    intro ys offset s
    simp only [List.nil_append, WCache.writeSeq, List.flatten_nil, List.length_nil, Nat.add_zero,
      bind, Except.bind, pure, Except.pure]
    cases WCache.writeSeq fe ys offset s <;> rfl
  | cons x xs ih =>
    intro ys offset s
    have e : (x :: xs) ++ ys = x :: (xs ++ ys) := rfl
    rw [e]
    simp only [WCache.writeSeq, bind, Except.bind, pure, Except.pure]
    cases hx : WCache.Write fe x offset s with
    | error e => rfl
    | ok r =>
      simp only []
      rw [ih ys (offset + x.length) r.2]
      simp only [bind, Except.bind, pure, Except.pure, List.flatten_cons, List.length_append,
        Nat.add_assoc]
      cases WCache.writeSeq fe xs (offset + x.length) r.2 with
      | error e => rfl
      | ok a =>
        simp only []
        cases WCache.writeSeq fe ys (offset + (x.length + xs.flatten.length)) a.2 with
        | error e => rfl
        | ok b => rfl

theorem CacheState.BlockFrame.same_state (fe : FileEntry) (idx : Nat) (s : CacheState) :
    s.BlockFrame fe idx s :=
  ⟨rfl, fun _ _ => rfl, fun _ _ => rfl⟩

theorem CacheState.BlockFrame.chain {fe : FileEntry} {idx : Nat} {s s1 s2 : CacheState}
    (h : s.BlockFrame fe idx s1) (h1 : s1.BlockFrame fe idx s2) : s.BlockFrame fe idx s2 :=
  ⟨h1.chSync.trans h.chSync, fun k hk => (h1.buffers k hk).trans (h.buffers k hk),
    fun k hk => (h1.locks k hk).trans (h.locks k hk)⟩

/-- Writes that continue the buffer of a block and end before the end of the block are all
merged into the buffer: no proxy call is made. -/
theorem WCache.writeSeq_buffered (fe : FileEntry) (idx o : Nat) (hbs : fe.BlockSize < U32)
    (hwrap : (idx + 2) * fe.BlockSize ≤ U64) :
    ∀ (bufs : List (List Byte)) (acc : List Byte) (s : CacheState),
      (∀ d ∈ bufs, d ≠ []) → o + acc.length + bufs.flatten.length < fe.BlockSize →
      s.Coalesced fe idx o acc →
      ∃ s1, WCache.writeSeq fe bufs (idx * fe.BlockSize + (o + acc.length)) s =
          .ok (bufs.map (fun d => (d.length, none)), s1) ∧
        s1.proxyClient = s.proxyClient ∧ s1.wCache.FreeList = s.wCache.FreeList ∧
        s1.Coalesced fe idx o (acc ++ bufs.flatten) ∧ s.BlockFrame fe idx s1 := by
  intro bufs
  induction bufs with
  | nil =>
    intro acc s _ _ hco
    refine ⟨s, rfl, rfl, rfl, ?_, CacheState.BlockFrame.same_state fe idx s⟩
    rw [List.flatten_nil, List.append_nil]
    exact hco
  | cons d rest ih =>
    intro acc s hne hin hco
    rw [List.flatten_cons, List.length_append] at hin
    obtain ⟨s1, hw, hp1, hf1, hco1, hfr1⟩ := WCache.Write_merge_buffered fe idx o acc d s hbs
      (hne d (List.mem_cons_self _ _)) (by omega) hwrap hco
    obtain ⟨s2, hseq, hp2, hf2, hco2, hfr2⟩ := ih (acc ++ d) s1
      (fun x hx => hne x (List.mem_cons_of_mem _ hx))
      (by rw [List.length_append]; omega) hco1
    refine ⟨s2, ?_, hp2.trans hp1, hf2.trans hf1, ?_, hfr1.chain hfr2⟩
    · have hoff : idx * fe.BlockSize + (o + acc.length) + d.length =
          idx * fe.BlockSize + (o + (acc ++ d).length) := by
        rw [List.length_append]
        omega
      simp only [WCache.writeSeq, hw, bind, Except.bind, hoff, hseq, pure, Except.pure,
        List.map_cons]
    · rw [List.flatten_cons, ← List.append_assoc]
      exact hco2

/-- Writes that fill a block without buffer from the in-block offset `o` up to its end, in
sync mode with a free buffer at hand: the writes before the last one make no proxy call, the
last one makes the cache write all the bytes at once, and the block is left without buffer. -/
theorem WCache.writeSeq_coalesce (fe : FileEntry) (idx o : Nat) (init : List (List Byte))
    (last : List Byte) (s : CacheState) (f0 : Buffer) (rest : List Buffer)
    (hsync : s.wCache.chSync = none) (hbs : fe.BlockSize < U32)
    (hinit : ∀ d ∈ init, d ≠ []) (hlast : last ≠ [])
    (hend : o + (init ++ [last]).flatten.length = fe.BlockSize)
    (hwrap : (idx + 2) * fe.BlockSize ≤ U64)
    (hb : (s.wCache.toBlockCache.fileOf fe).BufferMap.get idx = none)
    (hl : (s.wCache.toBlockCache.fileOf fe).LockMap.get idx = none)
    (hfree : s.wCache.FreeList = f0 :: rest) (hfelm : ∀ b ∈ s.wCache.FreeList, b.elm = false)
    (hok : (Writer.Write fe.Id (init ++ [last]).flatten (idx * fe.BlockSize + o)
      s.proxyClient).1.2 = none) :
    ∃ s0 s1 f1 rest1,
      WCache.writeSeq fe init (idx * fe.BlockSize + o) s =
        .ok (init.map (fun d => (d.length, none)), s0) ∧
      s0.proxyClient.calls = s.proxyClient.calls ∧
      WCache.writeSeq fe (init ++ [last]) (idx * fe.BlockSize + o) s =
        .ok ((init ++ [last]).map (fun d => (d.length, none)), s1) ∧
      s1.proxyClient.calls =
        ProxyCall.Write fe.Id (init ++ [last]).flatten (idx * fe.BlockSize + o) ::
          s.proxyClient.calls ∧
      (s1.wCache.toBlockCache.fileOf fe).BufferMap.get idx = none ∧
      s1.wCache.FreeList = f1 :: rest1 ∧ f1.elm = false ∧ s.BlockFrame fe idx s1 := by
  have hlen : 0 < last.length := List.length_pos.mpr hlast
  simp only [List.flatten_append, List.flatten_cons, List.flatten_nil, List.append_nil,
    List.length_append] at hend
  have hfl : (init ++ [last]).flatten = init.flatten ++ last := by
    simp only [List.flatten_append, List.flatten_cons, List.flatten_nil, List.append_nil]
  rw [hfl] at hok ⊢
  cases init with
  | nil =>
    simp only [List.flatten_nil, List.length_nil, Nat.zero_add, List.nil_append] at hend hok ⊢
    obtain ⟨s1, hw, hcalls, -, hf1, hb1, -, hfr⟩ := WCache.Write_direct fe idx o last s hsync hbs
      hlast (by omega) hwrap hb hl hok
    refine ⟨s, s1, f0, rest, rfl, rfl, ?_, hcalls, hb1, hf1.trans hfree,
      hfelm f0 (by rw [hfree]; exact List.mem_cons_self _ _), hfr⟩
    simp only [WCache.writeSeq, hw, bind, Except.bind, pure, Except.pure, List.map_cons,
      List.map_nil]
  | cons d init1 =>
    simp only [List.flatten_cons, List.length_append] at hend
    have hd := hinit d (List.mem_cons_self _ _)
    obtain ⟨sA, hwA, hpA, hfA, hcoA, hfrA⟩ := WCache.Write_first_buffered fe idx o d s f0 rest
      hbs hd (by omega) hwrap hb hl hfree (hfelm f0 (by rw [hfree]; exact List.mem_cons_self _ _))
    obtain ⟨sB, hseqB, hpB, hfB, hcoB, hfrB⟩ := WCache.writeSeq_buffered fe idx o hbs hwrap
      init1 d sA (fun x hx => hinit x (List.mem_cons_of_mem _ hx)) (by omega) hcoA
    have hseq0 : WCache.writeSeq fe (d :: init1) (idx * fe.BlockSize + o) s =
        .ok ((d :: init1).map (fun x => (x.length, none)), sB) := by
      have hoff : idx * fe.BlockSize + o + d.length = idx * fe.BlockSize + (o + d.length) := by
        omega
      simp only [WCache.writeSeq, hwA, bind, Except.bind, hoff, hseqB, pure, Except.pure,
        List.map_cons]
    have hokB : (Writer.Write fe.Id ((d ++ init1.flatten) ++ last) (idx * fe.BlockSize + o)
        sB.proxyClient).1.2 = none := by
      rw [hpB, hpA]
      exact hok
    obtain ⟨s1, b1, hw1, hcalls, -, hf1, hb1elm, hb1, -, hfr1⟩ := WCache.Write_merge_flush fe idx
      o (d ++ init1.flatten) last sB (by rw [hfrB.chSync, hfrA.chSync]; exact hsync) hbs hlast
      (by rw [List.length_append]; omega) hwrap hcoB hokB
    have hfree1 : ∃ f1 rest1, s1.wCache.FreeList = f1 :: rest1 ∧ f1.elm = false := by
      rw [hf1, hfB, hfA]
      cases hr : rest with
      | nil => exact ⟨b1, [], rfl, hb1elm⟩
      | cons r0 rs =>
        refine ⟨r0, rs ++ [b1], rfl, hfelm r0 ?_⟩
        rw [hfree, hr]
        exact List.mem_cons_of_mem _ (List.mem_cons_self _ _)
    obtain ⟨f1, rest1, hfl1, hf1elm⟩ := hfree1
    refine ⟨sB, s1, f1, rest1, hseq0, by rw [hpB, hpA], ?_, ?_, hb1, hfl1, hf1elm,
      (hfrA.chain hfrB).chain hfr1⟩
    · rw [WCache.writeSeq_append, hseq0]
      have hoff : idx * fe.BlockSize + o + (d :: init1).flatten.length =
          idx * fe.BlockSize + (o + (d ++ init1.flatten).length) := by
        rw [List.flatten_cons]
        omega
      simp only [bind, Except.bind, WCache.writeSeq, hoff, hw1, pure, Except.pure, List.map_append,
        List.map_cons, List.map_nil]
    · rw [hcalls, hpB, hpA]
      rfl

/-- C29, amended (write coalescing): in sync mode, let the writes `init ++ [last]`, none of
them empty, follow one another inside block `idx` of a file, from the in-block offset `o` up to
the last byte of the block, in a state where the block has no buffer and no lock and the free
list of the write cache is not empty; let the proxy accept the write of their concatenation.
Then every write returns its length without error; the writes before the last make no proxy
call; with the last write the cache has made exactly one proxy call, the write of the
concatenation at the file offset of the first write; afterwards the block has no buffer, and a
later write that starts block `idx + 1` without filling it is kept in a new buffer, again
without a proxy call. -/
theorem C29_write_coalescing (fe : FileEntry) (idx o : Nat) (init : List (List Byte))
    (last : List Byte) (s : CacheState) (f0 : Buffer) (rest : List Buffer)
    (hsync : s.wCache.chSync = none) (hbs : fe.BlockSize < U32)
    (hinit : ∀ d ∈ init, d ≠ []) (hlast : last ≠ [])
    (hend : o + (init ++ [last]).flatten.length = fe.BlockSize)
    (hwrap : (idx + 2) * fe.BlockSize ≤ U64)
    (hb : (s.wCache.toBlockCache.fileOf fe).BufferMap.get idx = none)
    (hl : (s.wCache.toBlockCache.fileOf fe).LockMap.get idx = none)
    (hfree : s.wCache.FreeList = f0 :: rest) (hfelm : ∀ b ∈ s.wCache.FreeList, b.elm = false)
    (hok : (Writer.Write fe.Id (init ++ [last]).flatten (idx * fe.BlockSize + o)
      s.proxyClient).1.2 = none) :
    ∃ s0 s1,
      WCache.writeSeq fe init (idx * fe.BlockSize + o) s =
        .ok (init.map (fun d => (d.length, none)), s0) ∧
      s0.proxyClient.calls = s.proxyClient.calls ∧
      WCache.writeSeq fe (init ++ [last]) (idx * fe.BlockSize + o) s =
        .ok ((init ++ [last]).map (fun d => (d.length, none)), s1) ∧
      s1.proxyClient.calls =
        ProxyCall.Write fe.Id (init ++ [last]).flatten (idx * fe.BlockSize + o) ::
          s.proxyClient.calls ∧
      (s1.wCache.toBlockCache.fileOf fe).BufferMap.get idx = none ∧
      ∀ nxt : List Byte, nxt ≠ [] → nxt.length < fe.BlockSize →
        (idx + 3) * fe.BlockSize ≤ U64 →
        (s.wCache.toBlockCache.fileOf fe).BufferMap.get (idx + 1) = none →
        (s.wCache.toBlockCache.fileOf fe).LockMap.get (idx + 1) = none →
        ∃ s2, WCache.Write fe nxt ((idx + 1) * fe.BlockSize) s1 =
            .ok ((nxt.length, none), s2) ∧
          s2.proxyClient.calls = s1.proxyClient.calls ∧ s2.Coalesced fe (idx + 1) 0 nxt := by
  obtain ⟨s0, s1, f1, rest1, h0, hc0, h1, hc1, hb1, hfl1, hf1elm, hfr⟩ :=
    WCache.writeSeq_coalesce fe idx o init last s f0 rest hsync hbs hinit hlast hend hwrap hb hl
      hfree hfelm hok
  refine ⟨s0, s1, h0, hc0, h1, hc1, hb1, ?_⟩
  intro nxt hnxt hshort hwrap3 hbn hln
  have hne : idx + 1 ≠ idx := by omega
  obtain ⟨s2, hw2, hp2, -, hco2, -⟩ := WCache.Write_first_buffered fe (idx + 1) 0 nxt s1 f1 rest1
    hbs hnxt (by omega) hwrap3 (by rw [hfr.buffers _ hne]; exact hbn)
    (by rw [hfr.locks _ hne]; exact hln) hfl1 hf1elm
  rw [Nat.add_zero] at hw2
  exact ⟨s2, hw2, by rw [hp2], hco2⟩

theorem C29_write_coalescing_witness :
    ∃ s0 s1,
      WCache.writeSeq sampleEntry [[1, 2]] 0 sampleState = .ok ([(2, none)], s0) ∧
      s0.proxyClient.calls = [] ∧
      WCache.writeSeq sampleEntry [[1, 2], [3, 4]] 0 sampleState =
        .ok ([(2, none), (2, none)], s1) ∧
      s1.proxyClient.calls = [ProxyCall.Write 7 [1, 2, 3, 4] 0] :=
  match C29_write_coalescing sampleEntry 0 0 [[1, 2]] [3, 4] sampleState (NewBuffer 0)
      [NewBuffer 1] rfl (by decide) (by decide) (by decide) (by decide) (by decide) rfl rfl rfl
      (by decide) rfl with
  | ⟨s0, s1, h0, hc0, h1, hc1, _⟩ => ⟨s0, s1, h0, hc0, h1, hc1⟩

/-! ## C35: the overlap test of prefetch windows -/

/-- C35, the claim as written fails: the empty window `[1, 1)` and the window `[0, 2)` have
no block in common, yet `Cross` is true, in both directions. -/
theorem C35_Cross_true_on_empty_window :
    (PrefetchWindow.mk 1 1).Cross (PrefetchWindow.mk 0 2) = true ∧
      (PrefetchWindow.mk 0 2).Cross (PrefetchWindow.mk 1 1) = true ∧
      ¬ ∃ i, 1 ≤ i ∧ i < 1 ∧ 0 ≤ i ∧ i < 2 := by
  refine ⟨rfl, rfl, ?_⟩
  rintro ⟨i, h1, h2, -⟩
  omega

/-- C35 (amended): `Cross` is symmetric; for two windows that are not empty it is true exactly
when some block index belongs to both; for an empty window `[x, x)` it is true exactly when
`x` lies strictly inside the other window, so it is false when both windows are empty and
when the empty window is the initial `[0, 0)`. -/
theorem C35_Cross_overlap (a b : PrefetchWindow) :
    a.Cross b = b.Cross a ∧
    (a.BlkStart < a.BlkEnd → b.BlkStart < b.BlkEnd →
      (a.Cross b = true ↔
        ∃ i, a.BlkStart ≤ i ∧ i < a.BlkEnd ∧ b.BlkStart ≤ i ∧ i < b.BlkEnd)) ∧
    (a.BlkStart = a.BlkEnd →
      (a.Cross b = true ↔ b.BlkStart < a.BlkStart ∧ a.BlkStart < b.BlkEnd) ∧
      (b.BlkStart = b.BlkEnd → a.Cross b = false) ∧
      (a.BlkStart = 0 → a.Cross b = false)) := by
  have hc : ∀ x y : PrefetchWindow,
      x.Cross y = true ↔ y.BlkStart < x.BlkEnd ∧ x.BlkStart < y.BlkEnd := by
    intro x y
    simp only [PrefetchWindow.Cross, Bool.not_eq_true', Bool.or_eq_false_iff,
      decide_eq_false_iff_not, Nat.not_le]
  have hf : ∀ x y : PrefetchWindow,
      x.Cross y = false ↔ ¬ (y.BlkStart < x.BlkEnd ∧ x.BlkStart < y.BlkEnd) := by
    intro x y
    rw [← hc x y]
    simp
  refine ⟨?_, ?_, ?_⟩
  · cases h : b.Cross a with
    | true =>
      rw [hc] at h ⊢
      exact ⟨h.2, h.1⟩
    | false =>
      rw [hf] at h ⊢
      exact fun h2 => h ⟨h2.2, h2.1⟩
  · intro ha hb
    rw [hc]
    constructor
    · rintro ⟨h1, h2⟩
      exact ⟨max a.BlkStart b.BlkStart, le_max_left _ _, max_lt ha h1, le_max_right _ _,
        max_lt h2 hb⟩
    · rintro ⟨i, h1, h2, h3, h4⟩
      exact ⟨by omega, by omega⟩
  · intro ha
    refine ⟨?_, ?_, ?_⟩
    · rw [hc, ha]
    · intro hb
      rw [hf]
      omega
    · intro h0
      rw [hf]
      omega

theorem C35_Cross_overlap_witness :
    ((PrefetchWindow.mk 0 2).Cross (PrefetchWindow.mk 1 3) = true ↔
      ∃ i, 0 ≤ i ∧ i < 2 ∧ 1 ≤ i ∧ i < 3) ∧
    (PrefetchWindow.mk 0 0).Cross (PrefetchWindow.mk 0 2) = false :=
  ⟨(C35_Cross_overlap (PrefetchWindow.mk 0 2) (PrefetchWindow.mk 1 3)).2.1 (by decide)
      (by decide),
    ((C35_Cross_overlap (PrefetchWindow.mk 0 0) (PrefetchWindow.mk 0 2)).2.2 rfl).2.2 rfl⟩

/-! ## C37: the error that `Flush` returns -/

theorem WCache.FlushLoop_collect (fid : Nat) (keys : List Nat) :
    ∀ (flushErr : Option GoError) (s : CacheState),
      WCache.FlushLoop fid keys flushErr s =
        (WCache.flushResults fid keys s).map
          (fun t => (WCache.collectFlush t.1 flushErr, t.2)) := by
  induction keys with
  | nil => intro flushErr s; rfl
  | cons k rest ih =>
    intro flushErr s
    simp only [WCache.FlushLoop, WCache.flushResults]
    cases h : WCache.FlushBuffer fid k s with
    | error e => rfl
    | ok r =>
      simp only [bind, Except.bind]
      rw [ih]
      cases h2 : WCache.flushResults fid rest r.2 with
      | error e => rfl
      | ok t => rfl

theorem WCache.collectFlush_append (xs ys : List (Option GoError)) (e : Option GoError) :
    WCache.collectFlush (xs ++ ys) e = WCache.collectFlush ys (WCache.collectFlush xs e) := by
  simp only [WCache.collectFlush, List.foldl_append]

theorem WCache.collectFlush_nil_results (rs : List (Option GoError)) :
    ∀ e, (∀ r ∈ rs, r = none) → WCache.collectFlush rs e = e := by
  induction rs with
  | nil => intro e _; rfl
  | cons r rest ih =>
    intro e h
    have hr : r = none := h r (List.mem_cons_self _ _)
    subst hr
    simp only [WCache.collectFlush, List.foldl_cons, ne_eq, not_true_eq_false, if_false]
    exact ih e (fun x hx => h x (List.mem_cons_of_mem _ hx))

theorem WCache.collectFlush_eq_none (rs : List (Option GoError)) :
    ∀ e, WCache.collectFlush rs e = none ↔ e = none ∧ ∀ r ∈ rs, r = none := by
  induction rs with
  | nil => intro e; simp [WCache.collectFlush]
  | cons r rest ih =>
    intro e
    have hstep : WCache.collectFlush (r :: rest) e =
        WCache.collectFlush rest (if r ≠ none then r else e) := rfl
    rw [hstep, ih]
    cases r with
    | none => simp
    | some x => simp

/-- C37, the claim as written fails: in `sampleTwoFailing` the snapshot of `sampleEntry` is
the blocks 0 and 1; the flush of block 0 fails with ENOENT, the flush of block 1 fails with
EIO, and `Flush` returns EIO, the result collected last, not the first one that is not nil. -/
theorem C37_Flush_returns_last_failure :
    (sampleTwoFailing.wCache.toBlockCache.GetFileBuffer sampleEntry false).1.map
        FileBuffer.GetAllBufferIndex = some [0, 1] ∧
    (WCache.flushResults 7 [0, 1] sampleTwoFailing).map Prod.fst =
      .ok [some (GoError.errno E_POSIX_ENOENT), some (GoError.errno E_POSIX_EIO)] ∧
    (WCache.Flush sampleEntry sampleTwoFailing).map Prod.fst =
      .ok (some (GoError.errno E_POSIX_EIO)) :=
  ⟨rfl, rfl, rfl⟩

/-- C37 (amended): `Flush` of a file without write file buffer returns nil and changes
nothing; otherwise, with `r_1..r_n` the results of `FlushBuffer` on the snapshot of block
indexes in the order of collection, `Flush` returns what the collection loop keeps, which is
nil exactly when every `r_i` is nil and otherwise is the LAST `r_i` that is not nil. -/
theorem C37_Flush_last_error (fe : FileEntry) (s : CacheState) :
    ((s.wCache.toBlockCache.GetFileBuffer fe false).1 = none →
      WCache.Flush fe s = .ok (none, s)) ∧
    (∀ fileBuf, (s.wCache.toBlockCache.GetFileBuffer fe false).1 = some fileBuf →
      WCache.Flush fe s =
        (WCache.flushResults fe.Id fileBuf.GetAllBufferIndex s).map
          (fun t => (WCache.collectFlush t.1 none, t.2))) ∧
    (∀ rs, WCache.collectFlush rs none = none ↔ ∀ r ∈ rs, r = none) ∧
    (∀ front e back, (∀ r ∈ back, r = none) →
      WCache.collectFlush (front ++ some e :: back) none = some e) := by
  refine ⟨?_, ?_, ?_, ?_⟩
  · intro h
    simp only [WCache.Flush, h]
  · intro fileBuf h
    simp only [WCache.Flush, h]
    split
    · next h0 =>
      rw [List.length_eq_zero] at h0
      rw [h0]
      rfl
    · exact WCache.FlushLoop_collect fe.Id _ none s
  · intro rs
    rw [WCache.collectFlush_eq_none]
    simp
  · intro front e back h
    rw [WCache.collectFlush_append]
    have hstep : WCache.collectFlush (some e :: back) (WCache.collectFlush front none) =
        WCache.collectFlush back (some e) := rfl
    rw [hstep]
    exact WCache.collectFlush_nil_results back (some e) h

theorem C37_Flush_last_error_witness :
    WCache.Flush sampleEntry sampleDirty =
      (WCache.flushResults sampleEntry.Id sampleFileBuffer.GetAllBufferIndex sampleDirty).map
        (fun t => (WCache.collectFlush t.1 none, t.2)) ∧
    WCache.collectFlush
      ([some (GoError.errno E_POSIX_ENOENT)] ++ some (GoError.errno E_POSIX_EIO) :: [none])
      none = some (GoError.errno E_POSIX_EIO) :=
  ⟨(C37_Flush_last_error sampleEntry sampleDirty).2.1 sampleFileBuffer rfl,
    (C37_Flush_last_error sampleEntry sampleDirty).2.2.2 _ _ [none] (by simp)⟩

/-! ## C32: the branches of `RCache.ReadOp` -/

/-- C32, the claim as written fails: in `sampleShortCached` block 0 holds a read buffer with
`Len = 2`; the op that reads two bytes at `RwOffset = 2` gets `(0, nil)`, its sub-buffer is
untouched and the state, with the log of proxy calls, is unchanged: no proxy read is
issued. -/
theorem C32_ReadOp_past_buffer_reads_nothing :
    (sampleShortCached.rCache.toBlockCache.GetBuffer 7 0).map (Option.map Buffer.Len) =
      .ok (some 2) ∧
    RCache.ReadOp sampleEntry 7 (sampleBlockRead 2) sampleShortCached =
      .ok ((0, none, [0, 0]), sampleShortCached) ∧
    sampleShortCached.proxyClient.calls = [] :=
  ⟨rfl, rfl, rfl⟩

/-- C32 (amended): the branches of `ReadOp` on the op `op`. Without a buffer for `op.Index`
it returns the result of `DirectRead`, which issues exactly one proxy read of
`len(op.rwBuf)` bytes at the file offset of the op. With a buffer that has `Offset = 0` and
`Len ≠ 0`: if `op.RwOffset < Len` it copies the buffer bytes
`[RwOffset, RwOffset + min(RwSize, Len - RwOffset))` into the sub-buffer and returns that
count, and if `op.RwOffset ≥ Len` it returns `(0, nil)`; in both cases the state is unchanged,
so no proxy call is made. A buffer with `Offset ≠ 0` or `Len = 0` fails the assertion. -/
theorem C32_ReadOp_branches (fe : FileEntry) (fid : Nat) (op : RWBlockOp) (s : CacheState) :
    (s.rCache.toBlockCache.GetBuffer fid op.Index = .ok none →
      RCache.ReadOp fe fid op s = .ok (RCache.DirectRead fe op.rwBuf op.GetFileOffset s) ∧
      (RCache.DirectRead fe op.rwBuf op.GetFileOffset s).2.proxyClient.calls =
        ProxyCall.Read fe.Id op.GetFileOffset (op.rwBuf.length % U32) :: s.proxyClient.calls) ∧
    (∀ buffer, s.rCache.toBlockCache.GetBuffer fid op.Index = .ok (some buffer) →
      buffer.Offset = 0 → buffer.Len ≠ 0 →
      (op.RwOffset < buffer.Len → buffer.Len ≤ buffer.dataBuf.length →
        RCache.ReadOp fe fid op s =
          .ok ((min op.RwSize (buffer.Len - op.RwOffset), none,
            goCopy op.rwBuf ((buffer.dataBuf.drop op.RwOffset).take
              (min op.RwSize (buffer.Len - op.RwOffset)))), s)) ∧
      (buffer.Len ≤ op.RwOffset →
        RCache.ReadOp fe fid op s = .ok ((0, none, op.rwBuf), s))) ∧
    (∀ buffer, s.rCache.toBlockCache.GetBuffer fid op.Index = .ok (some buffer) →
      (buffer.Offset ≠ 0 ∨ buffer.Len = 0) →
      RCache.ReadOp fe fid op s = .error Fault.assert) := by
  refine ⟨?_, ?_, ?_⟩
  · intro h
    refine ⟨?_, ?_⟩
    · simp only [RCache.ReadOp, h, bind, Except.bind, pure, Except.pure]
    · simp only [RCache.DirectRead, Reader.Read, ProxyClient.call]
      split_ifs <;> rfl
  · intro buffer h hoff hlen
    refine ⟨?_, ?_⟩
    · intro hlt hdata
      have hsz : (if buffer.Len - op.RwOffset > op.RwSize then op.RwSize
          else buffer.Len - op.RwOffset) = min op.RwSize (buffer.Len - op.RwOffset) := by
        split_ifs with hc
        · exact (min_eq_left (le_of_lt hc)).symm
        · exact (min_eq_right (not_lt.mp hc)).symm
      have hmin : min op.RwSize (buffer.Len - op.RwOffset) ≤ buffer.Len - op.RwOffset :=
        min_le_right _ _
      have hng : ¬ (op.RwOffset ≥ buffer.Len) := by omega
      have hrange : ¬ (op.RwOffset + min op.RwSize (buffer.Len - op.RwOffset) >
            buffer.dataBuf.length ∨
          op.RwOffset > op.RwOffset + min op.RwSize (buffer.Len - op.RwOffset)) := by
        omega
      have hd1 : decide (buffer.Offset ≤ op.RwOffset) = true := by
        rw [hoff]; simp
      have hd2 : decide (op.RwOffset + min op.RwSize (buffer.Len - op.RwOffset) ≤
          0 + buffer.Len) = true := by
        simp only [decide_eq_true_eq]; omega
      simp only [RCache.ReadOp, h, bind, Except.bind, pure, Except.pure, Assert, hoff, hlen,
        decide_True, ne_eq, not_false_eq_true, Bool.and_self, if_true, hng, if_false, hsz,
        Buffer.GetRangeData, hd1, hd2, hrange, Nat.add_sub_cancel_left, Nat.zero_le,
        Bool.not_true, Bool.false_eq_true]
    · intro hge
      have hg : op.RwOffset ≥ buffer.Len := hge
      simp only [RCache.ReadOp, h, bind, Except.bind, pure, Except.pure, Assert, hoff, hlen,
        decide_True, ne_eq, not_false_eq_true, Bool.and_self, if_true, hg,
        Bool.not_true, Bool.false_eq_true, if_false]
  · intro buffer h hbad
    have hd : (decide (buffer.Offset = 0) && decide (buffer.Len ≠ 0)) = false := by
      rcases hbad with h1 | h1
      · simp [h1]
      · simp [h1]
    simp only [RCache.ReadOp, h, bind, Except.bind, Assert, hd, Bool.false_eq_true, if_false,
      Bool.not_false, if_true]

theorem C32_ReadOp_branches_witness :
    RCache.ReadOp sampleEntry 7 (sampleBlockRead 0) sampleShortCached =
      .ok ((2, none, [1, 2]), sampleShortCached) ∧
    RCache.ReadOp sampleEntry 7 (sampleBlockRead 2) sampleShortCached =
      .ok ((0, none, [0, 0]), sampleShortCached) ∧
    (RCache.DirectRead sampleEntry (sampleBlockRead 0).rwBuf (sampleBlockRead 0).GetFileOffset
        sampleAfterRead).2.proxyClient.calls =
      [ProxyCall.Read 7 0 2, ProxyCall.Read 7 0 1] :=
  ⟨((C32_ReadOp_branches sampleEntry 7 (sampleBlockRead 0) sampleShortCached).2.1
      { Id := 0, fe := some sampleEntry, BlkIdx := 0, Offset := 0, Len := 2,
        dataBuf := [1, 2, 0, 0], LastUpdateTime := 0, elm := true } rfl rfl (by decide)).1
      (by decide) (by decide),
    ((C32_ReadOp_branches sampleEntry 7 (sampleBlockRead 2) sampleShortCached).2.1
      { Id := 0, fe := some sampleEntry, BlkIdx := 0, Offset := 0, Len := 2,
        dataBuf := [1, 2, 0, 0], LastUpdateTime := 0, elm := true } rfl rfl (by decide)).2
      (by decide),
    ((C32_ReadOp_branches sampleEntry 7 (sampleBlockRead 0) sampleAfterRead).1 rfl).2⟩

/-! ## C33: what a prefetch read attaches -/

theorem RCache.DoPrefetchRead_eq (fid : Nat) (op : RWBlockOp) (s : CacheState)
    (f0 : Buffer) (rest : List Buffer) (fb : FileBuffer)
    (hfl : s.rCache.FreeList = f0 :: rest) (helm : f0.elm = false)
    (hfit : op.RwOffset ≤ op.fe.BlockSize)
    (hfb : s.rCache.Cache.get fid = some fb) (hnone : fb.BufferMap.get op.Index = none)
    (herr : (RCache.DirectRead op.fe op.rwBuf op.GetFileOffset s).1.2.1 = none)
    (hsize : (RCache.DirectRead op.fe op.rwBuf op.GetFileOffset s).1.1 ≠ 0) :
    RCache.DoPrefetchRead fid op s =
      .ok (none, (RCache.DirectRead op.fe op.rwBuf op.GetFileOffset s).2.setR
        ((BlockCache.mk s.rCache.BufferMax rest s.rCache.Cache s.rCache.LruList
          s.rCache.ExpireTime s.rCache.Stop).linked fid op.Index fb
          (f0.loaded op.fe
            { op with rwBuf := (RCache.DirectRead op.fe op.rwBuf op.GetFileOffset s).1.2.2 }
            s.now) s.now)) := by
  have hrun := Buffer.loaded_run f0 op.fe
    { op with rwBuf := (RCache.DirectRead op.fe op.rwBuf op.GetFileOffset s).1.2.2 }
    s.now helm hfit
  simp only [bind, Except.bind] at hrun
  unfold RCache.DoPrefetchRead
  dsimp only
  rw [if_neg (by rw [herr]; simp), if_neg hsize]
  rw [RCache.DirectRead_rCache, RCache.DirectRead_now]
  simp only [BlockCache.AllocBuffer, hfl, bind, Except.bind]
  cases hr : f0.ReSet op.fe op.Index with
  | error e1 => simp [hr] at hrun
  | ok buffer1 =>
    simp only [hr] at hrun ⊢
    cases hk : buffer1.Skip op.RwOffset with
    | error e1 => simp [hk] at hrun
    | ok buffer2 =>
      simp only [hk] at hrun ⊢
      cases ha : Assert (buffer2.CanMerge op.RwOffset) with
      | error e1 => simp [ha] at hrun
      | ok u =>
        simp only [ha] at hrun ⊢
        rw [hrun]
        dsimp only
        have hatt := BlockCache.AttachBuffer_run
          (BlockCache.mk s.rCache.BufferMax rest s.rCache.Cache s.rCache.LruList
            s.rCache.ExpireTime s.rCache.Stop) op.Index
          (f0.loaded op.fe
            { op with rwBuf := (RCache.DirectRead op.fe op.rwBuf op.GetFileOffset s).1.2.2 }
            s.now) hfb hnone
        rw [hatt]
        dsimp only
        have hget : ((BlockCache.mk s.rCache.BufferMax rest s.rCache.Cache
            s.rCache.LruList s.rCache.ExpireTime s.rCache.Stop).withBuffer fid
            op.Index fb (f0.loaded op.fe
            { op with rwBuf := (RCache.DirectRead op.fe op.rwBuf op.GetFileOffset s).1.2.2 }
            s.now)).Cache.get fid =
            some (FileBuffer.mk fb.fe (fb.BufferMap.set op.Index (f0.loaded op.fe
            { op with rwBuf := (RCache.DirectRead op.fe op.rwBuf op.GetFileOffset s).1.2.2 }
            s.now)) fb.LockMap fb.pw) := by
          simp only [BlockCache.withBuffer, GoMap.get_set_self]
        rw [BlockCache.linked_run _ op.Index _ s.now hget]
        dsimp only
        rw [BlockCache.withBuffer_linked]
        rfl

theorem Buffer.loaded_take (f0 : Buffer) (fe : FileEntry) (op : RWBlockOp) (now : Nat)
    (h0 : op.RwOffset = 0) (hlen : op.rwBuf.length ≤ fe.BlockSize) :
    (f0.loaded fe op now).dataBuf.take op.rwBuf.length = op.rwBuf := by
  have hbase : op.rwBuf.length ≤ (if f0.dataBuf.length % U32 < fe.BlockSize then
      List.replicate fe.BlockSize 0 else f0.dataBuf).length := by
    split
    · simp only [List.length_replicate]
      exact hlen
    · have := Nat.mod_le f0.dataBuf.length U32
      omega
  have h := goCopyAt_take (if f0.dataBuf.length % U32 < fe.BlockSize then
      List.replicate fe.BlockSize 0 else f0.dataBuf) 0 op.rwBuf (by omega)
  simp only [Nat.zero_add, List.take_zero, List.nil_append] at h
  simp only [Buffer.loaded, h0]
  exact h

theorem BlockCache.linked_GetBuffer (c : BlockCache) (fid idx : Nat) (fb : FileBuffer)
    (b : Buffer) (now : Nat) :
    (c.linked fid idx fb b now).GetBuffer fid idx = .ok (some (c.DoLru b now).1) := by
  simp only [BlockCache.linked, BlockCache.withBuffer, BlockCache.GetBuffer, BlockCache.fileBuf,
    GoMap.get_set_self, FileBuffer.GetBuffer]

/-- C33 (code defect): what `DoPrefetchRead` does on the op `op`. When the proxy read
succeeds with a reply that is not empty, a free buffer is at hand and the block has no
buffer, a read buffer is attached for `op.Index` with `Offset = 0` whose `Len` is the length
of the whole op buffer (the block size for a prefetch op), whatever the size of the reply,
and whose bytes are the op buffer after the read: the reply followed by the zeros the reply
did not overwrite. When the read fails or the reply is empty, the read cache is unchanged.
The run at the end shows the effect on a file of six bytes with block size 4: after a read
of block 0 and the prefetch of block 1 (reply of 2 bytes) the buffer of block 1 has
`Len = 4`, and a read of four bytes at offset 4 returns 4 bytes, where the same read without
prefetch returns 2. -/
theorem C33_prefetched_buffer_spans_block (fid : Nat) (op : RWBlockOp) (s : CacheState) :
    (∀ f0 rest fb, s.rCache.FreeList = f0 :: rest → f0.elm = false → op.RwOffset = 0 →
      op.rwBuf.length ≤ op.fe.BlockSize →
      s.rCache.Cache.get fid = some fb → fb.BufferMap.get op.Index = none →
      (RCache.DirectRead op.fe op.rwBuf op.GetFileOffset s).1.2.1 = none →
      (RCache.DirectRead op.fe op.rwBuf op.GetFileOffset s).1.1 ≠ 0 →
      ∃ s1 b, RCache.DoPrefetchRead fid op s = .ok (none, s1) ∧
        s1.rCache.toBlockCache.GetBuffer fid op.Index = .ok (some b) ∧
        b.Offset = 0 ∧ b.Len = op.rwBuf.length ∧
        b.dataBuf.take op.rwBuf.length =
          (RCache.DirectRead op.fe op.rwBuf op.GetFileOffset s).1.2.2) ∧
    (((RCache.DirectRead op.fe op.rwBuf op.GetFileOffset s).1.2.1 ≠ none ∨
        (RCache.DirectRead op.fe op.rwBuf op.GetFileOffset s).1.1 = 0) →
      ∃ e s1, RCache.DoPrefetchRead fid op s = .ok (e, s1) ∧ s1.rCache = s.rCache) ∧
    ((RWCache.Read sampleEntry [0, 0, 0, 0] 0 samplePrefetchSix).map
        (fun r => (r.1, r.2.rCache.chPrefetch)) =
      .ok ((4, none, [1, 2, 3, 4]), some [RWBlockOp.prefetch sampleEntry 1]) ∧
    (RCache.DirectRead sampleEntry (RWBlockOp.prefetch sampleEntry 1).rwBuf 4
        samplePrefetchSix).1 = (2, none, [5, 6, 0, 0]) ∧
    ((RWCache.Read sampleEntry [0, 0, 0, 0] 0 samplePrefetchSix).bind
      (fun r => (RCache.prefetchOnce r.2).bind
        (fun w => (w.2.rCache.toBlockCache.GetBuffer 7 1).map (fun b => (w.1, b))))) =
      .ok (none, some (Buffer.mk 0 (some sampleEntry) 1 0 4 [5, 6, 0, 0] 0 true)) ∧
    ((RWCache.Read sampleEntry [0, 0, 0, 0] 0 samplePrefetchSix).bind
      (fun r => (RCache.prefetchOnce r.2).bind
        (fun w => (RWCache.Read sampleEntry [0, 0, 0, 0] 4 w.2).map Prod.fst))) =
      .ok (4, none, [5, 6, 0, 0]) ∧
    ((RWCache.Read sampleEntry [0, 0, 0, 0] 0 sampleDirectSix).bind
      (fun r => (RWCache.Read sampleEntry [0, 0, 0, 0] 4 r.2).map Prod.fst)) =
      .ok (2, none, [5, 6, 0, 0])) := by
  refine ⟨?_, ?_, ⟨rfl, rfl, rfl, rfl, rfl⟩⟩
  · intro f0 rest fb hfl helm h0 hlen hfb hnone herr hsize
    refine ⟨_, _, RCache.DoPrefetchRead_eq fid op s f0 rest fb hfl helm (by omega) hfb hnone
      herr hsize, BlockCache.linked_GetBuffer _ _ _ _ _ _, ?_, ?_, ?_⟩
    · simp only [BlockCache.DoLru, Buffer.loaded]
      split <;> exact h0
    · simp only [BlockCache.DoLru, Buffer.loaded]
      split <;> exact RCache.DirectRead_length _ _ _ _
    · have ht := Buffer.loaded_take f0 op.fe
        { op with rwBuf := (RCache.DirectRead op.fe op.rwBuf op.GetFileOffset s).1.2.2 } s.now
        h0 (by
          show (RCache.DirectRead op.fe op.rwBuf op.GetFileOffset s).1.2.2.length ≤ _
          rw [RCache.DirectRead_length]
          exact hlen)
      have hl : (RCache.DirectRead op.fe op.rwBuf op.GetFileOffset s).1.2.2.length =
          op.rwBuf.length := RCache.DirectRead_length _ _ _ _
      simp only [hl] at ht
      simp only [BlockCache.DoLru]
      split <;> exact ht
  · intro h
    unfold RCache.DoPrefetchRead
    dsimp only
    by_cases herr : (RCache.DirectRead op.fe op.rwBuf op.GetFileOffset s).1.2.1 ≠ none
    · rw [if_pos herr]
      exact ⟨_, _, rfl, rfl⟩
    · rw [if_neg herr]
      have h0 : (RCache.DirectRead op.fe op.rwBuf op.GetFileOffset s).1.1 = 0 := by
        rcases h with h | h
        · exact absurd h herr
        · exact h
      rw [if_pos h0]
      exact ⟨_, _, rfl, rfl⟩

theorem C33_prefetched_buffer_spans_block_witness :
    (∃ s1 b, RCache.DoPrefetchRead 7 (RWBlockOp.prefetch sampleEntry 1) samplePrefetchSixOpen =
        .ok (none, s1) ∧
      s1.rCache.toBlockCache.GetBuffer 7 (RWBlockOp.prefetch sampleEntry 1).Index =
        .ok (some b) ∧
      b.Offset = 0 ∧ b.Len = (RWBlockOp.prefetch sampleEntry 1).rwBuf.length ∧
      b.dataBuf.take (RWBlockOp.prefetch sampleEntry 1).rwBuf.length =
        (RCache.DirectRead (RWBlockOp.prefetch sampleEntry 1).fe
          (RWBlockOp.prefetch sampleEntry 1).rwBuf
          (RWBlockOp.prefetch sampleEntry 1).GetFileOffset samplePrefetchSixOpen).1.2.2) ∧
    ∃ e s1, RCache.DoPrefetchRead 7 (RWBlockOp.prefetch sampleEntry 1) sampleAfterRead =
      .ok (e, s1) ∧ s1.rCache = sampleAfterRead.rCache :=
  ⟨(C33_prefetched_buffer_spans_block 7 (RWBlockOp.prefetch sampleEntry 1)
      samplePrefetchSixOpen).1 (NewBuffer 0) [NewBuffer 1] (NewFileBuffer sampleEntry)
      rfl rfl rfl (by decide) rfl rfl rfl (by decide),
    (C33_prefetched_buffer_spans_block 7 (RWBlockOp.prefetch sampleEntry 1)
      sampleAfterRead).2.1 (Or.inr rfl)⟩

/-! ## C36: `Clean` releases the read buffers of the written range -/

theorem RCache.ReleaseBuffer_run (fid idx : Nat) (s : CacheState) (fb : FileBuffer)
    (hfb : s.rCache.Cache.get fid = some fb) (hl : fb.LockMap.get idx = none) :
    ∃ s1, RCache.ReleaseBuffer fid idx s = .ok s1 ∧
      (fb.BufferMap.get idx = none → s1.rCache.FreeList = s.rCache.FreeList) ∧
      (∀ b, fb.BufferMap.get idx = some b →
        s1.rCache.FreeList = s.rCache.FreeList ++ [{ b with elm := false }]) ∧
      (∀ fid2, fid2 ≠ fid → s1.rCache.Cache.get fid2 = s.rCache.Cache.get fid2) := by
  cases hb : fb.BufferMap.get idx with
  | none =>
    simp only [RCache.ReleaseBuffer, CacheState.onR, BlockCache.LockBuffer,
      BlockCache.onFileBuf, hfb, FileBuffer.LockBuffer, hl, bind, Except.bind,
      CacheState.setR, BlockCache.GetBuffer, BlockCache.fileBuf, GoMap.get_set_self,
      FileBuffer.GetBuffer, hb, BlockCache.UnLockBuffer, FileBuffer.UnLockBuffer, Assert,
      decide_True, Bool.and_self, if_true, pure, Except.pure]
    refine ⟨_, rfl, fun _ => rfl, fun b hb2 => (by cases hb2), ?_⟩
    intro fid2 hne
    simp only [GoMap.get_set_ne _ _ hne]
  | some b =>
    simp only [RCache.ReleaseBuffer, CacheState.onR, BlockCache.LockBuffer,
      BlockCache.onFileBuf, hfb, FileBuffer.LockBuffer, hl, bind, Except.bind,
      CacheState.setR, BlockCache.GetBuffer, BlockCache.fileBuf, GoMap.get_set_self,
      FileBuffer.GetBuffer, hb, BlockCache.UnLockBuffer, FileBuffer.UnLockBuffer, Assert,
      decide_True, Bool.and_self, if_true, pure, Except.pure, BlockCache.DetachBuffer,
      BlockCache.RemoveLru_Cache, BlockCache.FreeBuffer, FileBuffer.DetachBuffer]
    refine ⟨_, rfl, fun h => (by cases h), ?_, ?_⟩
    · intro b2 hb2
      cases hb2
      simp only [BlockCache.RemoveLru]
      split
      · rfl
      · next helm =>
        have he : b.elm = false := by simpa using helm
        congr 2
        cases b
        simp only at he
        subst he
        rfl
    · intro fid2 hne
      simp only [GoMap.get_set_ne _ _ hne, BlockCache.RemoveLru_Cache]

theorem RCache.releaseAll_run (fid : Nat) :
    ∀ (keys : List Nat) (s : CacheState) (fb : FileBuffer),
      s.rCache.Cache.get fid = some fb → (∀ k ∈ keys, fb.LockMap.get k = none) →
      ∃ s1 fb1, RCache.releaseAll fid keys s = .ok s1 ∧
        s1.rCache.Cache.get fid = some fb1 ∧ fb1.LockMap = fb.LockMap ∧
        (∀ k, fb1.BufferMap.get k = if k ∈ keys then none else fb.BufferMap.get k) ∧
        (∀ x ∈ s.rCache.FreeList, x ∈ s1.rCache.FreeList) ∧
        (∀ k ∈ keys, ∀ b, fb.BufferMap.get k = some b →
          { b with elm := false } ∈ s1.rCache.FreeList) ∧
        (∀ fid2, fid2 ≠ fid → s1.rCache.Cache.get fid2 = s.rCache.Cache.get fid2) ∧
        s1.wCache = s.wCache ∧ s1.proxyClient = s.proxyClient := by
  intro keys
  induction keys with
  | nil =>
    intro s fb hfb _
    exact ⟨s, fb, rfl, hfb, rfl, by simp, fun _ h => h, by simp, fun _ _ => rfl, rfl, rfl⟩
  | cons idx rest ih =>
    intro s fb hfb hl
    obtain ⟨sa, hone, hnoneF, hsomeF, hother⟩ :=
      RCache.ReleaseBuffer_run fid idx s fb hfb (hl idx (List.mem_cons_self _ _))
    obtain ⟨hw, hp, -, fbr, fba, hfbr, hfba, -, hlm, hnone, hframe⟩ :=
      RCache.ReleaseBuffer_step hone
    rw [hfb] at hfbr
    simp only [Option.some.injEq] at hfbr
    subst hfbr
    obtain ⟨s1, fb1, hrun, hfb1, hlm1, hmap1, hfree1, hfreed1, hother1, hw1, hp1⟩ :=
      ih sa fba hfba (by
        intro k hk
        rw [hlm]
        exact hl k (List.mem_cons_of_mem _ hk))
    have hmono : ∀ x ∈ s.rCache.FreeList, x ∈ sa.rCache.FreeList := by
      intro x hx
      cases hb : fb.BufferMap.get idx with
      | none => rw [hnoneF hb]; exact hx
      | some b => rw [hsomeF b hb]; exact List.mem_append_left _ hx
    refine ⟨s1, fb1, ?_, hfb1, by rw [hlm1, hlm], ?_, fun x hx => hfree1 x (hmono x hx), ?_,
      fun fid2 hne => by rw [hother1 fid2 hne, hother fid2 hne], by rw [hw1, hw],
      by rw [hp1, hp]⟩
    · simp only [RCache.releaseAll, hone, bind, Except.bind]
      exact hrun
    · intro k
      rw [hmap1 k]
      by_cases hk : k = idx
      · subst hk
        simp only [List.mem_cons, true_or, if_true]
        split
        · rfl
        · exact hnone
      · simp only [List.mem_cons, hk, false_or]
        rw [hframe k hk]
    · intro k hk b hb
      rcases List.mem_cons.mp hk with rfl | hin
      · apply hfree1
        rw [hsomeF b hb]
        simp
      · by_cases hki : k = idx
        · subst hki
          apply hfree1
          rw [hsomeF b hb]
          simp
        · exact hfreed1 k hin b (by rw [hframe k hki]; exact hb)

theorem readWindow_count (bs offset Size : Nat) (hbs : 0 < bs) (h1 : 1 ≤ Size) :
    offset / bs < (offset + Size + bs - 1) / bs ∧
      (offset + Size + bs - 1) / bs ≤ offset / bs + Size := by
  constructor
  · have h : (offset + bs) / bs ≤ (offset + Size + bs - 1) / bs :=
      Nat.div_le_div_right (by omega)
    rw [Nat.add_div_right _ hbs] at h
    exact h
  · have hmul : Size + bs - 1 ≤ Size * bs := by
      obtain ⟨a, rfl⟩ : ∃ a, Size = a + 1 := ⟨Size - 1, by omega⟩
      obtain ⟨b, rfl⟩ : ∃ b, bs = b + 1 := ⟨bs - 1, by omega⟩
      have e : (a + 1) * (b + 1) = a * b + a + b + 1 := by ring
      rw [e]
      generalize a * b = c
      omega
    have h : (offset + Size + bs - 1) / bs ≤ (offset + Size * bs) / bs :=
      Nat.div_le_div_right (by omega)
    rw [Nat.add_mul_div_right _ _ hbs] at h
    exact h

/-- C36, the claim as written fails: the size is converted to `uint32`. In
`samplePrefetched` block 1 of `sampleEntry` holds a read buffer; `Clean` for a write of
`2^32 + 4` bytes at offset 0 releases the blocks of the window `[0, 1)` only, so the buffer of
block 1, which lies in `[0, ceil((2^32 + 4) / 4))`, is still attached afterwards. -/
theorem C36_Clean_truncates_size :
    (samplePrefetched.rCache.toBlockCache.GetBuffer 7 1).map (Option.map Buffer.Len) =
      .ok (some 4) ∧
    (RCache.Clean sampleEntry (U32 + 4) 0 samplePrefetched).map
        (fun r => (r.1, (r.2.rCache.toBlockCache.GetBuffer 7 1).map (Option.map Buffer.Len))) =
      .ok (none, .ok (some 4)) ∧
    0 / sampleEntry.BlockSize ≤ 1 ∧
    1 < (0 + (U32 + 4) + sampleEntry.BlockSize - 1) / sampleEntry.BlockSize :=
  ⟨rfl, rfl, by decide, by decide⟩

/-- C36 (amended): in a read cache that satisfies the pool invariant, for a file with a read
file buffer, a size with `1 ≤ size < 2^32`, an offset with `offset + size + bs - 1 < 2^64`
and no lock on the blocks of the range `[floor(offset/bs), ceil((offset+size)/bs))`,
`Clean(fe, size, offset)` returns nil; afterwards no read buffer is attached for a block of
the range, each buffer that was attached in the range is in the free list (unlinked) and
its id is not in the LRU list, the buffers at every other index of the file and the file
buffers of the other files are unchanged, and so are the locks, the write cache and the
proxy. -/
theorem C36_Clean_releases_range (bs m : Nat) (fe : FileEntry) (Size offset : Nat)
    (s : CacheState) (fb : FileBuffer)
    (hs : s.rCache.toBlockCache.Sound bs m)
    (hfb : s.rCache.Cache.get fe.Id = some fb)
    (hbs : fe.BlockSize ≠ 0) (h1 : 1 ≤ Size) (h2 : Size < U32)
    (h3 : offset + Size + fe.BlockSize - 1 < U64)
    (hl : ∀ k, offset / fe.BlockSize ≤ k →
      k < (offset + Size + fe.BlockSize - 1) / fe.BlockSize → fb.LockMap.get k = none) :
    ∃ s1 fb1, RCache.Clean fe Size offset s = .ok (none, s1) ∧
      s1.rCache.Cache.get fe.Id = some fb1 ∧
      (∀ k, offset / fe.BlockSize ≤ k →
        k < (offset + Size + fe.BlockSize - 1) / fe.BlockSize →
        fb1.BufferMap.get k = none) ∧
      (∀ k b, offset / fe.BlockSize ≤ k →
        k < (offset + Size + fe.BlockSize - 1) / fe.BlockSize →
        fb.BufferMap.get k = some b →
        { b with elm := false } ∈ s1.rCache.FreeList ∧ b.Id ∉ s1.rCache.LruList) ∧
      (∀ k, ¬ (offset / fe.BlockSize ≤ k ∧
          k < (offset + Size + fe.BlockSize - 1) / fe.BlockSize) →
        fb1.BufferMap.get k = fb.BufferMap.get k) ∧
      (∀ fid, fid ≠ fe.Id → s1.rCache.Cache.get fid = s.rCache.Cache.get fid) ∧
      fb1.LockMap = fb.LockMap ∧ s1.wCache = s.wCache ∧ s1.proxyClient = s.proxyClient := by
  have hpos : 0 < fe.BlockSize := Nat.pos_of_ne_zero hbs
  obtain ⟨hlo, hhi⟩ := readWindow_count fe.BlockSize offset Size hpos h1
  have hmem : ∀ k, k ∈ List.range' (offset / fe.BlockSize)
      ((offset + Size + fe.BlockSize - 1) / fe.BlockSize - offset / fe.BlockSize) ↔
      (offset / fe.BlockSize ≤ k ∧ k < (offset + Size + fe.BlockSize - 1) / fe.BlockSize) := by
    intro k
    rw [List.mem_range'_1]
    omega
  obtain ⟨s1, fb1, hrun, hfb1, hlm, hmap, -, hfreed, hother, hw, hp⟩ :=
    RCache.releaseAll_run fe.Id (List.range' (offset / fe.BlockSize)
      ((offset + Size + fe.BlockSize - 1) / fe.BlockSize - offset / fe.BlockSize)) s fb hfb
      (fun k hk => hl k ((hmem k).mp hk).1 ((hmem k).mp hk).2)
  have hsound : s1.rCache.toBlockCache.Sound bs m :=
    hs.moves (RCache.releaseAll_moved bs fe.Id _ s s1 hrun).1.2
  have hclean : RCache.Clean fe Size offset s = .ok (none, s1) := by
    have hsz : Size % U32 = Size := Nat.mod_eq_of_lt h2
    have hwrap : (offset + Size + fe.BlockSize - 1) % U64 = offset + Size + fe.BlockSize - 1 :=
      Nat.mod_eq_of_lt h3
    have hle : offset / fe.BlockSize ≤ (offset + Size + fe.BlockSize - 1) / fe.BlockSize :=
      le_of_lt hlo
    have hcount : ((offset + Size + fe.BlockSize - 1) / fe.BlockSize - offset / fe.BlockSize) %
        U32 = (offset + Size + fe.BlockSize - 1) / fe.BlockSize - offset / fe.BlockSize :=
      Nat.mod_eq_of_lt (by omega)
    have hgt : (offset + Size + fe.BlockSize - 1) / fe.BlockSize - offset / fe.BlockSize > 0 := by
      omega
    unfold RCache.Clean
    rw [BlockCache.GetFileBuffer_false_fst, hfb]
    simp only [RCache.GetReadWindow, hbs, if_false, hsz, hwrap, bind, Except.bind,
      PrefetchWindow.Size, Assert, hle, decide_True, if_true, pure, Except.pure, hcount, hgt,
      hrun]
  refine ⟨s1, fb1, hclean, hfb1, ?_, ?_, ?_, hother, hlm, hw, hp⟩
  · intro k hk1 hk2
    rw [hmap k, if_pos ((hmem k).mpr ⟨hk1, hk2⟩)]
  · intro k b hk1 hk2 hb
    have hin := hfreed k ((hmem k).mpr ⟨hk1, hk2⟩) b hb
    exact ⟨hin, (hsound.conservation.2.1 _ hin).2.2⟩
  · intro k hk
    rw [hmap k, if_neg (fun h => hk ((hmem k).mp h))]

/-- One iteration of the prefetch worker that returns changes the read cache core by moves
only. -/
theorem RCache.prefetchOnce_moved (bs : Nat) {s s1 : CacheState} {e : Option GoError}
    (hop : ∀ op q, s.rCache.chPrefetch = some (op :: q) → op.InBlock bs)
    (h : RCache.prefetchOnce s = .ok (e, s1)) : CacheState.Moved bs s s1 := by
  unfold RCache.prefetchOnce at h
  split at h
  · cases h
  · cases h
  · next op q hq =>
    obtain ⟨_, -, h⟩ := (Except.bind_eq_ok_iff _ _ _).mp h
    obtain ⟨r, hread, h⟩ := (Except.bind_eq_ok_iff _ _ _).mp h
    obtain ⟨s2, hun, h⟩ := (Except.bind_eq_ok_iff _ _ _).mp h
    simp only [pure, Except.pure, Except.ok.injEq, Prod.mk.injEq] at h
    rw [← h.2]
    have hm0 : CacheState.Moved bs s
        { s with rCache := { s.rCache with chPrefetch := some q } } :=
      CacheState.Moved.same rfl rfl
    have hm1 := RCache.DoPrefetchRead_moved (hop op q hq) hread
    have hm2 := (CacheState.onR_frame bs
      (fun _ _ hx => FileBuffer.UnLockBuffer_map hx) hun).1
    exact (hm0.trans hm1).trans hm2

theorem samplePrefetched_sound : samplePrefetched.Sound 4 2 := by
  have hex : ∃ w, (RWCache.Read sampleEntry [0, 0, 0, 0] 0 samplePrefetchSix).bind
      (fun r => RCache.prefetchOnce r.2) = .ok w := ⟨_, rfl⟩
  obtain ⟨w, hw⟩ := hex
  have hq : (RWCache.Read sampleEntry [0, 0, 0, 0] 0 samplePrefetchSix).map
      (fun r => r.2.rCache.chPrefetch) = .ok (some [RWBlockOp.prefetch sampleEntry 1]) := rfl
  have hdef : samplePrefetched = w.2 := by
    unfold samplePrefetched
    rw [hw]
  rw [hdef]
  obtain ⟨r, hread, hpre⟩ := (Except.bind_eq_ok_iff _ _ _).mp hw
  rw [hread] at hq
  simp only [Except.map, Except.ok.injEq] at hq
  have h0 : samplePrefetchSix.Sound 4 2 := NewRWCache_Sound 4 2 sampleSixProxy 0 500 0 1 1
  have h1 := h0.moved (RWCache.Read_moved 4 hread)
  refine h1.moved (RCache.prefetchOnce_moved 4 ?_ hpre)
  intro op q hopq
  rw [hq] at hopq
  simp only [Option.some.injEq, List.cons.injEq] at hopq
  rw [← hopq.1]
  exact ⟨rfl, by decide⟩

theorem C36_Clean_releases_range_witness :
    ∃ s1 fb1, RCache.Clean sampleEntry 1 4 samplePrefetched = .ok (none, s1) ∧
      s1.rCache.Cache.get sampleEntry.Id = some fb1 ∧
      fb1.BufferMap.get 1 = none ∧
      Buffer.mk 0 (some sampleEntry) 1 0 4 [5, 6, 0, 0] 0 false ∈ s1.rCache.FreeList ∧
      0 ∉ s1.rCache.LruList ∧ fb1.BufferMap.get 0 = none :=
  match C36_Clean_releases_range 4 2 sampleEntry 1 4 samplePrefetched
      (FileBuffer.mk sampleEntry
        ((GoMap.empty : GoMap Buffer).set 1
          (Buffer.mk 0 (some sampleEntry) 1 0 4 [5, 6, 0, 0] 0 true))
        GoMap.empty (PrefetchWindow.mk 1 2))
      samplePrefetched_sound.2 rfl (by decide) (by decide) (by decide) (by decide)
      (fun _ _ _ => rfl) with
  | ⟨s1, fb1, h, hfb1, hnone, hfreed, hkeep, _⟩ =>
    ⟨s1, fb1, h, hfb1, hnone 1 (by decide) (by decide),
      (hfreed 1 _ (by decide) (by decide) rfl).1, (hfreed 1 _ (by decide) (by decide) rfl).2,
      (hkeep 0 (by decide)).trans rfl⟩

/-! ## C34: the prefetch window after `DoPrefetch` -/

theorem FileBuffer.missing_cons (fb : FileBuffer) (start n : Nat) :
    fb.missing start (n + 1) =
      if (fb.BufferMap.get start).isNone then start :: fb.missing (start + 1) n
      else fb.missing (start + 1) n := by
  simp only [FileBuffer.missing, List.range'_succ, List.filter_cons]

theorem FileBuffer.mem_missing (fb : FileBuffer) (start n k : Nat) :
    k ∈ fb.missing start n ↔ (start ≤ k ∧ k < start + n) ∧ fb.BufferMap.get k = none := by
  simp only [FileBuffer.missing, List.mem_filter, List.mem_range'_1, Option.isNone_iff_eq_none]

/-- The loop of `DoPrefetch` on `n` blocks from `start` on, none of them locked: it returns,
the blocks without buffer are appended to the prefetch channel in ascending order and stay
locked, and nothing else changes. -/
theorem RCache.prefetchLoop_run (fid : Nat) (fe : FileEntry) :
    ∀ (n start : Nat) (s : CacheState) (fb : FileBuffer) (q : List RWBlockOp),
      s.rCache.Cache.get fid = some fb → s.rCache.chPrefetch = some q →
      (∀ k, start ≤ k → k < start + n → fb.LockMap.get k = none) →
      ∃ s1 fb1, RCache.prefetchLoop fid fe n start s = .ok s1 ∧
        s1.rCache.chPrefetch = some (q ++ (fb.missing start n).map (RWBlockOp.prefetch fe)) ∧
        s1.rCache.Cache.get fid = some fb1 ∧
        fb1.BufferMap = fb.BufferMap ∧ fb1.pw = fb.pw ∧ fb1.fe = fb.fe ∧
        (∀ k, fb1.LockMap.get k =
          if k ∈ fb.missing start n then some (CacheLock.mk WriteLock 0)
          else fb.LockMap.get k) ∧
        (∀ fid2, fid2 ≠ fid → s1.rCache.Cache.get fid2 = s.rCache.Cache.get fid2) ∧
        s1.rCache.FreeList = s.rCache.FreeList ∧ s1.rCache.LruList = s.rCache.LruList ∧
        s1.wCache = s.wCache ∧ s1.proxyClient = s.proxyClient := by
  intro n
  induction n with
  | zero =>
    intro start s fb q hfb hq _
    refine ⟨s, fb, rfl, ?_, hfb, rfl, rfl, rfl, ?_, fun _ _ => rfl, rfl, rfl, rfl, rfl⟩
    · simp [FileBuffer.missing, hq]
    · intro k
      simp [FileBuffer.missing]
  | succ n ih =>
    intro start s fb q hfb hq hl
    have hl0 : fb.LockMap.get start = none := hl start (le_refl _) (by omega)
    cases hb : fb.BufferMap.get start with
    | some b =>
      have hstep : RCache.prefetchLoop fid fe (n + 1) start s =
          RCache.prefetchLoop fid fe n (start + 1) (s.setR { s.rCache.toBlockCache with
            Cache := (s.rCache.Cache.set fid
              { fb with LockMap := fb.LockMap.set start (CacheLock.mk WriteLock 0) }).set fid
              fb }) := by
        simp only [RCache.prefetchLoop, CacheState.onR, BlockCache.LockBuffer,
          BlockCache.onFileBuf, hfb, FileBuffer.LockBuffer, hl0, bind, Except.bind,
          CacheState.setR, BlockCache.GetBuffer, BlockCache.fileBuf, GoMap.get_set_self,
          FileBuffer.GetBuffer, hb, BlockCache.UnLockBuffer, FileBuffer.UnLockBuffer, Assert,
          decide_True, Bool.and_self, if_true, pure, Except.pure,
          GoMap.del_set_of_get_none _ _ hl0]
      obtain ⟨s1, fb1, hrun, hch, hfb1, hmap, hpw, hfe, hlock, hother, hF, hL, hw, hp⟩ :=
        ih (start + 1) (s.setR { s.rCache.toBlockCache with
            Cache := (s.rCache.Cache.set fid
              { fb with LockMap := fb.LockMap.set start (CacheLock.mk WriteLock 0) }).set fid
              fb }) fb q (by simp only [CacheState.setR, GoMap.get_set_self]) hq
          (fun k hk1 hk2 => hl k (by omega) (by omega))
      have hmiss : fb.missing start (n + 1) = fb.missing (start + 1) n := by
        rw [FileBuffer.missing_cons, hb]
        simp
      refine ⟨s1, fb1, by rw [hstep]; exact hrun, by rw [hmiss]; exact hch, hfb1, hmap, hpw, hfe,
        by rw [hmiss]; exact hlock, ?_, hF, hL, hw, hp⟩
      intro fid2 hne
      rw [hother fid2 hne]
      simp only [CacheState.setR, GoMap.get_set_ne _ _ hne]
    | none =>
      have hstep : RCache.prefetchLoop fid fe (n + 1) start s =
          RCache.prefetchLoop fid fe n (start + 1)
            { s with rCache := { s.rCache with
                Cache := s.rCache.Cache.set fid
                  { fb with LockMap := fb.LockMap.set start (CacheLock.mk WriteLock 0) }
                chPrefetch := some (q ++ [RWBlockOp.prefetch fe start]) } } := by
        simp only [RCache.prefetchLoop, CacheState.onR, BlockCache.LockBuffer,
          BlockCache.onFileBuf, hfb, FileBuffer.LockBuffer, hl0, bind, Except.bind,
          CacheState.setR, BlockCache.GetBuffer, BlockCache.fileBuf, GoMap.get_set_self,
          FileBuffer.GetBuffer, hb, hq, Option.map_some', RWBlockOp.prefetch]
      obtain ⟨s1, fb1, hrun, hch, hfb1, hmap, hpw, hfe, hlock, hother, hF, hL, hw, hp⟩ :=
        ih (start + 1)
          { s with rCache := { s.rCache with
              Cache := s.rCache.Cache.set fid
                { fb with LockMap := fb.LockMap.set start (CacheLock.mk WriteLock 0) }
              chPrefetch := some (q ++ [RWBlockOp.prefetch fe start]) } }
          (FileBuffer.mk fb.fe fb.BufferMap
            (fb.LockMap.set start (CacheLock.mk WriteLock 0)) fb.pw)
          (q ++ [RWBlockOp.prefetch fe start]) (by simp only [GoMap.get_set_self]) rfl
          (fun k hk1 hk2 => by
            have hne : k ≠ start := by omega
            simp only [GoMap.get_set_ne _ _ hne]
            exact hl k (by omega) (by omega))
      have hmiss : fb.missing start (n + 1) = start :: fb.missing (start + 1) n := by
        rw [FileBuffer.missing_cons, hb]
        simp
      have hsame : (FileBuffer.mk fb.fe fb.BufferMap
          (fb.LockMap.set start (CacheLock.mk WriteLock 0)) fb.pw).missing (start + 1) n =
          fb.missing (start + 1) n := rfl
      rw [hsame] at hch hlock
      refine ⟨s1, fb1, by rw [hstep]; exact hrun, ?_, hfb1, hmap, hpw, hfe, ?_, ?_, hF, hL, hw,
        hp⟩
      · rw [hch, hmiss]
        simp
      · intro k
        rw [hlock k, hmiss]
        by_cases hk : k = start
        · subst hk
          have hnot : k ∉ fb.missing (k + 1) n := by
            rw [FileBuffer.mem_missing]
            omega
          simp [hnot, GoMap.get_set_self]
        · simp [hk, GoMap.get_set_ne _ _ hk]
      · intro fid2 hne
        rw [hother fid2 hne]
        simp only [GoMap.get_set_ne _ _ hne]

/-- The second half of `DoPrefetch`, once the new window `pw` is chosen. -/
theorem RCache.DoPrefetch_round (fid : Nat) (s : CacheState) (fb : FileBuffer)
    (q : List RWBlockOp) (pw : PrefetchWindow)
    (hq : s.rCache.chPrefetch = some q) (hfb : s.rCache.Cache.get fid = some fb)
    (hl : ∀ k, pw.BlkStart ≤ k → k < pw.BlkEnd → fb.LockMap.get k = none) :
    ∃ s1, (do
        let cache1 ← s.rCache.toBlockCache.onFileBuf fid (fun fb => .ok { fb with pw := pw })
        RCache.prefetchLoop fid fb.fe (pw.BlkEnd - pw.BlkStart) pw.BlkStart (s.setR cache1))
          = .ok s1 ∧ RCache.Prefetched fid fb q pw s s1 := by
  obtain ⟨s1, fb1, hrun, hch, hfb1, hmap, hpw, -, hlock, hother, hF, hL, hw, hp⟩ :=
    RCache.prefetchLoop_run fid fb.fe (pw.BlkEnd - pw.BlkStart) pw.BlkStart
      (s.setR { s.rCache.toBlockCache with
        Cache := s.rCache.Cache.set fid (FileBuffer.mk fb.fe fb.BufferMap fb.LockMap pw) })
      (FileBuffer.mk fb.fe fb.BufferMap fb.LockMap pw) q
      (by simp only [CacheState.setR, GoMap.get_set_self]) hq
      (fun k hk1 hk2 => hl k hk1 (by omega))
  refine ⟨s1, ?_, fb1, hfb1, hpw, hch, hmap, hlock, ?_, hF, hL, hw, hp⟩
  · simp only [BlockCache.onFileBuf, hfb, bind, Except.bind]
    exact hrun
  · intro fid2 hne
    rw [hother fid2 hne]
    simp only [CacheState.setR, GoMap.get_set_ne _ _ hne]

theorem PrefetchWindow.Move_eq (pw : PrefetchWindow) (h : pw.BlkStart ≤ pw.BlkEnd)
    (hw : pw.BlkEnd + (pw.BlkEnd - pw.BlkStart) < U64) :
    pw.Move = PrefetchWindow.mk pw.BlkEnd (pw.BlkEnd + (pw.BlkEnd - pw.BlkStart)) := by
  have hstep : (pw.BlkEnd + U64 - pw.BlkStart) % U64 = pw.BlkEnd - pw.BlkStart := by
    have e : pw.BlkEnd + U64 - pw.BlkStart = (pw.BlkEnd - pw.BlkStart) + U64 := by omega
    rw [e, Nat.add_mod_right]
    exact Nat.mod_eq_of_lt (by omega)
  simp only [PrefetchWindow.Move, PrefetchWindow.Shift, hstep]
  have e1 : pw.BlkStart + (pw.BlkEnd - pw.BlkStart) = pw.BlkEnd := by omega
  rw [e1, Nat.mod_eq_of_lt (by omega : pw.BlkEnd < U64), Nat.mod_eq_of_lt hw]

theorem PrefetchWindow.activate_eq (rw : PrefetchWindow) (T : Nat) (h0 : rw.BlkStart = 0)
    (hn : rw.BlkEnd + rw.BlkEnd * T < U64) :
    rw.Move.Extend T = PrefetchWindow.mk rw.BlkEnd (rw.BlkEnd + rw.BlkEnd * T) := by
  have hlt : rw.BlkEnd < U64 := by omega
  have hsize : ((rw.BlkEnd + rw.BlkEnd) % U64 + U64 - rw.BlkEnd) % U64 = rw.BlkEnd := by
    simp only [U64] at hlt ⊢
    omega
  have hstep : (rw.BlkEnd + U64 - 0) % U64 = rw.BlkEnd := by
    simp only [U64] at hlt ⊢
    omega
  simp only [PrefetchWindow.Move, PrefetchWindow.Shift, PrefetchWindow.Extend, h0, hstep,
    Nat.zero_add, Nat.mod_eq_of_lt hlt, hsize, Nat.mod_eq_of_lt hn]

/-- C34 (code defect): `DoPrefetch` fails its own assertion on a read that should leave the
window unchanged. With `PrefetchTimes = 0` the read of five bytes at offset 0 (blocks
`[0, 2)`, block size 4) leaves the empty window `[2, 2)`; the next read, of eight bytes at
offset 4, has the block window `[1, 3)`, which does not start at block 0 and has no block in
common with the window, yet `DoPrefetch` does not leave the window unchanged: it fails
`Assert(fileBuf.pw.Size() > 0)`. -/
theorem C34_empty_window_read_asserts :
    (RWCache.Read sampleEntry [0, 0, 0, 0, 0] 0 samplePrefetch).map
        (fun r => (r.2.rCache.Cache.get 7).map FileBuffer.pw) =
      .ok (some (PrefetchWindow.mk 2 2)) ∧
    (samplePrefetchRead.rCache.Cache.get 7).map FileBuffer.pw = some (PrefetchWindow.mk 2 2) ∧
    RCache.GetReadWindow sampleEntry 8 4 = .ok (PrefetchWindow.mk 1 3) ∧
    (¬ ∃ i, 1 ≤ i ∧ i < 3 ∧ 2 ≤ i ∧ i < 2) ∧
    RCache.DoPrefetch 7 8 4 samplePrefetchRead = .error Fault.assert := by
  refine ⟨rfl, rfl, rfl, ?_, rfl⟩
  rintro ⟨i, -, -, h1, h2⟩
  omega

/-- The cases of `DoPrefetch` on a file buffer `fb` whose read window `rw` is not empty
and has fewer than `2^32` blocks, with `T` the `uint32` value of `PrefetchTimes`.
(1) If `rw` starts at block 0 and `fb.pw.Size()` is 0, the window becomes
`[n, n + n*T)` for `rw = [0, n)`. (2) If the window `[s, e)` has `0 < e - s < 2^32` and the
read window does not start at block 0 on it and crosses it, the window becomes
`[e, e + (e - s))`. In both cases, when no block of the new window is locked and the new
window does not pass `2^64`, exactly the blocks of the new window without cached buffer are
appended to the prefetch channel, in ascending order. (3) If neither case applies and `Cross`
is false, the state is unchanged. (4) If the window is an empty `[x, x)` and the read window
starts after block 0 and has `x` strictly inside, the assertion `pw.Size() > 0` fails.
(5) For a read of `Size` bytes with `1 ≤ Size < 2^32` that does not pass `2^64`, the read
window is `[floor(offset/bs), ceil((offset+Size)/bs))`. -/
theorem C34_prefetch_window (fid Size offset : Nat) (s : CacheState) (fb : FileBuffer)
    (q : List RWBlockOp) (rw : PrefetchWindow)
    (hq : s.rCache.chPrefetch = some q) (hfb : s.rCache.Cache.get fid = some fb)
    (hrw : RCache.GetReadWindow fb.fe Size offset = .ok rw)
    (hne : rw.BlkStart < rw.BlkEnd) (hlt : rw.BlkEnd - rw.BlkStart < U32) :
    (rw.BlkStart = 0 → fb.pw.BlkStart ≤ fb.pw.BlkEnd →
      (fb.pw.BlkEnd - fb.pw.BlkStart) % U32 = 0 →
      rw.BlkEnd + rw.BlkEnd * (s.rCache.PrefetchTimes % U32) < U64 →
      (∀ k, rw.BlkEnd ≤ k → k < rw.BlkEnd + rw.BlkEnd * (s.rCache.PrefetchTimes % U32) →
        fb.LockMap.get k = none) →
      ∃ s1, RCache.DoPrefetch fid Size offset s = .ok s1 ∧
        RCache.Prefetched fid fb q
          (PrefetchWindow.mk rw.BlkEnd
            (rw.BlkEnd + rw.BlkEnd * (s.rCache.PrefetchTimes % U32))) s s1) ∧
    (fb.pw.BlkStart < fb.pw.BlkEnd → fb.pw.BlkEnd - fb.pw.BlkStart < U32 →
      rw.Cross fb.pw = true →
      fb.pw.BlkEnd + (fb.pw.BlkEnd - fb.pw.BlkStart) < U64 →
      (∀ k, fb.pw.BlkEnd ≤ k → k < fb.pw.BlkEnd + (fb.pw.BlkEnd - fb.pw.BlkStart) →
        fb.LockMap.get k = none) →
      ∃ s1, RCache.DoPrefetch fid Size offset s = .ok s1 ∧
        RCache.Prefetched fid fb q
          (PrefetchWindow.mk fb.pw.BlkEnd
            (fb.pw.BlkEnd + (fb.pw.BlkEnd - fb.pw.BlkStart))) s s1) ∧
    ((rw.BlkStart ≠ 0 ∨
        (fb.pw.BlkStart ≤ fb.pw.BlkEnd ∧ (fb.pw.BlkEnd - fb.pw.BlkStart) % U32 ≠ 0)) →
      rw.Cross fb.pw = false → RCache.DoPrefetch fid Size offset s = .ok s) ∧
    (fb.pw.BlkStart = fb.pw.BlkEnd → rw.BlkStart ≠ 0 → rw.BlkStart < fb.pw.BlkStart →
      fb.pw.BlkStart < rw.BlkEnd →
      RCache.DoPrefetch fid Size offset s = .error Fault.assert) ∧
    (1 ≤ Size → Size < U32 → offset + Size + fb.fe.BlockSize - 1 < U64 →
      rw = PrefetchWindow.mk (offset / fb.fe.BlockSize)
        ((offset + Size + fb.fe.BlockSize - 1) / fb.fe.BlockSize)) := by
  have hle : rw.BlkStart ≤ rw.BlkEnd := le_of_lt hne
  have hmod : (rw.BlkEnd - rw.BlkStart) % U32 = rw.BlkEnd - rw.BlkStart :=
    Nat.mod_eq_of_lt hlt
  have hpos : rw.BlkEnd - rw.BlkStart > 0 := by omega
  have hhead : RCache.DoPrefetch fid Size offset s =
      (do
        let first ←
          (if rw.BlkStart = 0 then do
            let pwSize ← fb.pw.Size
            pure (decide (pwSize = 0))
          else pure false)
        let moved ←
          (if first then
            pure (some ((rw.Move).Extend (s.rCache.PrefetchTimes % U32)))
          else if rw.Cross fb.pw then do
            let pwSize ← fb.pw.Size
            Assert (decide (pwSize > 0))
            pure (some fb.pw.Move)
          else pure none)
        match moved with
        | none => pure s
        | some pw =>
          let cache1 ← s.rCache.toBlockCache.onFileBuf fid (fun fb => .ok { fb with pw := pw })
          RCache.prefetchLoop fid fb.fe (pw.BlkEnd - pw.BlkStart) pw.BlkStart
            (s.setR cache1)) := by
    simp only [RCache.DoPrefetch, hq, Option.isSome_some, Assert, if_true, bind, Except.bind,
      BlockCache.fileBuf, hfb, hrw, PrefetchWindow.Size, hle, decide_True, pure, Except.pure,
      hmod, hpos]
  refine ⟨?_, ?_, ?_, ?_, ?_⟩
  · intro h0 hpw1 hpw0 hwrap hl
    obtain ⟨s1, hrun, hpost⟩ := RCache.DoPrefetch_round fid s fb q
      (PrefetchWindow.mk rw.BlkEnd (rw.BlkEnd + rw.BlkEnd * (s.rCache.PrefetchTimes % U32)))
      hq hfb hl
    refine ⟨s1, ?_, hpost⟩
    rw [hhead, ← hrun]
    simp only [h0, if_true, PrefetchWindow.Size, hpw1, decide_True, Assert, bind, Except.bind,
      pure, Except.pure, hpw0, PrefetchWindow.activate_eq rw _ h0 hwrap]
  · intro hpw1 hpw2 hcross hwrap hl
    obtain ⟨s1, hrun, hpost⟩ := RCache.DoPrefetch_round fid s fb q
      (PrefetchWindow.mk fb.pw.BlkEnd (fb.pw.BlkEnd + (fb.pw.BlkEnd - fb.pw.BlkStart)))
      hq hfb hl
    refine ⟨s1, ?_, hpost⟩
    have hple : fb.pw.BlkStart ≤ fb.pw.BlkEnd := le_of_lt hpw1
    have hpmod : (fb.pw.BlkEnd - fb.pw.BlkStart) % U32 = fb.pw.BlkEnd - fb.pw.BlkStart :=
      Nat.mod_eq_of_lt hpw2
    have hppos : fb.pw.BlkEnd - fb.pw.BlkStart > 0 := by omega
    have hpne : ¬ (fb.pw.BlkEnd - fb.pw.BlkStart = 0) := by omega
    rw [hhead, ← hrun]
    by_cases h0 : rw.BlkStart = 0
    · simp only [h0, if_true, PrefetchWindow.Size, hple, decide_True, Assert, bind,
        Except.bind, pure, Except.pure, hpmod, hpne, decide_False, Bool.false_eq_true,
        if_false, hcross, hppos, PrefetchWindow.Move_eq fb.pw hple hwrap]
    · simp only [h0, if_false, PrefetchWindow.Size, hple, decide_True, Assert, bind,
        Except.bind, pure, Except.pure, hpmod, Bool.false_eq_true,
        hcross, if_true, hppos, PrefetchWindow.Move_eq fb.pw hple hwrap]
  · intro hcase hcross
    rw [hhead]
    rcases hcase with h0 | ⟨hple, hpne⟩
    · simp only [h0, if_false, bind, Except.bind, pure, Except.pure, Bool.false_eq_true,
        hcross]
    · by_cases h0 : rw.BlkStart = 0
      · simp only [h0, if_true, PrefetchWindow.Size, hple, decide_True, Assert, bind,
          Except.bind, pure, Except.pure, hpne, decide_False, Bool.false_eq_true, if_false,
          hcross]
      · simp only [h0, if_false, bind, Except.bind, pure, Except.pure, Bool.false_eq_true,
          hcross]
  · intro hempty h0 h1 h2
    have hcross : rw.Cross fb.pw = true := by
      simp only [PrefetchWindow.Cross, Bool.not_eq_true', Bool.or_eq_false_iff,
        decide_eq_false_iff_not, Nat.not_le]
      omega
    rw [hhead]
    simp only [h0, if_false, bind, Except.bind, pure, Except.pure, Bool.false_eq_true,
      hcross, if_true, PrefetchWindow.Size, hempty, le_refl, decide_True, Assert,
      Nat.sub_self, Nat.zero_mod, gt_iff_lt, Nat.lt_irrefl, decide_False]
  · intro _ _ h3
    unfold RCache.GetReadWindow at hrw
    split at hrw
    · cases hrw
    · simp only [Except.ok.injEq] at hrw
      rw [← hrw, Nat.mod_eq_of_lt h3]

theorem C34_prefetch_window_witness :
    (∃ s1, RCache.DoPrefetch 7 4 0 samplePrefetchSixOpen = .ok s1 ∧
      RCache.Prefetched 7 (NewFileBuffer sampleEntry) [] (PrefetchWindow.mk 1 (1 + 1 * (1 % U32)))
        samplePrefetchSixOpen s1) ∧
    (∃ s1, RCache.DoPrefetch 7 4 4 samplePrefetched = .ok s1 ∧
      RCache.Prefetched 7
        (FileBuffer.mk sampleEntry
          ((GoMap.empty : GoMap Buffer).set 1
            (Buffer.mk 0 (some sampleEntry) 1 0 4 [5, 6, 0, 0] 0 true))
          GoMap.empty (PrefetchWindow.mk 1 2))
        [] (PrefetchWindow.mk 2 (2 + (2 - 1))) samplePrefetched s1) ∧
    RCache.DoPrefetch 7 4 8 samplePrefetchSixOpen = .ok samplePrefetchSixOpen :=
  ⟨(C34_prefetch_window 7 4 0 samplePrefetchSixOpen (NewFileBuffer sampleEntry) []
      (PrefetchWindow.mk 0 1) rfl rfl rfl (by decide) (by decide)).1 rfl (by decide)
      (by decide) (by decide) (fun _ _ _ => rfl),
    (C34_prefetch_window 7 4 4 samplePrefetched
      (FileBuffer.mk sampleEntry
        ((GoMap.empty : GoMap Buffer).set 1
          (Buffer.mk 0 (some sampleEntry) 1 0 4 [5, 6, 0, 0] 0 true))
        GoMap.empty (PrefetchWindow.mk 1 2)) []
      (PrefetchWindow.mk 1 2) rfl rfl rfl (by decide) (by decide)).2.1 (by decide) (by decide)
      rfl (by decide) (fun _ _ _ => rfl),
    (C34_prefetch_window 7 4 8 samplePrefetchSixOpen (NewFileBuffer sampleEntry) []
      (PrefetchWindow.mk 2 3) rfl rfl rfl (by decide) (by decide)).2.2.1
      (Or.inl (by decide)) rfl⟩

/-! ## C40: the LRU list is ordered by age -/

theorem BlockCache.places_ids_nodup {bs m : Nat} {c : BlockCache} (hs : c.Sound bs m) :
    (c.places.map (fun t => t.2.2.Id)).Nodup := by
  have hnd : ((c.FreeList ++ c.attached).map Buffer.Id).Nodup :=
    hs.pool.pool.nodup_iff.mpr (List.nodup_range m)
  rw [List.map_append] at hnd
  have h2 := (List.nodup_append.mp hnd).2.1
  rw [← c.places_buffers, List.map_map] at h2
  exact h2

theorem BlockCache.Holds.iff_places {bs m : Nat} {c : BlockCache} (hs : c.Sound bs m)
    (i : Nat) (b : Buffer) :
    c.Holds i b ↔ ∃ fid idx, (fid, idx, b) ∈ c.places ∧ b.Id = i := by
  constructor
  · rintro ⟨fid, fb, idx, hfb, hb, hid⟩
    exact ⟨fid, idx, (BlockCache.mem_places hs fid idx b).mpr ⟨fb, hfb, hb⟩, hid⟩
  · rintro ⟨fid, idx, hmem, hid⟩
    obtain ⟨fb, hfb, hb⟩ := (BlockCache.mem_places hs fid idx b).mp hmem
    exact ⟨fid, fb, idx, hfb, hb, hid⟩

/-- In a sound core a pool id is attached at one place only. -/
theorem BlockCache.Sound.one_place {bs m : Nat} {c : BlockCache} (hs : c.Sound bs m)
    {fid fid2 idx idx2 : Nat} {fb fb2 : FileBuffer} {b b2 : Buffer}
    (hfb : c.Cache.get fid = some fb) (hb : fb.BufferMap.get idx = some b)
    (hfb2 : c.Cache.get fid2 = some fb2) (hb2 : fb2.BufferMap.get idx2 = some b2)
    (hid : b.Id = b2.Id) : fid = fid2 ∧ idx = idx2 ∧ b = b2 := by
  have h1 := (BlockCache.mem_places hs fid idx b).mpr ⟨fb, hfb, hb⟩
  have h2 := (BlockCache.mem_places hs fid2 idx2 b2).mpr ⟨fb2, hfb2, hb2⟩
  have hinj := List.inj_on_of_nodup_map (BlockCache.places_ids_nodup hs) h1 h2 hid
  simp only [Prod.mk.injEq] at hinj
  exact hinj

theorem BlockCache.findBuffer_of_mem_lru {bs m : Nat} {c : BlockCache} (hs : c.Sound bs m)
    {i : Nat} (hi : i ∈ c.LruList) :
    ∃ fid idx b, c.findBuffer i = some (fid, idx, b) ∧ c.Holds i b ∧ b.elm = true := by
  obtain ⟨t, ht, hid, helm⟩ := hs.conservation.2.2.2.2.1 i hi
  cases hf : c.findBuffer i with
  | none =>
    unfold BlockCache.findBuffer at hf
    rw [List.find?_eq_none] at hf
    have := hf t ht
    simp [hid] at this
  | some w =>
    obtain ⟨fid, idx, b⟩ := w
    obtain ⟨fb, hfb, hb, hbid⟩ := BlockCache.findBuffer_some hs hf
    obtain ⟨tf, ti, tb⟩ := t
    obtain ⟨fbt, hfbt, hbt⟩ := (BlockCache.mem_places hs tf ti tb).mp ht
    have hsame := hs.one_place hfb hb hfbt hbt (by rw [hbid]; exact hid.symm)
    refine ⟨fid, idx, b, rfl, ⟨fid, fb, idx, hfb, hb, hbid⟩, ?_⟩
    rw [hsame.2.2]
    exact helm

/-- The attached buffers after the buffer of one block is replaced by one with the same
pool id. -/
theorem BlockCache.Holds.of_update {bs m : Nat} {c c1 : BlockCache} (hs : c.Sound bs m)
    {fid idx : Nat} {fb : FileBuffer} {b0 b1 : Buffer}
    (hfb : c.Cache.get fid = some fb) (hb0 : fb.BufferMap.get idx = some b0)
    (hid : b1.Id = b0.Id)
    (hc : c1.Cache = c.Cache.set fid (FileBuffer.mk fb.fe (fb.BufferMap.set idx b1)
      fb.LockMap fb.pw))
    {i : Nat} {x : Buffer} (h : c1.Holds i x) :
    (x = b1 ∧ i = b0.Id) ∨ (i ≠ b0.Id ∧ c.Holds i x) := by
  obtain ⟨fid2, fb2, idx2, hfb2, hb2, hxid⟩ := h
  rw [hc, GoMap.get_set] at hfb2
  split at hfb2
  · next hf =>
    subst hf
    simp only [Option.some.injEq] at hfb2
    subst hfb2
    simp only [GoMap.get_set] at hb2
    split at hb2
    · next hi =>
      simp only [Option.some.injEq] at hb2
      subst hb2
      exact Or.inl ⟨rfl, by rw [← hxid, hid]⟩
    · next hi =>
      refine Or.inr ⟨?_, fid2, fb, idx2, hfb, hb2, hxid⟩
      intro he
      have := hs.one_place hfb hb2 hfb hb0 (by rw [hxid, he])
      exact hi this.2.1
  · next hf =>
    refine Or.inr ⟨?_, fid2, fb2, idx2, hfb2, hb2, hxid⟩
    intro he
    have := hs.one_place hfb2 hb2 hfb hb0 (by rw [hxid, he])
    exact hf this.1

/-- The age order survives when one attached buffer leaves the LRU list, and when it goes
to the front with the clock reading as its time. -/
theorem BlockCache.Aged.relist {bs m t : Nat} {c c1 : BlockCache} (hs : c.Sound bs m)
    (ha : c.Aged t) {fid idx : Nat} {fb : FileBuffer} {b0 b1 : Buffer}
    (hfb : c.Cache.get fid = some fb) (hb0 : fb.BufferMap.get idx = some b0)
    (hid : b1.Id = b0.Id)
    (hc : c1.Cache = c.Cache.set fid (FileBuffer.mk fb.fe (fb.BufferMap.set idx b1)
      fb.LockMap fb.pw))
    (hl : c1.LruList = c.LruList.erase b0.Id ∨
      (c1.LruList = b0.Id :: c.LruList.erase b0.Id ∧ b1.LastUpdateTime = t)) :
    c1.Aged t := by
  have hnd : c.LruList.Nodup := hs.pool.lru
  have hold : ∀ i x, i ≠ b0.Id → c1.Holds i x → c.Holds i x := by
    intro i x hne h
    rcases BlockCache.Holds.of_update hs hfb hb0 hid hc h with ⟨-, he⟩ | ⟨-, h2⟩
    · exact absurd he hne
    · exact h2
  have hnew : ∀ x, c1.Holds b0.Id x → x = b1 := by
    intro x h
    rcases BlockCache.Holds.of_update hs hfb hb0 hid hc h with ⟨he, -⟩ | ⟨hne, -⟩
    · exact he
    · exact absurd rfl hne
  have htail : (c.LruList.erase b0.Id).Pairwise (fun i j =>
      ∀ bi bj, c1.Holds i bi → c1.Holds j bj → bj.LastUpdateTime ≤ bi.LastUpdateTime) := by
    refine List.Pairwise.imp_of_mem ?_ (ha.sorted.sublist (List.erase_sublist _ _))
    intro i j hi hj hR bi bj hbi hbj
    exact hR bi bj (hold i bi (hnd.mem_erase_iff.mp hi).1 hbi)
      (hold j bj (hnd.mem_erase_iff.mp hj).1 hbj)
  have hbound : ∀ i ∈ c.LruList.erase b0.Id, ∀ b, c1.Holds i b → b.LastUpdateTime ≤ t := by
    intro i hi b hb
    have hm := hnd.mem_erase_iff.mp hi
    exact ha.bounded i hm.2 b (hold i b hm.1 hb)
  rcases hl with hl | ⟨hl, ht⟩
  · refine ⟨?_, ?_⟩
    · rw [hl]
      exact htail
    · rw [hl]
      exact hbound
  · refine ⟨?_, ?_⟩
    · rw [hl, List.pairwise_cons]
      refine ⟨?_, htail⟩
      intro j hj bi bj hbi hbj
      rw [hnew bi hbi, ht]
      exact hbound j hj bj hbj
    · rw [hl]
      intro i hi b hb
      rcases List.mem_cons.mp hi with he | hi2
      · subst he
        rw [hnew b hb, ht]
      · exact hbound i hi2 b hb

theorem BlockCache.Sound.linked_iff {bs m : Nat} {c : BlockCache} (hs : c.Sound bs m)
    {fid idx : Nat} {fb : FileBuffer} {b : Buffer}
    (hfb : c.Cache.get fid = some fb) (hb : fb.BufferMap.get idx = some b) :
    b.elm = true ↔ b.Id ∈ c.LruList := by
  have hmem : (fid, idx, b) ∈ c.places := (BlockCache.mem_places hs fid idx b).mpr ⟨fb, hfb, hb⟩
  have hatt : b ∈ c.attached := by
    rw [← c.places_buffers]
    exact List.mem_map.mpr ⟨(fid, idx, b), hmem, rfl⟩
  exact hs.pool.linked b hatt

theorem BlockCache.DoLru_fronts {bs m : Nat} {c : BlockCache} (hs : c.Sound bs m)
    {fid idx : Nat} {fb : FileBuffer} {b : Buffer}
    (hfb : c.Cache.get fid = some fb) (hb : fb.BufferMap.get idx = some b) (t : Nat) :
    (c.DoLru b t).2.LruList = b.Id :: c.LruList.erase b.Id ∧
      (c.DoLru b t).1.LastUpdateTime = t ∧ (c.DoLru b t).1.Id = b.Id := by
  unfold BlockCache.DoLru
  split
  · exact ⟨rfl, rfl, rfl⟩
  · next helm =>
    have hnot : b.Id ∉ c.LruList := fun hin => helm ((hs.linked_iff hfb hb).mpr hin)
    refine ⟨?_, rfl, rfl⟩
    rw [List.erase_of_not_mem hnot]

theorem BlockCache.RemoveLru_erases {bs m : Nat} {c : BlockCache} (hs : c.Sound bs m)
    {fid idx : Nat} {fb : FileBuffer} {b : Buffer}
    (hfb : c.Cache.get fid = some fb) (hb : fb.BufferMap.get idx = some b) :
    (c.RemoveLru b).2.LruList = c.LruList.erase b.Id ∧ (c.RemoveLru b).1.Id = b.Id ∧
      (c.RemoveLru b).1.elm = false ∧
      (c.RemoveLru b).1.LastUpdateTime = b.LastUpdateTime := by
  unfold BlockCache.RemoveLru
  split
  · exact ⟨rfl, rfl, rfl, rfl⟩
  · next helm =>
    have hnot : b.Id ∉ c.LruList := fun hin => helm ((hs.linked_iff hfb hb).mpr hin)
    refine ⟨?_, rfl, by simpa using helm, rfl⟩
    rw [List.erase_of_not_mem hnot]

theorem BlockCache.linked_eq_relink (c : BlockCache) (fid idx : Nat) (fb : FileBuffer)
    (b : Buffer) (t : Nat) :
    c.linked fid idx fb b t =
      (c.RemoveLru b).2.linked fid idx fb
        (Buffer.mk b.Id b.fe b.BlkIdx b.Offset b.Len b.dataBuf b.LastUpdateTime false) t := by
  cases helm : b.elm with
  | true =>
    simp only [BlockCache.linked, BlockCache.DoLru, BlockCache.RemoveLru, helm, if_true,
      Bool.false_eq_true, if_false]
  | false =>
    simp only [BlockCache.linked, BlockCache.DoLru, BlockCache.RemoveLru, helm,
      Bool.false_eq_true, if_false]

/-- What `LruExpire` does in a sound core: either nothing is returned and the core is
unchanged (the list is empty or its back buffer is young), or the back buffer is unlinked
and its place is returned; the returned buffer is expired. -/
theorem BlockCache.LruExpire_cases {bs m : Nat} {c c1 : BlockCache} {now : Nat}
    {r : Option FileEntry × Nat} (hs : c.Sound bs m) (h : c.LruExpire now = .ok (r, c1)) :
    (r.1 = none ∧ c1 = c ∧
      (c.LruList = [] ∨ ∃ i, c.LruList.getLast? = some i ∧
        now - c.timeOf i < 1000000 * c.ExpireTime)) ∨
    (∃ fid idx fb b, c.Cache.get fid = some fb ∧ fb.BufferMap.get idx = some b ∧
      c.LruList.getLast? = some b.Id ∧ b.elm = true ∧
      1000000 * c.ExpireTime ≤ now - b.LastUpdateTime ∧
      r = (b.fe, b.BlkIdx) ∧ r.1 ≠ none ∧
      c1.Cache = c.Cache.set fid (FileBuffer.mk fb.fe
        (fb.BufferMap.set idx
          (Buffer.mk b.Id b.fe b.BlkIdx b.Offset b.Len b.dataBuf b.LastUpdateTime false))
        fb.LockMap fb.pw) ∧
      c1.LruList = c.LruList.erase b.Id) := by
  unfold BlockCache.LruExpire at h
  split at h
  · next hlast =>
    cases h
    exact Or.inl ⟨rfl, rfl, Or.inl (List.getLast?_eq_none_iff.mp hlast)⟩
  · next i hlast =>
    split at h
    · cases h
    · rename_i fid idx b hfind
      obtain ⟨fb, hfb, hb, hbid⟩ := BlockCache.findBuffer_some hs hfind
      obtain ⟨_, helm, h⟩ := (Except.bind_eq_ok_iff _ _ _).mp h
      rw [Assert_eq_ok_iff] at helm
      split at h
      · next hyoung =>
        cases h
        refine Or.inl ⟨rfl, rfl, Or.inr ⟨i, hlast, ?_⟩⟩
        simp only [BlockCache.timeOf, hfind]
        exact hyoung
      · next hold =>
        have hc0 : (BlockCache.mk c.BufferMax c.FreeList c.Cache (c.LruList.erase b.Id)
            c.ExpireTime c.Stop).Cache.get fid = some fb := hfb
        rw [BlockCache.putBuffer_run _ idx _ hc0] at h
        simp only [bind, Except.bind, pure, Except.pure, Except.ok.injEq, Prod.mk.injEq] at h
        obtain ⟨hfit, -, -⟩ := hs.fits fid fb idx b hfb hb
        obtain ⟨fe, hfe, -⟩ := hfit
        refine Or.inr ⟨fid, idx, fb, b, hfb, hb, by rw [hbid]; exact hlast, helm,
          Nat.le_of_not_lt hold, h.1.symm, ?_, ?_, ?_⟩
        · rw [← h.1, hfe]
          simp
        · rw [← h.2]
          rfl
        · rw [← h.2]
          rfl

theorem BlockCache.LruReach.invariant {bs m t : Nat} {c : BlockCache}
    (h : BlockCache.LruReach bs m t c) : c.Sound bs m ∧ c.Aged t := by
  induction h with
  | start c t hs hl =>
    refine ⟨hs, ?_, ?_⟩
    · rw [hl]
      exact List.Pairwise.nil
    · rw [hl]
      intro i hi
      cases hi
  | tick c t t1 _ hle ih =>
    exact ⟨ih.1, ih.2.sorted, fun i hi b hb => le_trans (ih.2.bounded i hi b hb) hle⟩
  | doLru c t fid idx fb b _ hfb hb ih =>
    obtain ⟨hl, ht, hid⟩ := BlockCache.DoLru_fronts ih.1 hfb hb t
    refine ⟨?_, ?_⟩
    · rw [BlockCache.linked_eq_relink]
      exact BlockCache.Move.keeps_sound ih.1
        (BlockCache.Move.relink c fid idx fb b _ t hfb hb rfl rfl (fun hf => hf.unlinked))
    · refine BlockCache.Aged.relist ih.1 ih.2 hfb hb hid ?_ (Or.inr ⟨?_, ht⟩)
      · simp only [BlockCache.linked, BlockCache.withBuffer, BlockCache.DoLru_Cache]
      · simp only [BlockCache.linked, BlockCache.withBuffer]
        exact hl
  | removeLru c t fid idx fb b _ hfb hb ih =>
    obtain ⟨hl, hid, helm, -⟩ := BlockCache.RemoveLru_erases ih.1 hfb hb
    refine ⟨?_, ?_⟩
    · refine BlockCache.Move.keeps_sound ih.1
        (BlockCache.Move.park c fid idx fb b _ hfb hb hid helm ?_)
      intro hf
      unfold BlockCache.RemoveLru
      split
      · exact hf.unlinked
      · exact hf
    · refine BlockCache.Aged.relist ih.1 ih.2 hfb hb hid ?_ (Or.inl ?_)
      · simp only [BlockCache.withBuffer, BlockCache.RemoveLru_Cache]
      · simp only [BlockCache.withBuffer]
        exact hl
  | lruExpire c t r c1 _ hx ih =>
    refine ⟨ih.1.moves (BlockCache.LruExpire_moved ih.1 hx), ?_⟩
    rcases BlockCache.LruExpire_cases ih.1 hx with ⟨-, hc, -⟩ | ⟨fid, idx, fb, b, hfb, hb, -, -,
      -, -, -, hc, hl⟩
    · rw [hc]
      exact ih.2
    · have hid : (Buffer.mk b.Id b.fe b.BlkIdx b.Offset b.Len b.dataBuf b.LastUpdateTime
          false).Id = b.Id := rfl
      exact BlockCache.Aged.relist ih.1 ih.2 hfb hb hid hc (Or.inl hl)

theorem List.mem_of_getLast_some {l : List Nat} {z : Nat} (h : l.getLast? = some z) :
    z ∈ l := by
  induction l with
  | nil => cases h
  | cons a rest ih =>
    cases rest with
    | nil =>
      simp only [List.getLast?_singleton, Option.some.injEq] at h
      simp [h]
    | cons b rest2 =>
      rw [List.getLast?_cons_cons] at h
      exact List.mem_cons_of_mem _ (ih h)

theorem BlockCache.LruExpire_returns {bs m : Nat} {c : BlockCache} (hs : c.Sound bs m)
    (now : Nat) : ∃ r c1, c.LruExpire now = .ok (r, c1) := by
  unfold BlockCache.LruExpire
  cases hlast : c.LruList.getLast? with
  | none => exact ⟨_, _, rfl⟩
  | some i =>
    obtain ⟨fid, idx, b, hfind, -, helm⟩ :=
      BlockCache.findBuffer_of_mem_lru hs (List.mem_of_getLast_some hlast)
    obtain ⟨fb1, hfb1, -, -⟩ := BlockCache.findBuffer_some hs hfind
    simp only [hfind, helm, Assert, if_true, bind, Except.bind]
    by_cases hy : now - b.LastUpdateTime < 1000000 * c.ExpireTime
    · rw [if_pos hy]
      exact ⟨_, _, rfl⟩
    · rw [if_neg hy]
      have hc0 : (BlockCache.mk c.BufferMax c.FreeList c.Cache (c.LruList.erase b.Id)
          c.ExpireTime c.Stop).Cache.get fid = some fb1 := hfb1
      rw [BlockCache.putBuffer_run _ idx _ hc0]
      exact ⟨_, _, rfl⟩

theorem List.Pairwise.ge_getLast {l : List Nat} (h : l.Pairwise (fun a b => b ≤ a)) {z : Nat}
    (hz : l.getLast? = some z) : ∀ x ∈ l, z ≤ x := by
  induction l with
  | nil => cases hz
  | cons a rest ih =>
    intro x hx
    rw [List.pairwise_cons] at h
    cases rest with
    | nil =>
      simp only [List.getLast?_singleton, Option.some.injEq] at hz
      simp only [List.mem_singleton] at hx
      omega
    | cons b rest2 =>
      rw [List.getLast?_cons_cons] at hz
      rcases List.mem_cons.mp hx with rfl | hx2
      · exact h.1 z (List.mem_of_getLast_some hz)
      · exact ih h.2 hz x hx2

theorem BlockCache.Aged.times {bs m t : Nat} {c : BlockCache} (hs : c.Sound bs m)
    (ha : c.Aged t) :
    c.lruTimes.Pairwise (fun a b => b ≤ a) ∧ ∀ x ∈ c.lruTimes, x ≤ t := by
  have htime : ∀ i ∈ c.LruList, ∃ b, c.Holds i b ∧ c.timeOf i = b.LastUpdateTime := by
    intro i hi
    obtain ⟨fid, idx, b, hfind, hh, -⟩ := BlockCache.findBuffer_of_mem_lru hs hi
    exact ⟨b, hh, by simp only [BlockCache.timeOf, hfind]⟩
  refine ⟨?_, ?_⟩
  · unfold BlockCache.lruTimes
    rw [List.pairwise_map]
    refine List.Pairwise.imp_of_mem ?_ ha.sorted
    intro i j hi hj hR
    obtain ⟨bi, hbi, ei⟩ := htime i hi
    obtain ⟨bj, hbj, ej⟩ := htime j hj
    rw [ei, ej]
    exact hR bi bj hbi hbj
  · intro x hx
    unfold BlockCache.lruTimes at hx
    obtain ⟨i, hi, rfl⟩ := List.mem_map.mp hx
    obtain ⟨b, hb, e⟩ := htime i hi
    rw [e]
    exact ha.bounded i hi b hb

/-- C40: in every cache core that `DoLru`, `RemoveLru` and `LruExpire` reach while the clock
does not go back (clock reading `t`), the `LastUpdateTime` values along the LRU list do not
increase from front to back and none lies after `t`. `LruExpire` returns at every clock
reading `now`; when it returns nothing the core is unchanged and no buffer of the list is
expired (`now - LastUpdateTime < ExpireTime` for each); when it returns a place, that is the
place of the attached buffer at the back of the list, this buffer is expired
(`now - LastUpdateTime ≥ ExpireTime`, in nanoseconds) and it has left the list. -/
theorem C40_lru_ordered_by_age (bs m t : Nat) (c : BlockCache)
    (h : BlockCache.LruReach bs m t c) :
    c.lruTimes.Pairwise (fun a b => b ≤ a) ∧ (∀ x ∈ c.lruTimes, x ≤ t) ∧
    ∀ now, (∃ r c1, c.LruExpire now = .ok (r, c1)) ∧
      ∀ r c1, c.LruExpire now = .ok (r, c1) →
        (r.1 = none → c1 = c ∧ ∀ x ∈ c.lruTimes, now - x < 1000000 * c.ExpireTime) ∧
        (r.1 ≠ none → ∃ fid idx fb b, c.Cache.get fid = some fb ∧
          fb.BufferMap.get idx = some b ∧ c.LruList.getLast? = some b.Id ∧
          r = (b.fe, b.BlkIdx) ∧ 1000000 * c.ExpireTime ≤ now - b.LastUpdateTime ∧
          b.Id ∉ c1.LruList) := by
  obtain ⟨hs, ha⟩ := h.invariant
  obtain ⟨hsorted, hbound⟩ := ha.times hs
  refine ⟨hsorted, hbound, fun now => ⟨BlockCache.LruExpire_returns hs now, ?_⟩⟩
  intro r c1 hx
  rcases BlockCache.LruExpire_cases hs hx with ⟨hr, hc, hcase⟩ | ⟨fid, idx, fb, b, hfb, hb,
    hlast, -, hold, hr, hne, -, hl⟩
  · refine ⟨fun _ => ⟨hc, ?_⟩, fun hne => absurd hr hne⟩
    intro x hxm
    rcases hcase with hnil | ⟨i, hlast, hyoung⟩
    · simp only [BlockCache.lruTimes, hnil, List.map_nil] at hxm
      cases hxm
    · have hz : c.lruTimes.getLast? = some (c.timeOf i) := by
        simp only [BlockCache.lruTimes, List.getLast?_map, hlast, Option.map_some']
      have := List.Pairwise.ge_getLast hsorted hz x hxm
      omega
  · refine ⟨fun hnone => absurd hnone hne, fun _ => ⟨fid, idx, fb, b, hfb, hb, hlast, hr, hold,
      ?_⟩⟩
    rw [hl]
    intro hin
    exact (hs.pool.lru.mem_erase_iff.mp hin).1 rfl

theorem sampleUnlinkedCore_sound : sampleUnlinkedCore.Sound 4 2 := by
  have hs := sampleDirty_reachable.sound.1.1
  obtain ⟨r, c1, hx⟩ := BlockCache.LruExpire_returns hs 1000000000
  have hdef : sampleUnlinkedCore = c1 := by
    unfold sampleUnlinkedCore
    rw [hx]
  rw [hdef]
  exact hs.moves (BlockCache.LruExpire_moved hs hx)

theorem C40_lru_ordered_by_age_witness :
    (sampleUnlinkedCore.linked 7 0
      (FileBuffer.mk sampleEntry
        ((GoMap.empty : GoMap Buffer).set 0
          (Buffer.mk 0 (some sampleEntry) 0 0 2 [1, 2, 0, 0] 0 false))
        GoMap.empty NewPrefetchWindow)
      (Buffer.mk 0 (some sampleEntry) 0 0 2 [1, 2, 0, 0] 0 false) 5).lruTimes.Pairwise
        (fun a b => b ≤ a) ∧
    (sampleUnlinkedCore.linked 7 0
      (FileBuffer.mk sampleEntry
        ((GoMap.empty : GoMap Buffer).set 0
          (Buffer.mk 0 (some sampleEntry) 0 0 2 [1, 2, 0, 0] 0 false))
        GoMap.empty NewPrefetchWindow)
      (Buffer.mk 0 (some sampleEntry) 0 0 2 [1, 2, 0, 0] 0 false) 5).lruTimes = [5] :=
  ⟨(C40_lru_ordered_by_age 4 2 9 _
      (BlockCache.LruReach.tick _ 5 9
        (BlockCache.LruReach.doLru sampleUnlinkedCore 5 7 0 _ _
          (BlockCache.LruReach.start sampleUnlinkedCore 5 sampleUnlinkedCore_sound rfl)
          rfl rfl) (by decide))).1, rfl⟩

/-! ## C39: the assertions of `DoPrefetch` -/

/-- The loop of `DoPrefetch` either waits for a locked block or returns; it fails no
assertion, and it leaves the window, the file entry and the configuration alone. -/
theorem RCache.prefetchLoop_outcome (fid : Nat) (fe : FileEntry) :
    ∀ (n start : Nat) (s : CacheState) (fb : FileBuffer),
      s.rCache.Cache.get fid = some fb → s.rCache.chPrefetch.isSome = true →
      RCache.prefetchLoop fid fe n start s = .error Fault.blocked ∨
      ∃ s1 fb1, RCache.prefetchLoop fid fe n start s = .ok s1 ∧
        s1.rCache.Cache.get fid = some fb1 ∧ fb1.pw = fb.pw ∧ fb1.fe = fb.fe ∧
        s1.rCache.PrefetchTimes = s.rCache.PrefetchTimes ∧
        s1.rCache.chPrefetch.isSome = true := by
  intro n
  induction n with
  | zero =>
    intro start s fb hfb hq
    exact Or.inr ⟨s, fb, rfl, hfb, rfl, rfl, rfl, hq⟩
  | succ n ih =>
    intro start s fb hfb hq
    obtain ⟨q, hq2⟩ := Option.isSome_iff_exists.mp hq
    cases hl0 : fb.LockMap.get start with
    | some v =>
      left
      simp only [RCache.prefetchLoop, CacheState.onR, BlockCache.LockBuffer,
        BlockCache.onFileBuf, hfb, FileBuffer.LockBuffer, hl0, bind, Except.bind]
    | none =>
      cases hb : fb.BufferMap.get start with
      | some b =>
        have hstep : RCache.prefetchLoop fid fe (n + 1) start s =
            RCache.prefetchLoop fid fe n (start + 1) (s.setR { s.rCache.toBlockCache with
              Cache := (s.rCache.Cache.set fid
                { fb with LockMap := fb.LockMap.set start (CacheLock.mk WriteLock 0) }).set fid
                fb }) := by
          simp only [RCache.prefetchLoop, CacheState.onR, BlockCache.LockBuffer,
            BlockCache.onFileBuf, hfb, FileBuffer.LockBuffer, hl0, bind, Except.bind,
            CacheState.setR, BlockCache.GetBuffer, BlockCache.fileBuf, GoMap.get_set_self,
            FileBuffer.GetBuffer, hb, BlockCache.UnLockBuffer, FileBuffer.UnLockBuffer, Assert,
            decide_True, Bool.and_self, if_true, pure, Except.pure,
            GoMap.del_set_of_get_none _ _ hl0]
        rw [hstep]
        exact ih (start + 1) _ fb (by simp only [CacheState.setR, GoMap.get_set_self]) hq
      | none =>
        have hstep : RCache.prefetchLoop fid fe (n + 1) start s =
            RCache.prefetchLoop fid fe n (start + 1)
              { s with rCache := { s.rCache with
                  Cache := s.rCache.Cache.set fid
                    { fb with LockMap := fb.LockMap.set start (CacheLock.mk WriteLock 0) }
                  chPrefetch := some (q ++ [RWBlockOp.prefetch fe start]) } } := by
          simp only [RCache.prefetchLoop, CacheState.onR, BlockCache.LockBuffer,
            BlockCache.onFileBuf, hfb, FileBuffer.LockBuffer, hl0, bind, Except.bind,
            CacheState.setR, BlockCache.GetBuffer, BlockCache.fileBuf, GoMap.get_set_self,
            FileBuffer.GetBuffer, hb, hq2, Option.map_some', RWBlockOp.prefetch]
        rw [hstep]
        exact ih (start + 1) _ (FileBuffer.mk fb.fe fb.BufferMap
          (fb.LockMap.set start (CacheLock.mk WriteLock 0)) fb.pw)
          (by simp only [GoMap.get_set_self]) rfl

theorem readWindow_nonempty (bs offset Size : Nat) (hbs : 0 < bs)
    (h1 : Size = 0 → offset % bs ≠ 0) :
    offset / bs < (offset + Size + bs - 1) / bs := by
  have hmod := Nat.mod_add_div offset bs
  have hle : (offset / bs + 1) * bs ≤ offset + Size + bs - 1 := by
    have e : (offset / bs + 1) * bs = bs * (offset / bs) + bs := by ring
    rw [e]
    by_cases hz : Size = 0
    · have := h1 hz
      omega
    · omega
  exact (Nat.le_div_iff_mul_le hbs).mpr hle

theorem readWindow_aligned (bs offset : Nat) (hbs : 0 < bs) (h : offset % bs = 0) :
    (offset + 0 + bs - 1) / bs = offset / bs := by
  have hmod := Nat.mod_add_div offset bs
  rw [h, Nat.zero_add] at hmod
  have e : offset + 0 + bs - 1 = (bs - 1) + bs * (offset / bs) := by omega
  rw [e, Nat.add_mul_div_left _ _ hbs, Nat.div_eq_of_lt (by omega)]
  omega

/-- The read window of a read in range: not empty, fewer than `2^32` blocks, ends at `M` at
the latest. -/
theorem RCache.ReadInRange.window {M : Nat} {fe : FileEntry} {Size offset : Nat}
    (hbs : fe.BlockSize ≠ 0) (hr : RCache.ReadInRange M fe Size offset) :
    ∃ rw, RCache.GetReadWindow fe Size offset = .ok rw ∧ rw.BlkStart < rw.BlkEnd ∧
      rw.BlkEnd - rw.BlkStart < U32 ∧ rw.BlkEnd ≤ M := by
  obtain ⟨h0, h2, h3, h4⟩ := hr
  have hpos : 0 < fe.BlockSize := Nat.pos_of_ne_zero hbs
  refine ⟨PrefetchWindow.mk (offset / fe.BlockSize)
    ((offset + Size + fe.BlockSize - 1) / fe.BlockSize), ?_, ?_, ?_, h4⟩
  · simp only [RCache.GetReadWindow, hbs, if_false, Nat.mod_eq_of_lt h3]
  · exact readWindow_nonempty fe.BlockSize offset Size hpos h0
  · show (offset + Size + fe.BlockSize - 1) / fe.BlockSize - offset / fe.BlockSize < U32
    by_cases hz : Size = 0
    · subst hz
      have hle : (offset + 0 + fe.BlockSize - 1) / fe.BlockSize ≤
          (offset + fe.BlockSize) / fe.BlockSize := Nat.div_le_div_right (by omega)
      rw [Nat.add_div_right _ hpos] at hle
      have : (1 : Nat) < U32 := by decide
      omega
    · have := (readWindow_count fe.BlockSize offset Size hpos (by omega)).2
      omega

/-- The first half of `DoPrefetch` for a read window that passes its assertion. -/
theorem RCache.DoPrefetch_head (fid Size offset : Nat) (s : CacheState) (fb : FileBuffer)
    (rw : PrefetchWindow) (hq : s.rCache.chPrefetch.isSome = true)
    (hfb : s.rCache.Cache.get fid = some fb)
    (hrw : RCache.GetReadWindow fb.fe Size offset = .ok rw)
    (hne : rw.BlkStart < rw.BlkEnd) (hlt : rw.BlkEnd - rw.BlkStart < U32) :
    RCache.DoPrefetch fid Size offset s =
      (do
        let first ←
          (if rw.BlkStart = 0 then do
            let pwSize ← fb.pw.Size
            pure (decide (pwSize = 0))
          else pure false)
        let moved ←
          (if first then
            pure (some ((rw.Move).Extend (s.rCache.PrefetchTimes % U32)))
          else if rw.Cross fb.pw then do
            let pwSize ← fb.pw.Size
            Assert (decide (pwSize > 0))
            pure (some fb.pw.Move)
          else pure none)
        match moved with
        | none => pure s
        | some pw =>
          let cache1 ← s.rCache.toBlockCache.onFileBuf fid (fun fb => .ok { fb with pw := pw })
          RCache.prefetchLoop fid fb.fe (pw.BlkEnd - pw.BlkStart) pw.BlkStart
            (s.setR cache1)) := by
  have hle : rw.BlkStart ≤ rw.BlkEnd := le_of_lt hne
  have hmod : (rw.BlkEnd - rw.BlkStart) % U32 = rw.BlkEnd - rw.BlkStart :=
    Nat.mod_eq_of_lt hlt
  have hpos : rw.BlkEnd - rw.BlkStart > 0 := by omega
  simp only [RCache.DoPrefetch, hq, Assert, if_true, bind, Except.bind,
    BlockCache.fileBuf, hfb, hrw, PrefetchWindow.Size, hle, decide_True, pure, Except.pure,
    hmod, hpos]

/-- The second half of `DoPrefetch` with the new window `pw`: it waits for a locked block or
returns with `pw` as the window of the file. -/
theorem RCache.DoPrefetch_tail (fid : Nat) (s : CacheState) (fb : FileBuffer)
    (pw : PrefetchWindow) (hq : s.rCache.chPrefetch.isSome = true)
    (hfb : s.rCache.Cache.get fid = some fb) :
    (do
      let cache1 ← s.rCache.toBlockCache.onFileBuf fid (fun fb => .ok { fb with pw := pw })
      RCache.prefetchLoop fid fb.fe (pw.BlkEnd - pw.BlkStart) pw.BlkStart (s.setR cache1))
        = .error Fault.blocked ∨
    ∃ s1 fb1, (do
      let cache1 ← s.rCache.toBlockCache.onFileBuf fid (fun fb => .ok { fb with pw := pw })
      RCache.prefetchLoop fid fb.fe (pw.BlkEnd - pw.BlkStart) pw.BlkStart (s.setR cache1))
        = .ok s1 ∧
      s1.rCache.Cache.get fid = some fb1 ∧ fb1.pw = pw ∧ fb1.fe = fb.fe ∧
      s1.rCache.PrefetchTimes = s.rCache.PrefetchTimes ∧
      s1.rCache.chPrefetch.isSome = true := by
  have hrun : (do
      let cache1 ← s.rCache.toBlockCache.onFileBuf fid (fun fb => .ok { fb with pw := pw })
      RCache.prefetchLoop fid fb.fe (pw.BlkEnd - pw.BlkStart) pw.BlkStart (s.setR cache1)) =
      RCache.prefetchLoop fid fb.fe (pw.BlkEnd - pw.BlkStart) pw.BlkStart
        (s.setR { s.rCache.toBlockCache with
          Cache := s.rCache.Cache.set fid (FileBuffer.mk fb.fe fb.BufferMap fb.LockMap pw) }) := by
    simp only [BlockCache.onFileBuf, hfb, bind, Except.bind]
  rw [hrun]
  exact RCache.prefetchLoop_outcome fid fb.fe (pw.BlkEnd - pw.BlkStart) pw.BlkStart
    (s.setR { s.rCache.toBlockCache with
      Cache := s.rCache.Cache.set fid (FileBuffer.mk fb.fe fb.BufferMap fb.LockMap pw) })
    (FileBuffer.mk fb.fe fb.BufferMap fb.LockMap pw)
    (by simp only [CacheState.setR, GoMap.get_set_self]) hq

/-- One `DoPrefetch` for a read in range, in a state where the window of the file is in
order: no assertion fails; the call waits for a locked block or returns, and then the window
is in order again and its start did not decrease. -/
theorem RCache.DoPrefetch_safe {M fid Size offset : Nat} {s : CacheState} {fb : FileBuffer}
    (hw : RCache.WindowOk M fid s) (hfb : s.rCache.Cache.get fid = some fb)
    (hr : RCache.ReadInRange M fb.fe Size offset) :
    RCache.DoPrefetch fid Size offset s = .error Fault.blocked ∨
    ∃ s1 fb1, RCache.DoPrefetch fid Size offset s = .ok s1 ∧
      s1.rCache.Cache.get fid = some fb1 ∧ fb1.fe = fb.fe ∧
      fb.pw.BlkStart ≤ fb1.pw.BlkStart ∧
      s1.rCache.PrefetchTimes = s.rCache.PrefetchTimes ∧ RCache.WindowOk M fid s1 := by
  obtain ⟨fb0, hfb0, hok, hq, hbs, hT, hM⟩ := hw
  rw [hfb] at hfb0
  simp only [Option.some.injEq] at hfb0
  subst hfb0
  obtain ⟨rw, hrw, hne, hlt, hend⟩ := hr.window hbs
  have hP1 : rw.BlkEnd * (s.rCache.PrefetchTimes % U32) ≤ M * (s.rCache.PrefetchTimes % U32) :=
    Nat.mul_le_mul_right _ hend
  have hP2 : rw.BlkEnd ≤ rw.BlkEnd * (s.rCache.PrefetchTimes % U32) :=
    Nat.le_mul_of_pos_right _ hT
  have hP3 : M ≤ M * (s.rCache.PrefetchTimes % U32) := Nat.le_mul_of_pos_right _ hT
  have hsame : fb.pw.BlkStart ≤ fb.pw.BlkStart ∧
      s.rCache.PrefetchTimes = s.rCache.PrefetchTimes ∧ RCache.WindowOk M fid s :=
    ⟨le_refl _, rfl, fb, hfb, hok, hq, hbs, hT, hM⟩
  have hU : U32 + U32 + U32 + U32 ≤ U64 := by decide
  rw [RCache.DoPrefetch_head fid Size offset s fb rw hq hfb hrw hne hlt]
  rcases hok with hinit | ⟨hpos, hsize, hstart⟩
  · by_cases h0 : rw.BlkStart = 0
    · have hwrap : rw.BlkEnd + rw.BlkEnd * (s.rCache.PrefetchTimes % U32) < U64 := by omega
      have hrun : (do
          let first ←
            (if rw.BlkStart = 0 then do
              let pwSize ← fb.pw.Size
              pure (decide (pwSize = 0))
            else pure false)
          let moved ←
            (if first then
              pure (some ((rw.Move).Extend (s.rCache.PrefetchTimes % U32)))
            else if rw.Cross fb.pw then do
              let pwSize ← fb.pw.Size
              Assert (decide (pwSize > 0))
              pure (some fb.pw.Move)
            else pure none)
          match moved with
          | none => pure s
          | some pw =>
            let cache1 ← s.rCache.toBlockCache.onFileBuf fid
              (fun fb => .ok { fb with pw := pw })
            RCache.prefetchLoop fid fb.fe (pw.BlkEnd - pw.BlkStart) pw.BlkStart
              (s.setR cache1)) =
          (do
            let cache1 ← s.rCache.toBlockCache.onFileBuf fid (fun fb => .ok { fb with
              pw := PrefetchWindow.mk rw.BlkEnd
                (rw.BlkEnd + rw.BlkEnd * (s.rCache.PrefetchTimes % U32)) })
            RCache.prefetchLoop fid fb.fe
              (rw.BlkEnd + rw.BlkEnd * (s.rCache.PrefetchTimes % U32) - rw.BlkEnd) rw.BlkEnd
              (s.setR cache1)) := by
        simp only [h0, if_true, PrefetchWindow.Size, hinit, NewPrefetchWindow, le_refl,
          decide_True, Assert, bind, Except.bind, pure, Except.pure, Nat.sub_self, Nat.zero_mod,
          PrefetchWindow.activate_eq rw _ h0 hwrap]
      rw [hrun]
      rcases RCache.DoPrefetch_tail fid s fb (PrefetchWindow.mk rw.BlkEnd
        (rw.BlkEnd + rw.BlkEnd * (s.rCache.PrefetchTimes % U32))) hq hfb with hb | ⟨s1, fb1,
        hok1, hfb1, hpw1, hfe1, hT1, hq1⟩
      · exact Or.inl hb
      · refine Or.inr ⟨s1, fb1, hok1, hfb1, hfe1, ?_, hT1, fb1, hfb1, ?_, hq1, ?_, ?_, ?_⟩
        · rw [hinit, hpw1]
          exact Nat.zero_le _
        · rw [hT1, hpw1]
          right
          show rw.BlkEnd < rw.BlkEnd + rw.BlkEnd * (s.rCache.PrefetchTimes % U32) ∧
            rw.BlkEnd + rw.BlkEnd * (s.rCache.PrefetchTimes % U32) - rw.BlkEnd ≤
              M * (s.rCache.PrefetchTimes % U32) ∧
            rw.BlkEnd ≤ M + M * (s.rCache.PrefetchTimes % U32)
          omega
        · rw [hfe1]; exact hbs
        · rw [hT1]; exact hT
        · rw [hT1]; exact hM
    · have hcross : rw.Cross fb.pw = false := by
        simp only [PrefetchWindow.Cross, hinit, NewPrefetchWindow, Nat.zero_le, decide_True,
          Bool.or_true, Bool.not_true]
      refine Or.inr ⟨s, fb, ?_, hfb, rfl, hsame⟩
      simp only [h0, if_false, bind, Except.bind, pure, Except.pure, Bool.false_eq_true,
        hcross]
  · have hple : fb.pw.BlkStart ≤ fb.pw.BlkEnd := le_of_lt hpos
    have hpmod : (fb.pw.BlkEnd - fb.pw.BlkStart) % U32 = fb.pw.BlkEnd - fb.pw.BlkStart :=
      Nat.mod_eq_of_lt (by omega)
    have hppos : fb.pw.BlkEnd - fb.pw.BlkStart > 0 := by omega
    have hpne : ¬ (fb.pw.BlkEnd - fb.pw.BlkStart = 0) := by omega
    by_cases hcross : rw.Cross fb.pw = true
    · have hwrap : fb.pw.BlkEnd + (fb.pw.BlkEnd - fb.pw.BlkStart) < U64 := by
        omega
      have hrun : (do
          let first ←
            (if rw.BlkStart = 0 then do
              let pwSize ← fb.pw.Size
              pure (decide (pwSize = 0))
            else pure false)
          let moved ←
            (if first then
              pure (some ((rw.Move).Extend (s.rCache.PrefetchTimes % U32)))
            else if rw.Cross fb.pw then do
              let pwSize ← fb.pw.Size
              Assert (decide (pwSize > 0))
              pure (some fb.pw.Move)
            else pure none)
          match moved with
          | none => pure s
          | some pw =>
            let cache1 ← s.rCache.toBlockCache.onFileBuf fid
              (fun fb => .ok { fb with pw := pw })
            RCache.prefetchLoop fid fb.fe (pw.BlkEnd - pw.BlkStart) pw.BlkStart
              (s.setR cache1)) =
          (do
            let cache1 ← s.rCache.toBlockCache.onFileBuf fid (fun fb1 => .ok { fb1 with
              pw := PrefetchWindow.mk fb.pw.BlkEnd
                (fb.pw.BlkEnd + (fb.pw.BlkEnd - fb.pw.BlkStart)) })
            RCache.prefetchLoop fid fb.fe
              (fb.pw.BlkEnd + (fb.pw.BlkEnd - fb.pw.BlkStart) - fb.pw.BlkEnd) fb.pw.BlkEnd
              (s.setR cache1)) := by
        by_cases h0 : rw.BlkStart = 0
        · simp only [h0, if_true, PrefetchWindow.Size, hple, decide_True, Assert, bind,
            Except.bind, pure, Except.pure, hpmod, hpne, decide_False, Bool.false_eq_true,
            if_false, hcross, hppos, PrefetchWindow.Move_eq fb.pw hple hwrap]
        · simp only [h0, if_false, PrefetchWindow.Size, hple, decide_True, Assert, bind,
            Except.bind, pure, Except.pure, hpmod, Bool.false_eq_true,
            hcross, if_true, hppos, PrefetchWindow.Move_eq fb.pw hple hwrap]
      rw [hrun]
      have hc2 : fb.pw.BlkStart < rw.BlkEnd := by
        simp only [PrefetchWindow.Cross, Bool.not_eq_true', Bool.or_eq_false_iff,
          decide_eq_false_iff_not, Nat.not_le] at hcross
        exact hcross.1
      rcases RCache.DoPrefetch_tail fid s fb (PrefetchWindow.mk fb.pw.BlkEnd
        (fb.pw.BlkEnd + (fb.pw.BlkEnd - fb.pw.BlkStart))) hq hfb with hb | ⟨s1, fb1,
        hok1, hfb1, hpw1, hfe1, hT1, hq1⟩
      · exact Or.inl hb
      · refine Or.inr ⟨s1, fb1, hok1, hfb1, hfe1, ?_, hT1, fb1, hfb1, ?_, hq1, ?_, ?_, ?_⟩
        · rw [hpw1]
          exact hple
        · rw [hT1, hpw1]
          right
          show fb.pw.BlkEnd < fb.pw.BlkEnd + (fb.pw.BlkEnd - fb.pw.BlkStart) ∧
            fb.pw.BlkEnd + (fb.pw.BlkEnd - fb.pw.BlkStart) - fb.pw.BlkEnd ≤
              M * (s.rCache.PrefetchTimes % U32) ∧
            fb.pw.BlkEnd ≤ M + M * (s.rCache.PrefetchTimes % U32)
          omega
        · rw [hfe1]; exact hbs
        · rw [hT1]; exact hT
        · rw [hT1]; exact hM
    · have hcf : rw.Cross fb.pw = false := by
        cases hx : rw.Cross fb.pw with
        | true => exact absurd hx hcross
        | false => rfl
      refine Or.inr ⟨s, fb, ?_, hfb, rfl, hsame⟩
      by_cases h0 : rw.BlkStart = 0
      · simp only [h0, if_true, PrefetchWindow.Size, hple, decide_True, Assert, bind,
          Except.bind, pure, Except.pure, hpmod, hpne, decide_False, Bool.false_eq_true, if_false,
          hcf]
      · simp only [h0, if_false, bind, Except.bind, pure, Except.pure, Bool.false_eq_true,
          hcf]

theorem RCache.Reads.windowOk {M fid : Nat} {s : CacheState} (h : RCache.Reads M fid s) :
    RCache.WindowOk M fid s := by
  induction h with
  | init s fb hq hfb hpw hbs hT hM => exact ⟨fb, hfb, Or.inl hpw, hq, hbs, hT, hM⟩
  | read s s1 fb Size offset _ hfb hr hrun ih =>
    rcases RCache.DoPrefetch_safe ih hfb hr with hb | ⟨s2, fb1, hok, -, -, -, -, hw⟩
    · rw [hrun] at hb
      cases hb
    · rw [hrun] at hok
      cases hok
      exact hw
  | other s s1 fb fb1 _ hfb hfb1 hpw hfe hT hq ih =>
    obtain ⟨fb0, hfb0, hok, -, hbs, hT0, hM⟩ := ih
    rw [hfb] at hfb0
    simp only [Option.some.injEq] at hfb0
    subst hfb0
    refine ⟨fb1, hfb1, ?_, hq, by rw [hfe]; exact hbs, by rw [hT]; exact hT0,
      by rw [hT]; exact hM⟩
    rw [hT]
    rcases hpw with hp | hp
    · rw [hp]
      exact hok
    · exact Or.inl hp

/-- A zero-length read at a block-aligned offset fails the assertion on the read window. -/
theorem RCache.DoPrefetch_zero_aligned (fid offset : Nat) (s : CacheState) (fb : FileBuffer)
    (hq : s.rCache.chPrefetch.isSome = true) (hfb : s.rCache.Cache.get fid = some fb)
    (hbs : fb.fe.BlockSize ≠ 0) (h0 : offset % fb.fe.BlockSize = 0)
    (hw : offset + fb.fe.BlockSize - 1 < U64) :
    RCache.DoPrefetch fid 0 offset s = .error Fault.assert := by
  have hend : (offset + 0 + fb.fe.BlockSize - 1) % U64 / fb.fe.BlockSize =
      offset / fb.fe.BlockSize := by
    rw [Nat.mod_eq_of_lt (by omega)]
    exact readWindow_aligned fb.fe.BlockSize offset (Nat.pos_of_ne_zero hbs) h0
  simp only [RCache.DoPrefetch, hq, Assert, if_true, bind, Except.bind, BlockCache.fileBuf, hfb,
    RCache.GetReadWindow, hbs, if_false, hend, PrefetchWindow.Size, le_refl, decide_True, pure,
    Except.pure, Nat.sub_self, Nat.zero_mod, gt_iff_lt, Nat.lt_irrefl, decide_False,
    Bool.false_eq_true]

/-- C39 (code defect): a read of length 1 fails the read-window assertion of `DoPrefetch`.
With one prefetch worker and `PrefetchTimes = 1`, the first read of a file, of one byte at
offset `2^64 - 1`, has a read window whose end wrapped to block 0 below its start
`2^62 - 1` (block size 4): `rw.Size()` fails its assertion in `DoPrefetch` and the read does
not return. Without prefetch worker the same read returns `(0, nil)`. -/
theorem C39_read_at_last_offset_asserts :
    samplePrefetchSix = NewRWCache sampleSixProxy 0 2 500 0 1 1 ∧
    samplePrefetchSix.rCache.PrefetchTimes = 1 ∧
    RCache.GetReadWindow sampleEntry 1 (U64 - 1) =
      .ok (PrefetchWindow.mk 4611686018427387903 0) ∧
    RCache.DoPrefetch 7 1 (U64 - 1) samplePrefetchSixOpen = .error Fault.assert ∧
    RWCache.Read sampleEntry [0] (U64 - 1) samplePrefetchSix = .error Fault.assert ∧
    (RWCache.Read sampleEntry [0] (U64 - 1) sampleDirectSix).map Prod.fst =
      .ok (0, none, [0]) :=
  ⟨rfl, rfl, rfl, rfl, rfl, rfl⟩

/-- The assertions of `DoPrefetch` at the edges of the machine integers. With
`PrefetchTimes = 2^32` (at least 1) the `uint32` conversion in `Extend` gives 0: the read of
five bytes at offset 0 leaves an empty window and the next read, of eight bytes at offset 4,
fails `Assert(fileBuf.pw.Size() > 0)`. With `PrefetchTimes = 1` the read of one byte at offset
`2^64 - 1` has a read window whose end wrapped below its start, and `rw.Size()` fails its
assertion. -/
theorem C39_prefetch_asserts_at_integer_edges :
    1 ≤ samplePrefetchWrap.rCache.PrefetchTimes ∧
    ((RWCache.Read sampleEntry [0, 0, 0, 0, 0] 0 samplePrefetchWrap).bind
      (fun r => RCache.DoPrefetch 7 8 4 r.2)) = .error Fault.assert ∧
    ((RWCache.Read sampleEntry [0, 0, 0, 0, 0] 0 samplePrefetchWrap).bind
      (fun r => RWCache.Read sampleEntry [0, 0, 0, 0, 0, 0, 0, 0] 4 r.2)) =
      .error Fault.assert ∧
    samplePrefetchSixOpen.rCache.PrefetchTimes = 1 ∧
    RCache.GetReadWindow sampleEntry 1 (U64 - 1) =
      .ok (PrefetchWindow.mk 4611686018427387903 0) ∧
    RCache.DoPrefetch 7 1 (U64 - 1) samplePrefetchSixOpen = .error Fault.assert ∧
    RWCache.Read sampleEntry [0] (U64 - 1) samplePrefetchSix = .error Fault.assert :=
  ⟨by decide, rfl, rfl, rfl, rfl, rfl, rfl⟩

/-- The assertions of `DoPrefetch` in range: along every sequence of reads of a file that
are in range (not a
zero-length read at a block-aligned offset, size below `2^32`, no wrap at `2^64`, block
window ending at `M` at the latest), with the `uint32` value `T` of `PrefetchTimes` at least 1
and `M * T < 2^32`: the prefetch window of the file is the initial `[0, 0)` or has positive
size; `DoPrefetch` for the next such read fails no assertion: it waits for a locked block or
returns, and then the start of the window did not decrease and the reached state is again
one of the sequence. A zero-length read at a block-aligned offset fails the assertion on the
read window. -/
theorem C39_prefetch_assertions (M fid : Nat) (s : CacheState) (h : RCache.Reads M fid s) :
    RCache.WindowOk M fid s ∧
    (∀ fb Size offset, s.rCache.Cache.get fid = some fb →
      RCache.ReadInRange M fb.fe Size offset →
      RCache.DoPrefetch fid Size offset s ≠ .error Fault.assert ∧
      (RCache.DoPrefetch fid Size offset s = .error Fault.blocked ∨
        ∃ s1 fb1, RCache.DoPrefetch fid Size offset s = .ok s1 ∧
          s1.rCache.Cache.get fid = some fb1 ∧ fb.pw.BlkStart ≤ fb1.pw.BlkStart ∧
          RCache.Reads M fid s1)) ∧
    (∀ fb offset, s.rCache.Cache.get fid = some fb → offset % fb.fe.BlockSize = 0 →
      offset + fb.fe.BlockSize - 1 < U64 →
      RCache.DoPrefetch fid 0 offset s = .error Fault.assert) := by
  have hw := h.windowOk
  refine ⟨hw, ?_, ?_⟩
  · intro fb Size offset hfb hr
    rcases RCache.DoPrefetch_safe hw hfb hr with hb | ⟨s1, fb1, hok, hfb1, -, hstart, -, -⟩
    · refine ⟨?_, Or.inl hb⟩
      rw [hb]
      intro hc
      cases hc
    · refine ⟨?_, Or.inr ⟨s1, fb1, hok, hfb1, hstart,
        RCache.Reads.read s s1 fb Size offset h hfb hr hok⟩⟩
      rw [hok]
      intro hc
      cases hc
  · intro fb offset hfb h0 hwrap
    obtain ⟨fb0, hfb0, -, hq, hbs, -, -⟩ := hw
    rw [hfb] at hfb0
    simp only [Option.some.injEq] at hfb0
    subst hfb0
    exact RCache.DoPrefetch_zero_aligned fid offset s fb hq hfb hbs h0 hwrap

theorem C39_prefetch_assertions_witness :
    RCache.WindowOk 100 7 samplePrefetchSixOpen ∧
    RCache.DoPrefetch 7 4 0 samplePrefetchSixOpen ≠ .error Fault.assert ∧
    RCache.DoPrefetch 7 0 8 samplePrefetchSixOpen = .error Fault.assert :=
  ⟨(C39_prefetch_assertions 100 7 samplePrefetchSixOpen
      (RCache.Reads.init samplePrefetchSixOpen (NewFileBuffer sampleEntry) rfl rfl rfl
        (by decide) (by decide) (by decide))).1,
    ((C39_prefetch_assertions 100 7 samplePrefetchSixOpen
      (RCache.Reads.init samplePrefetchSixOpen (NewFileBuffer sampleEntry) rfl rfl rfl
        (by decide) (by decide) (by decide))).2.1 (NewFileBuffer sampleEntry) 4 0 rfl
      ⟨by decide, by decide, by decide, by decide⟩).1,
    (C39_prefetch_assertions 100 7 samplePrefetchSixOpen
      (RCache.Reads.init samplePrefetchSixOpen (NewFileBuffer sampleEntry) rfl rfl rfl
        (by decide) (by decide) (by decide))).2.2 (NewFileBuffer sampleEntry) 8 rfl
      (by decide) (by decide)⟩

/-! ## C31: the length and the bytes that `doRead` returns -/

/-- The loop of `doRead` is the assembly of the results of its iterations. -/
theorem RWCache.doReadLoop_assemble (fe : FileEntry) (offset : Nat) (hasW : Bool) :
    ∀ (Ops : List RWBlockOp) (Size : Nat) (dataBuf : List Byte) (s : CacheState),
      RWCache.doReadLoop fe offset hasW Ops Size dataBuf s =
        (RWCache.readAll fe hasW Ops s).map
          (fun t => (RWCache.assemble offset Ops t.1 Size dataBuf, t.2)) := by
  intro Ops
  induction Ops with
  | nil => intro Size dataBuf s; rfl
  | cons op rest ih =>
    intro Size dataBuf s
    simp only [RWCache.doReadLoop, RWCache.readAll, RWCache.readOne]
    cases h1 : (if hasW = true then s.onW (fun cache => cache.RLockBuffer fe.Id op.Index)
        else Except.ok s) with
    | error e => rfl
    | ok s1 =>
      simp only [bind, Except.bind]
      cases h2 : s1.onR (fun cache => cache.RLockBuffer fe.Id op.Index) with
      | error e => rfl
      | ok s2 =>
        try dsimp only
        cases h3 : RCache.ReadOp fe fe.Id op s2 with
        | error e => rfl
        | ok r =>
          try dsimp only
          cases h4 : r.2.onR (fun cache => cache.RUnLockBuffer fe.Id op.Index) with
          | error e => rfl
          | ok s3 =>
            try dsimp only
            by_cases herr : r.1.2.1 ≠ none
            · rw [if_pos herr, if_pos herr]
              cases h5 : (if hasW = true then
                  s3.onW (fun cache => cache.RUnLockBuffer fe.Id op.Index)
                  else Except.ok s3) with
              | error e => rfl
              | ok s4 =>
                simp only [pure, Except.pure, Except.map, herr, if_true, ne_eq,
                  not_false_eq_true, RWCache.assemble]
            · rw [if_neg herr, if_neg herr]
              cases h6 : (if hasW = true then
                  WCache.MergeOp fe.Id { op with rwBuf := r.1.2.2 } r.1.1 s3
                  else Except.ok (r.1.1, r.1.2.2)) with
              | error e => rfl
              | ok m =>
                try dsimp only
                cases h5 : (if hasW = true then
                    s3.onW (fun cache => cache.RUnLockBuffer fe.Id op.Index)
                    else Except.ok s3) with
                | error e => rfl
                | ok s4 =>
                  simp only [pure, Except.pure, ne_eq, not_true_eq_false, if_false]
                  rw [ih]
                  cases h7 : RWCache.readAll fe hasW rest s4 with
                  | error e => rfl
                  | ok t =>
                    simp only [Except.map, RWCache.assemble, ne_eq, not_true_eq_false,
                      if_false]

/-- When the assembly reports no error, every op of the list was read and none failed. -/
theorem RWCache.readAll_complete (fe : FileEntry) (hasW : Bool) (offset : Nat) :
    ∀ (Ops : List RWBlockOp) (s s1 : CacheState)
      (rs : List (Nat × Option GoError × List Byte)) (Size : Nat) (dataBuf : List Byte),
      RWCache.readAll fe hasW Ops s = .ok (rs, s1) →
      (RWCache.assemble offset Ops rs Size dataBuf).2.1 = none →
      rs.length = Ops.length ∧ ∀ r ∈ rs, r.2.1 = none := by
  intro Ops
  induction Ops with
  | nil =>
    intro s s1 rs Size dataBuf h _
    simp only [RWCache.readAll, Except.ok.injEq, Prod.mk.injEq] at h
    rw [← h.1]
    exact ⟨rfl, fun r hr => by cases hr⟩
  | cons op rest ih =>
    intro s s1 rs Size dataBuf h herr
    simp only [RWCache.readAll] at h
    obtain ⟨r, hone, h⟩ := (Except.bind_eq_ok_iff _ _ _).mp h
    by_cases he : r.1.2.1 ≠ none
    · rw [if_pos he] at h
      simp only [pure, Except.pure, Except.ok.injEq, Prod.mk.injEq] at h
      rw [← h.1] at herr
      simp only [RWCache.assemble, he, if_true, ne_eq, not_false_eq_true] at herr
    · rw [if_neg he] at h
      obtain ⟨t, hall, h⟩ := (Except.bind_eq_ok_iff _ _ _).mp h
      simp only [pure, Except.pure, Except.ok.injEq, Prod.mk.injEq] at h
      rw [← h.1] at herr ⊢
      simp only [RWCache.assemble, he, if_false] at herr
      obtain ⟨hl, hnone⟩ := ih r.2 t.2 t.1 _ _ hall herr
      refine ⟨by simp only [List.length_cons, hl], ?_⟩
      intro x hx
      rcases List.mem_cons.mp hx with rfl | hx2
      · simpa using he
      · exact hnone x hx2

/-- The running size after the assembly of results without error: the size set by the last
op with a non-zero effective size, or the initial one. -/
theorem RWCache.assemble_size (offset : Nat) :
    ∀ (Ops : List RWBlockOp) (rs : List (Nat × Option GoError × List Byte)) (Size : Nat)
      (dataBuf : List Byte), rs.length = Ops.length → (∀ r ∈ rs, r.2.1 = none) →
      (RWCache.assemble offset Ops rs Size dataBuf).1 =
        match RWCache.lastHit (Ops.zip rs) with
        | none => Size
        | some (op, size) => (op.GetFileOffset + U64 - offset) % U64 + size := by
  intro Ops
  induction Ops with
  | nil =>
    intro rs Size dataBuf _ _
    cases rs <;> rfl
  | cons op rest ih =>
    intro rs Size dataBuf hl hnone
    cases rs with
    | nil => cases hl
    | cons r rs2 =>
      have hr : r.2.1 = none := hnone r (List.mem_cons_self _ _)
      simp only [List.length_cons, Nat.add_right_cancel_iff] at hl
      have hz : (op :: rest).zip (r :: rs2) = (op, r) :: rest.zip rs2 := rfl
      rw [hz]
      simp only [RWCache.assemble, hr, ne_eq, not_true_eq_false, if_false, RWCache.lastHit]
      rw [ih rs2 _ _ hl (fun x hx => hnone x (List.mem_cons_of_mem _ hx))]
      cases hlast : RWCache.lastHit (rest.zip rs2) with
      | some h => rfl
      | none =>
        simp only
        split <;> rfl

theorem goCopy_getElem?_ge (dst src : List Byte) (j : Nat) (h : src.length ≤ j) :
    (goCopy dst src)[j]? = dst[j]? := by
  have e := goCopyAt_getElem?_ge dst 0 src j (by omega)
  simp only [goCopyAt, List.take_zero, List.nil_append, List.drop_zero] at e
  exact e

theorem Buffer.GetRangeData_length {buf : Buffer} {Start End : Nat} {data : List Byte}
    (h : buf.GetRangeData Start End = .ok data) : data.length = End - Start := by
  unfold Buffer.GetRangeData at h
  obtain ⟨_, -, h⟩ := (Except.bind_eq_ok_iff _ _ _).mp h
  obtain ⟨_, -, h⟩ := (Except.bind_eq_ok_iff _ _ _).mp h
  split at h
  · cases h
  · next hc =>
    simp only [pure, Except.pure, Except.ok.injEq] at h
    rw [← h]
    simp only [List.length_take, List.length_drop]
    omega

/-- What `ReadOp` leaves in the sub-buffer: its length is kept, and the bytes from the
returned size on are untouched. -/
theorem RCache.ReadOp_bytes {fe : FileEntry} {fid : Nat} {op : RWBlockOp} {s s1 : CacheState}
    {r : Nat × Option GoError × List Byte} (h : RCache.ReadOp fe fid op s = .ok (r, s1)) :
    r.2.2.length = op.rwBuf.length ∧ ∀ i, r.1 ≤ i → r.2.2[i]? = op.rwBuf[i]? := by
  unfold RCache.ReadOp at h
  obtain ⟨found, -, h⟩ := (Except.bind_eq_ok_iff _ _ _).mp h
  cases found with
  | none =>
    simp only [pure, Except.pure, Except.ok.injEq] at h
    have hr : r = (Reader.Read fe.Id op.rwBuf op.GetFileOffset s.proxyClient).1 := by
      have h1 := congrArg Prod.fst h
      exact h1.symm
    rw [hr]
    simp only [Reader.Read]
    split_ifs
    · exact ⟨rfl, fun _ _ => rfl⟩
    · exact ⟨rfl, fun _ _ => rfl⟩
    · exact ⟨goCopy_length _ _, fun i hi => goCopy_getElem?_ge _ _ i hi⟩
  | some buffer =>
    dsimp only at h
    obtain ⟨_, -, h⟩ := (Except.bind_eq_ok_iff _ _ _).mp h
    split at h
    · simp only [pure, Except.pure, Except.ok.injEq, Prod.mk.injEq] at h
      rw [← h.1]
      exact ⟨rfl, fun _ _ => rfl⟩
    · obtain ⟨data, hdata, h⟩ := (Except.bind_eq_ok_iff _ _ _).mp h
      simp only [pure, Except.pure, Except.ok.injEq, Prod.mk.injEq] at h
      have hlen := Buffer.GetRangeData_length hdata
      rw [← h.1]
      refine ⟨goCopy_length _ _, fun i hi => goCopy_getElem?_ge _ _ i ?_⟩
      rw [hlen]
      simp only at hi
      omega

/-- What `MergeOp` leaves in the sub-buffer: its length is kept, and the bytes from the
returned size on are untouched. -/
theorem WCache.MergeOp_bytes {fid : Nat} {s : CacheState} {op : RWBlockOp} {dataSize r : Nat}
    {d : List Byte} (h : WCache.MergeOp fid op dataSize s = .ok (r, d)) :
    d.length = op.rwBuf.length ∧ ∀ i, r ≤ i → d[i]? = op.rwBuf[i]? := by
  unfold WCache.MergeOp at h
  obtain ⟨_, -, h⟩ := (Except.bind_eq_ok_iff _ _ _).mp h
  obtain ⟨fb, -, h⟩ := (Except.bind_eq_ok_iff _ _ _).mp h
  cases hb : fb.GetBuffer op.Index with
  | none =>
    rw [hb] at h
    dsimp only at h
    split at h <;> cases h <;> exact ⟨rfl, fun _ _ => rfl⟩
  | some buffer =>
    rw [hb] at h
    dsimp only at h
    split at h
    · split at h <;> cases h <;> exact ⟨rfl, fun _ _ => rfl⟩
    · have hro : op.RwOffset ≤
          (if op.RwOffset > buffer.Offset then op.RwOffset else buffer.Offset) := by
        split <;> omega
      generalize (if op.RwOffset > buffer.Offset then op.RwOffset else buffer.Offset) = cpo
        at h hro
      generalize (if op.RwOffset + op.RwSize < buffer.Offset + buffer.Len then
        op.RwOffset + op.RwSize else buffer.Offset + buffer.Len) = cpt at h
      obtain ⟨_, ha1, h⟩ := (Except.bind_eq_ok_iff _ _ _).mp h
      obtain ⟨_, ha2, h⟩ := (Except.bind_eq_ok_iff _ _ _).mp h
      rw [Assert_eq_ok_iff] at ha1 ha2
      have ha1 := of_decide_eq_true ha1
      by_cases hrt : cpo - op.RwOffset > op.rwBuf.length
      · rw [if_pos hrt] at h
        cases h
      · rw [if_neg hrt] at h
        obtain ⟨_, -, h⟩ := (Except.bind_eq_ok_iff _ _ _).mp h
        obtain ⟨data, hdata, h⟩ := (Except.bind_eq_ok_iff _ _ _).mp h
        have hlen := Buffer.GetRangeData_length hdata
        simp only [pure, Except.pure] at h
        have hge : ∀ i, cpt - op.RwOffset ≤ i →
            (goCopyAt op.rwBuf (cpo - op.RwOffset) data)[i]? = op.rwBuf[i]? := by
          intro i hi
          apply goCopyAt_getElem?_ge
          rw [hlen]
          omega
        by_cases hcmp : dataSize < cpt - op.RwOffset
        · rw [if_pos hcmp] at h
          simp only [Except.ok.injEq, Prod.mk.injEq] at h
          rw [← h.1, ← h.2]
          exact ⟨goCopyAt_length _ _ _, fun i hi => hge i hi⟩
        · rw [if_neg hcmp] at h
          simp only [Except.ok.injEq, Prod.mk.injEq] at h
          rw [← h.1, ← h.2]
          exact ⟨goCopyAt_length _ _ _, fun i hi => hge i (by omega)⟩

/-- What one iteration of the loop of `doRead` without read error leaves in the sub-buffer of
the op: its length is kept, and the bytes from the effective size on are untouched. -/
theorem RWCache.readOne_bytes {fe : FileEntry} {hasW : Bool} {op : RWBlockOp}
    {s s1 : CacheState} {r : Nat × Option GoError × List Byte}
    (h : RWCache.readOne fe hasW op s = .ok (r, s1)) (herr : r.2.1 = none) :
    r.2.2.length = op.rwBuf.length ∧ ∀ i, r.1 ≤ i → r.2.2[i]? = op.rwBuf[i]? := by
  unfold RWCache.readOne at h
  obtain ⟨sa, -, h⟩ := (Except.bind_eq_ok_iff _ _ _).mp h
  obtain ⟨sb, -, h⟩ := (Except.bind_eq_ok_iff _ _ _).mp h
  obtain ⟨rr, hread, h⟩ := (Except.bind_eq_ok_iff _ _ _).mp h
  obtain ⟨sc, -, h⟩ := (Except.bind_eq_ok_iff _ _ _).mp h
  obtain ⟨hlen, htail⟩ := RCache.ReadOp_bytes (r := rr.1) hread
  by_cases he : rr.1.2.1 ≠ none
  · rw [if_pos he] at h
    obtain ⟨sd, -, h⟩ := (Except.bind_eq_ok_iff _ _ _).mp h
    simp only [pure, Except.pure, Except.ok.injEq, Prod.mk.injEq] at h
    rw [← h.1] at herr
    exact absurd herr he
  · rw [if_neg he] at h
    obtain ⟨m, hm, h⟩ := (Except.bind_eq_ok_iff _ _ _).mp h
    obtain ⟨sd, -, h⟩ := (Except.bind_eq_ok_iff _ _ _).mp h
    simp only [pure, Except.pure, Except.ok.injEq, Prod.mk.injEq] at h
    rw [← h.1]
    cases hw : hasW with
    | false =>
      rw [hw] at hm
      simp only [Bool.false_eq_true, if_false, Except.ok.injEq] at hm
      rw [← hm]
      exact ⟨hlen, htail⟩
    | true =>
      rw [hw] at hm
      simp only [if_true] at hm
      obtain ⟨hl2, ht2⟩ := WCache.MergeOp_bytes (r := m.1) (d := m.2) hm
      obtain ⟨hb1, -⟩ := WCache.MergeOp_bounds (r := m.1) (d := m.2) hm
      refine ⟨by rw [hl2]; exact hlen, fun i hi => ?_⟩
      rw [ht2 i hi]
      exact htail i (by omega)

theorem RWCache.readAll_bytes (fe : FileEntry) (hasW : Bool) :
    ∀ (Ops : List RWBlockOp) (s s1 : CacheState)
      (rs : List (Nat × Option GoError × List Byte)),
      RWCache.readAll fe hasW Ops s = .ok (rs, s1) → (∀ r ∈ rs, r.2.1 = none) →
      ∀ p ∈ Ops.zip rs, p.2.2.2.length = p.1.rwBuf.length ∧
        ∀ i, p.2.1 ≤ i → p.2.2.2[i]? = p.1.rwBuf[i]? := by
  intro Ops
  induction Ops with
  | nil =>
    intro s s1 rs _ _ p hp
    simp only [List.zip_nil_left, List.not_mem_nil] at hp
  | cons op rest ih =>
    intro s s1 rs h hnone p hp
    simp only [RWCache.readAll] at h
    obtain ⟨r, hone, h⟩ := (Except.bind_eq_ok_iff _ _ _).mp h
    by_cases he : r.1.2.1 ≠ none
    · rw [if_pos he] at h
      simp only [pure, Except.pure, Except.ok.injEq, Prod.mk.injEq] at h
      have := hnone r.1 (by rw [← h.1]; exact List.mem_cons_self _ _)
      exact absurd this he
    · rw [if_neg he] at h
      obtain ⟨t, hall, h⟩ := (Except.bind_eq_ok_iff _ _ _).mp h
      simp only [pure, Except.pure, Except.ok.injEq, Prod.mk.injEq] at h
      rw [← h.1] at hp hnone
      have hz : (op :: rest).zip (r.1 :: t.1) = (op, r.1) :: rest.zip t.1 := rfl
      rw [hz] at hp
      rcases List.mem_cons.mp hp with rfl | hp2
      · exact RWCache.readOne_bytes (r := r.1) hone (by simpa using he)
      · exact ih r.2 t.2 t.1 hall (fun x hx => hnone x (List.mem_cons_of_mem _ hx)) p hp2

theorem OpsCut.readOps_self {fe : FileEntry} {buffer : List Byte} {offset : Nat} :
    ∀ {Ops : List RWBlockOp} {idx pos : Nat}, OpsCut fe buffer offset idx pos Ops →
      readOps buffer Ops = Ops := by
  intro Ops
  induction Ops with
  | nil => intro idx pos _; rfl
  | cons op rest ih =>
    intro idx pos hcut
    obtain ⟨-, -, hbp, -, -, -, -, hbuf, hrest⟩ := hcut
    have hr : readOps buffer (op :: rest) =
        RWBlockOp.mk op.fe op.Index op.RwOffset op.RwSize
          ((buffer.drop op.rwBufPos).take op.RwSize) op.rwBufPos :: readOps buffer rest := rfl
    rw [hr, ih hrest, hbp, ← hbuf, ← hbp]

/-- The ops that cut a buffer of zeros: each carries the file entry, a view of `RwSize`
zeros, and the file offset `offset + rwBufPos`. -/
theorem OpsCut.zero_views {fe : FileEntry} {n offset : Nat} :
    ∀ {Ops : List RWBlockOp} {idx pos : Nat},
      OpsCut fe (List.replicate n 0) offset idx pos Ops → ∀ op ∈ Ops,
        op.rwBuf = List.replicate op.RwSize 0 ∧ op.GetFileOffset = offset + op.rwBufPos ∧
          pos ≤ op.rwBufPos ∧ op.rwBufPos + op.RwSize ≤ n := by
  intro Ops
  induction Ops with
  | nil => intro idx pos _ op hop; cases hop
  | cons op1 rest ih =>
    intro idx pos hcut op hop
    obtain ⟨hfe, hidx, hbp, hoff, hpos, -, hle, hbuf, hrest⟩ := hcut
    simp only [List.length_replicate] at hle
    rcases List.mem_cons.mp hop with rfl | hin
    · refine ⟨?_, ?_, by omega, by omega⟩
      · rw [hbuf, List.drop_replicate, List.take_replicate]
        congr 1
        omega
      · simp only [RWBlockOp.GetFileOffset, RWBlockOp.GetAlignOffset, hfe, hidx, hbp]
        exact hoff
    · obtain ⟨h1, h2, h3, h4⟩ := ih hrest op hin
      exact ⟨h1, h2, by omega, h4⟩

/-- The assembled bytes: the results of the ops, one after the other, from the position of
the first op on. -/
theorem RWCache.assemble_bytes {fe : FileEntry} {buffer : List Byte} (offset : Nat) :
    ∀ (Ops : List RWBlockOp) (rs : List (Nat × Option GoError × List Byte)) (idx pos Size : Nat)
      (dataBuf : List Byte), OpsCut fe buffer offset idx pos Ops →
      rs.length = Ops.length → (∀ r ∈ rs, r.2.1 = none) →
      (∀ p ∈ Ops.zip rs, p.2.2.2.length = p.1.RwSize) → dataBuf.length = buffer.length →
      (RWCache.assemble offset Ops rs Size dataBuf).2.2 =
        dataBuf.take pos ++ rs.flatMap (fun r => r.2.2) := by
  intro Ops
  induction Ops with
  | nil =>
    intro rs idx pos Size dataBuf hcut hl _ _ hdl
    simp only [OpsCut] at hcut
    cases rs with
    | nil =>
      simp only [RWCache.assemble, List.flatMap_nil, List.append_nil]
      rw [hcut, ← hdl, List.take_length]
    | cons r rs2 => cases hl
  | cons op rest ih =>
    intro rs idx pos Size dataBuf hcut hl hnone hlen hdl
    obtain ⟨-, -, hbp, -, -, -, hle, -, hrest⟩ := hcut
    cases rs with
    | nil => cases hl
    | cons r rs2 =>
      have hr : r.2.1 = none := hnone r (List.mem_cons_self _ _)
      simp only [List.length_cons, Nat.add_right_cancel_iff] at hl
      have hz : (op :: rest).zip (r :: rs2) = (op, r) :: rest.zip rs2 := rfl
      have hrl : r.2.2.length = op.RwSize := hlen (op, r) (by rw [hz]; exact List.mem_cons_self _ _)
      simp only [RWCache.assemble, hr, ne_eq, not_true_eq_false, if_false, List.flatMap_cons]
      rw [ih rs2 (idx + 1) (pos + op.RwSize) _ _ hrest hl
        (fun x hx => hnone x (List.mem_cons_of_mem _ hx))
        (fun p hp => hlen p (by rw [hz]; exact List.mem_cons_of_mem _ hp))
        (by rw [goCopyAt_length]; exact hdl)]
      rw [hbp, ← hrl, goCopyAt_take _ _ _ (by omega), List.append_assoc]

/-- A sub-buffer that was all zeros and is untouched from `size` on is its first `size` bytes
followed by zeros. -/
theorem region_of_zero_tail (bytes : List Byte) (size n : Nat) (hlen : bytes.length = n)
    (htail : ∀ i, size ≤ i → bytes[i]? = (List.replicate n (0 : Byte))[i]?) :
    bytes.take size ++ List.replicate (n - size) 0 = bytes := by
  have hl1 : (bytes.take size).length = min size n := by
    rw [List.length_take, hlen]
  have hl2 : (bytes.take size ++ List.replicate (n - size) (0 : Byte)).length = n := by
    rw [List.length_append, hl1, List.length_replicate]
    omega
  apply List.ext_getElem?
  intro i
  by_cases hin : i < n
  · by_cases hi : i < size
    · rw [List.getElem?_append_left (by rw [hl1]; omega), List.getElem?_take, if_pos hi]
    · have hge : size ≤ i := Nat.le_of_not_lt hi
      rw [htail i hge, List.getElem?_append_right (by rw [hl1]; omega), hl1]
      simp only [List.getElem?_replicate]
      rw [if_pos (by omega), if_pos hin]
  · rw [List.getElem?_eq_none (by rw [hl2]; omega), List.getElem?_eq_none (by omega)]

theorem RWCache.regions_eq_bytes :
    ∀ (Ops : List RWBlockOp) (rs : List (Nat × Option GoError × List Byte)),
      rs.length = Ops.length →
      (∀ p ∈ Ops.zip rs, p.2.2.2.length = p.1.RwSize ∧
        ∀ i, p.2.1 ≤ i → p.2.2.2[i]? = (List.replicate p.1.RwSize (0 : Byte))[i]?) →
      RWCache.regions (Ops.zip rs) = rs.flatMap (fun r => r.2.2) := by
  intro Ops
  induction Ops with
  | nil =>
    intro rs hl _
    cases rs with
    | nil => rfl
    | cons r rs2 => cases hl
  | cons op rest ih =>
    intro rs hl h
    cases rs with
    | nil => cases hl
    | cons r rs2 =>
      simp only [List.length_cons, Nat.add_right_cancel_iff] at hl
      have hz : (op :: rest).zip (r :: rs2) = (op, r) :: rest.zip rs2 := rfl
      rw [hz] at h ⊢
      obtain ⟨h1, h2⟩ := h (op, r) (List.mem_cons_self _ _)
      have hrest := ih rs2 hl (fun p hp => h p (List.mem_cons_of_mem _ hp))
      simp only [RWCache.regions, List.flatMap_cons] at hrest ⊢
      rw [hrest, region_of_zero_tail r.2.2 r.1 op.RwSize h1 h2]

theorem RWCache.lastHit_none_iff (zs : List (RWBlockOp × Nat × Option GoError × List Byte)) :
    RWCache.lastHit zs = none ↔ ∀ p ∈ zs, p.2.1 = 0 := by
  induction zs with
  | nil =>
    constructor
    · intro _ p hp
      cases hp
    · intro _
      rfl
  | cons p rest ih =>
    cases hl : RWCache.lastHit rest with
    | some h =>
      have hne : RWCache.lastHit (p :: rest) = some h := by
        simp only [RWCache.lastHit, hl]
      rw [hne]
      constructor
      · intro hc
        cases hc
      · intro hall
        have := ih.mpr (fun q hq => hall q (List.mem_cons_of_mem _ hq))
        rw [hl] at this
        cases this
    | none =>
      have hrest := ih.mp hl
      by_cases hp : p.2.1 = 0
      · have hne : RWCache.lastHit (p :: rest) = none := by
          simp only [RWCache.lastHit, hl, hp, ne_eq, not_true_eq_false, if_false]
        rw [hne]
        constructor
        · intro _ q hq
          rcases List.mem_cons.mp hq with rfl | hq2
          · exact hp
          · exact hrest q hq2
        · intro _
          rfl
      · have hne : RWCache.lastHit (p :: rest) = some (p.1, p.2.1) := by
          simp only [RWCache.lastHit, hl, hp, ne_eq, not_false_eq_true, if_true]
        rw [hne]
        constructor
        · intro hc
          cases hc
        · intro hall
          exact absurd (hall p (List.mem_cons_self _ _)) hp

/-- The last hit is the last op with a non-zero effective size: every op after it has the
effective size 0. -/
theorem RWCache.lastHit_some (zs : List (RWBlockOp × Nat × Option GoError × List Byte))
    (op : RWBlockOp) (size : Nat) (h : RWCache.lastHit zs = some (op, size)) :
    ∃ front r back, zs = front ++ (op, r) :: back ∧ r.1 = size ∧ size ≠ 0 ∧
      (∀ q ∈ back, q.2.1 = 0) ∧ RWCache.upToLastHit zs = front ++ [(op, r)] := by
  induction zs with
  | nil => cases h
  | cons p rest ih =>
    simp only [RWCache.lastHit] at h
    cases hl : RWCache.lastHit rest with
    | some h2 =>
      rw [hl] at h
      simp only [Option.some.injEq] at h
      subst h
      obtain ⟨front, r, back, hz, hr, hne, hback, hup⟩ := ih hl
      refine ⟨p :: front, r, back, by rw [hz]; rfl, hr, hne, hback, ?_⟩
      simp only [RWCache.upToLastHit, hl, hup, List.cons_append]
    | none =>
      rw [hl] at h
      simp only at h
      split at h
      · next hp =>
        simp only [Option.some.injEq, Prod.mk.injEq] at h
        refine ⟨[], p.2, rest, ?_, h.2, by rw [← h.2]; exact hp,
          (RWCache.lastHit_none_iff rest).mp hl, ?_⟩
        · rw [← h.1]
          rfl
        · simp only [RWCache.upToLastHit, hl, hp, if_true, List.nil_append, ne_eq,
            not_false_eq_true]
          rw [← h.1]
      · cases h

theorem RWCache.assemble_length (offset : Nat) :
    ∀ (Ops : List RWBlockOp) (rs : List (Nat × Option GoError × List Byte)) (Size : Nat)
      (dataBuf : List Byte),
      (RWCache.assemble offset Ops rs Size dataBuf).2.2.length = dataBuf.length := by
  intro Ops
  induction Ops with
  | nil => intro rs Size dataBuf; rfl
  | cons op Ops ih =>
    intro rs Size dataBuf
    cases rs with
    | nil => rfl
    | cons r rs =>
      simp only [RWCache.assemble]
      split
      · rfl
      · rw [ih, goCopyAt_length]

/-- A successful `doRead` taken apart: the ops of `Slice` on the zeroed buffer, the results
of the loop iterations, the assembly of the results and the final copy. -/
theorem RWCache.doRead_split {fe : FileEntry} {buffer : List Byte} {offset : Nat}
    {s s1 : CacheState} {L : Nat} {out : List Byte}
    (h : RWCache.doRead fe buffer offset s = .ok ((L, none, out), s1)) :
    ∃ Ops rs sA D,
      RCache.TryDoPrefetch fe.Id (buffer.length % U32) offset
        (s.setR (s.rCache.toBlockCache.GetFileBuffer fe true).2) = .ok sA ∧
      RCache.Slice fe (List.replicate buffer.length 0) offset = .ok Ops ∧
      RWCache.readAll fe (sA.wCache.toBlockCache.GetFileBuffer fe false).1.isSome Ops sA =
        .ok (rs, s1) ∧
      RWCache.assemble offset Ops rs 0 (List.replicate buffer.length 0) = (L, none, D) ∧
      L ≤ buffer.length ∧ out = goCopy buffer (D.take L) := by
  simp only [RWCache.doRead] at h
  obtain ⟨_, -, h⟩ := (Except.bind_eq_ok_iff _ _ _).mp h
  obtain ⟨sa, hpre, h⟩ := (Except.bind_eq_ok_iff _ _ _).mp h
  obtain ⟨Ops, hsl, h⟩ := (Except.bind_eq_ok_iff _ _ _).mp h
  obtain ⟨w, hloop, h⟩ := (Except.bind_eq_ok_iff _ _ _).mp h
  rw [List.length_replicate] at hpre
  rw [RWCache.doReadLoop_assemble] at hloop
  cases hra : RWCache.readAll fe
      (sa.wCache.toBlockCache.GetFileBuffer fe false).1.isSome Ops sa with
  | error e =>
    rw [hra] at hloop
    cases hloop
  | ok t =>
    rw [hra] at hloop
    simp only [Except.map, Except.ok.injEq] at hloop
    subst hloop
    dsimp only at h
    split at h
    · rename_i herr
      simp only [pure, Except.pure, Except.ok.injEq, Prod.mk.injEq] at h
      exact absurd h.1.2.1 herr
    · rename_i herr
      obtain ⟨_, hle, h⟩ := (Except.bind_eq_ok_iff _ _ _).mp h
      simp only [pure, Except.pure, Except.ok.injEq, Prod.mk.injEq] at h
      obtain ⟨⟨hL, -, hout⟩, hs⟩ := h
      have hle2 := (Assert_eq_ok_iff _ _).mp hle
      rw [hL] at hle2 hout
      refine ⟨Ops, t.1, sa,
        (RWCache.assemble offset Ops t.1 0 (List.replicate buffer.length 0)).2.2,
        hpre, hsl, ?_, ?_, of_decide_eq_true hle2, hout.symm⟩
      · rw [hra, ← hs]
      · have herr2 : (RWCache.assemble offset Ops t.1 0
            (List.replicate buffer.length 0)).2.1 = none := by
          simpa using herr
        apply Prod.ext
        · exact hL
        · apply Prod.ext
          · exact herr2
          · rfl

/-- The final copy of `doRead`: the first `L` bytes of the caller's buffer become the first
`L` assembled bytes, the rest of the buffer is kept. -/
theorem goCopy_take_prefix (buffer D : List Byte) (L : Nat) (hL : L ≤ buffer.length)
    (hD : D.length = buffer.length) :
    goCopy buffer (D.take L) = D.take L ++ buffer.drop L := by
  have hl : (D.take L).length = L := by
    rw [List.length_take, hD]
    exact Nat.min_eq_left hL
  simp only [goCopy, hl]
  rw [List.take_of_length_le (by rw [hl]; exact hL)]

/-- The bytes that a successful run of the loop of `doRead` assembles are, op after op, the
effective bytes of the op followed by zeros up to its `RwSize`. -/
theorem RWCache.assemble_regions {fe : FileEntry} {n offset idx : Nat} {Ops : List RWBlockOp}
    {hasW : Bool} {sA s1 : CacheState} {rs : List (Nat × Option GoError × List Byte)}
    (hcut : OpsCut fe (List.replicate n 0) offset idx 0 Ops)
    (hra : RWCache.readAll fe hasW Ops sA = .ok (rs, s1))
    (hlen : rs.length = Ops.length) (herr : ∀ r ∈ rs, r.2.1 = none) (Size : Nat) :
    (RWCache.assemble offset Ops rs Size (List.replicate n 0)).2.2 =
      RWCache.regions (Ops.zip rs) := by
  have hb := RWCache.readAll_bytes fe hasW Ops sA s1 rs hra herr
  have hz := OpsCut.zero_views hcut
  have hfacts : ∀ p ∈ Ops.zip rs, p.2.2.2.length = p.1.RwSize ∧
      ∀ i, p.2.1 ≤ i → p.2.2.2[i]? = (List.replicate p.1.RwSize (0 : Byte))[i]? := by
    intro p hp
    have hop : p.1 ∈ Ops := (List.of_mem_zip (by
      have : p = (p.1, p.2) := rfl
      rw [this] at hp
      exact hp)).1
    obtain ⟨h1, h2⟩ := hb p hp
    obtain ⟨hv, -⟩ := hz p.1 hop
    rw [hv] at h1 h2
    exact ⟨by rw [h1, List.length_replicate], h2⟩
  rw [RWCache.assemble_bytes offset Ops rs idx 0 Size (List.replicate n 0) hcut hlen herr
    (fun p hp => (hfacts p hp).1) rfl, RWCache.regions_eq_bytes Ops rs hlen hfacts]
  rfl

/-- The op of the last hit is one of the ops, paired with its result. -/
theorem RWCache.lastHit_mem {Ops : List RWBlockOp}
    {rs : List (Nat × Option GoError × List Byte)} {op : RWBlockOp} {size : Nat}
    (h : RWCache.lastHit (Ops.zip rs) = some (op, size)) : op ∈ Ops := by
  obtain ⟨front, r, back, hz, -⟩ := RWCache.lastHit_some _ op size h
  have hm : (op, r) ∈ Ops.zip rs := by
    rw [hz]
    exact List.mem_append_right _ (List.mem_cons_self _ _)
  exact (List.of_mem_zip hm).1

/-- The length that the loop of `doRead` computes is the length as the spec words it, for a
buffer of at most 512 MiB. -/
theorem RWCache.assemble_aggLen {fe : FileEntry} {n offset idx : Nat} {Ops : List RWBlockOp}
    {rs : List (Nat × Option GoError × List Byte)}
    (hcut : OpsCut fe (List.replicate n 0) offset idx 0 Ops) (hn : n ≤ 2 ^ 29)
    (hlen : rs.length = Ops.length) (herr : ∀ r ∈ rs, r.2.1 = none) (dataBuf : List Byte) :
    (RWCache.assemble offset Ops rs 0 dataBuf).1 = RWCache.aggLen offset (Ops.zip rs) := by
  rw [RWCache.assemble_size offset Ops rs 0 dataBuf hlen herr]
  unfold RWCache.aggLen
  cases hl : RWCache.lastHit (Ops.zip rs) with
  | none => rfl
  | some q =>
    obtain ⟨op, size⟩ := q
    have hop := RWCache.lastHit_mem hl
    obtain ⟨-, hgfo, -, hpos⟩ := OpsCut.zero_views hcut op hop
    have h1 : (op.GetFileOffset + U64 - offset) % U64 = op.rwBufPos := by
      rw [hgfo]
      have e : offset + op.rwBufPos + U64 - offset = op.rwBufPos + U64 := by omega
      rw [e, Nat.add_mod_right]
      exact Nat.mod_eq_of_lt (by simp only [U64]; omega)
    have h2 : op.GetFileOffset - offset = op.rwBufPos := by
      rw [hgfo]
      omega
    simp only [h1, h2]

theorem RWCache.regions_cons (p : RWBlockOp × Nat × Option GoError × List Byte)
    (zs : List (RWBlockOp × Nat × Option GoError × List Byte)) :
    RWCache.regions (p :: zs) =
      (p.2.2.2.take p.2.1 ++ List.replicate (p.1.RwSize - p.2.1) 0) ++ RWCache.regions zs := by
  simp only [RWCache.regions, List.flatMap_cons]

theorem RWCache.regions_append (xs ys : List (RWBlockOp × Nat × Option GoError × List Byte)) :
    RWCache.regions (xs ++ ys) = RWCache.regions xs ++ RWCache.regions ys := by
  induction xs with
  | nil => rfl
  | cons p xs ih =>
    rw [List.cons_append, RWCache.regions_cons, RWCache.regions_cons, ih]
    simp only [List.append_assoc]

/-- The region of an op whose sub-buffer has `RwSize` bytes has `RwSize` bytes. -/
theorem RWCache.region_length (p : RWBlockOp × Nat × Option GoError × List Byte)
    (h : p.2.2.2.length = p.1.RwSize) :
    (p.2.2.2.take p.2.1 ++ List.replicate (p.1.RwSize - p.2.1) (0 : Byte)).length =
      p.1.RwSize := by
  rw [List.length_append, List.length_take, List.length_replicate, h]
  omega

/-- The regions of the ops in front of an op fill the buffer up to the position of the
op. -/
theorem OpsCut.regions_front {fe : FileEntry} {buffer : List Byte} {offset : Nat} :
    ∀ (Ops : List RWBlockOp) (rs : List (Nat × Option GoError × List Byte)) (idx pos : Nat),
      OpsCut fe buffer offset idx pos Ops → rs.length = Ops.length →
      (∀ p ∈ Ops.zip rs, p.2.2.2.length = p.1.RwSize) →
      ∀ front op r back, Ops.zip rs = front ++ (op, r) :: back →
        pos + (RWCache.regions front).length = op.rwBufPos := by
  intro Ops
  induction Ops with
  | nil =>
    intro rs idx pos _ _ _ front op r back hz
    cases front <;> cases hz
  | cons o Ops ih =>
    intro rs idx pos hcut hlen hall front op r back hz
    cases rs with
    | nil => cases hlen
    | cons r0 rs =>
      have hzip : (o :: Ops).zip (r0 :: rs) = (o, r0) :: Ops.zip rs := rfl
      rw [hzip] at hz hall
      obtain ⟨-, -, hpos, -, -, -, -, -, hrest⟩ := hcut
      cases front with
      | nil =>
        simp only [List.nil_append, List.cons.injEq, Prod.mk.injEq] at hz
        rw [← hz.1.1]
        simp only [RWCache.regions, List.flatMap_nil, List.length_nil, Nat.add_zero]
        exact hpos.symm
      | cons f front =>
        simp only [List.cons_append, List.cons.injEq] at hz
        have hf := hall (o, r0) (List.mem_cons_self _ _)
        have := ih rs (idx + 1) (pos + o.RwSize) hrest (by simpa using hlen)
          (fun p hp => hall p (List.mem_cons_of_mem _ hp)) front op r back hz.2
        rw [RWCache.regions_cons, List.length_append, ← hz.1, RWCache.region_length _ hf]
        dsimp only at this ⊢
        omega

/-- With effective sizes of at most `RwSize`, the bytes up to the returned length lie in the
regions of the ops up to the last one with a non-zero effective size. -/
theorem RWCache.regions_upToLastHit {fe : FileEntry} {n offset idx : Nat}
    {Ops : List RWBlockOp} {rs : List (Nat × Option GoError × List Byte)}
    (hcut : OpsCut fe (List.replicate n 0) offset idx 0 Ops)
    (hlen : rs.length = Ops.length)
    (hall : ∀ p ∈ Ops.zip rs, p.2.2.2.length = p.1.RwSize)
    (hsz : ∀ p ∈ Ops.zip rs, p.2.1 ≤ p.1.RwSize) :
    RWCache.aggLen offset (Ops.zip rs) ≤
        (RWCache.regions (RWCache.upToLastHit (Ops.zip rs))).length ∧
      (RWCache.regions (Ops.zip rs)).take (RWCache.aggLen offset (Ops.zip rs)) =
        (RWCache.regions (RWCache.upToLastHit (Ops.zip rs))).take
          (RWCache.aggLen offset (Ops.zip rs)) := by
  unfold RWCache.aggLen
  cases hl : RWCache.lastHit (Ops.zip rs) with
  | none => exact ⟨Nat.zero_le _, rfl⟩
  | some q =>
    obtain ⟨op, size⟩ := q
    obtain ⟨front, r, back, hz, hr, -, -, hup⟩ := RWCache.lastHit_some _ op size hl
    have hop := RWCache.lastHit_mem hl
    obtain ⟨-, hgfo, -, -⟩ := OpsCut.zero_views hcut op hop
    have hfront := OpsCut.regions_front Ops rs idx 0 hcut hlen hall front op r back hz
    have hm : (op, r) ∈ Ops.zip rs := by
      rw [hz]
      exact List.mem_append_right _ (List.mem_cons_self _ _)
    have hrl := RWCache.region_length (op, r) (hall _ hm)
    have hs := hsz _ hm
    have hlenUp : (RWCache.regions (front ++ [(op, r)])).length =
        op.rwBufPos + op.RwSize := by
      have hnil : RWCache.regions [] = [] := rfl
      rw [RWCache.regions_append, List.length_append, RWCache.regions_cons,
        List.length_append, hrl, hnil, List.length_nil]
      dsimp only
      omega
    have hle : op.GetFileOffset - offset + size ≤
        (RWCache.regions (front ++ [(op, r)])).length := by
      rw [hlenUp, hgfo]
      dsimp only at hs
      omega
    have hsplit : Ops.zip rs = (front ++ [(op, r)]) ++ back := by
      rw [hz, List.append_assoc]
      rfl
    dsimp only
    rw [hup]
    refine ⟨hle, ?_⟩
    rw [hsplit, RWCache.regions_append, List.take_append_of_le_length hle]

/-! ## C31: the length and the bytes that `doRead` returns -/

/-- C31 (counterexample): the proxy answers the first read of four bytes with six bytes and
every later read with none. A read of eight bytes at offset 0 has two ops of `RwSize` 4 with
the effective sizes 6 and 0; it returns the length 6, but the ops up to the last one with a
non-zero effective size cover four bytes only: bytes 4 and 5 of the caller's buffer are
zeros that are no effective bytes of op 0 and belong to the region of op 1. -/
theorem C31_long_reply_returns_uncovered_bytes :
    (RWCache.doRead sampleEntry [9, 9, 9, 9, 9, 9, 9, 9] 0 sampleLongReply).map Prod.fst =
      .ok (6, none, [1, 2, 3, 4, 0, 0, 9, 9]) ∧
    (RCache.TryDoPrefetch 7 8 0 (sampleLongReply.setR
        (sampleLongReply.rCache.toBlockCache.GetFileBuffer sampleEntry true).2)).bind
      (fun sA => (RCache.Slice sampleEntry (List.replicate 8 0) 0).bind
        (fun Ops => (RWCache.readAll sampleEntry
            (sA.wCache.toBlockCache.GetFileBuffer sampleEntry false).1.isSome Ops sA).map
          (fun t => (Ops.map (fun op => (op.Index, op.RwSize)), t.1,
            (RWCache.lastHit (Ops.zip t.1)).map (fun h => (h.1.Index, h.2)),
            RWCache.aggLen 0 (Ops.zip t.1),
            RWCache.regions (RWCache.upToLastHit (Ops.zip t.1)))))) =
      .ok ([(0, 4), (1, 4)], [(6, none, [1, 2, 3, 4]), (0, none, [0, 0, 0, 0])],
        some (0, 6), 6, [1, 2, 3, 4]) :=
  ⟨rfl, rfl⟩

/-- C31 (amended): a `doRead` that returns `(L, nil)` for a non-empty buffer of at most
512 MiB, with a block size below `2^32` and an end offset below `2^64`, ran the loop over
all the ops of `Slice` without read error. With the ops paired with their results (effective
size after `MergeOp`, bytes of the sub-buffer), `L` is 0 when every effective size is 0 and
otherwise the file offset of the last op with a non-zero effective size, minus the start
offset, plus that size; `L` is at most the length of the buffer; the first `L` bytes of the
caller's buffer are the first `L` bytes of the regions of the ops, where the region of an op
is its effective bytes followed by zeros up to its `RwSize`; the bytes from `L` on are those
the caller passed. When no effective size exceeds the `RwSize` of its op, the first `L`
bytes lie in the regions of the ops up to the last one with a non-zero effective size. -/
theorem C31_read_length_and_bytes (fe : FileEntry) (buffer : List Byte) (offset : Nat)
    (s s1 : CacheState) (L : Nat) (out : List Byte)
    (hbs0 : 0 < fe.BlockSize) (hbs : fe.BlockSize < U32) (hb : buffer ≠ [])
    (hlen : buffer.length ≤ 2 ^ 29) (hw : offset + buffer.length + fe.BlockSize - 1 < U64)
    (h : RWCache.doRead fe buffer offset s = .ok ((L, none, out), s1)) :
    ∃ Ops rs sA,
      RCache.TryDoPrefetch fe.Id (buffer.length % U32) offset
        (s.setR (s.rCache.toBlockCache.GetFileBuffer fe true).2) = .ok sA ∧
      RCache.Slice fe (List.replicate buffer.length 0) offset = .ok Ops ∧
      RWCache.readAll fe (sA.wCache.toBlockCache.GetFileBuffer fe false).1.isSome Ops sA =
        .ok (rs, s1) ∧
      rs.length = Ops.length ∧ (∀ r ∈ rs, r.2.1 = none) ∧
      L = RWCache.aggLen offset (Ops.zip rs) ∧
      (RWCache.lastHit (Ops.zip rs) = none ↔ ∀ p ∈ Ops.zip rs, p.2.1 = 0) ∧
      (∀ op size, RWCache.lastHit (Ops.zip rs) = some (op, size) →
        ∃ front r back, Ops.zip rs = front ++ (op, r) :: back ∧ r.1 = size ∧ size ≠ 0 ∧
          (∀ q ∈ back, q.2.1 = 0) ∧
          RWCache.upToLastHit (Ops.zip rs) = front ++ [(op, r)]) ∧
      L ≤ buffer.length ∧ out.length = buffer.length ∧
      out.take L = (RWCache.regions (Ops.zip rs)).take L ∧
      out.drop L = buffer.drop L ∧
      ((∀ p ∈ Ops.zip rs, p.2.1 ≤ p.1.RwSize) →
        L ≤ (RWCache.regions (RWCache.upToLastHit (Ops.zip rs))).length ∧
        out.take L = (RWCache.regions (RWCache.upToLastHit (Ops.zip rs))).take L) := by
  obtain ⟨Ops, rs, sA, D, hpre, hsl, hra, hasm, hle, hout⟩ := RWCache.doRead_split h
  have hzl : (List.replicate buffer.length (0 : Byte)).length = buffer.length :=
    List.length_replicate _ _
  have hz : List.replicate buffer.length (0 : Byte) ≠ [] := by
    intro hc
    rw [hc] at hzl
    exact hb (List.length_eq_zero.mp hzl.symm)
  obtain ⟨Ops0, hsl0, hcut⟩ := WCache.Slice_cut fe (List.replicate buffer.length 0) offset
    hbs0 hbs hz (by rw [hzl]; exact hlen) (by rw [hzl]; exact hw)
  have hsl1 := Slice_read_eq fe (List.replicate buffer.length 0)
    (List.replicate buffer.length 0) offset Ops0 rfl hsl0
  rw [OpsCut.readOps_self hcut, hsl] at hsl1
  cases hsl1
  have herr0 : (RWCache.assemble offset Ops rs 0 (List.replicate buffer.length 0)).2.1 =
      none := by rw [hasm]
  obtain ⟨hrl, herr⟩ := RWCache.readAll_complete fe _ offset Ops sA s1 rs 0
    (List.replicate buffer.length 0) hra herr0
  have hL : L = RWCache.aggLen offset (Ops.zip rs) := by
    rw [← RWCache.assemble_aggLen hcut hlen hrl herr (List.replicate buffer.length 0), hasm]
  have hD : D = RWCache.regions (Ops.zip rs) := by
    rw [← RWCache.assemble_regions hcut hra hrl herr 0, hasm]
  have hDl : D.length = buffer.length := by
    have := RWCache.assemble_length offset Ops rs 0 (List.replicate buffer.length 0)
    rw [hasm, hzl] at this
    exact this
  have hDt : (D.take L).length = L := by
    rw [List.length_take, hDl]
    exact Nat.min_eq_left hle
  have hout2 : out = D.take L ++ buffer.drop L := by
    rw [hout, goCopy_take_prefix buffer D L hle hDl]
  have htake : out.take L = D.take L := by
    rw [hout2, List.take_append_of_le_length (by rw [hDt]), List.take_of_length_le
      (by rw [hDt])]
  have hdrop : out.drop L = buffer.drop L := by
    rw [hout2]
    exact List.drop_left' hDt
  have holen : out.length = buffer.length := by
    rw [hout, goCopy_length]
  refine ⟨Ops, rs, sA, hpre, hsl, hra, hrl, herr, hL, RWCache.lastHit_none_iff _,
    fun op size hh => RWCache.lastHit_some _ op size hh, hle, holen, ?_, hdrop, ?_⟩
  · rw [htake, hD]
  · intro hsz
    have hb2 := RWCache.readAll_bytes fe _ Ops sA s1 rs hra herr
    have hzv := OpsCut.zero_views hcut
    have hall : ∀ p ∈ Ops.zip rs, p.2.2.2.length = p.1.RwSize := by
      intro p hp
      have hop : p.1 ∈ Ops := (List.of_mem_zip (by
        have : p = (p.1, p.2) := rfl
        rw [this] at hp
        exact hp)).1
      rw [(hb2 p hp).1, (hzv p.1 hop).1, List.length_replicate]
    obtain ⟨h1, h2⟩ := RWCache.regions_upToLastHit hcut hrl hall hsz
    rw [← hL] at h1 h2
    exact ⟨h1, by rw [htake, hD, h2]⟩

theorem C31_read_length_and_bytes_witness :
    (0 < sampleEntry.BlockSize ∧ sampleEntry.BlockSize < U32 ∧
      ([9, 9, 9, 9, 9, 9, 9, 9] : List Byte) ≠ [] ∧
      ([9, 9, 9, 9, 9, 9, 9, 9] : List Byte).length ≤ 2 ^ 29 ∧
      0 + ([9, 9, 9, 9, 9, 9, 9, 9] : List Byte).length + sampleEntry.BlockSize - 1 < U64 ∧
      RWCache.doRead sampleEntry [9, 9, 9, 9, 9, 9, 9, 9] 0 sampleDirectSix =
        .ok ((6, none, [1, 2, 3, 4, 5, 6, 9, 9]), sampleDirectSixRead)) ∧
    ∃ Ops rs sA,
      RCache.TryDoPrefetch sampleEntry.Id
        (([9, 9, 9, 9, 9, 9, 9, 9] : List Byte).length % U32) 0
        (sampleDirectSix.setR
          (sampleDirectSix.rCache.toBlockCache.GetFileBuffer sampleEntry true).2) = .ok sA ∧
      RCache.Slice sampleEntry
        (List.replicate ([9, 9, 9, 9, 9, 9, 9, 9] : List Byte).length 0) 0 = .ok Ops ∧
      RWCache.readAll sampleEntry
        (sA.wCache.toBlockCache.GetFileBuffer sampleEntry false).1.isSome Ops sA =
        .ok (rs, sampleDirectSixRead) ∧
      rs.length = Ops.length ∧ (∀ r ∈ rs, r.2.1 = none) ∧
      6 = RWCache.aggLen 0 (Ops.zip rs) ∧
      (RWCache.lastHit (Ops.zip rs) = none ↔ ∀ p ∈ Ops.zip rs, p.2.1 = 0) ∧
      (∀ op size, RWCache.lastHit (Ops.zip rs) = some (op, size) →
        ∃ front r back, Ops.zip rs = front ++ (op, r) :: back ∧ r.1 = size ∧ size ≠ 0 ∧
          (∀ q ∈ back, q.2.1 = 0) ∧
          RWCache.upToLastHit (Ops.zip rs) = front ++ [(op, r)]) ∧
      6 ≤ ([9, 9, 9, 9, 9, 9, 9, 9] : List Byte).length ∧
      ([1, 2, 3, 4, 5, 6, 9, 9] : List Byte).length =
        ([9, 9, 9, 9, 9, 9, 9, 9] : List Byte).length ∧
      ([1, 2, 3, 4, 5, 6, 9, 9] : List Byte).take 6 =
        (RWCache.regions (Ops.zip rs)).take 6 ∧
      ([1, 2, 3, 4, 5, 6, 9, 9] : List Byte).drop 6 =
        ([9, 9, 9, 9, 9, 9, 9, 9] : List Byte).drop 6 ∧
      ((∀ p ∈ Ops.zip rs, p.2.1 ≤ p.1.RwSize) →
        6 ≤ (RWCache.regions (RWCache.upToLastHit (Ops.zip rs))).length ∧
        ([1, 2, 3, 4, 5, 6, 9, 9] : List Byte).take 6 =
          (RWCache.regions (RWCache.upToLastHit (Ops.zip rs))).take 6) :=
  ⟨⟨by decide, by decide, by decide, by decide, by decide, rfl⟩,
    C31_read_length_and_bytes sampleEntry [9, 9, 9, 9, 9, 9, 9, 9] 0 sampleDirectSix
      sampleDirectSixRead 6 [1, 2, 3, 4, 5, 6, 9, 9] (by decide) (by decide) (by decide)
      (by decide) (by decide) rfl⟩

/-! ## C38: the assertions on the read path -/

/-- The byte store never replies to a read with more bytes than requested. -/
theorem byteStore_read_length (init : Nat → List Byte) (h : List ProxyCall)
    (id offset size : Nat) :
    (byteStore init h (ProxyCall.Read id offset size)).Data.length ≤ size := by
  simp only [byteStore, List.length_take]
  exact Nat.min_le_left _ _

/-- C38 (code defect): an assertion on the read path fails in front of a proxy that never
replies with more bytes than requested. The proxy is the byte store with empty files. The
empty write at offset 1 returns `(0, nil)` and leaves a write buffer with the empty range
`[1, 1)` attached to block 0. The read of four bytes at offset 0 that follows has the one op
`[0, 4)` of block 0: `ReadOp` returns `(0, nil)`, so `dataSize ≤ op.RwSize` holds, and
`MergeOp` finds the buffer, takes the copy branch (neither `1 + 0 ≤ 0` nor `0 + 4 ≤ 1`) with
`cpOffset = cpTailOffset = 1` and fails `Assert(cpOffset < cpTailOffset)`: the read does not
return. -/
theorem C38_read_asserts_after_empty_write :
    (∀ (h : List ProxyCall) (id offset size : Nat),
      (sampleState.proxyClient.remote h (ProxyCall.Read id offset size)).Data.length ≤ size) ∧
    RWCache.Write sampleEntry [] 1 sampleState = .ok ((0, none), sampleAfterEmptyWrite) ∧
    RWCache.Read sampleEntry [0, 0, 0, 0] 0 sampleAfterEmptyWrite = .error Fault.assert ∧
    (RCache.TryDoPrefetch 7 4 0 (sampleAfterEmptyWrite.setR
        (sampleAfterEmptyWrite.rCache.toBlockCache.GetFileBuffer sampleEntry true).2)).bind
      (fun sA => (RCache.Slice sampleEntry [0, 0, 0, 0] 0).bind
        (fun Ops => match Ops with
          | [op] =>
            (sA.onW (fun cache => cache.RLockBuffer 7 op.Index)).bind
              (fun s1 => (s1.onR (fun cache => cache.RLockBuffer 7 op.Index)).bind
                (fun s2 => (RCache.ReadOp sampleEntry 7 op s2).bind
                  (fun r => (r.2.onR (fun cache => cache.RUnLockBuffer 7 op.Index)).map
                    (fun s3 => ((sA.wCache.toBlockCache.GetFileBuffer sampleEntry false).1.isSome,
                      op.Index, op.RwOffset, op.RwSize, r.1,
                      (s3.wCache.Cache.get 7).bind (fun fb => fb.GetBuffer op.Index),
                      WCache.MergeOp 7 { op with rwBuf := r.1.2.2 } r.1.1 s3)))))
          | _ => .error Fault.runtime)) =
      .ok (true, 0, 0, 4, (0, none, [0, 0, 0, 0]), some sampleEmptyBuffer,
        .error Fault.assert) ∧
    sampleEmptyBuffer.Offset = 1 ∧ sampleEmptyBuffer.Len = 0 := by
  refine ⟨?_, rfl, rfl, rfl, rfl, rfl⟩
  intro h id offset size
  exact byteStore_read_length _ h id offset size

end Libfs
